import Mathlib

/-!
# USB host-controller transfer core (linux-2.6.32)

A shallow embedding of the transfer-management core:

* `drivers/usb/host/ohci-q.c`  : ED scheduling, bandwidth balancing, linking into and
  unlinking from the periodic table, the ED of an endpoint (`ed_get`), TD filling,
  done-list retirement, the pending unlinks (`finish_unlinks`);
* `drivers/usb/host/ohci-mem.c`: the TD reverse-mapping hash, `ed_alloc`, `td_alloc`,
  `ed_free`;
* `drivers/usb/core/hcd.c`     : the endpoint queue (link / check-unlink / give back),
  DMA mapping with bounce buffers, submission, unlinking, flushing an endpoint, the
  string descriptors of the root hub (`ascii2desc`), the bus numbers
  (`usb_register_bus`, `usb_deregister_bus`), the bus time of a transfer
  (`usb_calc_bus_time`);
* `drivers/usb/core/buffer.c`  : the size classes of the buffer pools;
* `drivers/usb/core/urb.c`     : anchors, `usb_kill_urb`, `usb_kill_anchored_urbs`,
  `usb_poison_urb` and `usb_unpoison_urb`, the polling interval of a periodic URB in
  `usb_submit_urb`;
* `mm/dmapool.c`               : pool creation, page initialisation, block allocation.

Conventions of the embedding

* C objects live in heaps indexed by natural numbers (`Nat → ed`, `Nat → td`, ...);
  a C pointer is an `Option Nat`, `none` being `NULL`.
* `struct list_head` lists (`td_list`, `urb_list`, `pending`) are kernel-library
  sequences and are embedded as `List`; the hand-linked chains of the driver
  (`ed_next`, `td_hash`, `next_dl_td`, `hwNextTD`) stay pointer fields.
* A loop that walks a pointer chain takes `fuel`; a function returns `none` when it does
  not return normally (the walk never ends, or a `NULL` pointer is dereferenced).
* `int` is `Int`; the load table never gets near the 32-bit range.  Hardware words
  (`__hc32`) are naturals below `2^32`; `cpu_to_hc32` and `hc32_to_cpu` are the identity
  (native byte order).  A bus address (`dma_addr_t`) is a natural number, and a transfer
  buffer does not wrap around the address space.  The `u32` counter `urb->actual_length`
  wraps at `2^32` (`wrap32`); the other lengths are natural numbers.
* Code outside the modelled files (the completion callback, the allocators, the DMA
  mapping layer, the chipset quirks) is not run: each call is recorded in a trace.
  Where usbcore needs an answer from such code, the code is a parameter: `platform` for
  the allocators and the mapping layer, `hc_driver` for the callbacks of the controller
  driver.
* A kernel list that is written behind the back of the list library (`INIT_LIST_HEAD` on
  an entry that is still linked) is no sequence any more: the function returns `none`.
* A caller that sleeps (`wait_event`) lets the rest of the system run: `env` is one step
  of it, and `hc_step` is the controller that completes URBs whose unlink was requested.
  For two concurrent callers the statements of the function are interleaved
  (`kill2_run`).
-/

namespace Usb

/-! ## Constants -/

/-- Modelled from the spec: errno values of `include/asm-generic/errno*.h` (not under
src/); the spec names them "rejected", "disabled", "unreachable", "bandwidth-exhausted". -/
def EPERM : Int := 1
/-- Modelled from the spec: errno value, see `EPERM`. -/
def ENOENT : Int := 2
/-- Modelled from the spec: errno value, see `EPERM`. -/
def ENOMEM : Int := 12
/-- Modelled from the spec: errno value, see `EPERM`. -/
def EBUSY : Int := 16
/-- Modelled from the spec: errno value, see `EPERM`. -/
def EINVAL : Int := 22
/-- Modelled from the spec: errno value, see `EPERM`. -/
def ENOSPC : Int := 28
/-- Modelled from the spec: errno value, see `EPERM`. -/
def EIDRM : Int := 43
/-- Modelled from the spec: errno value, see `EPERM`. -/
def ESHUTDOWN : Int := 108
/-- Modelled from the spec: errno value, see `EPERM`. -/
def EHOSTUNREACH : Int := 113
/-- Modelled from the spec: errno value, see `EPERM`. -/
def EINPROGRESS : Int := 115
/-- Modelled from the spec: errno value, see `EPERM`. -/
def EREMOTEIO : Int := 121

/-- Modelled from the spec: `NUM_INTS` of ohci.h (not under src/), the number of slots of
the periodic table ("32ms" in the comment of `balance`). -/
def NUM_INTS : Nat := 32

/-- Modelled from the spec: ED states of ohci.h (not under src/): "idle". -/
def ED_IDLE : Nat := 0
/-- Modelled from the spec: ED states of ohci.h (not under src/): "unlink-pending". -/
def ED_UNLINK : Nat := 1
/-- Modelled from the spec: ED states of ohci.h (not under src/): "scheduled". -/
def ED_OPER : Nat := 2

/-- Modelled from the spec: transfer types of `include/linux/usb.h` (not under src/). -/
def PIPE_ISOCHRONOUS : Nat := 0
/-- Modelled from the spec: transfer types of `include/linux/usb.h` (not under src/). -/
def PIPE_INTERRUPT : Nat := 1
/-- Modelled from the spec: transfer types of `include/linux/usb.h` (not under src/). -/
def PIPE_CONTROL : Nat := 2
/-- Modelled from the spec: transfer types of `include/linux/usb.h` (not under src/). -/
def PIPE_BULK : Nat := 3

/-- Modelled from the spec: `ED_SKIP` bit of `ed->hwINFO`, ohci.h (not under src/). -/
def ED_SKIP : Nat := 0x4000
/-- Modelled from the spec: `ED_DEQUEUE` bit of `ed->hwINFO`, ohci.h (not under src/). -/
def ED_DEQUEUE : Nat := 0x8000000
/-- Modelled from the spec: `ED_C` (toggle carry) bit of `ed->hwHeadP`, ohci.h. -/
def ED_C : Nat := 0x2
/-- Modelled from the spec: `ED_H` (halted) bit of `ed->hwHeadP`, ohci.h. -/
def ED_H : Nat := 0x1

/-- Modelled from the spec: control-register bits of ohci.h (not under src/). -/
def OHCI_CTRL_PLE : Nat := 0x4
/-- Modelled from the spec: control-register bits of ohci.h (not under src/). -/
def OHCI_CTRL_IE : Nat := 0x8
/-- Modelled from the spec: control-register bits of ohci.h (not under src/). -/
def OHCI_CTRL_CLE : Nat := 0x10
/-- Modelled from the spec: control-register bits of ohci.h (not under src/). -/
def OHCI_CTRL_BLE : Nat := 0x20
/-- Modelled from the spec: command-status bits of ohci.h (not under src/). -/
def OHCI_CLF : Nat := 0x2
/-- Modelled from the spec: command-status bits of ohci.h (not under src/). -/
def OHCI_BLF : Nat := 0x4
/-- Modelled from the spec: start-of-frame interrupt bit of ohci.h (not under src/). -/
def OHCI_INTR_SF : Nat := 0x4
/-- Modelled from the spec: `OHCI_QUIRK_ZFMICRO` of ohci.h (not under src/). -/
def OHCI_QUIRK_ZFMICRO : Nat := 0x20

/-- A 32-bit word with the bits of `m` cleared: the C expression `x & ~m` on `u32`. -/
def clear_bits (x m : Nat) : Nat := x &&& (0xFFFFFFFF ^^^ m)

/-- Heap update: `upd f i v` is `f` with cell `i` overwritten by `v`. -/
def upd {α : Type} (f : Nat → α) (i : Nat) (v : α) : Nat → α :=
  fun j => if j = i then v else f j

/-! ## Data model -/

/-- The fields of `struct ed` (ohci.h) that ohci-q.c reads or writes. -/
structure ed where
  hwINFO : Nat := 0
  hwTailP : Nat := 0
  hwHeadP : Nat := 0
  hwNextED : Nat := 0
  dma : Nat := 0
  dummy : Option Nat := none
  ed_next : Option Nat := none
  ed_prev : Option Nat := none
  td_list : List Nat := []
  state : Nat := 0
  type : Nat := 0
  branch : Nat := 0
  interval : Nat := 0
  load : Nat := 0
  last_iso : Nat := 0
  tick : Nat := 0

/-- The registers of `struct ohci_regs` that ohci-q.c writes. -/
inductive ohci_reg where
  | control
  | cmdstatus
  | intrstatus
  | intrenable
  | ed_controlhead
  | ed_controlcurrent
  | ed_bulkhead
  | ed_bulkcurrent
deriving DecidableEq, Repr

/-- The scheduler part of `struct ohci_hcd` together with the HCCA and the ED heap.
`mmio` is the sequence of `ohci_writel` calls, oldest first. -/
structure ohci_sched where
  eds : Nat → ed
  int_table : Nat → Nat
  periodic : Nat → Option Nat
  load : Nat → Int
  ed_controltail : Option Nat := none
  ed_bulktail : Option Nat := none
  ed_rm_list : Option Nat := none
  hc_control : Nat := 0
  flags : Nat := 0
  eds_scheduled : Nat := 0
  unlink_watchdog : Bool := false
  frame_no : Nat := 0
  bandwidth_allocated : Int := 0
  mmio : List (ohci_reg × Nat) := []

/-- The C call `ohci_writel (ohci, v, &ohci->regs->r)`. -/
def ohci_writel (ohci : ohci_sched) (v : Nat) (r : ohci_reg) : ohci_sched :=
  { ohci with mmio := ohci.mmio ++ [(r, v)] }

/-- The C macro `quirk_zfmicro(ohci)`. -/
def quirk_zfmicro (ohci : ohci_sched) : Bool :=
  ohci.flags &&& OHCI_QUIRK_ZFMICRO != 0

/-- Writes `f (ohci.eds e)` back to ED `e`. -/
def ohci_sched.mod_ed (ohci : ohci_sched) (e : Nat) (f : ed → ed) : ohci_sched :=
  { ohci with eds := upd ohci.eds e (f (ohci.eds e)) }

/-! ## ohci-q.c: bandwidth balancing and periodic linking -/

/-- The inner loop of `balance`:
`for (j = i; j < NUM_INTS; j += interval) if (load[j] + load > 900) break;`
returning the final `j`.  `none`: the loop does not end (only for `interval = 0`). -/
def balance_scan (tab : Nat → Int) (interval : Nat) (load : Int) : Nat → Nat → Option Nat
  | 0, _ => none
  | fuel + 1, j =>
    if j < NUM_INTS then
      if tab j + load > 900 then some j
      else balance_scan tab interval load fuel (j + interval)
    else some j

/-- The outer loop of `balance`: `for (i = 0; i < interval; i++) { ... }` carrying
`branch`. -/
def balance_loop (tab : Nat → Int) (interval : Nat) (load : Int) :
    Nat → Nat → Int → Option Int
  | 0, _, _ => none
  | fuel + 1, i, branch =>
    if i < interval then
      if branch < 0 ∨ tab branch.toNat > tab i then
        match balance_scan tab interval load (NUM_INTS + 1) i with
        | none => none
        | some j =>
          if j < NUM_INTS then balance_loop tab interval load fuel (i + 1) branch
          else balance_loop tab interval load fuel (i + 1) (i : Int)
      else balance_loop tab interval load fuel (i + 1) branch
    else some branch

/-- The C function `balance (ohci, interval, load)` on the load table `tab = ohci->load`.
The `int interval` receives the `u16` field `ed->interval`, hence a natural number.  Both
loops run at most `NUM_INTS` times, which is the fuel they get. -/
def balance (tab : Nat → Int) (interval : Nat) (load : Int) : Option Int :=
  let interval := if interval > NUM_INTS then NUM_INTS else interval
  balance_loop tab interval load (NUM_INTS + 1) 0 (-ENOSPC)

/-- Where the cursor pair `struct ed **prev` / `__hc32 *prev_p` of `periodic_link` and
`periodic_unlink` points: at slot `i` of the tables (`&ohci->periodic[i]`,
`&ohci->hcca->int_table[i]`) or at the link fields of an ED (`&e->ed_next`,
`&e->hwNextED`). -/
inductive edref where
  | slot (i : Nat)
  | node (e : Nat)
deriving DecidableEq, Repr

/-- The C expression `*prev`. -/
def edref.get (ohci : ohci_sched) : edref → Option Nat
  | .slot i => ohci.periodic i
  | .node e => (ohci.eds e).ed_next

/-- The C expression `*prev_p`. -/
def edref.get_p (ohci : ohci_sched) : edref → Nat
  | .slot i => ohci.int_table i
  | .node e => (ohci.eds e).hwNextED

/-- The C assignment `*prev = v`. -/
def edref.set (ohci : ohci_sched) (v : Option Nat) : edref → ohci_sched
  | .slot i => { ohci with periodic := upd ohci.periodic i v }
  | .node e => ohci.mod_ed e (fun x => { x with ed_next := v })

/-- The C assignment `*prev_p = v`. -/
def edref.set_p (ohci : ohci_sched) (v : Nat) : edref → ohci_sched
  | .slot i => { ohci with int_table := upd ohci.int_table i v }
  | .node e => ohci.mod_ed e (fun x => { x with hwNextED := v })

/-- The `while (here && ed != here)` walk of `periodic_link`; returns the final
`(prev, here)`. -/
def periodic_link_walk (ohci : ohci_sched) (e : Nat) :
    Nat → edref → Option Nat → Option (edref × Option Nat)
  | 0, _, _ => none
  | fuel + 1, prev, here =>
    match here with
    | none => some (prev, none)
    | some h =>
      if e = h then some (prev, here)
      else if (ohci.eds e).interval > (ohci.eds h).interval then some (prev, here)
      else periodic_link_walk ohci e fuel (.node h) (ohci.eds h).ed_next

/-- The body of `if (ed != here) { ... }` in `periodic_link`: the ED is spliced in front
of `here`, in the software chain (`*prev = ed`) and in the hardware chain
(`*prev_p = ed->dma`). -/
def periodic_link_insert (ohci : ohci_sched) (e : Nat) (prev : edref) (here : Option Nat) :
    ohci_sched :=
  if some e ≠ here then
    let o1 := ohci.mod_ed e (fun x => { x with ed_next := here })
    let o2 :=
      if here.isSome then o1.mod_ed e (fun x => { x with hwNextED := prev.get_p o1 }) else o1
    let o3 := prev.set o2 (some e)
    prev.set_p o3 (o3.eds e).dma
  else ohci

/-- The C statement `ohci->load [i] += v`. -/
def add_load (ohci : ohci_sched) (i : Nat) (v : Int) : ohci_sched :=
  { ohci with load := upd ohci.load i (ohci.load i + v) }

/-- One iteration of the `for` loop of `periodic_link`, for slot `i`. -/
def periodic_link_slot (fuel : Nat) (ohci : ohci_sched) (e i : Nat) : Option ohci_sched :=
  match periodic_link_walk ohci e fuel (.slot i) (ohci.periodic i) with
  | none => none
  | some (prev, here) =>
    let o1 := periodic_link_insert ohci e prev here
    some (add_load o1 i (o1.eds e).load)

/-- The loop `for (i = ed->branch; i < NUM_INTS; i += ed->interval)` of `periodic_link`. -/
def periodic_link_loop (fuel : Nat) (e : Nat) : Nat → ohci_sched → Nat → Option ohci_sched
  | 0, _, _ => none
  | n + 1, ohci, i =>
    if i < NUM_INTS then
      match periodic_link_slot fuel ohci e i with
      | none => none
      | some o1 => periodic_link_loop fuel e n o1 (i + (o1.eds e).interval)
    else some ohci

/-- The C statement `ohci_to_hcd(ohci)->self.bandwidth_allocated += v`. -/
def add_bandwidth (ohci : ohci_sched) (v : Int) : ohci_sched :=
  { ohci with bandwidth_allocated := ohci.bandwidth_allocated + v }

/-- The C function `periodic_link (ohci, ed)`. -/
def periodic_link (fuel : Nat) (ohci : ohci_sched) (e : Nat) : Option ohci_sched :=
  match periodic_link_loop fuel e (NUM_INTS + 1) ohci (ohci.eds e).branch with
  | none => none
  | some o1 =>
    some (add_bandwidth o1 (((o1.eds e).load : Int) / ((o1.eds e).interval : Int)))

/-- The head of `ed_schedule`: the ED is marked `ED_OPER` and its links are cleared,
then `quirk_zfmicro(ohci) && ed->type == PIPE_INTERRUPT && !(ohci->eds_scheduled++)`
arms the unlink watchdog. -/
def ed_schedule_start (ohci : ohci_sched) (e : Nat) : ohci_sched :=
  let o1 := ohci.mod_ed e (fun x =>
    { x with state := ED_OPER, ed_prev := none, ed_next := none, hwNextED := 0 })
  if quirk_zfmicro o1 ∧ (o1.eds e).type = PIPE_INTERRUPT then
    { o1 with
      eds_scheduled := o1.eds_scheduled + 1,
      unlink_watchdog := if o1.eds_scheduled = 0 then true else o1.unlink_watchdog }
  else o1

/-- The `case PIPE_CONTROL:` arm of `ed_schedule`. -/
def ed_schedule_control (ohci : ohci_sched) (e : Nat) : ohci_sched :=
  let tail : Option Nat := ohci.ed_controltail
  let o1 : ohci_sched :=
    match tail with
    | none => ohci_writel ohci (ohci.eds e).dma .ed_controlhead
    | some t =>
      (ohci.mod_ed t (fun x => { x with ed_next := some e })).mod_ed t
        (fun x => { x with hwNextED := (ohci.eds e).dma })
  let o2 := o1.mod_ed e (fun x => { x with ed_prev := tail })
  let o3 : ohci_sched :=
    if tail.isNone && o2.ed_rm_list.isNone then
      let o := { o2 with hc_control := o2.hc_control ||| OHCI_CTRL_CLE }
      ohci_writel (ohci_writel o 0 .ed_controlcurrent) o.hc_control .control
    else o2
  { o3 with ed_controltail := some e }

/-- The `case PIPE_BULK:` arm of `ed_schedule`. -/
def ed_schedule_bulk (ohci : ohci_sched) (e : Nat) : ohci_sched :=
  let tail : Option Nat := ohci.ed_bulktail
  let o1 : ohci_sched :=
    match tail with
    | none => ohci_writel ohci (ohci.eds e).dma .ed_bulkhead
    | some t =>
      (ohci.mod_ed t (fun x => { x with ed_next := some e })).mod_ed t
        (fun x => { x with hwNextED := (ohci.eds e).dma })
  let o2 := o1.mod_ed e (fun x => { x with ed_prev := tail })
  let o3 : ohci_sched :=
    if tail.isNone && o2.ed_rm_list.isNone then
      let o := { o2 with hc_control := o2.hc_control ||| OHCI_CTRL_BLE }
      ohci_writel (ohci_writel o 0 .ed_bulkcurrent) o.hc_control .control
    else o2
  { o3 with ed_bulktail := some e }

/-- The `default:` arm of `ed_schedule` (interrupt and isochronous EDs). -/
def ed_schedule_periodic (fuel : Nat) (ohci : ohci_sched) (e : Nat) :
    Option (Int × ohci_sched) :=
  match balance ohci.load (ohci.eds e).interval (ohci.eds e).load with
  | none => none
  | some branch =>
    if branch < 0 then some (branch, ohci)
    else
      match periodic_link fuel (ohci.mod_ed e (fun x => { x with branch := branch.toNat })) e with
      | none => none
      | some o1 => some (0, o1)

/-- The C function `ed_schedule (ohci, ed)`; the result is the return value and the new
state. -/
def ed_schedule (fuel : Nat) (ohci : ohci_sched) (e : Nat) : Option (Int × ohci_sched) :=
  let o1 := ed_schedule_start ohci e
  if (o1.eds e).type = PIPE_CONTROL then some (0, ed_schedule_control o1 e)
  else if (o1.eds e).type = PIPE_BULK then some (0, ed_schedule_bulk o1 e)
  else ed_schedule_periodic fuel o1 e

/-! ## usbcore data model (drivers/usb/core) -/

/-- Modelled from the spec: controller states of hcd.h (not under src/): "halted". -/
def HC_STATE_HALT : Nat := 0
/-- Modelled from the spec: controller states of hcd.h (not under src/): "running". -/
def HC_STATE_RUNNING : Nat := 0x01
/-- Modelled from the spec: controller states of hcd.h (not under src/): "quiescing". -/
def HC_STATE_QUIESCING : Nat := 0x85
/-- Modelled from the spec: controller states of hcd.h (not under src/): "resuming". -/
def HC_STATE_RESUMING : Nat := 0x84
/-- Modelled from the spec: controller states of hcd.h (not under src/): "suspended". -/
def HC_STATE_SUSPENDED : Nat := 0x04
/-- Modelled from the spec: the macro `HC_IS_RUNNING(state)` of hcd.h (not under src/). -/
def HC_IS_RUNNING (state : Nat) : Bool := state &&& 0x01 != 0
/-- Modelled from the spec: `HCD_FLAG_SAW_IRQ` of hcd.h (not under src/), used as a bit
number by `test_bit` and `set_bit`. -/
def HCD_FLAG_SAW_IRQ : Nat := 2
/-- Modelled from the spec: `HCD_LOCAL_MEM` of hcd.h (not under src/): the controller
needs bounce buffers in its private memory window. -/
def HCD_LOCAL_MEM : Nat := 0x0002

/-- Modelled from the spec: `urb->transfer_flags` bits of `include/linux/usb.h` (not
under src/): "treat-short-packet-as-error". -/
def URB_SHORT_NOT_OK : Nat := 0x0001
/-- Modelled from the spec: `urb->transfer_flags` bit, "skip-DMA-mapping" (buffer). -/
def URB_NO_TRANSFER_DMA_MAP : Nat := 0x0004
/-- Modelled from the spec: `urb->transfer_flags` bit, "skip-DMA-mapping" (setup). -/
def URB_NO_SETUP_DMA_MAP : Nat := 0x0008
/-- Modelled from the spec: `urb->transfer_flags` bit,
"zero-length-packet-on-exact-multiple". -/
def URB_ZERO_PACKET : Nat := 0x0040
/-- Modelled from the spec: `urb->transfer_flags` bit of `include/linux/usb.h`. -/
def URB_NO_INTERRUPT : Nat := 0x0080
/-- Modelled from the spec: `urb->transfer_flags` bit, "buffer-owned-by-request". -/
def URB_FREE_BUFFER : Nat := 0x0100
/-- Modelled from the spec: `urb->transfer_flags` bit of `include/linux/usb.h`. -/
def URB_DIR_IN : Nat := 0x0200
/-- Modelled from the spec: `sizeof(struct usb_ctrlrequest)`, the 8-byte setup packet. -/
def sizeof_usb_ctrlrequest : Nat := 8
/-- Modelled from the spec: `sizeof(unsigned long)` and of a pointer on the 32-bit ARM
target of this tree. -/
def sizeof_ulong : Nat := 4
/-- Modelled from the spec: `PAGE_SIZE` of the ARM target (asm/page.h, not under src/). -/
def PAGE_SIZE : Nat := 4096

/-- One entry of `urb->iso_frame_desc[]`. -/
structure usb_iso_packet_descriptor where
  offset : Nat := 0
  length : Nat := 0
  actual_length : Nat := 0
  status : Int := 0

/-- The fields of `struct urb` (`include/linux/usb.h`) used by the core.  The pipe word
is kept unpacked: `pipe_type` is `usb_pipetype(pipe)`, `pipe_out` is `usb_pipeout(pipe)`,
`pipe_endpoint` is `usb_pipeendpoint(pipe)`.  Membership in the endpoint queue
(`urb_list`) and in an anchor (`anchor_list`) is held by the owning list.  `dev` and `ep`
are the objects that `urb->dev` and `urb->ep` point to; `has_dev` and `has_ep` tell
whether these pointers are set (not `NULL`). -/
structure urb where
  kref : Int := 1
  hcpriv : Option Nat := none
  use_count : Int := 0
  reject : Int := 0
  unlinked : Int := 0
  anchor : Option Nat := none
  dev : Nat := 0
  ep : Nat := 0
  has_dev : Bool := true
  has_ep : Bool := true
  pipe_type : Nat := 0
  pipe_out : Bool := false
  pipe_endpoint : Nat := 0
  status : Int := 0
  transfer_flags : Nat := 0
  transfer_buffer : Nat := 0
  transfer_dma : Nat := 0
  transfer_buffer_length : Nat := 0
  actual_length : Nat := 0
  setup_packet : Nat := 0
  setup_dma : Nat := 0
  start_frame : Int := 0
  number_of_packets : Nat := 0
  interval : Int := 0
  iso_frame_desc : Nat → usb_iso_packet_descriptor := fun _ => {}

/-- The fields of `struct usb_host_endpoint` used by the core and by `ed_get`;
`bmAttributes`, `bEndpointAddress` and `wMaxPacketSize` are the fields of `ep->desc`, the
last one in CPU byte order. -/
structure usb_host_endpoint where
  bmAttributes : Nat := 0
  bEndpointAddress : Nat := 0
  wMaxPacketSize : Nat := 0
  urb_list : List Nat := []
  hcpriv : Option Nat := none
  enabled : Int := 0

/-- The fields of `struct usb_device` used by the core; `parent = none` is the root hub.
`toggle_in` / `toggle_out` are the two words of `dev->toggle[]`. -/
structure usb_device where
  parent : Option Nat := none
  can_submit : Bool := false
  urbnum : Int := 0
  toggle_in : Nat := 0
  toggle_out : Nat := 0
  maxchild : Nat := 0

/-- The fields of `struct usb_anchor`. -/
structure usb_anchor where
  urb_list : List Nat := []
  poisoned : Bool := false

/-- What the core hands to code outside the modelled files, in call order. -/
inductive core_event where
  | complete (u : Nat) (seen : urb)
  | wake_up_kill_queue
  | wake_up_anchor (a : Nat)
  | dma_unmap_single (dma size : Nat) (from_device : Bool)
  | kfree (addr : Nat)
  | dma_pool_free (pool addr dma : Nat)
  | dma_free_coherent (size addr dma : Nat)
  | urb_destroy (u : Nat)
  | kmalloc (size : Nat)
  | dma_pool_alloc (pool : Nat)
  | dma_alloc_coherent (size : Nat)
  | dma_map_single (addr size : Nat) (from_device : Bool)
  | urb_enqueue (u : Nat)
  | urb_dequeue (u : Nat) (status : Int)
  | mod_timer (now : Bool)
  | del_timer

/-- The controller-independent state: `struct usb_hcd` with its bus (`hcd->self`), the
heaps of URBs, endpoints, devices and anchors, the byte-addressed memory holding the
transfer buffers, and the trace of outgoing calls. -/
structure usb_hcd where
  state : Nat := 0
  flags : Nat := 0
  uses_dma : Bool := false
  dma_mask : Bool := false
  driver_flags : Nat := 0
  bandwidth_int_reqs : Int := 0
  bandwidth_isoc_reqs : Int := 0
  status_urb : Option Nat := none
  uses_new_polling : Bool := false
  poll_pending : Bool := false
  urbs : Nat → urb
  eps : Nat → usb_host_endpoint
  devs : Nat → usb_device
  anchors : Nat → usb_anchor
  mem : Nat → Nat
  trace : List core_event := []

/-- Writes `f (hcd.urbs u)` back to URB `u`. -/
def usb_hcd.mod_urb (hcd : usb_hcd) (u : Nat) (f : urb → urb) : usb_hcd :=
  { hcd with urbs := upd hcd.urbs u (f (hcd.urbs u)) }

/-- Writes `f (hcd.eps p)` back to endpoint `p`. -/
def usb_hcd.mod_ep (hcd : usb_hcd) (p : Nat) (f : usb_host_endpoint → usb_host_endpoint) :
    usb_hcd :=
  { hcd with eps := upd hcd.eps p (f (hcd.eps p)) }

/-- Appends an outgoing call to the trace. -/
def usb_hcd.emit (hcd : usb_hcd) (ev : core_event) : usb_hcd :=
  { hcd with trace := hcd.trace ++ [ev] }

/-- The C function `is_root_hub (udev)`. -/
def is_root_hub (d : usb_device) : Bool := d.parent.isNone

/-- The C function `usb_endpoint_xfer_control (&ep->desc)`. -/
def usb_endpoint_xfer_control (p : usb_host_endpoint) : Bool := p.bmAttributes &&& 3 == 0

/-- The C function `usb_endpoint_xfer_int (&ep->desc)`. -/
def usb_endpoint_xfer_int (p : usb_host_endpoint) : Bool := p.bmAttributes &&& 3 == 3

/-- The C function `usb_endpoint_num (&ep->desc)`. -/
def usb_endpoint_num (p : usb_host_endpoint) : Nat := p.bEndpointAddress &&& 0x0f

/-- The C function `usb_urb_dir_in (urb)`. -/
def usb_urb_dir_in (x : urb) : Bool := x.transfer_flags &&& URB_DIR_IN == URB_DIR_IN

/-! ## hcd.c: the endpoint queue -/

/-- The C function `usb_hcd_link_urb_to_ep (hcd, urb)`. -/
def usb_hcd_link_urb_to_ep (hcd : usb_hcd) (u : Nat) : Int × usb_hcd :=
  if (hcd.urbs u).reject ≠ 0 then (-EPERM, hcd)
  else if (hcd.eps (hcd.urbs u).ep).enabled = 0 then (-ENOENT, hcd)
  else if (hcd.devs (hcd.urbs u).dev).can_submit = false then (-EHOSTUNREACH, hcd)
  else if hcd.state = HC_STATE_RUNNING ∨ hcd.state = HC_STATE_RESUMING then
    let h1 := hcd.mod_urb u (fun x => { x with unlinked := 0 })
    (0, h1.mod_ep (h1.urbs u).ep (fun p => { p with urb_list := p.urb_list ++ [u] }))
  else (-ESHUTDOWN, hcd)

/-- The search loop of `usb_hcd_check_unlink_urb`:
`list_for_each(tmp, &urb->ep->urb_list) if (tmp == &urb->urb_list) break;`
followed by the test `tmp == &urb->urb_list`. -/
def urb_list_find (u : Nat) : List Nat → Bool
  | [] => false
  | x :: rest => if x = u then true else urb_list_find u rest

/-- The C function `usb_hcd_check_unlink_urb (hcd, urb, status)`. -/
def usb_hcd_check_unlink_urb (hcd : usb_hcd) (u : Nat) (status : Int) : Int × usb_hcd :=
  if urb_list_find u (hcd.eps (hcd.urbs u).ep).urb_list = false then (-EIDRM, hcd)
  else if (hcd.urbs u).unlinked ≠ 0 then (-EBUSY, hcd)
  else
    let h1 := hcd.mod_urb u (fun x => { x with unlinked := status })
    if h1.flags.testBit HCD_FLAG_SAW_IRQ = false ∧ is_root_hub (h1.devs (h1.urbs u).dev) = false
    then (0, { h1 with flags := h1.flags ||| (1 <<< HCD_FLAG_SAW_IRQ) })
    else (0, h1)

/-- The C function `usb_hcd_unlink_urb_from_ep (hcd, urb)`: `list_del_init`. -/
def usb_hcd_unlink_urb_from_ep (hcd : usb_hcd) (u : Nat) : usb_hcd :=
  hcd.mod_ep (hcd.urbs u).ep (fun p => { p with urb_list := p.urb_list.erase u })

/-- The C call `get_unaligned((unsigned long *) a)`: the little-endian word at `a`. -/
def get_unaligned (mem : Nat → Nat) (a : Nat) : Nat :=
  mem a + 256 * mem (a + 1) + 65536 * mem (a + 2) + 16777216 * mem (a + 3)

/-- The C call `memcpy (dst, src, n)`. -/
def memcpy (mem : Nat → Nat) (dst src n : Nat) : Nat → Nat :=
  fun a => if dst ≤ a ∧ a < dst + n then mem (src + (a - dst)) else mem a

/-- Modelled from the spec: `HCD_BUFFER_POOLS` of hcd.h (not under src/), the number of
entries of `pool_max`. -/
def HCD_BUFFER_POOLS : Nat := 4

/-- The table `pool_max` of buffer.c. -/
def pool_max : Nat → Nat
  | 0 => 32
  | 1 => 128
  | 2 => 512
  | _ => PAGE_SIZE / 2

/-- The loop of `hcd_buffer_free`: the first pool `i` with `size <= pool_max[i]`. -/
def pool_index (size : Nat) : Nat → Nat → Option Nat
  | 0, _ => none
  | n + 1, i => if size ≤ pool_max i then some i else pool_index size n (i + 1)

/-- The C function `hcd_buffer_free (bus, size, addr, dma)`. -/
def hcd_buffer_free (hcd : usb_hcd) (size addr dma : Nat) : usb_hcd :=
  if addr = 0 then hcd
  else if hcd.dma_mask = false ∧ hcd.driver_flags &&& HCD_LOCAL_MEM = 0 then
    hcd.emit (.kfree addr)
  else
    match pool_index size HCD_BUFFER_POOLS 0 with
    | some i => hcd.emit (.dma_pool_free i addr dma)
    | none => hcd.emit (.dma_free_coherent size addr dma)

/-- Modelled from the spec: `enum dma_data_direction` of `include/linux/dma-mapping.h`
(not under src/). -/
inductive dma_data_direction where
  | DMA_BIDIRECTIONAL
  | DMA_TO_DEVICE
  | DMA_FROM_DEVICE
  | DMA_NONE
deriving DecidableEq, Repr

/-- The C expression `usb_urb_dir_in (urb) ? DMA_FROM_DEVICE : DMA_TO_DEVICE`. -/
def urb_dma_dir (x : urb) : dma_data_direction :=
  if usb_urb_dir_in x then .DMA_FROM_DEVICE else .DMA_TO_DEVICE

/-- The C function `hcd_free_coherent (bus, dma_handle, vaddr_handle, size, dir)`; the
result is the state with the new `(*dma_handle, *vaddr_handle)`. -/
def hcd_free_coherent (hcd : usb_hcd) (dma vaddr size : Nat) (dir : dma_data_direction) :
    usb_hcd × Nat × Nat :=
  let orig := get_unaligned hcd.mem (vaddr + size)
  let h1 : usb_hcd :=
    if dir = .DMA_FROM_DEVICE then { hcd with mem := memcpy hcd.mem orig vaddr size } else hcd
  (hcd_buffer_free h1 (size + sizeof_ulong) vaddr dma, 0, orig)

/-- The setup-packet half of `unmap_urb_for_dma`. -/
def unmap_urb_setup (hcd : usb_hcd) (u : Nat) : usb_hcd :=
  if usb_endpoint_xfer_control (hcd.eps (hcd.urbs u).ep)
      ∧ (hcd.urbs u).transfer_flags &&& URB_NO_SETUP_DMA_MAP = 0 then
    if hcd.uses_dma then
      hcd.emit (.dma_unmap_single (hcd.urbs u).setup_dma sizeof_usb_ctrlrequest false)
    else if hcd.driver_flags &&& HCD_LOCAL_MEM ≠ 0 then
      let r := hcd_free_coherent hcd (hcd.urbs u).setup_dma (hcd.urbs u).setup_packet
        sizeof_usb_ctrlrequest .DMA_TO_DEVICE
      r.1.mod_urb u (fun x => { x with setup_dma := r.2.1, setup_packet := r.2.2 })
    else hcd
  else hcd

/-- The transfer-buffer half of `unmap_urb_for_dma`. -/
def unmap_urb_buffer (hcd : usb_hcd) (u : Nat) : usb_hcd :=
  if (hcd.urbs u).transfer_buffer_length ≠ 0
      ∧ (hcd.urbs u).transfer_flags &&& URB_NO_TRANSFER_DMA_MAP = 0 then
    if hcd.uses_dma then
      hcd.emit (.dma_unmap_single (hcd.urbs u).transfer_dma
        (hcd.urbs u).transfer_buffer_length (usb_urb_dir_in (hcd.urbs u)))
    else if hcd.driver_flags &&& HCD_LOCAL_MEM ≠ 0 then
      let r := hcd_free_coherent hcd (hcd.urbs u).transfer_dma (hcd.urbs u).transfer_buffer
        (hcd.urbs u).transfer_buffer_length (urb_dma_dir (hcd.urbs u))
      r.1.mod_urb u (fun x => { x with transfer_dma := r.2.1, transfer_buffer := r.2.2 })
    else hcd
  else hcd

/-- The C function `unmap_urb_for_dma (hcd, urb)`. -/
def unmap_urb_for_dma (hcd : usb_hcd) (u : Nat) : usb_hcd :=
  if is_root_hub (hcd.devs (hcd.urbs u).dev) then hcd
  else unmap_urb_buffer (unmap_urb_setup hcd u) u

/-- The C function `usb_put_urb (urb)`: `kref_put (&urb->kref, urb_destroy)`. -/
def usb_put_urb (hcd : usb_hcd) (u : Nat) : usb_hcd :=
  let h1 := hcd.mod_urb u (fun x => { x with kref := x.kref - 1 })
  if (h1.urbs u).kref = 0 then h1.emit (.urb_destroy u) else h1

/-- The C statement `list_del (&urb->anchor_list)` for an URB on anchor `a`. -/
def usb_hcd.anchor_del (hcd : usb_hcd) (a u : Nat) : usb_hcd :=
  let a1 : usb_anchor := { hcd.anchors a with urb_list := (hcd.anchors a).urb_list.erase u }
  { hcd with anchors := upd hcd.anchors a a1 }

/-- The C function `usb_unanchor_urb (urb)` for a non-`NULL` URB. -/
def usb_unanchor_urb (hcd : usb_hcd) (u : Nat) : usb_hcd :=
  match (hcd.urbs u).anchor with
  | none => hcd
  | some a =>
    let h3 := usb_put_urb ((hcd.mod_urb u (fun x => { x with anchor := none })).anchor_del a u) u
    if (h3.anchors a).urb_list.isEmpty then h3.emit (.wake_up_anchor a) else h3

/-- The status that `usb_hcd_giveback_urb` settles on: the local `status` after the two
`if` statements. -/
def giveback_status (x : urb) (status : Int) : Int :=
  let status := if x.unlinked ≠ 0 then x.unlinked else status
  if x.transfer_flags &&& URB_SHORT_NOT_OK ≠ 0
      ∧ x.actual_length < x.transfer_buffer_length ∧ status = 0 then - EREMOTEIO
  else status

/-- The C function `usb_hcd_giveback_urb (hcd, urb, status)`.  The completion callback
`urb->complete (urb)` is code of the submitting driver: the call is recorded in the
trace together with the URB as the callback sees it. -/
def usb_hcd_giveback_urb (hcd : usb_hcd) (u : Nat) (status : Int) : usb_hcd :=
  let h1 := hcd.mod_urb u (fun x => { x with hcpriv := none })
  let status := giveback_status (h1.urbs u) status
  let h2 := unmap_urb_for_dma h1 u
  let h3 := usb_unanchor_urb h2 u
  let h4 := h3.mod_urb u (fun x => { x with status := status })
  let h5 := h4.emit (.complete u (h4.urbs u))
  let h6 := h5.mod_urb u (fun x => { x with use_count := x.use_count - 1 })
  let h7 := if (h6.urbs u).reject ≠ 0 then h6.emit .wake_up_kill_queue else h6
  usb_put_urb h7 u

/-! ## OHCI transfer descriptors (ohci.h, ohci-mem.c, ohci-q.c) -/

/-- Modelled from the spec: `TD_CC` (condition-code field) of ohci.h (not under src/). -/
def TD_CC : Nat := 0xf0000000
/-- Modelled from the spec: the macro `TD_CC_GET` of ohci.h (not under src/). -/
def TD_CC_GET (info : Nat) : Nat := (info >>> 28) &&& 0x0f
/-- Modelled from the spec: `TD_T` (data toggle field) of ohci.h (not under src/). -/
def TD_T : Nat := 0x03000000
/-- Modelled from the spec: toggle value DATA0 of ohci.h (not under src/). -/
def TD_T_DATA0 : Nat := 0x02000000
/-- Modelled from the spec: toggle value DATA1 of ohci.h (not under src/). -/
def TD_T_DATA1 : Nat := 0x03000000
/-- Modelled from the spec: toggle taken from `ED_C`, ohci.h (not under src/). -/
def TD_T_TOGGLE : Nat := 0x00000000
/-- Modelled from the spec: the macro `TD_DI_SET` (interrupt delay) of ohci.h. -/
def TD_DI_SET (x : Nat) : Nat := (x &&& 0x07) <<< 21
/-- Modelled from the spec: direction/PID value SETUP of ohci.h (not under src/). -/
def TD_DP_SETUP : Nat := 0x00000000
/-- Modelled from the spec: direction/PID value IN of ohci.h (not under src/). -/
def TD_DP_IN : Nat := 0x00100000
/-- Modelled from the spec: direction/PID value OUT of ohci.h (not under src/). -/
def TD_DP_OUT : Nat := 0x00080000
/-- Modelled from the spec: `TD_R` (short packets are fine) of ohci.h (not under src/). -/
def TD_R : Nat := 0x00040000
/-- Modelled from the spec: `TD_DONE` (retired to the done list) of ohci.h. -/
def TD_DONE : Nat := 0x00020000
/-- Modelled from the spec: `TD_ISO` (isochronous cell) of ohci.h (not under src/). -/
def TD_ISO : Nat := 0x00010000
/-- Modelled from the spec: condition code "no error" of ohci.h (not under src/). -/
def TD_CC_NOERROR : Nat := 0x00
/-- Modelled from the spec: condition code "stall" of ohci.h (not under src/). -/
def TD_CC_STALL : Nat := 0x04
/-- Modelled from the spec: condition code "data underrun" of ohci.h (not under src/). -/
def TD_DATAUNDERRUN : Nat := 0x09
/-- Modelled from the spec: `TD_MASK` of ohci.h, `(u32) ~0x1f`: TDs are 32-byte aligned. -/
def TD_MASK : Nat := 0xffffffe0
/-- Modelled from the spec: `TD_HASH_SIZE` of ohci.h (not under src/). -/
def TD_HASH_SIZE : Nat := 64
/-- Modelled from the spec: the macro `TD_HASH_FUNC` of ohci.h (not under src/). -/
def TD_HASH_FUNC (td_dma : Nat) : Nat := (td_dma ^^^ (td_dma >>> 6)) % TD_HASH_SIZE
/-- Modelled from the spec: `OHCI_QUIRK_AMD_ISO` of ohci.h (not under src/). -/
def OHCI_QUIRK_AMD_ISO : Nat := 0x200
/-- Modelled from the spec: `OHCI_QUIRK_AMD_PREFETCH` of ohci.h (not under src/). -/
def OHCI_QUIRK_AMD_PREFETCH : Nat := 0x400

/-- Modelled from the spec: the table `cc_to_error` of ohci.h (not under src/), which maps
a hardware condition code to a request status: stall to the protocol error `-EPIPE`,
data underrun to `-EREMOTEIO`, the other faults to their I/O errors. -/
def cc_to_error : Nat → Int
  | 0 => 0
  | 1 => -84
  | 2 => -71
  | 3 => -84
  | 4 => -32
  | 5 => -62
  | 6 => -71
  | 7 => -71
  | 8 => -75
  | 9 => - EREMOTEIO
  | 10 => -5
  | 11 => -5
  | 12 => -70
  | 13 => -63
  | _ => -114

/-- The C conversion `cpu_to_hc32`: a 32-bit hardware word. -/
def hc32 (x : Nat) : Nat := x % 4294967296

/-- The value of an `u32` or `int` expression after wrapping to 32 bits. -/
def wrap32 (z : Int) : Nat := (z % 4294967296).toNat

/-- The fields of `struct td` (ohci.h).  Of `hwPSW[]` only entry 0 is used by ohci-q.c.
Membership in `ed->td_list` is held by the ED. -/
structure td where
  hwINFO : Nat := 0
  hwCBP : Nat := 0
  hwNextTD : Nat := 0
  hwBE : Nat := 0
  hwPSW0 : Nat := 0
  index : Nat := 0
  ed : Nat := 0
  td_hash : Option Nat := none
  next_dl_td : Option Nat := none
  urb : Nat := 0
  td_dma : Nat := 0
  data_dma : Nat := 0

/-- The fields of `struct urb_priv` (ohci.h); `td` is the array `td[]`.  Membership in
`ohci->pending` is held by the controller. -/
structure urb_priv where
  ed : Nat := 0
  length : Nat := 0
  td_cnt : Nat := 0
  td : Nat → Option Nat := fun _ => none

/-- The calls into the AMD chipset quirks (`quirk_amd_pll`, `sb800_prefetch`), which
live outside the modelled files. -/
inductive amd_call where
  | pll (v : Nat)
  | prefetch (v : Nat)
deriving DecidableEq, Repr

/-- The whole of `struct ohci_hcd`: the scheduler part, the generic controller
(`ohci_to_hcd(ohci)`), the heaps of TDs and of `urb_priv` blocks, the TD hash, the
`done_head` word of the HCCA, and the blocks handed back to the allocators
(`td_cache_free` and `ed_cache_free` for the two DMA pools, `priv_kfree` for `kfree`). -/
structure ohci_hcd where
  sched : ohci_sched
  hcd : usb_hcd
  tds : Nat → td
  privs : Nat → urb_priv
  td_hash : Nat → Option Nat
  done_head : Nat := 0
  pending : List Nat := []
  ed_to_check : Option Nat := none
  td_cache_free : List (Nat × Nat) := []
  ed_cache_free : List (Nat × Nat) := []
  priv_kfree : List Nat := []
  amd : List amd_call := []

/-- Writes `f (ohci.tds t)` back to TD `t`. -/
def ohci_hcd.mod_td (ohci : ohci_hcd) (t : Nat) (f : td → td) : ohci_hcd :=
  { ohci with tds := upd ohci.tds t (f (ohci.tds t)) }

/-- Writes `f (ed)` back to ED `e` of the scheduler part. -/
def ohci_hcd.mod_ed (ohci : ohci_hcd) (e : Nat) (f : ed → ed) : ohci_hcd :=
  { ohci with sched := ohci.sched.mod_ed e f }

/-- Writes `f (ohci.privs p)` back to the `urb_priv` block `p`. -/
def ohci_hcd.mod_priv (ohci : ohci_hcd) (p : Nat) (f : urb_priv → urb_priv) : ohci_hcd :=
  { ohci with privs := upd ohci.privs p (f (ohci.privs p)) }

/-- Writes `f (urb)` back to URB `u` of the generic controller. -/
def ohci_hcd.mod_urb (ohci : ohci_hcd) (u : Nat) (f : urb → urb) : ohci_hcd :=
  { ohci with hcd := ohci.hcd.mod_urb u f }

/-- The C call `ohci_writel (ohci, v, &ohci->regs->r)` on the whole controller. -/
def ohci_hcd.writel (ohci : ohci_hcd) (v : Nat) (r : ohci_reg) : ohci_hcd :=
  { ohci with sched := ohci_writel ohci.sched v r }

/-- The C statement `ohci_to_hcd(ohci)->self.bandwidth_int_reqs += v`. -/
def ohci_hcd.add_int_reqs (ohci : ohci_hcd) (v : Int) : ohci_hcd :=
  { ohci with hcd := { ohci.hcd with bandwidth_int_reqs := ohci.hcd.bandwidth_int_reqs + v } }

/-- The C statement `ohci_to_hcd(ohci)->self.bandwidth_isoc_reqs += v`. -/
def ohci_hcd.add_isoc_reqs (ohci : ohci_hcd) (v : Int) : ohci_hcd :=
  { ohci with hcd := { ohci.hcd with bandwidth_isoc_reqs := ohci.hcd.bandwidth_isoc_reqs + v } }

/-! ### ohci-mem.c: the TD hash -/

/-- The chain walk of `dma_to_td`: `while (td && td->td_dma != td_dma) td = td->td_hash;`. -/
def dma_to_td_walk (tds : Nat → td) (td_dma : Nat) : Nat → Option Nat → Option (Option Nat)
  | 0, _ => none
  | fuel + 1, cur =>
    match cur with
    | none => some none
    | some t =>
      if (tds t).td_dma ≠ td_dma then dma_to_td_walk tds td_dma fuel (tds t).td_hash
      else some (some t)

/-- The C function `dma_to_td (hc, td_dma)`; the inner `Option` is the returned
pointer. -/
def dma_to_td (fuel : Nat) (ohci : ohci_hcd) (td_dma : Nat) : Option (Option Nat) :=
  let td_dma := td_dma &&& TD_MASK
  dma_to_td_walk ohci.tds td_dma fuel (ohci.td_hash (TD_HASH_FUNC td_dma))

/-- Where the cursor `struct td **prev` of `td_free` points: at a bucket of
`hc->td_hash[]` or at the `td_hash` field of a TD. -/
inductive tdref where
  | bucket (h : Nat)
  | node (t : Nat)
deriving DecidableEq, Repr

/-- The C expression `*prev` for the cursor of `td_free`. -/
def tdref.get (ohci : ohci_hcd) : tdref → Option Nat
  | .bucket h => ohci.td_hash h
  | .node t => (ohci.tds t).td_hash

/-- The C assignment `*prev = v` for the cursor of `td_free`. -/
def tdref.set (ohci : ohci_hcd) (v : Option Nat) : tdref → ohci_hcd
  | .bucket h => { ohci with td_hash := upd ohci.td_hash h v }
  | .node t => ohci.mod_td t (fun x => { x with td_hash := v })

/-- The walk of `td_free`: `while (*prev && *prev != td) prev = &(*prev)->td_hash;`. -/
def td_free_walk (ohci : ohci_hcd) (t : Nat) : Nat → tdref → Option tdref
  | 0, _ => none
  | fuel + 1, prev =>
    match prev.get ohci with
    | none => some prev
    | some x => if x ≠ t then td_free_walk ohci t fuel (.node x) else some prev

/-- The C function `td_free (hc, td)`. -/
def td_free (fuel : Nat) (ohci : ohci_hcd) (t : Nat) : Option ohci_hcd :=
  match td_free_walk ohci t fuel (.bucket (TD_HASH_FUNC (ohci.tds t).td_dma)) with
  | none => none
  | some prev =>
    let o1 := if (prev.get ohci).isSome then prev.set ohci (ohci.tds t).td_hash else ohci
    some { o1 with td_cache_free := o1.td_cache_free ++ [(t, (o1.tds t).td_dma)] }

/-! ### ohci-q.c: filling the ring -/

/-- The body of `td_fill` once the two TD pointers are known: `t` is the old dummy, now
the cell to fill, and `t_pt` the TD taken from `urb_priv->td[index]`, now the new dummy;
`p` is `urb->hcpriv`. -/
def td_fill_cell (ohci : ohci_hcd) (info data len u index p t t_pt : Nat) : ohci_hcd :=
  let e := (ohci.privs p).ed
  let is_iso := info &&& TD_ISO
  let info :=
    if (index : Int) ≠ ((ohci.privs p).length : Int) - 1
        ∨ (ohci.hcd.urbs u).transfer_flags &&& URB_NO_INTERRUPT ≠ 0
    then info ||| TD_DI_SET 6 else info
  let o1 := ohci.mod_priv p (fun x => { x with td := upd x.td index (some t) })
  let o2 := o1.mod_ed e (fun x => { x with dummy := some t_pt })
  let data1 := if len = 0 then 0 else data
  let o3 := o2.mod_td t (fun x =>
    { x with
      ed := e, next_dl_td := none, index := index, urb := u, data_dma := data,
      hwINFO := hc32 info,
      hwCBP := if is_iso ≠ 0 then hc32 (data1 &&& 0xFFFFF000) else hc32 data1,
      hwPSW0 := if is_iso ≠ 0 then (data1 &&& 0x0FFF) ||| 0xE000 else x.hwPSW0,
      hwBE := if data1 ≠ 0 then hc32 (data1 + len - 1) else 0,
      hwNextTD := hc32 (o2.tds t_pt).td_dma })
  let o4 := if is_iso ≠ 0 then o3.mod_ed e (fun x => { x with last_iso := info &&& 0xffff }) else o3
  let o5 := o4.mod_ed e (fun x => { x with td_list := x.td_list ++ [t] })
  let hash := TD_HASH_FUNC (o5.tds t).td_dma
  let o6 := o5.mod_td t (fun x => { x with td_hash := o5.td_hash hash })
  let o7 : ohci_hcd := { o6 with td_hash := upd o6.td_hash hash (some t) }
  o7.mod_ed e (fun x => { x with hwTailP := (o7.tds t).hwNextTD })

/-- The C function `td_fill (ohci, info, data, len, urb, index)`. -/
def td_fill (ohci : ohci_hcd) (info data len u index : Nat) : Option ohci_hcd :=
  match (ohci.hcd.urbs u).hcpriv with
  | none => none
  | some p =>
    match (ohci.sched.eds (ohci.privs p).ed).dummy, (ohci.privs p).td index with
    | some t, some t_pt => some (td_fill_cell ohci info data len u index p t t_pt)
    | _, _ => none

/-- The macro `usb_gettoggle (dev, ep, out)` of `include/linux/usb.h`. -/
def usb_gettoggle (d : usb_device) (ep : Nat) (out : Bool) : Nat :=
  ((if out then d.toggle_out else d.toggle_in) >>> ep) &&& 1

/-- The macro `usb_settoggle (dev, ep, out, bit)` of `include/linux/usb.h`. -/
def usb_settoggle (d : usb_device) (ep : Nat) (out : Bool) (bit : Nat) : usb_device :=
  if out then { d with toggle_out := clear_bits d.toggle_out (1 <<< ep) ||| (bit <<< ep) }
  else { d with toggle_in := clear_bits d.toggle_in (1 <<< ep) ||| (bit <<< ep) }

/-- The head of `td_submit_urb` up to the `switch`: the toggle reset, `td_cnt = 0` and
`list_add (&urb_priv->pending, &ohci->pending)`. -/
def td_submit_urb_start (ohci : ohci_hcd) (u p : Nat) : ohci_hcd :=
  let x := ohci.hcd.urbs u
  let o1 : ohci_hcd :=
    if usb_gettoggle (ohci.hcd.devs x.dev) x.pipe_endpoint x.pipe_out = 0 then
      let d := usb_settoggle (ohci.hcd.devs x.dev) x.pipe_endpoint x.pipe_out 1
      let o : ohci_hcd := { ohci with hcd := { ohci.hcd with devs := upd ohci.hcd.devs x.dev d } }
      o.mod_ed (o.privs p).ed (fun y => { y with hwHeadP := clear_bits y.hwHeadP ED_C })
    else ohci
  let o2 := o1.mod_priv p (fun y => { y with td_cnt := 0 })
  { o2 with pending := p :: o2.pending }

/-- The loop `while (data_len > 4096) { td_fill (..., 4096, ...); ... }` of the bulk arm;
the result carries the final `data`, `data_len` and `cnt`.  The loop body runs at most
`data_len / 4096` times, which is the fuel `td_submit_urb_bulk` passes. -/
def td_submit_urb_chunks (info u : Nat) :
    Nat → ohci_hcd → Nat → Nat → Nat → Option (ohci_hcd × Nat × Nat × Nat)
  | 0, _, _, _, _ => none
  | fuel + 1, ohci, data, data_len, cnt =>
    if data_len > 4096 then
      match td_fill ohci info data 4096 u cnt with
      | none => none
      | some o1 => td_submit_urb_chunks info u fuel o1 (data + 4096) (data_len - 4096) (cnt + 1)
    else some (ohci, data, data_len, cnt)

/-- The `case PIPE_BULK:` arm of `td_submit_urb`, shared by `PIPE_INTERRUPT`. -/
def td_submit_urb_bulk (ohci : ohci_hcd) (u p data data_len : Nat) : Option ohci_hcd :=
  let x := ohci.hcd.urbs u
  let info :=
    if x.pipe_out then TD_T_TOGGLE ||| TD_CC ||| TD_DP_OUT else TD_T_TOGGLE ||| TD_CC ||| TD_DP_IN
  match td_submit_urb_chunks info u (data_len / 4096 + 1) ohci data data_len 0 with
  | none => none
  | some (o1, data, data_len, cnt) =>
    let info := if x.transfer_flags &&& URB_SHORT_NOT_OK = 0 then info ||| TD_R else info
    match td_fill o1 info data data_len u cnt with
    | none => none
    | some o2 =>
      let cnt := cnt + 1
      let o3 : Option ohci_hcd :=
        if x.transfer_flags &&& URB_ZERO_PACKET ≠ 0 ∧ cnt < (o2.privs p).length then
          td_fill o2 info 0 0 u cnt
        else some o2
      match o3 with
      | none => none
      | some o3 =>
        if (o3.sched.eds (o3.privs p).ed).type = PIPE_BULK then
          some (o3.writel OHCI_BLF .cmdstatus)
        else some o3

/-- The `case PIPE_CONTROL:` arm of `td_submit_urb`. -/
def td_submit_urb_control (ohci : ohci_hcd) (u data data_len : Nat) : Option ohci_hcd :=
  let x := ohci.hcd.urbs u
  match td_fill ohci (TD_CC ||| TD_DP_SETUP ||| TD_T_DATA0) x.setup_dma 8 u 0 with
  | none => none
  | some o1 =>
    let o2 : Option (ohci_hcd × Nat) :=
      if data_len > 0 then
        match td_fill o1
          (TD_CC ||| TD_R ||| TD_T_DATA1 ||| (if x.pipe_out then TD_DP_OUT else TD_DP_IN))
          data data_len u 1 with
        | none => none
        | some o => some (o, 2)
      else some (o1, 1)
    match o2 with
    | none => none
    | some (o2, cnt) =>
      let info :=
        if x.pipe_out ∨ data_len = 0 then TD_CC ||| TD_DP_IN ||| TD_T_DATA1
        else TD_CC ||| TD_DP_OUT ||| TD_T_DATA1
      match td_fill o2 info data 0 u cnt with
      | none => none
      | some o3 => some (o3.writel OHCI_CLF .cmdstatus)

/-- The `for` loop of the `case PIPE_ISOCHRONOUS:` arm of `td_submit_urb`. -/
def td_submit_urb_iso_loop (u data : Nat) : Nat → ohci_hcd → Nat → Option ohci_hcd
  | 0, _, _ => none
  | fuel + 1, ohci, cnt =>
    let x := ohci.hcd.urbs u
    if cnt < x.number_of_packets then
      let frame := wrap32 (x.start_frame + (cnt : Int) * x.interval) &&& 0xffff
      match td_fill ohci (TD_CC ||| TD_ISO ||| frame) (data + (x.iso_frame_desc cnt).offset)
        (x.iso_frame_desc cnt).length u cnt with
      | none => none
      | some o1 => td_submit_urb_iso_loop u data fuel o1 (cnt + 1)
    else some ohci

/-- The C statement `if (periodic) { ohci->hc_control |= OHCI_CTRL_PLE|OHCI_CTRL_IE; ... }`. -/
def start_periodic (ohci : ohci_hcd) (periodic : Bool) : ohci_hcd :=
  if periodic then
    let c := ohci.sched.hc_control ||| (OHCI_CTRL_PLE ||| OHCI_CTRL_IE)
    let o1 : ohci_hcd := { ohci with sched := { ohci.sched with hc_control := c } }
    o1.writel o1.sched.hc_control .control
  else ohci

/-- The C function `td_submit_urb (ohci, urb)`. -/
def td_submit_urb (ohci : ohci_hcd) (u : Nat) : Option ohci_hcd :=
  match (ohci.hcd.urbs u).hcpriv with
  | none => none
  | some p =>
    let data_len := (ohci.hcd.urbs u).transfer_buffer_length
    let o1 := td_submit_urb_start ohci u p
    let data := if data_len ≠ 0 then (o1.hcd.urbs u).transfer_dma else 0
    let type := (o1.sched.eds (o1.privs p).ed).type
    if type = PIPE_INTERRUPT then
      let periodic : Bool := o1.hcd.bandwidth_int_reqs = 0 ∧ o1.hcd.bandwidth_isoc_reqs = 0
      let o2 := o1.add_int_reqs 1
      match td_submit_urb_bulk o2 u p data data_len with
      | none => none
      | some o3 => some (start_periodic o3 periodic)
    else if type = PIPE_BULK then td_submit_urb_bulk o1 u p data data_len
    else if type = PIPE_CONTROL then td_submit_urb_control o1 u data data_len
    else if type = PIPE_ISOCHRONOUS then
      match td_submit_urb_iso_loop u data ((o1.hcd.urbs u).number_of_packets + 1) o1 0 with
      | none => none
      | some o2 =>
        let o3 : ohci_hcd :=
          if o2.hcd.bandwidth_isoc_reqs = 0 then
            let a1 := if o2.sched.flags &&& OHCI_QUIRK_AMD_ISO ≠ 0 then [amd_call.pll 0] else []
            let a2 :=
              if o2.sched.flags &&& OHCI_QUIRK_AMD_PREFETCH ≠ 0 then [amd_call.prefetch 1] else []
            { o2 with amd := o2.amd ++ a1 ++ a2 }
          else o2
        let periodic : Bool := o3.hcd.bandwidth_isoc_reqs = 0 ∧ o3.hcd.bandwidth_int_reqs = 0
        some (start_periodic (o3.add_isoc_reqs 1) periodic)
    else some o1

/-! ### ohci-q.c: retiring cells -/

/-- The C statement `list_del (&td->td_list)`: the TD leaves the ring of its ED. -/
def td_list_del (ohci : ohci_hcd) (t : Nat) : ohci_hcd :=
  ohci.mod_ed (ohci.tds t).ed (fun x => { x with td_list := x.td_list.erase t })

/-- The isochronous arm of `td_done`. -/
def td_done_iso (ohci : ohci_hcd) (u t : Nat) : Int × ohci_hcd :=
  let tdINFO := (ohci.tds t).hwINFO
  let tdPSW := (ohci.tds t).hwPSW0
  let cc := (tdPSW >>> 12) &&& 0xF
  if tdINFO &&& TD_CC ≠ 0 then (-EINPROGRESS, ohci)
  else
    let x := ohci.hcd.urbs u
    let idx := (ohci.tds t).index
    let cc := if x.pipe_out then cc else if cc = TD_DATAUNDERRUN then TD_CC_NOERROR else cc
    let dlen := if x.pipe_out then (x.iso_frame_desc idx).length else tdPSW &&& 0x3ff
    (-EINPROGRESS, ohci.mod_urb u (fun y =>
      { y with
        actual_length := wrap32 ((y.actual_length : Int) + dlen),
        iso_frame_desc := upd y.iso_frame_desc idx
          { y.iso_frame_desc idx with actual_length := dlen, status := cc_to_error cc } }))

/-- The arm of `td_done` for control, bulk and interrupt cells. -/
def td_done_data (ohci : ohci_hcd) (u t : Nat) : Int × ohci_hcd :=
  let x := ohci.hcd.urbs u
  let c := ohci.tds t
  let tdBE := c.hwBE
  let cc := TD_CC_GET c.hwINFO
  let cc :=
    if cc = TD_DATAUNDERRUN ∧ x.transfer_flags &&& URB_SHORT_NOT_OK = 0 then TD_CC_NOERROR
    else cc
  let status := if cc ≠ TD_CC_NOERROR ∧ cc < 0x0E then cc_to_error cc else -EINPROGRESS
  let o1 :=
    if (x.pipe_type ≠ PIPE_CONTROL ∨ c.index ≠ 0) ∧ tdBE ≠ 0 then
      if c.hwCBP = 0 then
        ohci.mod_urb u (fun y =>
          { y with actual_length :=
              wrap32 ((y.actual_length : Int) + ((tdBE : Int) - (c.data_dma : Int) + 1)) })
      else
        ohci.mod_urb u (fun y =>
          { y with actual_length :=
              wrap32 ((y.actual_length : Int) + ((c.hwCBP : Int) - (c.data_dma : Int))) })
    else ohci
  (status, o1)

/-- The C function `td_done (ohci, urb, td)`; the result is the returned status and the
new state. -/
def td_done (ohci : ohci_hcd) (u t : Nat) : Int × ohci_hcd :=
  let o1 := td_list_del ohci t
  if (o1.tds t).hwINFO &&& TD_ISO ≠ 0 then td_done_iso o1 u t else td_done_data o1 u t

/-- The part of a ring after the cell `t`: what `td->td_list.next` starts. -/
def td_list_after (t : Nat) : List Nat → List Nat
  | [] => []
  | x :: rest => if x = t then rest else td_list_after t rest

/-- The `while (tmp != &ed->td_list)` loop of `ed_halted` over the cells that follow the
faulted one: the following cells of the same URB are dropped from the ring and
counted. -/
def ed_halted_loop (u e toggle : Nat) : List Nat → ohci_hcd → Option ohci_hcd
  | [], ohci => some ohci
  | next :: rest, ohci =>
    if (ohci.tds next).urb ≠ u then some ohci
    else
      match (ohci.hcd.urbs u).hcpriv with
      | none => none
      | some p =>
        let o1 := td_list_del ohci next
        let o2 := o1.mod_priv p (fun x => { x with td_cnt := x.td_cnt + 1 })
        let o3 := o2.mod_ed e (fun x => { x with hwHeadP := (o2.tds next).hwNextTD ||| toggle })
        ed_halted_loop u e toggle rest o3

/-- The C function `ed_halted (ohci, td, cc)`; the closing `switch (cc)` only prints. -/
def ed_halted (ohci : ohci_hcd) (t : Nat) : Option ohci_hcd :=
  let u := (ohci.tds t).urb
  let e := (ohci.tds t).ed
  let tmp := td_list_after t (ohci.sched.eds e).td_list
  let toggle := (ohci.sched.eds e).hwHeadP &&& ED_C
  let o1 := ohci.mod_ed e (fun x => { x with hwINFO := x.hwINFO ||| ED_SKIP })
  let o2 := o1.mod_ed e (fun x => { x with hwHeadP := clear_bits x.hwHeadP ED_H })
  ed_halted_loop u e toggle tmp o2

/-- The body of the `while (td_dma)` loop of `dl_reverse_done_list` for the TD `t` that
`dma_to_td` returned; the result carries the next `td_dma`. -/
def dl_reverse_step (ohci : ohci_hcd) (t : Nat) (td_rev : Option Nat) : Option (ohci_hcd × Nat) :=
  let o1 := ohci.mod_td t (fun x => { x with hwINFO := x.hwINFO ||| TD_DONE })
  let cc := TD_CC_GET (o1.tds t).hwINFO
  let o2 : Option ohci_hcd :=
    if cc ≠ TD_CC_NOERROR ∧ (o1.sched.eds (o1.tds t).ed).hwHeadP &&& ED_H ≠ 0 then ed_halted o1 t
    else some o1
  match o2 with
  | none => none
  | some o2 =>
    let o3 := o2.mod_td t (fun x => { x with next_dl_td := td_rev })
    some (o3, (o3.tds t).hwNextTD)

/-- The `while (td_dma)` loop of `dl_reverse_done_list`. -/
def dl_reverse_loop (fuel : Nat) :
    Nat → ohci_hcd → Nat → Option Nat → Option (ohci_hcd × Option Nat)
  | 0, _, _, _ => none
  | n + 1, ohci, td_dma, td_rev =>
    if td_dma ≠ 0 then
      match dma_to_td fuel ohci td_dma with
      | none => none
      | some none => some (ohci, td_rev)
      | some (some t) =>
        match dl_reverse_step ohci t td_rev with
        | none => none
        | some (o1, next_dma) => dl_reverse_loop fuel n o1 next_dma (some t)
    else some (ohci, td_rev)

/-- The C function `dl_reverse_done_list (ohci)`; the result is the new state and the
returned head `td_rev` of the reversed list. -/
def dl_reverse_done_list (fuel : Nat) (ohci : ohci_hcd) : Option (ohci_hcd × Option Nat) :=
  dl_reverse_loop fuel fuel { ohci with done_head := 0 } ohci.done_head none

/-! ### ohci-q.c: taking an ED off the schedule -/

/-- The walk of `periodic_unlink`:
`while (*prev && (temp = *prev) != ed) { prev_p = &temp->hwNextED; prev = &temp->ed_next; }`. -/
def periodic_unlink_walk (ohci : ohci_sched) (e : Nat) : Nat → edref → Option edref
  | 0, _ => none
  | fuel + 1, prev =>
    match prev.get ohci with
    | none => some prev
    | some temp => if temp ≠ e then periodic_unlink_walk ohci e fuel (.node temp) else some prev

/-- One iteration of the `for` loop of `periodic_unlink`, for slot `i`. -/
def periodic_unlink_slot (fuel : Nat) (ohci : ohci_sched) (e i : Nat) : Option ohci_sched :=
  match periodic_unlink_walk ohci e fuel (.slot i) with
  | none => none
  | some prev =>
    let o1 :=
      if (prev.get ohci).isSome then
        prev.set (prev.set_p ohci (ohci.eds e).hwNextED) (ohci.eds e).ed_next
      else ohci
    some (add_load o1 i (-((o1.eds e).load : Int)))

/-- The loop `for (i = ed->branch; i < NUM_INTS; i += ed->interval)` of `periodic_unlink`. -/
def periodic_unlink_loop (fuel : Nat) (e : Nat) : Nat → ohci_sched → Nat → Option ohci_sched
  | 0, _, _ => none
  | n + 1, ohci, i =>
    if i < NUM_INTS then
      match periodic_unlink_slot fuel ohci e i with
      | none => none
      | some o1 => periodic_unlink_loop fuel e n o1 (i + (o1.eds e).interval)
    else some ohci

/-- The C function `periodic_unlink (ohci, ed)`. -/
def periodic_unlink (fuel : Nat) (ohci : ohci_sched) (e : Nat) : Option ohci_sched :=
  match periodic_unlink_loop fuel e (NUM_INTS + 1) ohci (ohci.eds e).branch with
  | none => none
  | some o1 =>
    some (add_bandwidth o1 (-(((o1.eds e).load : Int) / ((o1.eds e).interval : Int))))

/-- The `case PIPE_CONTROL:` arm of `ed_deschedule`. -/
def ed_deschedule_control (ohci : ohci_sched) (e : Nat) : ohci_sched :=
  let x := ohci.eds e
  let o1 : ohci_sched :=
    match x.ed_prev with
    | none =>
      if x.hwNextED = 0 then
        let o : ohci_sched := { ohci with hc_control := clear_bits ohci.hc_control OHCI_CTRL_CLE }
        ohci_writel o o.hc_control .control
      else ohci_writel ohci x.hwNextED .ed_controlhead
    | some pr =>
      (ohci.mod_ed pr (fun y => { y with ed_next := x.ed_next })).mod_ed pr
        (fun y => { y with hwNextED := x.hwNextED })
  if o1.ed_controltail = some e then
    let o2 : ohci_sched := { o1 with ed_controltail := (o1.eds e).ed_prev }
    match o2.ed_controltail with
    | some tl => o2.mod_ed tl (fun y => { y with ed_next := none })
    | none => o2
  else
    match (o1.eds e).ed_next with
    | some nx => o1.mod_ed nx (fun y => { y with ed_prev := (o1.eds e).ed_prev })
    | none => o1

/-- The `case PIPE_BULK:` arm of `ed_deschedule`. -/
def ed_deschedule_bulk (ohci : ohci_sched) (e : Nat) : ohci_sched :=
  let x := ohci.eds e
  let o1 : ohci_sched :=
    match x.ed_prev with
    | none =>
      if x.hwNextED = 0 then
        let o : ohci_sched := { ohci with hc_control := clear_bits ohci.hc_control OHCI_CTRL_BLE }
        ohci_writel o o.hc_control .control
      else ohci_writel ohci x.hwNextED .ed_bulkhead
    | some pr =>
      (ohci.mod_ed pr (fun y => { y with ed_next := x.ed_next })).mod_ed pr
        (fun y => { y with hwNextED := x.hwNextED })
  if o1.ed_bulktail = some e then
    let o2 : ohci_sched := { o1 with ed_bulktail := (o1.eds e).ed_prev }
    match o2.ed_bulktail with
    | some tl => o2.mod_ed tl (fun y => { y with ed_next := none })
    | none => o2
  else
    match (o1.eds e).ed_next with
    | some nx => o1.mod_ed nx (fun y => { y with ed_prev := (o1.eds e).ed_prev })
    | none => o1

/-- The C function `ed_deschedule (ohci, ed)`. -/
def ed_deschedule (fuel : Nat) (ohci : ohci_sched) (e : Nat) : Option ohci_sched :=
  let o1 := ohci.mod_ed e (fun x => { x with hwINFO := x.hwINFO ||| ED_SKIP })
  let o2 := o1.mod_ed e (fun x => { x with state := ED_UNLINK })
  if (o2.eds e).type = PIPE_CONTROL then some (ed_deschedule_control o2 e)
  else if (o2.eds e).type = PIPE_BULK then some (ed_deschedule_bulk o2 e)
  else periodic_unlink fuel o2 e

/-- The C function `start_ed_unlink (ohci, ed)`; `ed->tick` is a 16-bit frame number. -/
def start_ed_unlink (fuel : Nat) (ohci : ohci_sched) (e : Nat) : Option ohci_sched :=
  let o1 := ohci.mod_ed e (fun x => { x with hwINFO := x.hwINFO ||| ED_DEQUEUE })
  match ed_deschedule fuel o1 e with
  | none => none
  | some o2 =>
    let o3 := o2.mod_ed e (fun x => { x with ed_next := o2.ed_rm_list, ed_prev := none })
    let o4 : ohci_sched := { o3 with ed_rm_list := some e }
    let o5 := ohci_writel (ohci_writel o4 OHCI_INTR_SF .intrstatus) OHCI_INTR_SF .intrenable
    some (o5.mod_ed e (fun x => { x with tick := (o5.frame_no + 1) % 65536 }))

/-! ### ohci-q.c: finishing an URB -/

/-- The loop `for (i = 0; i <= last; i++) { td = urb_priv->td [i]; if (td) td_free (hc, td); }`
of `urb_free_priv`, over the indices `i, i+1, ...` with `n` of them left. -/
def urb_free_priv_loop (fuel p : Nat) : Nat → Nat → ohci_hcd → Option ohci_hcd
  | 0, _, ohci => some ohci
  | n + 1, i, ohci =>
    match (ohci.privs p).td i with
    | none => urb_free_priv_loop fuel p n (i + 1) ohci
    | some t =>
      match td_free fuel ohci t with
      | none => none
      | some o1 => urb_free_priv_loop fuel p n (i + 1) o1

/-- The C function `urb_free_priv (hc, urb_priv)`. -/
def urb_free_priv (fuel : Nat) (ohci : ohci_hcd) (p : Nat) : Option ohci_hcd :=
  match urb_free_priv_loop fuel p (ohci.privs p).length 0 ohci with
  | none => none
  | some o1 =>
    some { o1 with pending := o1.pending.erase p, priv_kfree := o1.priv_kfree ++ [p] }

/-- The `switch (usb_pipetype (urb->pipe))` of `finish_urb`: the bookkeeping of the
periodic requests in flight. -/
def finish_urb_reqs (ohci : ohci_hcd) (u : Nat) : ohci_hcd :=
  if (ohci.hcd.urbs u).pipe_type = PIPE_ISOCHRONOUS then
    let o1 := ohci.add_isoc_reqs (-1)
    if o1.hcd.bandwidth_isoc_reqs = 0 then
      let a1 := if o1.sched.flags &&& OHCI_QUIRK_AMD_ISO ≠ 0 then [amd_call.pll 1] else []
      let a2 := if o1.sched.flags &&& OHCI_QUIRK_AMD_PREFETCH ≠ 0 then [amd_call.prefetch 0] else []
      { o1 with amd := o1.amd ++ a1 ++ a2 }
    else o1
  else if (ohci.hcd.urbs u).pipe_type = PIPE_INTERRUPT then ohci.add_int_reqs (-1)
  else ohci

/-- The tail of `finish_urb`: periodic processing is switched off when no periodic
request is left. -/
def finish_urb_stop (ohci : ohci_hcd) : ohci_hcd :=
  if ohci.hcd.bandwidth_isoc_reqs = 0 ∧ ohci.hcd.bandwidth_int_reqs = 0 then
    let c := clear_bits ohci.sched.hc_control (OHCI_CTRL_PLE ||| OHCI_CTRL_IE)
    let o1 : ohci_hcd := { ohci with sched := { ohci.sched with hc_control := c } }
    o1.writel o1.sched.hc_control .control
  else ohci

/-- The C function `finish_urb (ohci, urb, status)`. -/
def finish_urb (fuel : Nat) (ohci : ohci_hcd) (u : Nat) (status : Int) : Option ohci_hcd :=
  match (ohci.hcd.urbs u).hcpriv with
  | none => none
  | some p =>
    match urb_free_priv fuel ohci p with
    | none => none
    | some o1 =>
      let status := if status = -EINPROGRESS then 0 else status
      let o2 := finish_urb_reqs o1 u
      let o3 : ohci_hcd := { o2 with hcd := usb_hcd_unlink_urb_from_ep o2.hcd u }
      let o4 : ohci_hcd := { o3 with hcd := usb_hcd_giveback_urb o3.hcd u status }
      some (finish_urb_stop o4)

/-- The closing `if (list_empty (&ed->td_list)) ... else if (...)` of `takeback_td`: an ED
without cells is taken off the schedule, a skipped ED that still has live cells is
restarted. -/
def takeback_td_clean (fuel : Nat) (ohci : ohci_hcd) (e : Nat) : Option ohci_hcd :=
  let x := ohci.sched.eds e
  match x.td_list with
  | [] =>
    if x.state = ED_OPER then
      match start_ed_unlink fuel ohci.sched e with
      | none => none
      | some s => some { ohci with sched := s }
    else some ohci
  | first :: _ =>
    if x.hwINFO &&& (ED_SKIP ||| ED_DEQUEUE) = ED_SKIP then
      if (ohci.tds first).hwINFO &&& TD_DONE = 0 then
        let o1 := ohci.mod_ed e (fun y => { y with hwINFO := clear_bits y.hwINFO ED_SKIP })
        if (o1.sched.eds e).type = PIPE_CONTROL then some (o1.writel OHCI_CLF .cmdstatus)
        else if (o1.sched.eds e).type = PIPE_BULK then some (o1.writel OHCI_BLF .cmdstatus)
        else some o1
      else some ohci
    else some ohci

/-- The C function `takeback_td (ohci, td)`. -/
def takeback_td (fuel : Nat) (ohci : ohci_hcd) (t : Nat) : Option ohci_hcd :=
  let u := (ohci.tds t).urb
  let e := (ohci.tds t).ed
  match (ohci.hcd.urbs u).hcpriv with
  | none => none
  | some p =>
    let r := td_done ohci u t
    let o1 := r.2.mod_priv p (fun x => { x with td_cnt := x.td_cnt + 1 })
    let o2 : Option ohci_hcd :=
      if (o1.privs p).td_cnt = (o1.privs p).length then finish_urb fuel o1 u r.1 else some o1
    match o2 with
    | none => none
    | some o2 => takeback_td_clean fuel o2 e

/-- The `while (td)` loop of `dl_done_list`. -/
def dl_done_loop (fuel : Nat) : Nat → ohci_hcd → Option Nat → Option ohci_hcd
  | 0, _, _ => none
  | n + 1, ohci, td =>
    match td with
    | none => some ohci
    | some t =>
      let td_next := (ohci.tds t).next_dl_td
      match takeback_td fuel ohci t with
      | none => none
      | some o1 => dl_done_loop fuel n o1 td_next

/-- The C function `dl_done_list (ohci)`. -/
def dl_done_list (fuel : Nat) (ohci : ohci_hcd) : Option ohci_hcd :=
  match dl_reverse_done_list fuel ohci with
  | none => none
  | some (o1, td) => dl_done_loop fuel fuel o1 td

/-! ## buffer.c and hcd.c: allocation, mapping and submission -/

/-- Kernel services that usbcore calls and that are no part of it.  `alloc past` is the
answer of the allocators (`kmalloc`, `dma_pool_alloc`, `dma_alloc_coherent`) to the call
that ends the sequence `past` of outgoing calls: `none` when the allocation fails, else
the address of the block and its bus address.  `dma_map_single addr size` is the bus
address that the mapping layer returns. -/
structure platform where
  alloc : List core_event → Option (Nat × Nat)
  dma_map_single : Nat → Nat → Nat

/-- The callbacks that usbcore reaches through `hcd->driver`, code of the controller
driver.  `rh_request` stands for the request decoding of `rh_call_control` (hcd.c lines
459 to 628: the setup packet, the descriptor tables and `hcd->driver->hub_control`),
which fills the transfer buffer and leaves a status; no property below depends on it. -/
structure hc_driver where
  urb_enqueue : usb_hcd → Nat → Int × usb_hcd
  urb_dequeue : usb_hcd → Nat → Int → Int × usb_hcd
  rh_request : usb_hcd → Nat → Int × usb_hcd

/-- Writes `f (hcd.devs d)` back to device `d`. -/
def usb_hcd.mod_dev (hcd : usb_hcd) (d : Nat) (f : usb_device → usb_device) : usb_hcd :=
  { hcd with devs := upd hcd.devs d (f (hcd.devs d)) }

/-- Modelled from the spec: `~(dma_addr_t) 0` for the 32-bit `dma_addr_t` of the ARM
target of this tree. -/
def DMA_ADDR_INVALID : Nat := 0xFFFFFFFF

/-- One allocator call of `hcd_buffer_alloc`: the call `ev` is recorded and answered by
the platform; the result is `(state, address, *dma)`, address 0 being `NULL`.  A failing
allocator leaves `*dma` as it was. -/
def buffer_alloc_call (k : platform) (hcd : usb_hcd) (ev : core_event) (dma : Nat) :
    usb_hcd × Nat × Nat :=
  let h1 := hcd.emit ev
  match k.alloc h1.trace with
  | none => (h1, 0, dma)
  | some r => (h1, r.1, r.2)

/-- The C function `hcd_buffer_alloc (bus, size, mem_flags, dma)`; `dma` is the content
of `*dma` before the call, the result is `(state, returned address, *dma)`. -/
def hcd_buffer_alloc (k : platform) (hcd : usb_hcd) (size dma : Nat) : usb_hcd × Nat × Nat :=
  if hcd.dma_mask = false ∧ hcd.driver_flags &&& HCD_LOCAL_MEM = 0 then
    let r := buffer_alloc_call k hcd (.kmalloc size) DMA_ADDR_INVALID
    (r.1, r.2.1, DMA_ADDR_INVALID)
  else
    match pool_index size HCD_BUFFER_POOLS 0 with
    | some i => buffer_alloc_call k hcd (.dma_pool_alloc i) dma
    | none => buffer_alloc_call k hcd (.dma_alloc_coherent size) dma

/-- The C call `put_unaligned (v, (unsigned long *) a)`: the four bytes of `v`, lowest
first. -/
def put_unaligned (mem : Nat → Nat) (v a : Nat) : Nat → Nat :=
  fun x =>
    if x = a then v % 256
    else if x = a + 1 then v / 256 % 256
    else if x = a + 2 then v / 65536 % 256
    else if x = a + 3 then v / 16777216 % 256
    else mem x

/-- The C function `hcd_alloc_coherent (bus, mem_flags, dma_handle, vaddr_handle, size,
dir)`.  `dma` and `vaddr` are `*dma_handle` and `*vaddr_handle` before the call; the
result is the return value, the state and the new `(*dma_handle, *vaddr_handle)`. -/
def hcd_alloc_coherent (k : platform) (hcd : usb_hcd) (dma vaddr size : Nat)
    (dir : dma_data_direction) : Int × usb_hcd × Nat × Nat :=
  let r := hcd_buffer_alloc k hcd (size + sizeof_ulong) dma
  if r.2.1 = 0 then (-ENOMEM, r.1, r.2.2, vaddr)
  else
    let m1 := put_unaligned r.1.mem vaddr (r.2.1 + size)
    let m2 := if dir = .DMA_TO_DEVICE then memcpy m1 r.2.1 vaddr size else m1
    (0, { r.1 with mem := m2 }, r.2.2, r.2.1)

/-- The setup-packet half of `map_urb_for_dma`; the result is `ret` and the state. -/
def map_urb_setup (k : platform) (hcd : usb_hcd) (u : Nat) : Int × usb_hcd :=
  if usb_endpoint_xfer_control (hcd.eps (hcd.urbs u).ep)
      ∧ (hcd.urbs u).transfer_flags &&& URB_NO_SETUP_DMA_MAP = 0 then
    if hcd.uses_dma then
      let h1 := hcd.emit (.dma_map_single (hcd.urbs u).setup_packet sizeof_usb_ctrlrequest false)
      let d := k.dma_map_single (hcd.urbs u).setup_packet sizeof_usb_ctrlrequest
      (0, h1.mod_urb u (fun x => { x with setup_dma := d }))
    else if hcd.driver_flags &&& HCD_LOCAL_MEM ≠ 0 then
      let r := hcd_alloc_coherent k hcd (hcd.urbs u).setup_dma (hcd.urbs u).setup_packet
        sizeof_usb_ctrlrequest .DMA_TO_DEVICE
      (r.1, r.2.1.mod_urb u (fun x => { x with setup_dma := r.2.2.1, setup_packet := r.2.2.2 }))
    else (0, hcd)
  else (0, hcd)

/-- The transfer-buffer half of `map_urb_for_dma`, entered with `ret == 0`; the result
is `ret` and the state. -/
def map_urb_buffer (k : platform) (hcd : usb_hcd) (u : Nat) : Int × usb_hcd :=
  if (hcd.urbs u).transfer_buffer_length ≠ 0
      ∧ (hcd.urbs u).transfer_flags &&& URB_NO_TRANSFER_DMA_MAP = 0 then
    if hcd.uses_dma then
      let h1 := hcd.emit (.dma_map_single (hcd.urbs u).transfer_buffer
        (hcd.urbs u).transfer_buffer_length (usb_urb_dir_in (hcd.urbs u)))
      let d := k.dma_map_single (hcd.urbs u).transfer_buffer (hcd.urbs u).transfer_buffer_length
      (0, h1.mod_urb u (fun x => { x with transfer_dma := d }))
    else if hcd.driver_flags &&& HCD_LOCAL_MEM ≠ 0 then
      let r := hcd_alloc_coherent k hcd (hcd.urbs u).transfer_dma (hcd.urbs u).transfer_buffer
        (hcd.urbs u).transfer_buffer_length (urb_dma_dir (hcd.urbs u))
      (r.1, r.2.1.mod_urb u (fun x => { x with transfer_dma := r.2.2.1, transfer_buffer := r.2.2.2 }))
    else (0, hcd)
  else (0, hcd)

/-- The label `ctl_error:` of `map_urb_for_dma`: the bounce buffer of the setup packet
is released. -/
def map_urb_ctl_error (hcd : usb_hcd) (u : Nat) : usb_hcd :=
  if usb_endpoint_xfer_control (hcd.eps (hcd.urbs u).ep)
      ∧ (hcd.urbs u).transfer_flags &&& URB_NO_SETUP_DMA_MAP = 0 then
    let r := hcd_free_coherent hcd (hcd.urbs u).setup_dma (hcd.urbs u).setup_packet
      sizeof_usb_ctrlrequest .DMA_TO_DEVICE
    r.1.mod_urb u (fun x => { x with setup_dma := r.2.1, setup_packet := r.2.2 })
  else hcd

/-- The C function `map_urb_for_dma (hcd, urb, mem_flags)`.  A failure of the setup half
leaves through `goto exit`, and the label `exit:` is `return 0`; a failure of the buffer
half leaves through `goto ctl_error`, which returns `ret`. -/
def map_urb_for_dma (k : platform) (hcd : usb_hcd) (u : Nat) : Int × usb_hcd :=
  if is_root_hub (hcd.devs (hcd.urbs u).dev) then (0, hcd)
  else
    let s := map_urb_setup k hcd u
    if s.1 ≠ 0 then (0, s.2)
    else
      let b := map_urb_buffer k s.2 u
      if b.1 ≠ 0 then (b.1, map_urb_ctl_error b.2 u)
      else (0, b.2)

/-- The C function `usb_get_urb (urb)` for a non-`NULL` URB: `kref_get`. -/
def usb_get_urb (hcd : usb_hcd) (u : Nat) : usb_hcd :=
  hcd.mod_urb u (fun x => { x with kref := x.kref + 1 })

/-- The C function `rh_queue_status (hcd, urb)`.  `urb->hcpriv = hcd` marks the URB as
queued; the pointer value is not used. -/
def rh_queue_status (hcd : usb_hcd) (u : Nat) : Int × usb_hcd :=
  let len := 1 + (hcd.devs (hcd.urbs u).dev).maxchild / 8
  if hcd.status_urb.isSome ∨ (hcd.urbs u).transfer_buffer_length < len then (-EINVAL, hcd)
  else
    let r := usb_hcd_link_urb_to_ep hcd u
    if r.1 ≠ 0 then r
    else
      let h1 : usb_hcd := { r.2 with status_urb := some u }
      let h2 := h1.mod_urb u (fun x => { x with hcpriv := some 0 })
      if h2.uses_new_polling = false then (0, h2.emit (.mod_timer false))
      else if h2.poll_pending then (0, h2.emit (.mod_timer true))
      else (0, h2)

/-- The C function `rh_call_control (hcd, urb)`. -/
def rh_call_control (drv : hc_driver) (hcd : usb_hcd) (u : Nat) : Int × usb_hcd :=
  let r := usb_hcd_link_urb_to_ep hcd u
  if r.1 ≠ 0 then r
  else
    let h1 := r.2.mod_urb u (fun x => { x with hcpriv := some 0 })
    let q := drv.rh_request h1 u
    (0, usb_hcd_giveback_urb (usb_hcd_unlink_urb_from_ep q.2 u) u q.1)

/-- The C function `rh_urb_enqueue (hcd, urb)`. -/
def rh_urb_enqueue (drv : hc_driver) (hcd : usb_hcd) (u : Nat) : Int × usb_hcd :=
  if usb_endpoint_xfer_int (hcd.eps (hcd.urbs u).ep) then rh_queue_status hcd u
  else if usb_endpoint_xfer_control (hcd.eps (hcd.urbs u).ep) then rh_call_control drv hcd u
  else (-EINVAL, hcd)

/-- The head of `usb_hcd_submit_urb`: `usb_get_urb (urb)`, `atomic_inc
(&urb->use_count)`, `atomic_inc (&urb->dev->urbnum)`. -/
def usb_hcd_submit_start (hcd : usb_hcd) (u : Nat) : usb_hcd :=
  let h1 := usb_get_urb hcd u
  let h2 := h1.mod_urb u (fun x => { x with use_count := x.use_count + 1 })
  h2.mod_dev (h2.urbs u).dev (fun d => { d with urbnum := d.urbnum + 1 })

/-- The enqueue step of `usb_hcd_submit_urb`: `rh_urb_enqueue` for the root hub, else the
call `hcd->driver->urb_enqueue (hcd, urb, mem_flags)`, which is recorded. -/
def usb_hcd_enqueue (drv : hc_driver) (hcd : usb_hcd) (u : Nat) : Int × usb_hcd :=
  if is_root_hub (hcd.devs (hcd.urbs u).dev) then rh_urb_enqueue drv hcd u
  else drv.urb_enqueue (hcd.emit (.urb_enqueue u)) u

/-- The label `error:` of `usb_hcd_submit_urb`.  `INIT_LIST_HEAD (&urb->urb_list)` on an
URB that is on no queue changes no sequence; on an URB that is still linked it leaves a
queue that is no sequence any more, which is `none`. -/
def usb_hcd_submit_error (hcd : usb_hcd) (u : Nat) : Option usb_hcd :=
  let h1 := hcd.mod_urb u (fun x => { x with hcpriv := none })
  if urb_list_find u (h1.eps (h1.urbs u).ep).urb_list then none
  else
    let h2 := h1.mod_urb u (fun x => { x with use_count := x.use_count - 1 })
    let h3 := h2.mod_dev (h2.urbs u).dev (fun d => { d with urbnum := d.urbnum - 1 })
    let h4 := if (h3.urbs u).reject ≠ 0 then h3.emit .wake_up_kill_queue else h3
    some (usb_put_urb h4 u)

/-- The C function `usb_hcd_submit_urb (urb, mem_flags)`; the result is the return value
and the state. -/
def usb_hcd_submit_urb (drv : hc_driver) (k : platform) (hcd : usb_hcd) (u : Nat) :
    Option (Int × usb_hcd) :=
  let m := map_urb_for_dma k (usb_hcd_submit_start hcd u) u
  if m.1 ≠ 0 then (usb_hcd_submit_error m.2 u).map (fun h => (m.1, h))
  else
    let e := usb_hcd_enqueue drv m.2 u
    if e.1 ≠ 0 then (usb_hcd_submit_error (unmap_urb_for_dma e.2 u) u).map (fun h => (e.1, h))
    else some (0, e.2)


/-! ## ohci-q.c: finishing the pending unlinks -/

/-- Modelled from the spec: the macro `tick_before (t1, t2)` of ohci.h (not under src/),
`(s16)((s16)t1 - (s16)t2) < 0` on 16-bit frame numbers: "the pending-removal tick has
not passed". -/
def tick_before (t1 t2 : Nat) : Bool :=
  decide ((((t1 : Int) - (t2 : Int)) % 65536) ≥ 32768)

/-- Where the cursor `struct ed **last` of `finish_unlinks` points: at
`ohci->ed_rm_list` or at the `ed_next` field of an ED. -/
inductive rmref where
  | head
  | node (e : Nat)
deriving DecidableEq, Repr

/-- The C expression `*last`. -/
def rmref.get (ohci : ohci_hcd) : rmref → Option Nat
  | .head => ohci.sched.ed_rm_list
  | .node e => (ohci.sched.eds e).ed_next

/-- The C assignment `*last = v`. -/
def rmref.set (ohci : ohci_hcd) (v : Option Nat) : rmref → ohci_hcd
  | .head => { ohci with sched := { ohci.sched with ed_rm_list := v } }
  | .node e => ohci.mod_ed e (fun x => { x with ed_next := v })

/-- Where the cursor `__hc32 *prev` of `finish_unlinks` points: at `ed->hwHeadP` or at
the `hwNextTD` word of a TD. -/
inductive hwref where
  | head (e : Nat)
  | td (t : Nat)
deriving DecidableEq, Repr

/-- The C expression `*prev`. -/
def hwref.get (ohci : ohci_hcd) : hwref → Nat
  | .head e => (ohci.sched.eds e).hwHeadP
  | .td t => (ohci.tds t).hwNextTD

/-- The C assignment `*prev = v`. -/
def hwref.set (ohci : ohci_hcd) (v : Nat) : hwref → ohci_hcd
  | .head e => ohci.mod_ed e (fun x => { x with hwHeadP := v })
  | .td t => ohci.mod_td t (fun x => { x with hwNextTD := v })

/-- The test at the head of the `for` body of `finish_unlinks`: `true` when the ED is
skipped (`goto skip_ed`), together with the state (`ohci->ed_to_check` may be
cleared). -/
def finish_unlinks_gate (ohci : ohci_hcd) (tick e : Nat) : Bool × ohci_hcd :=
  if HC_IS_RUNNING ohci.hcd.state then
    if tick_before tick (ohci.sched.eds e).tick then (true, ohci)
    else
      match (ohci.sched.eds e).td_list with
      | [] => (false, ohci)
      | t :: _ =>
        if (ohci.tds t).td_dma ≠ (ohci.sched.eds e).hwHeadP &&& TD_MASK then
          if ohci.ed_to_check = some e then (false, { ohci with ed_to_check := none })
          else (true, ohci)
        else (false, ohci)
  else (false, ohci)

/-- The toggle carry of `finish_unlinks`: `ed->hwHeadP` takes the toggle of a TD that
is unlinked before it was retired. -/
def finish_unlinks_toggle (ohci : ohci_hcd) (e t : Nat) : ohci_hcd :=
  let tdINFO := (ohci.tds t).hwINFO
  if tdINFO &&& TD_T = TD_T_DATA0 then
    ohci.mod_ed e (fun x => { x with hwHeadP := clear_bits x.hwHeadP ED_C })
  else if tdINFO &&& TD_T = TD_T_DATA1 then
    ohci.mod_ed e (fun x => { x with hwHeadP := x.hwHeadP ||| ED_C })
  else ohci

/-- The loop `list_for_each_safe (entry, tmp, &ed->td_list)` of `finish_unlinks` over the
entries that are left, with the cursor `prev` and the flag `completed`; the body deletes
no entry but the current one.  `none`: an unlinked URB without `urb->hcpriv`, or
`finish_urb` does not return. -/
def finish_unlinks_tds (fuel e : Nat) :
    List Nat → ohci_hcd → hwref → Bool → Option (ohci_hcd × Bool)
  | [], ohci, _, completed => some (ohci, completed)
  | t :: rest, ohci, prev, completed =>
    let u := (ohci.tds t).urb
    if (ohci.hcd.urbs u).unlinked = 0 then finish_unlinks_tds fuel e rest ohci (.td t) completed
    else
      match (ohci.hcd.urbs u).hcpriv with
      | none => none
      | some p =>
        let savebits := clear_bits (prev.get ohci) TD_MASK
        let o1 := prev.set ohci ((ohci.tds t).hwNextTD ||| savebits)
        let o2 := finish_unlinks_toggle o1 e t
        let o3 := (td_done o2 u t).2.mod_priv p (fun x => { x with td_cnt := x.td_cnt + 1 })
        if (o3.privs p).td_cnt = (o3.privs p).length then
          match finish_urb fuel o3 u 0 with
          | none => none
          | some o4 => finish_unlinks_tds fuel e rest o4 prev true
        else finish_unlinks_tds fuel e rest o3 prev completed

/-- The code between `rescan_this:` and `goto rescan_this` of `finish_unlinks`; the
result carries the flag `modified`. -/
def finish_unlinks_rescan (fuel e : Nat) : Nat → ohci_hcd → Bool → Option (ohci_hcd × Bool)
  | 0, _, _ => none
  | n + 1, ohci, modified =>
    match finish_unlinks_tds fuel e (ohci.sched.eds e).td_list ohci (.head e) false with
    | none => none
    | some (o1, completed) =>
      if completed ∧ (o1.sched.eds e).td_list ≠ [] then
        finish_unlinks_rescan fuel e n o1 true
      else some (o1, modified || completed)

/-- The statements of `finish_unlinks` that make the ED idle: `ed->state = ED_IDLE`, the
`eds_scheduled` count of the ZF Micro quirk, and the cleared `ED_H`, `hwNextED`,
`ED_SKIP` and `ED_DEQUEUE`. -/
def finish_unlinks_idle (ohci : ohci_hcd) (e : Nat) : ohci_hcd :=
  let o1 := ohci.mod_ed e (fun x => { x with state := ED_IDLE })
  let o2 : ohci_hcd :=
    if quirk_zfmicro o1.sched ∧ (o1.sched.eds e).type = PIPE_INTERRUPT then
      { o1 with sched := { o1.sched with eds_scheduled := wrap32 ((o1.sched.eds_scheduled : Int) - 1) } }
    else o1
  let o3 := o2.mod_ed e (fun x => { x with hwHeadP := clear_bits x.hwHeadP ED_H, hwNextED := 0 })
  o3.mod_ed e (fun x => { x with hwINFO := clear_bits x.hwINFO (ED_SKIP ||| ED_DEQUEUE) })

/-- The rest of the `for` body of `finish_unlinks` for an ED that is not skipped: it is
taken off `ed_rm_list`, its unlinked URBs are finished, it becomes idle and, with work
left and the controller running, it is scheduled again.  The result carries
`modified`. -/
def finish_unlinks_ed (fuel : Nat) (ohci : ohci_hcd) (last : rmref) (e : Nat) :
    Option (ohci_hcd × Bool) :=
  let o1 := last.set ohci (ohci.sched.eds e).ed_next
  let o2 := o1.mod_ed e (fun x => { x with ed_next := none })
  match finish_unlinks_rescan fuel e fuel o2 false with
  | none => none
  | some (o3, modified) =>
    let o4 := finish_unlinks_idle o3 e
    if (o4.sched.eds e).td_list ≠ [] ∧ HC_IS_RUNNING o4.hcd.state then
      match ed_schedule fuel o4.sched e with
      | none => none
      | some r => some ({ o4 with sched := r.2 }, modified)
    else some (o4, modified)

/-- The `for (last = &ohci->ed_rm_list, ed = *last; ed != NULL; ed = *last)` loop of
`finish_unlinks`, with `goto rescan_all` starting it again. -/
def finish_unlinks_loop (fuel tick : Nat) : Nat → ohci_hcd → rmref → Option ohci_hcd
  | 0, _, _ => none
  | n + 1, ohci, last =>
    match last.get ohci with
    | none => some ohci
    | some e =>
      let g := finish_unlinks_gate ohci tick e
      if g.1 then finish_unlinks_loop fuel tick n g.2 (.node e)
      else
        match finish_unlinks_ed fuel g.2 last e with
        | none => none
        | some (o1, modified) =>
          if modified then finish_unlinks_loop fuel tick n o1 .head
          else finish_unlinks_loop fuel tick n o1 last

/-- The tail of `finish_unlinks`: with nothing left on `ed_rm_list` the control and bulk
lists are switched on again and kicked. -/
def finish_unlinks_restart (ohci : ohci_hcd) : ohci_hcd :=
  if HC_IS_RUNNING ohci.hcd.state ∧ ohci.hcd.state ≠ HC_STATE_QUIESCING
      ∧ ohci.sched.ed_rm_list.isNone then
    let c1 := ohci.sched.ed_controltail.isSome && (ohci.sched.hc_control &&& OHCI_CTRL_CLE == 0)
    let o1 := if c1 then ohci.writel 0 .ed_controlcurrent else ohci
    let c2 := o1.sched.ed_bulktail.isSome && (o1.sched.hc_control &&& OHCI_CTRL_BLE == 0)
    let o2 := if c2 then o1.writel 0 .ed_bulkcurrent else o1
    let command := (if o2.sched.ed_controltail.isSome then OHCI_CLF else 0)
      ||| (if o2.sched.ed_bulktail.isSome then OHCI_BLF else 0)
    let control := (if c1 then OHCI_CTRL_CLE else 0) ||| (if c2 then OHCI_CTRL_BLE else 0)
    let o3 : ohci_hcd :=
      if control ≠ 0 then
        let hc := o2.sched.hc_control ||| control
        ({ o2 with sched := { o2.sched with hc_control := hc } } : ohci_hcd).writel hc .control
      else o2
    if command ≠ 0 then o3.writel command .cmdstatus else o3
  else ohci

/-- The C function `finish_unlinks (ohci, tick)`. -/
def finish_unlinks (fuel : Nat) (ohci : ohci_hcd) (tick : Nat) : Option ohci_hcd :=
  match finish_unlinks_loop fuel tick fuel ohci .head with
  | none => none
  | some o1 => some (finish_unlinks_restart o1)

/-! ## mm/dmapool.c -/

/-- The C type `unsigned int` (and the 32-bit `size_t` of this target): a sum wraps at
`2^32`. -/
def u32 (x : Nat) : Nat := x % 4294967296

/-- Modelled from the spec: the macro `ALIGN (x, a)` of `include/linux/kernel.h` (not
under src/), `x` rounded up to a multiple of the power of two `a`. -/
def ALIGN (x a : Nat) : Nat := u32 (x + (a - 1)) / a * a

/-- The fields of `struct dma_page`; `words off` is the `int` stored at
`page->vaddr + off`, the link of the free list. -/
structure dma_page where
  vaddr : Nat := 0
  dma : Nat := 0
  in_use : Nat := 0
  offset : Nat := 0
  words : Nat → Nat := fun _ => 0

/-- The fields of `struct dma_pool` that the allocator computes with; `page_list` is the
kernel list of its pages, first entry first. -/
structure dma_pool where
  size : Nat
  allocation : Nat
  boundary : Nat
  page_list : List dma_page := []

/-- The C function `dma_pool_create (name, dev, size, align, boundary)`; `none` is the
`NULL` result.  `ok` tells whether `kmalloc_node` and `device_create_file` succeed. -/
def dma_pool_create (ok : Bool) (size align boundary : Nat) : Option dma_pool :=
  if align ≠ 0 ∧ align &&& (align - 1) ≠ 0 then none
  else
    let align := if align = 0 then 1 else align
    if size = 0 then none
    else
      let size := if size < 4 then 4 else size
      let size := if size % align ≠ 0 then ALIGN size align else size
      let allocation := max size PAGE_SIZE
      if boundary ≠ 0 ∧ (boundary < size ∨ boundary &&& (boundary - 1) ≠ 0) then none
      else
        let boundary := if boundary = 0 then allocation else boundary
        if ok then some { size := size, allocation := allocation, boundary := boundary }
        else none

/-- The `do { ... } while (offset < pool->allocation)` loop of `pool_initialise_page`,
entered with `offset` and `next_boundary`; `words` is the memory of the page. -/
def pool_initialise_loop (pool : dma_pool) :
    Nat → Nat → Nat → (Nat → Nat) → Option (Nat → Nat)
  | 0, _, _, _ => none
  | fuel + 1, offset, next_boundary, words =>
    let next := u32 (offset + pool.size)
    let cross : Bool := decide (u32 (next + pool.size) ≥ next_boundary)
    let next2 := if cross then next_boundary else next
    let nb2 := if cross then u32 (next_boundary + pool.boundary) else next_boundary
    let w2 := upd words offset next2
    if next2 < pool.allocation then pool_initialise_loop pool fuel next2 nb2 w2
    else some w2

/-- The C function `pool_initialise_page (pool, page)`. -/
def pool_initialise_page (fuel : Nat) (pool : dma_pool) (page : dma_page) : Option dma_page :=
  match pool_initialise_loop pool fuel 0 (u32 pool.boundary) page.words with
  | none => none
  | some w => some { page with words := w }

/-- The C function `pool_alloc_page (pool, mem_flags)`; `fresh` is what `kmalloc` and
`dma_alloc_coherent` deliver: `none` when one of them fails, else the address and the bus
address of `pool->allocation` bytes.  The result is the pool with the new page in front,
or the unchanged pool after a failure (the `NULL` result). -/
def pool_alloc_page (fuel : Nat) (pool : dma_pool) (fresh : Option (Nat × Nat)) :
    Option (dma_pool × Bool) :=
  match fresh with
  | none => some (pool, false)
  | some (v, d) =>
    if v = 0 then some (pool, false)
    else
      match pool_initialise_page fuel pool { vaddr := v, dma := d } with
      | none => none
      | some page =>
        let page2 : dma_page := { page with in_use := 0, offset := 0 }
        some ({ pool with page_list := page2 :: pool.page_list }, true)

/-- The search loop of `dma_pool_alloc`: the index of the first page with
`page->offset < pool->allocation`. -/
def pool_find_free (allocation : Nat) : List dma_page → Nat → Option Nat
  | [], _ => none
  | p :: rest, i => if p.offset < allocation then some i else pool_find_free allocation rest (i + 1)

/-- The code at `ready:` in `dma_pool_alloc`, for the page with index `i`: the result is
the pool, the returned address and `*handle`. -/
def pool_take_block (pool : dma_pool) (i : Nat) : dma_pool × Nat × Nat :=
  match pool.page_list.get? i with
  | none => (pool, 0, 0)
  | some page =>
    let offset := page.offset
    let page2 : dma_page := { page with in_use := page.in_use + 1, offset := page.words offset }
    ({ pool with page_list := pool.page_list.set i page2 }, offset + page.vaddr, offset + page.dma)

/-- The C function `dma_pool_alloc (pool, mem_flags, handle)`.  `wait` is
`mem_flags & __GFP_WAIT`; `fresh n` is what the page allocator delivers at the `n`-th
attempt of this call.  The result is the pool, the returned address (0 is `NULL`) and
`*handle`, which is `handle` when nothing is written.  `none`: the call sleeps for
ever, or a new page cannot be initialised. -/
def dma_pool_alloc (fuel : Nat) (wait : Bool) (fresh : Nat → Option (Nat × Nat))
    (handle : Nat) : Nat → Nat → dma_pool → Option (dma_pool × Nat × Nat)
  | 0, _, _ => none
  | tries + 1, n, pool =>
    match pool_find_free pool.allocation pool.page_list 0 with
    | some i => some (pool_take_block pool i)
    | none =>
      match pool_alloc_page fuel pool (fresh n) with
      | none => none
      | some (pool2, true) => some (pool_take_block pool2 0)
      | some (pool2, false) =>
        if wait then dma_pool_alloc fuel wait fresh handle tries (n + 1) pool2
        else some (pool2, 0, handle)

/-! ## hcd.c and urb.c: cancelling -/

/-- The C function `usb_rh_urb_dequeue (hcd, urb, status)`. -/
def usb_rh_urb_dequeue (hcd : usb_hcd) (u : Nat) (status : Int) : Int × usb_hcd :=
  let r := usb_hcd_check_unlink_urb hcd u status
  if r.1 ≠ 0 then r
  else if usb_endpoint_num (r.2.eps (r.2.urbs u).ep) = 0 then r
  else
    let h1 := if r.2.uses_new_polling then r.2 else r.2.emit .del_timer
    if h1.status_urb ≠ some u then (r.1, h1)
    else
      let h2 : usb_hcd := { h1 with status_urb := none }
      (r.1, usb_hcd_giveback_urb (usb_hcd_unlink_urb_from_ep h2 u) u status)

/-- The C function `unlink1 (hcd, urb, status)`; the call
`hcd->driver->urb_dequeue (hcd, urb, status)` is recorded. -/
def unlink1 (drv : hc_driver) (hcd : usb_hcd) (u : Nat) (status : Int) : Int × usb_hcd :=
  if is_root_hub (hcd.devs (hcd.urbs u).dev) then usb_rh_urb_dequeue hcd u status
  else drv.urb_dequeue (hcd.emit (.urb_dequeue u status)) u status

/-- The C function `usb_hcd_unlink_urb (urb, status)`.  The reference on the device
(`usb_get_dev`, `usb_put_dev`) is taken and dropped again and is not kept in the model. -/
def usb_hcd_unlink_urb (drv : hc_driver) (hcd : usb_hcd) (u : Nat) (status : Int) :
    Int × usb_hcd :=
  if (hcd.urbs u).use_count > 0 then
    let r := unlink1 drv hcd u status
    (if r.1 = 0 then -EINPROGRESS else r.1, r.2)
  else (-EIDRM, hcd)

/-- Modelled from the spec: the macro `wait_event (wq, condition)` of
`include/linux/wait.h` (not under src/), a condition wait without timeout: the caller
sleeps until `condition` holds.  `env` is one step of whatever else runs in the meantime
(interrupt handlers, other threads); `none`: the condition does not come true within
`fuel` such steps. -/
def wait_event (env : usb_hcd → usb_hcd) (cond : usb_hcd → Bool) : Nat → usb_hcd → Option usb_hcd
  | 0, hcd => if cond hcd then some hcd else none
  | fuel + 1, hcd => if cond hcd then some hcd else wait_event env cond fuel (env hcd)

/-- The C function `usb_kill_urb (urb)` for a non-`NULL` URB. -/
def usb_kill_urb (drv : hc_driver) (env : usb_hcd → usb_hcd) (fuel : Nat) (hcd : usb_hcd)
    (u : Nat) : Option usb_hcd :=
  if ((hcd.urbs u).has_dev && (hcd.urbs u).has_ep) = false then some hcd
  else
    let h1 := hcd.mod_urb u (fun x => { x with reject := x.reject + 1 })
    let r := usb_hcd_unlink_urb drv h1 u (-ENOENT)
    match wait_event env (fun h => decide ((h.urbs u).use_count = 0)) fuel r.2 with
    | none => none
    | some h3 => some (h3.mod_urb u (fun x => { x with reject := x.reject - 1 }))

/-- The C function `usb_anchor_urb (urb, anchor)`. -/
def usb_anchor_urb (hcd : usb_hcd) (u a : Nat) : usb_hcd :=
  let h1 := usb_get_urb hcd u
  let a1 : usb_anchor := { h1.anchors a with urb_list := (h1.anchors a).urb_list ++ [u] }
  let h2 : usb_hcd := { h1 with anchors := upd h1.anchors a a1 }
  let h3 := h2.mod_urb u (fun x => { x with anchor := some a })
  if (h3.anchors a).poisoned then h3.mod_urb u (fun x => { x with reject := x.reject + 1 })
  else h3

/-- The C function `usb_kill_anchored_urbs (anchor)`; `n` bounds the rounds of the
`while (!list_empty (&anchor->urb_list))` loop, `none`: the loop does not end within `n`
rounds, or a `usb_kill_urb` does not return. -/
def usb_kill_anchored_urbs (drv : hc_driver) (env : usb_hcd → usb_hcd) (fuel a : Nat) :
    Nat → usb_hcd → Option usb_hcd
  | 0, _ => none
  | n + 1, hcd =>
    match (hcd.anchors a).urb_list.getLast? with
    | none => some hcd
    | some victim =>
      match usb_kill_urb drv env fuel (usb_get_urb hcd victim) victim with
      | none => none
      | some h2 => usb_kill_anchored_urbs drv env fuel a n (usb_put_urb h2 victim)

/-- The first loop of `usb_hcd_flush_endpoint` with its `goto rescan`: the first URB of
the queue that is not yet unlinked gets `unlink1 (hcd, urb, -ESHUTDOWN)`, and the scan
starts again. -/
def flush_rescan (drv : hc_driver) (p : Nat) : Nat → usb_hcd → Option usb_hcd
  | 0, _ => none
  | n + 1, hcd =>
    match (hcd.eps p).urb_list.find? (fun u => decide ((hcd.urbs u).unlinked = 0)) with
    | none => some hcd
    | some u =>
      let h1 := usb_get_urb hcd u
      let r := unlink1 drv h1 u (-ESHUTDOWN)
      flush_rescan drv p n (usb_put_urb r.2 u)

/-- The second loop of `usb_hcd_flush_endpoint`:
`while (!list_empty (&ep->urb_list))` the last URB of the queue is killed. -/
def flush_wait (drv : hc_driver) (env : usb_hcd → usb_hcd) (fuel p : Nat) :
    Nat → usb_hcd → Option usb_hcd
  | 0, _ => none
  | n + 1, hcd =>
    match (hcd.eps p).urb_list.getLast? with
    | none => some hcd
    | some u =>
      match usb_kill_urb drv env fuel (usb_get_urb hcd u) u with
      | none => none
      | some h2 => flush_wait drv env fuel p n (usb_put_urb h2 u)

/-- The C function `usb_hcd_flush_endpoint (udev, ep)` for a non-`NULL` endpoint. -/
def usb_hcd_flush_endpoint (drv : hc_driver) (env : usb_hcd → usb_hcd) (fuel n : Nat)
    (hcd : usb_hcd) (p : Nat) : Option usb_hcd :=
  match flush_rescan drv p n hcd with
  | none => none
  | some h1 => flush_wait drv env fuel p n h1

/-- The way a controller driver completes an URB, as `finish_urb` of ohci-q.c and
`usb_rh_urb_dequeue` do: `usb_hcd_unlink_urb_from_ep` and then
`usb_hcd_giveback_urb`. -/
def hcd_complete_urb (hcd : usb_hcd) (u : Nat) (status : Int) : usb_hcd :=
  usb_hcd_giveback_urb (usb_hcd_unlink_urb_from_ep hcd u) u status

/-- Modelled from the spec: one step of the controller and of the interrupt path of its
driver (ohci-hcd.c and the hardware are not under src/) while a caller sleeps.  `pick`
names the URB that is retired next and the status that the hardware reports, if any.
Only an URB that is on its endpoint queue and whose unlink was requested is completed
here: the other URBs stay in flight. -/
def hc_step (pick : usb_hcd → Option (Nat × Int)) (hcd : usb_hcd) : usb_hcd :=
  match pick hcd with
  | none => hcd
  | some (u, status) =>
    if urb_list_find u (hcd.eps (hcd.urbs u).ep).urb_list = true ∧ (hcd.urbs u).unlinked ≠ 0
    then hcd_complete_urb hcd u status
    else hcd

/-! ### usb_kill_urb under concurrency -/

/-- Where a thread stands inside `usb_kill_urb (urb)`: before the first statement, after
`atomic_inc (&urb->reject)`, inside `usb_hcd_unlink_urb` after the test
`atomic_read (&urb->use_count) > 0` succeeded, in `wait_event`, after `wait_event`, and
after the return. -/
inductive kill_pc where
  | start
  | marked
  | live
  | waiting
  | woken
  | returned
deriving DecidableEq, Repr

/-- One atomic step of a thread that runs `usb_kill_urb (u)`; `none` when the thread
cannot move (it sleeps in `wait_event`, or it has returned).  The test of `use_count`
and the call of `unlink1` are separate steps, as `usb_hcd_unlink_urb` drops
`hcd_urb_unlink_lock` between them. -/
def usb_kill_urb_step (drv : hc_driver) (u : Nat) (pc : kill_pc) (hcd : usb_hcd) :
    Option (kill_pc × usb_hcd) :=
  match pc with
  | .start =>
    if ((hcd.urbs u).has_dev && (hcd.urbs u).has_ep) = false then some (.returned, hcd)
    else some (.marked, hcd.mod_urb u (fun x => { x with reject := x.reject + 1 }))
  | .marked =>
    if (hcd.urbs u).use_count > 0 then some (.live, hcd) else some (.waiting, hcd)
  | .live => some (.waiting, (unlink1 drv hcd u (-ENOENT)).2)
  | .waiting => if (hcd.urbs u).use_count = 0 then some (.woken, hcd) else none
  | .woken => some (.returned, hcd.mod_urb u (fun x => { x with reject := x.reject - 1 }))
  | .returned => none

/-- Two threads inside `usb_kill_urb` for the same URB, and the shared state. -/
structure kill2_state where
  hcd : usb_hcd
  pc1 : kill_pc
  pc2 : kill_pc

/-- What happens next in a run with two killers: the first or the second thread makes a
step, or the controller driver completes a queued URB with some hardware status. -/
inductive kill2_action where
  | first
  | second
  | complete (w : Nat) (status : Int)
deriving DecidableEq, Repr

/-- One step of the interleaving; `none` when the action is not possible in this state:
the thread cannot move, or the URB to complete is not on its endpoint queue. -/
def kill2_next (drv : hc_driver) (u : Nat) (s : kill2_state) : kill2_action → Option kill2_state
  | .first =>
    match usb_kill_urb_step drv u s.pc1 s.hcd with
    | none => none
    | some (pc, h) => some { s with hcd := h, pc1 := pc }
  | .second =>
    match usb_kill_urb_step drv u s.pc2 s.hcd with
    | none => none
    | some (pc, h) => some { s with hcd := h, pc2 := pc }
  | .complete w status =>
    if urb_list_find w (s.hcd.eps (s.hcd.urbs w).ep).urb_list then
      some { s with hcd := hcd_complete_urb s.hcd w status }
    else none

/-- A run: the actions of a schedule, one after the other. -/
def kill2_run (drv : hc_driver) (u : Nat) : List kill2_action → kill2_state → Option kill2_state
  | [], s => some s
  | a :: rest, s =>
    match kill2_next drv u s a with
    | none => none
    | some s1 => kill2_run drv u rest s1

/-! ## urb.c: poisoning -/

/-- The C function `usb_poison_urb (urb)` for a non-`NULL` URB. -/
def usb_poison_urb (drv : hc_driver) (env : usb_hcd → usb_hcd) (fuel : Nat) (hcd : usb_hcd)
    (u : Nat) : Option usb_hcd :=
  if ((hcd.urbs u).has_dev && (hcd.urbs u).has_ep) = false then some hcd
  else
    let h1 := hcd.mod_urb u (fun x => { x with reject := x.reject + 1 })
    let r := usb_hcd_unlink_urb drv h1 u (-ENOENT)
    wait_event env (fun h => decide ((h.urbs u).use_count = 0)) fuel r.2

/-- The C function `usb_unpoison_urb (urb)` for a non-`NULL` URB. -/
def usb_unpoison_urb (hcd : usb_hcd) (u : Nat) : usb_hcd :=
  hcd.mod_urb u (fun x => { x with reject := x.reject - 1 })


/-! ## urb.c: the polling interval of a periodic URB -/

/-- Modelled from the spec: `enum usb_device_speed` of `include/linux/usb/ch9.h` (not
under src/): "SuperSpeed", "high speed", "full/low-speed"; the two others are the values
no `case` of `usb_submit_urb` names. -/
inductive usb_device_speed
  | USB_SPEED_UNKNOWN
  | USB_SPEED_LOW
  | USB_SPEED_FULL
  | USB_SPEED_HIGH
  | USB_SPEED_VARIABLE
  | USB_SPEED_SUPER
  deriving DecidableEq, Repr

/-- Modelled from the spec: transfer types of `include/linux/usb/ch9.h` (not under src/),
the two low bits of `bmAttributes`. -/
def USB_ENDPOINT_XFER_CONTROL : Nat := 0
/-- Modelled from the spec: transfer type of ch9.h, "isochronous". -/
def USB_ENDPOINT_XFER_ISOC : Nat := 1
/-- Modelled from the spec: transfer type of ch9.h, see `USB_ENDPOINT_XFER_CONTROL`. -/
def USB_ENDPOINT_XFER_BULK : Nat := 2
/-- Modelled from the spec: transfer type of ch9.h, "interrupt". -/
def USB_ENDPOINT_XFER_INT : Nat := 3

/-- The halving loop behind `ilog2`: the number of times `n` can be halved before it
drops below 2, at most `fuel` times. -/
def ilog2_loop : Nat → Nat → Nat
  | 0, _ => 0
  | fuel + 1, n => if 2 ≤ n then ilog2_loop fuel (n / 2) + 1 else 0

/-- Modelled from the spec: `ilog2 (n)` of `include/linux/log2.h` (not under src/) for a
positive `int`, "floor(log2(n))". -/
def ilog2 (n : Int) : Nat := ilog2_loop 32 n.toNat

/-- The statements of `case USB_SPEED_HIGH:` in `usb_submit_urb`, up to the `break`: the
new `urb->interval` and `max`. -/
def interval_high (interval : Int) : Int × Int :=
  (if interval > 1024 * 8 then 1024 * 8 else interval, 1024 * 8)

/-- The statements of `case USB_SPEED_FULL: case USB_SPEED_LOW:` in `usb_submit_urb`: the
error code, or the new `urb->interval` and `max`. -/
def interval_full (xfertype : Nat) (interval : Int) : Except Int (Int × Int) :=
  if xfertype = USB_ENDPOINT_XFER_INT then
    if interval > 255 then .error (-EINVAL) else .ok (interval, 128)
  else .ok (if interval > 1024 then 1024 else interval, 1024)

/-- The inner `switch (dev->speed)` of `usb_submit_urb`: the error code, or the new
`urb->interval` and `max`.  `case USB_SPEED_SUPER:` has no `break` and runs on into
`case USB_SPEED_HIGH:`. -/
def interval_speed (xfertype : Nat) (speed : usb_device_speed) (interval : Int) :
    Except Int (Int × Int) :=
  match speed with
  | .USB_SPEED_SUPER =>
    if interval > 1 <<< 15 then .error (-EINVAL)
    else .ok (interval_high interval)
  | .USB_SPEED_HIGH => .ok (interval_high interval)
  | .USB_SPEED_FULL => interval_full xfertype interval
  | .USB_SPEED_LOW => interval_full xfertype interval
  | _ => .error (-EINVAL)

/-- The statement `urb->interval = min (max, 1 << ilog2 (urb->interval));` of
`usb_submit_urb`: the new `urb->interval`. -/
def interval_round (max interval : Int) : Int :=
  min max (((1 <<< ilog2 interval : Nat) : Int))

/-- The last `switch (xfertype)` of `usb_submit_urb (urb, mem_flags)`, which an URB reaches
when it has passed the checks before it: the value `usb_submit_urb` returns there, or the
`urb->interval` with which the URB goes on to `usb_hcd_submit_urb`. -/
def usb_submit_urb_interval (xfertype : Nat) (speed : usb_device_speed) (interval : Int) :
    Except Int Int :=
  if xfertype = USB_ENDPOINT_XFER_ISOC ∨ xfertype = USB_ENDPOINT_XFER_INT then
    if interval ≤ 0 then .error (-EINVAL)
    else
      match interval_speed xfertype speed interval with
      | .error e => .error e
      | .ok (i, max) => .ok (interval_round max i)
  else .ok interval


/-! ## hcd.c: string descriptors of the root hub -/

/-- Modelled from the spec: `USB_DT_STRING` of `include/linux/usb/ch9.h` (not under
src/), the descriptor type of a string descriptor. -/
def USB_DT_STRING : Nat := 3

/-- The C expression `*s` at index `i` of a NUL-terminated string whose bytes before the
NUL are `s`: `none` for an index behind the terminating NUL. -/
def str_read (s : List Nat) (i : Nat) : Option Nat := (s ++ [0]).get? i

/-- The two bytes that one round of the loop of `ascii2desc` stores for the value `t`:
`*buf++ = t;` and `*buf++ = t >> 8;`, each cut to a `u8`. -/
def desc_pair (t : Nat) : List Nat := [t % 256, (t >>> 8) % 256]

/-- The loop `while (n--) { *buf++ = t; if (!n--) break; *buf++ = t >> 8;
t = (unsigned char)*s++; }` of `ascii2desc`: `out` are the bytes stored through `buf` so
far, `si` is the number of bytes read from `s`.  Each round takes two from `n`, so `fuel`
rounds with `n < 2 * fuel` are enough; `none`: the loop reads behind the NUL (or the
rounds are used up). -/
def ascii2desc_loop (s : List Nat) : Nat → Nat → Nat → Nat → List Nat → Option (List Nat × Nat)
  | 0, _, _, _, _ => none
  | fuel + 1, n, t, si, out =>
    if n = 0 then some (out, si)
    else
      let out1 := out ++ [t % 256]
      if n - 1 = 0 then some (out1, si)
      else
        let out2 := out1 ++ [(t >>> 8) % 256]
        match str_read s si with
        | none => none
        | some c => ascii2desc_loop s fuel (n - 1 - 1) (c % 256) (si + 1) out2

/-- The C function `ascii2desc (s, buf, len)` for the string with the bytes `s` before its
NUL: the bytes stored at `buf [0]`, `buf [1]`, ..., the number of bytes read from `s`, and
the return value.  `unsigned` arithmetic wraps at `2^32`. -/
def ascii2desc (s : List Nat) (len : Nat) : Option (List Nat × Nat × Nat) :=
  let t0 := (2 + 2 * s.length) % 4294967296
  let t1 := if t0 > 254 then 254 else t0
  let len1 := if len > t1 then t1 else len
  let t2 := (t1 + (USB_DT_STRING <<< 8)) % 4294967296
  match ascii2desc_loop s (len1 / 2 + 1) len1 t2 0 [] with
  | none => none
  | some (out, si) => some (out, si, len1)


/-! ## hcd.c: bus numbers -/

/-- Modelled from the spec: errno value of `include/asm-generic/errno-base.h` (not under
src/), "-E2BIG". -/
def E2BIG : Int := 7

/-- The constant `USB_MAXBUS` of hcd.c. -/
def USB_MAXBUS : Nat := 64

/-- The fields of `struct usb_bus` that the registration uses; `usb_bus_init` sets
`busnum = -1`. -/
structure usb_bus where
  busnum : Int := -1

/-- The global data of hcd.c behind the registration: the bits of `busmap.busmap` (bit
`i` is `busmap i`), the list `usb_bus_list`, and the buses. -/
structure bus_registry where
  busmap : Nat → Bool := fun _ => false
  usb_bus_list : List Nat := []
  buses : Nat → usb_bus := fun _ => {}

/-- The upward search behind `find_next_zero_bit`: the first index from `i` on whose bit
is clear, among `count` indices; `i + count` when all of them are set. -/
def find_zero_from (map : Nat → Bool) : Nat → Nat → Nat
  | 0, i => i
  | count + 1, i => if map i = false then i else find_zero_from map count (i + 1)

/-- Modelled from the spec: `find_next_zero_bit (addr, size, offset)` of the kernel bit
library (not under src/): the lowest index from `offset` on, below `size`, whose bit is
clear, and `size` when there is none. -/
def find_next_zero_bit (map : Nat → Bool) (size offset : Nat) : Nat :=
  if offset ≥ size then size else find_zero_from map (size - offset) offset

/-- Modelled from the spec: `set_bit (nr, addr)` of the kernel bit library. -/
def set_bit (nr : Nat) (map : Nat → Bool) : Nat → Bool := upd map nr true

/-- Modelled from the spec: `clear_bit (nr, addr)` of the kernel bit library. -/
def clear_bit (nr : Nat) (map : Nat → Bool) : Nat → Bool := upd map nr false

/-- The C function `usb_register_bus (bus)`: the return value and the new global data.
`list_add` puts the bus at the head of `usb_bus_list`; the notifier call and the log
message are not kept. -/
def usb_register_bus (g : bus_registry) (b : Nat) : Int × bus_registry :=
  let busnum := find_next_zero_bit g.busmap USB_MAXBUS 1
  if busnum ≥ USB_MAXBUS then (-E2BIG, g)
  else
    (0, { g with
      busmap := set_bit busnum g.busmap,
      buses := upd g.buses b { g.buses b with busnum := busnum },
      usb_bus_list := b :: g.usb_bus_list })

/-- The C function `usb_deregister_bus (bus)` for a bus whose `busnum` is not negative
(a bus that was registered). -/
def usb_deregister_bus (g : bus_registry) (b : Nat) : bus_registry :=
  { g with
    usb_bus_list := g.usb_bus_list.erase b,
    busmap := clear_bit (g.buses b).busnum.toNat g.busmap }


/-! ## hcd.c, ohci-mem.c and ohci-q.c: the ED of an endpoint -/

/-- Modelled from the spec: `ED_ISO` bit of `ed->hwINFO`, ohci.h (not under src/). -/
def ED_ISO : Nat := 0x8000
/-- Modelled from the spec: `ED_LOWSPEED` bit of `ed->hwINFO`, ohci.h (not under src/). -/
def ED_LOWSPEED : Nat := 0x2000
/-- Modelled from the spec: `ED_OUT`, direction field of `ed->hwINFO`, ohci.h (not under
src/). -/
def ED_OUT : Nat := 0x800
/-- Modelled from the spec: `ED_IN`, direction field of `ed->hwINFO`, ohci.h (not under
src/). -/
def ED_IN : Nat := 0x1000
/-- Modelled from the spec: `USB_DIR_IN` of `include/linux/usb/ch9.h` (not under src/), the
direction bit of `bEndpointAddress`. -/
def USB_DIR_IN : Nat := 0x80

/-- Modelled from the spec: the macro `usb_pipedevice (pipe)` of `include/linux/usb.h` (not
under src/), `(pipe >> 8) & 0x7f`. -/
def usb_pipedevice (pipe : Nat) : Nat := (pipe >>> 8) &&& 0x7f

/-- Modelled from the spec: the macro `usb_pipetype (pipe)` of `include/linux/usb.h` (not
under src/), `(pipe >> 30) & 3`. -/
def usb_pipetype (pipe : Nat) : Nat := (pipe >>> 30) &&& 3

/-- The C types `int` and `long` of this 32-bit target: a result outside
`-2^31 .. 2^31 - 1` wraps around, as the machine arithmetic does. -/
def s32 (z : Int) : Int := (z + 2147483648) % 4294967296 - 2147483648

/-- Modelled from the spec: the macro `BitTime (bytecount)` of hcd.h (not under src/),
`(7 * 8 * bytecount / 6)` in `int` arithmetic. -/
def BitTime (bytecount : Int) : Int := Int.tdiv (s32 (56 * bytecount)) 6

/-- Modelled from the spec: `BW_HOST_DELAY` of hcd.h (not under src/), nanoseconds. -/
def BW_HOST_DELAY : Int := 1000
/-- Modelled from the spec: `BW_HUB_LS_SETUP` of hcd.h (not under src/), nanoseconds. -/
def BW_HUB_LS_SETUP : Int := 333
/-- Modelled from the spec: `USB2_HOST_DELAY` of hcd.h (not under src/), nanoseconds. -/
def USB2_HOST_DELAY : Nat := 5

/-- Modelled from the spec: the macro `HS_NSECS (bytes)` of hcd.h (not under src/),
`((55 * 8 * 2083) + (2083UL * (3 + BitTime (bytes)))) / 1000 + USB2_HOST_DELAY` in
`unsigned long` arithmetic. -/
def HS_NSECS (bytes : Int) : Nat :=
  u32 (u32 (55 * 8 * 2083 + u32 (2083 * wrap32 (s32 (3 + BitTime bytes)))) / 1000
    + USB2_HOST_DELAY)

/-- Modelled from the spec: the macro `HS_NSECS_ISO (bytes)` of hcd.h (not under src/),
`((38 * 8 * 2083) + (2083UL * (3 + BitTime (bytes)))) / 1000 + USB2_HOST_DELAY` in
`unsigned long` arithmetic. -/
def HS_NSECS_ISO (bytes : Int) : Nat :=
  u32 (u32 (38 * 8 * 2083 + u32 (2083 * wrap32 (s32 (3 + BitTime bytes)))) / 1000
    + USB2_HOST_DELAY)

/-- The statement `tmp = (c * (31L + 10L * BitTime (bytecount))) / 1000L;` of
`usb_calc_bus_time`: `long` arithmetic, stored into the `unsigned long tmp`. -/
def bus_time_tmp (c bytecount : Int) : Nat :=
  wrap32 (Int.tdiv (s32 (c * s32 (31 + s32 (10 * BitTime bytecount)))) 1000)

/-- The C function `usb_calc_bus_time (speed, is_input, isoc, bytecount)` of hcd.c; the
sums with the `unsigned long tmp` are `unsigned long`, the result is a `long`. -/
def usb_calc_bus_time (speed : usb_device_speed) (is_input isoc : Bool) (bytecount : Int) :
    Int :=
  match speed with
  | .USB_SPEED_LOW =>
    if is_input then
      s32 (64060 + 2 * BW_HUB_LS_SETUP + BW_HOST_DELAY + bus_time_tmp 67667 bytecount)
    else
      s32 (64107 + 2 * BW_HUB_LS_SETUP + BW_HOST_DELAY + bus_time_tmp 66700 bytecount)
  | .USB_SPEED_FULL =>
    if isoc then
      s32 ((if is_input then 7268 else 6265) + BW_HOST_DELAY + bus_time_tmp 8354 bytecount)
    else
      s32 (9107 + BW_HOST_DELAY + bus_time_tmp 8354 bytecount)
  | .USB_SPEED_HIGH =>
    if isoc then s32 (HS_NSECS_ISO bytecount) else s32 (HS_NSECS bytecount)
  | _ => -1

/-- The C function `ed_alloc (hc, mem_flags)` of ohci-mem.c.  `new_ed` is the answer of
`dma_pool_alloc (hc->ed_cache, ...)`: `none`, or the block and its bus address.  The block
is zeroed (`memset`), its `td_list` is empty, and `ed->dma` is the bus address. -/
def ed_alloc (ohci : ohci_hcd) (new_ed : Option (Nat × Nat)) : Option Nat × ohci_hcd :=
  match new_ed with
  | none => (none, ohci)
  | some (e, dma) => (some e, ohci.mod_ed e (fun _ => { dma := dma }))

/-- The C function `td_alloc (hc, mem_flags)` of ohci-mem.c.  `new_td` is the answer of
`dma_pool_alloc (hc->td_cache, ...)`.  The block is zeroed, and `td->hwNextTD` and
`td->td_dma` are the bus address. -/
def td_alloc (ohci : ohci_hcd) (new_td : Option (Nat × Nat)) : Option Nat × ohci_hcd :=
  match new_td with
  | none => (none, ohci)
  | some (t, dma) => (some t, ohci.mod_td t (fun _ => { hwNextTD := dma, td_dma := dma }))

/-- The C function `ed_free (hc, ed)` of ohci-mem.c: the call
`dma_pool_free (hc->ed_cache, ed, ed->dma)` is recorded. -/
def ed_free (ohci : ohci_hcd) (e : Nat) : ohci_hcd :=
  { ohci with ed_cache_free := ohci.ed_cache_free ++ [(e, (ohci.sched.eds e).dma)] }

/-- The `u32 info` that `ed_get` computes for `ed->hwINFO`. -/
def ed_get_info (ep : usb_host_endpoint) (speed : usb_device_speed) (pipe type : Nat) : Nat :=
  let is_out : Bool := decide (ep.bEndpointAddress &&& USB_DIR_IN = 0)
  let i0 := usb_pipedevice pipe
  let i1 := i0 ||| u32 ((ep.bEndpointAddress &&& (0xFFFFFFFF ^^^ USB_DIR_IN)) <<< 7)
  let i2 := i1 ||| u32 (ep.wMaxPacketSize <<< 16)
  let i3 := if speed = .USB_SPEED_LOW then i2 ||| ED_LOWSPEED else i2
  if type ≠ PIPE_CONTROL then
    let i4 := i3 ||| (if is_out then ED_OUT else ED_IN)
    if type ≠ PIPE_BULK ∧ type = PIPE_ISOCHRONOUS then i4 ||| ED_ISO else i4
  else i3

/-- The statements of `ed_get` for a periodic ED: `interval` is clipped to 32 unless the ED
is isochronous, and the `u16` fields `ed->interval` and `ed->load` are set, the load from
`usb_calc_bus_time (...) / 1000`. -/
def ed_get_periodic (ohci : ohci_hcd) (e : Nat) (ep : usb_host_endpoint)
    (speed : usb_device_speed) (interval : Int) : ohci_hcd :=
  let is_out : Bool := decide (ep.bEndpointAddress &&& USB_DIR_IN = 0)
  let isoc : Bool := decide ((ohci.sched.eds e).type = PIPE_ISOCHRONOUS)
  let interval := if isoc = false ∧ interval > 32 then 32 else interval
  let o1 := ohci.mod_ed e (fun x => { x with interval := (interval % 65536).toNat })
  let t := usb_calc_bus_time speed (!is_out) isoc (ep.wMaxPacketSize : Int)
  o1.mod_ed e (fun x => { x with load := (Int.tdiv t 1000 % 65536).toNat })

/-- The statements of `ed_get` from `ed->dummy = td` to `ep->hcpriv = ed`, for the ED `e`
and the TD `t` that the two allocations returned. -/
def ed_get_fill (ohci : ohci_hcd) (ep : Nat) (speed : usb_device_speed) (pipe : Nat)
    (interval : Int) (e t : Nat) : ohci_hcd :=
  let o3 := ohci.mod_ed e (fun x => { x with dummy := some t, hwTailP := (ohci.tds t).td_dma })
  let o4 := o3.mod_ed e (fun x => { x with hwHeadP := x.hwTailP })
  let o5 := o4.mod_ed e (fun x => { x with state := ED_IDLE })
  let o6 := o5.mod_ed e (fun x => { x with type := usb_pipetype pipe })
  let d := o6.hcd.eps ep
  let o7 :=
    if (o6.sched.eds e).type ≠ PIPE_CONTROL ∧ (o6.sched.eds e).type ≠ PIPE_BULK then
      ed_get_periodic o6 e d speed interval
    else o6
  let info := ed_get_info d speed pipe (o7.sched.eds e).type
  let o8 := o7.mod_ed e (fun x => { x with hwINFO := info })
  { o8 with hcd := o8.hcd.mod_ep ep (fun x => { x with hcpriv := some e }) }

/-- The C function `ed_get (ohci, ep, udev, pipe, interval)`; `speed` is `udev->speed`,
`new_ed` and `new_td` are the answers of the allocator to `ed_alloc` and `td_alloc`.  The
result is the returned ED (`none` is `NULL`) and the state. -/
def ed_get (ohci : ohci_hcd) (ep : Nat) (speed : usb_device_speed) (pipe : Nat)
    (interval : Int) (new_ed new_td : Option (Nat × Nat)) : Option Nat × ohci_hcd :=
  match (ohci.hcd.eps ep).hcpriv with
  | some e => (some e, ohci)
  | none =>
    match ed_alloc ohci new_ed with
    | (none, o1) => (none, o1)
    | (some e, o1) =>
      match td_alloc o1 new_td with
      | (none, o2) => (none, ed_free o2 e)
      | (some t, o2) => (some e, ed_get_fill o2 ep speed pipe interval e t)

/-! ## Reference definitions taken from the specification -/

/-- Reference notion for `balance`: phase `i` is feasible for period `n` when
`tab[j] + load <= 900` for every `j = i, i+n, i+2n, ...` below `NUM_INTS`. -/
def feasible (tab : Nat → Int) (n : Nat) (load : Int) (i : Nat) : Prop :=
  ∀ k, k < NUM_INTS → i + k * n < NUM_INTS → tab (i + k * n) + load ≤ 900

instance (tab : Nat → Int) (n : Nat) (load : Int) (i : Nat) :
    Decidable (feasible tab n load i) := by
  unfold feasible; infer_instance

/-- A sequence of `td_fill (ohci, info, data, len, urb, index)` calls for the URB `u`, in
order; each entry is `(info, data, len, index)`. -/
def td_fill_seq (u : Nat) : ohci_hcd → List (Nat × Nat × Nat × Nat) → Option ohci_hcd
  | ohci, [] => some ohci
  | ohci, c :: rest =>
    match td_fill ohci c.1 c.2.1 c.2.2.1 u c.2.2.2 with
    | none => none
    | some o1 => td_fill_seq u o1 rest

/-- Reference for the bulk arm of `td_submit_urb`: the number of ring cells of a request
of `L` bytes, `max(1, ceil(L / 4096))`. -/
def bulk_cell_count (L : Nat) : Nat := max 1 ((L + 4095) / 4096)

/-- Reference for the bulk arm of `td_submit_urb`: the buffer address of cell `k`, which
is `transfer_dma + 4096 * k`; the single cell of an empty request has no buffer
(address 0). -/
def bulk_cell_start (dma L k : Nat) : Nat := if L = 0 then 0 else dma + 4096 * k

/-- Reference for the bulk arm of `td_submit_urb`: every cell but the last carries 4096
bytes, the last one the remaining `L - 4096 * (n - 1)`. -/
def bulk_cell_len (L k : Nat) : Nat :=
  if k + 1 < bulk_cell_count L then 4096 else L - 4096 * (bulk_cell_count L - 1)

/-- The `info` word of cell `k` of a bulk or interrupt request: toggle from the ED, the
direction of the pipe, and `TD_R` on the last cell unless `URB_SHORT_NOT_OK` is set. -/
def bulk_cell_info (x : urb) (k : Nat) : Nat :=
  let info :=
    if x.pipe_out then TD_T_TOGGLE ||| TD_CC ||| TD_DP_OUT else TD_T_TOGGLE ||| TD_CC ||| TD_DP_IN
  if k + 1 < bulk_cell_count x.transfer_buffer_length then info
  else if x.transfer_flags &&& URB_SHORT_NOT_OK = 0 then info ||| TD_R else info

/-- Reference for the bulk arm of `td_submit_urb`: the `td_fill` calls of the request
`x`, cell by cell. -/
def bulk_fill_calls (x : urb) : List (Nat × Nat × Nat × Nat) :=
  (List.range (bulk_cell_count x.transfer_buffer_length)).map (fun k =>
    (bulk_cell_info x k, bulk_cell_start x.transfer_dma x.transfer_buffer_length k,
      bulk_cell_len x.transfer_buffer_length k, k))

/-- What `td_submit_urb` does before the first `td_fill` of a bulk or interrupt request:
the common head, and for an interrupt request the count of interrupt requests in
flight. -/
def bulk_submit_pre (ohci : ohci_hcd) (u p : Nat) : ohci_hcd :=
  let o1 := td_submit_urb_start ohci u p
  if (o1.sched.eds (o1.privs p).ed).type = PIPE_INTERRUPT then o1.add_int_reqs 1 else o1

/-- What `td_submit_urb` does after the last `td_fill` of a bulk or interrupt request:
the bulk-list-filled command for a bulk ED, the start of periodic processing for the
first periodic request. -/
def bulk_submit_post (ohci : ohci_hcd) (u p : Nat) (o : ohci_hcd) : ohci_hcd :=
  let o1 := td_submit_urb_start ohci u p
  let o2 := if (o.sched.eds (o.privs p).ed).type = PIPE_BULK then o.writel OHCI_BLF .cmdstatus else o
  if (o1.sched.eds (o1.privs p).ed).type = PIPE_INTERRUPT then
    start_periodic o2 (o1.hcd.bandwidth_int_reqs = 0 ∧ o1.hcd.bandwidth_isoc_reqs = 0)
  else o2

/-- A non-isochronous data cell of the URB `u`, as `td_fill` builds it for the non-zero
buffer address `d` and the length `len >= 1`: not the SETUP cell of a control request,
`data_dma = d` and `hwBE = d + len - 1`, the last byte of the buffer, below `2^32`. -/
def data_cell (s : ohci_hcd) (u t d len : Nat) : Prop :=
  (s.tds t).hwINFO &&& TD_ISO = 0 ∧
  ((s.hcd.urbs u).pipe_type ≠ PIPE_CONTROL ∨ (s.tds t).index ≠ 0) ∧
  (s.tds t).data_dma = d ∧ (s.tds t).hwBE = d + len - 1 ∧
  d ≠ 0 ∧ 1 ≤ len ∧ d + len - 1 < 4294967296

instance (s : ohci_hcd) (u t d len : Nat) : Decidable (data_cell s u t d len) := by
  unfold data_cell; infer_instance

/-- The calls `td_done (ohci, urb, td)` for the cells of a list, one after the other. -/
def td_done_seq (u : Nat) : ohci_hcd → List Nat → ohci_hcd
  | s, [] => s
  | s, t :: rest => td_done_seq u (td_done s u t).2 rest

/-- The hardware done list that starts at the word `d` holds the TDs of `L`, most recently
completed first: each link word is non-zero and resolves through `dma_to_td` to the next
TD of `L`, and the `hwNextTD` of the last one is 0. -/
def hw_done_list (fuel : Nat) (s : ohci_hcd) : Nat → List Nat → Prop
  | d, [] => d = 0
  | d, t :: rest =>
    d ≠ 0 ∧ dma_to_td fuel s d = some (some t) ∧ hw_done_list fuel s (s.tds t).hwNextTD rest

/-- Deciding `hw_done_list` by walking the list. -/
def hw_done_list_dec (fuel : Nat) (s : ohci_hcd) :
    (d : Nat) → (L : List Nat) → Decidable (hw_done_list fuel s d L)
  | d, [] => inferInstanceAs (Decidable (d = 0))
  | d, t :: rest =>
    have := hw_done_list_dec fuel s (s.tds t).hwNextTD rest
    inferInstanceAs (Decidable (d ≠ 0 ∧ dma_to_td fuel s d = some (some t) ∧
      hw_done_list fuel s (s.tds t).hwNextTD rest))

instance (fuel : Nat) (s : ohci_hcd) (d : Nat) (L : List Nat) :
    Decidable (hw_done_list fuel s d L) := hw_done_list_dec fuel s d L

/-- The list chained through `next_dl_td` from the pointer `head` holds the TDs of `L`, in
order, and ends with `NULL`. -/
def dl_chain (s : ohci_hcd) : Option Nat → List Nat → Prop
  | head, [] => head = none
  | head, t :: rest => head = some t ∧ dl_chain s (s.tds t).next_dl_td rest

/-- Deciding `dl_chain` by walking the list. -/
def dl_chain_dec (s : ohci_hcd) :
    (head : Option Nat) → (L : List Nat) → Decidable (dl_chain s head L)
  | head, [] => inferInstanceAs (Decidable (head = none))
  | head, t :: rest =>
    have := dl_chain_dec s (s.tds t).next_dl_td rest
    inferInstanceAs (Decidable (head = some t ∧ dl_chain s (s.tds t).next_dl_td rest))

instance (s : ohci_hcd) (head : Option Nat) (L : List Nat) : Decidable (dl_chain s head L) :=
  dl_chain_dec s head L

/-- The calls `takeback_td (ohci, td)` for the TDs of a list, one after the other. -/
def takeback_seq (fuel : Nat) : ohci_hcd → List Nat → Option ohci_hcd
  | s, [] => some s
  | s, t :: rest =>
    match takeback_td fuel s t with
    | none => none
    | some s1 => takeback_seq fuel s1 rest

/-- Every cell of the list belongs to an URB that is in flight (`urb->hcpriv` is set). -/
def cells_in_flight (s : ohci_hcd) (L : List Nat) : Prop :=
  ∀ t, t ∈ L → (s.hcd.urbs (s.tds t).urb).hcpriv ≠ none

instance (s : ohci_hcd) (L : List Nat) : Decidable (cells_in_flight s L) := by
  unfold cells_in_flight; infer_instance

/-- The completion callbacks of a trace, oldest first: the URB and the `urb->status` that
the callback sees. -/
def completed (t : List core_event) : List (Nat × Int) :=
  t.filterMap (fun ev => match ev with
    | .complete u seen => some (u, seen.status)
    | _ => none)

/-- The EDs `L` are chained through `ed_next`, in this order, from the pointer `start` up
to the pointer `stop`. -/
def ed_path (s : ohci_sched) : Option Nat → List Nat → Option Nat → Prop
  | start, [], stop => start = stop
  | start, x :: rest, stop => start = some x ∧ ed_path s (s.eds x).ed_next rest stop

/-- The list `ohci->ed_rm_list` holds exactly the EDs `L`, first entry first. -/
def on_rm_list (s : ohci_sched) (L : List Nat) : Prop := ed_path s s.ed_rm_list L none

/-- The set `Q` holds every ED that is linked into a schedule: the tails of the control
and bulk lists, the heads of the periodic table, and with an ED the one that its
`ed_next` names. -/
def sched_closed (s : ohci_sched) (Q : Nat → Prop) : Prop :=
  (∀ t, s.ed_controltail = some t → Q t) ∧
  (∀ t, s.ed_bulktail = some t → Q t) ∧
  (∀ i t, s.periodic i = some t → Q t) ∧
  (∀ x y, Q x → (s.eds x).ed_next = some y → Q y)

/-- The ED `e` is met within `fuel` steps on the chain that starts at the given pointer
and goes on along `next`. -/
def chain_has (next : Nat → Option Nat) (e : Nat) : Nat → Option Nat → Bool
  | 0, _ => false
  | _ + 1, none => false
  | fuel + 1, some x => x == e || chain_has next e fuel (next x)

/-- The ED is on the control list, walked from `ed_controltail` along `ed_prev`. -/
def on_control_list (fuel : Nat) (s : ohci_sched) (e : Nat) : Bool :=
  chain_has (fun x => (s.eds x).ed_prev) e fuel s.ed_controltail

/-- The ED is on the bulk list, walked from `ed_bulktail` along `ed_prev`. -/
def on_bulk_list (fuel : Nat) (s : ohci_sched) (e : Nat) : Bool :=
  chain_has (fun x => (s.eds x).ed_prev) e fuel s.ed_bulktail

/-- The ED is on the chain of slot `i` of the periodic table. -/
def on_periodic_slot (fuel : Nat) (s : ohci_sched) (i e : Nat) : Bool :=
  chain_has (fun x => (s.eds x).ed_next) e fuel (s.periodic i)

/-- The number of schedules that the ED is linked into: the control list, the bulk list,
and the periodic table, where it has to be on every slot `branch`, `branch + interval`,
... of its phase. -/
def ed_link_count (fuel : Nat) (s : ohci_sched) (e : Nat) : Nat :=
  (if on_control_list fuel s e then 1 else 0) + (if on_bulk_list fuel s e then 1 else 0) +
  (if (s.eds e).interval ≠ 0 ∧ (List.range NUM_INTS).all (fun i =>
      decide (i % (s.eds e).interval = (s.eds e).branch % (s.eds e).interval → 
        (s.eds e).branch ≤ i → on_periodic_slot fuel s i e = true)) then 1 else 0)

/-- The URBs of a list are killed one after the other, each of them between a
`usb_get_urb` and a `usb_put_urb`. -/
def kill_each (drv : hc_driver) (env : usb_hcd → usb_hcd) (fuel : Nat) :
    List Nat → usb_hcd → Option usb_hcd
  | [], h => some h
  | v :: rest, h =>
    match usb_kill_urb drv env fuel (usb_get_urb h v) v with
    | none => none
    | some h2 => kill_each drv env fuel rest (usb_put_urb h2 v)

/-- The number of completion callbacks for URB `u` in a trace. -/
def completions (t : List core_event) (u : Nat) : Nat :=
  ((completed t).filter (fun c => decide (c.1 = u))).length

/-- The block at offset `off` of a page crosses no multiple of the pool's boundary:
`floor (off / b) == floor ((off + s - 1) / b)`. -/
def block_no_cross (pool : dma_pool) (off : Nat) : Bool :=
  off / pool.boundary == (off + pool.size - 1) / pool.boundary

/-- The block at offset `off` lies within the allocation of its page:
`off + s <= allocation`. -/
def block_in_page (pool : dma_pool) (off : Nat) : Bool :=
  decide (off + pool.size ≤ pool.allocation)

/-- The upper bound `max` that C24 gives for each speed and transfer type; `none` for a
speed the claim does not name. -/
def interval_max_spec (xfertype : Nat) (speed : usb_device_speed) : Option Int :=
  match speed with
  | .USB_SPEED_SUPER => some (2 ^ 15)
  | .USB_SPEED_HIGH => some 8192
  | .USB_SPEED_FULL => some (if xfertype = USB_ENDPOINT_XFER_INT then 128 else 1024)
  | .USB_SPEED_LOW => some (if xfertype = USB_ENDPOINT_XFER_INT then 128 else 1024)
  | _ => none

/-- The intervals that C24 rejects with `-EINVAL`: not positive, above `2^15` at
SuperSpeed, above 255 for a full/low-speed interrupt endpoint. -/
def interval_rejected_spec (xfertype : Nat) (speed : usb_device_speed) (interval : Int) :
    Prop :=
  interval ≤ 0 ∨ (speed = .USB_SPEED_SUPER ∧ interval > 2 ^ 15) ∨
  ((speed = .USB_SPEED_FULL ∨ speed = .USB_SPEED_LOW) ∧
    xfertype = USB_ENDPOINT_XFER_INT ∧ interval > 255)

instance (xfertype : Nat) (speed : usb_device_speed) (interval : Int) :
    Decidable (interval_rejected_spec xfertype speed interval) := by
  unfold interval_rejected_spec; infer_instance

/-- The normalisation of C24 for an interrupt or isochronous URB:
`min (max, 2 ^ floor (log2 (interval)))`, or `-EINVAL`. -/
def interval_spec (xfertype : Nat) (speed : usb_device_speed) (interval : Int) :
    Except Int Int :=
  if interval_rejected_spec xfertype speed interval then .error (-EINVAL)
  else
    match interval_max_spec xfertype speed with
    | none => .error (-EINVAL)
    | some max => .ok (min max (2 ^ ilog2 interval))


/-- The descriptor of C25 for the string `s`:
`[min (2 + 2n, 254), USB_DT_STRING, s[0], 0, s[1], 0, ...]`. -/
def string_desc (s : List Nat) : List Nat :=
  [min (2 + 2 * s.length) 254, USB_DT_STRING] ++ s.flatMap (fun c => [c, 0])


/-- The `td_fill` calls of C21 for the control request `x`, each `(info, data, len, index)`:
the SETUP cell of 8 bytes at `setup_dma` with toggle DATA0; only when
`transfer_buffer_length > 0` one data cell of the whole length with toggle DATA1 in the
direction of the request; the zero-length status cell with toggle DATA1, direction IN when
the request is OUT or has no data, OUT otherwise. -/
def control_fill_calls (x : urb) : List (Nat × Nat × Nat × Nat) :=
  [(TD_CC ||| TD_DP_SETUP ||| TD_T_DATA0, x.setup_dma, 8, 0)]
  ++ (if x.transfer_buffer_length > 0 then
      [(TD_CC ||| TD_R ||| TD_T_DATA1 ||| (if x.pipe_out then TD_DP_OUT else TD_DP_IN),
        x.transfer_dma, x.transfer_buffer_length, 1)]
    else [])
  ++ [(TD_CC ||| (if x.pipe_out ∨ x.transfer_buffer_length = 0 then TD_DP_IN else TD_DP_OUT)
        ||| TD_T_DATA1,
      (if x.transfer_buffer_length = 0 then 0 else x.transfer_dma), 0,
      (if x.transfer_buffer_length > 0 then 2 else 1))]

/-- The TD `t` holds the cell of the call `c = (info, data, len, index)` of `td_fill` for
the URB `u`, with the hardware word `info` (the word of the call with the interrupt delay
that `td_fill` has added): buffer start and end as `td_fill` computes them for a
non-isochronous cell. -/
def ring_cell (o : ohci_hcd) (u t : Nat) (c : Nat × Nat × Nat × Nat) (info : Nat) : Prop :=
  (o.tds t).hwINFO = hc32 info ∧ (o.tds t).urb = u ∧ (o.tds t).index = c.2.2.2 ∧
  (o.tds t).data_dma = c.2.1 ∧
  (o.tds t).hwCBP = hc32 (if c.2.2.1 = 0 then 0 else c.2.1) ∧
  (o.tds t).hwBE = (if (if c.2.2.1 = 0 then 0 else c.2.1) ≠ 0
    then hc32 (c.2.1 + c.2.2.1 - 1) else 0)


/-! ## Predicates used in the proofs -/

/-- Loop invariant of `balance`: after the phases below `i`, `branch` is the error code
when none of them is feasible, and else the least loaded feasible one, lowest index
first. -/
def balance_inv (tab : Nat → Int) (n : Nat) (load : Int) (i : Nat) (branch : Int) : Prop :=
  (branch = -ENOSPC ∧ ∀ k, k < i → ¬ feasible tab n load k) ∨
  (∃ b, b < i ∧ branch = (b : Int) ∧ feasible tab n load b ∧
    ∀ k, k < i → feasible tab n load k → tab b < tab k ∨ (tab b = tab k ∧ b ≤ k))

/-- Frame relation: `o'` has the load table of `o`, and every ED keeps its `load` and
`interval`. -/
def sched_frame (o o' : ohci_sched) : Prop :=
  o'.load = o.load ∧
  ∀ x, (o'.eds x).load = (o.eds x).load ∧ (o'.eds x).interval = (o.eds x).interval

/-- Trace extension: the outgoing calls of `h` are a prefix of those of `h2`. -/
def trace_ext (h h2 : usb_hcd) : Prop := ∃ post, h2.trace = h.trace ++ post

/-- What the done-list walk relies on: the hash buckets, and of every TD the bus address,
the hash link, the hardware link and the owning URB; and the `hcpriv` of every URB. -/
def dl_frame (o o2 : ohci_hcd) : Prop :=
  o2.td_hash = o.td_hash ∧ o2.hcd = o.hcd ∧
  ∀ x, (o2.tds x).td_dma = (o.tds x).td_dma ∧ (o2.tds x).td_hash = (o.tds x).td_hash ∧
    (o2.tds x).hwNextTD = (o.tds x).hwNextTD ∧ (o2.tds x).urb = (o.tds x).urb

/-- No TD changes its `next_dl_td`. -/
def dl_next_same (o o2 : ohci_hcd) : Prop :=
  ∀ x, (o2.tds x).next_dl_td = (o.tds x).next_dl_td

/-- Frame relation of usbcore for work on URB `u`: the endpoint queues, the devices and
all other URBs stay as they are, and URB `u` keeps its endpoint, device, unlink status
and reject count. -/
structure core_frame (h h2 : usb_hcd) (u : Nat) : Prop where
  eps_eq : h2.eps = h.eps
  devs_eq : h2.devs = h.devs
  others : ∀ v, v ≠ u → h2.urbs v = h.urbs v
  ep_eq : (h2.urbs u).ep = (h.urbs u).ep
  dev_eq : (h2.urbs u).dev = (h.urbs u).dev
  unlinked_eq : (h2.urbs u).unlinked = (h.urbs u).unlinked
  reject_eq : (h2.urbs u).reject = (h.urbs u).reject

/-- URB `u` keeps its reference count, its use count and its `hcpriv`. -/
def count_same (h h2 : usb_hcd) (u : Nat) : Prop :=
  (h2.urbs u).kref = (h.urbs u).kref ∧ (h2.urbs u).use_count = (h.urbs u).use_count ∧
  (h2.urbs u).hcpriv = (h.urbs u).hcpriv

/-- The ED `y` is the ED `x` with, at most, other link fields `ed_next` and
`hwNextED`. -/
def ed_links_only (x y : ed) : Prop :=
  ∃ n p, y = { x with ed_next := n, hwNextED := p }

/-- Frame relation of the scheduler for work on ED `e`: of every other ED at most the
link fields `ed_next` and `hwNextED` change. -/
def links_frame (o o2 : ohci_sched) (e : Nat) : Prop :=
  ∀ x, x ≠ e → ed_links_only (o.eds x) (o2.eds x)

/-- What `finish_unlinks` leaves alone on an ED that it does not take off the list: the
state of the controller, and of ED `e` the state, `hwINFO`, `hwHeadP` and `tick`. -/
def ed_kept (a b : ohci_hcd) (e : Nat) : Prop :=
  b.hcd.state = a.hcd.state ∧
  (b.sched.eds e).state = (a.sched.eds e).state ∧
  (b.sched.eds e).hwINFO = (a.sched.eds e).hwINFO ∧
  (b.sched.eds e).hwHeadP = (a.sched.eds e).hwHeadP ∧
  (b.sched.eds e).tick = (a.sched.eds e).tick

/-- Frame relation of usbcore for the helpers of the give back: the controller state and
the anchors' poison flags stay, no completion callback is invoked, and URB `u` keeps its
use count. -/
structure quiet_frame (h h2 : usb_hcd) (u : Nat) : Prop where
  state_eq : h2.state = h.state
  completed_eq : completed h2.trace = completed h.trace
  use_eq : (h2.urbs u).use_count = (h.urbs u).use_count

/-- Frame relation of the scheduler for work inside the set `Q`: `ed_rm_list` and the EDs
outside `Q` stay as they are. -/
def outside_same (s s2 : ohci_sched) (Q : Nat → Prop) : Prop :=
  s2.ed_rm_list = s.ed_rm_list ∧ ∀ y, ¬ Q y → s2.eds y = s.eds y

/-- Frame relation of `finish_unlinks` for the work on the TDs of an ED: the software
links of the schedules and of `ed_rm_list` stay as they are. -/
def next_same (a b : ohci_hcd) : Prop :=
  b.sched.ed_rm_list = a.sched.ed_rm_list ∧
  b.sched.ed_controltail = a.sched.ed_controltail ∧
  b.sched.ed_bulktail = a.sched.ed_bulktail ∧
  b.sched.periodic = a.sched.periodic ∧
  ∀ y, (b.sched.eds y).ed_next = (a.sched.eds y).ed_next

/-- The cursor `last` of `finish_unlinks` after the EDs `prev` were skipped (the latest
first). -/
def rm_cursor : List Nat → rmref
  | [] => .head
  | p :: _ => .node p
/-- A cursor of `periodic_link` that points into the schedule. -/
def edref_in (Q : Nat → Prop) : edref → Prop
  | .slot _ => True
  | .node h => Q h

/-- Frame relation of usbcore for the unmapping helpers: the anchors and the `anchor`
field of every URB stay as they are. -/
def anchor_frame (h h2 : usb_hcd) : Prop :=
  h2.anchors = h.anchors ∧ ∀ v, (h2.urbs v).anchor = (h.urbs v).anchor

/-- What the completion of URB `w` with hardware status `st` changes: `w` leaves the
queue of its endpoint and its anchor, its use count drops by one, and its completion
callback is invoked once; the devices, the other URBs, the other queues and the other
anchors stay as they are. -/
structure retired (h h2 : usb_hcd) (w : Nat) (st : Int) : Prop where
  devs_eq : h2.devs = h.devs
  state_eq : h2.state = h.state
  others : ∀ u, u ≠ w → h2.urbs u = h.urbs u
  ep_eq : (h2.urbs w).ep = (h.urbs w).ep
  dev_eq : (h2.urbs w).dev = (h.urbs w).dev
  unlinked_eq : (h2.urbs w).unlinked = (h.urbs w).unlinked
  reject_eq : (h2.urbs w).reject = (h.urbs w).reject
  use_eq : (h2.urbs w).use_count = (h.urbs w).use_count - 1
  queue_home : (h2.eps (h.urbs w).ep).urb_list = (h.eps (h.urbs w).ep).urb_list.erase w
  queue_other : ∀ p, p ≠ (h.urbs w).ep → h2.eps p = h.eps p
  anchor_home : ∀ a, (h.urbs w).anchor = some a →
    (h2.anchors a).urb_list = (h.anchors a).urb_list.erase w
  anchor_other : ∀ a, (h.urbs w).anchor ≠ some a → h2.anchors a = h.anchors a
  done : completed h2.trace = completed h.trace ++ [(w, giveback_status (h.urbs w) st)]

/-- URB `u` is on the queue of its endpoint. -/
def queued (h : usb_hcd) (u : Nat) : Prop :=
  urb_list_find u (h.eps (h.urbs u).ep).urb_list = true

/-- URB `u` is in flight: submitted to a device that is no root hub, on the queue of its
endpoint, with one use and no unlink requested. -/
def in_flight (h : usb_hcd) (u : Nat) : Prop :=
  queued h u ∧ (h.urbs u).use_count = 1 ∧ (h.urbs u).unlinked = 0 ∧
  (h.urbs u).has_dev = true ∧ (h.urbs u).has_ep = true ∧
  is_root_hub (h.devs (h.urbs u).dev) = false

/-- No unlink is pending: every queued URB has `unlinked == 0`. -/
def calm (h : usb_hcd) : Prop := ∀ u, queued h u → (h.urbs u).unlinked = 0

/-- The controller answers the unlink request for URB `v`: while `v` is queued with its
unlink requested, the next step completes an URB whose unlink was requested. -/
def answers (pick : usb_hcd → Option (Nat × Int)) (v : Nat) : Prop :=
  ∀ h, queued h v → (h.urbs v).unlinked ≠ 0 →
    ∃ w st, pick h = some (w, st) ∧ queued h w ∧ (h.urbs w).unlinked ≠ 0

/-- The driver's `urb_dequeue` records the unlink with `usb_hcd_check_unlink_urb` and
leaves the give back to the interrupt path. -/
def dequeue_marks (drv : hc_driver) : Prop :=
  ∀ h u st, drv.urb_dequeue h u st = usb_hcd_check_unlink_urb h u st

/-- What `usb_kill_urb` on the in-flight URB `v` changes: `v` has left the queue of its
endpoint and its anchor, it is not in use any more, and its completion callback was
invoked once, with status `-ENOENT`; the devices, the other URBs, the other queues and
the other anchors stay as they are. -/
structure killed (h h2 : usb_hcd) (v : Nat) : Prop where
  devs_eq : h2.devs = h.devs
  others : ∀ u, u ≠ v → h2.urbs u = h.urbs u
  ep_eq : (h2.urbs v).ep = (h.urbs v).ep
  reject_eq : (h2.urbs v).reject = (h.urbs v).reject
  use_zero : (h2.urbs v).use_count = 0
  queue_home : (h2.eps (h.urbs v).ep).urb_list = (h.eps (h.urbs v).ep).urb_list.erase v
  queue_other : ∀ p, p ≠ (h.urbs v).ep → h2.eps p = h.eps p
  anchor_home : ∀ a, (h.urbs v).anchor = some a →
    (h2.anchors a).urb_list = (h.anchors a).urb_list.erase v
  anchor_other : ∀ a, (h.urbs v).anchor ≠ some a → h2.anchors a = h.anchors a
  done : completed h2.trace = completed h.trace ++ [(v, -ENOENT)]

/-- Frame relation for URB `u`: the queues and devices stay, and of URB `u` the endpoint,
the device, the use count, the `dev` and `ep` pointers and the number of completions
seen. -/
structure same_for (h h2 : usb_hcd) (u : Nat) : Prop where
  eps_eq : h2.eps = h.eps
  devs_eq : h2.devs = h.devs
  ep_eq : (h2.urbs u).ep = (h.urbs u).ep
  dev_eq : (h2.urbs u).dev = (h.urbs u).dev
  use_eq : (h2.urbs u).use_count = (h.urbs u).use_count
  has_dev_eq : (h2.urbs u).has_dev = (h.urbs u).has_dev
  has_ep_eq : (h2.urbs u).has_ep = (h.urbs u).has_ep
  done_eq : completions h2.trace u = completions h.trace u

/-- The part of `kill2_inv` that does not change during a run: the queue of the URB's
endpoint holds no URB twice. -/
def kill_base (h : usb_hcd) (u : Nat) : Prop :=
  (h.eps (h.urbs u).ep).urb_list.Nodup

/-- URB `u` is not completed yet, `c` completions were seen before. -/
def kill_live (h : usb_hcd) (u c : Nat) : Prop :=
  queued h u ∧ (h.urbs u).use_count = 1 ∧ (h.urbs u).has_dev = true ∧
  (h.urbs u).has_ep = true ∧ completions h.trace u = c

/-- URB `u` was completed once. -/
def kill_done (h : usb_hcd) (u c : Nat) : Prop :=
  ¬ queued h u ∧ (h.urbs u).use_count = 0 ∧ completions h.trace u = c + 1

/-- Invariant of a run with two killers of URB `u`, of which `c` completions were seen
before the run: either `u` is not completed yet and nobody is past `wait_event`, or `u`
was completed once. -/
def kill2_inv (s : kill2_state) (u : Nat) (c : Nat) : Prop :=
  kill_base s.hcd u ∧
  ((kill_live s.hcd u c ∧ (s.pc1 ≠ .woken ∧ s.pc1 ≠ .returned) ∧
      (s.pc2 ≠ .woken ∧ s.pc2 ≠ .returned)) ∨
    kill_done s.hcd u c)

/-- Frame relation of usbcore for bookkeeping steps: the queues, the devices and the
completions seen stay as they are, and so do, of every URB, the endpoint, the device, the
use count, the recorded unlink status and the `dev` and `ep` pointers. -/
structure flight_same (h h2 : usb_hcd) : Prop where
  eps_eq : h2.eps = h.eps
  devs_eq : h2.devs = h.devs
  done_eq : completed h2.trace = completed h.trace
  same : ∀ u, (h2.urbs u).ep = (h.urbs u).ep ∧ (h2.urbs u).dev = (h.urbs u).dev ∧
    (h2.urbs u).use_count = (h.urbs u).use_count ∧
    (h2.urbs u).unlinked = (h.urbs u).unlinked ∧
    (h2.urbs u).has_dev = (h.urbs u).has_dev ∧ (h2.urbs u).has_ep = (h.urbs u).has_ep

/-- The URBs of the queue of endpoint `p` are in flight on a device that is no root
hub. -/
def queue_in_use (h : usb_hcd) (p : Nat) : Prop :=
  ∀ u, u ∈ (h.eps p).urb_list →
    (h.urbs u).ep = p ∧ (h.urbs u).use_count = 1 ∧ (h.urbs u).has_dev = true ∧
    (h.urbs u).has_ep = true ∧ is_root_hub (h.devs (h.urbs u).dev) = false

/-- Unlinks are pending on endpoint `p` only. -/
def pending_only (h : usb_hcd) (p : Nat) : Prop :=
  ∀ u, queued h u → (h.urbs u).unlinked ≠ 0 → (h.urbs u).ep = p

/-- Invariant of the second loop of `usb_hcd_flush_endpoint` on endpoint `p`, whose queue
held the URBs `L` when the loop began: the URBs `Lr` are left on the queue, each with the
unlink status `m` recorded; the URBs `D` were completed, in this order and with these
statuses, after the completions `c0` seen before. -/
structure flushing (h : usb_hcd) (p : Nat) (m : Nat → Int) (c0 : List (Nat × Int))
    (L Lr D : List Nat) : Prop where
  queue : (h.eps p).urb_list = Lr
  nodup : Lr.Nodup
  in_use : queue_in_use h p
  marked : ∀ u, u ∈ Lr → (h.urbs u).unlinked = m u ∧ m u ≠ 0
  only_here : pending_only h p
  done : completed h.trace = c0 ++ D.map (fun u => (u, m u))
  perm : (D ++ Lr).Perm L

/-- State of the first loop of `usb_hcd_flush_endpoint` on endpoint `p`: the queue holds
the URBs `L`, all of them in use, and unlinks are pending on this endpoint only. -/
def rescanning (h : usb_hcd) (p : Nat) (L : List Nat) : Prop :=
  (h.eps p).urb_list = L ∧ queue_in_use h p ∧ pending_only h p

/-- What one round of the first loop of `usb_hcd_flush_endpoint` changes: the unlink
status `st` is recorded in URB `u`, and nothing else that the loops look at. -/
structure marks (h h2 : usb_hcd) (u : Nat) (st : Int) : Prop where
  eps_eq : h2.eps = h.eps
  devs_eq : h2.devs = h.devs
  done_eq : completed h2.trace = completed h.trace
  same : ∀ x, (h2.urbs x).ep = (h.urbs x).ep ∧ (h2.urbs x).dev = (h.urbs x).dev ∧
    (h2.urbs x).use_count = (h.urbs x).use_count ∧
    (h2.urbs x).has_dev = (h.urbs x).has_dev ∧ (h2.urbs x).has_ep = (h.urbs x).has_ep
  others : ∀ x, x ≠ u → (h2.urbs x).unlinked = (h.urbs x).unlinked
  marked : (h2.urbs u).unlinked = st

/-- Frame relation of the scheduler: every ED keeps its state. -/
def state_same (s s2 : ohci_sched) : Prop :=
  ∀ y, (s2.eds y).state = (s.eds y).state

/-- All the numbers 1..63 are taken. -/
def bus_numbers_taken (g : bus_registry) : Prop :=
  ∀ i, 1 ≤ i → i < USB_MAXBUS → g.busmap i = true

/-- The registered buses hold numbers in 1..63 whose bits are set, and no two of them
hold the same number. -/
structure bus_numbers_ok (g : bus_registry) : Prop where
  nodup : g.usb_bus_list.Nodup
  range : ∀ b ∈ g.usb_bus_list, 1 ≤ (g.buses b).busnum ∧ (g.buses b).busnum < 64
  marked : ∀ b ∈ g.usb_bus_list, g.busmap (g.buses b).busnum.toNat = true
  distinct : ∀ b ∈ g.usb_bus_list, ∀ c ∈ g.usb_bus_list, b ≠ c →
    (g.buses b).busnum ≠ (g.buses c).busnum


/-- The TDs reached from `cur` along `td_hash`, in order, are `L`, and the chain ends with
`NULL`. -/
def td_chain (tds : Nat → td) : Option Nat → List Nat → Prop
  | cur, [] => cur = none
  | cur, t :: L => cur = some t ∧ td_chain tds (tds t).td_hash L

/-- The TD hash is in order and `H h` lists the TDs hashed in bucket `h`: each bucket
chain ends, holds no TD twice and only TDs whose `td_dma` hashes to it, and the hashed TDs
have 32-byte-aligned, pairwise distinct `td_dma` addresses. -/
structure hash_ok (o : ohci_hcd) (H : Nat → List Nat) : Prop where
  chain : ∀ h, td_chain o.tds (o.td_hash h) (H h)
  nodup : ∀ h, (H h).Nodup
  home : ∀ h, ∀ x ∈ H h, TD_HASH_FUNC (o.tds x).td_dma = h
  aligned : ∀ h, ∀ x ∈ H h, (o.tds x).td_dma &&& TD_MASK = (o.tds x).td_dma
  distinct : ∀ h, ∀ x ∈ H h, ∀ y ∈ H h, x ≠ y → (o.tds x).td_dma ≠ (o.tds y).td_dma


/-- What C22 says of an append at the tail of the control or the bulk list, for the
list `L` (walked along `ed_next` from the pointer `hd`) with the tail pointer `tail`
before and `tail2` after `ed_schedule (ohci, ed)`: the tail is the ED, its `ed_prev` is
the former tail, the former tail's `ed_next` and `hwNextED` point to it, the list is `L`
in its old order followed by the ED, every entry of `L` keeps its `ed_prev`; and the
registers written are the list head `head_reg`, exactly when the list was empty, followed
then, when also `ed_rm_list` is empty, by the list-current register and the control
register with the list-enable bit `enable` set. -/
def appended (s s2 : ohci_sched) (e : Nat) (tail tail2 : Option Nat) (head_reg cur_reg : ohci_reg)
    (enable : Nat) (hd : Option Nat) (L : List Nat) : Prop :=
  tail2 = some e ∧ (s2.eds e).ed_prev = tail ∧ (s2.eds e).ed_next = none ∧
  (s2.eds e).hwNextED = 0 ∧
  (∀ t, tail = some t → (s2.eds t).ed_next = some e ∧ (s2.eds t).hwNextED = (s.eds e).dma) ∧
  ed_path s2 (if L = [] then some e else hd) (L ++ [e]) none ∧
  (∀ x ∈ L, (s2.eds x).ed_prev = (s.eds x).ed_prev) ∧
  (∀ x, x ≠ e → tail ≠ some x → s2.eds x = s.eds x) ∧
  s2.mmio = s.mmio ++
    (if tail = none then
      (head_reg, (s.eds e).dma) ::
        (if s.ed_rm_list = none then [(cur_reg, 0), (ohci_reg.control, s.hc_control ||| enable)]
          else [])
    else [])


/-- Frame relation of the driver: the controller keeps its state and every ED keeps its
state. -/
def st_kept (a b : ohci_hcd) : Prop :=
  b.hcd.state = a.hcd.state ∧ state_same a.sched b.sched


/-- The slots that the loop `for (i = branch; i < NUM_INTS; i += interval)` of
`periodic_link` and `periodic_unlink` visits, in order; `n` bounds their number. -/
def ed_slots (interval : Nat) : Nat → Nat → List Nat
  | 0, _ => []
  | n + 1, i => if i < NUM_INTS then i :: ed_slots interval n (i + interval) else []

/-- The slots of the periodic table that the ED `e` belongs to: `branch`,
`branch + interval`, ... below `NUM_INTS`. -/
def periodic_slots (s : ohci_sched) (e : Nat) : List Nat :=
  ed_slots (s.eds e).interval (NUM_INTS + 1) (s.eds e).branch

/-- The pointer cell behind the last ED of the chain `P` that starts at the cell `c`: the
`ed_next` field of that ED, or `c` itself for an empty chain. -/
def lastcell (c : edref) (P : List Nat) : edref :=
  match P.getLast? with
  | none => c
  | some x => .node x

/-- The periodic table is a tree at the ED `e`, which is not linked: every slot `i` of the
ED starts with the chain `P i` of other EDs whose interval is not below the interval of
`e`, and all these chains run into the same tail, the chain `R` from `here0`, of EDs with
a smaller interval; the hardware words at the ends of the chains `P i` all hold `hw0` (the
bus address of `here0`, or 0 when the tail is empty, in a table whose hardware chain
mirrors the software chain), and so does `e->hwNextED` when the tail is empty. -/
structure periodic_tree (s : ohci_sched) (e : Nat) (P : Nat → List Nat) (R : List Nat)
    (here0 : Option Nat) (hw0 : Nat) : Prop where
  interval_pos : 0 < (s.eds e).interval
  front_path : ∀ i ∈ periodic_slots s e, ed_path s (s.periodic i) (P i) here0
  front_big : ∀ i ∈ periodic_slots s e, ∀ x ∈ P i,
    x ≠ e ∧ (s.eds e).interval ≤ (s.eds x).interval
  tail_small : ∀ h, here0 = some h → (s.eds h).interval < (s.eds e).interval
  tail_path : ed_path s here0 R none
  tail_free : e ∉ R
  hw_point : ∀ i ∈ periodic_slots s e, (lastcell (.slot i) (P i)).get_p s = hw0
  hw_self : here0 = none → (s.eds e).hwNextED = hw0

/-- The link state `s2` is the state `s` with the cells `C` pointing at the ED `e`, in the
software chain and in the hardware chain; no ED has changed but in its link fields, and
`e` points at `here0` (hardware word `hw0`) once a cell is marked. -/
structure link_marks (s s2 : ohci_sched) (e : Nat) (C : List edref) (here0 : Option Nat)
    (hw0 : Nat) : Prop where
  cells : ∀ c : edref, c ≠ .node e →
    c.get s2 = (if c ∈ C then some e else c.get s) ∧
    c.get_p s2 = (if c ∈ C then (s.eds e).dma else c.get_p s)
  links : ∀ x, ed_links_only (s.eds x) (s2.eds x)
  self : C ≠ [] → (s2.eds e).ed_next = here0 ∧ (s2.eds e).hwNextED = hw0
  self_hw : here0 = none → (s2.eds e).hwNextED = hw0

/-- The chain `L` is ordered by non-increasing interval. -/
def interval_sorted (s : ohci_sched) (L : List Nat) : Prop :=
  L.Pairwise (fun x y => (s.eds y).interval ≤ (s.eds x).interval)


/-- The cell at which the ED is linked into slot `i`: the end of the chain `P i`. -/
def slot_cell (P : Nat → List Nat) (i : Nat) : edref := lastcell (.slot i) (P i)


/-- The list of slot `i` is ready for the walk of `periodic_link` for the ED `e`: it ends,
it is sorted, and it consists of a front `A` of other EDs with an interval not below that
of `e`, shorter than `fuel`, and a rest `B` that is empty or starts with `e` or with an ED
of a smaller interval. -/
def slot_ready (t : ohci_sched) (e fuel i : Nat) : Prop :=
  ∃ A B, ed_path t (t.periodic i) (A ++ B) none ∧ interval_sorted t (A ++ B) ∧
    (∀ a ∈ A, a ≠ e ∧ (t.eds e).interval ≤ (t.eds a).interval) ∧
    (∀ h, B.head? = some h → h = e ∨ (t.eds h).interval < (t.eds e).interval) ∧
    A.length < fuel

/-- The software side of `periodic_tree`: the ED `e` is on none of the lists of its slots,
every slot `i` of the ED starts with the chain `P i` of EDs whose interval is not below
the interval of `e`, and all these chains run into the same tail, the chain `R` from
`here0`, which starts with an ED of a smaller interval or is empty. -/
structure periodic_shared (s : ohci_sched) (e : Nat) (P : Nat → List Nat) (R : List Nat)
    (here0 : Option Nat) : Prop where
  interval_pos : 0 < (s.eds e).interval
  front_path : ∀ i ∈ periodic_slots s e, ed_path s (s.periodic i) (P i) here0
  front_big : ∀ i ∈ periodic_slots s e, ∀ x ∈ P i,
    x ≠ e ∧ (s.eds e).interval ≤ (s.eds x).interval
  tail_small : ∀ h, here0 = some h → (s.eds h).interval < (s.eds e).interval
  tail_path : ed_path s here0 R none
  tail_free : e ∉ R

/-- The state with every hardware link word (`int_table[]`, `hwNextED`) set to 0; the
software side of `periodic_link` does not read these words. -/
def hw_clear (s : ohci_sched) : ohci_sched :=
  { s with int_table := fun _ => 0, eds := fun x => { s.eds x with hwNextED := 0 } }

/-- The invariant of `ed_rm_list`: the list holds exactly the EDs `L`, and each of them is
in `ED_UNLINK`. -/
def rm_pending (s : ohci_sched) (L : List Nat) : Prop :=
  on_rm_list s L ∧ ∀ y, y ∈ L → (s.eds y).state = ED_UNLINK

/-- Frame relation for a chain of writes to the one ED `e`: usbcore's part, `ed_rm_list`
and the other EDs stay. -/
def ed_only (a b : ohci_hcd) (e : Nat) : Prop :=
  b.hcd = a.hcd ∧ b.sched.ed_rm_list = a.sched.ed_rm_list ∧
  ∀ y, y ≠ e → b.sched.eds y = a.sched.eds y

/-! ## Example states -/

/-- A scheduler state with an idle interrupt ED (pointer 0, interval 8, load 100) and a
load table that leaves room only on phase 3. -/
def sched_room : ohci_sched :=
  { eds := fun _ => { type := PIPE_INTERRUPT, interval := 8, load := 100 },
    int_table := fun _ => 0,
    periodic := fun _ => none,
    load := fun i => if i % 8 = 3 then 10 else 850 }

/-- A scheduler state whose 32 slots are all at the 900 microsecond limit, with an idle
interrupt ED (pointer 0, interval 1, load 1). -/
def sched_full : ohci_sched :=
  { eds := fun _ => { state := ED_IDLE, type := PIPE_INTERRUPT, interval := 1, load := 1 },
    int_table := fun _ => 0,
    periodic := fun _ => none,
    load := fun _ => 900 }

/-- A halted controller with an enabled endpoint 0, a device 0 that accepts submissions and
an URB 0 that was never rejected. -/
def hcd_halted : usb_hcd :=
  { state := HC_STATE_HALT,
    urbs := fun _ => {},
    eps := fun _ => { enabled := 1 },
    devs := fun _ => { parent := some 0, can_submit := true },
    anchors := fun _ => {},
    mem := fun _ => 0 }

/-- A running controller whose endpoint 0 queues the URBs 7 and 3; URB 5 is not queued. -/
def hcd_queued : usb_hcd :=
  { state := HC_STATE_RUNNING,
    urbs := fun _ => {},
    eps := fun _ => { enabled := 1, urb_list := [7, 3] },
    devs := fun _ => { parent := some 0, can_submit := true },
    anchors := fun _ => {},
    mem := fun _ => 0 }

/-- The calls `usb_hcd_check_unlink_urb (hcd, urb, s)` for the statuses `s` of a list, one
after the other; the result collects the return values. -/
def check_unlink_calls (u : Nat) : usb_hcd → List Int → List Int × usb_hcd
  | hcd, [] => ([], hcd)
  | hcd, s :: rest =>
    let r := usb_hcd_check_unlink_urb hcd u s
    let r2 := check_unlink_calls u r.2 rest
    (r.1 :: r2.1, r2.2)

/-- Three bulk OUT requests of 4096, 4096 and 100 bytes for the same endpoint, none of
them submitted to the ring yet: URB `k` owns the `urb_priv` block `k`, whose one TD is
`k + 1`; the bulk ED 0 is scheduled and holds the dummy TD 0; TD `k` has the bus address
`0x100 + 0x20 * k`. -/
def bulk3 : ohci_hcd :=
  { sched :=
      { eds := fun _ => { type := PIPE_BULK, state := ED_OPER, dummy := some 0, dma := 0x1000,
                          hwHeadP := 0x100, hwTailP := 0x100 },
        int_table := fun _ => 0,
        periodic := fun _ => none,
        load := fun _ => 0,
        ed_bulktail := some 0,
        hc_control := OHCI_CTRL_BLE },
    hcd :=
      { state := HC_STATE_RUNNING,
        uses_dma := true,
        urbs := fun k =>
          { kref := 2, hcpriv := some k, use_count := 1, pipe_type := PIPE_BULK, pipe_out := true,
            status := -EINPROGRESS, transfer_dma := 0x10000 * (k + 1),
            transfer_buffer_length := if k = 2 then 100 else 4096 },
        eps := fun _ => { bmAttributes := 2, urb_list := [0, 1, 2], enabled := 1 },
        devs := fun _ => { parent := some 0, can_submit := true },
        anchors := fun _ => {},
        mem := fun _ => 0 },
    tds := fun k => { td_dma := 0x100 + 0x20 * k, hwNextTD := 0x100 + 0x20 * k },
    privs := fun k => { ed := 0, length := 1, td := fun i => if i = 0 then some (k + 1) else none },
    td_hash := fun _ => none }

/-- The controller retiring the cell `t` completely and without error: the condition
code and the current-buffer pointer are cleared, the ED head moves on, and the cell is
pushed on the done list of the HCCA. -/
def hc_retire (ohci : ohci_hcd) (t : Nat) : ohci_hcd :=
  let c := ohci.tds t
  let o1 := ohci.mod_ed c.ed (fun x => { x with hwHeadP := c.hwNextTD ||| (x.hwHeadP &&& ED_C) })
  let o2 := o1.mod_td t (fun x =>
    { x with hwINFO := clear_bits x.hwINFO TD_CC, hwCBP := 0, hwNextTD := o1.done_head })
  { o2 with done_head := c.td_dma }

/-- The state `bulk3` with the first request made empty: `transfer_buffer_length` 0,
`transfer_dma` still `0x10000`. -/
def bulk_empty : ohci_hcd :=
  bulk3.mod_urb 0 (fun x => { x with transfer_buffer_length := 0 })

/-- The three requests of `bulk3` submitted in order. -/
def bulk3_submitted : Option ohci_hcd :=
  match td_submit_urb bulk3 0 with
  | none => none
  | some o1 =>
    match td_submit_urb o1 1 with
    | none => none
    | some o2 => td_submit_urb o2 2

/-- The three requests of `bulk3` submitted and their cells 0, 1, 2 retired by the
controller in that order. -/
def bulk3_retired : Option ohci_hcd :=
  bulk3_submitted.map (fun o => hc_retire (hc_retire (hc_retire o 0) 1) 2)

/-- The state of `bulk3_retired`: the three requests submitted and retired, the done list
not yet processed. -/
def bulk3_done_input : ohci_hcd := bulk3_retired.getD bulk3

/-- The controller putting the TDs of `M` on its done list again, the head of `M` being
the most recently completed one: the TDs are linked through `hwNextTD` and `done_head`
is the bus address of the first. -/
def hc_requeue (s : ohci_hcd) : List Nat → ohci_hcd
  | [] => { s with done_head := 0 }
  | t :: rest =>
    let s1 := hc_requeue s rest
    { s1.mod_td t (fun x => { x with hwNextTD := s1.done_head }) with
      done_head := (s1.tds t).td_dma }

/-- The result of `dl_reverse_done_list` on `bulk3_done_input`. -/
def bulk3_reversed : ohci_hcd × Option Nat :=
  (dl_reverse_done_list 4 bulk3_done_input).getD (bulk3_done_input, none)

/-- A platform whose allocators have no memory left. -/
def plat_exhausted : platform :=
  { alloc := fun _ => none, dma_map_single := fun a _ => a }

/-- A platform whose allocators hand out a fresh 256-byte block per call: the `n`-th
outgoing call gets the block at `0x8000 + 0x100 * n`, bus address `0x48000 + 0x100 * n`. -/
def plat_bump : platform :=
  { alloc := fun past => some (0x8000 + 0x100 * past.length, 0x48000 + 0x100 * past.length),
    dma_map_single := fun a _ => a }

/-- A driver that accepts every URB by linking it to its endpoint queue and cancels by
`usb_hcd_check_unlink_urb`, leaving the give back to the retirement path. -/
def drv_link : hc_driver :=
  { urb_enqueue := fun h u => usb_hcd_link_urb_to_ep h u,
    urb_dequeue := fun h u s => usb_hcd_check_unlink_urb h u s,
    rh_request := fun h _ => (0, h) }

/-- A running controller that needs bounce buffers (`HCD_LOCAL_MEM`, no DMA of its own).
Every URB is a control request for endpoint 0 of the non-root device 0, with its setup
packet at `0x2000` and a 64-byte buffer at `0x3000`, not yet submitted. -/
def hcd_bounce : usb_hcd :=
  { state := HC_STATE_RUNNING,
    driver_flags := HCD_LOCAL_MEM,
    urbs := fun _ =>
      { pipe_type := PIPE_CONTROL, setup_packet := 0x2000, transfer_buffer := 0x3000,
        transfer_buffer_length := 64 },
    eps := fun _ => { enabled := 1 },
    devs := fun _ => { parent := some 0, can_submit := true },
    anchors := fun _ => {},
    mem := fun _ => 0 }

/-- The URBs handed to the driver's `urb_enqueue` according to a trace, oldest first. -/
def enqueued (t : List core_event) : List Nat :=
  t.filterMap (fun ev => match ev with
    | .urb_enqueue u => some u
    | _ => none)

/-- The pools asked by `dma_pool_alloc` according to a trace, oldest first. -/
def pool_allocs (t : List core_event) : List Nat :=
  t.filterMap (fun ev => match ev with
    | .dma_pool_alloc i => some i
    | _ => none)

/-- The bounce allocation for a 64-byte device-to-host buffer at `0x3000` on
`hcd_bounce`, served by `plat_bump`. -/
def bounce_alloc : Int × usb_hcd × Nat × Nat :=
  hcd_alloc_coherent plat_bump hcd_bounce 0 0x3000 64 .DMA_FROM_DEVICE

/-- The pool of `dma_pool_create (name, dev, 1000, 8, 8192)`: blocks of 1000 bytes that
must not cross a multiple of 8192. -/
def pool_1000 : Option dma_pool := dma_pool_create true 1000 8 8192

/-- Successive `dma_pool_alloc` calls without `__GFP_WAIT` on a pool, `n` of them, the
page allocator delivering `pool->allocation` bytes at address `0x100000`, bus address
`0x200000`; the result lists the returned addresses, oldest first. -/
def pool_alloc_n : Nat → dma_pool → Option (dma_pool × List Nat)
  | 0, pool => some (pool, [])
  | n + 1, pool =>
    match dma_pool_alloc 8 false (fun _ => some (0x100000, 0x200000)) 0 1 0 pool with
    | none => none
    | some r =>
      match pool_alloc_n n r.1 with
      | none => none
      | some r2 => some (r2.1, r.2.1 :: r2.2)

/-- Two interrupt EDs waiting on `ed_rm_list`, ED 0 in front of ED 1, both in
`ED_UNLINK` with `ED_SKIP` set and no TD left; ED 0 is to be removed at frame 10, ED 1
at frame 5.  Nothing is scheduled and the controller is running. -/
def rm_two : ohci_hcd :=
  { sched :=
      { eds := fun k =>
          { type := PIPE_INTERRUPT, state := ED_UNLINK, hwINFO := ED_SKIP, dma := 0x1000 + 0x20 * k,
            tick := if k = 0 then 10 else 5,
            ed_next := if k = 0 then some 1 else none },
        int_table := fun _ => 0,
        periodic := fun _ => none,
        load := fun _ => 0,
        ed_rm_list := some 0 },
    hcd :=
      { state := HC_STATE_RUNNING,
        urbs := fun _ => {},
        eps := fun _ => {},
        devs := fun _ => {},
        anchors := fun _ => {},
        mem := fun _ => 0 },
    tds := fun _ => {},
    privs := fun _ => {},
    td_hash := fun _ => none }

/-- An empty schedule and two idle isochronous EDs, 0 and 1, each with period 1 and a
load of 700 microseconds per frame. -/
def sched_iso2 : ohci_sched :=
  { eds := fun k => { type := PIPE_ISOCHRONOUS, state := ED_IDLE, interval := 1, load := 700,
                      dma := 0x1000 + 0x20 * k },
    int_table := fun _ => 0,
    periodic := fun _ => none,
    load := fun _ => 0 }

/-- A running controller with the URBs 1, 2 and 3 in flight on endpoint 0 of a device
that is no root hub, queued in this order; no URB is anchored. -/
def hcd_flying : usb_hcd :=
  { state := HC_STATE_RUNNING,
    urbs := fun _ => { kref := 1, use_count := 1, status := -EINPROGRESS },
    eps := fun p => { enabled := 1, bmAttributes := 2, urb_list := if p = 0 then [1, 2, 3] else [] },
    devs := fun _ => { parent := some 0, can_submit := true },
    anchors := fun _ => {},
    mem := fun _ => 0 }

/-- A controller that serves the URBs `cands`: at each step it completes, with hardware
status 0, the first of them that is queued with its unlink requested. -/
def pick_of (cands : List Nat) : usb_hcd → Option (Nat × Int) :=
  fun h =>
    (cands.find? (fun u => urb_list_find u (h.eps (h.urbs u).ep).urb_list
      && decide ((h.urbs u).unlinked ≠ 0))).map (fun u => (u, 0))

/-- The URBs 1 and 2 of `hcd_flying`, anchored on anchor 0 in this order. -/
def hcd_anchored : usb_hcd := usb_anchor_urb (usb_anchor_urb hcd_flying 1 0) 2 0

/-- Two threads that are about to call `usb_kill_urb` for an URB of `hcd_flying`. -/
def kill2_start : kill2_state := { hcd := hcd_flying, pc1 := .start, pc2 := .start }

/-- A schedule for two killers of URB 1: both mark the URB and pass the test of
`use_count`, the first requests the unlink, the controller completes the URB, the second
requests the unlink as well, and both wake up and return. -/
def kill2_schedule : List kill2_action :=
  [.first, .second, .first, .second, .first, .complete 1 0, .second, .first, .second,
    .first, .second]

/-- The controller `hcd_flying` after the unlink of URB 2 was requested with `-ENOENT`:
endpoint 0 queues the URBs 1, 2 and 3, of which 1 and 3 are not yet unlinked. -/
def hcd_flush : usb_hcd := hcd_flying.mod_urb 2 (fun x => { x with unlinked := -ENOENT })

/-- The controller of `hcd_flying` with one more URB, number 7: it is filled in for
endpoint 0 (`urb->dev` is set) and was never submitted, so `urb->ep` is still `NULL`. -/
def hcd_fresh : usb_hcd :=
  hcd_flying.mod_urb 7 (fun _ => { has_dev := true, has_ep := false })

/-- What `usb_submit_urb` does to URB `u` before it reaches `usb_hcd_link_urb_to_ep`:
`urb->ep = ep` for endpoint `p`. -/
def hcd_set_ep (hcd : usb_hcd) (u p : Nat) : usb_hcd :=
  hcd.mod_urb u (fun x => { x with ep := p, has_ep := true })


/-- Two registered buses, 10 and 11, with the numbers 1 and 2. -/
def two_buses : bus_registry :=
  (usb_register_bus (usb_register_bus {} 10).2 11).2

/-- All the numbers 1..63 taken; no bus is looked at. -/
def full_busmap : bus_registry := { busmap := fun i => decide (1 ≤ i ∧ i < 64) }


/-- The state `bulk3` after `td_fill` has filled and hashed TD 0 for the first request;
TD 1 is the dummy of the ED now. -/
def bulk3_one : ohci_hcd := td_fill_cell bulk3 0 0x10000 4096 0 0 0 0 1

/-- The hashed TDs of `bulk3_one`: TD 0 in the bucket of its address `0x100`. -/
def bulk3_one_hash : Nat → List Nat := upd (fun _ => []) (TD_HASH_FUNC 0x100) [0]


/-- A control IN request of 18 bytes (a GET_DESCRIPTOR), not yet on the ring: URB 0 owns
the `urb_priv` block 0 with room for three cells, whose TDs are 1, 2 and 3; the control
ED 0 is scheduled and holds the dummy TD 0; TD `k` has the bus address
`0x100 + 0x20 * k`. -/
def ctrl_in : ohci_hcd :=
  { sched :=
      { eds := fun _ => { type := PIPE_CONTROL, state := ED_OPER, dummy := some 0, dma := 0x1000,
                          hwHeadP := 0x100, hwTailP := 0x100 },
        int_table := fun _ => 0,
        periodic := fun _ => none,
        load := fun _ => 0,
        ed_controltail := some 0,
        hc_control := OHCI_CTRL_CLE },
    hcd :=
      { state := HC_STATE_RUNNING,
        uses_dma := true,
        urbs := fun _ =>
          { kref := 2, hcpriv := some 0, use_count := 1, pipe_type := PIPE_CONTROL,
            pipe_out := false, status := -EINPROGRESS, setup_dma := 0x8000,
            transfer_dma := 0x10000, transfer_buffer_length := 18 },
        eps := fun _ => { bmAttributes := 0, urb_list := [0], enabled := 1 },
        devs := fun _ => { parent := some 0, can_submit := true },
        anchors := fun _ => {},
        mem := fun _ => 0 },
    tds := fun k => { td_dma := 0x100 + 0x20 * k, hwNextTD := 0x100 + 0x20 * k },
    privs := fun _ => { ed := 0, length := 3, td := fun i => if i < 3 then some (i + 1) else none },
    td_hash := fun _ => none }


/-- A control list with the EDs 1 and 2 (head 1, tail 2), an idle control ED 3 and an idle
bulk ED 4; the bulk list is empty, and ED `k` has the bus address `0x1000 + 0x20 * k`. -/
def sched_ctrl : ohci_sched :=
  { eds := fun k =>
      { type := if k = 4 then PIPE_BULK else PIPE_CONTROL,
        state := if k = 1 ∨ k = 2 then ED_OPER else ED_IDLE,
        dma := 0x1000 + 0x20 * k,
        ed_next := if k = 1 then some 2 else none,
        ed_prev := if k = 2 then some 1 else none,
        hwNextED := if k = 1 then 0x1040 else 0 },
    int_table := fun _ => 0,
    periodic := fun _ => none,
    load := fun _ => 0,
    ed_controltail := some 2,
    hc_control := OHCI_CTRL_CLE }



/-- A periodic table with two linked EDs: ED 1 (interval 32, branch 0, load 10) is in
slot 0 only, ED 2 (interval 1, load 5) is in every slot, behind ED 1 in slot 0; the
hardware chain mirrors the software chain.  ED 3 (interval 16, branch 0, load 20) is not
linked; its slots are 0 and 16.  ED `k` has the bus address `0x1000 + 0x20 * k`. -/
def sched_tree : ohci_sched :=
  { eds := fun k =>
      { type := PIPE_INTERRUPT,
        state := if k = 1 ∨ k = 2 then ED_OPER else ED_IDLE,
        dma := 0x1000 + 0x20 * k,
        ed_next := if k = 1 then some 2 else none,
        hwNextED := if k = 1 then 0x1040 else 0,
        interval := if k = 1 then 32 else if k = 2 then 1 else 16,
        load := if k = 1 then 10 else if k = 2 then 5 else 20 },
    int_table := fun i => if i = 0 then 0x1020 else 0x1040,
    periodic := fun i => if i = 0 then some 1 else some 2,
    load := fun i => if i = 0 then 15 else 5,
    bandwidth_allocated := 5 }

/-- The EDs of `sched_tree` in front of the place of ED 3, slot by slot. -/
def sched_tree_front (i : Nat) : List Nat := if i = 0 then [1] else []


/-- A periodic table with an interval that is no power of two: ED 1 (interval 2, branch 0,
load 10) is linked into the even slots, the hardware chain mirrors the software chain;
ED 2 (interval 3, branch 1, load 20) is not linked, its slots are 1, 4, 7, ..., 31.  ED `k`
has the bus address `0x1000 + 0x20 * k`. -/
def sched_odd : ohci_sched :=
  { eds := fun k =>
      { type := PIPE_INTERRUPT,
        state := if k = 1 then ED_OPER else ED_IDLE,
        dma := 0x1000 + 0x20 * k,
        interval := if k = 1 then 2 else 3,
        branch := if k = 1 then 0 else 1,
        load := if k = 1 then 10 else 20 },
    int_table := fun i => if i % 2 = 0 then 0x1020 else 0,
    periodic := fun i => if i % 2 = 0 then some 1 else none,
    load := fun i => if i % 2 = 0 then 10 else 0,
    bandwidth_allocated := 5 }

/-- The empty periodic table with the EDs of `sched_odd`. -/
def sched_odd_empty : ohci_sched :=
  { sched_odd with
    int_table := fun _ => 0,
    periodic := fun _ => none,
    load := fun _ => 0,
    bandwidth_allocated := 0 }

/-- The state that `dl_done_list` makes of `bulk3_done_input`: the three requests are
given back, and the bulk ED 0, whose `td_list` is empty now, waits on `ed_rm_list`. -/
def bulk3_unlinked : ohci_hcd := (dl_done_list 4 bulk3_done_input).getD bulk3_done_input

/-- The state that `finish_unlinks` at frame 1 makes of `bulk3_unlinked`: ED 0 is off
`ed_rm_list`. -/
def bulk3_idle : ohci_hcd := (finish_unlinks 4 bulk3_unlinked 1).getD bulk3_unlinked

/-! # Theorems -/

@[simp] theorem upd_same {α : Type} (f : Nat → α) (i : Nat) (v : α) : upd f i v i = v := by
  simp [upd]

theorem upd_other {α : Type} (f : Nat → α) (i j : Nat) (v : α) (h : j ≠ i) :
    upd f i v j = f j := by
  simp [upd, h]

/-! ## balance -/

/-- The inner loop of `balance` ends, and it runs off the table exactly when every slot of
the progression has room. -/
theorem balance_scan_spec (tab : Nat → Int) (n : Nat) (hn : 0 < n) (load : Int) :
    ∀ fuel j, NUM_INTS ≤ j + fuel →
      ∃ r, balance_scan tab n load (fuel + 1) j = some r ∧
        (NUM_INTS ≤ r ↔ ∀ k, j + k * n < NUM_INTS → tab (j + k * n) + load ≤ 900) := by
  intro fuel
  induction fuel with
  | zero =>
    intro j hj
    refine ⟨j, ?_, ?_⟩
    · have : ¬ j < NUM_INTS := by omega
      simp [balance_scan, this]
    · constructor
      · intro _ k hk
        have : j ≤ j + k * n := Nat.le_add_right _ _
        omega
      · intro _; omega
  | succ f ih =>
    intro j hj
    by_cases hlt : j < NUM_INTS
    · by_cases hbig : tab j + load > 900
      · refine ⟨j, ?_, ?_⟩
        · rw [balance_scan]; simp [hlt, hbig]
        · constructor
          · intro h; omega
          · intro h
            have := h 0 (by simpa using hlt)
            simp at this
            omega
      · obtain ⟨r, hr, hiff⟩ := ih (j + n) (by omega)
        refine ⟨r, ?_, ?_⟩
        · rw [balance_scan]; simp only [hlt, hbig, if_true, if_false]; exact hr
        · rw [hiff]
          constructor
          · intro h k hk
            cases k with
            | zero => simp; omega
            | succ k =>
              have e : j + (k + 1) * n = j + n + k * n := by ring
              rw [e] at hk ⊢
              exact h k hk
          · intro h k hk
            have e : j + n + k * n = j + (k + 1) * n := by ring
            rw [e] at hk ⊢
            exact h (k + 1) hk
    · refine ⟨j, ?_, ?_⟩
      · rw [balance_scan]; simp [hlt]
      · constructor
        · intro _ k hk
          have : j ≤ j + k * n := Nat.le_add_right _ _
          omega
        · intro _; omega

/-- For a positive period the bounded index of `feasible` is no restriction. -/
theorem feasible_iff (tab : Nat → Int) (n : Nat) (hn : 0 < n) (load : Int) (i : Nat) :
    feasible tab n load i ↔ ∀ k, i + k * n < NUM_INTS → tab (i + k * n) + load ≤ 900 := by
  constructor
  · intro h k hk
    refine h k ?_ hk
    have : k ≤ k * n := Nat.le_mul_of_pos_right k hn
    omega
  · intro h k _ hk
    exact h k hk

theorem balance_loop_spec (tab : Nat → Int) (n : Nat) (hn : n ≤ NUM_INTS) (load : Int) :
    ∀ fuel i branch, i ≤ n → n ≤ i + fuel → balance_inv tab n load i branch →
      ∃ r, balance_loop tab n load (fuel + 1) i branch = some r ∧
        balance_inv tab n load n r := by
  intro fuel
  induction fuel with
  | zero =>
    intro i branch hi hf hinv
    have hin : i = n := by omega
    subst hin
    exact ⟨branch, by simp [balance_loop], hinv⟩
  | succ f ih =>
    intro i branch hi hf hinv
    by_cases hlt : i < n
    · have hpos : 0 < n := by omega
      obtain ⟨j, hj, hjiff⟩ := balance_scan_spec tab n hpos load NUM_INTS i (by omega)
      rw [← feasible_iff tab n hpos load i] at hjiff
      rw [balance_loop]
      simp only [hlt, if_true]
      rcases hinv with ⟨hb, hnone⟩ | ⟨b, hbi, hb, hfb, hmin⟩
      · -- no feasible phase so far
        have hneg : branch < 0 := by rw [hb]; simp [ENOSPC]
        simp only [hneg, true_or, if_true, hj]
        by_cases hjl : j < NUM_INTS
        · simp only [hjl, if_true]
          apply ih (i + 1) branch (by omega) (by omega)
          left
          refine ⟨hb, ?_⟩
          intro k hk
          by_cases hki : k = i
          · subst hki; intro hfe; have := hjiff.mpr hfe; omega
          · exact hnone k (by omega)
        · simp only [hjl, if_false]
          apply ih (i + 1) (i : Int) (by omega) (by omega)
          right
          refine ⟨i, by omega, rfl, hjiff.mp (by omega), ?_⟩
          intro k hk hfe
          by_cases hki : k = i
          · subst hki; right; exact ⟨rfl, le_refl _⟩
          · exact absurd hfe (hnone k (by omega))
      · -- `b` is the best phase so far
        have hnn : ¬ branch < 0 := by rw [hb]; omega
        have htn : branch.toNat = b := by rw [hb]; simp
        by_cases hgt : tab b > tab i
        · simp only [hnn, htn, hgt, or_true, if_true, hj]
          by_cases hjl : j < NUM_INTS
          · simp only [hjl, if_true]
            apply ih (i + 1) branch (by omega) (by omega)
            right
            refine ⟨b, by omega, hb, hfb, ?_⟩
            intro k hk hfe
            by_cases hki : k = i
            · subst hki; have := hjiff.mpr hfe; omega
            · exact hmin k (by omega) hfe
          · simp only [hjl, if_false]
            apply ih (i + 1) (i : Int) (by omega) (by omega)
            right
            refine ⟨i, by omega, rfl, hjiff.mp (by omega), ?_⟩
            intro k hk hfe
            by_cases hki : k = i
            · subst hki; right; exact ⟨rfl, le_refl _⟩
            · rcases hmin k (by omega) hfe with h | ⟨h, _⟩
              · left; omega
              · left; omega
        · simp only [hnn, htn, hgt, or_false, if_false]
          apply ih (i + 1) branch (by omega) (by omega)
          right
          refine ⟨b, by omega, hb, hfb, ?_⟩
          intro k hk hfe
          by_cases hki : k = i
          · subst hki
            rcases lt_or_eq_of_le (not_lt.mp hgt) with h | h
            · left; exact h
            · right; exact ⟨h, by omega⟩
          · exact hmin k (by omega) hfe
    · have hin : i = n := by omega
      subst hin
      refine ⟨branch, ?_, hinv⟩
      rw [balance_loop]; simp

/-- What `balance` returns, in terms of the clamped period `n = min interval NUM_INTS`. -/
theorem balance_inv_final (tab : Nat → Int) (interval : Nat) (load : Int) :
    ∃ r, balance tab interval load = some r ∧
      balance_inv tab (min interval NUM_INTS) load (min interval NUM_INTS) r := by
  have hclamp : (if interval > NUM_INTS then NUM_INTS else interval) = min interval NUM_INTS := by
    by_cases h : interval > NUM_INTS
    · simp [h, Nat.min_eq_right (Nat.le_of_lt h)]
    · simp [h, Nat.min_eq_left (Nat.le_of_not_lt h)]
  unfold balance
  simp only [hclamp]
  apply balance_loop_spec tab _ (Nat.min_le_right _ _) load NUM_INTS 0 (-ENOSPC) (Nat.zero_le _)
  · have := Nat.min_le_right interval NUM_INTS
    omega
  · left
    exact ⟨rfl, fun k hk => absurd hk (Nat.not_lt_zero k)⟩

/-- C2. `balance` equals its reference definition: with `n = min interval 32`, it returns
the feasible phase with the smallest `load[i]` (the lowest index among equally loaded
ones) when some phase below `n` is feasible, and it returns `-ENOSPC` exactly when no
phase is feasible. -/
theorem balance_reference (tab : Nat → Int) (interval : Nat) (load : Int) :
    ∃ r, balance tab interval load = some r ∧
      ((∃ i, i < min interval NUM_INTS ∧ feasible tab (min interval NUM_INTS) load i) →
        ∃ b, b < min interval NUM_INTS ∧ r = (b : Int) ∧
          feasible tab (min interval NUM_INTS) load b ∧
          ∀ i, i < min interval NUM_INTS → feasible tab (min interval NUM_INTS) load i →
            tab b ≤ tab i ∧ (tab b = tab i → b ≤ i)) ∧
      (r = -ENOSPC ↔
        ¬ ∃ i, i < min interval NUM_INTS ∧ feasible tab (min interval NUM_INTS) load i) := by
  obtain ⟨r, hr, hinv⟩ := balance_inv_final tab interval load
  refine ⟨r, hr, ?_, ?_⟩
  · rintro ⟨i, hi, hfe⟩
    rcases hinv with ⟨_, hnone⟩ | ⟨b, hb, hrb, hfb, hmin⟩
    · exact absurd hfe (hnone i hi)
    · refine ⟨b, hb, hrb, hfb, ?_⟩
      intro k hk hfk
      rcases hmin k hk hfk with h | ⟨h, hle⟩
      · exact ⟨le_of_lt h, fun he => absurd he (ne_of_lt h)⟩
      · exact ⟨le_of_eq h, fun _ => hle⟩
  · constructor
    · intro hre
      rintro ⟨i, hi, hfe⟩
      rcases hinv with ⟨_, hnone⟩ | ⟨b, _, hrb, _, _⟩
      · exact hnone i hi hfe
      · rw [hre] at hrb
        simp only [ENOSPC] at hrb
        omega
    · intro hno
      rcases hinv with ⟨hre, _⟩ | ⟨b, hb, _, hfb, _⟩
      · exact hre
      · exact absurd ⟨b, hb, hfb⟩ hno

/-! ## periodic_link and ed_schedule: the load table -/

theorem sched_frame_refl (o : ohci_sched) : sched_frame o o :=
  ⟨rfl, fun _ => ⟨rfl, rfl⟩⟩

theorem sched_frame_trans {a b c : ohci_sched} (h1 : sched_frame a b) (h2 : sched_frame b c) :
    sched_frame a c :=
  ⟨h2.1.trans h1.1, fun x => ⟨(h2.2 x).1.trans (h1.2 x).1, (h2.2 x).2.trans (h1.2 x).2⟩⟩

theorem mod_ed_frame (o : ohci_sched) (x : Nat) (f : ed → ed)
    (hf : ∀ y, (f y).load = y.load ∧ (f y).interval = y.interval) :
    sched_frame o (o.mod_ed x f) := by
  refine ⟨rfl, fun y => ?_⟩
  by_cases hy : y = x
  · subst hy; simpa [ohci_sched.mod_ed] using hf (o.eds y)
  · simp [ohci_sched.mod_ed, upd_other _ _ _ _ hy]

theorem edref_set_frame (o : ohci_sched) (v : Option Nat) (r : edref) :
    sched_frame o (r.set o v) := by
  cases r with
  | slot i => exact ⟨rfl, fun _ => ⟨rfl, rfl⟩⟩
  | node e => exact mod_ed_frame o e _ (fun _ => ⟨rfl, rfl⟩)

theorem edref_set_p_frame (o : ohci_sched) (v : Nat) (r : edref) :
    sched_frame o (r.set_p o v) := by
  cases r with
  | slot i => exact ⟨rfl, fun _ => ⟨rfl, rfl⟩⟩
  | node e => exact mod_ed_frame o e _ (fun _ => ⟨rfl, rfl⟩)

theorem periodic_link_insert_frame (ohci : ohci_sched) (e : Nat) (prev : edref)
    (here : Option Nat) : sched_frame ohci (periodic_link_insert ohci e prev here) := by
  unfold periodic_link_insert
  split
  · have s1 : sched_frame ohci (ohci.mod_ed e (fun x => { x with ed_next := here })) :=
      mod_ed_frame _ _ _ (fun _ => ⟨rfl, rfl⟩)
    refine sched_frame_trans (sched_frame_trans (sched_frame_trans s1 ?_)
      (edref_set_frame _ _ _)) (edref_set_p_frame _ _ _)
    split
    · exact mod_ed_frame _ _ _ (fun _ => ⟨rfl, rfl⟩)
    · exact sched_frame_refl _
  · exact sched_frame_refl _

/-- One slot of `periodic_link`: the load of the ED is added to `load[i]`, and no ED
changes its `load` or `interval`. -/
theorem periodic_link_slot_load (fuel : Nat) (ohci ohci' : ohci_sched) (e i : Nat)
    (h : periodic_link_slot fuel ohci e i = some ohci') :
    ohci'.load = upd ohci.load i (ohci.load i + ((ohci.eds e).load : Int)) ∧
    ∀ x, (ohci'.eds x).load = (ohci.eds x).load ∧
      (ohci'.eds x).interval = (ohci.eds x).interval := by
  unfold periodic_link_slot at h
  cases hw : periodic_link_walk ohci e fuel (edref.slot i) (ohci.periodic i) with
  | none => rw [hw] at h; exact absurd h (by simp)
  | some r =>
    obtain ⟨prev, here⟩ := r
    rw [hw] at h
    have hf := periodic_link_insert_frame ohci e prev here
    have heq : add_load (periodic_link_insert ohci e prev here) i
        ((periodic_link_insert ohci e prev here).eds e).load = ohci' := Option.some.inj h
    rw [← heq]
    refine ⟨?_, fun x => hf.2 x⟩
    show upd _ i (_ + _) = _
    rw [hf.1, (hf.2 e).1]

/-- The loop of `periodic_link` started at slot `i`: the load `L` of the ED is added
once to each slot `i, i+I, i+2I, ...` below `NUM_INTS`, and to no other slot. -/
theorem periodic_link_loop_load (fuel e L I : Nat) (hI : 0 < I) :
    ∀ n (ohci : ohci_sched) (i : Nat) (ohci' : ohci_sched),
      periodic_link_loop fuel e n ohci i = some ohci' →
      (ohci.eds e).load = L → (ohci.eds e).interval = I →
      (∀ x, (ohci'.eds x).load = (ohci.eds x).load ∧
        (ohci'.eds x).interval = (ohci.eds x).interval) ∧
      (∀ j, j < NUM_INTS → (∃ k, j = i + k * I) → ohci'.load j = ohci.load j + (L : Int)) ∧
      (∀ j, ¬ (j < NUM_INTS ∧ ∃ k, j = i + k * I) → ohci'.load j = ohci.load j) := by
  intro n
  induction n with
  | zero => intro ohci i ohci' h; simp [periodic_link_loop] at h
  | succ n ih =>
    intro ohci i ohci' h hL hIv
    rw [periodic_link_loop] at h
    by_cases hlt : i < NUM_INTS
    · simp only [hlt, if_true] at h
      cases hs : periodic_link_slot fuel ohci e i with
      | none => simp [hs] at h
      | some o1 =>
        simp only [hs] at h
        obtain ⟨hload, hfld⟩ := periodic_link_slot_load fuel ohci o1 e i hs
        have hL1 : (o1.eds e).load = L := by rw [(hfld e).1, hL]
        have hI1 : (o1.eds e).interval = I := by rw [(hfld e).2, hIv]
        rw [hI1] at h
        obtain ⟨hf2, hin, hout⟩ := ih o1 (i + I) ohci' h hL1 hI1
        refine ⟨fun x => ⟨(hf2 x).1.trans (hfld x).1, (hf2 x).2.trans (hfld x).2⟩, ?_, ?_⟩
        · rintro j hj ⟨k, hk⟩
          cases k with
          | zero =>
            have hji : j = i := by simpa using hk
            subst hji
            rw [hout j ?_, hload, upd_same, hL]
            rintro ⟨_, k, hk2⟩
            have : j + I ≤ j + I + k * I := Nat.le_add_right _ _
            omega
          | succ k =>
            have hne : j ≠ i := by
              have : I ≤ (k + 1) * I := Nat.le_mul_of_pos_left I (Nat.succ_pos k)
              omega
            rw [hin j hj ⟨k, by rw [hk]; ring⟩, hload, upd_other _ _ _ _ hne]
        · intro j hj
          have hne : j ≠ i := by
            rintro rfl
            exact hj ⟨hlt, 0, by simp⟩
          rw [hout j ?_, hload, upd_other _ _ _ _ hne]
          rintro ⟨hj1, k, hk⟩
          exact hj ⟨hj1, k + 1, by rw [hk]; ring⟩
    · simp only [hlt, if_false, Option.some.injEq] at h
      subst h
      refine ⟨fun _ => ⟨rfl, rfl⟩, ?_, fun _ _ => rfl⟩
      rintro j hj ⟨k, hk⟩
      have : i ≤ i + k * I := Nat.le_add_right _ _
      omega

theorem ed_schedule_start_frame (ohci : ohci_sched) (e : Nat) :
    sched_frame ohci (ed_schedule_start ohci e) := by
  unfold ed_schedule_start
  have s1 : sched_frame ohci (ohci.mod_ed e (fun x =>
      { x with state := ED_OPER, ed_prev := none, ed_next := none, hwNextED := 0 })) :=
    mod_ed_frame _ _ _ (fun _ => ⟨rfl, rfl⟩)
  dsimp only
  split
  · exact ⟨s1.1, s1.2⟩
  · exact s1

theorem ed_schedule_control_load (ohci : ohci_sched) (e : Nat) :
    (ed_schedule_control ohci e).load = ohci.load := by
  unfold ed_schedule_control
  dsimp only
  cases ohci.ed_controltail <;> simp only [Bool.and_eq_true] <;> split <;> rfl

theorem ed_schedule_bulk_load (ohci : ohci_sched) (e : Nat) :
    (ed_schedule_bulk ohci e).load = ohci.load := by
  unfold ed_schedule_bulk
  dsimp only
  cases ohci.ed_bulktail <;> simp only [Bool.and_eq_true] <;> split <;> rfl

/-- What a successful `periodic_link` does to the load table. -/
theorem periodic_link_load (fuel : Nat) (ohci ohci' : ohci_sched) (e : Nat)
    (hI : 0 < (ohci.eds e).interval) (h : periodic_link fuel ohci e = some ohci') :
    (∀ j, j < NUM_INTS → (∃ k, j = (ohci.eds e).branch + k * (ohci.eds e).interval) →
      ohci'.load j = ohci.load j + ((ohci.eds e).load : Int)) ∧
    (∀ j, ¬ (j < NUM_INTS ∧ ∃ k, j = (ohci.eds e).branch + k * (ohci.eds e).interval) →
      ohci'.load j = ohci.load j) := by
  unfold periodic_link at h
  cases hl : periodic_link_loop fuel e (NUM_INTS + 1) ohci (ohci.eds e).branch with
  | none => rw [hl] at h; exact absurd h (by simp)
  | some o1 =>
    rw [hl] at h
    have heq := Option.some.inj h
    obtain ⟨_, hin, hout⟩ :=
      periodic_link_loop_load fuel e _ _ hI _ ohci _ o1 hl rfl rfl
    rw [← heq]
    exact ⟨hin, hout⟩

/-- C1. Periodic admission keeps every schedule slot within 90% of a frame: if every
slot of the load table holds at most 900 and `ed_schedule` succeeds (returns 0), then
every slot still holds at most 900 afterwards. -/
theorem ed_schedule_keeps_budget (fuel : Nat) (ohci ohci' : ohci_sched) (e : Nat)
    (h900 : ∀ i, i < NUM_INTS → ohci.load i ≤ 900)
    (hs : ed_schedule fuel ohci e = some (0, ohci')) :
    ∀ i, i < NUM_INTS → ohci'.load i ≤ 900 := by
  have hst := ed_schedule_start_frame ohci e
  unfold ed_schedule at hs
  dsimp only at hs
  generalize ed_schedule_start ohci e = o1 at hs hst
  have h900' : ∀ i, i < NUM_INTS → o1.load i ≤ 900 := by
    intro i hi; rw [hst.1]; exact h900 i hi
  by_cases hc : (o1.eds e).type = PIPE_CONTROL
  · rw [if_pos hc] at hs
    have : ed_schedule_control o1 e = ohci' := (Prod.mk.inj (Option.some.inj hs)).2
    intro i hi
    rw [← this, ed_schedule_control_load]
    exact h900' i hi
  · rw [if_neg hc] at hs
    by_cases hb : (o1.eds e).type = PIPE_BULK
    · rw [if_pos hb] at hs
      have : ed_schedule_bulk o1 e = ohci' := (Prod.mk.inj (Option.some.inj hs)).2
      intro i hi
      rw [← this, ed_schedule_bulk_load]
      exact h900' i hi
    · rw [if_neg hb] at hs
      unfold ed_schedule_periodic at hs
      obtain ⟨r, hr, hinv⟩ := balance_inv_final o1.load (o1.eds e).interval (o1.eds e).load
      rw [hr] at hs
      dsimp only at hs
      by_cases hneg : r < 0
      · rw [if_pos hneg] at hs
        have : r = 0 := (Prod.mk.inj (Option.some.inj hs)).1
        omega
      · rw [if_neg hneg] at hs
        rcases hinv with ⟨hre, _⟩ | ⟨b, hb, hrb, hfb, _⟩
        · rw [hre] at hneg; simp [ENOSPC] at hneg
        · have hpos : 0 < min (o1.eds e).interval NUM_INTS := by omega
          have hIpos : 0 < (o1.eds e).interval := by
            rcases Nat.lt_or_ge 0 (o1.eds e).interval with h | h
            · exact h
            · have : (o1.eds e).interval = 0 := by omega
              rw [this] at hpos; simp at hpos
          have hbt : r.toNat = b := by rw [hrb]; simp
          rw [hbt] at hs
          cases hp : periodic_link fuel
              (o1.mod_ed e (fun x => { x with branch := b })) e with
          | none => rw [hp] at hs; exact absurd hs (by simp)
          | some o2 =>
            rw [hp] at hs
            have ho2 : o2 = ohci' := (Prod.mk.inj (Option.some.inj hs)).2
            subst ho2
            have hint : ((o1.mod_ed e (fun x => { x with branch := b })).eds e).interval
                = (o1.eds e).interval := by simp [ohci_sched.mod_ed]
            have hbr : ((o1.mod_ed e (fun x => { x with branch := b })).eds e).branch = b := by
              simp [ohci_sched.mod_ed]
            have hld : ((o1.mod_ed e (fun x => { x with branch := b })).eds e).load
                = (o1.eds e).load := by simp [ohci_sched.mod_ed]
            obtain ⟨hin, hout⟩ := periodic_link_load fuel _ o2 e (by rw [hint]; exact hIpos) hp
            rw [hint, hbr] at hin hout
            rw [hld] at hin
            have htab : (o1.mod_ed e (fun x => { x with branch := b })).load = o1.load := rfl
            rw [htab] at hin hout
            intro j hj
            by_cases hprog : ∃ k, j = b + k * (o1.eds e).interval
            · rw [hin j hj hprog]
              obtain ⟨k, hk⟩ := hprog
              rw [feasible_iff _ _ hpos] at hfb
              by_cases hle : (o1.eds e).interval ≤ NUM_INTS
              · rw [Nat.min_eq_left hle] at hfb
                have := hfb k (by rw [← hk]; exact hj)
                rw [← hk] at this
                exact this
              · have hk0 : k = 0 := by
                  rcases Nat.eq_zero_or_pos k with h0 | hkpos
                  · exact h0
                  · have : (o1.eds e).interval ≤ k * (o1.eds e).interval :=
                      Nat.le_mul_of_pos_left _ hkpos
                    omega
                subst hk0
                have := hfb 0 (by simpa using (show b < NUM_INTS by omega))
                simp only [Nat.zero_mul, Nat.add_zero] at this hk
                rw [hk]; exact this
            · rw [hout j (fun hh => hprog hh.2)]
              exact h900' j hj

/-- Witness for C1: the interrupt ED of `sched_room` is admitted on phase 3. -/
theorem ed_schedule_keeps_budget_witness :
    (∀ i, i < NUM_INTS → sched_room.load i ≤ 900) ∧
    (∃ o, ed_schedule 1 sched_room 0 = some (0, o) ∧ o.load 3 = 110 ∧
      ∀ i, i < NUM_INTS → o.load i ≤ 900) := by
  have h900 : ∀ i, i < NUM_INTS → sched_room.load i ≤ 900 := by decide
  have hfst : (ed_schedule 1 sched_room 0).map Prod.fst = some 0 := by decide
  cases hs : ed_schedule 1 sched_room 0 with
  | none => rw [hs] at hfst; exact absurd hfst (by simp)
  | some r =>
    obtain ⟨rc, o⟩ := r
    have hrc : rc = 0 := by
      rw [hs] at hfst
      exact Option.some.inj hfst
    subst hrc
    have h3 : o.load 3 = 110 := by
      have : (ed_schedule 1 sched_room 0).map (fun r => r.2.load 3) = some 110 := by decide
      rw [hs] at this
      exact Option.some.inj this
    exact ⟨h900, o, rfl, h3, ed_schedule_keeps_budget 1 sched_room o 0 h900 hs⟩

theorem ed_schedule_start_ed (ohci : ohci_sched) (e : Nat) :
    ((ed_schedule_start ohci e).eds e).state = ED_OPER ∧
    ((ed_schedule_start ohci e).eds e).type = (ohci.eds e).type := by
  unfold ed_schedule_start
  dsimp only
  split <;> simp [ohci_sched.mod_ed]

/-- The bandwidth-exhausted path of `ed_schedule`, in general: for an interrupt or
isochronous ED none of whose phases is feasible, `ed_schedule` returns `-ENOSPC`, leaves
the load table as it was, and leaves the ED in state `ED_OPER`. -/
theorem ed_schedule_exhausted (fuel : Nat) (ohci : ohci_sched) (e : Nat)
    (hc : (ohci.eds e).type ≠ PIPE_CONTROL) (hb : (ohci.eds e).type ≠ PIPE_BULK)
    (hno : ¬ ∃ i, i < min (ohci.eds e).interval NUM_INTS ∧
      feasible ohci.load (min (ohci.eds e).interval NUM_INTS) (ohci.eds e).load i) :
    ∃ o, ed_schedule fuel ohci e = some (-ENOSPC, o) ∧ (o.eds e).state = ED_OPER ∧
      o.load = ohci.load := by
  obtain ⟨hst, hty⟩ := ed_schedule_start_ed ohci e
  obtain ⟨hld, hfld⟩ := ed_schedule_start_frame ohci e
  unfold ed_schedule
  dsimp only
  generalize ed_schedule_start ohci e = o1 at hst hty hld hfld
  rw [if_neg (by rw [hty]; exact hc), if_neg (by rw [hty]; exact hb)]
  unfold ed_schedule_periodic
  obtain ⟨r, hr, hinv⟩ := balance_inv_final o1.load (o1.eds e).interval (o1.eds e).load
  rw [hr]
  dsimp only
  rw [hld, (hfld e).1, (hfld e).2] at hinv
  rcases hinv with ⟨hre, _⟩ | ⟨b, hb1, _, hfb, _⟩
  · rw [hre, if_pos (by decide)]
    exact ⟨o1, rfl, hst, hld⟩
  · exact absurd ⟨b, hb1, hfb⟩ hno

/-- C3 (as the code behaves). On the full table `sched_full` the idle interrupt ED cannot
be admitted: `ed_schedule` returns `-ENOSPC`, the load table is untouched, and the ED is
left in state `ED_OPER`, not `ED_IDLE`. -/
theorem ed_schedule_enospc_leaves_oper :
    (sched_full.eds 0).state = ED_IDLE ∧
    (∀ i, i < 1 → ¬ feasible sched_full.load 1 1 i) ∧
    (ed_schedule 1 sched_full 0).map (fun r => (r.1, (r.2.eds 0).state)) =
      some (-ENOSPC, ED_OPER) ∧
    ED_OPER ≠ ED_IDLE := by
  refine ⟨rfl, by decide, by decide, by decide⟩

/-! ## hcd.c: link, check-unlink, give back -/

@[simp] theorem mod_urb_urbs_same (hcd : usb_hcd) (u : Nat) (f : urb → urb) :
    (hcd.mod_urb u f).urbs u = f (hcd.urbs u) := by
  simp [usb_hcd.mod_urb]

theorem mod_urb_urbs_other (hcd : usb_hcd) (u v : Nat) (f : urb → urb) (h : v ≠ u) :
    (hcd.mod_urb u f).urbs v = hcd.urbs v := by
  simp [usb_hcd.mod_urb, upd_other _ _ _ _ h]

/-- C4 as stated fails: on the halted controller `hcd_halted` the URB was never rejected,
its endpoint is enabled and its device accepts submissions, yet `usb_hcd_link_urb_to_ep`
does not return 0 (nor one of the three listed errors) and queues nothing. -/
theorem usb_hcd_link_urb_to_ep_halted :
    (hcd_halted.urbs 0).reject = 0 ∧
    (hcd_halted.eps (hcd_halted.urbs 0).ep).enabled ≠ 0 ∧
    (hcd_halted.devs (hcd_halted.urbs 0).dev).can_submit = true ∧
    (usb_hcd_link_urb_to_ep hcd_halted 0).1 = -ESHUTDOWN ∧
    (usb_hcd_link_urb_to_ep hcd_halted 0).1 ≠ 0 ∧
    (usb_hcd_link_urb_to_ep hcd_halted 0).1 ≠ -EPERM ∧
    (usb_hcd_link_urb_to_ep hcd_halted 0).1 ≠ -ENOENT ∧
    (usb_hcd_link_urb_to_ep hcd_halted 0).1 ≠ -EHOSTUNREACH ∧
    ((usb_hcd_link_urb_to_ep hcd_halted 0).2.eps 0).urb_list = [] := by
  decide

/-- C4, amended. `usb_hcd_link_urb_to_ep` returns 0 exactly when the reject counter is
zero, the endpoint is enabled, the device accepts submissions and the controller is
running or resuming; then `urb->unlinked` is reset to 0 and the URB is appended at the
tail of its endpoint queue, the other queues being untouched.  Otherwise the state is
unchanged and the error is `-EPERM`, `-ENOENT`, `-EHOSTUNREACH` or `-ESHUTDOWN`, tested in
that order. -/
theorem usb_hcd_link_urb_to_ep_spec (hcd : usb_hcd) (u : Nat) :
    ((usb_hcd_link_urb_to_ep hcd u).1 = 0 ↔
      ((hcd.urbs u).reject = 0 ∧ (hcd.eps (hcd.urbs u).ep).enabled ≠ 0 ∧
        (hcd.devs (hcd.urbs u).dev).can_submit = true ∧
        (hcd.state = HC_STATE_RUNNING ∨ hcd.state = HC_STATE_RESUMING))) ∧
    ((usb_hcd_link_urb_to_ep hcd u).1 = 0 →
      ((usb_hcd_link_urb_to_ep hcd u).2.urbs u).unlinked = 0 ∧
      ((usb_hcd_link_urb_to_ep hcd u).2.eps (hcd.urbs u).ep).urb_list =
        (hcd.eps (hcd.urbs u).ep).urb_list ++ [u] ∧
      ∀ p, p ≠ (hcd.urbs u).ep →
        (usb_hcd_link_urb_to_ep hcd u).2.eps p = hcd.eps p) ∧
    ((usb_hcd_link_urb_to_ep hcd u).1 ≠ 0 →
      (usb_hcd_link_urb_to_ep hcd u).2 = hcd ∧
      (usb_hcd_link_urb_to_ep hcd u).1 =
        if (hcd.urbs u).reject ≠ 0 then -EPERM
        else if (hcd.eps (hcd.urbs u).ep).enabled = 0 then -ENOENT
        else if (hcd.devs (hcd.urbs u).dev).can_submit = false then -EHOSTUNREACH
        else -ESHUTDOWN) := by
  by_cases h1 : (hcd.urbs u).reject ≠ 0
  · have heq : usb_hcd_link_urb_to_ep hcd u = (-EPERM, hcd) := by
      unfold usb_hcd_link_urb_to_ep; rw [if_pos h1]
    rw [heq]
    simp [h1, EPERM]
  · by_cases h2 : (hcd.eps (hcd.urbs u).ep).enabled = 0
    · have heq : usb_hcd_link_urb_to_ep hcd u = (-ENOENT, hcd) := by
        unfold usb_hcd_link_urb_to_ep; rw [if_neg h1, if_pos h2]
      rw [heq]
      simp [h1, h2, ENOENT]
    · by_cases h3 : (hcd.devs (hcd.urbs u).dev).can_submit = false
      · have heq : usb_hcd_link_urb_to_ep hcd u = (-EHOSTUNREACH, hcd) := by
          unfold usb_hcd_link_urb_to_ep; rw [if_neg h1, if_neg h2, if_pos h3]
        rw [heq]
        simp [h1, h2, h3, EHOSTUNREACH]
      · by_cases h4 : hcd.state = HC_STATE_RUNNING ∨ hcd.state = HC_STATE_RESUMING
        · have heq : usb_hcd_link_urb_to_ep hcd u =
              (0, (hcd.mod_urb u (fun x => { x with unlinked := 0 })).mod_ep (hcd.urbs u).ep
                (fun p => { p with urb_list := p.urb_list ++ [u] })) := by
            unfold usb_hcd_link_urb_to_ep
            rw [if_neg h1, if_neg h2, if_neg h3, if_pos h4]
            simp
          rw [heq]
          have h1' : (hcd.urbs u).reject = 0 := not_not.mp h1
          have h3' : (hcd.devs (hcd.urbs u).dev).can_submit = true := by
            simpa using h3
          refine ⟨⟨fun _ => ⟨h1', h2, h3', h4⟩, fun _ => rfl⟩, fun _ => ⟨?_, ?_, ?_⟩,
            fun h => absurd rfl h⟩
          · simp [usb_hcd.mod_ep, usb_hcd.mod_urb]
          · simp [usb_hcd.mod_ep, usb_hcd.mod_urb]
          · intro p hp
            simp [usb_hcd.mod_ep, usb_hcd.mod_urb, upd_other _ _ _ _ hp]
        · have heq : usb_hcd_link_urb_to_ep hcd u = (-ESHUTDOWN, hcd) := by
            unfold usb_hcd_link_urb_to_ep
            rw [if_neg h1, if_neg h2, if_neg h3, if_neg h4]
          rw [heq]
          simp [h1, h2, h3, h4, ESHUTDOWN]

/-- A second `usb_hcd_check_unlink_urb` on an URB that is queued and already unlinked
returns `-EBUSY` and changes nothing. -/
theorem check_unlink_busy (hcd : usb_hcd) (u : Nat) (s : Int)
    (hq : urb_list_find u (hcd.eps (hcd.urbs u).ep).urb_list = true)
    (hun : (hcd.urbs u).unlinked ≠ 0) :
    usb_hcd_check_unlink_urb hcd u s = (-EBUSY, hcd) := by
  unfold usb_hcd_check_unlink_urb
  rw [if_neg (by rw [hq]; simp), if_pos hun]

/-- The first `usb_hcd_check_unlink_urb` on a queued, not yet unlinked URB returns 0,
records the status, and leaves the URB queued. -/
theorem check_unlink_first (hcd : usb_hcd) (u : Nat) (s : Int)
    (hq : urb_list_find u (hcd.eps (hcd.urbs u).ep).urb_list = true)
    (hun : (hcd.urbs u).unlinked = 0) :
    (usb_hcd_check_unlink_urb hcd u s).1 = 0 ∧
    ((usb_hcd_check_unlink_urb hcd u s).2.urbs u) = { hcd.urbs u with unlinked := s } ∧
    (usb_hcd_check_unlink_urb hcd u s).2.eps = hcd.eps := by
  unfold usb_hcd_check_unlink_urb
  rw [if_neg (by rw [hq]; simp), if_neg (by rw [hun]; simp)]
  dsimp only
  split
  · exact ⟨rfl, by simp [usb_hcd.mod_urb], rfl⟩
  · exact ⟨rfl, by simp [usb_hcd.mod_urb], rfl⟩

theorem check_unlink_calls_busy (u : Nat) :
    ∀ (later : List Int) (hcd : usb_hcd),
      urb_list_find u (hcd.eps (hcd.urbs u).ep).urb_list = true →
      (hcd.urbs u).unlinked ≠ 0 →
      check_unlink_calls u hcd later = (List.replicate later.length (-EBUSY), hcd) := by
  intro later
  induction later with
  | nil => intro hcd _ _; rfl
  | cons s rest ih =>
    intro hcd hq hun
    rw [check_unlink_calls, check_unlink_busy hcd u s hq hun]
    show (-EBUSY :: (check_unlink_calls u hcd rest).1, (check_unlink_calls u hcd rest).2) = _
    rw [ih hcd hq hun]
    rfl

/-- C5. Unlink is idempotent, first caller wins.  For an URB on its endpoint queue with
`unlinked == 0` and a non-zero status `s`, the first `usb_hcd_check_unlink_urb` returns 0
and sets `urb->unlinked = s`; every later call, with any status, returns `-EBUSY` and
changes nothing, so `urb->unlinked` stays `s`.  An URB that is not on its endpoint queue
gets `-EIDRM` and nothing is modified. -/
theorem usb_hcd_check_unlink_urb_idempotent (hcd : usb_hcd) (u : Nat) (s : Int)
    (hs : s ≠ 0) :
    (urb_list_find u (hcd.eps (hcd.urbs u).ep).urb_list = true → (hcd.urbs u).unlinked = 0 →
      (usb_hcd_check_unlink_urb hcd u s).1 = 0 ∧
      ((usb_hcd_check_unlink_urb hcd u s).2.urbs u).unlinked = s ∧
      (∀ s2, usb_hcd_check_unlink_urb (usb_hcd_check_unlink_urb hcd u s).2 u s2 =
        (-EBUSY, (usb_hcd_check_unlink_urb hcd u s).2)) ∧
      ∀ later : List Int,
        (check_unlink_calls u hcd (s :: later)).1 = 0 :: List.replicate later.length (-EBUSY) ∧
        ((check_unlink_calls u hcd (s :: later)).2.urbs u).unlinked = s) ∧
    (urb_list_find u (hcd.eps (hcd.urbs u).ep).urb_list = false →
      usb_hcd_check_unlink_urb hcd u s = (-EIDRM, hcd)) := by
  constructor
  · intro hq hun
    obtain ⟨hrc, hurb, heps⟩ := check_unlink_first hcd u s hq hun
    have hun1 : ((usb_hcd_check_unlink_urb hcd u s).2.urbs u).unlinked = s := by rw [hurb]
    have hq1 : urb_list_find u ((usb_hcd_check_unlink_urb hcd u s).2.eps
        ((usb_hcd_check_unlink_urb hcd u s).2.urbs u).ep).urb_list = true := by
      rw [hurb, heps]; exact hq
    have hne : ((usb_hcd_check_unlink_urb hcd u s).2.urbs u).unlinked ≠ 0 := by
      rw [hun1]; exact hs
    refine ⟨hrc, hun1, fun s2 => check_unlink_busy _ u s2 hq1 hne, fun later => ?_⟩
    rw [check_unlink_calls]
    dsimp only
    rw [check_unlink_calls_busy u later _ hq1 hne]
    exact ⟨by rw [hrc], hun1⟩
  · intro hq
    unfold usb_hcd_check_unlink_urb
    rw [if_pos hq]

/-- Witness for C5: URB 7 is queued on `hcd_queued`, URB 5 is not. -/
theorem usb_hcd_check_unlink_urb_idempotent_witness :
    ((check_unlink_calls 7 hcd_queued [-ENOENT, -ESHUTDOWN, 0]).1 = [0, -EBUSY, -EBUSY] ∧
      ((check_unlink_calls 7 hcd_queued [-ENOENT, -ESHUTDOWN, 0]).2.urbs 7).unlinked = -ENOENT) ∧
    usb_hcd_check_unlink_urb hcd_queued 5 (-ENOENT) = (-EIDRM, hcd_queued) :=
  ⟨((usb_hcd_check_unlink_urb_idempotent hcd_queued 7 (-ENOENT) (by decide)).1
      (by decide) (by decide)).2.2.2 [-ESHUTDOWN, 0],
    (usb_hcd_check_unlink_urb_idempotent hcd_queued 5 (-ENOENT) (by decide)).2 (by decide)⟩

/-! ### give back -/

theorem emit_trace (hcd : usb_hcd) (ev : core_event) :
    (hcd.emit ev).trace = hcd.trace ++ [ev] := rfl

theorem usb_put_urb_trace (hcd : usb_hcd) (u : Nat) :
    ∃ post, (usb_put_urb hcd u).trace = hcd.trace ++ post := by
  unfold usb_put_urb
  dsimp only
  split
  · exact ⟨[core_event.urb_destroy u], rfl⟩
  · exact ⟨[], by simp [usb_hcd.mod_urb]⟩

theorem usb_put_urb_status (hcd : usb_hcd) (u : Nat) :
    ((usb_put_urb hcd u).urbs u).status = (hcd.urbs u).status := by
  unfold usb_put_urb
  dsimp only
  split <;> simp [usb_hcd.mod_urb, usb_hcd.emit]

theorem trace_ext_refl (h : usb_hcd) : trace_ext h h := ⟨[], by simp⟩

theorem trace_ext_trans {a b c : usb_hcd} (h1 : trace_ext a b) (h2 : trace_ext b c) :
    trace_ext a c := by
  obtain ⟨p1, e1⟩ := h1
  obtain ⟨p2, e2⟩ := h2
  exact ⟨p1 ++ p2, by rw [e2, e1, List.append_assoc]⟩

theorem trace_ext_emit (h : usb_hcd) (ev : core_event) : trace_ext h (h.emit ev) :=
  ⟨[ev], rfl⟩

theorem trace_ext_mod_urb (h : usb_hcd) (u : Nat) (f : urb → urb) :
    trace_ext h (h.mod_urb u f) := ⟨[], by simp [usb_hcd.mod_urb]⟩

theorem trace_ext_put (h : usb_hcd) (u : Nat) : trace_ext h (usb_put_urb h u) :=
  usb_put_urb_trace h u

theorem trace_ext_buffer_free (h : usb_hcd) (size addr dma : Nat) :
    trace_ext h (hcd_buffer_free h size addr dma) := by
  unfold hcd_buffer_free
  split
  · exact trace_ext_refl _
  · split
    · exact trace_ext_emit _ _
    · split <;> exact trace_ext_emit _ _

theorem trace_ext_free_coherent (h : usb_hcd) (dma vaddr size : Nat)
    (d : dma_data_direction) :
    trace_ext h (hcd_free_coherent h dma vaddr size d).1 := by
  unfold hcd_free_coherent
  dsimp only
  refine trace_ext_trans ?_ (trace_ext_buffer_free _ _ _ _)
  split
  · exact ⟨[], by simp⟩
  · exact trace_ext_refl _

theorem trace_ext_unmap_setup (h : usb_hcd) (u : Nat) : trace_ext h (unmap_urb_setup h u) := by
  unfold unmap_urb_setup
  split
  · split
    · exact trace_ext_emit _ _
    · split
      · exact trace_ext_trans (trace_ext_free_coherent _ _ _ _ _) (trace_ext_mod_urb _ _ _)
      · exact trace_ext_refl _
  · exact trace_ext_refl _

theorem trace_ext_unmap_buffer (h : usb_hcd) (u : Nat) :
    trace_ext h (unmap_urb_buffer h u) := by
  unfold unmap_urb_buffer
  split
  · split
    · exact trace_ext_emit _ _
    · split
      · exact trace_ext_trans (trace_ext_free_coherent _ _ _ _ _) (trace_ext_mod_urb _ _ _)
      · exact trace_ext_refl _
  · exact trace_ext_refl _

theorem trace_ext_unmap (h : usb_hcd) (u : Nat) : trace_ext h (unmap_urb_for_dma h u) := by
  unfold unmap_urb_for_dma
  split
  · exact trace_ext_refl _
  · exact trace_ext_trans (trace_ext_unmap_setup _ _) (trace_ext_unmap_buffer _ _)

theorem trace_ext_anchor_del (h : usb_hcd) (a u : Nat) : trace_ext h (h.anchor_del a u) :=
  ⟨[], by simp [usb_hcd.anchor_del]⟩

theorem trace_ext_unanchor (h : usb_hcd) (u : Nat) : trace_ext h (usb_unanchor_urb h u) := by
  unfold usb_unanchor_urb
  split
  · exact trace_ext_refl _
  · dsimp only
    rename_i a _
    have h12 := trace_ext_trans (trace_ext_trans
      (trace_ext_mod_urb h u (fun x => { x with anchor := none }))
      (trace_ext_anchor_del _ a u)) (trace_ext_put _ u)
    split
    · exact trace_ext_trans h12 (trace_ext_emit _ _)
    · exact h12

/-- The status of `usb_hcd_giveback_urb` in the words of the specification: the recorded
unlink reason if there is one; else `-EREMOTEIO` for a short transfer that must not be
short and has no error yet; else the status argument. -/
theorem giveback_status_eq (x : urb) (status : Int) :
    giveback_status x status =
      if x.unlinked ≠ 0 then x.unlinked
      else if x.transfer_flags &&& URB_SHORT_NOT_OK ≠ 0
          ∧ x.actual_length < x.transfer_buffer_length ∧ status = 0 then - EREMOTEIO
      else status := by
  unfold giveback_status
  dsimp only
  by_cases hu : x.unlinked ≠ 0
  · rw [if_pos hu, if_pos hu, if_neg]
    rintro ⟨_, _, h0⟩
    exact hu h0
  · rw [if_neg hu, if_neg hu]

/-- C6. The status that `usb_hcd_giveback_urb (hcd, urb, status)` stores in `urb->status`
before it invokes the completion callback is `urb->unlinked` when that is non-zero, else
`-EREMOTEIO` when `URB_SHORT_NOT_OK` is set, `actual_length < transfer_buffer_length` and
`status` is 0, else `status`: the callback is invoked with that value in `urb->status`,
and the URB still carries it when the function returns. -/
theorem usb_hcd_giveback_urb_status (hcd : usb_hcd) (u : Nat) (status : Int) :
    (∃ pre post seen,
      (usb_hcd_giveback_urb hcd u status).trace =
        hcd.trace ++ pre ++ [core_event.complete u seen] ++ post ∧
      seen.status =
        (if (hcd.urbs u).unlinked ≠ 0 then (hcd.urbs u).unlinked
         else if (hcd.urbs u).transfer_flags &&& URB_SHORT_NOT_OK ≠ 0
            ∧ (hcd.urbs u).actual_length < (hcd.urbs u).transfer_buffer_length ∧ status = 0
          then - EREMOTEIO
         else status)) ∧
    ((usb_hcd_giveback_urb hcd u status).urbs u).status =
      (if (hcd.urbs u).unlinked ≠ 0 then (hcd.urbs u).unlinked
       else if (hcd.urbs u).transfer_flags &&& URB_SHORT_NOT_OK ≠ 0
          ∧ (hcd.urbs u).actual_length < (hcd.urbs u).transfer_buffer_length ∧ status = 0
        then - EREMOTEIO
       else status) := by
  have hst : giveback_status ((hcd.mod_urb u (fun x => { x with hcpriv := none })).urbs u) status
      = giveback_status (hcd.urbs u) status := by
    simp [giveback_status]
  rw [← giveback_status_eq]
  unfold usb_hcd_giveback_urb
  dsimp only
  rw [hst]
  generalize giveback_status (hcd.urbs u) status = st
  generalize hh3 : usb_unanchor_urb (unmap_urb_for_dma
    (hcd.mod_urb u (fun x => { x with hcpriv := none })) u) u = h3
  obtain ⟨pre, hpre⟩ : ∃ pre, h3.trace = hcd.trace ++ pre := by
    rw [← hh3]
    exact trace_ext_trans (trace_ext_trans (trace_ext_mod_urb _ _ _) (trace_ext_unmap _ _))
      (trace_ext_unanchor _ _)
  clear hh3
  generalize hh5 : (h3.mod_urb u (fun x => { x with status := st })).emit
    (core_event.complete u ((h3.mod_urb u (fun x => { x with status := st })).urbs u)) = h5
  have h5t : h5.trace = hcd.trace ++ pre ++
      [core_event.complete u ((h3.mod_urb u (fun x => { x with status := st })).urbs u)] := by
    rw [← hh5, emit_trace, ← hpre]; rfl
  have h5s : (h5.urbs u).status = st := by
    rw [← hh5]; simp [usb_hcd.emit]
  clear hh5
  generalize hh7 : (if ((h5.mod_urb u (fun x => { x with use_count := x.use_count - 1 })).urbs
      u).reject ≠ 0
    then (h5.mod_urb u (fun x => { x with use_count := x.use_count - 1 })).emit
      core_event.wake_up_kill_queue
    else h5.mod_urb u (fun x => { x with use_count := x.use_count - 1 })) = h7
  have h7t : trace_ext h5 h7 := by
    rw [← hh7]
    split
    · exact trace_ext_trans (trace_ext_mod_urb _ _ _) (trace_ext_emit _ _)
    · exact trace_ext_mod_urb _ _ _
  have h7s : (h7.urbs u).status = st := by
    rw [← hh7]
    split <;> simp [usb_hcd.emit, h5s]
  obtain ⟨post, hpost⟩ := trace_ext_trans h7t (trace_ext_put h7 u)
  refine ⟨⟨pre, post, (h3.mod_urb u (fun x => { x with status := st })).urbs u, ?_, ?_⟩, ?_⟩
  · rw [hpost, h5t]
  · simp
  · rw [usb_put_urb_status, h7s]

/-! ## td_submit_urb: the cells of a bulk or interrupt request -/

/-- The first `m` full cells written by the `while (data_len > 4096)` loop. -/
theorem td_submit_urb_chunks_eq (info u : Nat) :
    ∀ fuel (ohci : ohci_hcd) (data len cnt : Nat), len / 4096 < fuel →
      td_submit_urb_chunks info u fuel ohci data len cnt =
        (td_fill_seq u ohci ((List.range ((len - 1) / 4096)).map
          (fun j => (info, data + 4096 * j, 4096, cnt + j)))).map
          (fun o => (o, data + 4096 * ((len - 1) / 4096), len - 4096 * ((len - 1) / 4096),
            cnt + (len - 1) / 4096)) := by
  intro fuel
  induction fuel with
  | zero => intro _ _ _ _ h; omega
  | succ f ih =>
    intro ohci data len cnt hf
    rw [td_submit_urb_chunks]
    by_cases hgt : len > 4096
    · rw [if_pos hgt]
      have hm : (len - 1) / 4096 = (len - 4096 - 1) / 4096 + 1 := by omega
      rw [hm, List.range_succ_eq_map, List.map_cons, td_fill_seq]
      simp only [Nat.mul_zero, Nat.add_zero]
      cases hfill : td_fill ohci info data 4096 u cnt with
      | none => rfl
      | some o1 =>
        simp only []
        rw [ih o1 (data + 4096) (len - 4096) (cnt + 1) (by omega), List.map_map]
        have hl : (fun j => (info, data + 4096 + 4096 * j, 4096, cnt + 1 + j))
            = ((fun j => (info, data + 4096 * j, 4096, cnt + j)) ∘ Nat.succ) := by
          funext j
          simp only [Function.comp, Nat.succ_eq_add_one, Prod.mk.injEq, true_and]
          omega
        rw [hl]
        have e1 : data + 4096 + 4096 * ((len - 4096 - 1) / 4096)
            = data + 4096 * ((len - 4096 - 1) / 4096 + 1) := by omega
        have e2 : len - 4096 - 4096 * ((len - 4096 - 1) / 4096)
            = len - 4096 * ((len - 4096 - 1) / 4096 + 1) := by omega
        have e3 : cnt + 1 + (len - 4096 - 1) / 4096 = cnt + ((len - 4096 - 1) / 4096 + 1) := by
          omega
        rw [e1, e2, e3]
    · rw [if_neg hgt]
      have hm : (len - 1) / 4096 = 0 := by omega
      rw [hm]
      simp [td_fill_seq]

theorem td_fill_seq_append (u : Nat) :
    ∀ (a b : List (Nat × Nat × Nat × Nat)) (ohci : ohci_hcd),
      td_fill_seq u ohci (a ++ b) =
        match td_fill_seq u ohci a with
        | none => none
        | some o1 => td_fill_seq u o1 b := by
  intro a
  induction a with
  | nil => intro b ohci; rfl
  | cons c rest ih =>
    intro b ohci
    rw [List.cons_append, td_fill_seq, td_fill_seq]
    cases td_fill ohci c.1 c.2.1 c.2.2.1 u c.2.2.2 with
    | none => rfl
    | some o1 => exact ih b o1

theorem bulk_cell_count_eq (L : Nat) : bulk_cell_count L = (L - 1) / 4096 + 1 := by
  unfold bulk_cell_count
  omega

/-- The reference cell list is the list of full chunks followed by the last cell. -/
theorem bulk_fill_calls_eq (x : urb) :
    bulk_fill_calls x =
      (List.range ((x.transfer_buffer_length - 1) / 4096)).map
        (fun j => ((if x.pipe_out then TD_T_TOGGLE ||| TD_CC ||| TD_DP_OUT
            else TD_T_TOGGLE ||| TD_CC ||| TD_DP_IN),
          (if x.transfer_buffer_length ≠ 0 then x.transfer_dma else 0) + 4096 * j, 4096, 0 + j))
      ++ [((if x.transfer_flags &&& URB_SHORT_NOT_OK = 0 then
              (if x.pipe_out then TD_T_TOGGLE ||| TD_CC ||| TD_DP_OUT
                else TD_T_TOGGLE ||| TD_CC ||| TD_DP_IN) ||| TD_R
            else (if x.pipe_out then TD_T_TOGGLE ||| TD_CC ||| TD_DP_OUT
                else TD_T_TOGGLE ||| TD_CC ||| TD_DP_IN)),
          (if x.transfer_buffer_length ≠ 0 then x.transfer_dma else 0)
            + 4096 * ((x.transfer_buffer_length - 1) / 4096),
          x.transfer_buffer_length - 4096 * ((x.transfer_buffer_length - 1) / 4096),
          0 + (x.transfer_buffer_length - 1) / 4096)] := by
  unfold bulk_fill_calls
  rw [bulk_cell_count_eq, List.range_succ, List.map_append]
  congr 1
  · apply List.map_congr_left
    intro j hj
    have hjm : j < (x.transfer_buffer_length - 1) / 4096 := List.mem_range.mp hj
    have hL : x.transfer_buffer_length ≠ 0 := by omega
    have h1 : j + 1 < (x.transfer_buffer_length - 1) / 4096 + 1 := by omega
    simp only [bulk_cell_info, bulk_cell_start, bulk_cell_len, bulk_cell_count_eq, h1, hL,
      if_true, if_false, Nat.zero_add, ne_eq, not_false_eq_true]
  · have h1 : ¬ ((x.transfer_buffer_length - 1) / 4096 + 1
        < (x.transfer_buffer_length - 1) / 4096 + 1) := Nat.lt_irrefl _
    simp only [List.map_cons, List.map_nil, bulk_cell_info, bulk_cell_start, bulk_cell_len,
      bulk_cell_count_eq, h1, if_false, Nat.add_sub_cancel, Nat.zero_add]
    by_cases hL : x.transfer_buffer_length = 0
    · simp [hL]
    · simp [hL]

/-- The bulk arm of `td_submit_urb` without `URB_ZERO_PACKET` is the sequence of `td_fill`
calls of the reference cell list. -/
theorem td_submit_urb_bulk_eq (ohci : ohci_hcd) (u p : Nat)
    (hz : (ohci.hcd.urbs u).transfer_flags &&& URB_ZERO_PACKET = 0) :
    td_submit_urb_bulk ohci u p
        (if (ohci.hcd.urbs u).transfer_buffer_length ≠ 0 then (ohci.hcd.urbs u).transfer_dma else 0)
        (ohci.hcd.urbs u).transfer_buffer_length =
      (td_fill_seq u ohci (bulk_fill_calls (ohci.hcd.urbs u))).map (fun o =>
        if (o.sched.eds (o.privs p).ed).type = PIPE_BULK then o.writel OHCI_BLF .cmdstatus
        else o) := by
  rw [bulk_fill_calls_eq, td_fill_seq_append]
  unfold td_submit_urb_bulk
  dsimp only
  rw [td_submit_urb_chunks_eq _ _ _ _ _ _ _ (Nat.lt_succ_self _)]
  cases td_fill_seq u ohci ((List.range (((ohci.hcd.urbs u).transfer_buffer_length - 1) / 4096)).map
      (fun j => ((if (ohci.hcd.urbs u).pipe_out then TD_T_TOGGLE ||| TD_CC ||| TD_DP_OUT
          else TD_T_TOGGLE ||| TD_CC ||| TD_DP_IN),
        (if (ohci.hcd.urbs u).transfer_buffer_length ≠ 0 then (ohci.hcd.urbs u).transfer_dma else 0)
          + 4096 * j, 4096, 0 + j))) with
  | none => rfl
  | some o1 =>
    simp only [Option.map_some', td_fill_seq]
    cases td_fill o1 _ _ _ u _ with
    | none => rfl
    | some o2 =>
      have hz2 : ¬ ((ohci.hcd.urbs u).transfer_flags &&& URB_ZERO_PACKET ≠ 0
          ∧ 0 + ((ohci.hcd.urbs u).transfer_buffer_length - 1) / 4096 + 1 < (o2.privs p).length) :=
        fun h => h.1 hz
      simp only [hz2, if_false, Option.map_some']
      split <;> rfl

/-- The head of `td_submit_urb` leaves the URBs, the owner of every `urb_priv` block and
the type of every ED alone. -/
theorem td_submit_urb_start_frame (ohci : ohci_hcd) (u p : Nat) :
    (td_submit_urb_start ohci u p).hcd.urbs = ohci.hcd.urbs ∧
    (∀ q, ((td_submit_urb_start ohci u p).privs q).ed = (ohci.privs q).ed) ∧
    (∀ e, ((td_submit_urb_start ohci u p).sched.eds e).type = (ohci.sched.eds e).type) := by
  unfold td_submit_urb_start
  dsimp only
  split
  · refine ⟨rfl, fun q => ?_, fun e => ?_⟩
    · by_cases hq : q = p
      · subst hq; simp [ohci_hcd.mod_priv, ohci_hcd.mod_ed]
      · simp [ohci_hcd.mod_priv, ohci_hcd.mod_ed, upd_other _ _ _ _ hq]
    · by_cases he : e = (ohci.privs p).ed
      · subst he; simp [ohci_hcd.mod_priv, ohci_hcd.mod_ed, ohci_sched.mod_ed]
      · simp [ohci_hcd.mod_priv, ohci_hcd.mod_ed, ohci_sched.mod_ed, upd_other _ _ _ _ he]
  · refine ⟨rfl, fun q => ?_, fun e => rfl⟩
    by_cases hq : q = p
    · subst hq; simp [ohci_hcd.mod_priv]
    · simp [ohci_hcd.mod_priv, upd_other _ _ _ _ hq]

theorem bulk_fill_calls_length (x : urb) :
    (bulk_fill_calls x).length = bulk_cell_count x.transfer_buffer_length := by
  simp [bulk_fill_calls]

theorem bulk_cell_len_le (L k : Nat) : bulk_cell_len L k ≤ 4096 := by
  unfold bulk_cell_len
  rw [bulk_cell_count_eq]
  split
  · exact le_refl _
  · omega

theorem sum_map_range_succ (f : Nat → Nat) (n : Nat) :
    ((List.range (n + 1)).map f).sum = ((List.range n).map f).sum + f n := by
  rw [List.range_succ, List.map_append, List.sum_append]
  simp

theorem sum_const_range (n c : Nat) (f : Nat → Nat) (hf : ∀ k, k < n → f k = c) :
    ((List.range n).map f).sum = n * c := by
  induction n with
  | zero => simp
  | succ m ih =>
    rw [sum_map_range_succ, ih (fun k hk => hf k (Nat.lt_succ_of_lt hk)), hf m (Nat.lt_succ_self m)]
    ring

theorem bulk_cell_len_sum (L : Nat) :
    ((List.range (bulk_cell_count L)).map (bulk_cell_len L)).sum = L := by
  have hc := bulk_cell_count_eq L
  rw [hc, sum_map_range_succ,
    sum_const_range ((L - 1) / 4096) 4096 (bulk_cell_len L) (fun k hk => by
      unfold bulk_cell_len
      rw [hc, if_pos (by omega)])]
  unfold bulk_cell_len
  rw [hc, if_neg (Nat.lt_irrefl _)]
  omega

/-- C9 as stated fails for an empty request: on `bulk_empty` the bulk URB 0 has
`transfer_buffer_length` 0 and `URB_ZERO_PACKET` unset, `td_submit_urb` fills the one cell
TD 0, and that cell starts at address 0, not at `transfer_dma + 4096 * 0`. -/
theorem td_submit_urb_empty_cell :
    (bulk_empty.hcd.urbs 0).transfer_buffer_length = 0 ∧
    (bulk_empty.hcd.urbs 0).transfer_flags &&& URB_ZERO_PACKET = 0 ∧
    (bulk_empty.sched.eds 0).type = PIPE_BULK ∧
    (td_submit_urb bulk_empty 0).map
      (fun o => ((o.sched.eds 0).td_list, (o.tds 0).data_dma, (o.tds 0).hwCBP)) =
      some ([0], 0, 0) ∧
    (bulk_empty.hcd.urbs 0).transfer_dma + 4096 * 0 = 0x10000 := by
  decide

/-- C9, amended. For a bulk or interrupt URB of `L >= 0` bytes with `URB_ZERO_PACKET`
unset, `td_submit_urb` is its head, then exactly the `td_fill` calls of the reference
cell list, then its tail.  The list has `max(1, ceil(L / 4096))` cells with indices
`0, 1, ...`; cell `k` starts at `transfer_dma + 4096 * k` when `L > 0`, and the single
cell of an empty request has buffer address 0; every cell but the last carries 4096
bytes, the last one `L - 4096 * (n - 1)`; no cell exceeds 4096 bytes and the lengths sum
to `L`. -/
theorem td_submit_urb_bulk_cells (ohci : ohci_hcd) (u p : Nat)
    (hp : (ohci.hcd.urbs u).hcpriv = some p)
    (ht : (ohci.sched.eds (ohci.privs p).ed).type = PIPE_BULK
      ∨ (ohci.sched.eds (ohci.privs p).ed).type = PIPE_INTERRUPT)
    (hz : (ohci.hcd.urbs u).transfer_flags &&& URB_ZERO_PACKET = 0) :
    td_submit_urb ohci u =
      (td_fill_seq u (bulk_submit_pre ohci u p) (bulk_fill_calls (ohci.hcd.urbs u))).map
        (bulk_submit_post ohci u p) ∧
    (bulk_fill_calls (ohci.hcd.urbs u)).length
      = max 1 (((ohci.hcd.urbs u).transfer_buffer_length + 4095) / 4096) ∧
    (∀ k, k < max 1 (((ohci.hcd.urbs u).transfer_buffer_length + 4095) / 4096) →
      ∃ info, (bulk_fill_calls (ohci.hcd.urbs u))[k]? = some (info,
        (if (ohci.hcd.urbs u).transfer_buffer_length = 0 then 0
          else (ohci.hcd.urbs u).transfer_dma + 4096 * k),
        (if k + 1 < max 1 (((ohci.hcd.urbs u).transfer_buffer_length + 4095) / 4096) then 4096
          else (ohci.hcd.urbs u).transfer_buffer_length
            - 4096 * (max 1 (((ohci.hcd.urbs u).transfer_buffer_length + 4095) / 4096) - 1)),
        k)) ∧
    (∀ c, c ∈ bulk_fill_calls (ohci.hcd.urbs u) → c.2.2.1 ≤ 4096) ∧
    ((bulk_fill_calls (ohci.hcd.urbs u)).map (fun c => c.2.2.1)).sum
      = (ohci.hcd.urbs u).transfer_buffer_length := by
  refine ⟨?_, ?_, ?_, ?_, ?_⟩
  · obtain ⟨hurbs, hpriv, htype⟩ := td_submit_urb_start_frame ohci u p
    have ht1 : ((td_submit_urb_start ohci u p).sched.eds
        ((td_submit_urb_start ohci u p).privs p).ed).type
        = (ohci.sched.eds (ohci.privs p).ed).type := by rw [hpriv, htype]
    unfold td_submit_urb
    rw [hp]
    dsimp only
    rw [hurbs]
    unfold bulk_submit_pre bulk_submit_post
    dsimp only
    rcases ht with hb | hi
    · have hni : ¬ ((td_submit_urb_start ohci u p).sched.eds
          ((td_submit_urb_start ohci u p).privs p).ed).type = PIPE_INTERRUPT := by
        rw [ht1, hb]; decide
      rw [if_neg hni, if_pos (ht1.trans hb), if_neg hni]
      have := td_submit_urb_bulk_eq (td_submit_urb_start ohci u p) u p (by rw [hurbs]; exact hz)
      rw [hurbs] at this
      rw [this]
      congr 1
      funext o
      rw [if_neg hni]
    · have hii : ((td_submit_urb_start ohci u p).sched.eds
          ((td_submit_urb_start ohci u p).privs p).ed).type = PIPE_INTERRUPT := ht1.trans hi
      rw [if_pos hii, if_pos hii]
      have hu2 : ((td_submit_urb_start ohci u p).add_int_reqs 1).hcd.urbs = ohci.hcd.urbs := hurbs
      have := td_submit_urb_bulk_eq ((td_submit_urb_start ohci u p).add_int_reqs 1)
        u p (by rw [hu2]; exact hz)
      rw [hu2] at this
      rw [this]
      cases td_fill_seq u _ (bulk_fill_calls (ohci.hcd.urbs u)) with
      | none => rfl
      | some o =>
        simp only [Option.map_some', if_pos hii]
  · rw [bulk_fill_calls_length]; rfl
  · intro k hk
    refine ⟨bulk_cell_info (ohci.hcd.urbs u) k, ?_⟩
    unfold bulk_fill_calls
    rw [List.getElem?_map, List.getElem?_range (by exact hk)]
    rfl
  · intro c hc
    unfold bulk_fill_calls at hc
    obtain ⟨k, _, rfl⟩ := List.mem_map.mp hc
    exact bulk_cell_len_le _ _
  · unfold bulk_fill_calls
    rw [List.map_map]
    exact bulk_cell_len_sum _

/-- Witness for C9: the 100-byte request of `bulk3` (URB 2) gets one cell of 100 bytes at
its `transfer_dma`. -/
theorem td_submit_urb_bulk_cells_witness :
    (bulk3.hcd.urbs 2).hcpriv = some 2 ∧
    bulk_fill_calls (bulk3.hcd.urbs 2) = [(TD_CC ||| TD_DP_OUT ||| TD_R, 0x30000, 100, 0)] ∧
    td_submit_urb bulk3 2 =
      (td_fill_seq 2 (bulk_submit_pre bulk3 2 2) (bulk_fill_calls (bulk3.hcd.urbs 2))).map
        (bulk_submit_post bulk3 2 2) :=
  ⟨rfl, by decide,
    (td_submit_urb_bulk_cells bulk3 2 2 rfl (Or.inl rfl) (by decide)).1⟩

/-! ## td_done: length accounting -/

theorem wrap32_add (z y : Int) : wrap32 ((wrap32 z : Int) + y) = wrap32 (z + y) := by
  unfold wrap32
  omega

theorem wrap32_small (n : Nat) (h : n < 4294967296) : wrap32 (n : Int) = n := by
  unfold wrap32
  omega

/-- The interrupt-delay bits that `td_fill` may add do not touch the `TD_ISO` bit. -/
theorem td_fill_info_iso (info : Nat) :
    hc32 (info ||| TD_DI_SET 6) &&& TD_ISO = info &&& TD_ISO ∧
    hc32 info &&& TD_ISO = info &&& TD_ISO := by
  have h32 : (4294967296 : Nat) = 2 ^ 32 := by norm_num
  have h16 : TD_ISO = 2 ^ 16 := by decide
  unfold hc32 TD_DI_SET
  rw [h32, h16]
  constructor
  · apply Nat.eq_of_testBit_eq
    intro i
    simp only [Nat.testBit_and, Nat.testBit_or, Nat.testBit_mod_two_pow, Nat.testBit_two_pow]
    by_cases hi : 16 = i
    · subst hi
      have : ((6 &&& 7) <<< 21 : Nat).testBit 16 = false := by decide
      simp [this]
    · simp [hi]
  · apply Nat.eq_of_testBit_eq
    intro i
    simp only [Nat.testBit_and, Nat.testBit_mod_two_pow, Nat.testBit_two_pow]
    by_cases hi : 16 = i
    · subst hi; simp
    · simp [hi]

/-- The fields of the cell that `td_fill_cell` has filled. -/
theorem td_fill_cell_fields (ohci : ohci_hcd) (info data len u index p t t_pt : Nat) :
    ((td_fill_cell ohci info data len u index p t t_pt).tds t).data_dma = data ∧
    ((td_fill_cell ohci info data len u index p t t_pt).tds t).index = index ∧
    ((td_fill_cell ohci info data len u index p t t_pt).tds t).urb = u ∧
    ((td_fill_cell ohci info data len u index p t t_pt).tds t).hwBE =
      (if (if len = 0 then 0 else data) ≠ 0
        then hc32 ((if len = 0 then 0 else data) + len - 1) else 0) ∧
    ((td_fill_cell ohci info data len u index p t t_pt).tds t).hwINFO &&& TD_ISO
      = info &&& TD_ISO ∧
    (td_fill_cell ohci info data len u index p t t_pt).hcd = ohci.hcd := by
  unfold td_fill_cell
  dsimp only
  refine ⟨?_, ?_, ?_, ?_, ?_, ?_⟩
  · split <;> simp [ohci_hcd.mod_td, ohci_hcd.mod_ed, ohci_hcd.mod_priv]
  · split <;> simp [ohci_hcd.mod_td, ohci_hcd.mod_ed, ohci_hcd.mod_priv]
  · split <;> simp [ohci_hcd.mod_td, ohci_hcd.mod_ed, ohci_hcd.mod_priv]
  · split <;> simp [ohci_hcd.mod_td, ohci_hcd.mod_ed, ohci_hcd.mod_priv]
  · have hi := td_fill_info_iso info
    split <;> split <;> simp [ohci_hcd.mod_td, ohci_hcd.mod_ed, ohci_hcd.mod_priv, hi.1, hi.2]
  · split <;> simp [ohci_hcd.mod_td, ohci_hcd.mod_ed, ohci_hcd.mod_priv]

/-- `td_fill` builds a data cell: a non-isochronous cell, not the SETUP cell of a control
request, with a non-zero buffer address `d` and a length `len >= 1` whose last byte lies
below `2^32`. -/
theorem td_fill_builds_data_cell (s0 s1 : ohci_hcd) (info d len u idx p t : Nat)
    (hp : (s0.hcd.urbs u).hcpriv = some p)
    (ht : (s0.sched.eds (s0.privs p).ed).dummy = some t)
    (hfill : td_fill s0 info d len u idx = some s1)
    (hiso : info &&& TD_ISO = 0)
    (hdata : (s0.hcd.urbs u).pipe_type ≠ PIPE_CONTROL ∨ idx ≠ 0)
    (hd : d ≠ 0) (hlen : 1 ≤ len) (hb : d + len - 1 < 4294967296) :
    data_cell s1 u t d len := by
  unfold td_fill at hfill
  rw [hp] at hfill
  dsimp only at hfill
  rw [ht] at hfill
  cases hpt : (s0.privs p).td idx with
  | none => rw [hpt] at hfill; exact absurd hfill (by simp)
  | some t_pt =>
    rw [hpt] at hfill
    have heq : td_fill_cell s0 info d len u idx p t t_pt = s1 := Option.some.inj hfill
    obtain ⟨h1, h2, _, h4, h5, h6⟩ := td_fill_cell_fields s0 info d len u idx p t t_pt
    rw [heq] at h1 h2 h4 h5 h6
    have hl0 : ¬ len = 0 := by omega
    refine ⟨by rw [h5]; exact hiso, ?_, h1, ?_, hd, hlen, hb⟩
    · rw [h6, h2]; exact hdata
    · rw [h4, if_neg hl0, if_pos hd]
      unfold hc32
      omega

theorem td_list_del_frame (s : ohci_hcd) (t : Nat) :
    (td_list_del s t).tds = s.tds ∧ (td_list_del s t).hcd = s.hcd := ⟨rfl, rfl⟩

theorem mod_urb_frame (s : ohci_hcd) (u : Nat) (f : urb → urb)
    (hf : ∀ y, (f y).pipe_type = y.pipe_type) :
    (s.mod_urb u f).tds = s.tds ∧
    ∀ v, ((s.mod_urb u f).hcd.urbs v).pipe_type = (s.hcd.urbs v).pipe_type := by
  refine ⟨rfl, fun v => ?_⟩
  by_cases hv : v = u
  · subst hv; simp [ohci_hcd.mod_urb, hf]
  · simp [ohci_hcd.mod_urb, mod_urb_urbs_other _ _ _ _ hv]

/-- `td_done` rewrites no TD and no pipe type. -/
theorem td_done_frame (s : ohci_hcd) (u t : Nat) :
    (td_done s u t).2.tds = s.tds ∧
    ∀ v, ((td_done s u t).2.hcd.urbs v).pipe_type = (s.hcd.urbs v).pipe_type := by
  unfold td_done
  dsimp only
  split
  · unfold td_done_iso
    dsimp only
    split
    · exact ⟨rfl, fun _ => rfl⟩
    · exact mod_urb_frame _ _ _ (fun _ => rfl)
  · unfold td_done_data
    dsimp only
    split
    · split
      · exact mod_urb_frame _ _ _ (fun _ => rfl)
      · exact mod_urb_frame _ _ _ (fun _ => rfl)
    · exact ⟨rfl, fun _ => rfl⟩

/-- What `td_done` adds to `urb->actual_length` for a data cell. -/
theorem td_done_data_cell (s : ohci_hcd) (u t d len : Nat) (hc : data_cell s u t d len) :
    ((td_done s u t).2.hcd.urbs u).actual_length =
      if (s.tds t).hwCBP = 0 then wrap32 (((s.hcd.urbs u).actual_length : Int) + (len : Int))
      else wrap32 (((s.hcd.urbs u).actual_length : Int)
        + (((s.tds t).hwCBP : Int) - (d : Int))) := by
  obtain ⟨hiso, hdata, hdma, hbe, hd, hlen, hb⟩ := hc
  have hbe0 : (s.tds t).hwBE ≠ 0 := by rw [hbe]; omega
  unfold td_done
  dsimp only
  rw [if_neg (by rw [(td_list_del_frame s t).1]; exact fun h => h hiso)]
  unfold td_done_data
  dsimp only
  rw [(td_list_del_frame s t).1, (td_list_del_frame s t).2,
    if_pos ⟨hdata, hbe0⟩]
  by_cases hcbp : (s.tds t).hwCBP = 0
  · rw [if_pos hcbp, if_pos hcbp]
    simp only [ohci_hcd.mod_urb, mod_urb_urbs_same, (td_list_del_frame s t).2]
    rw [hbe, hdma]
    congr 1
    omega
  · rw [if_neg hcbp, if_neg hcbp]
    simp only [ohci_hcd.mod_urb, mod_urb_urbs_same, (td_list_del_frame s t).2]
    rw [hdma]

theorem data_cell_td_done (s : ohci_hcd) (u t t2 d len : Nat)
    (hc : data_cell s u t2 d len) : data_cell (td_done s u t).2 u t2 d len := by
  obtain ⟨htds, hpt⟩ := td_done_frame s u t
  unfold data_cell at hc ⊢
  rw [htds, hpt]
  exact hc

/-- Cells that were retired completely add up their lengths. -/
theorem td_done_seq_complete (u : Nat) :
    ∀ (cells : List (Nat × Nat × Nat)) (s : ohci_hcd),
      (s.hcd.urbs u).actual_length < 4294967296 →
      (∀ c, c ∈ cells → data_cell s u c.1 c.2.1 c.2.2 ∧ (s.tds c.1).hwCBP = 0) →
      ((td_done_seq u s (cells.map (fun c => c.1))).hcd.urbs u).actual_length =
        wrap32 (((s.hcd.urbs u).actual_length : Int)
          + (((cells.map (fun c => c.2.2)).sum : Nat) : Int)) := by
  intro cells
  induction cells with
  | nil =>
    intro s hu _
    simp only [List.map_nil, td_done_seq, List.sum_nil, Nat.cast_zero, Int.add_zero]
    exact (wrap32_small _ hu).symm
  | cons c rest ih =>
    intro s _ h
    have hc := h c (List.mem_cons_self _ _)
    rw [List.map_cons, td_done_seq, ih]
    · rw [td_done_data_cell s u c.1 c.2.1 c.2.2 hc.1, if_pos hc.2, wrap32_add,
        List.map_cons, List.sum_cons]
      congr 1
      push_cast
      ring
    · rw [td_done_data_cell s u c.1 c.2.1 c.2.2 hc.1, if_pos hc.2]
      unfold wrap32
      omega
    · intro c2 hc2
      have := h c2 (List.mem_cons_of_mem _ hc2)
      exact ⟨data_cell_td_done s u c.1 c2.1 c2.2.1 c2.2.2 this.1,
        by rw [(td_done_frame s u c.1).1]; exact this.2⟩

/-- C10. Length accounting on full success.  For a non-isochronous data cell built by
`td_fill` with a non-zero buffer address `d` and a length `len >= 1`
(`d + len - 1 < 2^32`), `td_done` adds exactly `len` to `urb->actual_length` when the
controller retired the cell completely (`hwCBP == 0`), and `hwCBP - d` when it stopped
early (32-bit arithmetic).  Hence an URB all of whose cells completed fully gets the
sum of the cell lengths, and ends with `actual_length == transfer_buffer_length` when it
started from 0 and the cells cover the buffer. -/
theorem td_done_length_accounting (s : ohci_hcd) (u : Nat)
    (hu32 : (s.hcd.urbs u).actual_length < 4294967296) :
    (∀ t d len, data_cell s u t d len →
      ((s.tds t).hwCBP = 0 →
        ((td_done s u t).2.hcd.urbs u).actual_length =
          wrap32 (((s.hcd.urbs u).actual_length : Int) + (len : Int))) ∧
      ((s.tds t).hwCBP ≠ 0 →
        ((td_done s u t).2.hcd.urbs u).actual_length =
          wrap32 (((s.hcd.urbs u).actual_length : Int) + (((s.tds t).hwCBP : Int) - (d : Int))))) ∧
    (∀ cells : List (Nat × Nat × Nat),
      (∀ c, c ∈ cells → data_cell s u c.1 c.2.1 c.2.2 ∧ (s.tds c.1).hwCBP = 0) →
      ((td_done_seq u s (cells.map (fun c => c.1))).hcd.urbs u).actual_length =
        wrap32 (((s.hcd.urbs u).actual_length : Int)
          + (((cells.map (fun c => c.2.2)).sum : Nat) : Int)) ∧
      ((s.hcd.urbs u).actual_length = 0 →
        (cells.map (fun c => c.2.2)).sum = (s.hcd.urbs u).transfer_buffer_length →
        (s.hcd.urbs u).transfer_buffer_length < 4294967296 →
        ((td_done_seq u s (cells.map (fun c => c.1))).hcd.urbs u).actual_length =
          (s.hcd.urbs u).transfer_buffer_length)) := by
  constructor
  · intro t d len hc
    have h := td_done_data_cell s u t d len hc
    constructor
    · intro h0; rw [h, if_pos h0]
    · intro h0; rw [h, if_neg h0]
  · intro cells hcells
    have h := td_done_seq_complete u cells s hu32 hcells
    refine ⟨h, ?_⟩
    intro ha hsum hL
    rw [h, ha, hsum]
    unfold wrap32
    omega

/-- Witness for C10: in the scenario of three bulk requests of 4096, 4096 and 100 bytes,
submitted and retired completely, `td_done` on the cell of the first request adds 4096,
and processing the done list leaves the three requests with 4096 + 4096 + 100 = 8292
bytes. -/
theorem td_done_length_accounting_witness :
    (bulk3_done_input.hcd.urbs 0).actual_length < 4294967296 ∧
    data_cell bulk3_done_input 0 0 0x10000 4096 ∧
    ((td_done bulk3_done_input 0 0).2.hcd.urbs 0).actual_length = 4096 ∧
    (dl_done_list 4 bulk3_done_input).map (fun o =>
      (List.range 3).map (fun k => (o.hcd.urbs k).actual_length)) = some [4096, 4096, 100] ∧
    4096 + 4096 + 100 = 8292 := by
  have hu : (bulk3_done_input.hcd.urbs 0).actual_length < 4294967296 := by decide
  have hc : data_cell bulk3_done_input 0 0 0x10000 4096 := by decide
  have h0 : (bulk3_done_input.tds 0).hwCBP = 0 := by decide
  have ha : (bulk3_done_input.hcd.urbs 0).actual_length = 0 := by decide
  refine ⟨hu, hc, ?_, by decide, rfl⟩
  rw [((td_done_length_accounting bulk3_done_input 0 hu).1 0 0x10000 4096 hc).1 h0, ha]
  decide

/-! ## The done list: reversal and retirement order -/

theorem dl_frame_refl (o : ohci_hcd) : dl_frame o o := ⟨rfl, rfl, fun _ => ⟨rfl, rfl, rfl, rfl⟩⟩

theorem dl_frame_trans {a b c : ohci_hcd} (h1 : dl_frame a b) (h2 : dl_frame b c) :
    dl_frame a c :=
  ⟨h2.1.trans h1.1, h2.2.1.trans h1.2.1, fun x =>
    ⟨(h2.2.2 x).1.trans (h1.2.2 x).1, (h2.2.2 x).2.1.trans (h1.2.2 x).2.1,
      (h2.2.2 x).2.2.1.trans (h1.2.2 x).2.2.1, (h2.2.2 x).2.2.2.trans (h1.2.2 x).2.2.2⟩⟩

theorem dma_to_td_walk_congr (tds tds2 : Nat → td) (td_dma : Nat)
    (h : ∀ x, (tds2 x).td_dma = (tds x).td_dma ∧ (tds2 x).td_hash = (tds x).td_hash) :
    ∀ fuel cur, dma_to_td_walk tds2 td_dma fuel cur = dma_to_td_walk tds td_dma fuel cur := by
  intro fuel
  induction fuel with
  | zero => intro cur; rfl
  | succ f ih =>
    intro cur
    cases cur with
    | none => rfl
    | some t =>
      simp only [dma_to_td_walk]
      rw [(h t).1, (h t).2, ih]

theorem dma_to_td_congr (fuel : Nat) (o o2 : ohci_hcd) (h : dl_frame o o2) (d : Nat) :
    dma_to_td fuel o2 d = dma_to_td fuel o d := by
  unfold dma_to_td
  dsimp only
  rw [h.1]
  exact dma_to_td_walk_congr _ _ _ (fun x => ⟨(h.2.2 x).1, (h.2.2 x).2.1⟩) _ _

theorem hw_done_list_congr (fuel : Nat) (o o2 : ohci_hcd) (h : dl_frame o o2) :
    ∀ (L : List Nat) (d : Nat), hw_done_list fuel o d L → hw_done_list fuel o2 d L := by
  intro L
  induction L with
  | nil => intro d hd; exact hd
  | cons t rest ih =>
    intro d hd
    obtain ⟨h0, hres, hrest⟩ := hd
    refine ⟨h0, ?_, ?_⟩
    · rw [dma_to_td_congr fuel o o2 h]; exact hres
    · rw [(h.2.2 t).2.2.1]; exact ih _ hrest

theorem cells_in_flight_congr (o o2 : ohci_hcd) (h : dl_frame o o2) (L : List Nat)
    (hc : cells_in_flight o L) : cells_in_flight o2 L := by
  intro t ht
  rw [h.2.1, (h.2.2 t).2.2.2]
  exact hc t ht

/-- The hardware done list that starts at a given word is unique. -/
theorem hw_done_list_unique (fuel : Nat) (s : ohci_hcd) :
    ∀ (L1 L2 : List Nat) (d : Nat), hw_done_list fuel s d L1 → hw_done_list fuel s d L2 →
      L1 = L2 := by
  intro L1
  induction L1 with
  | nil =>
    intro L2 d h1 h2
    cases L2 with
    | nil => rfl
    | cons t rest => exact absurd h1 h2.1
  | cons t rest ih =>
    intro L2 d h1 h2
    cases L2 with
    | nil => exact absurd h2 h1.1
    | cons t2 rest2 =>
      have ht : t = t2 := by
        have := h1.2.1.symm.trans h2.2.1
        exact Option.some.inj (Option.some.inj this)
      subst ht
      rw [ih rest2 _ h1.2.2 h2.2.2]

/-- A suffix of a hardware done list is the done list of the preceding link word. -/
theorem hw_done_list_suffix (fuel : Nat) (s : ohci_hcd) :
    ∀ (a : List Nat) (t : Nat) (b : List Nat) (d : Nat),
      hw_done_list fuel s d (a ++ t :: b) → hw_done_list fuel s (s.tds t).hwNextTD b := by
  intro a
  induction a with
  | nil => intro t b d h; exact h.2.2
  | cons x rest ih => intro t b d h; exact ih t b _ h.2.2

/-- A finite hardware done list visits no TD twice. -/
theorem hw_done_list_nodup (fuel : Nat) (s : ohci_hcd) :
    ∀ (L : List Nat) (d : Nat), hw_done_list fuel s d L → L.Nodup := by
  intro L
  induction L with
  | nil => intro _ _; exact List.nodup_nil
  | cons t rest ih =>
    intro d h
    refine List.nodup_cons.mpr ⟨?_, ih _ h.2.2⟩
    intro hmem
    obtain ⟨a, b, hab⟩ := List.append_of_mem hmem
    have h1 : hw_done_list fuel s (s.tds t).hwNextTD rest := h.2.2
    have h2 : hw_done_list fuel s (s.tds t).hwNextTD b := by
      rw [hab] at h1
      exact hw_done_list_suffix fuel s a t b _ h1
    have := hw_done_list_unique fuel s rest b _ h1 h2
    have hlen : rest.length = b.length := by rw [this]
    rw [hab] at hlen
    simp at hlen
    omega

theorem ed_halted_loop_spec (u e toggle : Nat) :
    ∀ (l : List Nat) (o : ohci_hcd), (o.hcd.urbs u).hcpriv ≠ none →
      ∃ o2, ed_halted_loop u e toggle l o = some o2 ∧
        o2.tds = o.tds ∧ o2.td_hash = o.td_hash ∧ o2.hcd = o.hcd ∧ o2.done_head = o.done_head := by
  intro l
  induction l with
  | nil => intro o _; exact ⟨o, rfl, rfl, rfl, rfl, rfl⟩
  | cons next rest ih =>
    intro o hp
    rw [ed_halted_loop]
    by_cases hn : (o.tds next).urb ≠ u
    · rw [if_pos hn]; exact ⟨o, rfl, rfl, rfl, rfl, rfl⟩
    · rw [if_neg hn]
      cases hpv : (o.hcd.urbs u).hcpriv with
      | none => exact absurd hpv hp
      | some p =>
        dsimp only
        obtain ⟨o2, h2, ht, hh, hc, hd⟩ := ih
          (((td_list_del o next).mod_priv p (fun x => { x with td_cnt := x.td_cnt + 1 })).mod_ed e
            (fun x => { x with hwHeadP :=
              (((td_list_del o next).mod_priv p
                (fun x => { x with td_cnt := x.td_cnt + 1 })).tds next).hwNextTD ||| toggle }))
          hp
        exact ⟨o2, h2, ht, hh, hc, hd⟩

theorem ed_halted_spec (o : ohci_hcd) (t : Nat)
    (hp : (o.hcd.urbs (o.tds t).urb).hcpriv ≠ none) :
    ∃ o2, ed_halted o t = some o2 ∧
      o2.tds = o.tds ∧ o2.td_hash = o.td_hash ∧ o2.hcd = o.hcd ∧ o2.done_head = o.done_head := by
  unfold ed_halted
  dsimp only
  exact ed_halted_loop_spec _ _ _ _ _ hp

/-- One step of the reversal: the TD gets `TD_DONE` and is pushed on the reversed list;
nothing the walk relies on is touched. -/
theorem dl_reverse_step_spec (o : ohci_hcd) (t : Nat) (td_rev : Option Nat)
    (hp : (o.hcd.urbs (o.tds t).urb).hcpriv ≠ none) :
    ∃ o2, dl_reverse_step o t td_rev = some (o2, (o.tds t).hwNextTD) ∧ dl_frame o o2 ∧
      (o2.tds t).next_dl_td = td_rev ∧
      (∀ x, x ≠ t → (o2.tds x).next_dl_td = (o.tds x).next_dl_td) ∧
      o2.done_head = o.done_head := by
  have hfr1 : dl_frame o (o.mod_td t (fun x => { x with hwINFO := x.hwINFO ||| TD_DONE })) := by
    refine ⟨rfl, rfl, fun x => ?_⟩
    by_cases hx : x = t
    · subst hx; simp [ohci_hcd.mod_td]
    · simp [ohci_hcd.mod_td, upd_other _ _ _ _ hx]
  have hnx1 : ∀ x, ((o.mod_td t (fun x => { x with hwINFO := x.hwINFO ||| TD_DONE })).tds x).next_dl_td
      = (o.tds x).next_dl_td := by
    intro x
    by_cases hx : x = t
    · subst hx; simp [ohci_hcd.mod_td]
    · simp [ohci_hcd.mod_td, upd_other _ _ _ _ hx]
  have hurb1 : ((o.mod_td t (fun x => { x with hwINFO := x.hwINFO ||| TD_DONE })).tds t).urb
      = (o.tds t).urb := (hfr1.2.2 t).2.2.2
  generalize ho1 : o.mod_td t (fun x => { x with hwINFO := x.hwINFO ||| TD_DONE }) = o1
    at hfr1 hnx1 hurb1
  have key : ∀ o2 : ohci_hcd, o2.tds = o1.tds → o2.td_hash = o1.td_hash → o2.hcd = o1.hcd →
      o2.done_head = o1.done_head →
      dl_frame o (o2.mod_td t (fun x => { x with next_dl_td := td_rev })) ∧
      ((o2.mod_td t (fun x => { x with next_dl_td := td_rev })).tds t).next_dl_td = td_rev ∧
      (∀ x, x ≠ t → ((o2.mod_td t (fun x => { x with next_dl_td := td_rev })).tds x).next_dl_td
        = (o.tds x).next_dl_td) ∧
      (o2.mod_td t (fun x => { x with next_dl_td := td_rev })).done_head = o.done_head ∧
      ((o2.mod_td t (fun x => { x with next_dl_td := td_rev })).tds t).hwNextTD
        = (o.tds t).hwNextTD := by
    intro o2 ht hh hc hd
    have hfr2 : dl_frame o1 (o2.mod_td t (fun x => { x with next_dl_td := td_rev })) := by
      refine ⟨hh, hc, fun x => ?_⟩
      by_cases hx : x = t
      · subst hx; simp [ohci_hcd.mod_td, ht]
      · simp [ohci_hcd.mod_td, upd_other _ _ _ _ hx, ht]
    have hfr := dl_frame_trans hfr1 hfr2
    refine ⟨hfr, by simp [ohci_hcd.mod_td], ?_, ?_, (hfr.2.2 t).2.2.1⟩
    · intro x hx
      simp only [ohci_hcd.mod_td, upd_other _ _ _ _ hx, ht]
      exact hnx1 x
    · show o2.done_head = o.done_head
      rw [hd, ← ho1]; rfl
  unfold dl_reverse_step
  dsimp only
  rw [ho1]
  by_cases hcond : TD_CC_GET (o1.tds t).hwINFO ≠ TD_CC_NOERROR
      ∧ (o1.sched.eds (o1.tds t).ed).hwHeadP &&& ED_H ≠ 0
  · obtain ⟨o2, h2, ht, hh, hc, hd⟩ := ed_halted_spec o1 t (by rw [hfr1.2.1, hurb1]; exact hp)
    rw [if_pos hcond, h2]
    dsimp only
    obtain ⟨k1, k2, k3, k4, k5⟩ := key o2 ht hh hc hd
    exact ⟨_, by rw [k5], k1, k2, k3, k4⟩
  · rw [if_neg hcond]
    dsimp only
    obtain ⟨k1, k2, k3, k4, k5⟩ := key o1 rfl rfl rfl rfl
    exact ⟨_, by rw [k5], k1, k2, k3, k4⟩

theorem dl_chain_congr (o o2 : ohci_hcd) :
    ∀ (D : List Nat) (head : Option Nat),
      (∀ x, x ∈ D → (o2.tds x).next_dl_td = (o.tds x).next_dl_td) →
      dl_chain o head D → dl_chain o2 head D := by
  intro D
  induction D with
  | nil => intro head _ h; exact h
  | cons t rest ih =>
    intro head hsame h
    refine ⟨h.1, ?_⟩
    rw [hsame t (List.mem_cons_self _ _)]
    exact ih _ (fun x hx => hsame x (List.mem_cons_of_mem _ hx)) h.2

theorem dl_chain_head (o : ohci_hcd) (D : List Nat) (head : Option Nat)
    (h : dl_chain o head D) : head = D.head? := by
  cases D with
  | nil => exact h
  | cons t rest => exact h.1

/-- The reversal loop: with `R` still on the hardware list and `D` already chained through
`next_dl_td`, the loop ends with `R` reversed in front of `D`. -/
theorem dl_reverse_loop_spec (fuel : Nat) :
    ∀ (n : Nat) (R : List Nat) (o : ohci_hcd) (d : Nat) (td_rev : Option Nat) (D : List Nat),
      R.length < n → hw_done_list fuel o d R → cells_in_flight o R → R.Nodup →
      (∀ t, t ∈ R → t ∉ D) → dl_chain o td_rev D →
      ∃ o2, dl_reverse_loop fuel n o d td_rev = some (o2, (R.reverse ++ D).head?) ∧
        dl_chain o2 (R.reverse ++ D).head? (R.reverse ++ D) ∧
        o2.done_head = o.done_head ∧ dl_frame o o2 := by
  intro n
  induction n with
  | zero => intro R _ _ _ _ h; omega
  | succ n ih =>
    intro R o d td_rev D hlen hR hfl hnd hdisj hD
    cases R with
    | nil =>
      have hd0 : d = 0 := hR
      rw [dl_reverse_loop, if_neg (by rw [hd0]; simp)]
      have hh := dl_chain_head o D td_rev hD
      simp only [List.reverse_nil, List.nil_append]
      rw [← hh]
      exact ⟨o, rfl, hD, rfl, dl_frame_refl o⟩
    | cons t R2 =>
      obtain ⟨hd0, hres, hrest⟩ := hR
      rw [dl_reverse_loop, if_pos hd0, hres]
      dsimp only
      obtain ⟨o1, hstep, hfr, hnext, hother, hdh⟩ :=
        dl_reverse_step_spec o t td_rev (hfl t (List.mem_cons_self _ _))
      rw [hstep]
      dsimp only
      have hnd2 := List.nodup_cons.mp hnd
      obtain ⟨o2, hloop, hchain, hdh2, hfr2⟩ := ih R2 o1 (o.tds t).hwNextTD (some t) (t :: D)
        (by simp at hlen; omega)
        (hw_done_list_congr fuel o o1 hfr R2 _ hrest)
        (cells_in_flight_congr o o1 hfr R2 (fun x hx => hfl x (List.mem_cons_of_mem _ hx)))
        hnd2.2
        (by
          intro x hx hxd
          rcases List.mem_cons.mp hxd with h | h
          · subst h; exact hnd2.1 hx
          · exact hdisj x (List.mem_cons_of_mem _ hx) h)
        ⟨rfl, by
          rw [hnext]
          refine dl_chain_congr o o1 D td_rev (fun x hx => hother x ?_) hD
          rintro rfl
          exact hdisj x (List.mem_cons_self _ _) hx⟩
      have hl : (t :: R2).reverse ++ D = R2.reverse ++ t :: D := by
        rw [List.reverse_cons, List.append_assoc]; rfl
      rw [hl]
      exact ⟨o2, hloop, hchain, hdh2.trans hdh, dl_frame_trans hfr hfr2⟩

/-- `dl_reverse_done_list` clears `done_head` and returns the TDs of the hardware done
list chained through `next_dl_td` in reverse order. -/
theorem dl_reverse_done_list_spec (fuel : Nat) (s : ohci_hcd) (L : List Nat)
    (hL : hw_done_list fuel s s.done_head L) (hfuel : L.length < fuel)
    (hfl : cells_in_flight s L) :
    ∃ s1, dl_reverse_done_list fuel s = some (s1, L.reverse.head?) ∧
      s1.done_head = 0 ∧ dl_chain s1 L.reverse.head? L.reverse ∧ dl_frame s s1 := by
  have hfr0 : dl_frame s { s with done_head := 0 } := ⟨rfl, rfl, fun _ => ⟨rfl, rfl, rfl, rfl⟩⟩
  obtain ⟨o2, hloop, hchain, hdh, hfr⟩ :=
    dl_reverse_loop_spec fuel fuel L { s with done_head := 0 } s.done_head none [] hfuel
      (hw_done_list_congr fuel s _ hfr0 L _ hL)
      (cells_in_flight_congr s _ hfr0 L hfl)
      (hw_done_list_nodup fuel s L _ hL)
      (fun _ _ h => absurd h (List.not_mem_nil _))
      rfl
  rw [List.append_nil] at hloop hchain
  exact ⟨o2, hloop, hdh, hchain, dl_frame_trans hfr0 hfr⟩

theorem dl_next_same_refl (o : ohci_hcd) : dl_next_same o o := fun _ => rfl

theorem dl_next_same_trans {a b c : ohci_hcd} (h1 : dl_next_same a b) (h2 : dl_next_same b c) :
    dl_next_same a c := fun x => (h2 x).trans (h1 x)

theorem dl_next_same_of_tds {o o2 : ohci_hcd} (h : o2.tds = o.tds) : dl_next_same o o2 :=
  fun x => by rw [h]

theorem tdref_set_next (o : ohci_hcd) (v : Option Nat) (r : tdref) :
    dl_next_same o (r.set o v) := by
  cases r with
  | bucket h => exact fun _ => rfl
  | node t =>
    intro x
    by_cases hx : x = t
    · subst hx; simp [tdref.set, ohci_hcd.mod_td]
    · simp [tdref.set, ohci_hcd.mod_td, upd_other _ _ _ _ hx]

theorem td_free_next (fuel : Nat) (o o2 : ohci_hcd) (t : Nat)
    (h : td_free fuel o t = some o2) : dl_next_same o o2 := by
  unfold td_free at h
  cases hw : td_free_walk o t fuel (tdref.bucket (TD_HASH_FUNC (o.tds t).td_dma)) with
  | none => rw [hw] at h; exact absurd h (by simp)
  | some prev =>
    rw [hw] at h
    have heq := Option.some.inj h
    rw [← heq]
    refine dl_next_same_trans
      (b := if (prev.get o).isSome then prev.set o (o.tds t).td_hash else o) ?_ (fun _ => rfl)
    split
    · exact tdref_set_next o _ prev
    · exact dl_next_same_refl o

theorem urb_free_priv_loop_next (fuel p : Nat) :
    ∀ (n i : Nat) (o o2 : ohci_hcd), urb_free_priv_loop fuel p n i o = some o2 →
      dl_next_same o o2 := by
  intro n
  induction n with
  | zero =>
    intro i o o2 h
    rw [urb_free_priv_loop] at h
    rw [← Option.some.inj h]
    exact dl_next_same_refl o
  | succ n ih =>
    intro i o o2 h
    rw [urb_free_priv_loop] at h
    cases ht : (o.privs p).td i with
    | none => rw [ht] at h; exact ih _ _ _ h
    | some t =>
      rw [ht] at h
      dsimp only at h
      cases hf : td_free fuel o t with
      | none => rw [hf] at h; exact absurd h (by simp)
      | some o1 =>
        rw [hf] at h
        exact dl_next_same_trans (td_free_next fuel o o1 t hf) (ih _ _ _ h)

theorem urb_free_priv_next (fuel : Nat) (o o2 : ohci_hcd) (p : Nat)
    (h : urb_free_priv fuel o p = some o2) : dl_next_same o o2 := by
  unfold urb_free_priv at h
  cases hl : urb_free_priv_loop fuel p (o.privs p).length 0 o with
  | none => rw [hl] at h; exact absurd h (by simp)
  | some o1 =>
    rw [hl] at h
    rw [← Option.some.inj h]
    exact dl_next_same_trans (urb_free_priv_loop_next fuel p _ _ o o1 hl) (fun _ => rfl)

theorem finish_urb_reqs_tds (o : ohci_hcd) (u : Nat) : (finish_urb_reqs o u).tds = o.tds := by
  unfold finish_urb_reqs
  split
  · dsimp only
    split <;> rfl
  · split <;> rfl

theorem finish_urb_stop_tds (o : ohci_hcd) : (finish_urb_stop o).tds = o.tds := by
  unfold finish_urb_stop
  split <;> rfl

theorem finish_urb_next (fuel : Nat) (o o2 : ohci_hcd) (u : Nat) (status : Int)
    (h : finish_urb fuel o u status = some o2) : dl_next_same o o2 := by
  unfold finish_urb at h
  cases hp : (o.hcd.urbs u).hcpriv with
  | none => rw [hp] at h; exact absurd h (by simp)
  | some p =>
    rw [hp] at h
    dsimp only at h
    cases hf : urb_free_priv fuel o p with
    | none => rw [hf] at h; exact absurd h (by simp)
    | some o1 =>
      rw [hf] at h
      rw [← Option.some.inj h]
      refine dl_next_same_trans (urb_free_priv_next fuel o o1 p hf) (dl_next_same_of_tds ?_)
      rw [finish_urb_stop_tds]
      exact finish_urb_reqs_tds o1 u

theorem takeback_td_clean_tds (fuel : Nat) (o o2 : ohci_hcd) (e : Nat)
    (h : takeback_td_clean fuel o e = some o2) : o2.tds = o.tds := by
  unfold takeback_td_clean at h
  dsimp only at h
  split at h
  · split at h
    · cases hs : start_ed_unlink fuel o.sched e with
      | none => rw [hs] at h; exact absurd h (by simp)
      | some sc => rw [hs] at h; rw [← Option.some.inj h]
    · rw [← Option.some.inj h]
  · split at h
    · split at h
      · split at h
        · rw [← Option.some.inj h]; rfl
        · split at h
          · rw [← Option.some.inj h]; rfl
          · rw [← Option.some.inj h]; rfl
      · rw [← Option.some.inj h]
    · rw [← Option.some.inj h]

/-- `takeback_td` rewrites no `next_dl_td`. -/
theorem takeback_td_next (fuel : Nat) (o o2 : ohci_hcd) (t : Nat)
    (h : takeback_td fuel o t = some o2) : dl_next_same o o2 := by
  unfold takeback_td at h
  dsimp only at h
  cases hp : (o.hcd.urbs (o.tds t).urb).hcpriv with
  | none => rw [hp] at h; exact absurd h (by simp)
  | some p =>
    rw [hp] at h
    dsimp only at h
    have h1 : dl_next_same o ((td_done o (o.tds t).urb t).2.mod_priv p
        (fun x => { x with td_cnt := x.td_cnt + 1 })) :=
      dl_next_same_of_tds (td_done_frame o (o.tds t).urb t).1
    generalize (td_done o (o.tds t).urb t).2.mod_priv p
      (fun x => { x with td_cnt := x.td_cnt + 1 }) = o1 at h h1
    by_cases hc : (o1.privs p).td_cnt = (o1.privs p).length
    · rw [if_pos hc] at h
      cases hf : finish_urb fuel o1 (o.tds t).urb (td_done o (o.tds t).urb t).1 with
      | none => rw [hf] at h; exact absurd h (by simp)
      | some o3 =>
        rw [hf] at h
        exact dl_next_same_trans (dl_next_same_trans h1 (finish_urb_next fuel o1 o3 _ _ hf))
          (dl_next_same_of_tds (takeback_td_clean_tds fuel o3 o2 _ h))
    · rw [if_neg hc] at h
      exact dl_next_same_trans h1 (dl_next_same_of_tds (takeback_td_clean_tds fuel o1 o2 _ h))

/-- The `while (td)` loop of `dl_done_list` calls `takeback_td` on the TDs of the chain, in
chain order. -/
theorem dl_done_loop_eq (fuel : Nat) :
    ∀ (n : Nat) (M : List Nat) (o : ohci_hcd) (head : Option Nat),
      M.length < n → dl_chain o head M →
      dl_done_loop fuel n o head = takeback_seq fuel o M := by
  intro n
  induction n with
  | zero => intro M _ _ h; omega
  | succ n ih =>
    intro M o head hlen hM
    cases M with
    | nil =>
      have : head = none := hM
      rw [this]; rfl
    | cons t rest =>
      obtain ⟨hh, hrest⟩ := hM
      rw [hh, dl_done_loop, takeback_seq]
      cases ht : takeback_td fuel o t with
      | none => rfl
      | some o1 =>
        exact ih rest o1 _ (by simp at hlen; omega)
          (dl_chain_congr o o1 rest _ (fun x _ => takeback_td_next fuel o o1 t ht x) hrest)

/-- C7. For a hardware done list `L` (chained through `hwNextTD` from `hcca->done_head`,
most recently completed first) all of whose entries resolve through `dma_to_td` and belong
to URBs in flight, `dl_reverse_done_list` clears `done_head` and returns exactly the TDs
of `L` chained through `next_dl_td` in the reverse order, and `dl_done_list` is that
reversal followed by the calls of `takeback_td` on them in the reversed order, oldest
completion first. -/
theorem dl_done_list_order (fuel : Nat) (s : ohci_hcd) (L : List Nat)
    (hL : hw_done_list fuel s s.done_head L) (hfuel : L.length < fuel)
    (hfl : cells_in_flight s L) :
    ∃ s1, dl_reverse_done_list fuel s = some (s1, L.reverse.head?) ∧
      s1.done_head = 0 ∧ dl_chain s1 L.reverse.head? L.reverse ∧
      dl_done_list fuel s = takeback_seq fuel s1 L.reverse := by
  obtain ⟨s1, hrev, hdh, hchain, _⟩ := dl_reverse_done_list_spec fuel s L hL hfuel hfl
  refine ⟨s1, hrev, hdh, hchain, ?_⟩
  unfold dl_done_list
  rw [hrev]
  exact dl_done_loop_eq fuel fuel L.reverse s1 _ (by rw [List.length_reverse]; exact hfuel) hchain

theorem dl_chain_unique (o : ohci_hcd) :
    ∀ (M1 M2 : List Nat) (head : Option Nat), dl_chain o head M1 → dl_chain o head M2 →
      M1 = M2 := by
  intro M1
  induction M1 with
  | nil =>
    intro M2 head h1 h2
    cases M2 with
    | nil => rfl
    | cons t rest =>
      have h1' : head = none := h1
      rw [h1'] at h2; exact absurd h2.1 (by simp)
  | cons t rest ih =>
    intro M2 head h1 h2
    cases M2 with
    | nil =>
      have h2' : head = none := h2
      rw [h2'] at h1; exact absurd h1.1 (by simp)
    | cons t2 rest2 =>
      have ht : t = t2 := Option.some.inj (h1.1.symm.trans h2.1)
      subst ht
      rw [ih rest2 _ h1.2 h2.2]

/-- C8. The done-list reversal is an involution: when the list `M` that
`dl_reverse_done_list` returned for the done list `L` is put on the hardware done list
again, in any state, `dl_reverse_done_list` returns the TDs in the original order `L`. -/
theorem dl_reverse_done_list_involution (fuel : Nat) (s s1 : ohci_hcd) (L M : List Nat)
    (r1 : Option Nat)
    (hL : hw_done_list fuel s s.done_head L) (hfuel : L.length < fuel)
    (hfl : cells_in_flight s L)
    (h1 : dl_reverse_done_list fuel s = some (s1, r1)) (hM : dl_chain s1 r1 M)
    (s2 : ohci_hcd) (hL2 : hw_done_list fuel s2 s2.done_head M) (hfl2 : cells_in_flight s2 M) :
    ∃ s3 r3, dl_reverse_done_list fuel s2 = some (s3, r3) ∧ dl_chain s3 r3 L := by
  obtain ⟨s1', hrev, _, hchain, _⟩ := dl_reverse_done_list_spec fuel s L hL hfuel hfl
  rw [h1] at hrev
  have hs : s1 = s1' := (Prod.mk.inj (Option.some.inj hrev)).1
  have hr : r1 = L.reverse.head? := (Prod.mk.inj (Option.some.inj hrev)).2
  subst hs
  rw [← hr] at hchain
  have hML : M = L.reverse := dl_chain_unique s1 M L.reverse r1 hM hchain
  subst hML
  obtain ⟨s3, hrev2, _, hchain2, _⟩ :=
    dl_reverse_done_list_spec fuel s2 L.reverse hL2 (by rw [List.length_reverse]; exact hfuel) hfl2
  rw [List.reverse_reverse] at hrev2 hchain2
  exact ⟨s3, _, hrev2, hchain2⟩

/-- Witness for C7: the three cells of `bulk3_done_input` were completed in the order
0, 1, 2, so the done list is 2, 1, 0; they are taken back, and their requests completed,
in submission order. -/
theorem dl_done_list_order_witness :
    hw_done_list 4 bulk3_done_input bulk3_done_input.done_head [2, 1, 0] ∧
    cells_in_flight bulk3_done_input [2, 1, 0] ∧
    (∃ s1, dl_reverse_done_list 4 bulk3_done_input = some (s1, some 0) ∧
      s1.done_head = 0 ∧ dl_chain s1 (some 0) [0, 1, 2] ∧
      dl_done_list 4 bulk3_done_input = takeback_seq 4 s1 [0, 1, 2]) ∧
    (dl_done_list 4 bulk3_done_input).map (fun o => o.hcd.trace.filterMap (fun ev =>
      match ev with
      | .complete u seen => some (u, seen.status, seen.actual_length)
      | _ => none)) = some [(0, 0, 4096), (1, 0, 4096), (2, 0, 100)] :=
  ⟨by decide, by decide,
    dl_done_list_order 4 bulk3_done_input [2, 1, 0] (by decide) (by decide) (by decide),
    by decide⟩

theorem bulk3_reversed_eq :
    dl_reverse_done_list 4 bulk3_done_input = some (bulk3_reversed.1, bulk3_reversed.2) := by
  obtain ⟨s1, hrev, _⟩ :=
    dl_reverse_done_list_spec 4 bulk3_done_input [2, 1, 0] (by decide) (by decide) (by decide)
  unfold bulk3_reversed
  rw [hrev]
  rfl

/-- Witness for C8: the reversed list 0, 1, 2 of `bulk3_done_input`, queued again by the
controller, is reversed back to 2, 1, 0. -/
theorem dl_reverse_done_list_involution_witness :
    hw_done_list 4 bulk3_done_input bulk3_done_input.done_head [2, 1, 0] ∧
    dl_chain bulk3_reversed.1 bulk3_reversed.2 [0, 1, 2] ∧
    hw_done_list 4 (hc_requeue bulk3_reversed.1 [0, 1, 2])
      (hc_requeue bulk3_reversed.1 [0, 1, 2]).done_head [0, 1, 2] ∧
    ∃ s3 r3, dl_reverse_done_list 4 (hc_requeue bulk3_reversed.1 [0, 1, 2]) = some (s3, r3) ∧
      dl_chain s3 r3 [2, 1, 0] :=
  ⟨by decide, by decide, by decide,
    dl_reverse_done_list_involution 4 bulk3_done_input bulk3_reversed.1 [2, 1, 0] [0, 1, 2]
      bulk3_reversed.2 (by decide) (by decide) (by decide) bulk3_reversed_eq (by decide)
      (hc_requeue bulk3_reversed.1 [0, 1, 2]) (by decide) (by decide)⟩

/-! ## buffer.c: size classes -/

theorem pool_index_class (size : Nat) :
    (size ≤ PAGE_SIZE / 2 →
      ∃ i, i < HCD_BUFFER_POOLS ∧ size ≤ pool_max i ∧
        (∀ j, j < HCD_BUFFER_POOLS → size ≤ pool_max j → pool_max i ≤ pool_max j) ∧
        pool_index size HCD_BUFFER_POOLS 0 = some i) ∧
    (PAGE_SIZE / 2 < size → pool_index size HCD_BUFFER_POOLS 0 = none) := by
  have hp : PAGE_SIZE / 2 = 2048 := by decide
  rw [hp]
  constructor
  · intro hle
    have hmin : ∀ i, i < 4 → size ≤ pool_max i →
        (∀ j, j < i → pool_max j < size) →
        ∀ j, j < HCD_BUFFER_POOLS → size ≤ pool_max j → pool_max i ≤ pool_max j := by
      intro i hi _ hlow j hj hsj
      have hj4 : j < 4 := hj
      by_cases hji : j < i
      · have := hlow j hji
        omega
      · have hij : i ≤ j := by omega
        interval_cases i <;> interval_cases j <;> simp [pool_max, PAGE_SIZE]
    by_cases h0 : size ≤ 32
    · refine ⟨0, by decide, by simpa [pool_max] using h0, ?_, ?_⟩
      · exact hmin 0 (by decide) (by simpa [pool_max] using h0) (by intro j hj; omega)
      · simp [pool_index, HCD_BUFFER_POOLS, pool_max, h0]
    · by_cases h1 : size ≤ 128
      · refine ⟨1, by decide, by simpa [pool_max] using h1, ?_, ?_⟩
        · refine hmin 1 (by decide) (by simpa [pool_max] using h1) ?_
          intro j hj
          interval_cases j
          simp [pool_max]; omega
        · simp [pool_index, HCD_BUFFER_POOLS, pool_max, h0, h1]
      · by_cases h2 : size ≤ 512
        · refine ⟨2, by decide, by simpa [pool_max] using h2, ?_, ?_⟩
          · refine hmin 2 (by decide) (by simpa [pool_max] using h2) ?_
            intro j hj
            interval_cases j <;> simp [pool_max] <;> omega
          · simp [pool_index, HCD_BUFFER_POOLS, pool_max, h0, h1, h2]
        · refine ⟨3, by decide, by simpa [pool_max, PAGE_SIZE] using hle, ?_, ?_⟩
          · refine hmin 3 (by decide) (by simpa [pool_max, PAGE_SIZE] using hle) ?_
            intro j hj
            interval_cases j <;> simp [pool_max] <;> omega
          · simp [pool_index, HCD_BUFFER_POOLS, pool_max, PAGE_SIZE, h0, h1, h2, hle]
  · intro hgt
    have h0 : ¬ size ≤ 32 := by omega
    have h1 : ¬ size ≤ 128 := by omega
    have h2 : ¬ size ≤ 512 := by omega
    have h3 : ¬ size ≤ 2048 := by omega
    simp [pool_index, HCD_BUFFER_POOLS, pool_max, PAGE_SIZE, h0, h1, h2, h3]

/-- C14.  On a controller with a DMA mask or with `HCD_LOCAL_MEM`, `hcd_buffer_alloc`
asks the pool of the smallest size class (32, 128, 512, `PAGE_SIZE / 2`) that holds
`size`, and `dma_alloc_coherent` exactly when `size > PAGE_SIZE / 2`; `hcd_buffer_free`
with the same size on the same controller (state `h2`, block `addr`) hands the block to
the same pool, respectively to `dma_free_coherent`. -/
theorem hcd_buffer_alloc_free_backend (k : platform) (hcd h2 : usb_hcd)
    (size dma addr dma2 : Nat)
    (hdma : hcd.dma_mask = true ∨ hcd.driver_flags &&& HCD_LOCAL_MEM ≠ 0)
    (hsame : h2.dma_mask = hcd.dma_mask ∧ h2.driver_flags = hcd.driver_flags)
    (haddr : addr ≠ 0) :
    (size ≤ PAGE_SIZE / 2 →
      ∃ i, i < HCD_BUFFER_POOLS ∧ size ≤ pool_max i ∧
        (∀ j, j < HCD_BUFFER_POOLS → size ≤ pool_max j → pool_max i ≤ pool_max j) ∧
        hcd_buffer_alloc k hcd size dma = buffer_alloc_call k hcd (.dma_pool_alloc i) dma ∧
        hcd_buffer_free h2 size addr dma2 = h2.emit (.dma_pool_free i addr dma2)) ∧
    (PAGE_SIZE / 2 < size →
      hcd_buffer_alloc k hcd size dma
        = buffer_alloc_call k hcd (.dma_alloc_coherent size) dma ∧
      hcd_buffer_free h2 size addr dma2 = h2.emit (.dma_free_coherent size addr dma2)) := by
  have hc : ¬ (hcd.dma_mask = false ∧ hcd.driver_flags &&& HCD_LOCAL_MEM = 0) := by
    rintro ⟨a, b⟩
    rcases hdma with h | h
    · rw [a] at h; exact Bool.noConfusion h
    · exact h b
  have hc2 : ¬ (h2.dma_mask = false ∧ h2.driver_flags &&& HCD_LOCAL_MEM = 0) := by
    rw [hsame.1, hsame.2]; exact hc
  constructor
  · intro hle
    obtain ⟨i, hi, hsi, hmin, hidx⟩ := (pool_index_class size).1 hle
    refine ⟨i, hi, hsi, hmin, ?_, ?_⟩
    · unfold hcd_buffer_alloc
      rw [if_neg hc, hidx]
    · unfold hcd_buffer_free
      rw [if_neg haddr, if_neg hc2, hidx]
  · intro hgt
    have hidx := (pool_index_class size).2 hgt
    constructor
    · unfold hcd_buffer_alloc
      rw [if_neg hc, hidx]
    · unfold hcd_buffer_free
      rw [if_neg haddr, if_neg hc2, hidx]

theorem hcd_buffer_alloc_free_backend_witness :
    ((hcd_bounce.dma_mask = true ∨ hcd_bounce.driver_flags &&& HCD_LOCAL_MEM ≠ 0) ∧
      (hcd_bounce.dma_mask = hcd_bounce.dma_mask ∧
        hcd_bounce.driver_flags = hcd_bounce.driver_flags) ∧ (0x8000 : Nat) ≠ 0) ∧
    ((100 ≤ PAGE_SIZE / 2 →
      ∃ i, i < HCD_BUFFER_POOLS ∧ 100 ≤ pool_max i ∧
        (∀ j, j < HCD_BUFFER_POOLS → 100 ≤ pool_max j → pool_max i ≤ pool_max j) ∧
        hcd_buffer_alloc plat_bump hcd_bounce 100 0
          = buffer_alloc_call plat_bump hcd_bounce (.dma_pool_alloc i) 0 ∧
        hcd_buffer_free hcd_bounce 100 0x8000 0x48000
          = hcd_bounce.emit (.dma_pool_free i 0x8000 0x48000)) ∧
    (PAGE_SIZE / 2 < 100 →
      hcd_buffer_alloc plat_bump hcd_bounce 100 0
        = buffer_alloc_call plat_bump hcd_bounce (.dma_alloc_coherent 100) 0 ∧
      hcd_buffer_free hcd_bounce 100 0x8000 0x48000
        = hcd_bounce.emit (.dma_free_coherent 100 0x8000 0x48000))) :=
  ⟨⟨Or.inr (by decide), ⟨rfl, rfl⟩, by decide⟩,
    hcd_buffer_alloc_free_backend plat_bump hcd_bounce hcd_bounce 100 0 0x8000 0x48000
      (Or.inr (by decide)) ⟨rfl, rfl⟩ (by decide)⟩

/-! ## hcd.c: the bounce buffer round trip -/

theorem get_put_unaligned (mem mem2 : Nat → Nat) (v a : Nat) (hv : v < 4294967296)
    (h : ∀ i, i < 4 → mem2 (a + i) = put_unaligned mem v a (a + i)) :
    get_unaligned mem2 a = v := by
  have h0 := h 0 (by decide)
  have h1 := h 1 (by decide)
  have h2 := h 2 (by decide)
  have h3 := h 3 (by decide)
  simp only [Nat.add_zero] at h0
  unfold get_unaligned
  rw [h0, h1, h2, h3]
  unfold put_unaligned
  simp only [if_true]
  have e1 : ¬ (a + 1 = a) := by omega
  have e2 : ¬ (a + 2 = a) := by omega
  have e21 : ¬ (a + 2 = a + 1) := by omega
  have e3 : ¬ (a + 3 = a) := by omega
  have e31 : ¬ (a + 3 = a + 1) := by omega
  have e32 : ¬ (a + 3 = a + 2) := by omega
  simp only [if_neg e1, if_neg e2, if_neg e21, if_neg e3, if_neg e31, if_neg e32, if_true]
  omega

theorem memcpy_outside (mem : Nat → Nat) (dst src n a : Nat) (h : ¬ (dst ≤ a ∧ a < dst + n)) :
    memcpy mem dst src n a = mem a := by
  unfold memcpy
  simp only [if_neg h]

/-- C13.  For every direction `dir`: a successful `hcd_alloc_coherent` on the buffer
address `p` (a 32-bit pointer) of size `n` called block `v` from `hcd_buffer_alloc` with
the size `n + sizeof(pointer)`; if the `sizeof(pointer)` bytes behind the `n` bytes of the
block are as it left them, `hcd_free_coherent` restores `*vaddr_handle = p`, sets
`*dma_handle = 0` and gives the block `v` to `hcd_buffer_free` with the same size
`n + sizeof(pointer)`. -/
theorem hcd_coherent_round_trip (k : platform) (hcd h1 h2 : usb_hcd)
    (dma0 dma v p n : Nat) (dir : dma_data_direction) (hp : p < 4294967296)
    (ha : hcd_alloc_coherent k hcd dma0 p n dir = (0, h1, dma, v))
    (htail : ∀ i, i < sizeof_ulong → h2.mem (v + n + i) = h1.mem (v + n + i)) :
    (hcd_buffer_alloc k hcd (n + sizeof_ulong) dma0).2 = (v, dma) ∧ v ≠ 0 ∧
    (hcd_free_coherent h2 dma v n dir).2 = (0, p) ∧
    (hcd_free_coherent h2 dma v n dir).1
      = hcd_buffer_free
          (if dir = .DMA_FROM_DEVICE then { h2 with mem := memcpy h2.mem p v n } else h2)
          (n + sizeof_ulong) v dma := by
  unfold hcd_alloc_coherent at ha
  by_cases hz : (hcd_buffer_alloc k hcd (n + sizeof_ulong) dma0).2.1 = 0
  · rw [if_pos hz] at ha
    have := congrArg Prod.fst ha
    simp [ENOMEM] at this
  · rw [if_neg hz] at ha
    have e1 := congrArg (fun x => x.2.1) ha
    have e2 := congrArg (fun x => x.2.2.1) ha
    have e3 := congrArg (fun x => x.2.2.2) ha
    simp only [] at e1 e2 e3
    subst e3
    subst e2
    have horig : get_unaligned h2.mem
        ((hcd_buffer_alloc k hcd (n + sizeof_ulong) dma0).2.1 + n) = p := by
      apply get_put_unaligned (hcd_buffer_alloc k hcd (n + sizeof_ulong) dma0).1.mem _ _ _ hp
      intro i hi
      rw [htail i hi, ← e1]
      by_cases hd : dir = .DMA_TO_DEVICE
      · simp only [if_pos hd]
        rw [memcpy_outside _ _ _ _ _ (by omega)]
      · simp only [if_neg hd]
    refine ⟨rfl, hz, ?_, ?_⟩
    · unfold hcd_free_coherent
      simp only [horig]
    · unfold hcd_free_coherent
      simp only [horig]

theorem hcd_coherent_round_trip_witness :
    ((0x3000 : Nat) < 4294967296 ∧
      hcd_alloc_coherent plat_bump hcd_bounce 0 0x3000 64 .DMA_FROM_DEVICE
        = (0, bounce_alloc.2.1, bounce_alloc.2.2.1, bounce_alloc.2.2.2) ∧
      ∀ i, i < sizeof_ulong →
        bounce_alloc.2.1.mem (bounce_alloc.2.2.2 + 64 + i)
          = bounce_alloc.2.1.mem (bounce_alloc.2.2.2 + 64 + i)) ∧
    ((hcd_buffer_alloc plat_bump hcd_bounce (64 + sizeof_ulong) 0).2
        = (bounce_alloc.2.2.2, bounce_alloc.2.2.1) ∧ bounce_alloc.2.2.2 ≠ 0 ∧
      (hcd_free_coherent bounce_alloc.2.1 bounce_alloc.2.2.1 bounce_alloc.2.2.2 64
        .DMA_FROM_DEVICE).2
        = (0, 0x3000) ∧
      (hcd_free_coherent bounce_alloc.2.1 bounce_alloc.2.2.1 bounce_alloc.2.2.2 64
        .DMA_FROM_DEVICE).1
        = hcd_buffer_free
            (if dma_data_direction.DMA_FROM_DEVICE = .DMA_FROM_DEVICE then
              { bounce_alloc.2.1 with
                mem := memcpy bounce_alloc.2.1.mem 0x3000 bounce_alloc.2.2.2 64 }
            else bounce_alloc.2.1)
            (64 + sizeof_ulong) bounce_alloc.2.2.2 bounce_alloc.2.2.1) :=
  ⟨⟨by decide, Prod.ext (by decide) rfl, fun _ _ => rfl⟩,
    hcd_coherent_round_trip plat_bump hcd_bounce bounce_alloc.2.1 bounce_alloc.2.1 0
      bounce_alloc.2.2.1 bounce_alloc.2.2.2 0x3000 64 .DMA_FROM_DEVICE (by decide)
      (Prod.ext (by decide) rfl) (fun _ _ => rfl)⟩
/-! ## Frames of the mapping layer -/

theorem core_frame_refl (h : usb_hcd) (u : Nat) : core_frame h h u :=
  ⟨rfl, rfl, fun _ _ => rfl, rfl, rfl, rfl, rfl⟩

theorem core_frame_trans {a b c : usb_hcd} {u : Nat} (h1 : core_frame a b u)
    (h2 : core_frame b c u) : core_frame a c u :=
  ⟨h2.eps_eq.trans h1.eps_eq, h2.devs_eq.trans h1.devs_eq,
    fun v hv => (h2.others v hv).trans (h1.others v hv),
    h2.ep_eq.trans h1.ep_eq, h2.dev_eq.trans h1.dev_eq,
    h2.unlinked_eq.trans h1.unlinked_eq, h2.reject_eq.trans h1.reject_eq⟩

theorem count_same_refl (h : usb_hcd) (u : Nat) : count_same h h u := ⟨rfl, rfl, rfl⟩

theorem count_same_trans {a b c : usb_hcd} {u : Nat} (h1 : count_same a b u)
    (h2 : count_same b c u) : count_same a c u :=
  ⟨h2.1.trans h1.1, h2.2.1.trans h1.2.1, h2.2.2.trans h1.2.2⟩

theorem core_frame_of_urbs (h h2 : usb_hcd) (u : Nat) (he : h2.eps = h.eps)
    (hd : h2.devs = h.devs) (hu : h2.urbs = h.urbs) : core_frame h h2 u :=
  ⟨he, hd, fun _ _ => by rw [hu], by rw [hu], by rw [hu], by rw [hu], by rw [hu]⟩

theorem count_same_of_urbs (h h2 : usb_hcd) (u : Nat) (hu : h2.urbs = h.urbs) :
    count_same h h2 u := ⟨by rw [hu], by rw [hu], by rw [hu]⟩

theorem core_frame_emit (h : usb_hcd) (ev : core_event) (u : Nat) :
    core_frame h (h.emit ev) u := core_frame_of_urbs _ _ _ rfl rfl rfl

theorem count_same_emit (h : usb_hcd) (ev : core_event) (u : Nat) :
    count_same h (h.emit ev) u := count_same_of_urbs _ _ _ rfl

theorem core_frame_mod_urb (h : usb_hcd) (u : Nat) (f : urb → urb)
    (hf : (f (h.urbs u)).ep = (h.urbs u).ep ∧ (f (h.urbs u)).dev = (h.urbs u).dev ∧
      (f (h.urbs u)).unlinked = (h.urbs u).unlinked ∧
      (f (h.urbs u)).reject = (h.urbs u).reject) :
    core_frame h (h.mod_urb u f) u := by
  refine ⟨rfl, rfl, fun v hv => mod_urb_urbs_other h u v f hv, ?_, ?_, ?_, ?_⟩
  · rw [mod_urb_urbs_same]; exact hf.1
  · rw [mod_urb_urbs_same]; exact hf.2.1
  · rw [mod_urb_urbs_same]; exact hf.2.2.1
  · rw [mod_urb_urbs_same]; exact hf.2.2.2

theorem count_same_mod_urb (h : usb_hcd) (u : Nat) (f : urb → urb)
    (hf : (f (h.urbs u)).kref = (h.urbs u).kref ∧
      (f (h.urbs u)).use_count = (h.urbs u).use_count ∧
      (f (h.urbs u)).hcpriv = (h.urbs u).hcpriv) :
    count_same h (h.mod_urb u f) u := by
  unfold count_same
  rw [mod_urb_urbs_same]
  exact hf

theorem frame_via (h h1 : usb_hcd) (u : Nat) (f : urb → urb) (he : h1.eps = h.eps)
    (hd : h1.devs = h.devs) (hu : h1.urbs = h.urbs)
    (hf : ∀ x, (f x).ep = x.ep ∧ (f x).dev = x.dev ∧ (f x).unlinked = x.unlinked ∧
      (f x).reject = x.reject ∧ (f x).kref = x.kref ∧ (f x).use_count = x.use_count ∧
      (f x).hcpriv = x.hcpriv) :
    core_frame h (h1.mod_urb u f) u ∧ count_same h (h1.mod_urb u f) u := by
  obtain ⟨f1, f2, f3, f4, f5, f6, f7⟩ := hf (h1.urbs u)
  exact ⟨core_frame_trans (core_frame_of_urbs _ _ _ he hd hu)
      (core_frame_mod_urb _ _ _ ⟨f1, f2, f3, f4⟩),
    count_same_trans (count_same_of_urbs _ _ _ hu) (count_same_mod_urb _ _ _ ⟨f5, f6, f7⟩)⟩

theorem buffer_free_urbs (h : usb_hcd) (size addr dma : Nat) :
    (hcd_buffer_free h size addr dma).eps = h.eps ∧
    (hcd_buffer_free h size addr dma).devs = h.devs ∧
    (hcd_buffer_free h size addr dma).urbs = h.urbs := by
  unfold hcd_buffer_free
  split
  · exact ⟨rfl, rfl, rfl⟩
  · split
    · exact ⟨rfl, rfl, rfl⟩
    · split <;> exact ⟨rfl, rfl, rfl⟩

theorem free_coherent_urbs (h : usb_hcd) (dma vaddr size : Nat) (d : dma_data_direction) :
    (hcd_free_coherent h dma vaddr size d).1.eps = h.eps ∧
    (hcd_free_coherent h dma vaddr size d).1.devs = h.devs ∧
    (hcd_free_coherent h dma vaddr size d).1.urbs = h.urbs := by
  unfold hcd_free_coherent
  dsimp only
  obtain ⟨a, b, c⟩ := buffer_free_urbs
    (if d = .DMA_FROM_DEVICE then
      { h with mem := memcpy h.mem (get_unaligned h.mem (vaddr + size)) vaddr size }
      else h) (size + sizeof_ulong) vaddr dma
  rw [a, b, c]
  split <;> exact ⟨rfl, rfl, rfl⟩

theorem unmap_urb_setup_frame (h : usb_hcd) (u : Nat) :
    core_frame h (unmap_urb_setup h u) u ∧ count_same h (unmap_urb_setup h u) u := by
  unfold unmap_urb_setup
  split
  · split
    · exact ⟨core_frame_emit _ _ _, count_same_emit _ _ _⟩
    · split
      · obtain ⟨a, b, c⟩ := free_coherent_urbs h (h.urbs u).setup_dma (h.urbs u).setup_packet
          sizeof_usb_ctrlrequest .DMA_TO_DEVICE
        exact frame_via h _ u _ a b c (fun _ => ⟨rfl, rfl, rfl, rfl, rfl, rfl, rfl⟩)
      · exact ⟨core_frame_refl _ _, count_same_refl _ _⟩
  · exact ⟨core_frame_refl _ _, count_same_refl _ _⟩

theorem unmap_urb_buffer_frame (h : usb_hcd) (u : Nat) :
    core_frame h (unmap_urb_buffer h u) u ∧ count_same h (unmap_urb_buffer h u) u := by
  unfold unmap_urb_buffer
  split
  · split
    · exact ⟨core_frame_emit _ _ _, count_same_emit _ _ _⟩
    · split
      · obtain ⟨a, b, c⟩ := free_coherent_urbs h (h.urbs u).transfer_dma
          (h.urbs u).transfer_buffer (h.urbs u).transfer_buffer_length
          (urb_dma_dir (h.urbs u))
        exact frame_via h _ u _ a b c (fun _ => ⟨rfl, rfl, rfl, rfl, rfl, rfl, rfl⟩)
      · exact ⟨core_frame_refl _ _, count_same_refl _ _⟩
  · exact ⟨core_frame_refl _ _, count_same_refl _ _⟩

theorem unmap_urb_for_dma_frame (h : usb_hcd) (u : Nat) :
    core_frame h (unmap_urb_for_dma h u) u ∧ count_same h (unmap_urb_for_dma h u) u := by
  unfold unmap_urb_for_dma
  split
  · exact ⟨core_frame_refl _ _, count_same_refl _ _⟩
  · exact ⟨core_frame_trans (unmap_urb_setup_frame h u).1 (unmap_urb_buffer_frame _ u).1,
      count_same_trans (unmap_urb_setup_frame h u).2 (unmap_urb_buffer_frame _ u).2⟩

theorem map_urb_for_dma_setup_exhausted (k : platform) (hcd : usb_hcd) (u : Nat)
    (hroot : is_root_hub (hcd.devs (hcd.urbs u).dev) = false)
    (hfail : (map_urb_setup k hcd u).1 ≠ 0) :
    map_urb_for_dma k hcd u = (0, (map_urb_setup k hcd u).2) := by
  unfold map_urb_for_dma
  rw [if_neg (by rw [hroot]; exact Bool.false_ne_true)]
  dsimp only
  rw [if_pos hfail]

theorem map_urb_setup_exhausted (k : platform) (hcd : usb_hcd) (u : Nat)
    (hctl : usb_endpoint_xfer_control (hcd.eps (hcd.urbs u).ep) = true)
    (hflag : (hcd.urbs u).transfer_flags &&& URB_NO_SETUP_DMA_MAP = 0)
    (hdma : hcd.uses_dma = false) (hloc : hcd.driver_flags &&& HCD_LOCAL_MEM ≠ 0)
    (hnone : (hcd_buffer_alloc k hcd (sizeof_usb_ctrlrequest + sizeof_ulong)
      (hcd.urbs u).setup_dma).2.1 = 0) :
    (map_urb_setup k hcd u).1 = -ENOMEM := by
  unfold map_urb_setup
  rw [if_pos ⟨hctl, hflag⟩, if_neg (by rw [hdma]; exact Bool.false_ne_true), if_pos hloc]
  dsimp only
  unfold hcd_alloc_coherent
  dsimp only
  rw [if_pos hnone]

theorem map_urb_for_dma_buffer_exhausted (k : platform) (hcd : usb_hcd) (u : Nat)
    (hroot : is_root_hub (hcd.devs (hcd.urbs u).dev) = false)
    (hsetup : (map_urb_setup k hcd u).1 = 0)
    (hfail : (map_urb_buffer k (map_urb_setup k hcd u).2 u).1 ≠ 0) :
    (map_urb_for_dma k hcd u).1 = (map_urb_buffer k (map_urb_setup k hcd u).2 u).1 := by
  unfold map_urb_for_dma
  rw [if_neg (by rw [hroot]; exact Bool.false_ne_true)]
  dsimp only
  rw [if_neg (not_not.2 hsetup), if_pos hfail]

theorem usb_hcd_submit_urb_map_failure (drv : hc_driver) (k : platform) (hcd : usb_hcd)
    (u : Nat) (hmap : (map_urb_for_dma k (usb_hcd_submit_start hcd u) u).1 ≠ 0) :
    usb_hcd_submit_urb drv k hcd u
      = (usb_hcd_submit_error (map_urb_for_dma k (usb_hcd_submit_start hcd u) u).2 u).map
          (fun h => ((map_urb_for_dma k (usb_hcd_submit_start hcd u) u).1, h)) := by
  unfold usb_hcd_submit_urb
  dsimp only
  rw [if_pos hmap]

/-- C12 (as the code behaves).  On the bounce-buffer controller `hcd_bounce` with no
memory left, the control URB 0 of a non-root device is submitted: the bounce allocation
for the setup packet is asked from pool 0 and fails with `-ENOMEM`, yet
`map_urb_for_dma` returns 0, `usb_hcd_submit_urb` hands the URB to the driver's
`urb_enqueue` and returns 0, and the URB is queued with its setup packet unmapped. -/
theorem usb_hcd_submit_urb_setup_exhausted :
    is_root_hub (hcd_bounce.devs (hcd_bounce.urbs 0).dev) = false ∧
    hcd_bounce.uses_dma = false ∧ hcd_bounce.driver_flags &&& HCD_LOCAL_MEM ≠ 0 ∧
    (map_urb_setup plat_exhausted (usb_hcd_submit_start hcd_bounce 0) 0).1 = -ENOMEM ∧
    (map_urb_for_dma plat_exhausted (usb_hcd_submit_start hcd_bounce 0) 0).1 = 0 ∧
    (usb_hcd_submit_urb drv_link plat_exhausted hcd_bounce 0).map
        (fun r => (r.1, pool_allocs r.2.trace, enqueued r.2.trace, (r.2.eps 0).urb_list,
          (r.2.urbs 0).setup_packet, (r.2.urbs 0).setup_dma))
      = some (0, [0], [0], [0], 0x2000, 0) := by
  decide

/-! ## mm/dmapool.c: blocks and the page end -/

/-- C20 (as the code behaves).  `dma_pool_create (name, dev, 1000, 8, 8192)` is
accepted, with block size 1000, allocation 4096 and boundary 8192.  On the first page of
that pool `pool_initialise_page` links the offsets 0, 1000, 2000, 3000 and 4000, and the
fifth `dma_pool_alloc` returns the block at offset 4000 of the page at `0x100000`: it
crosses no multiple of 8192, but its 1000 bytes end at offset 5000, beyond the 4096
bytes of the page. -/
theorem dma_pool_block_overruns_page :
    pool_1000.map (fun p => (p.size, p.allocation, p.boundary)) = some (1000, 4096, 8192) ∧
    (pool_1000.bind (pool_alloc_n 5)).map (fun r => r.2)
      = some [0x100000, 0x100000 + 1000, 0x100000 + 2000, 0x100000 + 3000, 0x100000 + 4000] ∧
    pool_1000.map (fun p => (block_no_cross p 4000, block_in_page p 4000))
      = some (true, false) := by
  decide

/-! ## ed_schedule: what it does to the other EDs -/

theorem ed_links_only_refl (x : ed) : ed_links_only x x := ⟨x.ed_next, x.hwNextED, rfl⟩

theorem ed_links_only_trans {x y z : ed} (h1 : ed_links_only x y) (h2 : ed_links_only y z) :
    ed_links_only x z := by
  obtain ⟨n1, p1, e1⟩ := h1
  obtain ⟨n2, p2, e2⟩ := h2
  exact ⟨n2, p2, by rw [e2, e1]⟩

theorem links_frame_refl (o : ohci_sched) (e : Nat) : links_frame o o e :=
  fun x _ => ed_links_only_refl (o.eds x)

theorem links_frame_trans {a b c : ohci_sched} {e : Nat} (h1 : links_frame a b e)
    (h2 : links_frame b c e) : links_frame a c e :=
  fun x hx => ed_links_only_trans (h1 x hx) (h2 x hx)

theorem links_frame_of_eds (o o2 : ohci_sched) (e : Nat) (h : o2.eds = o.eds) :
    links_frame o o2 e := by
  intro x _
  rw [h]
  exact ed_links_only_refl _

theorem links_frame_mod_self (o : ohci_sched) (e : Nat) (f : ed → ed) :
    links_frame o (o.mod_ed e f) e := by
  intro x hx
  simp only [ohci_sched.mod_ed, upd_other _ _ _ _ hx]
  exact ed_links_only_refl _

theorem links_frame_mod_links (o : ohci_sched) (t e : Nat) (f : ed → ed)
    (hf : ∀ y, ed_links_only y (f y)) : links_frame o (o.mod_ed t f) e := by
  intro x _
  by_cases hx : x = t
  · subst hx
    simp only [ohci_sched.mod_ed, upd_same]
    exact hf _
  · simp only [ohci_sched.mod_ed, upd_other _ _ _ _ hx]
    exact ed_links_only_refl _

theorem edref_set_links (o : ohci_sched) (v : Option Nat) (r : edref) (e : Nat) :
    links_frame o (r.set o v) e := by
  cases r with
  | slot i => exact links_frame_of_eds _ _ _ rfl
  | node t => exact links_frame_mod_links o t e _ (fun y => ⟨v, y.hwNextED, rfl⟩)

theorem edref_set_p_links (o : ohci_sched) (v : Nat) (r : edref) (e : Nat) :
    links_frame o (r.set_p o v) e := by
  cases r with
  | slot i => exact links_frame_of_eds _ _ _ rfl
  | node t => exact links_frame_mod_links o t e _ (fun y => ⟨y.ed_next, v, rfl⟩)

theorem periodic_link_insert_links (ohci : ohci_sched) (e : Nat) (prev : edref)
    (here : Option Nat) : links_frame ohci (periodic_link_insert ohci e prev here) e := by
  unfold periodic_link_insert
  split
  · have s1 : links_frame ohci (ohci.mod_ed e (fun x => { x with ed_next := here })) e :=
      links_frame_mod_self _ _ _
    refine links_frame_trans (links_frame_trans (links_frame_trans s1 ?_)
      (edref_set_links _ _ _ _)) (edref_set_p_links _ _ _ _)
    split
    · exact links_frame_mod_self _ e _
    · exact links_frame_refl _ _
  · exact links_frame_refl _ _

theorem periodic_link_slot_links (fuel : Nat) (ohci ohci2 : ohci_sched) (e i : Nat)
    (h : periodic_link_slot fuel ohci e i = some ohci2) : links_frame ohci ohci2 e := by
  unfold periodic_link_slot at h
  cases hw : periodic_link_walk ohci e fuel (edref.slot i) (ohci.periodic i) with
  | none => rw [hw] at h; exact absurd h (by simp)
  | some r =>
    rw [hw] at h
    rw [← Option.some.inj h]
    exact links_frame_trans (periodic_link_insert_links ohci e r.1 r.2)
      (links_frame_of_eds _ _ _ rfl)

theorem periodic_link_loop_links (fuel e : Nat) :
    ∀ n (ohci : ohci_sched) (i : Nat) (ohci2 : ohci_sched),
      periodic_link_loop fuel e n ohci i = some ohci2 → links_frame ohci ohci2 e := by
  intro n
  induction n with
  | zero => intro ohci i ohci2 h; simp [periodic_link_loop] at h
  | succ n ih =>
    intro ohci i ohci2 h
    rw [periodic_link_loop] at h
    by_cases hlt : i < NUM_INTS
    · rw [if_pos hlt] at h
      cases hs : periodic_link_slot fuel ohci e i with
      | none => rw [hs] at h; exact absurd h (by simp)
      | some o1 =>
        rw [hs] at h
        exact links_frame_trans (periodic_link_slot_links fuel ohci o1 e i hs) (ih _ _ _ h)
    · rw [if_neg hlt] at h
      rw [← Option.some.inj h]
      exact links_frame_refl _ _

theorem periodic_link_links (fuel : Nat) (ohci ohci2 : ohci_sched) (e : Nat)
    (h : periodic_link fuel ohci e = some ohci2) : links_frame ohci ohci2 e := by
  unfold periodic_link at h
  cases hl : periodic_link_loop fuel e (NUM_INTS + 1) ohci (ohci.eds e).branch with
  | none => rw [hl] at h; exact absurd h (by simp)
  | some o1 =>
    rw [hl] at h
    rw [← Option.some.inj h]
    exact links_frame_trans (periodic_link_loop_links fuel e _ _ _ _ hl)
      (links_frame_of_eds _ _ _ rfl)

theorem ed_schedule_start_links (ohci : ohci_sched) (e : Nat) :
    links_frame ohci (ed_schedule_start ohci e) e := by
  unfold ed_schedule_start
  have s1 : links_frame ohci (ohci.mod_ed e (fun x =>
      { x with state := ED_OPER, ed_prev := none, ed_next := none, hwNextED := 0 })) e :=
    links_frame_mod_self _ _ _
  dsimp only
  split
  · exact fun x hx => s1 x hx
  · exact s1

theorem ed_schedule_control_links (ohci : ohci_sched) (e : Nat) :
    links_frame ohci (ed_schedule_control ohci e) e := by
  intro x hx
  unfold ed_schedule_control
  dsimp only
  cases ohci.ed_controltail with
  | none =>
    simp only [Bool.and_eq_true]
    split
    · show ed_links_only (ohci.eds x) (upd _ e _ x)
      rw [upd_other _ _ _ _ hx]
      exact ed_links_only_refl _
    · show ed_links_only (ohci.eds x) (upd _ e _ x)
      rw [upd_other _ _ _ _ hx]
      exact ed_links_only_refl _
  | some t =>
    have h2 : ed_links_only (ohci.eds x)
        (((ohci.mod_ed t (fun y => { y with ed_next := some e })).mod_ed t
          (fun y => { y with hwNextED := (ohci.eds e).dma })).eds x) :=
      links_frame_trans
        (links_frame_mod_links ohci t e _ (fun y => ⟨some e, y.hwNextED, rfl⟩))
        (links_frame_mod_links _ t e _ (fun y => ⟨y.ed_next, (ohci.eds e).dma, rfl⟩)) x hx
    simp only [Bool.and_eq_true]
    split
    · show ed_links_only (ohci.eds x) (upd _ e _ x)
      rw [upd_other _ _ _ _ hx]
      exact h2
    · show ed_links_only (ohci.eds x) (upd _ e _ x)
      rw [upd_other _ _ _ _ hx]
      exact h2

theorem ed_schedule_bulk_links (ohci : ohci_sched) (e : Nat) :
    links_frame ohci (ed_schedule_bulk ohci e) e := by
  intro x hx
  unfold ed_schedule_bulk
  dsimp only
  cases ohci.ed_bulktail with
  | none =>
    simp only [Bool.and_eq_true]
    split
    · show ed_links_only (ohci.eds x) (upd _ e _ x)
      rw [upd_other _ _ _ _ hx]
      exact ed_links_only_refl _
    · show ed_links_only (ohci.eds x) (upd _ e _ x)
      rw [upd_other _ _ _ _ hx]
      exact ed_links_only_refl _
  | some t =>
    have h2 : ed_links_only (ohci.eds x)
        (((ohci.mod_ed t (fun y => { y with ed_next := some e })).mod_ed t
          (fun y => { y with hwNextED := (ohci.eds e).dma })).eds x) :=
      links_frame_trans
        (links_frame_mod_links ohci t e _ (fun y => ⟨some e, y.hwNextED, rfl⟩))
        (links_frame_mod_links _ t e _ (fun y => ⟨y.ed_next, (ohci.eds e).dma, rfl⟩)) x hx
    simp only [Bool.and_eq_true]
    split
    · show ed_links_only (ohci.eds x) (upd _ e _ x)
      rw [upd_other _ _ _ _ hx]
      exact h2
    · show ed_links_only (ohci.eds x) (upd _ e _ x)
      rw [upd_other _ _ _ _ hx]
      exact h2

theorem ed_schedule_periodic_links (fuel : Nat) (ohci : ohci_sched) (e : Nat)
    (r : Int × ohci_sched) (h : ed_schedule_periodic fuel ohci e = some r) :
    links_frame ohci r.2 e := by
  unfold ed_schedule_periodic at h
  cases hb : balance ohci.load (ohci.eds e).interval (ohci.eds e).load with
  | none => rw [hb] at h; exact absurd h (by simp)
  | some branch =>
    rw [hb] at h
    dsimp only at h
    by_cases hneg : branch < 0
    · rw [if_pos hneg] at h
      rw [← Option.some.inj h]
      exact links_frame_refl _ _
    · rw [if_neg hneg] at h
      cases hp : periodic_link fuel
          (ohci.mod_ed e (fun x => { x with branch := branch.toNat })) e with
      | none => rw [hp] at h; exact absurd h (by simp)
      | some o1 =>
        rw [hp] at h
        rw [← Option.some.inj h]
        exact links_frame_trans (links_frame_mod_self ohci e _)
          (periodic_link_links fuel _ o1 e hp)

/-- `ed_schedule (ohci, ed)` rewrites of every other ED at most `ed_next` and
`hwNextED`. -/
theorem ed_schedule_links (fuel : Nat) (ohci : ohci_sched) (e : Nat) (r : Int × ohci_sched)
    (h : ed_schedule fuel ohci e = some r) : links_frame ohci r.2 e := by
  unfold ed_schedule at h
  dsimp only at h
  have hs := ed_schedule_start_links ohci e
  split at h
  · rw [← Option.some.inj h]
    exact links_frame_trans hs (ed_schedule_control_links _ e)
  · split at h
    · rw [← Option.some.inj h]
      exact links_frame_trans hs (ed_schedule_bulk_links _ e)
    · exact links_frame_trans hs (ed_schedule_periodic_links fuel _ e r h)

/-! ## usb_hcd_giveback_urb: frames -/

theorem completed_append (a b : List core_event) :
    completed (a ++ b) = completed a ++ completed b := by
  unfold completed
  exact List.filterMap_append _ _ _

theorem quiet_frame_refl (h : usb_hcd) (u : Nat) : quiet_frame h h u := ⟨rfl, rfl, rfl⟩

theorem quiet_frame_trans {a b c : usb_hcd} {u : Nat} (h1 : quiet_frame a b u)
    (h2 : quiet_frame b c u) : quiet_frame a c u :=
  ⟨h2.state_eq.trans h1.state_eq, h2.completed_eq.trans h1.completed_eq,
    h2.use_eq.trans h1.use_eq⟩

theorem quiet_frame_emit (h : usb_hcd) (ev : core_event) (u : Nat)
    (hev : completed [ev] = []) : quiet_frame h (h.emit ev) u := by
  refine ⟨rfl, ?_, rfl⟩
  rw [emit_trace, completed_append, hev, List.append_nil]

theorem quiet_frame_mod_urb (h : usb_hcd) (u : Nat) (f : urb → urb)
    (hf : (f (h.urbs u)).use_count = (h.urbs u).use_count) : quiet_frame h (h.mod_urb u f) u := by
  refine ⟨rfl, rfl, ?_⟩
  rw [mod_urb_urbs_same]
  exact hf

theorem quiet_frame_of (h h2 : usb_hcd) (u : Nat) (hs : h2.state = h.state)
    (ht : h2.trace = h.trace) (hu : h2.urbs = h.urbs) : quiet_frame h h2 u :=
  ⟨hs, by rw [ht], by rw [hu]⟩

theorem quiet_frame_buffer_free (h : usb_hcd) (size addr dma u : Nat) :
    quiet_frame h (hcd_buffer_free h size addr dma) u := by
  unfold hcd_buffer_free
  split
  · exact quiet_frame_refl _ _
  · split
    · exact quiet_frame_emit _ _ _ rfl
    · split <;> exact quiet_frame_emit _ _ _ rfl

theorem quiet_frame_free_coherent (h : usb_hcd) (dma vaddr size : Nat)
    (d : dma_data_direction) (u : Nat) :
    quiet_frame h (hcd_free_coherent h dma vaddr size d).1 u := by
  unfold hcd_free_coherent
  dsimp only
  refine quiet_frame_trans ?_ (quiet_frame_buffer_free _ _ _ _ _)
  split
  · exact quiet_frame_of _ _ _ rfl rfl rfl
  · exact quiet_frame_refl _ _

theorem quiet_frame_unmap_setup (h : usb_hcd) (u : Nat) :
    quiet_frame h (unmap_urb_setup h u) u := by
  unfold unmap_urb_setup
  split
  · split
    · exact quiet_frame_emit _ _ _ rfl
    · split
      · exact quiet_frame_trans (quiet_frame_free_coherent _ _ _ _ _ _)
          (quiet_frame_mod_urb _ _ _ rfl)
      · exact quiet_frame_refl _ _
  · exact quiet_frame_refl _ _

theorem quiet_frame_unmap_buffer (h : usb_hcd) (u : Nat) :
    quiet_frame h (unmap_urb_buffer h u) u := by
  unfold unmap_urb_buffer
  split
  · split
    · exact quiet_frame_emit _ _ _ rfl
    · split
      · exact quiet_frame_trans (quiet_frame_free_coherent _ _ _ _ _ _)
          (quiet_frame_mod_urb _ _ _ rfl)
      · exact quiet_frame_refl _ _
  · exact quiet_frame_refl _ _

theorem quiet_frame_unmap (h : usb_hcd) (u : Nat) :
    quiet_frame h (unmap_urb_for_dma h u) u := by
  unfold unmap_urb_for_dma
  split
  · exact quiet_frame_refl _ _
  · exact quiet_frame_trans (quiet_frame_unmap_setup _ _) (quiet_frame_unmap_buffer _ _)

theorem quiet_frame_put (h : usb_hcd) (u : Nat) : quiet_frame h (usb_put_urb h u) u := by
  unfold usb_put_urb
  dsimp only
  split
  · exact quiet_frame_trans (quiet_frame_mod_urb _ _ _ rfl) (quiet_frame_emit _ _ _ rfl)
  · exact quiet_frame_mod_urb _ _ _ rfl

theorem core_frame_put (h : usb_hcd) (u : Nat) : core_frame h (usb_put_urb h u) u := by
  unfold usb_put_urb
  dsimp only
  split
  · exact core_frame_trans (core_frame_mod_urb _ _ _ ⟨rfl, rfl, rfl, rfl⟩)
      (core_frame_emit _ _ _)
  · exact core_frame_mod_urb _ _ _ ⟨rfl, rfl, rfl, rfl⟩

theorem quiet_frame_anchor_del (h : usb_hcd) (a v u : Nat) :
    quiet_frame h (h.anchor_del a v) u := quiet_frame_of _ _ _ rfl rfl rfl

theorem core_frame_anchor_del (h : usb_hcd) (a v u : Nat) :
    core_frame h (h.anchor_del a v) u := core_frame_of_urbs _ _ _ rfl rfl rfl

theorem quiet_frame_unanchor (h : usb_hcd) (u : Nat) :
    quiet_frame h (usb_unanchor_urb h u) u := by
  unfold usb_unanchor_urb
  split
  · exact quiet_frame_refl _ _
  · dsimp only
    rename_i a _
    have h12 : quiet_frame h (usb_put_urb
        ((h.mod_urb u (fun x => { x with anchor := none })).anchor_del a u) u) u :=
      quiet_frame_trans (quiet_frame_trans
        (quiet_frame_mod_urb h u (fun x => { x with anchor := none }) rfl)
        (quiet_frame_anchor_del _ a u u)) (quiet_frame_put _ u)
    split
    · exact quiet_frame_trans h12 (quiet_frame_emit _ _ _ rfl)
    · exact h12

theorem core_frame_unanchor (h : usb_hcd) (u : Nat) :
    core_frame h (usb_unanchor_urb h u) u := by
  unfold usb_unanchor_urb
  split
  · exact core_frame_refl _ _
  · dsimp only
    rename_i a _
    have h12 : core_frame h (usb_put_urb
        ((h.mod_urb u (fun x => { x with anchor := none })).anchor_del a u) u) u :=
      core_frame_trans (core_frame_trans
        (core_frame_mod_urb h u (fun x => { x with anchor := none }) ⟨rfl, rfl, rfl, rfl⟩)
        (core_frame_anchor_del _ a u u)) (core_frame_put _ u)
    split
    · exact core_frame_trans h12 (core_frame_emit _ _ _)
    · exact h12

/-- What `usb_hcd_giveback_urb (hcd, urb, status)` leaves alone: the controller state,
the endpoint queues, the devices, the other URBs, and of the URB its endpoint, device,
unlink status and reject count. -/
theorem usb_hcd_giveback_urb_frame (h : usb_hcd) (u : Nat) (status : Int) :
    core_frame h (usb_hcd_giveback_urb h u status) u ∧
    (usb_hcd_giveback_urb h u status).state = h.state := by
  unfold usb_hcd_giveback_urb
  dsimp only
  generalize giveback_status ((h.mod_urb u (fun x => { x with hcpriv := none })).urbs u) status
    = st
  have c1 : core_frame h (h.mod_urb u (fun x => { x with hcpriv := none })) u :=
    core_frame_mod_urb _ _ _ ⟨rfl, rfl, rfl, rfl⟩
  have q1 : (h.mod_urb u (fun x => { x with hcpriv := none })).state = h.state := rfl
  generalize h.mod_urb u (fun x => { x with hcpriv := none }) = h1 at c1 q1 ⊢
  have c3 : core_frame h (usb_unanchor_urb (unmap_urb_for_dma h1 u) u) u :=
    core_frame_trans c1 (core_frame_trans (unmap_urb_for_dma_frame h1 u).1
      (core_frame_unanchor _ u))
  have q3 : (usb_unanchor_urb (unmap_urb_for_dma h1 u) u).state = h.state := by
    rw [(quiet_frame_unanchor _ u).state_eq, (quiet_frame_unmap h1 u).state_eq, q1]
  generalize usb_unanchor_urb (unmap_urb_for_dma h1 u) u = h3 at c3 q3 ⊢
  have c5 : core_frame h ((h3.mod_urb u (fun x => { x with status := st })).emit
      (.complete u ((h3.mod_urb u (fun x => { x with status := st })).urbs u))) u :=
    core_frame_trans c3 (core_frame_trans (core_frame_mod_urb _ _ _ ⟨rfl, rfl, rfl, rfl⟩)
      (core_frame_emit _ _ _))
  have q5 : ((h3.mod_urb u (fun x => { x with status := st })).emit
      (.complete u ((h3.mod_urb u (fun x => { x with status := st })).urbs u))).state
      = h.state := q3
  generalize (h3.mod_urb u (fun x => { x with status := st })).emit
      (.complete u ((h3.mod_urb u (fun x => { x with status := st })).urbs u)) = h5 at c5 q5 ⊢
  have c6 : core_frame h (h5.mod_urb u (fun x => { x with use_count := x.use_count - 1 })) u :=
    core_frame_trans c5 (core_frame_mod_urb _ _ _ ⟨rfl, rfl, rfl, rfl⟩)
  have q6 : (h5.mod_urb u (fun x => { x with use_count := x.use_count - 1 })).state
      = h.state := q5
  generalize h5.mod_urb u (fun x => { x with use_count := x.use_count - 1 }) = h6 at c6 q6 ⊢
  refine ⟨core_frame_trans ?_ (core_frame_put _ u), ?_⟩
  · split
    · exact core_frame_trans c6 (core_frame_emit _ _ _)
    · exact c6
  · rw [(quiet_frame_put _ u).state_eq]
    split
    · exact q6
    · exact q6

/-- `usb_hcd_giveback_urb (hcd, urb, status)` invokes exactly one completion callback,
that of the URB, with the settled status in `urb->status`, and takes one off its use
count. -/
theorem usb_hcd_giveback_urb_once (h : usb_hcd) (u : Nat) (status : Int) :
    completed (usb_hcd_giveback_urb h u status).trace
      = completed h.trace ++ [(u, giveback_status (h.urbs u) status)] ∧
    ((usb_hcd_giveback_urb h u status).urbs u).use_count = (h.urbs u).use_count - 1 := by
  have hst : giveback_status ((h.mod_urb u (fun x => { x with hcpriv := none })).urbs u) status
      = giveback_status (h.urbs u) status := by
    simp [giveback_status]
  unfold usb_hcd_giveback_urb
  dsimp only
  rw [hst]
  generalize giveback_status (h.urbs u) status = st
  have q1 : quiet_frame h (h.mod_urb u (fun x => { x with hcpriv := none })) u :=
    quiet_frame_mod_urb _ _ _ rfl
  generalize h.mod_urb u (fun x => { x with hcpriv := none }) = h1 at q1 ⊢
  have q3 : quiet_frame h (usb_unanchor_urb (unmap_urb_for_dma h1 u) u) u :=
    quiet_frame_trans q1 (quiet_frame_trans (quiet_frame_unmap h1 u) (quiet_frame_unanchor _ u))
  generalize usb_unanchor_urb (unmap_urb_for_dma h1 u) u = h3 at q3 ⊢
  have t5 : completed ((h3.mod_urb u (fun x => { x with status := st })).emit
      (.complete u ((h3.mod_urb u (fun x => { x with status := st })).urbs u))).trace
      = completed h.trace ++ [(u, st)] := by
    rw [emit_trace, completed_append]
    have : (h3.mod_urb u (fun x => { x with status := st })).trace = h3.trace := rfl
    rw [this, q3.completed_eq, mod_urb_urbs_same]
    rfl
  have u5 : (((h3.mod_urb u (fun x => { x with status := st })).emit
      (.complete u ((h3.mod_urb u (fun x => { x with status := st })).urbs u))).urbs u).use_count
      = (h.urbs u).use_count := by
    show ((h3.mod_urb u (fun x => { x with status := st })).urbs u).use_count = _
    rw [mod_urb_urbs_same]
    exact q3.use_eq
  generalize (h3.mod_urb u (fun x => { x with status := st })).emit
      (.complete u ((h3.mod_urb u (fun x => { x with status := st })).urbs u)) = h5 at t5 u5 ⊢
  have t6 : completed (h5.mod_urb u (fun x => { x with use_count := x.use_count - 1 })).trace
      = completed h.trace ++ [(u, st)] := t5
  have u6 : ((h5.mod_urb u (fun x => { x with use_count := x.use_count - 1 })).urbs u).use_count
      = (h.urbs u).use_count - 1 := by
    rw [mod_urb_urbs_same]
    show (h5.urbs u).use_count - 1 = _
    rw [u5]
  generalize h5.mod_urb u (fun x => { x with use_count := x.use_count - 1 }) = h6 at t6 u6 ⊢
  have q7 := quiet_frame_put
    (if (h6.urbs u).reject ≠ 0 then h6.emit .wake_up_kill_queue else h6) u
  rw [q7.completed_eq, q7.use_eq]
  split
  · refine ⟨?_, u6⟩
    rw [emit_trace, completed_append, t6]
    exact List.append_nil _
  · exact ⟨t6, u6⟩

/-! ## finish_unlinks: the EDs that stay on the list -/

theorem ed_kept_refl (a : ohci_hcd) (e : Nat) : ed_kept a a e := ⟨rfl, rfl, rfl, rfl, rfl⟩

theorem ed_kept_trans {a b c : ohci_hcd} {e : Nat} (h1 : ed_kept a b e) (h2 : ed_kept b c e) :
    ed_kept a c e :=
  ⟨h2.1.trans h1.1, h2.2.1.trans h1.2.1, h2.2.2.1.trans h1.2.2.1,
    h2.2.2.2.1.trans h1.2.2.2.1, h2.2.2.2.2.trans h1.2.2.2.2⟩

theorem ed_kept_of (a b : ohci_hcd) (e : Nat) (hs : b.hcd.state = a.hcd.state)
    (he : b.sched.eds e = a.sched.eds e) : ed_kept a b e :=
  ⟨hs, by rw [he], by rw [he], by rw [he], by rw [he]⟩

theorem ed_kept_mod_other (a : ohci_hcd) (x e : Nat) (f : ed → ed) (h : e ≠ x) :
    ed_kept a (a.mod_ed x f) e :=
  ed_kept_of _ _ _ rfl (by simp only [ohci_hcd.mod_ed, ohci_sched.mod_ed, upd_other _ _ _ _ h])

theorem ed_kept_mod_pres (a : ohci_hcd) (x e : Nat) (f : ed → ed)
    (hf : ∀ y, (f y).state = y.state ∧ (f y).hwINFO = y.hwINFO ∧ (f y).hwHeadP = y.hwHeadP ∧
      (f y).tick = y.tick) : ed_kept a (a.mod_ed x f) e := by
  by_cases h : e = x
  · subst h
    obtain ⟨f1, f2, f3, f4⟩ := hf (a.sched.eds e)
    refine ⟨rfl, ?_, ?_, ?_, ?_⟩ <;>
      simp only [ohci_hcd.mod_ed, ohci_sched.mod_ed, upd_same] <;> assumption
  · exact ed_kept_mod_other a x e f h

theorem ed_kept_of_links (a b : ohci_hcd) (x e : Nat) (hs : b.hcd.state = a.hcd.state)
    (hl : links_frame a.sched b.sched x) (h : e ≠ x) : ed_kept a b e := by
  obtain ⟨n, p, hnp⟩ := hl e h
  refine ⟨hs, ?_, ?_, ?_, ?_⟩ <;> rw [hnp]

theorem rmref_set_kept (a : ohci_hcd) (v : Option Nat) (r : rmref) (e : Nat) :
    ed_kept a (r.set a v) e := by
  cases r with
  | head => exact ed_kept_of _ _ _ rfl rfl
  | node x => exact ed_kept_mod_pres a x e _ (fun _ => ⟨rfl, rfl, rfl, rfl⟩)

theorem hwref_set_kept (a : ohci_hcd) (v : Nat) (r : hwref) (x e : Nat)
    (hr : r = .head x ∨ ∃ t, r = .td t) (h : e ≠ x) : ed_kept a (r.set a v) e := by
  rcases hr with hr | ⟨t, hr⟩
  · subst hr
    exact ed_kept_mod_other a x e _ h
  · subst hr
    exact ed_kept_of _ _ _ rfl rfl

theorem finish_unlinks_toggle_kept (a : ohci_hcd) (x t e : Nat) (h : e ≠ x) :
    ed_kept a (finish_unlinks_toggle a x t) e := by
  unfold finish_unlinks_toggle
  dsimp only
  split
  · exact ed_kept_mod_other a x e _ h
  · split
    · exact ed_kept_mod_other a x e _ h
    · exact ed_kept_refl _ _

theorem td_done_kept (a : ohci_hcd) (u t e : Nat) : ed_kept a (td_done a u t).2 e := by
  have h1 : ed_kept a (td_list_del a t) e :=
    ed_kept_mod_pres a _ e _ (fun _ => ⟨rfl, rfl, rfl, rfl⟩)
  unfold td_done
  dsimp only
  split
  · unfold td_done_iso
    dsimp only
    split
    · exact h1
    · exact ed_kept_trans h1 (ed_kept_of _ _ _ rfl rfl)
  · unfold td_done_data
    dsimp only
    split
    · split
      · exact ed_kept_trans h1 (ed_kept_of _ _ _ rfl rfl)
      · exact ed_kept_trans h1 (ed_kept_of _ _ _ rfl rfl)
    · exact h1

theorem tdref_set_outer (o : ohci_hcd) (v : Option Nat) (r : tdref) :
    (r.set o v).sched = o.sched ∧ (r.set o v).hcd = o.hcd := by
  cases r <;> exact ⟨rfl, rfl⟩

theorem td_free_outer (fuel : Nat) (o o2 : ohci_hcd) (t : Nat)
    (h : td_free fuel o t = some o2) : o2.sched = o.sched ∧ o2.hcd = o.hcd := by
  unfold td_free at h
  cases hw : td_free_walk o t fuel (tdref.bucket (TD_HASH_FUNC (o.tds t).td_dma)) with
  | none => rw [hw] at h; exact absurd h (by simp)
  | some prev =>
    rw [hw] at h
    rw [← Option.some.inj h]
    dsimp only
    split
    · exact tdref_set_outer o _ prev
    · exact ⟨rfl, rfl⟩

theorem urb_free_priv_loop_outer (fuel p : Nat) :
    ∀ (n i : Nat) (o o2 : ohci_hcd), urb_free_priv_loop fuel p n i o = some o2 →
      o2.sched = o.sched ∧ o2.hcd = o.hcd := by
  intro n
  induction n with
  | zero =>
    intro i o o2 h
    rw [urb_free_priv_loop] at h
    rw [← Option.some.inj h]
    exact ⟨rfl, rfl⟩
  | succ n ih =>
    intro i o o2 h
    rw [urb_free_priv_loop] at h
    cases ht : (o.privs p).td i with
    | none => rw [ht] at h; exact ih _ _ _ h
    | some t =>
      rw [ht] at h
      dsimp only at h
      cases hf : td_free fuel o t with
      | none => rw [hf] at h; exact absurd h (by simp)
      | some o1 =>
        rw [hf] at h
        obtain ⟨a1, a2⟩ := td_free_outer fuel o o1 t hf
        obtain ⟨b1, b2⟩ := ih _ _ _ h
        exact ⟨b1.trans a1, b2.trans a2⟩

theorem urb_free_priv_outer (fuel : Nat) (o o2 : ohci_hcd) (p : Nat)
    (h : urb_free_priv fuel o p = some o2) : o2.sched = o.sched ∧ o2.hcd = o.hcd := by
  unfold urb_free_priv at h
  cases hl : urb_free_priv_loop fuel p (o.privs p).length 0 o with
  | none => rw [hl] at h; exact absurd h (by simp)
  | some o1 =>
    rw [hl] at h
    rw [← Option.some.inj h]
    exact urb_free_priv_loop_outer fuel p _ _ o o1 hl

theorem finish_urb_reqs_kept (o : ohci_hcd) (u : Nat) :
    (finish_urb_reqs o u).sched = o.sched ∧ (finish_urb_reqs o u).hcd.state = o.hcd.state ∧
    (finish_urb_reqs o u).hcd.urbs = o.hcd.urbs ∧ (finish_urb_reqs o u).hcd.eps = o.hcd.eps ∧
    (finish_urb_reqs o u).hcd.trace = o.hcd.trace := by
  unfold finish_urb_reqs
  split
  · dsimp only
    split <;> exact ⟨rfl, rfl, rfl, rfl, rfl⟩
  · split <;> exact ⟨rfl, rfl, rfl, rfl, rfl⟩

theorem finish_urb_stop_kept (o : ohci_hcd) :
    (finish_urb_stop o).sched.eds = o.sched.eds ∧ (finish_urb_stop o).hcd = o.hcd ∧
    (finish_urb_stop o).sched.ed_rm_list = o.sched.ed_rm_list := by
  unfold finish_urb_stop
  split <;> exact ⟨rfl, rfl, rfl⟩

theorem finish_urb_kept (fuel : Nat) (o o2 : ohci_hcd) (u : Nat) (status : Int) (e : Nat)
    (h : finish_urb fuel o u status = some o2) : ed_kept o o2 e := by
  unfold finish_urb at h
  cases hp : (o.hcd.urbs u).hcpriv with
  | none => rw [hp] at h; exact absurd h (by simp)
  | some p =>
    rw [hp] at h
    dsimp only at h
    cases hf : urb_free_priv fuel o p with
    | none => rw [hf] at h; exact absurd h (by simp)
    | some o1 =>
      rw [hf] at h
      rw [← Option.some.inj h]
      obtain ⟨a1, a2⟩ := urb_free_priv_outer fuel o o1 p hf
      obtain ⟨b1, b2, _, _, _⟩ := finish_urb_reqs_kept o1 u
      obtain ⟨c1, c2, _⟩ := finish_urb_stop_kept
        ({ ({ finish_urb_reqs o1 u with
              hcd := usb_hcd_unlink_urb_from_ep (finish_urb_reqs o1 u).hcd u } : ohci_hcd) with
            hcd := usb_hcd_giveback_urb
              (usb_hcd_unlink_urb_from_ep (finish_urb_reqs o1 u).hcd u) u
              (if status = -EINPROGRESS then 0 else status) } : ohci_hcd)
      refine ed_kept_of _ _ _ ?_ ?_
      · rw [c2]
        show (usb_hcd_giveback_urb _ u _).state = _
        rw [(usb_hcd_giveback_urb_frame _ u _).2]
        show (finish_urb_reqs o1 u).hcd.state = _
        rw [b2, a2]
      · rw [c1]
        show (finish_urb_reqs o1 u).sched.eds e = _
        rw [b1, a1]

theorem finish_unlinks_tds_kept (fuel x e : Nat) (hne : e ≠ x) :
    ∀ (l : List Nat) (o : ohci_hcd) (prev : hwref) (c : Bool) (r : ohci_hcd × Bool),
      (prev = .head x ∨ ∃ t, prev = .td t) →
      finish_unlinks_tds fuel x l o prev c = some r → ed_kept o r.1 e := by
  intro l
  induction l with
  | nil =>
    intro o prev c r _ h
    rw [finish_unlinks_tds] at h
    rw [← Option.some.inj h]
    exact ed_kept_refl _ _
  | cons t rest ih =>
    intro o prev c r hprev h
    rw [finish_unlinks_tds] at h
    dsimp only at h
    by_cases hu : (o.hcd.urbs (o.tds t).urb).unlinked = 0
    · rw [if_pos hu] at h
      exact ih o (.td t) c r (Or.inr ⟨t, rfl⟩) h
    · rw [if_neg hu] at h
      cases hp : (o.hcd.urbs (o.tds t).urb).hcpriv with
      | none => rw [hp] at h; exact absurd h (by simp)
      | some p =>
        rw [hp] at h
        dsimp only at h
        have k1 : ed_kept o (prev.set o
            ((o.tds t).hwNextTD ||| clear_bits (prev.get o) TD_MASK)) e :=
          hwref_set_kept o _ prev x e hprev hne
        generalize prev.set o ((o.tds t).hwNextTD ||| clear_bits (prev.get o) TD_MASK)
          = o1 at k1 h
        have k2 : ed_kept o (finish_unlinks_toggle o1 x t) e :=
          ed_kept_trans k1 (finish_unlinks_toggle_kept o1 x t e hne)
        generalize finish_unlinks_toggle o1 x t = o2 at k2 h
        have k3 : ed_kept o ((td_done o2 (o.tds t).urb t).2.mod_priv p
            (fun y => { y with td_cnt := y.td_cnt + 1 })) e :=
          ed_kept_trans k2 (ed_kept_trans (td_done_kept o2 _ t e) (ed_kept_of _ _ _ rfl rfl))
        generalize (td_done o2 (o.tds t).urb t).2.mod_priv p
            (fun y => { y with td_cnt := y.td_cnt + 1 }) = o3 at k3 h
        by_cases hc : (o3.privs p).td_cnt = (o3.privs p).length
        · rw [if_pos hc] at h
          cases hf : finish_urb fuel o3 (o.tds t).urb 0 with
          | none => rw [hf] at h; exact absurd h (by simp)
          | some o4 =>
            rw [hf] at h
            exact ed_kept_trans (ed_kept_trans k3 (finish_urb_kept fuel o3 o4 _ _ e hf))
              (ih o4 prev true r hprev h)
        · rw [if_neg hc] at h
          exact ed_kept_trans k3 (ih o3 prev c r hprev h)

theorem finish_unlinks_rescan_kept (fuel x e : Nat) (hne : e ≠ x) :
    ∀ (n : Nat) (o : ohci_hcd) (m : Bool) (r : ohci_hcd × Bool),
      finish_unlinks_rescan fuel x n o m = some r → ed_kept o r.1 e := by
  intro n
  induction n with
  | zero => intro o m r h; simp [finish_unlinks_rescan] at h
  | succ n ih =>
    intro o m r h
    rw [finish_unlinks_rescan] at h
    cases ht : finish_unlinks_tds fuel x (o.sched.eds x).td_list o (.head x) false with
    | none => rw [ht] at h; exact absurd h (by simp)
    | some q =>
      rw [ht] at h
      have k1 := finish_unlinks_tds_kept fuel x e hne _ o (.head x) false q (Or.inl rfl) ht
      obtain ⟨o1, completed⟩ := q
      dsimp only at h k1
      split at h
      · exact ed_kept_trans k1 (ih o1 true r h)
      · rw [← Option.some.inj h]
        exact k1

theorem finish_unlinks_idle_kept (o : ohci_hcd) (x e : Nat) (hne : e ≠ x) :
    ed_kept o (finish_unlinks_idle o x) e := by
  unfold finish_unlinks_idle
  have k1 : ed_kept o (o.mod_ed x (fun y => { y with state := ED_IDLE })) e :=
    ed_kept_mod_other o x e _ hne
  dsimp only
  generalize o.mod_ed x (fun y => { y with state := ED_IDLE }) = o1 at k1 ⊢
  have k2 : ed_kept o
      (if quirk_zfmicro o1.sched ∧ (o1.sched.eds x).type = PIPE_INTERRUPT then
        ({ o1 with sched := { o1.sched with
            eds_scheduled := wrap32 ((o1.sched.eds_scheduled : Int) - 1) } } : ohci_hcd)
      else o1) e := by
    split
    · exact ed_kept_trans k1 (ed_kept_of _ _ _ rfl rfl)
    · exact k1
  generalize (if quirk_zfmicro o1.sched ∧ (o1.sched.eds x).type = PIPE_INTERRUPT then
        ({ o1 with sched := { o1.sched with
            eds_scheduled := wrap32 ((o1.sched.eds_scheduled : Int) - 1) } } : ohci_hcd)
      else o1) = o2 at k2 ⊢
  exact ed_kept_trans k2 (ed_kept_trans (ed_kept_mod_other o2 x e _ hne)
    (ed_kept_mod_other _ x e _ hne))

theorem finish_unlinks_ed_kept (fuel : Nat) (o : ohci_hcd) (last : rmref) (x e : Nat)
    (hne : e ≠ x) (r : ohci_hcd × Bool) (h : finish_unlinks_ed fuel o last x = some r) :
    ed_kept o r.1 e := by
  unfold finish_unlinks_ed at h
  dsimp only at h
  have k2 : ed_kept o ((last.set o (o.sched.eds x).ed_next).mod_ed x
      (fun y => { y with ed_next := none })) e :=
    ed_kept_trans (rmref_set_kept o _ last e) (ed_kept_mod_other _ x e _ hne)
  generalize (last.set o (o.sched.eds x).ed_next).mod_ed x
      (fun y => { y with ed_next := none }) = o2 at k2 h
  cases hr : finish_unlinks_rescan fuel x fuel o2 false with
  | none => rw [hr] at h; exact absurd h (by simp)
  | some q =>
    rw [hr] at h
    have k3 := finish_unlinks_rescan_kept fuel x e hne fuel o2 false q hr
    obtain ⟨o3, modified⟩ := q
    dsimp only at h k3
    have k4 : ed_kept o (finish_unlinks_idle o3 x) e :=
      ed_kept_trans k2 (ed_kept_trans k3 (finish_unlinks_idle_kept o3 x e hne))
    generalize finish_unlinks_idle o3 x = o4 at k4 h
    split at h
    · cases hs : ed_schedule fuel o4.sched x with
      | none => rw [hs] at h; exact absurd h (by simp)
      | some s =>
        rw [hs] at h
        rw [← Option.some.inj h]
        exact ed_kept_trans k4
          (ed_kept_of_links o4 _ x e rfl (ed_schedule_links fuel o4.sched x s hs) hne)
    · rw [← Option.some.inj h]
      exact k4

theorem finish_unlinks_gate_kept (o : ohci_hcd) (tick x e : Nat) :
    ed_kept o (finish_unlinks_gate o tick x).2 e := by
  unfold finish_unlinks_gate
  split
  · split
    · exact ed_kept_refl _ _
    · split
      · exact ed_kept_refl _ _
      · split
        · split
          · exact ed_kept_of _ _ _ rfl rfl
          · exact ed_kept_refl _ _
        · exact ed_kept_refl _ _
  · exact ed_kept_refl _ _

theorem finish_unlinks_gate_skips (o : ohci_hcd) (tick e : Nat)
    (hrun : HC_IS_RUNNING o.hcd.state = true)
    (htick : tick_before tick (o.sched.eds e).tick = true) :
    (finish_unlinks_gate o tick e).1 = true := by
  unfold finish_unlinks_gate
  rw [if_pos hrun, if_pos htick]

theorem finish_unlinks_loop_kept (fuel tick e : Nat) :
    ∀ (n : Nat) (o : ohci_hcd) (last : rmref) (o2 : ohci_hcd),
      HC_IS_RUNNING o.hcd.state = true → tick_before tick (o.sched.eds e).tick = true →
      finish_unlinks_loop fuel tick n o last = some o2 → ed_kept o o2 e := by
  intro n
  induction n with
  | zero => intro o last o2 _ _ h; simp [finish_unlinks_loop] at h
  | succ n ih =>
    intro o last o2 hrun htick h
    rw [finish_unlinks_loop] at h
    cases hl : last.get o with
    | none =>
      rw [hl] at h
      rw [← Option.some.inj h]
      exact ed_kept_refl _ _
    | some x =>
      rw [hl] at h
      dsimp only at h
      have kg := finish_unlinks_gate_kept o tick x e
      have hrun2 : HC_IS_RUNNING (finish_unlinks_gate o tick x).2.hcd.state = true := by
        rw [kg.1]; exact hrun
      have htick2 : tick_before tick ((finish_unlinks_gate o tick x).2.sched.eds e).tick
          = true := by
        rw [kg.2.2.2.2]; exact htick
      by_cases hg : (finish_unlinks_gate o tick x).1 = true
      · rw [if_pos hg] at h
        exact ed_kept_trans kg (ih _ _ o2 hrun2 htick2 h)
      · rw [if_neg hg] at h
        have hne : e ≠ x := by
          rintro rfl
          exact hg (finish_unlinks_gate_skips o tick e hrun htick)
        cases hf : finish_unlinks_ed fuel (finish_unlinks_gate o tick x).2 last x with
        | none => rw [hf] at h; exact absurd h (by simp)
        | some q =>
          rw [hf] at h
          have k1 := finish_unlinks_ed_kept fuel _ last x e hne q hf
          obtain ⟨o1, modified⟩ := q
          dsimp only at h k1
          have hrun3 : HC_IS_RUNNING o1.hcd.state = true := by rw [k1.1]; exact hrun2
          have htick3 : tick_before tick (o1.sched.eds e).tick = true := by
            rw [k1.2.2.2.2]; exact htick2
          split at h
          · exact ed_kept_trans kg (ed_kept_trans k1 (ih _ _ o2 hrun3 htick3 h))
          · exact ed_kept_trans kg (ed_kept_trans k1 (ih _ _ o2 hrun3 htick3 h))

theorem finish_unlinks_restart_kept (o : ohci_hcd) (e : Nat) :
    ed_kept o (finish_unlinks_restart o) e ∧
    (finish_unlinks_restart o).sched.eds = o.sched.eds ∧
    (finish_unlinks_restart o).sched.ed_rm_list = o.sched.ed_rm_list := by
  unfold finish_unlinks_restart
  split
  · dsimp only
    split <;> split <;> split <;> split <;>
      exact ⟨ed_kept_of _ _ _ rfl rfl, rfl, rfl⟩
  · exact ⟨ed_kept_refl _ _, rfl, rfl⟩

/-! ## ed_schedule: the EDs outside the schedules -/

theorem outside_same_refl (s : ohci_sched) (Q : Nat → Prop) : outside_same s s Q :=
  ⟨rfl, fun _ _ => rfl⟩

theorem outside_same_trans {a b c : ohci_sched} {Q : Nat → Prop}
    (h1 : outside_same a b Q) (h2 : outside_same b c Q) : outside_same a c Q :=
  ⟨h2.1.trans h1.1, fun y hy => (h2.2 y hy).trans (h1.2 y hy)⟩

theorem sched_closed_of (s s2 : ohci_sched) (Q : Nat → Prop) (h : sched_closed s Q)
    (h1 : s2.ed_controltail = s.ed_controltail) (h2 : s2.ed_bulktail = s.ed_bulktail)
    (h3 : s2.periodic = s.periodic) (h4 : ∀ y, (s2.eds y).ed_next = (s.eds y).ed_next) :
    sched_closed s2 Q := by
  obtain ⟨c1, c2, c3, c4⟩ := h
  refine ⟨?_, ?_, ?_, ?_⟩
  · rw [h1]; exact c1
  · rw [h2]; exact c2
  · rw [h3]; exact c3
  · intro x y hx hy
    rw [h4] at hy
    exact c4 x y hx hy

theorem sched_closed_mod (s : ohci_sched) (Q : Nat → Prop) (x : Nat) (f : ed → ed)
    (h : sched_closed s Q) (hx : Q x)
    (hf : ∀ y, (f (s.eds x)).ed_next = some y → Q y) :
    sched_closed (s.mod_ed x f) Q ∧ outside_same s (s.mod_ed x f) Q := by
  obtain ⟨c1, c2, c3, c4⟩ := h
  refine ⟨⟨c1, c2, c3, ?_⟩, rfl, ?_⟩
  · intro a y ha hy
    by_cases hax : a = x
    · subst hax
      simp only [ohci_sched.mod_ed, upd_same] at hy
      exact hf y hy
    · simp only [ohci_sched.mod_ed, upd_other _ _ _ _ hax] at hy
      exact c4 a y ha hy
  · intro y hy
    have hyx : y ≠ x := fun e => hy (e ▸ hx)
    simp only [ohci_sched.mod_ed, upd_other _ _ _ _ hyx]

theorem edref_set_closed (s : ohci_sched) (Q : Nat → Prop) (e : Nat) (r : edref)
    (h : sched_closed s Q) (he : Q e) (hr : edref_in Q r) :
    sched_closed (r.set s (some e)) Q ∧ outside_same s (r.set s (some e)) Q := by
  cases r with
  | slot i =>
    obtain ⟨c1, c2, c3, c4⟩ := h
    refine ⟨⟨c1, c2, ?_, c4⟩, rfl, fun _ _ => rfl⟩
    intro j t hj
    by_cases hji : j = i
    · subst hji
      simp only [edref.set, upd_same] at hj
      exact (Option.some.inj hj) ▸ he
    · simp only [edref.set, upd_other _ _ _ _ hji] at hj
      exact c3 j t hj
  | node x =>
    refine sched_closed_mod s Q x _ h hr ?_
    intro y hy
    exact (Option.some.inj hy) ▸ he

theorem edref_set_p_closed (s : ohci_sched) (Q : Nat → Prop) (v : Nat) (r : edref)
    (h : sched_closed s Q) (hr : edref_in Q r) :
    sched_closed (r.set_p s v) Q ∧ outside_same s (r.set_p s v) Q := by
  cases r with
  | slot i => exact ⟨sched_closed_of s _ Q h rfl rfl rfl (fun _ => rfl), rfl, fun _ _ => rfl⟩
  | node x =>
    refine sched_closed_mod s Q x _ h hr ?_
    intro y hy
    exact h.2.2.2 x y hr hy

theorem periodic_link_walk_closed (s : ohci_sched) (Q : Nat → Prop) (e : Nat)
    (h : sched_closed s Q) :
    ∀ (fuel : Nat) (prev : edref) (here : Option Nat) (r : edref × Option Nat),
      edref_in Q prev → (∀ y, here = some y → Q y) →
      periodic_link_walk s e fuel prev here = some r →
      edref_in Q r.1 ∧ ∀ y, r.2 = some y → Q y := by
  intro fuel
  induction fuel with
  | zero => intro prev here r _ _ hw; simp [periodic_link_walk] at hw
  | succ n ih =>
    intro prev here r hp hh hw
    cases here with
    | none =>
      simp only [periodic_link_walk] at hw
      rw [← Option.some.inj hw]
      exact ⟨hp, hh⟩
    | some x =>
      simp only [periodic_link_walk] at hw
      split at hw
      · rw [← Option.some.inj hw]
        exact ⟨hp, hh⟩
      · split at hw
        · rw [← Option.some.inj hw]
          exact ⟨hp, hh⟩
        · exact ih (.node x) _ r (hh x rfl) (fun y hy => h.2.2.2 x y (hh x rfl) hy) hw

theorem periodic_link_insert_closed (s : ohci_sched) (Q : Nat → Prop) (e : Nat)
    (prev : edref) (here : Option Nat) (h : sched_closed s Q) (he : Q e)
    (hp : edref_in Q prev) (hh : ∀ y, here = some y → Q y) :
    sched_closed (periodic_link_insert s e prev here) Q ∧
    outside_same s (periodic_link_insert s e prev here) Q := by
  unfold periodic_link_insert
  split
  · dsimp only
    have k1 := sched_closed_mod s Q e (fun x => { x with ed_next := here }) h he hh
    generalize s.mod_ed e (fun x => { x with ed_next := here }) = o1 at k1 ⊢
    have k2 : sched_closed
        (if here.isSome then o1.mod_ed e (fun x => { x with hwNextED := prev.get_p o1 })
          else o1) Q ∧
        outside_same s
          (if here.isSome then o1.mod_ed e (fun x => { x with hwNextED := prev.get_p o1 })
            else o1) Q := by
      split
      · have k := sched_closed_mod o1 Q e (fun x => { x with hwNextED := prev.get_p o1 })
          k1.1 he (fun y hy => k1.1.2.2.2 e y he hy)
        exact ⟨k.1, outside_same_trans k1.2 k.2⟩
      · exact k1
    generalize (if here.isSome then o1.mod_ed e (fun x => { x with hwNextED := prev.get_p o1 })
          else o1) = o2 at k2 ⊢
    have k3 := edref_set_closed o2 Q e prev k2.1 he hp
    have k3b := outside_same_trans k2.2 k3.2
    generalize prev.set o2 (some e) = o3 at k3 k3b ⊢
    have k4 := edref_set_p_closed o3 Q (o3.eds e).dma prev k3.1 hp
    exact ⟨k4.1, outside_same_trans k3b k4.2⟩
  · exact ⟨h, outside_same_refl _ _⟩

theorem periodic_link_slot_closed (fuel : Nat) (s s2 : ohci_sched) (Q : Nat → Prop)
    (e i : Nat) (h : sched_closed s Q) (he : Q e)
    (hs : periodic_link_slot fuel s e i = some s2) :
    sched_closed s2 Q ∧ outside_same s s2 Q := by
  unfold periodic_link_slot at hs
  cases hw : periodic_link_walk s e fuel (.slot i) (s.periodic i) with
  | none => rw [hw] at hs; exact absurd hs (by simp)
  | some r =>
    rw [hw] at hs
    obtain ⟨prev, here⟩ := r
    obtain ⟨w1, w2⟩ := periodic_link_walk_closed s Q e h fuel (.slot i) (s.periodic i)
      (prev, here) trivial (fun y hy => h.2.2.1 i y hy) hw
    dsimp only at hs w1 w2
    rw [← Option.some.inj hs]
    have k := periodic_link_insert_closed s Q e prev here h he w1 w2
    exact ⟨sched_closed_of _ _ Q k.1 rfl rfl rfl (fun _ => rfl), k.2⟩

theorem periodic_link_loop_closed (fuel : Nat) (Q : Nat → Prop) (e : Nat) (he : Q e) :
    ∀ (n : Nat) (s : ohci_sched) (i : Nat) (s2 : ohci_sched), sched_closed s Q →
      periodic_link_loop fuel e n s i = some s2 →
      sched_closed s2 Q ∧ outside_same s s2 Q := by
  intro n
  induction n with
  | zero => intro s i s2 _ hl; simp [periodic_link_loop] at hl
  | succ n ih =>
    intro s i s2 h hl
    rw [periodic_link_loop] at hl
    split at hl
    · cases hs : periodic_link_slot fuel s e i with
      | none => rw [hs] at hl; exact absurd hl (by simp)
      | some o1 =>
        rw [hs] at hl
        have k1 := periodic_link_slot_closed fuel s o1 Q e i h he hs
        have k2 := ih o1 _ s2 k1.1 hl
        exact ⟨k2.1, outside_same_trans k1.2 k2.2⟩
    · rw [← Option.some.inj hl]
      exact ⟨h, outside_same_refl _ _⟩

theorem periodic_link_closed (fuel : Nat) (s s2 : ohci_sched) (Q : Nat → Prop) (e : Nat)
    (h : sched_closed s Q) (he : Q e) (hl : periodic_link fuel s e = some s2) :
    sched_closed s2 Q ∧ outside_same s s2 Q := by
  unfold periodic_link at hl
  cases hp : periodic_link_loop fuel e (NUM_INTS + 1) s (s.eds e).branch with
  | none => rw [hp] at hl; exact absurd hl (by simp)
  | some o1 =>
    rw [hp] at hl
    rw [← Option.some.inj hl]
    have k := periodic_link_loop_closed fuel Q e he _ s _ o1 h hp
    exact ⟨sched_closed_of _ _ Q k.1 rfl rfl rfl (fun _ => rfl), k.2⟩

theorem ed_schedule_start_closed (s : ohci_sched) (Q : Nat → Prop) (e : Nat)
    (h : sched_closed s Q) (he : Q e) :
    sched_closed (ed_schedule_start s e) Q ∧ outside_same s (ed_schedule_start s e) Q := by
  unfold ed_schedule_start
  dsimp only
  have k := sched_closed_mod s Q e
    (fun x => { x with state := ED_OPER, ed_prev := none, ed_next := none, hwNextED := 0 })
    h he (fun y hy => absurd hy (by simp))
  split
  · exact ⟨sched_closed_of _ _ Q k.1 rfl rfl rfl (fun _ => rfl), k.2.1, k.2.2⟩
  · exact k

theorem sched_closed_tails (s s2 : ohci_sched) (Q : Nat → Prop) (h : sched_closed s Q)
    (h1 : ∀ t, s2.ed_controltail = some t → Q t) (h2 : ∀ t, s2.ed_bulktail = some t → Q t)
    (h3 : s2.periodic = s.periodic) (h4 : s2.eds = s.eds) : sched_closed s2 Q := by
  refine ⟨h1, h2, ?_, ?_⟩
  · rw [h3]; exact h.2.2.1
  · rw [h4]; exact h.2.2.2

theorem ed_schedule_first_closed (s : ohci_sched) (Q : Nat → Prop) (e v : Nat)
    (r : ohci_reg) (h : sched_closed s Q) (he : Q e) :
    sched_closed ((ohci_writel s v r).mod_ed e (fun x => { x with ed_prev := none })) Q ∧
    outside_same s ((ohci_writel s v r).mod_ed e (fun x => { x with ed_prev := none })) Q := by
  have k0 : sched_closed (ohci_writel s v r) Q :=
    sched_closed_of _ _ Q h rfl rfl rfl (fun _ => rfl)
  have k := sched_closed_mod (ohci_writel s v r) Q e
    (fun x => { x with ed_prev := none }) k0 he (fun y hy => k0.2.2.2 e y he hy)
  exact ⟨k.1, k.2.1, k.2.2⟩

theorem ed_schedule_append_closed (s : ohci_sched) (Q : Nat → Prop) (e t v : Nat)
    (h : sched_closed s Q) (he : Q e) (ht : Q t) :
    sched_closed
      (((s.mod_ed t (fun x => { x with ed_next := some e })).mod_ed t
          (fun x => { x with hwNextED := v })).mod_ed e
        (fun x => { x with ed_prev := some t })) Q ∧
    outside_same s
      (((s.mod_ed t (fun x => { x with ed_next := some e })).mod_ed t
          (fun x => { x with hwNextED := v })).mod_ed e
        (fun x => { x with ed_prev := some t })) Q := by
  have k1 := sched_closed_mod s Q t (fun x => { x with ed_next := some e }) h ht
    (fun y hy => (Option.some.inj hy) ▸ he)
  generalize s.mod_ed t (fun x => { x with ed_next := some e }) = o1 at k1 ⊢
  have k2 := sched_closed_mod o1 Q t (fun x => { x with hwNextED := v }) k1.1
    ht (fun y hy => k1.1.2.2.2 t y ht hy)
  have k2b := outside_same_trans k1.2 k2.2
  generalize o1.mod_ed t (fun x => { x with hwNextED := v }) = o2 at k2 k2b ⊢
  have k3 := sched_closed_mod o2 Q e (fun x => { x with ed_prev := some t }) k2.1 he
    (fun y hy => k2.1.2.2.2 e y he hy)
  exact ⟨k3.1, outside_same_trans k2b k3.2⟩

theorem ed_schedule_control_closed (s : ohci_sched) (Q : Nat → Prop) (e : Nat)
    (h : sched_closed s Q) (he : Q e) :
    sched_closed (ed_schedule_control s e) Q ∧ outside_same s (ed_schedule_control s e) Q := by
  unfold ed_schedule_control
  have hc := h.1
  cases htl : s.ed_controltail with
  | none =>
    dsimp only
    have k := ed_schedule_first_closed s Q e (s.eds e).dma .ed_controlhead h he
    generalize (ohci_writel s (s.eds e).dma .ed_controlhead).mod_ed e
      (fun x => { x with ed_prev := none }) = o2 at k ⊢
    split
    · exact ⟨sched_closed_tails o2 _ Q k.1 (fun t ht => (Option.some.inj ht) ▸ he) k.1.2.1
        rfl rfl, k.2.1, k.2.2⟩
    · exact ⟨sched_closed_tails o2 _ Q k.1 (fun t ht => (Option.some.inj ht) ▸ he) k.1.2.1
        rfl rfl, k.2.1, k.2.2⟩
  | some t =>
    dsimp only
    have k := ed_schedule_append_closed s Q e t (s.eds e).dma h he (hc t htl)
    generalize ((s.mod_ed t (fun x => { x with ed_next := some e })).mod_ed t
          (fun x => { x with hwNextED := (s.eds e).dma })).mod_ed e
        (fun x => { x with ed_prev := some t }) = o2 at k ⊢
    split
    · exact ⟨sched_closed_tails o2 _ Q k.1 (fun t ht => (Option.some.inj ht) ▸ he) k.1.2.1
        rfl rfl, k.2.1, k.2.2⟩
    · exact ⟨sched_closed_tails o2 _ Q k.1 (fun t ht => (Option.some.inj ht) ▸ he) k.1.2.1
        rfl rfl, k.2.1, k.2.2⟩

theorem ed_schedule_bulk_closed (s : ohci_sched) (Q : Nat → Prop) (e : Nat)
    (h : sched_closed s Q) (he : Q e) :
    sched_closed (ed_schedule_bulk s e) Q ∧ outside_same s (ed_schedule_bulk s e) Q := by
  unfold ed_schedule_bulk
  have hc := h.2.1
  cases htl : s.ed_bulktail with
  | none =>
    dsimp only
    have k := ed_schedule_first_closed s Q e (s.eds e).dma .ed_bulkhead h he
    generalize (ohci_writel s (s.eds e).dma .ed_bulkhead).mod_ed e
      (fun x => { x with ed_prev := none }) = o2 at k ⊢
    split
    · exact ⟨sched_closed_tails o2 _ Q k.1 k.1.1 (fun t ht => (Option.some.inj ht) ▸ he)
        rfl rfl, k.2.1, k.2.2⟩
    · exact ⟨sched_closed_tails o2 _ Q k.1 k.1.1 (fun t ht => (Option.some.inj ht) ▸ he)
        rfl rfl, k.2.1, k.2.2⟩
  | some t =>
    dsimp only
    have k := ed_schedule_append_closed s Q e t (s.eds e).dma h he (hc t htl)
    generalize ((s.mod_ed t (fun x => { x with ed_next := some e })).mod_ed t
          (fun x => { x with hwNextED := (s.eds e).dma })).mod_ed e
        (fun x => { x with ed_prev := some t }) = o2 at k ⊢
    split
    · exact ⟨sched_closed_tails o2 _ Q k.1 k.1.1 (fun t ht => (Option.some.inj ht) ▸ he)
        rfl rfl, k.2.1, k.2.2⟩
    · exact ⟨sched_closed_tails o2 _ Q k.1 k.1.1 (fun t ht => (Option.some.inj ht) ▸ he)
        rfl rfl, k.2.1, k.2.2⟩

theorem ed_schedule_periodic_closed (fuel : Nat) (s : ohci_sched) (Q : Nat → Prop) (e : Nat)
    (r : Int × ohci_sched) (h : sched_closed s Q) (he : Q e)
    (hs : ed_schedule_periodic fuel s e = some r) :
    sched_closed r.2 Q ∧ outside_same s r.2 Q := by
  unfold ed_schedule_periodic at hs
  cases hb : balance s.load (s.eds e).interval (s.eds e).load with
  | none => rw [hb] at hs; exact absurd hs (by simp)
  | some branch =>
    rw [hb] at hs
    dsimp only at hs
    split at hs
    · rw [← Option.some.inj hs]
      exact ⟨h, outside_same_refl _ _⟩
    · have k1 := sched_closed_mod s Q e (fun x => { x with branch := branch.toNat }) h he
        (fun y hy => h.2.2.2 e y he hy)
      cases hp : periodic_link fuel
          (s.mod_ed e (fun x => { x with branch := branch.toNat })) e with
      | none => rw [hp] at hs; exact absurd hs (by simp)
      | some o1 =>
        rw [hp] at hs
        rw [← Option.some.inj hs]
        have k2 := periodic_link_closed fuel _ o1 Q e k1.1 he hp
        exact ⟨k2.1, outside_same_trans k1.2 k2.2⟩

theorem ed_schedule_closed (fuel : Nat) (s : ohci_sched) (Q : Nat → Prop) (e : Nat)
    (r : Int × ohci_sched) (h : sched_closed s Q) (he : Q e)
    (hs : ed_schedule fuel s e = some r) :
    sched_closed r.2 Q ∧ outside_same s r.2 Q := by
  unfold ed_schedule at hs
  dsimp only at hs
  have k1 := ed_schedule_start_closed s Q e h he
  generalize ed_schedule_start s e = o1 at k1 hs
  split at hs
  · rw [← Option.some.inj hs]
    have k2 := ed_schedule_control_closed o1 Q e k1.1 he
    exact ⟨k2.1, outside_same_trans k1.2 k2.2⟩
  · split at hs
    · rw [← Option.some.inj hs]
      have k2 := ed_schedule_bulk_closed o1 Q e k1.1 he
      exact ⟨k2.1, outside_same_trans k1.2 k2.2⟩
    · have k2 := ed_schedule_periodic_closed fuel o1 Q e r k1.1 he hs
      exact ⟨k2.1, outside_same_trans k1.2 k2.2⟩

/-! ## finish_unlinks: the chain of ed_rm_list -/

theorem ed_path_congr (s s2 : ohci_sched) :
    ∀ (L : List Nat) (a b : Option Nat),
      (∀ x, x ∈ L → (s2.eds x).ed_next = (s.eds x).ed_next) →
      ed_path s a L b → ed_path s2 a L b := by
  intro L
  induction L with
  | nil => intro a b _ h; exact h
  | cons x rest ih =>
    intro a b hx h
    refine ⟨h.1, ?_⟩
    rw [hx x (List.mem_cons_self _ _)]
    exact ih _ _ (fun y hy => hx y (List.mem_cons_of_mem _ hy)) h.2

theorem ed_path_append (s : ohci_sched) :
    ∀ (P R : List Nat) (a c : Option Nat),
      ed_path s a (P ++ R) c ↔ ∃ b, ed_path s a P b ∧ ed_path s b R c := by
  intro P
  induction P with
  | nil =>
    intro R a c
    constructor
    · intro h
      exact ⟨a, rfl, h⟩
    · rintro ⟨b, h1, h2⟩
      have hab : a = b := h1
      rw [hab]
      exact h2
  | cons x rest ih =>
    intro R a c
    constructor
    · intro h
      obtain ⟨b, h1, h2⟩ := (ih R _ c).1 h.2
      exact ⟨b, ⟨h.1, h1⟩, h2⟩
    · rintro ⟨b, h1, h2⟩
      exact ⟨h1.1, (ih R _ c).2 ⟨b, h1.2, h2⟩⟩

theorem ed_path_cursor (o : ohci_hcd) (Prev R : List Nat)
    (h : on_rm_list o.sched (Prev.reverse ++ R)) :
    ed_path o.sched ((rm_cursor Prev).get o) R none := by
  obtain ⟨b, h1, h2⟩ := (ed_path_append o.sched _ _ _ _).1 h
  cases Prev with
  | nil =>
    have hb : o.sched.ed_rm_list = b := h1
    show ed_path o.sched o.sched.ed_rm_list R none
    rw [hb]
    exact h2
  | cons p Pr =>
    rw [List.reverse_cons] at h1
    obtain ⟨b2, _, h4⟩ := (ed_path_append o.sched _ _ _ _).1 h1
    have hb : (o.sched.eds p).ed_next = b := h4.2
    show ed_path o.sched (o.sched.eds p).ed_next R none
    rw [hb]
    exact h2

theorem next_same_refl (a : ohci_hcd) : next_same a a := ⟨rfl, rfl, rfl, rfl, fun _ => rfl⟩

theorem next_same_trans {a b c : ohci_hcd} (h1 : next_same a b) (h2 : next_same b c) :
    next_same a c :=
  ⟨h2.1.trans h1.1, h2.2.1.trans h1.2.1, h2.2.2.1.trans h1.2.2.1,
    h2.2.2.2.1.trans h1.2.2.2.1, fun y => (h2.2.2.2.2 y).trans (h1.2.2.2.2 y)⟩

theorem next_same_of (a b : ohci_hcd) (h : b.sched = a.sched) : next_same a b := by
  refine ⟨?_, ?_, ?_, ?_, fun y => ?_⟩ <;> rw [h]

theorem next_same_mod (a : ohci_hcd) (x : Nat) (f : ed → ed)
    (hf : ∀ y, (f y).ed_next = y.ed_next) : next_same a (a.mod_ed x f) := by
  refine ⟨rfl, rfl, rfl, rfl, fun y => ?_⟩
  by_cases h : y = x
  · subst h
    simp only [ohci_hcd.mod_ed, ohci_sched.mod_ed, upd_same]
    exact hf _
  · simp only [ohci_hcd.mod_ed, ohci_sched.mod_ed, upd_other _ _ _ _ h]

theorem hwref_set_ednext (a : ohci_hcd) (v : Nat) (r : hwref) : next_same a (r.set a v) := by
  cases r with
  | head x => exact next_same_mod a x _ (fun _ => rfl)
  | td t => exact next_same_of _ _ rfl

theorem finish_unlinks_toggle_ednext (a : ohci_hcd) (x t : Nat) :
    next_same a (finish_unlinks_toggle a x t) := by
  unfold finish_unlinks_toggle
  dsimp only
  split
  · exact next_same_mod a x _ (fun _ => rfl)
  · split
    · exact next_same_mod a x _ (fun _ => rfl)
    · exact next_same_refl _

theorem td_done_ednext (a : ohci_hcd) (u t : Nat) : next_same a (td_done a u t).2 := by
  have h1 : next_same a (td_list_del a t) := next_same_mod a _ _ (fun _ => rfl)
  unfold td_done
  dsimp only
  split
  · unfold td_done_iso
    dsimp only
    split
    · exact h1
    · exact next_same_trans h1 (next_same_of _ _ rfl)
  · unfold td_done_data
    dsimp only
    split
    · split
      · exact next_same_trans h1 (next_same_of _ _ rfl)
      · exact next_same_trans h1 (next_same_of _ _ rfl)
    · exact h1

theorem finish_urb_stop_ednext (o : ohci_hcd) : next_same o (finish_urb_stop o) := by
  unfold finish_urb_stop
  split <;> exact ⟨rfl, rfl, rfl, rfl, fun _ => rfl⟩

theorem finish_urb_ednext (fuel : Nat) (o o2 : ohci_hcd) (u : Nat) (status : Int)
    (h : finish_urb fuel o u status = some o2) : next_same o o2 := by
  unfold finish_urb at h
  cases hp : (o.hcd.urbs u).hcpriv with
  | none => rw [hp] at h; exact absurd h (by simp)
  | some p =>
    rw [hp] at h
    dsimp only at h
    cases hf : urb_free_priv fuel o p with
    | none => rw [hf] at h; exact absurd h (by simp)
    | some o1 =>
      rw [hf] at h
      rw [← Option.some.inj h]
      obtain ⟨a1, _⟩ := urb_free_priv_outer fuel o o1 p hf
      obtain ⟨b1, _⟩ := finish_urb_reqs_kept o1 u
      refine next_same_trans (next_same_of o _ ?_) (finish_urb_stop_ednext _)
      show (finish_urb_reqs o1 u).sched = _
      rw [b1, a1]

theorem finish_unlinks_tds_ednext (fuel x : Nat) :
    ∀ (l : List Nat) (o : ohci_hcd) (prev : hwref) (c : Bool) (r : ohci_hcd × Bool),
      finish_unlinks_tds fuel x l o prev c = some r → next_same o r.1 := by
  intro l
  induction l with
  | nil =>
    intro o prev c r h
    rw [finish_unlinks_tds] at h
    rw [← Option.some.inj h]
    exact next_same_refl _
  | cons t rest ih =>
    intro o prev c r h
    rw [finish_unlinks_tds] at h
    dsimp only at h
    by_cases hu : (o.hcd.urbs (o.tds t).urb).unlinked = 0
    · rw [if_pos hu] at h
      exact ih o (.td t) c r h
    · rw [if_neg hu] at h
      cases hp : (o.hcd.urbs (o.tds t).urb).hcpriv with
      | none => rw [hp] at h; exact absurd h (by simp)
      | some p =>
        rw [hp] at h
        dsimp only at h
        have k1 : next_same o (prev.set o
            ((o.tds t).hwNextTD ||| clear_bits (prev.get o) TD_MASK)) :=
          hwref_set_ednext o _ prev
        generalize prev.set o ((o.tds t).hwNextTD ||| clear_bits (prev.get o) TD_MASK)
          = o1 at k1 h
        have k2 : next_same o (finish_unlinks_toggle o1 x t) :=
          next_same_trans k1 (finish_unlinks_toggle_ednext o1 x t)
        generalize finish_unlinks_toggle o1 x t = o2 at k2 h
        have k3 : next_same o ((td_done o2 (o.tds t).urb t).2.mod_priv p
            (fun y => { y with td_cnt := y.td_cnt + 1 })) :=
          next_same_trans k2 (next_same_trans (td_done_ednext o2 _ t) (next_same_of _ _ rfl))
        generalize (td_done o2 (o.tds t).urb t).2.mod_priv p
            (fun y => { y with td_cnt := y.td_cnt + 1 }) = o3 at k3 h
        by_cases hc : (o3.privs p).td_cnt = (o3.privs p).length
        · rw [if_pos hc] at h
          cases hf : finish_urb fuel o3 (o.tds t).urb 0 with
          | none => rw [hf] at h; exact absurd h (by simp)
          | some o4 =>
            rw [hf] at h
            exact next_same_trans (next_same_trans k3 (finish_urb_ednext fuel o3 o4 _ _ hf))
              (ih o4 prev true r h)
        · rw [if_neg hc] at h
          exact next_same_trans k3 (ih o3 prev c r h)

theorem finish_unlinks_rescan_ednext (fuel x : Nat) :
    ∀ (n : Nat) (o : ohci_hcd) (m : Bool) (r : ohci_hcd × Bool),
      finish_unlinks_rescan fuel x n o m = some r → next_same o r.1 := by
  intro n
  induction n with
  | zero => intro o m r h; simp [finish_unlinks_rescan] at h
  | succ n ih =>
    intro o m r h
    rw [finish_unlinks_rescan] at h
    cases ht : finish_unlinks_tds fuel x (o.sched.eds x).td_list o (.head x) false with
    | none => rw [ht] at h; exact absurd h (by simp)
    | some q =>
      rw [ht] at h
      have k1 := finish_unlinks_tds_ednext fuel x _ o (.head x) false q ht
      obtain ⟨o1, completed⟩ := q
      dsimp only at h k1
      split at h
      · exact next_same_trans k1 (ih o1 true r h)
      · rw [← Option.some.inj h]
        exact k1

theorem finish_unlinks_idle_ednext (o : ohci_hcd) (x : Nat) :
    next_same o (finish_unlinks_idle o x) := by
  unfold finish_unlinks_idle
  have k1 : next_same o (o.mod_ed x (fun y => { y with state := ED_IDLE })) :=
    next_same_mod o x _ (fun _ => rfl)
  dsimp only
  generalize o.mod_ed x (fun y => { y with state := ED_IDLE }) = o1 at k1 ⊢
  have k2 : next_same o
      (if quirk_zfmicro o1.sched ∧ (o1.sched.eds x).type = PIPE_INTERRUPT then
        ({ o1 with sched := { o1.sched with
            eds_scheduled := wrap32 ((o1.sched.eds_scheduled : Int) - 1) } } : ohci_hcd)
      else o1) := by
    split
    · exact next_same_trans k1 ⟨rfl, rfl, rfl, rfl, fun _ => rfl⟩
    · exact k1
  generalize (if quirk_zfmicro o1.sched ∧ (o1.sched.eds x).type = PIPE_INTERRUPT then
        ({ o1 with sched := { o1.sched with
            eds_scheduled := wrap32 ((o1.sched.eds_scheduled : Int) - 1) } } : ohci_hcd)
      else o1) = o2 at k2 ⊢
  have k3 : next_same o2 (o2.mod_ed x
      (fun y => { y with hwHeadP := clear_bits y.hwHeadP ED_H, hwNextED := 0 })) :=
    next_same_mod o2 x _ (fun _ => rfl)
  exact next_same_trans k2 (next_same_trans k3 (next_same_mod _ x _ (fun _ => rfl)))

theorem on_rm_list_next (a b : ohci_hcd) (L : List Nat) (h : next_same a b)
    (hl : on_rm_list a.sched L) : on_rm_list b.sched L := by
  unfold on_rm_list at hl ⊢
  rw [h.1]
  exact ed_path_congr a.sched b.sched L _ _ (fun x _ => h.2.2.2.2 x) hl

theorem sched_closed_next (a b : ohci_hcd) (Q : Nat → Prop) (h : next_same a b)
    (hc : sched_closed a.sched Q) : sched_closed b.sched Q :=
  sched_closed_of a.sched b.sched Q hc h.2.1 h.2.2.1 h.2.2.2.1 h.2.2.2.2

theorem rm_unlink_chain (o : ohci_hcd) (Prev R : List Nat) (x : Nat) (Q : Nat → Prop)
    (hpath : on_rm_list o.sched (Prev.reverse ++ x :: R))
    (hnd : (Prev.reverse ++ x :: R).Nodup)
    (hcl : sched_closed o.sched Q)
    (hq : ∀ y, y ∈ Prev.reverse ++ x :: R → ¬ Q y) :
    on_rm_list (((rm_cursor Prev).set o (o.sched.eds x).ed_next).mod_ed x
        (fun y => { y with ed_next := none })).sched (Prev.reverse ++ R) ∧
    sched_closed (((rm_cursor Prev).set o (o.sched.eds x).ed_next).mod_ed x
        (fun y => { y with ed_next := none })).sched (fun y => Q y ∨ y = x) := by
  have hxq : ¬ Q x := hq x (List.mem_append_right _ (List.mem_cons_self _ _))
  have hmid := List.nodup_middle.1 hnd
  have hxn : x ∉ Prev.reverse ++ R := (List.nodup_cons.1 hmid).1
  obtain ⟨c1, c2, c3, c4⟩ := hcl
  cases Prev with
  | nil =>
    have hp : o.sched.ed_rm_list = some x ∧ ed_path o.sched (o.sched.eds x).ed_next R none :=
      hpath
    constructor
    · show ed_path _ (o.sched.eds x).ed_next ([] ++ R) none
      refine ed_path_congr o.sched _ _ _ _ ?_ hp.2
      intro y hy
      have hyx : y ≠ x := fun e => hxn (e ▸ hy)
      simp only [ohci_hcd.mod_ed, ohci_sched.mod_ed, rm_cursor, rmref.set,
        upd_other _ _ _ _ hyx]
    · refine ⟨fun t ht => Or.inl (c1 t ht), fun t ht => Or.inl (c2 t ht),
        fun i t ht => Or.inl (c3 i t ht), ?_⟩
      intro a y ha hy
      by_cases hax : a = x
      · subst hax
        simp [ohci_hcd.mod_ed, ohci_sched.mod_ed, rm_cursor, rmref.set, upd_same] at hy
      · simp only [ohci_hcd.mod_ed, ohci_sched.mod_ed, rm_cursor, rmref.set,
          upd_other _ _ _ _ hax] at hy
        rcases ha with ha | ha
        · exact Or.inl (c4 a y ha hy)
        · exact absurd ha hax
  | cons p Pr =>
    have hpq : ¬ Q p := hq p (List.mem_append_left _ (by simp))
    have hpx : p ≠ x := by
      intro e
      exact hxn (List.mem_append_left _ (by simp [e]))
    rw [List.reverse_cons, List.append_assoc] at hpath hnd
    rw [List.reverse_cons, List.append_assoc] at hxn ⊢
    obtain ⟨b, h1, h2⟩ := (ed_path_append o.sched _ _ _ _).1 hpath
    have hb : b = some p := h2.1
    have hpn : (o.sched.eds p).ed_next = some x := h2.2.1
    have hR : ed_path o.sched (o.sched.eds x).ed_next R none := h2.2.2
    have hnd2 := List.nodup_append.1 hnd
    have hpPr : p ∉ Pr.reverse := fun hm => hnd2.2.2 hm (by simp)
    have hpR : p ∉ R := by
      have := (List.nodup_cons.1 hnd2.2.1).1
      intro hm
      exact this (List.mem_cons_of_mem _ hm)
    have hxPr : x ∉ Pr.reverse := fun hm => hxn (List.mem_append_left _ hm)
    have hxR : x ∉ R := fun hm => hxn (List.mem_append_right _ (List.mem_cons_of_mem _ hm))
    have hother : ∀ y, y ≠ p → y ≠ x →
        ((((rm_cursor (p :: Pr)).set o (o.sched.eds x).ed_next).mod_ed x
          (fun y => { y with ed_next := none })).sched.eds y) = o.sched.eds y := by
      intro y hyp hyx
      simp only [ohci_hcd.mod_ed, ohci_sched.mod_ed, rm_cursor, rmref.set,
        upd_other _ _ _ _ hyx, upd_other _ _ _ _ hyp]
    have hpnew : ((((rm_cursor (p :: Pr)).set o (o.sched.eds x).ed_next).mod_ed x
          (fun y => { y with ed_next := none })).sched.eds p).ed_next
        = (o.sched.eds x).ed_next := by
      simp only [ohci_hcd.mod_ed, ohci_sched.mod_ed, rm_cursor, rmref.set,
        upd_other _ _ _ _ hpx, upd_same]
    have hrm : (((rm_cursor (p :: Pr)).set o (o.sched.eds x).ed_next).mod_ed x
          (fun y => { y with ed_next := none })).sched.ed_rm_list = o.sched.ed_rm_list := rfl
    have hxnew : ((((rm_cursor (p :: Pr)).set o (o.sched.eds x).ed_next).mod_ed x
          (fun y => { y with ed_next := none })).sched.eds x).ed_next = none := by
      simp only [ohci_hcd.mod_ed, ohci_sched.mod_ed, upd_same]
    have e1 : (((rm_cursor (p :: Pr)).set o (o.sched.eds x).ed_next).mod_ed x
          (fun y => { y with ed_next := none })).sched.ed_controltail
        = o.sched.ed_controltail := rfl
    have e2 : (((rm_cursor (p :: Pr)).set o (o.sched.eds x).ed_next).mod_ed x
          (fun y => { y with ed_next := none })).sched.ed_bulktail
        = o.sched.ed_bulktail := rfl
    have e3 : (((rm_cursor (p :: Pr)).set o (o.sched.eds x).ed_next).mod_ed x
          (fun y => { y with ed_next := none })).sched.periodic = o.sched.periodic := rfl
    generalize ((rm_cursor (p :: Pr)).set o (o.sched.eds x).ed_next).mod_ed x
          (fun y => { y with ed_next := none }) = o2 at hother hpnew hrm hxnew e1 e2 e3 ⊢
    constructor
    · unfold on_rm_list
      rw [hrm]
      refine (ed_path_append o2.sched _ _ _ _).2 ⟨some p, ?_, rfl, ?_⟩
      · rw [← hb]
        refine ed_path_congr o.sched _ _ _ _ ?_ h1
        intro y hy
        rw [hother y (fun e => hpPr (e ▸ hy)) (fun e => hxPr (e ▸ hy))]
      · rw [hpnew]
        refine ed_path_congr o.sched _ _ _ _ ?_ hR
        intro y hy
        rw [hother y (fun e => hpR (e ▸ hy)) (fun e => hxR (e ▸ hy))]
    · refine ⟨fun t ht => Or.inl (c1 t (e1 ▸ ht)), fun t ht => Or.inl (c2 t (e2 ▸ ht)),
        fun i t ht => Or.inl (c3 i t (e3 ▸ ht)), ?_⟩
      intro a y ha hy
      rcases ha with ha | ha
      · have hap : a ≠ p := fun e => hpq (e ▸ ha)
        have hax : a ≠ x := fun e => hxq (e ▸ ha)
        rw [hother a hap hax] at hy
        exact Or.inl (c4 a y ha hy)
      · rw [ha, hxnew] at hy
        exact absurd hy (by simp)

theorem finish_unlinks_ed_chain (fuel : Nat) (o : ohci_hcd) (Prev R : List Nat) (x : Nat)
    (Q : Nat → Prop) (r : ohci_hcd × Bool)
    (hpath : on_rm_list o.sched (Prev.reverse ++ x :: R))
    (hnd : (Prev.reverse ++ x :: R).Nodup)
    (hcl : sched_closed o.sched Q)
    (hq : ∀ y, y ∈ Prev.reverse ++ x :: R → ¬ Q y)
    (h : finish_unlinks_ed fuel o (rm_cursor Prev) x = some r) :
    on_rm_list r.1.sched (Prev.reverse ++ R) ∧
    sched_closed r.1.sched (fun y => Q y ∨ y = x) := by
  have hxn : x ∉ Prev.reverse ++ R := (List.nodup_cons.1 (List.nodup_middle.1 hnd)).1
  unfold finish_unlinks_ed at h
  dsimp only at h
  have k2 := rm_unlink_chain o Prev R x Q hpath hnd hcl hq
  generalize ((rm_cursor Prev).set o (o.sched.eds x).ed_next).mod_ed x
      (fun y => { y with ed_next := none }) = o2 at k2 h
  cases hr : finish_unlinks_rescan fuel x fuel o2 false with
  | none => rw [hr] at h; exact absurd h (by simp)
  | some q =>
    rw [hr] at h
    have n3 := finish_unlinks_rescan_ednext fuel x fuel o2 false q hr
    obtain ⟨o3, modified⟩ := q
    dsimp only at h n3
    have n4 : next_same o2 (finish_unlinks_idle o3 x) :=
      next_same_trans n3 (finish_unlinks_idle_ednext o3 x)
    generalize finish_unlinks_idle o3 x = o4 at n4 h
    have k4 : on_rm_list o4.sched (Prev.reverse ++ R) ∧
        sched_closed o4.sched (fun y => Q y ∨ y = x) :=
      ⟨on_rm_list_next o2 o4 _ n4 k2.1, sched_closed_next o2 o4 _ n4 k2.2⟩
    split at h
    · cases hs : ed_schedule fuel o4.sched x with
      | none => rw [hs] at h; exact absurd h (by simp)
      | some s =>
        rw [hs] at h
        rw [← Option.some.inj h]
        obtain ⟨s1, s2, s3⟩ := ed_schedule_closed fuel o4.sched (fun y => Q y ∨ y = x) x s
          k4.2 (Or.inr rfl) hs
        refine ⟨?_, s1⟩
        show ed_path s.2 s.2.ed_rm_list _ none
        rw [s2]
        refine ed_path_congr o4.sched _ _ _ _ ?_ k4.1
        intro y hy
        have hy2 : ¬ (Q y ∨ y = x) := by
          rintro (hQ | hx)
          · refine hq y ?_ hQ
            rcases List.mem_append.1 hy with hm | hm
            · exact List.mem_append_left _ hm
            · exact List.mem_append_right _ (List.mem_cons_of_mem _ hm)
          · exact hxn (hx ▸ hy)
        rw [s3 y hy2]
    · rw [← Option.some.inj h]
      exact k4

theorem finish_unlinks_gate_outer (o : ohci_hcd) (tick x : Nat) :
    (finish_unlinks_gate o tick x).2.sched = o.sched ∧
    (finish_unlinks_gate o tick x).2.hcd = o.hcd := by
  unfold finish_unlinks_gate
  split
  · split
    · exact ⟨rfl, rfl⟩
    · split
      · exact ⟨rfl, rfl⟩
      · split
        · split
          · exact ⟨rfl, rfl⟩
          · exact ⟨rfl, rfl⟩
        · exact ⟨rfl, rfl⟩
  · exact ⟨rfl, rfl⟩

theorem finish_unlinks_loop_chain (fuel tick E : Nat) :
    ∀ (n : Nat) (o : ohci_hcd) (Prev R : List Nat) (Q : Nat → Prop) (o2 : ohci_hcd),
      HC_IS_RUNNING o.hcd.state = true → tick_before tick (o.sched.eds E).tick = true →
      on_rm_list o.sched (Prev.reverse ++ R) → (Prev.reverse ++ R).Nodup →
      sched_closed o.sched Q → (∀ y, y ∈ Prev.reverse ++ R → ¬ Q y) →
      E ∈ Prev.reverse ++ R →
      finish_unlinks_loop fuel tick n o (rm_cursor Prev) = some o2 →
      ∃ L2, on_rm_list o2.sched L2 ∧ E ∈ L2 := by
  intro n
  induction n with
  | zero => intro o Prev R Q o2 _ _ _ _ _ _ _ h; simp [finish_unlinks_loop] at h
  | succ n ih =>
    intro o Prev R Q o2 hrun htick hpath hnd hcl hq hE h
    rw [finish_unlinks_loop] at h
    have hcur := ed_path_cursor o Prev R hpath
    cases R with
    | nil =>
      have hc : (rm_cursor Prev).get o = none := hcur
      rw [hc] at h
      rw [← Option.some.inj h]
      exact ⟨_, hpath, hE⟩
    | cons x R =>
      have hc : (rm_cursor Prev).get o = some x := hcur.1
      rw [hc] at h
      dsimp only at h
      obtain ⟨g1, g2⟩ := finish_unlinks_gate_outer o tick x
      have kg := finish_unlinks_gate_kept o tick x E
      have hrun2 : HC_IS_RUNNING (finish_unlinks_gate o tick x).2.hcd.state = true := by
        rw [kg.1]; exact hrun
      have htick2 : tick_before tick ((finish_unlinks_gate o tick x).2.sched.eds E).tick
          = true := by rw [kg.2.2.2.2]; exact htick
      have hpath2 : on_rm_list (finish_unlinks_gate o tick x).2.sched
          (Prev.reverse ++ x :: R) := by rw [g1]; exact hpath
      have hcl2 : sched_closed (finish_unlinks_gate o tick x).2.sched Q := by
        rw [g1]; exact hcl
      by_cases hg : (finish_unlinks_gate o tick x).1 = true
      · rw [if_pos hg] at h
        have hl : (x :: Prev).reverse ++ R = Prev.reverse ++ x :: R := by
          rw [List.reverse_cons, List.append_assoc]
          rfl
        refine ih _ (x :: Prev) R Q o2 hrun2 htick2 ?_ ?_ hcl2 ?_ ?_ h
        · rw [hl]; exact hpath2
        · rw [hl]; exact hnd
        · rw [hl]; exact hq
        · rw [hl]; exact hE
      · rw [if_neg hg] at h
        have hne : E ≠ x := by
          rintro rfl
          exact hg (finish_unlinks_gate_skips o tick E hrun htick)
        generalize (finish_unlinks_gate o tick x).2 = og at h hrun2 htick2 hpath2 hcl2
        cases hf : finish_unlinks_ed fuel og (rm_cursor Prev) x with
        | none => rw [hf] at h; exact absurd h (by simp)
        | some q =>
          rw [hf] at h
          have k1 := finish_unlinks_ed_kept fuel og (rm_cursor Prev) x E hne q hf
          obtain ⟨c1, c2⟩ := finish_unlinks_ed_chain fuel og Prev R x Q q hpath2 hnd hcl2 hq hf
          obtain ⟨o1, modified⟩ := q
          dsimp only at h k1 c1 c2
          have hrun3 : HC_IS_RUNNING o1.hcd.state = true := by rw [k1.1]; exact hrun2
          have htick3 : tick_before tick (o1.sched.eds E).tick = true := by
            rw [k1.2.2.2.2]; exact htick2
          have hmid := List.nodup_middle.1 hnd
          have hnd3 : (Prev.reverse ++ R).Nodup := (List.nodup_cons.1 hmid).2
          have hxn : x ∉ Prev.reverse ++ R := (List.nodup_cons.1 hmid).1
          have hq3 : ∀ y, y ∈ Prev.reverse ++ R → ¬ (Q y ∨ y = x) := by
            intro y hy
            rintro (hQ | hx)
            · refine hq y ?_ hQ
              rcases List.mem_append.1 hy with hm | hm
              · exact List.mem_append_left _ hm
              · exact List.mem_append_right _ (List.mem_cons_of_mem _ hm)
            · exact hxn (hx ▸ hy)
          have hE3 : E ∈ Prev.reverse ++ R := by
            rcases List.mem_append.1 hE with hm | hm
            · exact List.mem_append_left _ hm
            · rcases List.mem_cons.1 hm with hm | hm
              · exact absurd hm hne
              · exact List.mem_append_right _ hm
          split at h
          · exact ih o1 [] (Prev.reverse ++ R) _ o2 hrun3 htick3 c1 hnd3 c2 hq3 hE3 h
          · exact ih o1 Prev R _ o2 hrun3 htick3 c1 hnd3 c2 hq3 hE3 h

theorem ed_path_unique (s : ohci_sched) :
    ∀ (L1 L2 : List Nat) (a : Option Nat),
      ed_path s a L1 none → ed_path s a L2 none → L1 = L2 := by
  intro L1
  induction L1 with
  | nil =>
    intro L2 a h1 h2
    cases L2 with
    | nil => rfl
    | cons y r =>
      have e1 : a = none := h1
      have e2 : a = some y := h2.1
      rw [e1] at e2
      exact absurd e2 (by simp)
  | cons x rest ih =>
    intro L2 a h1 h2
    cases L2 with
    | nil =>
      have e1 : a = none := h2
      have e2 : a = some x := h1.1
      rw [e1] at e2
      exact absurd e2 (by simp)
    | cons y r =>
      have e1 : a = some x := h1.1
      have e2 : a = some y := h2.1
      rw [e1] at e2
      have exy : x = y := Option.some.inj e2
      subst exy
      rw [ih r _ h1.2 h2.2]

theorem ed_path_nodup (s : ohci_sched) :
    ∀ (L : List Nat) (a : Option Nat), ed_path s a L none → L.Nodup := by
  intro L
  induction L with
  | nil => intro _ _; exact List.nodup_nil
  | cons x rest ih =>
    intro a h
    refine List.nodup_cons.2 ⟨?_, ih _ h.2⟩
    intro hm
    obtain ⟨A, B, hAB⟩ := List.append_of_mem hm
    have h2 := h.2
    rw [hAB] at h2
    obtain ⟨b, _, h4⟩ := (ed_path_append s _ _ _ _).1 h2
    have h5 : ed_path s (s.eds x).ed_next B none := h4.2
    have h6 := ed_path_unique s _ _ _ h2 h5
    have h7 := congrArg List.length h6
    simp only [List.length_append, List.length_cons] at h7
    omega

/-- C15.  `finish_unlinks (ohci, tick)` runs with the controller running
(`HC_IS_RUNNING`).  `ohci->ed_rm_list` holds the EDs `L`, none of which is linked into a
schedule (`Q` holds the scheduled EDs).  An ED `E` of the list that is in `ED_UNLINK`
with `ED_SKIP` set and whose removal tick has not passed
(`tick_before (tick, ed->tick)`) is on `ed_rm_list` when `finish_unlinks` returns, still
in `ED_UNLINK` (so it was not given to `ed_schedule`, which leaves its argument in
`ED_OPER`, see `ed_schedule_state`), with `ED_SKIP` set and with the same `hwHeadP` and
`tick`. -/
theorem finish_unlinks_gated (fuel tick E : Nat) (s s2 : ohci_hcd) (L : List Nat)
    (Q : Nat → Prop)
    (hrun : HC_IS_RUNNING s.hcd.state = true)
    (hlist : on_rm_list s.sched L) (hE : E ∈ L)
    (hcl : sched_closed s.sched Q) (hq : ∀ y, y ∈ L → ¬ Q y)
    (hstate : (s.sched.eds E).state = ED_UNLINK)
    (hskip : (s.sched.eds E).hwINFO &&& ED_SKIP = ED_SKIP)
    (htick : tick_before tick (s.sched.eds E).tick = true)
    (h : finish_unlinks fuel s tick = some s2) :
    (∃ L2, on_rm_list s2.sched L2 ∧ E ∈ L2) ∧
    (s2.sched.eds E).state = ED_UNLINK ∧
    (s2.sched.eds E).hwINFO &&& ED_SKIP = ED_SKIP ∧
    (s2.sched.eds E).hwHeadP = (s.sched.eds E).hwHeadP ∧
    (s2.sched.eds E).tick = (s.sched.eds E).tick := by
  unfold finish_unlinks at h
  cases hl : finish_unlinks_loop fuel tick fuel s .head with
  | none => rw [hl] at h; exact absurd h (by simp)
  | some o1 =>
    rw [hl] at h
    rw [← Option.some.inj h]
    have hnd : L.Nodup := ed_path_nodup s.sched L _ hlist
    obtain ⟨L2, p1, p2⟩ := finish_unlinks_loop_chain fuel tick E fuel s [] L Q o1 hrun htick
      hlist hnd hcl hq hE hl
    have k1 := finish_unlinks_loop_kept fuel tick E fuel s .head o1 hrun htick hl
    obtain ⟨k2, r1, r2⟩ := finish_unlinks_restart_kept o1 E
    have k := ed_kept_trans k1 k2
    refine ⟨⟨L2, ?_, p2⟩, ?_, ?_, k.2.2.2.1, k.2.2.2.2⟩
    · unfold on_rm_list at p1 ⊢
      rw [r2]
      exact ed_path_congr o1.sched _ _ _ _ (fun x _ => by rw [r1]) p1
    · rw [k.2.1]; exact hstate
    · rw [k.2.2.1]; exact hskip

theorem option_eq_some_getD {α : Type} (o : Option α) (d : α) (h : o.isSome = true) :
    o = some (o.getD d) := by
  cases o with
  | none => exact absurd h (by simp)
  | some x => rfl

/-- Witness for C15: of the two EDs of `rm_two`, at frame 5 ED 1 is taken off the list
and becomes idle, and ED 0, due at frame 10, stays. -/
theorem finish_unlinks_gated_witness :
    (HC_IS_RUNNING rm_two.hcd.state = true ∧ on_rm_list rm_two.sched [0, 1] ∧
      tick_before 5 (rm_two.sched.eds 0).tick = true ∧
      tick_before 5 (rm_two.sched.eds 1).tick = false) ∧
    (finish_unlinks 4 rm_two 5).map (fun o =>
      (o.sched.ed_rm_list, (o.sched.eds 0).ed_next, (o.sched.eds 0).state,
        (o.sched.eds 1).state)) = some (some 0, none, ED_UNLINK, ED_IDLE) ∧
    ((∃ L2, on_rm_list ((finish_unlinks 4 rm_two 5).getD rm_two).sched L2 ∧ 0 ∈ L2) ∧
      (((finish_unlinks 4 rm_two 5).getD rm_two).sched.eds 0).state = ED_UNLINK ∧
      (((finish_unlinks 4 rm_two 5).getD rm_two).sched.eds 0).hwINFO &&& ED_SKIP = ED_SKIP ∧
      (((finish_unlinks 4 rm_two 5).getD rm_two).sched.eds 0).hwHeadP
        = (rm_two.sched.eds 0).hwHeadP ∧
      (((finish_unlinks 4 rm_two 5).getD rm_two).sched.eds 0).tick
        = (rm_two.sched.eds 0).tick) :=
  ⟨⟨by decide, ⟨rfl, rfl, rfl⟩, by decide, by decide⟩, by decide,
    finish_unlinks_gated 4 5 0 rm_two ((finish_unlinks 4 rm_two 5).getD rm_two) [0, 1]
      (fun _ => False) (by decide) ⟨rfl, rfl, rfl⟩ (by decide)
      ⟨fun _ ht => absurd ht (by simp [rm_two]), fun _ ht => absurd ht (by simp [rm_two]),
        fun _ _ ht => absurd ht (by simp [rm_two]), fun _ _ hx _ => hx⟩
      (fun _ _ hf => hf) (by decide) (by decide) (by decide)
      (option_eq_some_getD _ _ (by decide))⟩

/-! ## ED_OPER and the schedules -/

/-- C16 (as the code behaves).  From the empty schedule `sched_iso2`, where ED 0 and ED 1
are idle and linked nowhere, `ed_schedule` for ED 0 returns 0 and links it into the
periodic table; `ed_schedule` for ED 1 then finds no room and returns `-ENOSPC`.  In the
state reached ED 0 is in `ED_OPER` and linked once, and ED 1 is in `ED_OPER` too but
linked into no schedule. -/
theorem ed_schedule_oper_unlinked :
    ((sched_iso2.eds 0).state, ed_link_count 4 sched_iso2 0,
      (sched_iso2.eds 1).state, ed_link_count 4 sched_iso2 1) = (ED_IDLE, 0, ED_IDLE, 0) ∧
    (ed_schedule 4 sched_iso2 0).bind (fun r =>
      (ed_schedule 4 r.2 1).map (fun r2 =>
        (r.1, r2.1, (r2.2.eds 0).state, ed_link_count 4 r2.2 0,
          (r2.2.eds 1).state, ed_link_count 4 r2.2 1)))
      = some (0, -ENOSPC, ED_OPER, 1, ED_OPER, 0) := by
  decide

/-! ## Completion of an URB by the controller driver -/

theorem anchor_frame_refl (h : usb_hcd) : anchor_frame h h := ⟨rfl, fun _ => rfl⟩

theorem anchor_frame_trans {a b c : usb_hcd} (h1 : anchor_frame a b) (h2 : anchor_frame b c) :
    anchor_frame a c :=
  ⟨h2.1.trans h1.1, fun v => (h2.2 v).trans (h1.2 v)⟩

theorem anchor_frame_of (h h2 : usb_hcd) (ha : h2.anchors = h.anchors)
    (hu : h2.urbs = h.urbs) : anchor_frame h h2 := ⟨ha, fun v => by rw [hu]⟩

theorem anchor_frame_mod_urb (h : usb_hcd) (u : Nat) (f : urb → urb)
    (hf : (f (h.urbs u)).anchor = (h.urbs u).anchor) : anchor_frame h (h.mod_urb u f) := by
  refine ⟨rfl, fun v => ?_⟩
  by_cases hv : v = u
  · subst hv
    rw [mod_urb_urbs_same]
    exact hf
  · rw [mod_urb_urbs_other _ _ _ _ hv]

theorem anchor_frame_buffer_free (h : usb_hcd) (size addr dma : Nat) :
    anchor_frame h (hcd_buffer_free h size addr dma) := by
  unfold hcd_buffer_free
  split
  · exact anchor_frame_refl _
  · split
    · exact anchor_frame_of _ _ rfl rfl
    · split <;> exact anchor_frame_of _ _ rfl rfl

theorem anchor_frame_free_coherent (h : usb_hcd) (dma vaddr size : Nat)
    (d : dma_data_direction) : anchor_frame h (hcd_free_coherent h dma vaddr size d).1 := by
  unfold hcd_free_coherent
  dsimp only
  refine anchor_frame_trans ?_ (anchor_frame_buffer_free _ _ _ _)
  split
  · exact anchor_frame_of _ _ rfl rfl
  · exact anchor_frame_refl _

theorem anchor_frame_unmap_setup (h : usb_hcd) (u : Nat) :
    anchor_frame h (unmap_urb_setup h u) := by
  unfold unmap_urb_setup
  split
  · split
    · exact anchor_frame_of _ _ rfl rfl
    · split
      · exact anchor_frame_trans (anchor_frame_free_coherent _ _ _ _ _)
          (anchor_frame_mod_urb _ _ _ rfl)
      · exact anchor_frame_refl _
  · exact anchor_frame_refl _

theorem anchor_frame_unmap_buffer (h : usb_hcd) (u : Nat) :
    anchor_frame h (unmap_urb_buffer h u) := by
  unfold unmap_urb_buffer
  split
  · split
    · exact anchor_frame_of _ _ rfl rfl
    · split
      · exact anchor_frame_trans (anchor_frame_free_coherent _ _ _ _ _)
          (anchor_frame_mod_urb _ _ _ rfl)
      · exact anchor_frame_refl _
  · exact anchor_frame_refl _

theorem anchor_frame_unmap (h : usb_hcd) (u : Nat) :
    anchor_frame h (unmap_urb_for_dma h u) := by
  unfold unmap_urb_for_dma
  split
  · exact anchor_frame_refl _
  · exact anchor_frame_trans (anchor_frame_unmap_setup _ _) (anchor_frame_unmap_buffer _ _)

theorem usb_put_urb_anchors (h : usb_hcd) (u : Nat) :
    (usb_put_urb h u).anchors = h.anchors := by
  unfold usb_put_urb
  dsimp only
  split <;> rfl

theorem usb_unanchor_urb_anchors (h : usb_hcd) (w : Nat) :
    (∀ a, (h.urbs w).anchor = some a →
      ((usb_unanchor_urb h w).anchors a).urb_list = (h.anchors a).urb_list.erase w) ∧
    (∀ a, (h.urbs w).anchor ≠ some a → (usb_unanchor_urb h w).anchors a = h.anchors a) := by
  unfold usb_unanchor_urb
  cases ha : (h.urbs w).anchor with
  | none => exact ⟨fun a h1 => absurd h1 (by simp), fun _ _ => rfl⟩
  | some b =>
    dsimp only
    have e : ∀ a, ((if ((usb_put_urb
          ((h.mod_urb w (fun x => { x with anchor := none })).anchor_del b w) w).anchors
            b).urb_list.isEmpty = true
        then (usb_put_urb ((h.mod_urb w (fun x => { x with anchor := none })).anchor_del b w)
          w).emit (.wake_up_anchor b)
        else usb_put_urb ((h.mod_urb w (fun x => { x with anchor := none })).anchor_del b w)
          w).anchors a)
        = upd h.anchors b
          { h.anchors b with urb_list := (h.anchors b).urb_list.erase w } a := by
      intro a
      split
      · show (usb_put_urb _ w).anchors a = _
        rw [usb_put_urb_anchors]
        rfl
      · rw [usb_put_urb_anchors]
        rfl
    constructor
    · intro a h1
      have hab : b = a := Option.some.inj h1
      subst hab
      rw [e, upd_same]
    · intro a h1
      have hab : a ≠ b := fun e2 => h1 (by rw [e2])
      rw [e, upd_other _ _ _ _ hab]

theorem usb_hcd_giveback_urb_anchors (h : usb_hcd) (w : Nat) (status : Int) :
    (∀ a, (h.urbs w).anchor = some a →
      ((usb_hcd_giveback_urb h w status).anchors a).urb_list
        = (h.anchors a).urb_list.erase w) ∧
    (∀ a, (h.urbs w).anchor ≠ some a →
      (usb_hcd_giveback_urb h w status).anchors a = h.anchors a) := by
  unfold usb_hcd_giveback_urb
  dsimp only
  generalize giveback_status ((h.mod_urb w (fun x => { x with hcpriv := none })).urbs w) status
    = st
  have f2 : anchor_frame h (unmap_urb_for_dma (h.mod_urb w (fun x => { x with hcpriv := none }))
      w) :=
    anchor_frame_trans (anchor_frame_mod_urb _ _ _ rfl) (anchor_frame_unmap _ _)
  generalize unmap_urb_for_dma (h.mod_urb w (fun x => { x with hcpriv := none })) w = h2 at f2 ⊢
  obtain ⟨u1, u2⟩ := usb_unanchor_urb_anchors h2 w
  rw [f2.2 w] at u1 u2
  rw [f2.1] at u1 u2
  generalize usb_unanchor_urb h2 w = h3 at u1 u2 ⊢
  have e : ∀ a, (usb_put_urb
      (if ((((h3.mod_urb w (fun x => { x with status := st })).emit
            (.complete w ((h3.mod_urb w (fun x => { x with status := st })).urbs w))).mod_urb w
            (fun x => { x with use_count := x.use_count - 1 })).urbs w).reject ≠ 0
        then (((h3.mod_urb w (fun x => { x with status := st })).emit
            (.complete w ((h3.mod_urb w (fun x => { x with status := st })).urbs w))).mod_urb w
            (fun x => { x with use_count := x.use_count - 1 })).emit .wake_up_kill_queue
        else ((h3.mod_urb w (fun x => { x with status := st })).emit
            (.complete w ((h3.mod_urb w (fun x => { x with status := st })).urbs w))).mod_urb w
            (fun x => { x with use_count := x.use_count - 1 })) w).anchors a = h3.anchors a := by
    intro a
    rw [usb_put_urb_anchors]
    split <;> rfl
  constructor
  · intro a ha
    rw [e]
    exact u1 a ha
  · intro a ha
    rw [e]
    exact u2 a ha

theorem hcd_complete_urb_retired (h : usb_hcd) (w : Nat) (st : Int) :
    retired h (hcd_complete_urb h w st) w st := by
  unfold hcd_complete_urb
  obtain ⟨c, cs⟩ := usb_hcd_giveback_urb_frame (usb_hcd_unlink_urb_from_ep h w) w st
  obtain ⟨o1, o2⟩ := usb_hcd_giveback_urb_once (usb_hcd_unlink_urb_from_ep h w) w st
  obtain ⟨a1, a2⟩ := usb_hcd_giveback_urb_anchors (usb_hcd_unlink_urb_from_ep h w) w st
  refine ⟨c.devs_eq, cs, c.others, c.ep_eq, c.dev_eq, c.unlinked_eq, c.reject_eq, o2, ?_, ?_,
    a1, a2, o1⟩
  · rw [c.eps_eq]
    simp only [usb_hcd_unlink_urb_from_ep, usb_hcd.mod_ep, upd_same]
  · intro p hp
    rw [c.eps_eq]
    simp only [usb_hcd_unlink_urb_from_ep, usb_hcd.mod_ep, upd_other _ _ _ _ hp]

/-! ## usb_kill_urb on an URB in flight -/

theorem giveback_status_unlinked (x : urb) (st : Int) (h : x.unlinked ≠ 0) :
    giveback_status x st = x.unlinked := by
  unfold giveback_status
  simp only [if_pos h]
  split
  · rename_i hc
    exact absurd hc.2.2 h
  · rfl

theorem wait_event_done (env : usb_hcd → usb_hcd) (cond : usb_hcd → Bool) (n : Nat)
    (h : usb_hcd) (hc : cond h = true) : wait_event env cond n h = some h := by
  cases n with
  | zero => rw [wait_event, if_pos hc]
  | succ k => rw [wait_event, if_pos hc]

theorem check_unlink_frame (h : usb_hcd) (u : Nat) (s : Int) :
    (usb_hcd_check_unlink_urb h u s).2.eps = h.eps ∧
    (usb_hcd_check_unlink_urb h u s).2.devs = h.devs ∧
    (usb_hcd_check_unlink_urb h u s).2.anchors = h.anchors ∧
    (usb_hcd_check_unlink_urb h u s).2.trace = h.trace ∧
    (usb_hcd_check_unlink_urb h u s).2.state = h.state ∧
    (∀ v, v ≠ u → (usb_hcd_check_unlink_urb h u s).2.urbs v = h.urbs v) ∧
    (usb_hcd_check_unlink_urb h u s).2.urbs u
      = { h.urbs u with unlinked := ((usb_hcd_check_unlink_urb h u s).2.urbs u).unlinked } := by
  unfold usb_hcd_check_unlink_urb
  split
  · exact ⟨rfl, rfl, rfl, rfl, rfl, fun _ _ => rfl, rfl⟩
  · split
    · exact ⟨rfl, rfl, rfl, rfl, rfl, fun _ _ => rfl, rfl⟩
    · dsimp only
      split
      · refine ⟨rfl, rfl, rfl, rfl, rfl, fun v hv => ?_, ?_⟩
        · show (h.mod_urb u (fun x => { x with unlinked := s })).urbs v = _
          exact mod_urb_urbs_other h u v _ hv
        · show (h.mod_urb u (fun x => { x with unlinked := s })).urbs u = _
          simp [usb_hcd.mod_urb]
      · refine ⟨rfl, rfl, rfl, rfl, rfl, fun v hv => ?_, ?_⟩
        · show (h.mod_urb u (fun x => { x with unlinked := s })).urbs v = _
          exact mod_urb_urbs_other h u v _ hv
        · show (h.mod_urb u (fun x => { x with unlinked := s })).urbs u = _
          simp [usb_hcd.mod_urb]

theorem completed_emit_other (h : usb_hcd) (ev : core_event)
    (hev : ∀ u seen, ev ≠ .complete u seen) :
    completed (h.emit ev).trace = completed h.trace := by
  rw [emit_trace, completed_append]
  cases ev <;> first
    | exact List.append_nil _
    | exact absurd rfl (hev _ _)

theorem kill_mark (drv : hc_driver) (h : usb_hcd) (v : Nat) (hdrv : dequeue_marks drv)
    (hfl : in_flight h v) :
    (usb_hcd_unlink_urb drv (h.mod_urb v (fun x => { x with reject := x.reject + 1 })) v
      (-ENOENT)).2.eps = h.eps ∧
    (usb_hcd_unlink_urb drv (h.mod_urb v (fun x => { x with reject := x.reject + 1 })) v
      (-ENOENT)).2.devs = h.devs ∧
    (usb_hcd_unlink_urb drv (h.mod_urb v (fun x => { x with reject := x.reject + 1 })) v
      (-ENOENT)).2.anchors = h.anchors ∧
    completed (usb_hcd_unlink_urb drv (h.mod_urb v (fun x => { x with reject := x.reject + 1 }))
      v (-ENOENT)).2.trace = completed h.trace ∧
    (∀ u, u ≠ v → (usb_hcd_unlink_urb drv
      (h.mod_urb v (fun x => { x with reject := x.reject + 1 })) v (-ENOENT)).2.urbs u
        = h.urbs u) ∧
    (usb_hcd_unlink_urb drv (h.mod_urb v (fun x => { x with reject := x.reject + 1 })) v
      (-ENOENT)).2.urbs v
        = { h.urbs v with reject := (h.urbs v).reject + 1, unlinked := -ENOENT } := by
  obtain ⟨hq, huse, hun, _, _, hroot⟩ := hfl
  have e1 : ((h.mod_urb v (fun x => { x with reject := x.reject + 1 })).urbs v)
      = { h.urbs v with reject := (h.urbs v).reject + 1 } := mod_urb_urbs_same _ _ _
  unfold usb_hcd_unlink_urb
  rw [if_pos (by rw [e1]; show (h.urbs v).use_count > 0; rw [huse]; decide)]
  dsimp only
  unfold unlink1
  rw [if_neg (by rw [e1]; show ¬ is_root_hub (h.devs (h.urbs v).dev) = true; rw [hroot]; simp)]
  rw [hdrv]
  have e2 : (((h.mod_urb v (fun x => { x with reject := x.reject + 1 })).emit
      (.urb_dequeue v (-ENOENT))).urbs v)
      = { h.urbs v with reject := (h.urbs v).reject + 1 } := e1
  have hq2 : urb_list_find v (((h.mod_urb v (fun x => { x with reject := x.reject + 1 })).emit
      (.urb_dequeue v (-ENOENT))).eps (((h.mod_urb v
        (fun x => { x with reject := x.reject + 1 })).emit
      (.urb_dequeue v (-ENOENT))).urbs v).ep).urb_list = true := by
    rw [e2]; exact hq
  have hun2 : (((h.mod_urb v (fun x => { x with reject := x.reject + 1 })).emit
      (.urb_dequeue v (-ENOENT))).urbs v).unlinked = 0 := by
    rw [e2]; exact hun
  obtain ⟨_, f2, _⟩ := check_unlink_first _ v (-ENOENT) hq2 hun2
  obtain ⟨g1, g2, g3, g4, _, g6, _⟩ := check_unlink_frame
    ((h.mod_urb v (fun x => { x with reject := x.reject + 1 })).emit
      (.urb_dequeue v (-ENOENT))) v (-ENOENT)
  refine ⟨g1, g2, g3, ?_, ?_, ?_⟩
  · rw [g4]
    exact completed_emit_other _ _ (fun _ _ => by simp)
  · intro u hu
    rw [g6 u hu]
    show (h.mod_urb v (fun x => { x with reject := x.reject + 1 })).urbs u = _
    exact mod_urb_urbs_other h v u _ hu
  · rw [f2, e2]

theorem urb_list_find_iff (u : Nat) (l : List Nat) : urb_list_find u l = true ↔ u ∈ l := by
  induction l with
  | nil => simp [urb_list_find]
  | cons x rest ih =>
    rw [urb_list_find]
    by_cases hx : x = u
    · simp [hx]
    · rw [if_neg hx, ih, List.mem_cons]
      constructor
      · exact Or.inr
      · rintro (e | e)
        · exact absurd e.symm hx
        · exact e

theorem usb_kill_urb_in_flight (drv : hc_driver) (pick : usb_hcd → Option (Nat × Int))
    (fuel : Nat) (h : usb_hcd) (v : Nat) (hdrv : dequeue_marks drv) (hfair : answers pick v)
    (hfl : in_flight h v) (hcalm : calm h) (hfuel : 0 < fuel) :
    ∃ h2, usb_kill_urb drv (hc_step pick) fuel h v = some h2 ∧ killed h h2 v := by
  obtain ⟨m1, m2, m3, m4, m5, m6⟩ := kill_mark drv h v hdrv hfl
  obtain ⟨hq, huse, hun, hdev, hep, hroot⟩ := hfl
  unfold usb_kill_urb
  rw [if_neg (by rw [hdev, hep]; simp)]
  dsimp only
  generalize (usb_hcd_unlink_urb drv (h.mod_urb v (fun x => { x with reject := x.reject + 1 }))
    v (-ENOENT)).2 = hm at m1 m2 m3 m4 m5 m6 ⊢
  have hqm : queued hm v := by
    unfold queued
    rw [m6, m1]
    exact hq
  have hunm : (hm.urbs v).unlinked ≠ 0 := by
    rw [m6]
    show (-ENOENT : Int) ≠ 0
    decide
  obtain ⟨w, st, hp, hwq, hwu⟩ := hfair hm hqm hunm
  have hwv : w = v := by
    by_contra hne
    apply hwu
    rw [m5 w hne]
    apply hcalm w
    unfold queued at hwq ⊢
    rw [m5 w hne, m1] at hwq
    exact hwq
  subst hwv
  have hstep : hc_step pick hm = hcd_complete_urb hm w st := by
    unfold hc_step
    rw [hp]
    dsimp only
    rw [if_pos ⟨hwq, hwu⟩]
  have r := hcd_complete_urb_retired hm w st
  obtain ⟨k, hk⟩ : ∃ k, fuel = k + 1 := ⟨fuel - 1, by omega⟩
  subst hk
  have hc0 : decide ((hm.urbs w).use_count = 0) = false := by
    rw [m6]
    show decide ((h.urbs w).use_count = 0) = false
    rw [huse]
    decide
  have hc1 : decide (((hcd_complete_urb hm w st).urbs w).use_count = 0) = true := by
    rw [r.use_eq, m6]
    show decide ((h.urbs w).use_count - 1 = 0) = true
    rw [huse]
    decide
  rw [wait_event]
  rw [hc0]
  simp only [Bool.false_eq_true, if_false]
  rw [hstep, wait_event_done _ _ _ _ hc1]
  refine ⟨_, rfl, ?_⟩
  generalize hcd_complete_urb hm w st = h3 at r hc1
  have hepm : (hm.urbs w).ep = (h.urbs w).ep := by rw [m6]
  have hanm : (hm.urbs w).anchor = (h.urbs w).anchor := by rw [m6]
  refine ⟨?_, ?_, ?_, ?_, ?_, ?_, ?_, ?_, ?_, ?_⟩
  · show h3.devs = _
    rw [r.devs_eq, m2]
  · intro u hu
    rw [mod_urb_urbs_other _ _ _ _ hu, r.others u hu, m5 u hu]
  · rw [mod_urb_urbs_same]
    show (h3.urbs w).ep = _
    rw [r.ep_eq, hepm]
  · rw [mod_urb_urbs_same]
    show (h3.urbs w).reject - 1 = _
    rw [r.reject_eq, m6]
    show (h.urbs w).reject + 1 - 1 = _
    omega
  · rw [mod_urb_urbs_same]
    show (h3.urbs w).use_count = 0
    exact of_decide_eq_true hc1
  · show (h3.eps (h.urbs w).ep).urb_list = _
    rw [← hepm, r.queue_home, m1]
  · intro p hp2
    show h3.eps p = _
    rw [r.queue_other p (by rw [hepm]; exact hp2), m1]
  · intro a ha
    show (h3.anchors a).urb_list = _
    rw [r.anchor_home a (by rw [hanm]; exact ha), m3]
  · intro a ha
    show h3.anchors a = _
    rw [r.anchor_other a (by rw [hanm]; exact ha), m3]
  · show completed h3.trace = _
    rw [r.done, m4, giveback_status_unlinked _ _ hunm, m6]

theorem usb_get_urb_facts (h : usb_hcd) (v : Nat) :
    (usb_get_urb h v).eps = h.eps ∧ (usb_get_urb h v).devs = h.devs ∧
    (usb_get_urb h v).anchors = h.anchors ∧ (usb_get_urb h v).trace = h.trace ∧
    (∀ u, u ≠ v → (usb_get_urb h v).urbs u = h.urbs u) ∧
    (usb_get_urb h v).urbs v = { h.urbs v with kref := (h.urbs v).kref + 1 } :=
  ⟨rfl, rfl, rfl, rfl, fun u hu => mod_urb_urbs_other h v u _ hu, mod_urb_urbs_same _ _ _⟩

theorem kill_round (drv : hc_driver) (pick : usb_hcd → Option (Nat × Int))
    (fuel : Nat) (h : usb_hcd) (v : Nat) (hdrv : dequeue_marks drv) (hfair : answers pick v)
    (hfl : in_flight h v) (hcalm : calm h) (hfuel : 0 < fuel) :
    ∃ h2, usb_kill_urb drv (hc_step pick) fuel (usb_get_urb h v) v = some h2 ∧
      killed h (usb_put_urb h2 v) v := by
  obtain ⟨g1, g2, g3, g4, g5, g6⟩ := usb_get_urb_facts h v
  have hfl2 : in_flight (usb_get_urb h v) v := by
    obtain ⟨a1, a2, a3, a4, a5, a6⟩ := hfl
    unfold in_flight queued at *
    rw [g6, g1, g2]
    exact ⟨a1, a2, a3, a4, a5, a6⟩
  have hcalm2 : calm (usb_get_urb h v) := by
    intro u hu
    unfold queued at hu
    by_cases huv : u = v
    · subst huv
      rw [g6]
      exact hfl.2.2.1
    · rw [g5 u huv, g1] at hu
      rw [g5 u huv]
      exact hcalm u hu
  obtain ⟨h2, hk, K⟩ := usb_kill_urb_in_flight drv pick fuel _ v hdrv hfair hfl2 hcalm2 hfuel
  refine ⟨h2, hk, ?_⟩
  have c := core_frame_put h2 v
  have q := quiet_frame_put h2 v
  have pa := usb_put_urb_anchors h2 v
  have hep : ((usb_get_urb h v).urbs v).ep = (h.urbs v).ep := by rw [g6]
  have han : ((usb_get_urb h v).urbs v).anchor = (h.urbs v).anchor := by rw [g6]
  refine ⟨?_, ?_, ?_, ?_, ?_, ?_, ?_, ?_, ?_, ?_⟩
  · rw [c.devs_eq, K.devs_eq, g2]
  · intro u hu
    rw [c.others u hu, K.others u hu, g5 u hu]
  · rw [c.ep_eq, K.ep_eq, hep]
  · rw [c.reject_eq, K.reject_eq, g6]
  · rw [q.use_eq, K.use_zero]
  · rw [c.eps_eq, ← hep, K.queue_home, g1]
  · intro p hp
    rw [c.eps_eq, K.queue_other p (by rw [hep]; exact hp), g1]
  · intro a ha
    rw [pa, K.anchor_home a (by rw [han]; exact ha), g3]
  · intro a ha
    rw [pa, K.anchor_other a (by rw [han]; exact ha), g3]
  · rw [q.completed_eq, K.done, g4]

theorem erase_append_singleton (M : List Nat) (v : Nat) (h : v ∉ M) :
    (M ++ [v]).erase v = M := by
  rw [List.erase_append_right _ h]
  simp

theorem killed_queued (h h2 : usb_hcd) (v u : Nat) (K : killed h h2 v) (hu : u ≠ v)
    (hq : queued h u) : queued h2 u := by
  unfold queued at *
  rw [K.others u hu]
  rw [urb_list_find_iff] at hq ⊢
  by_cases hp : (h.urbs u).ep = (h.urbs v).ep
  · rw [hp, K.queue_home]
    rw [hp] at hq
    exact (List.mem_erase_of_ne hu).2 hq
  · rw [K.queue_other _ hp]
    exact hq

theorem killed_queued_rev (h h2 : usb_hcd) (v u : Nat) (K : killed h h2 v) (hu : u ≠ v)
    (hq : queued h2 u) : queued h u := by
  unfold queued at *
  rw [K.others u hu] at hq
  rw [urb_list_find_iff] at hq ⊢
  by_cases hp : (h.urbs u).ep = (h.urbs v).ep
  · rw [hp, K.queue_home] at hq
    rw [hp]
    exact List.mem_of_mem_erase hq
  · rw [K.queue_other _ hp] at hq
    exact hq

theorem killed_not_queued (h h2 : usb_hcd) (v : Nat) (K : killed h h2 v)
    (hnd : ∀ p, (h.eps p).urb_list.Nodup) : ¬ queued h2 v := by
  unfold queued
  rw [K.ep_eq, K.queue_home, urb_list_find_iff]
  exact fun hm => (List.Nodup.mem_erase_iff (hnd _)).1 hm |>.1 rfl

theorem killed_nodup (h h2 : usb_hcd) (v : Nat) (K : killed h h2 v)
    (hnd : ∀ p, (h.eps p).urb_list.Nodup) : ∀ p, (h2.eps p).urb_list.Nodup := by
  intro p
  by_cases hp : p = (h.urbs v).ep
  · rw [hp, K.queue_home]
    exact List.Nodup.erase _ (hnd _)
  · rw [K.queue_other p hp]
    exact hnd p

theorem killed_in_flight (h h2 : usb_hcd) (v u : Nat) (K : killed h h2 v) (hu : u ≠ v)
    (hf : in_flight h u) : in_flight h2 u := by
  obtain ⟨a1, a2, a3, a4, a5, a6⟩ := hf
  refine ⟨killed_queued h h2 v u K hu a1, ?_, ?_, ?_, ?_, ?_⟩
  · rw [K.others u hu]; exact a2
  · rw [K.others u hu]; exact a3
  · rw [K.others u hu]; exact a4
  · rw [K.others u hu]; exact a5
  · rw [K.others u hu, K.devs_eq]; exact a6

theorem killed_calm (h h2 : usb_hcd) (v : Nat) (K : killed h h2 v)
    (hnd : ∀ p, (h.eps p).urb_list.Nodup) (hc : calm h) : calm h2 := by
  intro u hu
  by_cases huv : u = v
  · subst huv
    exact absurd hu (killed_not_queued h h2 u K hnd)
  · rw [K.others u huv]
    exact hc u (killed_queued_rev h h2 v u K huv hu)

theorem usb_kill_anchored_urbs_sweep (drv : hc_driver) (pick : usb_hcd → Option (Nat × Int))
    (fuel a : Nat) (hdrv : dequeue_marks drv) (hfuel : 0 < fuel) :
    ∀ (M : List Nat) (h : usb_hcd) (n : Nat), M.length < n →
      (h.anchors a).urb_list = M → M.Nodup →
      (∀ u, u ∈ M → answers pick u) →
      (∀ u, u ∈ M → in_flight h u ∧ (h.urbs u).anchor = some a) →
      calm h → (∀ p, (h.eps p).urb_list.Nodup) →
      ∃ h2, usb_kill_anchored_urbs drv (hc_step pick) fuel a n h = some h2 ∧
        kill_each drv (hc_step pick) fuel M.reverse h = some h2 ∧
        (h2.anchors a).urb_list = [] ∧
        completed h2.trace = completed h.trace ++ M.reverse.map (fun u => (u, -ENOENT)) := by
  intro M
  induction M using List.reverseRecOn with
  | nil =>
    intro h n hn hM _ _ _ _ _
    obtain ⟨k, hk⟩ : ∃ k, n = k + 1 := ⟨n - 1, by omega⟩
    subst hk
    refine ⟨h, ?_, rfl, hM, by simp⟩
    rw [usb_kill_anchored_urbs, hM]
    rfl
  | append_singleton M v ih =>
    intro h n hn hM hnd hfair hfl hcalm hq
    obtain ⟨k, hk⟩ : ∃ k, n = k + 1 := ⟨n - 1, by omega⟩
    subst hk
    have hvM : v ∉ M := by
      intro hm
      have := List.nodup_append.1 hnd
      exact this.2.2 hm (by simp)
    have hndM : M.Nodup := (List.nodup_append.1 hnd).1
    obtain ⟨hv1, hv2⟩ := hfl v (by simp)
    obtain ⟨h2, hk, K⟩ := kill_round drv pick fuel h v hdrv (hfair v (by simp)) hv1 hcalm hfuel
    have hM2 : ((usb_put_urb h2 v).anchors a).urb_list = M := by
      rw [K.anchor_home a hv2, hM, erase_append_singleton M v hvM]
    have hfl2 : ∀ u, u ∈ M → in_flight (usb_put_urb h2 v) u ∧
        ((usb_put_urb h2 v).urbs u).anchor = some a := by
      intro u hu
      have huv : u ≠ v := fun e => hvM (e ▸ hu)
      obtain ⟨f1, f2⟩ := hfl u (List.mem_append_left _ hu)
      exact ⟨killed_in_flight h _ v u K huv f1, by rw [K.others u huv]; exact f2⟩
    have hlen : M.length < k := by
      rw [List.length_append, List.length_singleton] at hn
      omega
    obtain ⟨h3, s1, s2, s3, s4⟩ := ih (usb_put_urb h2 v) k hlen hM2 hndM
      (fun u hu => hfair u (List.mem_append_left _ hu)) hfl2
      (killed_calm h _ v K hq hcalm) (killed_nodup h _ v K hq)
    refine ⟨h3, ?_, ?_, s3, ?_⟩
    · rw [usb_kill_anchored_urbs, hM, List.getLast?_append, List.getLast?_singleton]
      dsimp only [Option.or]
      rw [hk]
      exact s1
    · rw [List.reverse_append, List.reverse_singleton, List.singleton_append, kill_each, hk]
      exact s2
    · rw [s4, K.done, List.reverse_append, List.reverse_singleton, List.singleton_append,
        List.map_cons, List.append_assoc]
      rfl

theorem pick_of_answers (cands : List Nat) (v : Nat) (hv : v ∈ cands) :
    answers (pick_of cands) v := by
  intro h hq hu
  have hp : (fun u => urb_list_find u (h.eps (h.urbs u).ep).urb_list
      && decide ((h.urbs u).unlinked ≠ 0)) v = true := by
    unfold queued at hq
    simp [hq, hu]
  cases hf : cands.find? (fun u => urb_list_find u (h.eps (h.urbs u).ep).urb_list
      && decide ((h.urbs u).unlinked ≠ 0)) with
  | none =>
    have := List.find?_eq_none.1 hf v hv
    exact absurd hp this
  | some w =>
    have hw := List.find?_some hf
    simp only [Bool.and_eq_true, decide_eq_true_eq] at hw
    refine ⟨w, 0, ?_, hw.1, hw.2⟩
    unfold pick_of
    rw [hf]
    rfl

theorem usb_anchor_urb_facts (h : usb_hcd) (u a : Nat) :
    ((usb_anchor_urb h u a).anchors a).urb_list = (h.anchors a).urb_list ++ [u] ∧
    ((usb_anchor_urb h u a).urbs u).anchor = some a ∧
    (∀ v, v ≠ u → (usb_anchor_urb h u a).urbs v = h.urbs v) := by
  unfold usb_anchor_urb
  dsimp only
  split
  · refine ⟨?_, ?_, ?_⟩
    · simp [usb_hcd.mod_urb, usb_get_urb, upd_same]
    · simp [usb_hcd.mod_urb, usb_get_urb, upd_same]
    · intro v hv
      simp [usb_hcd.mod_urb, usb_get_urb, upd_other _ _ _ _ hv]
  · refine ⟨?_, ?_, ?_⟩
    · simp [usb_hcd.mod_urb, usb_get_urb, upd_same]
    · simp [usb_hcd.mod_urb, usb_get_urb, upd_same]
    · intro v hv
      simp [usb_hcd.mod_urb, usb_get_urb, upd_other _ _ _ _ hv]

theorem usb_anchor_urb_fold (a : Nat) :
    ∀ (L : List Nat) (h : usb_hcd),
      ((L.foldl (fun s u => usb_anchor_urb s u a) h).anchors a).urb_list
        = (h.anchors a).urb_list ++ L ∧
      (∀ u, u ∈ L → ((L.foldl (fun s u => usb_anchor_urb s u a) h).urbs u).anchor = some a) ∧
      (∀ u, u ∉ L → (L.foldl (fun s u => usb_anchor_urb s u a) h).urbs u = h.urbs u) := by
  intro L
  induction L with
  | nil => intro h; exact ⟨by simp, fun _ hu => absurd hu (by simp), fun _ _ => rfl⟩
  | cons x rest ih =>
    intro h
    obtain ⟨f1, f2, f3⟩ := usb_anchor_urb_facts h x a
    obtain ⟨i1, i2, i3⟩ := ih (usb_anchor_urb h x a)
    rw [List.foldl_cons]
    refine ⟨?_, ?_, ?_⟩
    · rw [i1, f1, List.append_assoc]
      rfl
    · intro u hu
      by_cases hr : u ∈ rest
      · exact i2 u hr
      · rw [i3 u hr]
        rcases List.mem_cons.1 hu with e | e
        · rw [e]; exact f2
        · exact absurd e hr
    · intro u hu
      rw [i3 u (fun hm => hu (List.mem_cons_of_mem _ hm))]
      exact f3 u (fun e => hu (by rw [e]; exact List.mem_cons_self _ _))

/-- C19 (as the code behaves).  On `hcd_anchored` the URBs 1 and 2 were anchored in this
order, and `usb_kill_anchored_urbs` kills URB 2 first: the completion callbacks run for
URB 2 and then for URB 1, each with `-ENOENT`. -/
theorem usb_kill_anchored_urbs_newest_first :
    (hcd_anchored.anchors 0).urb_list = [1, 2] ∧
    (usb_kill_anchored_urbs drv_link (hc_step (pick_of [1, 2])) 1 0 3 hcd_anchored).map
      (fun h => (completed h.trace, (h.anchors 0).urb_list))
      = some ([(2, -ENOENT), (1, -ENOENT)], []) := by
  decide

/-- C19, amended.  The URBs `L = [U1, ..., Un]` are anchored with `usb_anchor_urb` in
this order on an empty anchor, they are all in flight, no other unlink is pending, and the
controller answers unlink requests.  Then `usb_kill_anchored_urbs` returns, it has killed
the URBs in the order `Un, ..., U1` (the newest first), each of them between a
`usb_get_urb` and a `usb_put_urb`, their completion callbacks have run in this order with
`-ENOENT`, and the anchor is empty. -/
theorem usb_kill_anchored_urbs_order (drv : hc_driver) (pick : usb_hcd → Option (Nat × Int))
    (fuel a n : Nat) (L : List Nat) (h0 : usb_hcd)
    (hdrv : dequeue_marks drv) (hfair : ∀ u, u ∈ L → answers pick u)
    (hfuel : 0 < fuel) (hn : L.length < n)
    (hempty : (h0.anchors a).urb_list = []) (hnd : L.Nodup)
    (hfl : ∀ u, u ∈ L → in_flight (L.foldl (fun s u => usb_anchor_urb s u a) h0) u)
    (hcalm : calm (L.foldl (fun s u => usb_anchor_urb s u a) h0))
    (hq : ∀ p, ((L.foldl (fun s u => usb_anchor_urb s u a) h0).eps p).urb_list.Nodup) :
    ((L.foldl (fun s u => usb_anchor_urb s u a) h0).anchors a).urb_list = L ∧
    ∃ h2, usb_kill_anchored_urbs drv (hc_step pick) fuel a n
        (L.foldl (fun s u => usb_anchor_urb s u a) h0) = some h2 ∧
      kill_each drv (hc_step pick) fuel L.reverse
        (L.foldl (fun s u => usb_anchor_urb s u a) h0) = some h2 ∧
      (h2.anchors a).urb_list = [] ∧
      completed h2.trace = completed (L.foldl (fun s u => usb_anchor_urb s u a) h0).trace
        ++ L.reverse.map (fun u => (u, -ENOENT)) := by
  obtain ⟨f1, f2, _⟩ := usb_anchor_urb_fold a L h0
  rw [hempty, List.nil_append] at f1
  exact ⟨f1, usb_kill_anchored_urbs_sweep drv pick fuel a hdrv hfuel L _ n hn f1 hnd hfair
    (fun u hu => ⟨hfl u hu, f2 u hu⟩) hcalm hq⟩

theorem hcd_anchored_calm : calm hcd_anchored := by
  intro u _
  have h1 : ∀ (h : usb_hcd) (x a : Nat), (∀ v, (h.urbs v).unlinked = 0) →
      ∀ v, ((usb_anchor_urb h x a).urbs v).unlinked = 0 := by
    intro h x a hh v
    by_cases hv : v = x
    · subst hv
      unfold usb_anchor_urb
      dsimp only
      split <;> simp [usb_hcd.mod_urb, usb_get_urb, upd_same, hh v]
    · rw [(usb_anchor_urb_facts h x a).2.2 v hv]
      exact hh v
  exact h1 _ 2 0 (h1 hcd_flying 1 0 (fun _ => rfl)) u

theorem hcd_anchored_nodup : ∀ p, (hcd_anchored.eps p).urb_list.Nodup := by
  intro p
  show (if p = 0 then [1, 2, 3] else ([] : List Nat)).Nodup
  split <;> decide

/-- Witness for C19, amended: the URBs 1 and 2 of `hcd_flying`, anchored in this order,
with the driver `drv_link` and a controller that serves them. -/
theorem usb_kill_anchored_urbs_order_witness :
    (dequeue_marks drv_link ∧ calm hcd_anchored ∧ in_flight hcd_anchored 1 ∧
      in_flight hcd_anchored 2) ∧
    ((hcd_anchored.anchors 0).urb_list = [1, 2] ∧
      ∃ h2, usb_kill_anchored_urbs drv_link (hc_step (pick_of [1, 2])) 1 0 3 hcd_anchored
          = some h2 ∧
        kill_each drv_link (hc_step (pick_of [1, 2])) 1 [2, 1] hcd_anchored = some h2 ∧
        (h2.anchors 0).urb_list = [] ∧
        completed h2.trace = completed hcd_anchored.trace ++ [(2, -ENOENT), (1, -ENOENT)]) :=
  ⟨⟨fun _ _ _ => rfl, hcd_anchored_calm, by unfold in_flight queued; decide,
      by unfold in_flight queued; decide⟩,
    usb_kill_anchored_urbs_order drv_link (pick_of [1, 2]) 1 0 3 [1, 2] hcd_flying
      (fun _ _ _ => rfl) (fun u hu => pick_of_answers [1, 2] u hu) (by decide) (by decide)
      rfl (by decide)
      (fun u hu => by
        rcases List.mem_cons.1 hu with e | hu
        · subst e; unfold in_flight queued; decide
        · rcases List.mem_cons.1 hu with e | hu
          · subst e; unfold in_flight queued; decide
          · exact absurd hu (by simp))
      hcd_anchored_calm hcd_anchored_nodup⟩

/-! ## Two concurrent usb_kill_urb calls -/

theorem completions_append (a b : List core_event) (u : Nat) :
    completions (a ++ b) u = completions a u + completions b u := by
  unfold completions
  rw [completed_append, List.filter_append, List.length_append]

theorem same_for_base (h h2 : usb_hcd) (u : Nat) (f : same_for h h2 u)
    (hb : kill_base h u) : kill_base h2 u := by
  unfold kill_base at *
  rw [f.eps_eq, f.ep_eq]
  exact hb

theorem same_for_queued (h h2 : usb_hcd) (u : Nat) (f : same_for h h2 u) :
    queued h2 u ↔ queued h u := by
  unfold queued
  rw [f.eps_eq, f.ep_eq]

theorem same_for_live (h h2 : usb_hcd) (u c : Nat) (f : same_for h h2 u)
    (hl : kill_live h u c) : kill_live h2 u c := by
  obtain ⟨a1, a2, a3, a4, a5⟩ := hl
  refine ⟨(same_for_queued h h2 u f).2 a1, ?_, ?_, ?_, ?_⟩
  · rw [f.use_eq]; exact a2
  · rw [f.has_dev_eq]; exact a3
  · rw [f.has_ep_eq]; exact a4
  · rw [f.done_eq]; exact a5

theorem same_for_done (h h2 : usb_hcd) (u c : Nat) (f : same_for h h2 u)
    (hd : kill_done h u c) : kill_done h2 u c := by
  obtain ⟨a1, a2, a3⟩ := hd
  refine ⟨fun hq => a1 ((same_for_queued h h2 u f).1 hq), ?_, ?_⟩
  · rw [f.use_eq]; exact a2
  · rw [f.done_eq]; exact a3

theorem same_for_reject (h : usb_hcd) (u : Nat) (d : Int) :
    same_for h (h.mod_urb u (fun x => { x with reject := x.reject + d })) u := by
  refine ⟨rfl, rfl, ?_, ?_, ?_, ?_, ?_, rfl⟩ <;> rw [mod_urb_urbs_same]

theorem same_for_refl (h : usb_hcd) (u : Nat) : same_for h h u :=
  ⟨rfl, rfl, rfl, rfl, rfl, rfl, rfl, rfl⟩

theorem same_for_trans {a b c : usb_hcd} {u : Nat} (h1 : same_for a b u)
    (h2 : same_for b c u) : same_for a c u :=
  ⟨h2.eps_eq.trans h1.eps_eq, h2.devs_eq.trans h1.devs_eq, h2.ep_eq.trans h1.ep_eq,
    h2.dev_eq.trans h1.dev_eq, h2.use_eq.trans h1.use_eq, h2.has_dev_eq.trans h1.has_dev_eq,
    h2.has_ep_eq.trans h1.has_ep_eq, h2.done_eq.trans h1.done_eq⟩

theorem same_for_check_unlink (h : usb_hcd) (u : Nat) (st : Int) :
    same_for h (usb_hcd_check_unlink_urb h u st).2 u := by
  obtain ⟨g1, g2, _, g4, _, _, g7⟩ := check_unlink_frame h u st
  refine ⟨g1, g2, ?_, ?_, ?_, ?_, ?_, by rw [g4]⟩
  · rw [g7]
  · rw [g7]
  · rw [g7]
  · rw [g7]
  · rw [g7]

theorem same_for_emit (h : usb_hcd) (ev : core_event) (u : Nat)
    (hev : ∀ w seen, ev ≠ .complete w seen) : same_for h (h.emit ev) u := by
  refine ⟨rfl, rfl, rfl, rfl, rfl, rfl, rfl, ?_⟩
  unfold completions
  rw [completed_emit_other h ev hev]

theorem check_unlink_zero_queued (h : usb_hcd) (u : Nat) (st : Int)
    (h0 : (usb_hcd_check_unlink_urb h u st).1 = 0) : queued h u := by
  unfold queued
  unfold usb_hcd_check_unlink_urb at h0
  by_contra hq
  rw [if_pos (by simpa using hq)] at h0
  have h1 : (-EIDRM : Int) = 0 := h0
  exact absurd h1 (by decide)

theorem usb_rh_urb_dequeue_effect (h : usb_hcd) (u : Nat) (st : Int) :
    same_for h (usb_rh_urb_dequeue h u st).2 u ∨
    (queued h u ∧ ∃ h2, same_for h h2 u ∧
      (usb_rh_urb_dequeue h u st).2 = hcd_complete_urb h2 u st) := by
  unfold usb_rh_urb_dequeue
  dsimp only
  have f1 := same_for_check_unlink h u st
  split
  · exact Or.inl f1
  · rename_i h0
    have hq : queued h u := check_unlink_zero_queued h u st (by simpa using h0)
    generalize (usb_hcd_check_unlink_urb h u st) = r at f1
    split
    · exact Or.inl f1
    · have f2 : same_for h (if r.2.uses_new_polling = true then r.2
          else r.2.emit .del_timer) u := by
        split
        · exact f1
        · exact same_for_trans f1 (same_for_emit _ _ u (fun _ _ => by simp))
      generalize (if r.2.uses_new_polling = true then r.2 else r.2.emit .del_timer) = h1 at f2
      split
      · exact Or.inl f2
      · refine Or.inr ⟨hq, { h1 with status_urb := none }, ?_, rfl⟩
        exact same_for_trans f2 ⟨rfl, rfl, rfl, rfl, rfl, rfl, rfl, rfl⟩

theorem unlink1_effect (drv : hc_driver) (h : usb_hcd) (u : Nat) (st : Int)
    (hdrv : dequeue_marks drv) :
    same_for h (unlink1 drv h u st).2 u ∨
    (queued h u ∧ ∃ h2, same_for h h2 u ∧ (unlink1 drv h u st).2 = hcd_complete_urb h2 u st) := by
  unfold unlink1
  split
  · exact usb_rh_urb_dequeue_effect h u st
  · rw [hdrv]
    exact Or.inl (same_for_trans (same_for_emit h _ u (fun _ _ => by simp))
      (same_for_check_unlink _ u st))

theorem retired_queued_other (h h2 : usb_hcd) (w u : Nat) (st : Int) (r : retired h h2 w st)
    (hu : u ≠ w) : queued h2 u ↔ queued h u := by
  unfold queued
  rw [r.others u hu, urb_list_find_iff, urb_list_find_iff]
  by_cases hp : (h.urbs u).ep = (h.urbs w).ep
  · rw [hp, r.queue_home]
    exact List.mem_erase_of_ne hu
  · rw [r.queue_other _ hp]

theorem retired_base (h h2 : usb_hcd) (w u : Nat) (st : Int) (r : retired h h2 w st)
    (hb : kill_base h u) : kill_base h2 u := by
  unfold kill_base at *
  have he : (h2.urbs u).ep = (h.urbs u).ep := by
    by_cases hu : u = w
    · subst hu
      exact r.ep_eq
    · rw [r.others u hu]
  rw [he]
  by_cases hp : (h.urbs u).ep = (h.urbs w).ep
  · rw [hp, r.queue_home]
    rw [hp] at hb
    exact List.Nodup.erase _ hb
  · rw [r.queue_other _ hp]
    exact hb

theorem retired_completions_other (h h2 : usb_hcd) (w u : Nat) (st : Int)
    (r : retired h h2 w st) (hu : u ≠ w) :
    completions h2.trace u = completions h.trace u := by
  unfold completions
  rw [r.done, List.filter_append]
  have : List.filter (fun c : Nat × Int => decide (c.1 = u))
      [(w, giveback_status (h.urbs w) st)] = [] := by
    have hwu : ¬ w = u := fun e => hu e.symm
    simp [hwu]
  rw [this, List.append_nil]

theorem retired_completions_self (h h2 : usb_hcd) (w : Nat) (st : Int)
    (r : retired h h2 w st) : completions h2.trace w = completions h.trace w + 1 := by
  unfold completions
  rw [r.done, List.filter_append, List.length_append]
  simp

theorem retired_live_other (h h2 : usb_hcd) (w u c : Nat) (st : Int) (r : retired h h2 w st)
    (hu : u ≠ w) (hl : kill_live h u c) : kill_live h2 u c := by
  obtain ⟨a1, a2, a3, a4, a5⟩ := hl
  refine ⟨(retired_queued_other h h2 w u st r hu).2 a1, ?_, ?_, ?_, ?_⟩
  · rw [r.others u hu]; exact a2
  · rw [r.others u hu]; exact a3
  · rw [r.others u hu]; exact a4
  · rw [retired_completions_other h h2 w u st r hu]; exact a5

theorem retired_done_other (h h2 : usb_hcd) (w u c : Nat) (st : Int) (r : retired h h2 w st)
    (hu : u ≠ w) (hd : kill_done h u c) : kill_done h2 u c := by
  obtain ⟨a1, a2, a3⟩ := hd
  refine ⟨fun hq => a1 ((retired_queued_other h h2 w u st r hu).1 hq), ?_, ?_⟩
  · rw [r.others u hu]; exact a2
  · rw [retired_completions_other h h2 w u st r hu]; exact a3

theorem retired_live_self (h h2 : usb_hcd) (u c : Nat) (st : Int) (r : retired h h2 u st)
    (hb : kill_base h u) (hl : kill_live h u c) : kill_done h2 u c := by
  obtain ⟨a1, a2, a3, a4, a5⟩ := hl
  refine ⟨?_, ?_, ?_⟩
  · unfold queued
    rw [r.ep_eq, r.queue_home, urb_list_find_iff]
    exact fun hm => ((List.Nodup.mem_erase_iff hb).1 hm).1 rfl
  · rw [r.use_eq, a2]; rfl
  · rw [retired_completions_self h h2 u st r, a5]

theorem usb_kill_urb_step_inv (drv : hc_driver) (u c : Nat) (pc pc2 : kill_pc)
    (h h2 : usb_hcd) (hdrv : dequeue_marks drv) (hb : kill_base h u)
    (hs : usb_kill_urb_step drv u pc h = some (pc2, h2)) :
    kill_base h2 u ∧
    (kill_live h u c → pc ≠ .woken ∧ pc ≠ .returned →
      (kill_live h2 u c ∧ pc2 ≠ .woken ∧ pc2 ≠ .returned) ∨ kill_done h2 u c) ∧
    (kill_done h u c → kill_done h2 u c) := by
  cases pc with
  | start =>
    simp only [usb_kill_urb_step] at hs
    split at hs
    · rename_i hnull
      obtain ⟨e1, e2⟩ := Prod.mk.inj (Option.some.inj hs)
      subst e1; subst e2
      refine ⟨hb, fun hl _ => ?_, fun hd => hd⟩
      obtain ⟨_, _, a3, a4, _⟩ := hl
      rw [a3, a4] at hnull
      exact absurd hnull (by simp)
    · obtain ⟨e1, e2⟩ := Prod.mk.inj (Option.some.inj hs)
      subst e1; subst e2
      have f := same_for_reject h u 1
      exact ⟨same_for_base _ _ u f hb,
        fun hl _ => Or.inl ⟨same_for_live _ _ u c f hl, by simp, by simp⟩,
        fun hd => same_for_done _ _ u c f hd⟩
  | marked =>
    simp only [usb_kill_urb_step] at hs
    split at hs
    · obtain ⟨e1, e2⟩ := Prod.mk.inj (Option.some.inj hs)
      subst e1; subst e2
      exact ⟨hb, fun hl _ => Or.inl ⟨hl, by simp, by simp⟩, fun hd => hd⟩
    · obtain ⟨e1, e2⟩ := Prod.mk.inj (Option.some.inj hs)
      subst e1; subst e2
      exact ⟨hb, fun hl _ => Or.inl ⟨hl, by simp, by simp⟩, fun hd => hd⟩
  | live =>
    simp only [usb_kill_urb_step] at hs
    obtain ⟨e1, e2⟩ := Prod.mk.inj (Option.some.inj hs)
    subst e1; subst e2
    rcases unlink1_effect drv h u (-ENOENT) hdrv with f | ⟨hq, h3, f, he⟩
    · exact ⟨same_for_base _ _ u f hb,
        fun hl _ => Or.inl ⟨same_for_live _ _ u c f hl, by simp, by simp⟩,
        fun hd => same_for_done _ _ u c f hd⟩
    · rw [he]
      have r := hcd_complete_urb_retired h3 u (-ENOENT)
      have hb3 := same_for_base _ _ u f hb
      exact ⟨retired_base _ _ u u _ r hb3,
        fun hl _ => Or.inr (retired_live_self _ _ u c _ r hb3 (same_for_live _ _ u c f hl)),
        fun hd => absurd hq hd.1⟩
  | waiting =>
    simp only [usb_kill_urb_step] at hs
    split at hs
    · rename_i hz
      obtain ⟨e1, e2⟩ := Prod.mk.inj (Option.some.inj hs)
      subst e1; subst e2
      refine ⟨hb, fun hl _ => ?_, fun hd => hd⟩
      rw [hl.2.1] at hz
      exact absurd hz (by decide)
    · exact absurd hs (by simp)
  | woken =>
    simp only [usb_kill_urb_step] at hs
    obtain ⟨e1, e2⟩ := Prod.mk.inj (Option.some.inj hs)
    subst e1; subst e2
    have f : same_for h (h.mod_urb u (fun x => { x with reject := x.reject - 1 })) u := by
      refine ⟨rfl, rfl, ?_, ?_, ?_, ?_, ?_, rfl⟩ <;> rw [mod_urb_urbs_same]
    exact ⟨same_for_base _ _ u f hb, fun _ hp => absurd rfl hp.1,
      fun hd => same_for_done _ _ u c f hd⟩
  | returned =>
    simp only [usb_kill_urb_step] at hs
    exact absurd hs (by simp)

theorem kill2_next_inv (drv : hc_driver) (u c : Nat) (s s1 : kill2_state) (a : kill2_action)
    (hdrv : dequeue_marks drv) (hinv : kill2_inv s u c)
    (hn : kill2_next drv u s a = some s1) : kill2_inv s1 u c := by
  obtain ⟨hb, hor⟩ := hinv
  cases a with
  | first =>
    simp only [kill2_next] at hn
    cases hst : usb_kill_urb_step drv u s.pc1 s.hcd with
    | none => rw [hst] at hn; exact absurd hn (by simp)
    | some q =>
      obtain ⟨pc, h⟩ := q
      rw [hst] at hn
      rw [← Option.some.inj hn]
      obtain ⟨b2, l2, d2⟩ := usb_kill_urb_step_inv drv u c s.pc1 pc s.hcd h hdrv hb hst
      refine ⟨b2, ?_⟩
      rcases hor with ⟨hl, hp1, hp2⟩ | hd
      · rcases l2 hl hp1 with ⟨hl2, hq1, hq2⟩ | hd2
        · exact Or.inl ⟨hl2, ⟨hq1, hq2⟩, hp2⟩
        · exact Or.inr hd2
      · exact Or.inr (d2 hd)
  | second =>
    simp only [kill2_next] at hn
    cases hst : usb_kill_urb_step drv u s.pc2 s.hcd with
    | none => rw [hst] at hn; exact absurd hn (by simp)
    | some q =>
      obtain ⟨pc, h⟩ := q
      rw [hst] at hn
      rw [← Option.some.inj hn]
      obtain ⟨b2, l2, d2⟩ := usb_kill_urb_step_inv drv u c s.pc2 pc s.hcd h hdrv hb hst
      refine ⟨b2, ?_⟩
      rcases hor with ⟨hl, hp1, hp2⟩ | hd
      · rcases l2 hl hp2 with ⟨hl2, hq1, hq2⟩ | hd2
        · exact Or.inl ⟨hl2, hp1, ⟨hq1, hq2⟩⟩
        · exact Or.inr hd2
      · exact Or.inr (d2 hd)
  | complete w st =>
    simp only [kill2_next] at hn
    split at hn
    · rename_i hq
      rw [← Option.some.inj hn]
      have r := hcd_complete_urb_retired s.hcd w st
      refine ⟨retired_base _ _ w u st r hb, ?_⟩
      by_cases hwu : u = w
      · subst hwu
        rcases hor with ⟨hl, _, _⟩ | hd
        · exact Or.inr (retired_live_self _ _ u c st r hb hl)
        · exact absurd hq hd.1
      · rcases hor with ⟨hl, hp1, hp2⟩ | hd
        · exact Or.inl ⟨retired_live_other _ _ w u c st r hwu hl, hp1, hp2⟩
        · exact Or.inr (retired_done_other _ _ w u c st r hwu hd)
    · exact absurd hn (by simp)

theorem kill2_run_inv (drv : hc_driver) (u c : Nat) (hdrv : dequeue_marks drv) :
    ∀ (acts : List kill2_action) (s s2 : kill2_state), kill2_inv s u c →
      kill2_run drv u acts s = some s2 → kill2_inv s2 u c := by
  intro acts
  induction acts with
  | nil =>
    intro s s2 hinv hr
    rw [kill2_run] at hr
    rw [← Option.some.inj hr]
    exact hinv
  | cons a rest ih =>
    intro s s2 hinv hr
    rw [kill2_run] at hr
    cases hn : kill2_next drv u s a with
    | none => rw [hn] at hr; exact absurd hr (by simp)
    | some s1 =>
      rw [hn] at hr
      exact ih s1 s2 (kill2_next_inv drv u c s s1 a hdrv hinv hn) hr

theorem kill2_run_append (drv : hc_driver) (u : Nat) :
    ∀ (a b : List kill2_action) (s : kill2_state),
      kill2_run drv u (a ++ b) s = (kill2_run drv u a s).bind (kill2_run drv u b) := by
  intro a
  induction a with
  | nil => intro b s; rfl
  | cons x rest ih =>
    intro b s
    rw [List.cons_append, kill2_run, kill2_run]
    cases kill2_next drv u s x with
    | none => rfl
    | some s1 => exact ih b s1

theorem kill2_finish_first (drv : hc_driver) (u c : Nat) (hdrv : dequeue_marks drv) :
    ∀ (n : Nat) (s : kill2_state), kill_base s.hcd u → kill_done s.hcd u c →
      (match s.pc1 with
        | .start => 4 | .marked => 3 | .live => 3 | .waiting => 2 | .woken => 1
        | .returned => 0) ≤ n →
      ∃ acts s2, kill2_run drv u acts s = some s2 ∧ s2.pc1 = .returned ∧ s2.pc2 = s.pc2 ∧
        kill_base s2.hcd u ∧ kill_done s2.hcd u c := by
  intro n
  induction n with
  | zero =>
    intro s hb hd hr
    refine ⟨[], s, rfl, ?_, rfl, hb, hd⟩
    cases hpc : s.pc1 <;> rw [hpc] at hr <;> simp at hr
  | succ n ih =>
    intro s hb hd hr
    by_cases hret : s.pc1 = .returned
    · exact ⟨[], s, rfl, hret, rfl, hb, hd⟩
    · have hstep : ∃ pc h, usb_kill_urb_step drv u s.pc1 s.hcd = some (pc, h) ∧
          (match pc with
            | .start => 4 | .marked => 3 | .live => 3 | .waiting => 2 | .woken => 1
            | .returned => 0) ≤ n := by
        cases hpc : s.pc1 with
        | start =>
          rw [hpc] at hr
          simp only [usb_kill_urb_step]
          split
          · exact ⟨_, _, rfl, by simp⟩
          · exact ⟨_, _, rfl, by simp at hr ⊢; omega⟩
        | marked =>
          rw [hpc] at hr
          simp only [usb_kill_urb_step]
          rw [if_neg (by rw [hd.2.1]; decide)]
          exact ⟨_, _, rfl, by simp at hr ⊢; omega⟩
        | live =>
          rw [hpc] at hr
          simp only [usb_kill_urb_step]
          exact ⟨_, _, rfl, by simp at hr ⊢; omega⟩
        | waiting =>
          rw [hpc] at hr
          simp only [usb_kill_urb_step]
          rw [if_pos hd.2.1]
          exact ⟨_, _, rfl, by simp at hr ⊢; omega⟩
        | woken =>
          simp only [usb_kill_urb_step]
          exact ⟨_, _, rfl, by simp⟩
        | returned => exact absurd hpc hret
      obtain ⟨pc, h, hs, hrk⟩ := hstep
      obtain ⟨b2, _, d2⟩ := usb_kill_urb_step_inv drv u c s.pc1 pc s.hcd h hdrv hb hs
      obtain ⟨acts, s2, r1, r2, r3, r4, r5⟩ :=
        ih { s with hcd := h, pc1 := pc } b2 (d2 hd) hrk
      refine ⟨.first :: acts, s2, ?_, r2, r3, r4, r5⟩
      rw [kill2_run]
      simp only [kill2_next]
      rw [hs]
      exact r1

theorem kill2_finish_second (drv : hc_driver) (u c : Nat) (hdrv : dequeue_marks drv) :
    ∀ (n : Nat) (s : kill2_state), kill_base s.hcd u → kill_done s.hcd u c →
      (match s.pc2 with
        | .start => 4 | .marked => 3 | .live => 3 | .waiting => 2 | .woken => 1
        | .returned => 0) ≤ n →
      ∃ acts s2, kill2_run drv u acts s = some s2 ∧ s2.pc2 = .returned ∧ s2.pc1 = s.pc1 ∧
        kill_base s2.hcd u ∧ kill_done s2.hcd u c := by
  intro n
  induction n with
  | zero =>
    intro s hb hd hr
    refine ⟨[], s, rfl, ?_, rfl, hb, hd⟩
    cases hpc : s.pc2 <;> rw [hpc] at hr <;> simp at hr
  | succ n ih =>
    intro s hb hd hr
    by_cases hret : s.pc2 = .returned
    · exact ⟨[], s, rfl, hret, rfl, hb, hd⟩
    · have hstep : ∃ pc h, usb_kill_urb_step drv u s.pc2 s.hcd = some (pc, h) ∧
          (match pc with
            | .start => 4 | .marked => 3 | .live => 3 | .waiting => 2 | .woken => 1
            | .returned => 0) ≤ n := by
        cases hpc : s.pc2 with
        | start =>
          rw [hpc] at hr
          simp only [usb_kill_urb_step]
          split
          · exact ⟨_, _, rfl, by simp⟩
          · exact ⟨_, _, rfl, by simp at hr ⊢; omega⟩
        | marked =>
          rw [hpc] at hr
          simp only [usb_kill_urb_step]
          rw [if_neg (by rw [hd.2.1]; decide)]
          exact ⟨_, _, rfl, by simp at hr ⊢; omega⟩
        | live =>
          rw [hpc] at hr
          simp only [usb_kill_urb_step]
          exact ⟨_, _, rfl, by simp at hr ⊢; omega⟩
        | waiting =>
          rw [hpc] at hr
          simp only [usb_kill_urb_step]
          rw [if_pos hd.2.1]
          exact ⟨_, _, rfl, by simp at hr ⊢; omega⟩
        | woken =>
          simp only [usb_kill_urb_step]
          exact ⟨_, _, rfl, by simp⟩
        | returned => exact absurd hpc hret
      obtain ⟨pc, h, hs, hrk⟩ := hstep
      obtain ⟨b2, _, d2⟩ := usb_kill_urb_step_inv drv u c s.pc2 pc s.hcd h hdrv hb hs
      obtain ⟨acts, s2, r1, r2, r3, r4, r5⟩ :=
        ih { s with hcd := h, pc2 := pc } b2 (d2 hd) hrk
      refine ⟨.second :: acts, s2, ?_, r2, r3, r4, r5⟩
      rw [kill2_run]
      simp only [kill2_next]
      rw [hs]
      exact r1

theorem kill2_can_return (drv : hc_driver) (u c : Nat) (s : kill2_state)
    (hdrv : dequeue_marks drv) (hinv : kill2_inv s u c) :
    ∃ acts s2, kill2_run drv u acts s = some s2 ∧ s2.pc1 = .returned ∧
      s2.pc2 = .returned := by
  have hdone : ∃ a1 s1, kill2_run drv u a1 s = some s1 ∧ kill_base s1.hcd u ∧
      kill_done s1.hcd u c := by
    obtain ⟨hb, hor⟩ := hinv
    rcases hor with ⟨hl, _, _⟩ | hd
    · have hq : urb_list_find u (s.hcd.eps (s.hcd.urbs u).ep).urb_list = true := hl.1
      have r := hcd_complete_urb_retired s.hcd u 0
      refine ⟨[.complete u 0], { s with hcd := hcd_complete_urb s.hcd u 0 }, ?_,
        retired_base _ _ u u 0 r hb, retired_live_self _ _ u c 0 r hb hl⟩
      rw [kill2_run]
      simp only [kill2_next]
      rw [if_pos hq]
      rfl
    · exact ⟨[], s, rfl, hb, hd⟩
  obtain ⟨a1, s1, r1, b1, d1⟩ := hdone
  obtain ⟨a2, s2, r2, p2, _, b2, d2⟩ := kill2_finish_first drv u c hdrv 4 s1 b1 d1
    (by cases s1.pc1 <;> simp)
  obtain ⟨a3, s3, r3, p3, q3, _, _⟩ := kill2_finish_second drv u c hdrv 4 s2 b2 d2
    (by cases s2.pc2 <;> simp)
  refine ⟨a1 ++ (a2 ++ a3), s3, ?_, by rw [q3]; exact p2, p3⟩
  rw [kill2_run_append, r1]
  show kill2_run drv u (a2 ++ a3) s1 = some s3
  rw [kill2_run_append, r2]
  exact r3

/-- C18.  Two threads call `usb_kill_urb` for the same URB `u`, which is queued and in
use once (in flight), on a root hub or on a device; their statements and the completions
by the controller driver interleave in any order (`acts`).  In every state
`s` of such a run the completion callback of `u` has been invoked at most once more than
before; a thread that is past `wait_event` (so also one that has returned) sees
`use_count == 0` and exactly one such invocation; and the run can be continued so that
both threads return, again with exactly one invocation. -/
theorem usb_kill_urb_concurrent (drv : hc_driver) (u : Nat) (acts : List kill2_action)
    (s0 s : kill2_state) (hdrv : dequeue_marks drv)
    (hpc1 : s0.pc1 = .start) (hpc2 : s0.pc2 = .start)
    (hq : queued s0.hcd u) (huse : (s0.hcd.urbs u).use_count = 1)
    (hdev : (s0.hcd.urbs u).has_dev = true) (hep : (s0.hcd.urbs u).has_ep = true)
    (hnd : (s0.hcd.eps (s0.hcd.urbs u).ep).urb_list.Nodup)
    (hrun : kill2_run drv u acts s0 = some s) :
    completions s.hcd.trace u ≤ completions s0.hcd.trace u + 1 ∧
    (s.pc1 = .woken ∨ s.pc1 = .returned →
      (s.hcd.urbs u).use_count = 0 ∧
      completions s.hcd.trace u = completions s0.hcd.trace u + 1) ∧
    (s.pc2 = .woken ∨ s.pc2 = .returned →
      (s.hcd.urbs u).use_count = 0 ∧
      completions s.hcd.trace u = completions s0.hcd.trace u + 1) ∧
    ∃ more s2, kill2_run drv u more s = some s2 ∧
      s2.pc1 = .returned ∧ s2.pc2 = .returned ∧ (s2.hcd.urbs u).use_count = 0 ∧
      completions s2.hcd.trace u = completions s0.hcd.trace u + 1 := by
  have h0 : kill2_inv s0 u (completions s0.hcd.trace u) :=
    ⟨hnd, Or.inl ⟨⟨hq, huse, hdev, hep, rfl⟩, by rw [hpc1]; simp, by rw [hpc2]; simp⟩⟩
  have hs := kill2_run_inv drv u _ hdrv acts s0 s h0 hrun
  obtain ⟨more, s2, r1, r2, r3⟩ := kill2_can_return drv u _ s hdrv hs
  have hs2 := kill2_run_inv drv u _ hdrv more s s2 hs r1
  refine ⟨?_, ?_, ?_, more, s2, r1, r2, r3, ?_⟩
  · rcases hs.2 with ⟨hl, _, _⟩ | hd
    · rw [hl.2.2.2.2]; omega
    · rw [hd.2.2]
  · intro hp
    rcases hs.2 with ⟨_, hp1, _⟩ | hd
    · rcases hp with e | e
      · exact absurd e hp1.1
      · exact absurd e hp1.2
    · exact ⟨hd.2.1, hd.2.2⟩
  · intro hp
    rcases hs.2 with ⟨_, _, hp2⟩ | hd
    · rcases hp with e | e
      · exact absurd e hp2.1
      · exact absurd e hp2.2
    · exact ⟨hd.2.1, hd.2.2⟩
  · rcases hs2.2 with ⟨_, hp1, _⟩ | hd
    · exact absurd r2 hp1.2
    · exact ⟨hd.2.1, hd.2.2⟩

/-- Witness for C18: the schedule `kill2_schedule` for two killers of URB 1 of
`hcd_flying`.  Both threads return, the callback of URB 1 has run once, with `-ENOENT`,
and `reject` is back at 0. -/
theorem usb_kill_urb_concurrent_witness :
    (queued kill2_start.hcd 1 ∧ (kill2_start.hcd.urbs 1).use_count = 1 ∧
      completions kill2_start.hcd.trace 1 = 0) ∧
    (kill2_run drv_link 1 kill2_schedule kill2_start).map (fun s =>
      (s.pc1, s.pc2, completed s.hcd.trace, (s.hcd.urbs 1).use_count, (s.hcd.urbs 1).reject))
      = some (.returned, .returned, [(1, -ENOENT)], 0, 0) ∧
    (completions ((kill2_run drv_link 1 kill2_schedule kill2_start).getD kill2_start).hcd.trace 1
        ≤ completions kill2_start.hcd.trace 1 + 1 ∧
      (((kill2_run drv_link 1 kill2_schedule kill2_start).getD kill2_start).pc1 = .woken ∨
        ((kill2_run drv_link 1 kill2_schedule kill2_start).getD kill2_start).pc1 = .returned →
        ((((kill2_run drv_link 1 kill2_schedule kill2_start).getD kill2_start).hcd.urbs
          1).use_count = 0 ∧
        completions ((kill2_run drv_link 1 kill2_schedule kill2_start).getD
          kill2_start).hcd.trace 1 = completions kill2_start.hcd.trace 1 + 1)) ∧
      (((kill2_run drv_link 1 kill2_schedule kill2_start).getD kill2_start).pc2 = .woken ∨
        ((kill2_run drv_link 1 kill2_schedule kill2_start).getD kill2_start).pc2 = .returned →
        ((((kill2_run drv_link 1 kill2_schedule kill2_start).getD kill2_start).hcd.urbs
          1).use_count = 0 ∧
        completions ((kill2_run drv_link 1 kill2_schedule kill2_start).getD
          kill2_start).hcd.trace 1 = completions kill2_start.hcd.trace 1 + 1)) ∧
      ∃ more s2, kill2_run drv_link 1 more
          ((kill2_run drv_link 1 kill2_schedule kill2_start).getD kill2_start) = some s2 ∧
        s2.pc1 = .returned ∧ s2.pc2 = .returned ∧ (s2.hcd.urbs 1).use_count = 0 ∧
        completions s2.hcd.trace 1 = completions kill2_start.hcd.trace 1 + 1) :=
  ⟨⟨by unfold queued; decide, by decide, by decide⟩, by decide,
    usb_kill_urb_concurrent drv_link 1 kill2_schedule kill2_start
      ((kill2_run drv_link 1 kill2_schedule kill2_start).getD kill2_start)
      (fun _ _ _ => rfl) rfl rfl (by unfold queued; decide) (by decide) (by decide) (by decide)
      (by decide) (option_eq_some_getD _ _ (by decide))⟩

/-! ## usb_hcd_flush_endpoint -/

theorem flight_same_refl (h : usb_hcd) : flight_same h h :=
  ⟨rfl, rfl, rfl, fun _ => ⟨rfl, rfl, rfl, rfl, rfl, rfl⟩⟩

theorem flight_same_trans {a b c : usb_hcd} (h1 : flight_same a b) (h2 : flight_same b c) :
    flight_same a c := by
  refine ⟨h2.eps_eq.trans h1.eps_eq, h2.devs_eq.trans h1.devs_eq,
    h2.done_eq.trans h1.done_eq, fun u => ?_⟩
  obtain ⟨a1, a2, a3, a4, a5, a6⟩ := h1.same u
  obtain ⟨b1, b2, b3, b4, b5, b6⟩ := h2.same u
  exact ⟨b1.trans a1, b2.trans a2, b3.trans a3, b4.trans a4, b5.trans a5, b6.trans a6⟩

theorem flight_same_mod_urb (h : usb_hcd) (v : Nat) (f : urb → urb)
    (hf : (f (h.urbs v)).ep = (h.urbs v).ep ∧ (f (h.urbs v)).dev = (h.urbs v).dev ∧
      (f (h.urbs v)).use_count = (h.urbs v).use_count ∧
      (f (h.urbs v)).unlinked = (h.urbs v).unlinked ∧
      (f (h.urbs v)).has_dev = (h.urbs v).has_dev ∧
      (f (h.urbs v)).has_ep = (h.urbs v).has_ep) :
    flight_same h (h.mod_urb v f) := by
  refine ⟨rfl, rfl, rfl, fun u => ?_⟩
  by_cases hu : u = v
  · subst hu
    rw [mod_urb_urbs_same]
    exact hf
  · rw [mod_urb_urbs_other _ _ _ _ hu]
    exact ⟨rfl, rfl, rfl, rfl, rfl, rfl⟩

theorem flight_same_emit (h : usb_hcd) (ev : core_event)
    (hev : ∀ u seen, ev ≠ .complete u seen) : flight_same h (h.emit ev) :=
  ⟨rfl, rfl, completed_emit_other h ev hev, fun _ => ⟨rfl, rfl, rfl, rfl, rfl, rfl⟩⟩

theorem flight_same_get (h : usb_hcd) (v : Nat) : flight_same h (usb_get_urb h v) :=
  flight_same_mod_urb h v _ ⟨rfl, rfl, rfl, rfl, rfl, rfl⟩

theorem flight_same_put (h : usb_hcd) (v : Nat) : flight_same h (usb_put_urb h v) := by
  unfold usb_put_urb
  dsimp only
  split
  · exact flight_same_trans (flight_same_mod_urb h v _ ⟨rfl, rfl, rfl, rfl, rfl, rfl⟩)
      (flight_same_emit _ _ (fun _ _ => by simp))
  · exact flight_same_mod_urb h v _ ⟨rfl, rfl, rfl, rfl, rfl, rfl⟩

theorem flight_same_queued (h h2 : usb_hcd) (f : flight_same h h2) (u : Nat) :
    queued h2 u ↔ queued h u := by
  unfold queued
  rw [f.eps_eq, (f.same u).1]

theorem flight_same_in_use (h h2 : usb_hcd) (p : Nat) (f : flight_same h h2)
    (hq : queue_in_use h p) : queue_in_use h2 p := by
  intro u hu
  rw [f.eps_eq] at hu
  obtain ⟨a1, a2, a3, a4, a5⟩ := hq u hu
  obtain ⟨b1, b2, b3, _, b5, b6⟩ := f.same u
  rw [b1, b2, b3, b5, b6, f.devs_eq]
  exact ⟨a1, a2, a3, a4, a5⟩

theorem flight_same_pending (h h2 : usb_hcd) (p : Nat) (f : flight_same h h2)
    (hp : pending_only h p) : pending_only h2 p := by
  intro u hq hu
  rw [(f.same u).1]
  rw [(f.same u).2.2.2.1] at hu
  exact hp u ((flight_same_queued h h2 f u).1 hq) hu

theorem flushing_same (h h2 : usb_hcd) (p : Nat) (m : Nat → Int) (c0 : List (Nat × Int))
    (L Lr D : List Nat) (f : flight_same h h2) (F : flushing h p m c0 L Lr D) :
    flushing h2 p m c0 L Lr D := by
  refine ⟨?_, F.nodup, flight_same_in_use h h2 p f F.in_use, ?_,
    flight_same_pending h h2 p f F.only_here, ?_, F.perm⟩
  · rw [f.eps_eq]; exact F.queue
  · intro u hu
    rw [(f.same u).2.2.2.1]
    exact F.marked u hu
  · rw [f.done_eq]; exact F.done

theorem flushing_retired (h h2 : usb_hcd) (p : Nat) (m : Nat → Int) (c0 : List (Nat × Int))
    (L Lr D : List Nat) (w : Nat) (st : Int) (F : flushing h p m c0 L Lr D) (hw : w ∈ Lr)
    (r : retired h h2 w st) : flushing h2 p m c0 L (Lr.erase w) (D ++ [w]) := by
  have hwq : w ∈ (h.eps p).urb_list := by rw [F.queue]; exact hw
  obtain ⟨w1, _, _, _, _⟩ := F.in_use w hwq
  have hq2 : (h2.eps p).urb_list = Lr.erase w := by
    have := r.queue_home
    rw [w1, F.queue] at this
    exact this
  have hmem : ∀ u, u ∈ Lr.erase w → u ∈ Lr ∧ u ≠ w := by
    intro u hu
    have := (List.Nodup.mem_erase_iff F.nodup).1 hu
    exact ⟨this.2, this.1⟩
  refine ⟨hq2, List.Nodup.erase _ F.nodup, ?_, ?_, ?_, ?_, ?_⟩
  · intro u hu
    rw [hq2] at hu
    obtain ⟨hu1, hu2⟩ := hmem u hu
    rw [r.others u hu2, r.devs_eq]
    exact F.in_use u (by rw [F.queue]; exact hu1)
  · intro u hu
    obtain ⟨hu1, hu2⟩ := hmem u hu
    rw [r.others u hu2]
    exact F.marked u hu1
  · intro u hq hu
    by_cases huw : u = w
    · subst huw
      exfalso
      unfold queued at hq
      rw [r.ep_eq, w1, hq2, urb_list_find_iff] at hq
      exact (hmem u hq).2 rfl
    · rw [r.others u huw] at hu ⊢
      exact F.only_here u ((retired_queued_other h h2 w u st r huw).1 hq) hu
  · obtain ⟨m1, m2⟩ := F.marked w hw
    rw [r.done, F.done, giveback_status_unlinked _ _ (by rw [m1]; exact m2), m1,
      List.map_append, List.append_assoc]
    rfl
  · have h1 : (D ++ [w] ++ Lr.erase w).Perm (D ++ Lr) := by
      rw [List.append_assoc]
      exact List.Perm.append_left D (List.perm_cons_erase hw).symm
    exact h1.trans F.perm

theorem flush_wait_event (pick : usb_hcd → Option (Nat × Int)) (p : Nat) (m : Nat → Int)
    (c0 : List (Nat × Int)) (L : List Nat) (v : Nat)
    (hfair : ∀ u, u ∈ L → answers pick u) :
    ∀ (fuel : Nat) (h : usb_hcd) (Lr D : List Nat), flushing h p m c0 L Lr D → v ∈ Lr →
      Lr.length ≤ fuel →
      ∃ h2 Lr2 D2, wait_event (hc_step pick) (fun x => decide ((x.urbs v).use_count = 0))
          fuel h = some h2 ∧
        flushing h2 p m c0 L Lr2 D2 ∧ Lr2.length < Lr.length := by
  intro fuel
  induction fuel with
  | zero =>
    intro h Lr D _ hv hlen
    have : Lr = [] := List.length_eq_zero.1 (Nat.le_zero.1 hlen)
    rw [this] at hv
    exact absurd hv (by simp)
  | succ k ih =>
    intro h Lr D F hv hlen
    have hvq : v ∈ (h.eps p).urb_list := by rw [F.queue]; exact hv
    obtain ⟨v1, v2, _, _, _⟩ := F.in_use v hvq
    obtain ⟨v3, v4⟩ := F.marked v hv
    have hvL : v ∈ L := F.perm.subset (List.mem_append_right _ hv)
    have hqv : queued h v := by
      unfold queued
      rw [v1, urb_list_find_iff]
      exact hvq
    obtain ⟨w, st, hp, hwq, hwu⟩ := hfair v hvL h hqv (by rw [v3]; exact v4)
    have hwp : (h.urbs w).ep = p := F.only_here w hwq hwu
    have hwLr : w ∈ Lr := by
      unfold queued at hwq
      rw [hwp, urb_list_find_iff, F.queue] at hwq
      exact hwq
    have hstep : hc_step pick h = hcd_complete_urb h w st := by
      unfold hc_step
      rw [hp]
      dsimp only
      rw [if_pos ⟨hwq, hwu⟩]
    have r := hcd_complete_urb_retired h w st
    have F2 := flushing_retired h _ p m c0 L Lr D w st F hwLr r
    have hlen2 : (Lr.erase w).length < Lr.length := by
      rw [List.length_erase_of_mem hwLr]
      have : 0 < Lr.length := List.length_pos_of_mem hwLr
      omega
    have hc0 : decide ((h.urbs v).use_count = 0) = false := by
      rw [v2]; decide
    rw [wait_event, hc0]
    simp only [Bool.false_eq_true, if_false]
    rw [hstep]
    by_cases hwv : w = v
    · subst hwv
      have hc1 : decide (((hcd_complete_urb h w st).urbs w).use_count = 0) = true := by
        rw [r.use_eq, v2]; decide
      rw [wait_event_done _ _ _ _ hc1]
      exact ⟨_, _, _, rfl, F2, hlen2⟩
    · have hv2 : v ∈ Lr.erase w := (List.mem_erase_of_ne (fun e => hwv e.symm)).2 hv
      obtain ⟨h3, Lr3, D3, e1, e2, e3⟩ := ih _ _ _ F2 hv2 (by omega)
      exact ⟨h3, Lr3, D3, e1, e2, by omega⟩

theorem unlink_cancelled_same (drv : hc_driver) (h : usb_hcd) (v : Nat) (st : Int)
    (hdrv : dequeue_marks drv) (hq : queued h v) (hu : (h.urbs v).unlinked ≠ 0)
    (hroot : is_root_hub (h.devs (h.urbs v).dev) = false) :
    flight_same h (usb_hcd_unlink_urb drv h v st).2 := by
  unfold usb_hcd_unlink_urb
  split
  · dsimp only
    unfold unlink1
    rw [if_neg (by rw [hroot]; simp), hdrv,
      check_unlink_busy (h.emit (.urb_dequeue v st)) v st hq hu]
    exact flight_same_emit _ _ (fun _ _ => by simp)
  · exact flight_same_refl _

theorem flush_round (drv : hc_driver) (pick : usb_hcd → Option (Nat × Int)) (fuel p : Nat)
    (m : Nat → Int) (c0 : List (Nat × Int)) (L : List Nat) (hdrv : dequeue_marks drv)
    (hfair : ∀ u, u ∈ L → answers pick u) (h : usb_hcd) (Lr D : List Nat) (v : Nat)
    (F : flushing h p m c0 L Lr D) (hv : v ∈ Lr) (hlen : Lr.length ≤ fuel) :
    ∃ hk Lr2 D2, usb_kill_urb drv (hc_step pick) fuel (usb_get_urb h v) v = some hk ∧
      flushing (usb_put_urb hk v) p m c0 L Lr2 D2 ∧ Lr2.length < Lr.length := by
  have F1 := flushing_same _ _ p m c0 L Lr D (flight_same_get h v) F
  generalize usb_get_urb h v = hg at F1
  have hvq : v ∈ (hg.eps p).urb_list := by rw [F1.queue]; exact hv
  obtain ⟨v1, _, v3, v4, _⟩ := F1.in_use v hvq
  unfold usb_kill_urb
  rw [if_neg (by rw [v3, v4]; simp)]
  dsimp only
  have s2 : flight_same hg (hg.mod_urb v (fun x => { x with reject := x.reject + 1 })) :=
    flight_same_mod_urb hg v _ ⟨rfl, rfl, rfl, rfl, rfl, rfl⟩
  have F2 := flushing_same _ _ p m c0 L Lr D s2 F1
  generalize hg.mod_urb v (fun x => { x with reject := x.reject + 1 }) = h1 at F2
  have hvq1 : v ∈ (h1.eps p).urb_list := by rw [F2.queue]; exact hv
  obtain ⟨w1, _, _, _, w5⟩ := F2.in_use v hvq1
  obtain ⟨w6, w7⟩ := F2.marked v hv
  have hq1 : queued h1 v := by
    unfold queued
    rw [w1, urb_list_find_iff]
    exact hvq1
  have s3 := unlink_cancelled_same drv h1 v (-ENOENT) hdrv hq1 (by rw [w6]; exact w7) w5
  have F3 := flushing_same _ _ p m c0 L Lr D s3 F2
  generalize (usb_hcd_unlink_urb drv h1 v (-ENOENT)).2 = hm at F3
  obtain ⟨h2, Lr2, D2, e1, e2, e3⟩ := flush_wait_event pick p m c0 L v hfair fuel hm Lr D F3
    hv hlen
  rw [e1]
  refine ⟨_, Lr2, D2, rfl, ?_, e3⟩
  exact flushing_same _ _ p m c0 L Lr2 D2
    (flight_same_trans (flight_same_mod_urb h2 v _ ⟨rfl, rfl, rfl, rfl, rfl, rfl⟩)
      (flight_same_put _ v)) e2

theorem flush_wait_spec (drv : hc_driver) (pick : usb_hcd → Option (Nat × Int)) (fuel p : Nat)
    (m : Nat → Int) (c0 : List (Nat × Int)) (L : List Nat) (hdrv : dequeue_marks drv)
    (hfair : ∀ u, u ∈ L → answers pick u) :
    ∀ (n : Nat) (h : usb_hcd) (Lr D : List Nat), flushing h p m c0 L Lr D →
      Lr.length < n → Lr.length ≤ fuel →
      ∃ h2 D2, flush_wait drv (hc_step pick) fuel p n h = some h2 ∧
        flushing h2 p m c0 L [] D2 := by
  intro n
  induction n with
  | zero => intro h Lr D _ hn _; exact absurd hn (by omega)
  | succ n ih =>
    intro h Lr D F hn hfuel
    rw [flush_wait, F.queue]
    cases hl : Lr.getLast? with
    | none =>
      have hnil : Lr = [] := List.getLast?_eq_none_iff.1 hl
      subst hnil
      exact ⟨h, D, rfl, F⟩
    | some v =>
      have hv : v ∈ Lr := List.mem_of_getLast?_eq_some hl
      obtain ⟨hk, Lr2, D2, e1, e2, e3⟩ :=
        flush_round drv pick fuel p m c0 L hdrv hfair h Lr D v F hv hfuel
      dsimp only
      rw [e1]
      exact ih _ Lr2 D2 e2 (by omega) (by omega)

theorem countP_lt (p q : Nat → Bool) :
    ∀ (L : List Nat), (∀ x, x ∈ L → p x = true → q x = true) →
      (∃ u, u ∈ L ∧ q u = true ∧ p u = false) → L.countP p < L.countP q := by
  intro L
  induction L with
  | nil => intro _ ⟨u, hu, _⟩; exact absurd hu (by simp)
  | cons x rest ih =>
    intro hpq ⟨u, hu, hqu, hpu⟩
    have hrest : ∀ y, y ∈ rest → p y = true → q y = true :=
      fun y hy => hpq y (List.mem_cons_of_mem _ hy)
    have hle : rest.countP p ≤ rest.countP q := List.countP_mono_left hrest
    rw [List.countP_cons, List.countP_cons]
    by_cases hx : p x = true
    · have hqx := hpq x (List.mem_cons_self _ _) hx
      rw [if_pos hx, if_pos hqx]
      have hur : u ∈ rest := by
        rcases List.mem_cons.1 hu with e | e
        · rw [e] at hpu; rw [hpu] at hx; exact absurd hx (by simp)
        · exact e
      have := ih hrest ⟨u, hur, hqu, hpu⟩
      omega
    · rw [if_neg hx]
      by_cases hqx : q x = true
      · rw [if_pos hqx]
        omega
      · rw [if_neg hqx]
        have hur : u ∈ rest := by
          rcases List.mem_cons.1 hu with e | e
          · rw [e] at hqu; exact absurd hqu hqx
          · exact e
        have := ih hrest ⟨u, hur, hqu, hpu⟩
        omega

theorem unlink1_marks (drv : hc_driver) (h : usb_hcd) (u : Nat) (st : Int)
    (hdrv : dequeue_marks drv) (hq : queued h u) (hun : (h.urbs u).unlinked = 0)
    (hroot : is_root_hub (h.devs (h.urbs u).dev) = false) :
    (unlink1 drv h u st).2.eps = h.eps ∧ (unlink1 drv h u st).2.devs = h.devs ∧
    completed (unlink1 drv h u st).2.trace = completed h.trace ∧
    (∀ x, x ≠ u → (unlink1 drv h u st).2.urbs x = h.urbs x) ∧
    (unlink1 drv h u st).2.urbs u = { h.urbs u with unlinked := st } := by
  unfold unlink1
  rw [if_neg (by rw [hroot]; simp), hdrv]
  obtain ⟨_, f2, _⟩ := check_unlink_first (h.emit (.urb_dequeue u st)) u st hq hun
  obtain ⟨g1, g2, _, g4, _, g6, _⟩ := check_unlink_frame (h.emit (.urb_dequeue u st)) u st
  refine ⟨g1, g2, ?_, g6, f2⟩
  rw [g4]
  exact completed_emit_other _ _ (fun _ _ => by simp)

theorem flush_rescan_round (drv : hc_driver) (h : usb_hcd) (u : Nat) (st : Int)
    (hdrv : dequeue_marks drv) (hq : queued h u) (hun : (h.urbs u).unlinked = 0)
    (hroot : is_root_hub (h.devs (h.urbs u).dev) = false) :
    marks h (usb_put_urb (unlink1 drv (usb_get_urb h u) u st).2 u) u st := by
  obtain ⟨g1, g2, _, g4, g5, g6⟩ := usb_get_urb_facts h u
  have hq2 : queued (usb_get_urb h u) u := by
    unfold queued at *
    rw [g6, g1]
    exact hq
  have hun2 : ((usb_get_urb h u).urbs u).unlinked = 0 := by rw [g6]; exact hun
  have hroot2 : is_root_hub ((usb_get_urb h u).devs ((usb_get_urb h u).urbs u).dev) = false := by
    rw [g2, g6]; exact hroot
  obtain ⟨m1, m2, m3, m4, m5⟩ := unlink1_marks drv (usb_get_urb h u) u st hdrv hq2 hun2 hroot2
  generalize (unlink1 drv (usb_get_urb h u) u st).2 = hm at m1 m2 m3 m4 m5
  have f := flight_same_put hm u
  refine ⟨?_, ?_, ?_, ?_, ?_, ?_⟩
  · rw [f.eps_eq, m1, g1]
  · rw [f.devs_eq, m2, g2]
  · rw [f.done_eq, m3, g4]
  · intro x
    obtain ⟨a1, a2, a3, _, a5, a6⟩ := f.same x
    rw [a1, a2, a3, a5, a6]
    by_cases hx : x = u
    · subst hx
      rw [m5, g6]
      exact ⟨rfl, rfl, rfl, rfl, rfl⟩
    · rw [m4 x hx, g5 x hx]
      exact ⟨rfl, rfl, rfl, rfl, rfl⟩
  · intro x hx
    rw [(f.same x).2.2.2.1, m4 x hx, g5 x hx]
  · rw [(f.same u).2.2.2.1, m5]

theorem marks_rescanning (h h2 : usb_hcd) (p u : Nat) (st : Int) (L : List Nat)
    (k : marks h h2 u st) (hu : u ∈ L) (R : rescanning h p L) : rescanning h2 p L := by
  obtain ⟨r1, r2, r3⟩ := R
  refine ⟨by rw [k.eps_eq]; exact r1, ?_, ?_⟩
  · intro x hx
    rw [k.eps_eq] at hx
    obtain ⟨a1, a2, a3, a4, a5⟩ := k.same x
    rw [a1, a2, a3, a4, a5, k.devs_eq]
    exact r2 x hx
  · intro x hq hx
    have hq1 : queued h x := by
      unfold queued at *
      rw [k.eps_eq, (k.same x).1] at hq
      exact hq
    rw [(k.same x).1]
    by_cases hxu : x = u
    · subst hxu
      exact (r2 x (by rw [r1]; exact hu)).1
    · rw [k.others x hxu] at hx
      exact r3 x hq1 hx

theorem flush_rescan_spec (drv : hc_driver) (p : Nat) (L : List Nat)
    (hdrv : dequeue_marks drv) :
    ∀ (k n : Nat) (h : usb_hcd),
      L.countP (fun u => decide ((h.urbs u).unlinked = 0)) ≤ k → k < n →
      rescanning h p L →
      ∃ h1, flush_rescan drv p n h = some h1 ∧ rescanning h1 p L ∧
        completed h1.trace = completed h.trace ∧
        ∀ u, u ∈ L → (h1.urbs u).unlinked
          = if (h.urbs u).unlinked = 0 then -ESHUTDOWN else (h.urbs u).unlinked := by
  intro k
  induction k with
  | zero =>
    intro n h hc hn R
    obtain ⟨n2, hn2⟩ : ∃ n2, n = n2 + 1 := ⟨n - 1, by omega⟩
    subst hn2
    have hz : L.countP (fun u => decide ((h.urbs u).unlinked = 0)) = 0 := by omega
    have hall := List.countP_eq_zero.1 hz
    rw [flush_rescan, R.1]
    have hf : L.find? (fun u => decide ((h.urbs u).unlinked = 0)) = none :=
      List.find?_eq_none.2 hall
    rw [hf]
    refine ⟨h, rfl, R, rfl, fun u hu => ?_⟩
    have := hall u hu
    simp only [decide_eq_true_eq] at this
    rw [if_neg this]
  | succ k ih =>
    intro n h hc hn R
    obtain ⟨n2, hn2⟩ : ∃ n2, n = n2 + 1 := ⟨n - 1, by omega⟩
    subst hn2
    rw [flush_rescan, R.1]
    cases hf : L.find? (fun u => decide ((h.urbs u).unlinked = 0)) with
    | none =>
      have hall := List.find?_eq_none.1 hf
      refine ⟨h, rfl, R, rfl, fun u hu => ?_⟩
      have := hall u hu
      simp only [decide_eq_true_eq] at this
      rw [if_neg this]
    | some u =>
      have hu : u ∈ L := List.mem_of_find?_eq_some hf
      have hun : (h.urbs u).unlinked = 0 := by
        have := List.find?_some hf
        simpa using this
      obtain ⟨u1, _, _, _, u5⟩ := R.2.1 u (by rw [R.1]; exact hu)
      have hq : queued h u := by
        unfold queued
        rw [u1, urb_list_find_iff, R.1]
        exact hu
      have K := flush_rescan_round drv h u (-ESHUTDOWN) hdrv hq hun u5
      have R2 := marks_rescanning h _ p u (-ESHUTDOWN) L K hu R
      dsimp only
      generalize usb_put_urb (unlink1 drv (usb_get_urb h u) u (-ESHUTDOWN)).2 u = h2 at K R2
      have hlt : L.countP (fun x => decide ((h2.urbs x).unlinked = 0))
          < L.countP (fun x => decide ((h.urbs x).unlinked = 0)) := by
        refine countP_lt _ _ L ?_ ⟨u, hu, by simp [hun], ?_⟩
        · intro x _ hx
          simp only [decide_eq_true_eq] at hx ⊢
          by_cases hxu : x = u
          · rw [hxu]; exact hun
          · rw [← K.others x hxu]; exact hx
        · rw [K.marked]
          decide
      obtain ⟨h1, e1, e2, e3, e4⟩ := ih n2 h2 (by omega) (by omega) R2
      refine ⟨h1, e1, e2, e3.trans K.done_eq, fun x hx => ?_⟩
      rw [e4 x hx]
      by_cases hxu : x = u
      · rw [hxu, K.marked, hun]
        decide
      · rw [K.others x hxu]

/-- C17.  The queue of endpoint `p` holds the URBs `L`, all of them in flight on a device
that is no root hub; unlinks are pending on this endpoint only, the driver records an
unlink with `usb_hcd_check_unlink_urb`, and the controller answers unlink requests.  Then
the first loop of `usb_hcd_flush_endpoint` records `-ESHUTDOWN` in every URB of the queue
that was not yet unlinked and changes no other unlink status, and
`usb_hcd_flush_endpoint` returns with the queue empty, after every URB of `L` was given
back exactly once (`D` is the order), the ones that were not yet unlinked with status
`-ESHUTDOWN`. -/
theorem usb_hcd_flush_endpoint_shutdown (drv : hc_driver)
    (pick : usb_hcd → Option (Nat × Int)) (fuel n : Nat) (hcd : usb_hcd) (p : Nat)
    (L : List Nat) (hdrv : dequeue_marks drv) (hfair : ∀ u, u ∈ L → answers pick u)
    (hL : (hcd.eps p).urb_list = L) (hnd : L.Nodup) (huse : queue_in_use hcd p)
    (hpend : pending_only hcd p) (hfuel : L.length ≤ fuel) (hn : L.length < n) :
    ∃ (h1 h2 : usb_hcd) (D : List Nat), flush_rescan drv p n hcd = some h1 ∧
      (h1.eps p).urb_list = L ∧ completed h1.trace = completed hcd.trace ∧
      (∀ u, u ∈ L → (h1.urbs u).unlinked
        = if (hcd.urbs u).unlinked = 0 then -ESHUTDOWN else (hcd.urbs u).unlinked) ∧
      usb_hcd_flush_endpoint drv (hc_step pick) fuel n hcd p = some h2 ∧
      (h2.eps p).urb_list = [] ∧ D.Perm L ∧
      completed h2.trace = completed hcd.trace ++ D.map (fun u =>
        (u, if (hcd.urbs u).unlinked = 0 then -ESHUTDOWN else (hcd.urbs u).unlinked)) := by
  have hcount : L.countP (fun u => decide ((hcd.urbs u).unlinked = 0)) ≤ L.length :=
    List.countP_le_length _
  obtain ⟨h1, e1, e2, e3, e4⟩ :=
    flush_rescan_spec drv p L hdrv L.length n hcd hcount hn ⟨hL, huse, hpend⟩
  have F : flushing h1 p (fun u => (h1.urbs u).unlinked) (completed hcd.trace) L L [] := by
    refine ⟨e2.1, hnd, e2.2.1, ?_, e2.2.2, ?_, ?_⟩
    · intro u hu
      refine ⟨rfl, ?_⟩
      rw [e4 u hu]
      split
      · decide
      · assumption
    · rw [e3]; simp
    · simp
  obtain ⟨h2, D, w1, w2⟩ := flush_wait_spec drv pick fuel p _ _ L hdrv hfair n h1 L [] F hn hfuel
  refine ⟨h1, h2, D, e1, e2.1, e3, e4, ?_, w2.queue, ?_, ?_⟩
  · unfold usb_hcd_flush_endpoint
    rw [e1]
    exact w1
  · have := w2.perm
    rw [List.append_nil] at this
    exact this
  · have hD : ∀ u, u ∈ D → u ∈ L := by
      intro u hu
      exact w2.perm.subset (List.mem_append_left _ hu)
    rw [w2.done]
    congr 1
    apply List.map_congr_left
    intro u hu
    rw [e4 u (hD u hu)]

/-- Witness for C17: the three URBs of `hcd_flying`, none of them unlinked, are given
back with `-ESHUTDOWN`; on `hcd_flush`, where URB 2 was unlinked with `-ENOENT` before,
URB 2 keeps that status. -/
theorem usb_hcd_flush_endpoint_shutdown_witness :
    ((hcd_flying.eps 0).urb_list = [1, 2, 3] ∧ queue_in_use hcd_flying 0 ∧
      pending_only hcd_flying 0) ∧
    ((usb_hcd_flush_endpoint drv_link (hc_step (pick_of [1, 2, 3])) 3 4 hcd_flying 0).map
        (fun h => ((h.eps 0).urb_list, completed h.trace))
        = some ([], [(1, -ESHUTDOWN), (2, -ESHUTDOWN), (3, -ESHUTDOWN)]) ∧
      (usb_hcd_flush_endpoint drv_link (hc_step (pick_of [1, 2, 3])) 3 4 hcd_flush 0).map
        (fun h => ((h.eps 0).urb_list, completed h.trace))
        = some ([], [(1, -ESHUTDOWN), (2, -ENOENT), (3, -ESHUTDOWN)])) ∧
    (∃ (h1 h2 : usb_hcd) (D : List Nat), flush_rescan drv_link 0 4 hcd_flying = some h1 ∧
      (h1.eps 0).urb_list = [1, 2, 3] ∧ completed h1.trace = completed hcd_flying.trace ∧
      (∀ u, u ∈ [1, 2, 3] → (h1.urbs u).unlinked
        = if (hcd_flying.urbs u).unlinked = 0 then -ESHUTDOWN
          else (hcd_flying.urbs u).unlinked) ∧
      usb_hcd_flush_endpoint drv_link (hc_step (pick_of [1, 2, 3])) 3 4 hcd_flying 0
        = some h2 ∧
      (h2.eps 0).urb_list = [] ∧ D.Perm [1, 2, 3] ∧
      completed h2.trace = completed hcd_flying.trace ++ D.map (fun u =>
        (u, if (hcd_flying.urbs u).unlinked = 0 then -ESHUTDOWN
          else (hcd_flying.urbs u).unlinked))) :=
  ⟨⟨rfl, fun _ _ => ⟨rfl, rfl, rfl, rfl, rfl⟩, fun _ _ _ => rfl⟩, ⟨by decide, by decide⟩,
    usb_hcd_flush_endpoint_shutdown drv_link (pick_of [1, 2, 3]) 3 4 hcd_flying 0 [1, 2, 3]
      (fun _ _ _ => rfl) (fun u hu => pick_of_answers [1, 2, 3] u hu) rfl (by decide)
      (fun _ _ => ⟨rfl, rfl, rfl, rfl, rfl⟩) (fun _ _ _ => rfl) (by decide) (by decide)⟩

/-! ## ed_schedule: the state of the ED -/

theorem state_same_refl (s : ohci_sched) : state_same s s := fun _ => rfl

theorem state_same_trans {a b c : ohci_sched} (h1 : state_same a b) (h2 : state_same b c) :
    state_same a c := fun y => (h2 y).trans (h1 y)

theorem state_same_of (s s2 : ohci_sched) (h : s2.eds = s.eds) : state_same s s2 :=
  fun y => by rw [h]

theorem state_same_mod (s : ohci_sched) (x : Nat) (f : ed → ed)
    (hf : (f (s.eds x)).state = (s.eds x).state) : state_same s (s.mod_ed x f) := by
  intro y
  by_cases h : y = x
  · subst h
    simp only [ohci_sched.mod_ed, upd_same]
    exact hf
  · simp only [ohci_sched.mod_ed, upd_other _ _ _ _ h]

theorem edref_set_state (s : ohci_sched) (v : Option Nat) (r : edref) :
    state_same s (r.set s v) := by
  cases r with
  | slot i => exact state_same_of _ _ rfl
  | node x =>
    show state_same s (s.mod_ed x (fun y => { y with ed_next := v }))
    exact state_same_mod s x _ rfl

theorem edref_set_p_state (s : ohci_sched) (v : Nat) (r : edref) :
    state_same s (r.set_p s v) := by
  cases r with
  | slot i => exact state_same_of _ _ rfl
  | node x =>
    show state_same s (s.mod_ed x (fun y => { y with hwNextED := v }))
    exact state_same_mod s x _ rfl

theorem periodic_link_insert_state (s : ohci_sched) (e : Nat) (prev : edref)
    (here : Option Nat) : state_same s (periodic_link_insert s e prev here) := by
  unfold periodic_link_insert
  split
  · dsimp only
    have k1 : state_same s (s.mod_ed e (fun x => { x with ed_next := here })) :=
      state_same_mod s e _ rfl
    generalize s.mod_ed e (fun x => { x with ed_next := here }) = o1 at k1 ⊢
    have k2 : state_same s
        (if here.isSome then o1.mod_ed e (fun x => { x with hwNextED := prev.get_p o1 })
          else o1) := by
      split
      · exact state_same_trans k1 (state_same_mod o1 e _ rfl)
      · exact k1
    generalize (if here.isSome then o1.mod_ed e (fun x => { x with hwNextED := prev.get_p o1 })
          else o1) = o2 at k2 ⊢
    have k3 : state_same s (prev.set o2 (some e)) :=
      state_same_trans k2 (edref_set_state o2 _ prev)
    generalize prev.set o2 (some e) = o3 at k3 ⊢
    exact state_same_trans k3 (edref_set_p_state o3 _ prev)
  · exact state_same_refl _

theorem periodic_link_slot_state (fuel : Nat) (s s2 : ohci_sched) (e i : Nat)
    (hs : periodic_link_slot fuel s e i = some s2) : state_same s s2 := by
  unfold periodic_link_slot at hs
  cases hw : periodic_link_walk s e fuel (.slot i) (s.periodic i) with
  | none => rw [hw] at hs; exact absurd hs (by simp)
  | some r =>
    rw [hw] at hs
    obtain ⟨prev, here⟩ := r
    dsimp only at hs
    rw [← Option.some.inj hs]
    exact state_same_trans (periodic_link_insert_state s e prev here) (state_same_of _ _ rfl)

theorem periodic_link_loop_state (fuel e : Nat) :
    ∀ (n : Nat) (s : ohci_sched) (i : Nat) (s2 : ohci_sched),
      periodic_link_loop fuel e n s i = some s2 → state_same s s2 := by
  intro n
  induction n with
  | zero => intro s i s2 hl; simp [periodic_link_loop] at hl
  | succ n ih =>
    intro s i s2 hl
    rw [periodic_link_loop] at hl
    split at hl
    · cases hs : periodic_link_slot fuel s e i with
      | none => rw [hs] at hl; exact absurd hl (by simp)
      | some o1 =>
        rw [hs] at hl
        exact state_same_trans (periodic_link_slot_state fuel s o1 e i hs) (ih o1 _ s2 hl)
    · rw [← Option.some.inj hl]
      exact state_same_refl _

theorem periodic_link_state (fuel : Nat) (s s2 : ohci_sched) (e : Nat)
    (hl : periodic_link fuel s e = some s2) : state_same s s2 := by
  unfold periodic_link at hl
  cases hp : periodic_link_loop fuel e (NUM_INTS + 1) s (s.eds e).branch with
  | none => rw [hp] at hl; exact absurd hl (by simp)
  | some o1 =>
    rw [hp] at hl
    rw [← Option.some.inj hl]
    exact state_same_trans (periodic_link_loop_state fuel e _ s _ o1 hp) (state_same_of _ _ rfl)

theorem ed_schedule_control_state (s : ohci_sched) (e : Nat) :
    state_same s (ed_schedule_control s e) := by
  unfold ed_schedule_control
  cases s.ed_controltail with
  | none =>
    dsimp only
    have k : state_same s ((ohci_writel s (s.eds e).dma .ed_controlhead).mod_ed e
        (fun x => { x with ed_prev := none })) :=
      state_same_trans (state_same_of s (ohci_writel s (s.eds e).dma .ed_controlhead) rfl)
        (state_same_mod _ e _ rfl)
    generalize (ohci_writel s (s.eds e).dma .ed_controlhead).mod_ed e
      (fun x => { x with ed_prev := none }) = o2 at k ⊢
    split <;> exact state_same_trans k (state_same_of _ _ rfl)
  | some t =>
    dsimp only
    have k1 : state_same s (s.mod_ed t (fun x => { x with ed_next := some e })) :=
      state_same_mod s t _ rfl
    have k2 : state_same s ((s.mod_ed t (fun x => { x with ed_next := some e })).mod_ed t
        (fun x => { x with hwNextED := (s.eds e).dma })) :=
      state_same_trans k1 (state_same_mod _ t _ rfl)
    have k : state_same s (((s.mod_ed t (fun x => { x with ed_next := some e })).mod_ed t
          (fun x => { x with hwNextED := (s.eds e).dma })).mod_ed e
        (fun x => { x with ed_prev := some t })) :=
      state_same_trans k2 (state_same_mod _ e _ rfl)
    generalize ((s.mod_ed t (fun x => { x with ed_next := some e })).mod_ed t
          (fun x => { x with hwNextED := (s.eds e).dma })).mod_ed e
        (fun x => { x with ed_prev := some t }) = o2 at k ⊢
    split <;> exact state_same_trans k (state_same_of _ _ rfl)

theorem ed_schedule_bulk_state (s : ohci_sched) (e : Nat) :
    state_same s (ed_schedule_bulk s e) := by
  unfold ed_schedule_bulk
  cases s.ed_bulktail with
  | none =>
    dsimp only
    have k : state_same s ((ohci_writel s (s.eds e).dma .ed_bulkhead).mod_ed e
        (fun x => { x with ed_prev := none })) :=
      state_same_trans (state_same_of s (ohci_writel s (s.eds e).dma .ed_bulkhead) rfl)
        (state_same_mod _ e _ rfl)
    generalize (ohci_writel s (s.eds e).dma .ed_bulkhead).mod_ed e
      (fun x => { x with ed_prev := none }) = o2 at k ⊢
    split <;> exact state_same_trans k (state_same_of _ _ rfl)
  | some t =>
    dsimp only
    have k1 : state_same s (s.mod_ed t (fun x => { x with ed_next := some e })) :=
      state_same_mod s t _ rfl
    have k2 : state_same s ((s.mod_ed t (fun x => { x with ed_next := some e })).mod_ed t
        (fun x => { x with hwNextED := (s.eds e).dma })) :=
      state_same_trans k1 (state_same_mod _ t _ rfl)
    have k : state_same s (((s.mod_ed t (fun x => { x with ed_next := some e })).mod_ed t
          (fun x => { x with hwNextED := (s.eds e).dma })).mod_ed e
        (fun x => { x with ed_prev := some t })) :=
      state_same_trans k2 (state_same_mod _ e _ rfl)
    generalize ((s.mod_ed t (fun x => { x with ed_next := some e })).mod_ed t
          (fun x => { x with hwNextED := (s.eds e).dma })).mod_ed e
        (fun x => { x with ed_prev := some t }) = o2 at k ⊢
    split <;> exact state_same_trans k (state_same_of _ _ rfl)

/-- Whatever `ed_schedule (ohci, ed)` returns, it leaves the ED in state `ED_OPER` and
changes the state of no other ED. -/
theorem ed_schedule_state (fuel : Nat) (s : ohci_sched) (e : Nat) (r : Int × ohci_sched)
    (hs : ed_schedule fuel s e = some r) :
    (r.2.eds e).state = ED_OPER ∧ ∀ y, y ≠ e → (r.2.eds y).state = (s.eds y).state := by
  have hstart : ((ed_schedule_start s e).eds e).state = ED_OPER := (ed_schedule_start_ed s e).1
  have hoth : ∀ y, y ≠ e → ((ed_schedule_start s e).eds y).state = (s.eds y).state := by
    intro y hy
    unfold ed_schedule_start
    dsimp only
    split <;> simp [ohci_sched.mod_ed, upd_other _ _ _ _ hy]
  have key : state_same (ed_schedule_start s e) r.2 := by
    unfold ed_schedule at hs
    dsimp only at hs
    generalize ed_schedule_start s e = o1 at hs ⊢
    split at hs
    · rw [← Option.some.inj hs]
      exact ed_schedule_control_state o1 e
    · split at hs
      · rw [← Option.some.inj hs]
        exact ed_schedule_bulk_state o1 e
      · unfold ed_schedule_periodic at hs
        cases hb : balance o1.load (o1.eds e).interval (o1.eds e).load with
        | none => rw [hb] at hs; exact absurd hs (by simp)
        | some branch =>
          rw [hb] at hs
          dsimp only at hs
          split at hs
          · rw [← Option.some.inj hs]
            exact state_same_refl _
          · cases hp : periodic_link fuel
                (o1.mod_ed e (fun x => { x with branch := branch.toNat })) e with
            | none => rw [hp] at hs; exact absurd hs (by simp)
            | some o2 =>
              rw [hp] at hs
              rw [← Option.some.inj hs]
              exact state_same_trans (state_same_mod o1 e _ rfl)
                (periodic_link_state fuel _ o2 e hp)
  exact ⟨(key e).trans hstart, fun y hy => (key y).trans (hoth y hy)⟩

/-! ## usb_poison_urb and usb_unpoison_urb -/

/-- For an URB with `urb->dev` and `urb->ep` set, `usb_kill_urb` is `usb_poison_urb`
followed by `usb_unpoison_urb`. -/
theorem usb_kill_urb_poison_unpoison (drv : hc_driver) (env : usb_hcd → usb_hcd)
    (fuel : Nat) (hcd : usb_hcd) (u : Nat)
    (hset : ((hcd.urbs u).has_dev && (hcd.urbs u).has_ep) = true) :
    usb_kill_urb drv env fuel hcd u
      = (usb_poison_urb drv env fuel hcd u).map (fun h => usb_unpoison_urb h u) := by
  unfold usb_kill_urb usb_poison_urb
  rw [if_neg (by rw [hset]; simp), if_neg (by rw [hset]; simp)]
  dsimp only
  cases wait_event env (fun h => decide ((h.urbs u).use_count = 0)) fuel
      (usb_hcd_unlink_urb drv (hcd.mod_urb u (fun x => { x with reject := x.reject + 1 })) u
        (-ENOENT)).2 <;> rfl

/-- `usb_kill_urb` on an URB whose `urb->dev` or `urb->ep` is `NULL` returns at once and
changes nothing. -/
theorem usb_kill_urb_unset (drv : hc_driver) (env : usb_hcd → usb_hcd) (fuel : Nat)
    (hcd : usb_hcd) (u : Nat)
    (hset : ((hcd.urbs u).has_dev && (hcd.urbs u).has_ep) = false) :
    usb_kill_urb drv env fuel hcd u = some hcd := by
  unfold usb_kill_urb
  rw [if_pos hset]

/-- For an URB in flight the pair `usb_poison_urb`, `usb_unpoison_urb` returns and leaves
`urb->reject` as it was. -/
theorem usb_poison_unpoison_in_flight (drv : hc_driver)
    (pick : usb_hcd → Option (Nat × Int)) (fuel : Nat) (h : usb_hcd) (v : Nat)
    (hdrv : dequeue_marks drv) (hfair : answers pick v) (hfl : in_flight h v)
    (hcalm : calm h) (hfuel : 0 < fuel) :
    ∃ h2, usb_poison_urb drv (hc_step pick) fuel h v = some h2 ∧
      ((usb_unpoison_urb h2 v).urbs v).reject = (h.urbs v).reject := by
  obtain ⟨h3, hk, K⟩ := usb_kill_urb_in_flight drv pick fuel h v hdrv hfair hfl hcalm hfuel
  have hset : ((h.urbs v).has_dev && (h.urbs v).has_ep) = true := by
    rw [hfl.2.2.2.1, hfl.2.2.2.2.1]; rfl
  rw [usb_kill_urb_poison_unpoison drv _ fuel h v hset] at hk
  cases hp : usb_poison_urb drv (hc_step pick) fuel h v with
  | none => rw [hp] at hk; exact absurd hk (by simp)
  | some h2 =>
    rw [hp] at hk
    refine ⟨h2, rfl, ?_⟩
    have e : usb_unpoison_urb h2 v = h3 := Option.some.inj hk
    rw [e, K.reject_eq]

/-- C28 fails in the code. For an URB whose `urb->dev` or `urb->ep` is `NULL` (an URB that
was never submitted) `usb_poison_urb` returns before `atomic_inc (&urb->reject)`, while
`usb_unpoison_urb` decrements the counter all the same: after the pair `urb->reject` is
one less than before. -/
theorem usb_poison_urb_unbalanced (drv : hc_driver) (env : usb_hcd → usb_hcd) (fuel : Nat)
    (hcd : usb_hcd) (u : Nat)
    (hset : ((hcd.urbs u).has_dev && (hcd.urbs u).has_ep) = false) :
    usb_poison_urb drv env fuel hcd u = some hcd ∧
    ((usb_unpoison_urb hcd u).urbs u).reject = (hcd.urbs u).reject - 1 := by
  constructor
  · unfold usb_poison_urb
    rw [if_pos hset]
  · unfold usb_unpoison_urb
    rw [mod_urb_urbs_same]

/-- The URB 7 of `hcd_fresh`, never submitted, has `reject == 0`; after the pair the
counter is -1. -/
theorem usb_poison_urb_unbalanced_witness :
    (((hcd_fresh.urbs 7).has_dev && (hcd_fresh.urbs 7).has_ep) = false ∧
      (hcd_fresh.urbs 7).reject = 0) ∧
    (usb_poison_urb drv_link id 0 hcd_fresh 7 = some hcd_fresh ∧
      ((usb_unpoison_urb hcd_fresh 7).urbs 7).reject = (hcd_fresh.urbs 7).reject - 1) :=
  ⟨⟨by decide, by decide⟩, usb_poison_urb_unbalanced drv_link id 0 hcd_fresh 7 (by decide)⟩

/-- The consequence for a later submission of the URB 7 of `hcd_fresh` to endpoint 0:
before the pair `usb_hcd_link_urb_to_ep` accepts the URB, after the pair it refuses it
with `-EPERM`. -/
theorem usb_poison_urb_fresh_refused :
    (usb_hcd_link_urb_to_ep (hcd_set_ep hcd_fresh 7 0) 7).1 = 0 ∧
    (usb_hcd_link_urb_to_ep (hcd_set_ep (usb_unpoison_urb hcd_fresh 7) 7 0) 7).1 = -EPERM := by
  decide

/-! ## The polling interval of a periodic URB -/

theorem ilog2_loop_le (fuel n : Nat) (hn : 0 < n) : 2 ^ ilog2_loop fuel n ≤ n := by
  induction fuel generalizing n with
  | zero => simp [ilog2_loop]; omega
  | succ f ih =>
    simp only [ilog2_loop]
    split
    · rename_i h2
      have := ih (n / 2) (by omega)
      rw [pow_succ]
      omega
    · simp; omega

theorem ilog2_loop_lt (fuel n : Nat) (hn : n < 2 ^ fuel) : n < 2 ^ (ilog2_loop fuel n + 1) := by
  induction fuel generalizing n with
  | zero => simp [ilog2_loop] at *; omega
  | succ f ih =>
    simp only [ilog2_loop]
    split
    · rename_i h2
      have h3 : n / 2 < 2 ^ f := by rw [pow_succ] at hn; omega
      have := ih (n / 2) h3
      rw [pow_succ]
      omega
    · simp; omega

theorem ilog2_loop_ge (fuel k n : Nat) (hk : k ≤ fuel) (hn : 2 ^ k ≤ n) :
    k ≤ ilog2_loop fuel n := by
  induction fuel generalizing n k with
  | zero => omega
  | succ f ih =>
    simp only [ilog2_loop]
    cases k with
    | zero => omega
    | succ j =>
      have h2 : 2 ^ j ≤ n / 2 := by rw [pow_succ] at hn; omega
      have h1 : 1 ≤ 2 ^ j := Nat.one_le_two_pow
      rw [if_pos (by omega)]
      have := ih j (n / 2) (by omega) h2
      omega

/-- `ilog2` is the floor of the binary logarithm on the positive 32-bit numbers. -/
theorem ilog2_floor (n : Int) (hpos : 0 < n) (hfit : n < 2 ^ 32) :
    ((2 ^ ilog2 n : Nat) : Int) ≤ n ∧ n < ((2 ^ (ilog2 n + 1) : Nat) : Int) := by
  unfold ilog2
  have h1 := ilog2_loop_le 32 n.toNat (by omega)
  have h2 := ilog2_loop_lt 32 n.toNat (by omega)
  constructor <;> omega

theorem interval_round_pow (max interval : Int) :
    interval_round max interval = min max (2 ^ ilog2 interval) := by
  unfold interval_round
  rw [Nat.one_shiftLeft]
  push_cast
  rfl

/-- Clipping `interval` to a power of two `2 ^ k` before rounding does not change the
result of `min (2 ^ k, 2 ^ ilog2 (interval))`. -/
theorem interval_clip (k : Nat) (interval : Int) (hk : k ≤ 32) (hbig : interval > 2 ^ k) :
    min ((2 : Int) ^ k) (2 ^ ilog2 ((2 : Int) ^ k)) = min ((2 : Int) ^ k) (2 ^ ilog2 interval) := by
  have e1 : ((2 : Int) ^ k).toNat = 2 ^ k := by
    have : ((2 : Int) ^ k) = ((2 ^ k : Nat) : Int) := by push_cast; rfl
    rw [this]; exact Int.toNat_natCast _
  have a1 : k ≤ ilog2 ((2 : Int) ^ k) := by
    unfold ilog2
    rw [e1]
    exact ilog2_loop_ge 32 k _ hk le_rfl
  have a2 : k ≤ ilog2 interval := by
    unfold ilog2
    apply ilog2_loop_ge 32 k _ hk
    have : ((2 ^ k : Nat) : Int) < interval := by push_cast; exact hbig
    omega
  have b1 : (2 : Int) ^ k ≤ 2 ^ ilog2 ((2 : Int) ^ k) :=
    pow_le_pow_right₀ (by norm_num) a1
  have b2 : (2 : Int) ^ k ≤ 2 ^ ilog2 interval :=
    pow_le_pow_right₀ (by norm_num) a2
  rw [min_eq_left b1, min_eq_left b2]

/-- The high-speed arm followed by the rounding: `min (8192, 2 ^ ilog2 (interval))`. -/
theorem interval_high_round (interval : Int) :
    interval_round (interval_high interval).2 (interval_high interval).1
      = min 8192 (2 ^ ilog2 interval) := by
  rw [interval_round_pow]
  unfold interval_high
  dsimp only
  by_cases hb : interval > 1024 * 8
  · rw [if_pos hb]
    have := interval_clip 13 interval (by norm_num) (by norm_num; omega)
    norm_num at this ⊢
    exact this
  · rw [if_neg hb]
    norm_num

/-- The full/low-speed isochronous arm followed by the rounding:
`min (1024, 2 ^ ilog2 (interval))`. -/
theorem interval_full_round (interval : Int) :
    interval_round 1024 (if interval > 1024 then 1024 else interval)
      = min 1024 (2 ^ ilog2 interval) := by
  rw [interval_round_pow]
  by_cases hb : interval > 1024
  · rw [if_pos hb]
    have := interval_clip 10 interval (by norm_num) (by norm_num; omega)
    norm_num at this ⊢
    exact this
  · rw [if_neg hb]

/-- At high, full and low speed, and at the speeds no `case` names, the last switch of
`usb_submit_urb` agrees with C24 on every interrupt or isochronous URB. -/
theorem usb_submit_urb_interval_spec (xfertype : Nat) (speed : usb_device_speed)
    (interval : Int)
    (hx : xfertype = USB_ENDPOINT_XFER_ISOC ∨ xfertype = USB_ENDPOINT_XFER_INT)
    (hs : speed ≠ .USB_SPEED_SUPER) :
    usb_submit_urb_interval xfertype speed interval = interval_spec xfertype speed interval := by
  unfold usb_submit_urb_interval interval_spec
  rw [if_pos hx]
  by_cases h0 : interval ≤ 0
  · have hr : interval_rejected_spec xfertype speed interval := Or.inl h0
    rw [if_pos h0, if_pos hr]
  · rw [if_neg h0]
    have full : (match interval_full xfertype interval with
        | .error e => (.error e : Except Int Int)
        | .ok (i, max) => .ok (interval_round max i))
        = if interval_rejected_spec xfertype .USB_SPEED_FULL interval then .error (-EINVAL)
          else .ok (min (if xfertype = USB_ENDPOINT_XFER_INT then 128 else 1024)
            (2 ^ ilog2 interval)) := by
      unfold interval_full
      by_cases hi : xfertype = USB_ENDPOINT_XFER_INT
      · rw [if_pos hi, if_pos hi]
        by_cases h255 : interval > 255
        · have hr : interval_rejected_spec xfertype .USB_SPEED_FULL interval :=
            Or.inr (Or.inr ⟨Or.inl rfl, hi, h255⟩)
          rw [if_pos h255, if_pos hr]
        · have hr : ¬ interval_rejected_spec xfertype .USB_SPEED_FULL interval := by
            unfold interval_rejected_spec; simp [h0, h255]
          rw [if_neg h255, if_neg hr]
          dsimp only
          rw [interval_round_pow]
      · have hr : ¬ interval_rejected_spec xfertype .USB_SPEED_FULL interval := by
          unfold interval_rejected_spec; simp [h0, hi]
        rw [if_neg hi, if_neg hi, if_neg hr]
        dsimp only
        rw [interval_full_round]
    cases speed with
    | USB_SPEED_SUPER => exact absurd rfl hs
    | USB_SPEED_UNKNOWN =>
      by_cases hr : interval_rejected_spec xfertype .USB_SPEED_UNKNOWN interval
      · rw [if_pos hr]; rfl
      · rw [if_neg hr]; rfl
    | USB_SPEED_VARIABLE =>
      by_cases hr : interval_rejected_spec xfertype .USB_SPEED_VARIABLE interval
      · rw [if_pos hr]; rfl
      · rw [if_neg hr]; rfl
    | USB_SPEED_HIGH =>
      have hr : ¬ interval_rejected_spec xfertype .USB_SPEED_HIGH interval := by
        unfold interval_rejected_spec; simp [h0]
      rw [if_neg hr]
      show Except.ok (interval_round (interval_high interval).2 (interval_high interval).1) = _
      rw [interval_high_round]
      rfl
    | USB_SPEED_FULL =>
      show (match interval_full xfertype interval with
        | .error e => (.error e : Except Int Int)
        | .ok (i, max) => .ok (interval_round max i)) = _
      rw [full]
      by_cases hr : interval_rejected_spec xfertype .USB_SPEED_FULL interval
      · rw [if_pos hr, if_pos hr]
      · rw [if_neg hr, if_neg hr]; rfl
    | USB_SPEED_LOW =>
      show (match interval_full xfertype interval with
        | .error e => (.error e : Except Int Int)
        | .ok (i, max) => .ok (interval_round max i)) = _
      rw [full]
      have e : interval_rejected_spec xfertype .USB_SPEED_LOW interval
          ↔ interval_rejected_spec xfertype .USB_SPEED_FULL interval := by
        unfold interval_rejected_spec; simp
      by_cases hr : interval_rejected_spec xfertype .USB_SPEED_FULL interval
      · rw [if_pos hr, if_pos (e.mpr hr)]
      · rw [if_neg hr, if_neg (fun c => hr (e.mp c))]; rfl

/-- At SuperSpeed an accepted interval runs through the high-speed arm as well: the result
is `min (8192, 2 ^ ilog2 (interval))`, never above 8192. -/
theorem usb_submit_urb_interval_super (xfertype : Nat) (interval : Int)
    (hx : xfertype = USB_ENDPOINT_XFER_ISOC ∨ xfertype = USB_ENDPOINT_XFER_INT)
    (h0 : 0 < interval) (h15 : interval ≤ 2 ^ 15) :
    usb_submit_urb_interval xfertype .USB_SPEED_SUPER interval
      = .ok (min 8192 (2 ^ ilog2 interval)) := by
  unfold usb_submit_urb_interval
  rw [if_pos hx, if_neg (by omega)]
  unfold interval_speed
  dsimp only
  rw [if_neg (by norm_num; omega)]
  show Except.ok (interval_round (interval_high interval).2 (interval_high interval).1) = _
  rw [interval_high_round]

/-- C24 fails in the code at SuperSpeed. `case USB_SPEED_SUPER:` of `usb_submit_urb` has no
`break`, so an accepted interval runs on into `case USB_SPEED_HIGH:`, where it is clipped
to 8192 and `max` becomes 8192: an interrupt or isochronous URB with interval `2^15`
(or `2^14`) leaves with interval 8192, where C24 gives `2^15` (`2^14`). -/
theorem usb_submit_urb_interval_super_clipped :
    usb_submit_urb_interval USB_ENDPOINT_XFER_INT .USB_SPEED_SUPER 32768 = .ok 8192 ∧
    interval_spec USB_ENDPOINT_XFER_INT .USB_SPEED_SUPER 32768 = .ok 32768 ∧
    usb_submit_urb_interval USB_ENDPOINT_XFER_ISOC .USB_SPEED_SUPER 16384 = .ok 8192 ∧
    interval_spec USB_ENDPOINT_XFER_ISOC .USB_SPEED_SUPER 16384 = .ok 16384 :=
  ⟨rfl, rfl, rfl, rfl⟩

/-! ## ascii2desc -/

/-- The loop of `ascii2desc` stores the first `n` bytes of the sequence that starts with
the two bytes of `t` and goes on with two bytes for each byte of the string from index
`si` on, and it reads `n / 2` bytes of the string. -/
theorem ascii2desc_loop_bytes (s : List Nat) (fuel n t si : Nat) (out : List Nat)
    (hfuel : n < 2 * fuel) (hn : n ≤ 2 * (s.length + 1 - si)) :
    ascii2desc_loop s fuel n t si out
      = some (out ++ (desc_pair t
          ++ ((s ++ [0]).drop si).flatMap (fun c => desc_pair (c % 256))).take n,
        si + n / 2) := by
  induction fuel generalizing n t si out with
  | zero => omega
  | succ f ih =>
    simp only [ascii2desc_loop]
    by_cases h0 : n = 0
    · subst h0
      simp
    · rw [if_neg h0]
      by_cases h1 : n - 1 = 0
      · have e : n = 1 := by omega
        subst e
        simp [desc_pair]
      · rw [if_neg h1]
        have hsi : si < (s ++ [0]).length := by simp; omega
        have hr : str_read s si = some ((s ++ [0]).get ⟨si, hsi⟩) := by
          unfold str_read
          exact List.get?_eq_get hsi
        rw [hr]
        dsimp only
        rw [ih (n - 1 - 1) _ (si + 1) _ (by omega) (by omega)]
        have hd : (s ++ [0]).drop si = (s ++ [0]).get ⟨si, hsi⟩ :: (s ++ [0]).drop (si + 1) :=
          (List.drop_eq_getElem_cons hsi)
        rw [hd]
        generalize (s ++ [0]).get ⟨si, hsi⟩ = c
        generalize (s ++ [0]).drop (si + 1) = rest
        have e2 : n = (n - 1 - 1) + 2 := by omega
        generalize n - 1 - 1 = k at e2 ⊢
        subst e2
        have e3 : (desc_pair t ++ (c :: rest).flatMap (fun c => desc_pair (c % 256))).take (k + 2)
            = [t % 256, (t >>> 8) % 256]
              ++ (desc_pair (c % 256) ++ rest.flatMap (fun c => desc_pair (c % 256))).take k := by
          simp only [desc_pair, List.flatMap_cons, List.cons_append, List.nil_append,
            List.take_succ_cons]
        rw [e3]
        have e4 : si + 1 + k / 2 = si + (k + 2) / 2 := by omega
        rw [e4, List.append_assoc, List.append_assoc]
        rfl

/-- Two bytes per character: for bytes below 256 the pairs are `c, 0`. -/
theorem desc_pair_flatMap (s : List Nat) (hb : ∀ c ∈ s, c < 256) :
    s.flatMap (fun c => desc_pair (c % 256)) = s.flatMap (fun c => [c, 0]) := by
  induction s with
  | nil => rfl
  | cons a r ih =>
    rw [List.flatMap_cons, List.flatMap_cons, ih (fun c hc => hb c (List.mem_cons_of_mem _ hc))]
    have ha : a < 256 := hb a (List.mem_cons_self _ _)
    have e1 : a % 256 = a := Nat.mod_eq_of_lt ha
    have e2 : (a >>> 8) % 256 = 0 := by
      rw [Nat.shiftRight_eq_div_pow]
      have : a / 2 ^ 8 = 0 := Nat.div_eq_of_lt (by norm_num; exact ha)
      rw [this]
    unfold desc_pair
    rw [e1, e1, e2]

theorem flatMap_pair_length (s : List Nat) : (s.flatMap (fun c => [c, 0])).length = 2 * s.length := by
  induction s with
  | nil => rfl
  | cons a r ih => rw [List.flatMap_cons, List.length_append, ih]; simp; omega

/-- C25. For a NUL-terminated string with the `n` bytes `s` before its NUL (a string that
fits the 32-bit address space, so `2 + 2n` does not wrap) and a buffer of `len` bytes,
`ascii2desc` returns `m = min (len, 2 + 2n, 254)` and stores exactly `m` bytes, the first
`m` bytes of `[min (2 + 2n, 254), USB_DT_STRING, s[0], 0, s[1], 0, ...]`; it reads the
`m / 2` first bytes of the string, the terminating NUL at most, and nothing behind the
NUL (a read behind it would make the model return `none`). -/
theorem ascii2desc_bytes (s : List Nat) (len m : Nat) (hb : ∀ c ∈ s, c < 256)
    (hfit : 2 + 2 * s.length < 4294967296)
    (hm : m = min len (min (2 + 2 * s.length) 254)) :
    ascii2desc s len = some ((string_desc s).take m, m / 2, m) ∧
    ((string_desc s).take m).length = m ∧ m / 2 ≤ s.length + 1 := by
  have hlen : (string_desc s).length = 2 + 2 * s.length := by
    unfold string_desc
    rw [List.length_append, flatMap_pair_length]
    rfl
  have hm1 : m ≤ 2 + 2 * s.length := by omega
  refine ⟨?_, ?_, by omega⟩
  · unfold ascii2desc
    rw [Nat.mod_eq_of_lt hfit]
    dsimp only
    have hl : (if len > (if 2 + 2 * s.length > 254 then 254 else 2 + 2 * s.length)
        then (if 2 + 2 * s.length > 254 then 254 else 2 + 2 * s.length) else len) = m := by
      split <;> split <;> omega
    have ht : (if 2 + 2 * s.length > 254 then 254 else 2 + 2 * s.length)
        = min (2 + 2 * s.length) 254 := by
      split <;> omega
    rw [hl, ht]
    rw [ascii2desc_loop_bytes s _ m _ 0 [] (by omega) (by omega)]
    dsimp only
    have hh : min (2 + 2 * s.length) 254 ≤ 254 := min_le_right _ _
    have e1 : desc_pair ((min (2 + 2 * s.length) 254 + (USB_DT_STRING <<< 8)) % 4294967296)
        = [min (2 + 2 * s.length) 254, USB_DT_STRING] := by
      generalize min (2 + 2 * s.length) 254 = h at hh
      have e0 : (USB_DT_STRING <<< 8) = 768 := by decide
      rw [e0]
      unfold desc_pair USB_DT_STRING
      rw [Nat.shiftRight_eq_div_pow]
      have a1 : (h + 768) % 4294967296 = h + 768 := Nat.mod_eq_of_lt (by omega)
      rw [a1]
      have a2 : (h + 768) % 256 = h := by omega
      have a3 : (h + 768) / 2 ^ 8 % 256 = 3 := by norm_num; omega
      rw [a2, a3]
    rw [e1, List.drop_zero, List.flatMap_append, List.nil_append, Nat.zero_add]
    rw [desc_pair_flatMap s hb, ← List.append_assoc]
    have e2 : ([min (2 + 2 * s.length) 254, USB_DT_STRING] ++ s.flatMap (fun c => [c, 0]))
        = string_desc s := rfl
    rw [e2, List.take_append_of_le_length (by omega)]
  · rw [List.length_take, hlen]
    omega

/-- The string "AB" and a buffer of 5 bytes: 5 bytes are stored, `6, 3, 'A', 0, 'B'`, and
the two characters are read. -/
theorem ascii2desc_bytes_witness :
    ((∀ c ∈ [65, 66], c < 256) ∧ 2 + 2 * [65, 66].length < 4294967296 ∧
      5 = min 5 (min (2 + 2 * [65, 66].length) 254)) ∧
    (ascii2desc [65, 66] 5 = some ((string_desc [65, 66]).take 5, 5 / 2, 5) ∧
      ((string_desc [65, 66]).take 5).length = 5 ∧ 5 / 2 ≤ [65, 66].length + 1) ∧
    (string_desc [65, 66]).take 5 = [6, 3, 65, 0, 66] :=
  ⟨⟨by decide, by decide, by decide⟩,
    ascii2desc_bytes [65, 66] 5 5 (by decide) (by decide) (by decide), by decide⟩

/-! ## Bus numbers -/

theorem find_zero_from_spec (map : Nat → Bool) (count i : Nat) :
    i ≤ find_zero_from map count i ∧ find_zero_from map count i ≤ i + count ∧
    (∀ j, i ≤ j → j < find_zero_from map count i → map j = true) ∧
    (find_zero_from map count i < i + count → map (find_zero_from map count i) = false) := by
  induction count generalizing i with
  | zero =>
    simp only [find_zero_from]
    exact ⟨le_rfl, le_rfl, fun j h1 h2 => by omega, fun h => by omega⟩
  | succ k ih =>
    simp only [find_zero_from]
    by_cases hm : map i = false
    · rw [if_pos hm]
      exact ⟨le_rfl, by omega, fun j h1 h2 => by omega, fun _ => hm⟩
    · rw [if_neg hm]
      obtain ⟨a1, a2, a3, a4⟩ := ih (i + 1)
      refine ⟨by omega, by omega, ?_, fun h => a4 (by omega)⟩
      intro j h1 h2
      by_cases hj : j = i
      · subst hj
        simpa using hm
      · exact a3 j (by omega) h2

/-- The number `find_next_zero_bit` returns for the bus map: in 1..64, the bits in
between are set, and below 64 its own bit is clear. -/
theorem find_next_zero_bit_spec (map : Nat → Bool) :
    1 ≤ find_next_zero_bit map USB_MAXBUS 1 ∧ find_next_zero_bit map USB_MAXBUS 1 ≤ 64 ∧
    (∀ j, 1 ≤ j → j < find_next_zero_bit map USB_MAXBUS 1 → map j = true) ∧
    (find_next_zero_bit map USB_MAXBUS 1 < 64 →
      map (find_next_zero_bit map USB_MAXBUS 1) = false) := by
  unfold find_next_zero_bit USB_MAXBUS
  rw [if_neg (by omega)]
  obtain ⟨a1, a2, a3, a4⟩ := find_zero_from_spec map (64 - 1) 1
  exact ⟨a1, by omega, a3, fun h => a4 (by omega)⟩

/-- `usb_register_bus` when the search finds a free number. -/
theorem usb_register_bus_free (g : bus_registry) (b : Nat)
    (hn : find_next_zero_bit g.busmap USB_MAXBUS 1 < 64) :
    usb_register_bus g b = (0, { g with
      busmap := upd g.busmap (find_next_zero_bit g.busmap USB_MAXBUS 1) true,
      buses := upd g.buses b
        { g.buses b with busnum := (find_next_zero_bit g.busmap USB_MAXBUS 1 : Nat) },
      usb_bus_list := b :: g.usb_bus_list }) := by
  unfold usb_register_bus
  dsimp only
  rw [if_neg (by unfold USB_MAXBUS at *; omega)]
  rfl

/-- `usb_register_bus` when the search finds no free number. -/
theorem usb_register_bus_full (g : bus_registry) (b : Nat)
    (hn : ¬ find_next_zero_bit g.busmap USB_MAXBUS 1 < 64) :
    usb_register_bus g b = (-E2BIG, g) := by
  unfold usb_register_bus
  dsimp only
  rw [if_pos (by unfold USB_MAXBUS at *; omega)]

theorem bus_numbers_taken_iff (g : bus_registry) :
    bus_numbers_taken g ↔ ¬ find_next_zero_bit g.busmap USB_MAXBUS 1 < 64 := by
  obtain ⟨a1, a2, a3, a4⟩ := find_next_zero_bit_spec g.busmap
  constructor
  · intro ht hn
    have := ht _ a1 (by unfold USB_MAXBUS; exact hn)
    rw [a4 hn] at this
    exact absurd this (by simp)
  · intro hn i h1 h2
    exact a3 i h1 (by unfold USB_MAXBUS at h2; omega)

/-- Registering a new bus keeps the numbers of the registered buses in order. -/
theorem usb_register_bus_keeps (g : bus_registry) (b : Nat) (hok : bus_numbers_ok g)
    (hnew : b ∉ g.usb_bus_list) (hn : find_next_zero_bit g.busmap USB_MAXBUS 1 < 64) :
    bus_numbers_ok (usb_register_bus g b).2 ∧
    ∀ c ∈ g.usb_bus_list, ((usb_register_bus g b).2.buses c).busnum = (g.buses c).busnum ∧
      (g.buses c).busnum ≠ (find_next_zero_bit g.busmap USB_MAXBUS 1 : Nat) := by
  obtain ⟨a1, a2, a3, a4⟩ := find_next_zero_bit_spec g.busmap
  rw [usb_register_bus_free g b hn]
  generalize find_next_zero_bit g.busmap USB_MAXBUS 1 = n at *
  have hm := a4 hn
  have hother : ∀ c ∈ g.usb_bus_list, upd g.buses b { g.buses b with busnum := (n : Nat) } c
      = g.buses c := by
    intro c hc
    unfold upd
    rw [if_neg (fun (e : c = b) => hnew (e ▸ hc))]
  have hne : ∀ c ∈ g.usb_bus_list, (g.buses c).busnum ≠ (n : Nat) := by
    intro c hc e
    have h1 := hok.marked c hc
    rw [e, Int.toNat_natCast, hm] at h1
    exact absurd h1 (by simp)
  have hself : upd g.buses b { g.buses b with busnum := (n : Nat) } b
      = { g.buses b with busnum := (n : Nat) } := by
    unfold upd
    rw [if_pos rfl]
  refine ⟨⟨?_, ?_, ?_, ?_⟩, ?_⟩
  · exact List.nodup_cons.mpr ⟨hnew, hok.nodup⟩
  · intro c hc
    rcases List.mem_cons.mp hc with e | hc2
    · subst e
      show 1 ≤ (upd g.buses c { g.buses c with busnum := (n : Nat) } c).busnum ∧
        (upd g.buses c { g.buses c with busnum := (n : Nat) } c).busnum < 64
      rw [hself]
      dsimp only
      omega
    · show 1 ≤ (upd g.buses b { g.buses b with busnum := (n : Nat) } c).busnum ∧
        (upd g.buses b { g.buses b with busnum := (n : Nat) } c).busnum < 64
      rw [hother c hc2]
      exact hok.range c hc2
  · intro c hc
    rcases List.mem_cons.mp hc with e | hc2
    · subst e
      show upd g.busmap n true
        (upd g.buses c { g.buses c with busnum := (n : Nat) } c).busnum.toNat = true
      rw [hself]
      dsimp only
      rw [Int.toNat_natCast]
      unfold upd
      rw [if_pos rfl]
    · show upd g.busmap n true
        (upd g.buses b { g.buses b with busnum := (n : Nat) } c).busnum.toNat = true
      rw [hother c hc2]
      unfold upd
      split
      · rfl
      · exact hok.marked c hc2
  · intro c hc d hd hcd
    show (upd g.buses b { g.buses b with busnum := (n : Nat) } c).busnum
      ≠ (upd g.buses b { g.buses b with busnum := (n : Nat) } d).busnum
    rcases List.mem_cons.mp hc with e | hc2
    · rcases List.mem_cons.mp hd with e2 | hd2
      · exact absurd (e.trans e2.symm) hcd
      · subst e
        rw [hself, hother d hd2]
        exact fun e3 => hne d hd2 e3.symm
    · rcases List.mem_cons.mp hd with e2 | hd2
      · subst e2
        rw [hself, hother c hc2]
        exact hne c hc2
      · rw [hother c hc2, hother d hd2]
        exact hok.distinct c hc2 d hd2 hcd
  · intro c hc
    refine ⟨?_, hne c hc⟩
    show (upd g.buses b { g.buses b with busnum := (n : Nat) } c).busnum = _
    rw [hother c hc]

/-- Taking a registered bus off keeps the numbers of the other buses in order. -/
theorem usb_deregister_bus_keeps (g : bus_registry) (c : Nat) (hok : bus_numbers_ok g)
    (hc : c ∈ g.usb_bus_list) : bus_numbers_ok (usb_deregister_bus g c) := by
  have hmem : ∀ d, d ∈ g.usb_bus_list.erase c → d ∈ g.usb_bus_list ∧ d ≠ c := by
    intro d hd
    exact ⟨List.mem_of_mem_erase hd, fun e => by
      subst e
      exact (List.Nodup.not_mem_erase hok.nodup) hd⟩
  refine ⟨?_, ?_, ?_, ?_⟩
  · exact hok.nodup.erase c
  · intro d hd
    exact hok.range d (hmem d hd).1
  · intro d hd
    obtain ⟨h1, h2⟩ := hmem d hd
    show clear_bit (g.buses c).busnum.toNat g.busmap (g.buses d).busnum.toNat = true
    unfold clear_bit upd
    have r1 := hok.range d h1
    have r2 := hok.range c hc
    have h3 := hok.distinct d h1 c hc h2
    rw [if_neg (by omega)]
    exact hok.marked d h1
  · intro d hd e he hde
    exact hok.distinct d (hmem d hd).1 e (hmem e he).1 hde

/-- C29. With the registered buses in order and `bus` not yet registered,
`usb_register_bus` returns `-E2BIG` exactly when all the numbers 1..63 are taken, and then
it changes nothing; otherwise it returns 0, the bus gets the lowest number `n` in 1..63
whose bit was clear, that bit is set and no other bit changes, the bus is put on
`usb_bus_list`, no registered bus holds `n`, and the registered buses stay in order (so
the numbers stay pairwise distinct and none is 0).  `usb_deregister_bus` clears the bit of
the bus's number, changes no other bit, and keeps the remaining buses in order. -/
theorem usb_register_bus_number (g : bus_registry) (b : Nat) (hok : bus_numbers_ok g)
    (hnew : b ∉ g.usb_bus_list) :
    ((usb_register_bus g b).1 = -E2BIG ↔ bus_numbers_taken g) ∧
    ((usb_register_bus g b).1 = -E2BIG → (usb_register_bus g b).2 = g) ∧
    (¬ bus_numbers_taken g → ∃ n : Nat, 1 ≤ n ∧ n ≤ 63 ∧ g.busmap n = false ∧
      (∀ j, 1 ≤ j → j < n → g.busmap j = true) ∧
      (usb_register_bus g b).1 = 0 ∧
      ((usb_register_bus g b).2.buses b).busnum = n ∧
      (usb_register_bus g b).2.busmap = upd g.busmap n true ∧
      (usb_register_bus g b).2.usb_bus_list = b :: g.usb_bus_list ∧
      (∀ c ∈ g.usb_bus_list,
        ((usb_register_bus g b).2.buses c).busnum = (g.buses c).busnum ∧
        (g.buses c).busnum ≠ n) ∧
      bus_numbers_ok (usb_register_bus g b).2) ∧
    (∀ c ∈ g.usb_bus_list,
      (usb_deregister_bus g c).busmap = upd g.busmap (g.buses c).busnum.toNat false ∧
      (usb_deregister_bus g c).busmap (g.buses c).busnum.toNat = false ∧
      (usb_deregister_bus g c).usb_bus_list = g.usb_bus_list.erase c ∧
      bus_numbers_ok (usb_deregister_bus g c)) := by
  obtain ⟨a1, a2, a3, a4⟩ := find_next_zero_bit_spec g.busmap
  have ht := bus_numbers_taken_iff g
  refine ⟨?_, ?_, ?_, ?_⟩
  · rw [ht]
    constructor
    · intro h hn
      rw [usb_register_bus_free g b hn] at h
      have h2 : (0 : Int) = -E2BIG := h
      exact absurd h2 (by decide)
    · intro hn
      rw [usb_register_bus_full g b hn]
  · intro h
    by_cases hn : find_next_zero_bit g.busmap USB_MAXBUS 1 < 64
    · rw [usb_register_bus_free g b hn] at h
      have h2 : (0 : Int) = -E2BIG := h
      exact absurd h2 (by decide)
    · rw [usb_register_bus_full g b hn]
  · intro hfree
    have hn : find_next_zero_bit g.busmap USB_MAXBUS 1 < 64 := by
      by_contra hc
      exact hfree (ht.mpr hc)
    obtain ⟨k1, k2⟩ := usb_register_bus_keeps g b hok hnew hn
    refine ⟨find_next_zero_bit g.busmap USB_MAXBUS 1, a1, by omega, a4 hn, a3, ?_, ?_, ?_, ?_,
      k2, k1⟩
    · rw [usb_register_bus_free g b hn]
    · rw [usb_register_bus_free g b hn]
      show (upd g.buses b _ b).busnum = _
      unfold upd
      rw [if_pos rfl]
    · rw [usb_register_bus_free g b hn]
    · rw [usb_register_bus_free g b hn]
  · intro c hc
    refine ⟨rfl, ?_, rfl, usb_deregister_bus_keeps g c hok hc⟩
    show clear_bit (g.buses c).busnum.toNat g.busmap (g.buses c).busnum.toNat = false
    unfold clear_bit upd
    rw [if_pos rfl]

theorem two_buses_ok : bus_numbers_ok two_buses := by
  have h0 : bus_numbers_ok ({} : bus_registry) :=
    ⟨List.nodup_nil, fun b hb => absurd hb (List.not_mem_nil b),
      fun b hb => absurd hb (List.not_mem_nil b), fun b hb => absurd hb (List.not_mem_nil b)⟩
  have h1 := (usb_register_bus_keeps {} 10 h0 (List.not_mem_nil 10) (by decide)).1
  exact (usb_register_bus_keeps _ 11 h1 (by decide) (by decide)).1

/-- With the buses 10 and 11 registered under the numbers 1 and 2, a third bus gets the
number 3. -/
theorem usb_register_bus_number_witness :
    (bus_numbers_ok two_buses ∧ 12 ∉ two_buses.usb_bus_list) ∧
    (usb_register_bus two_buses 12).1 = 0 ∧
    ((usb_register_bus two_buses 12).2.buses 12).busnum = 3 ∧
    (((usb_register_bus two_buses 12).1 = -E2BIG ↔ bus_numbers_taken two_buses) ∧
    ((usb_register_bus two_buses 12).1 = -E2BIG → (usb_register_bus two_buses 12).2 = two_buses) ∧
    (¬ bus_numbers_taken two_buses → ∃ n : Nat, 1 ≤ n ∧ n ≤ 63 ∧ two_buses.busmap n = false ∧
      (∀ j, 1 ≤ j → j < n → two_buses.busmap j = true) ∧
      (usb_register_bus two_buses 12).1 = 0 ∧
      ((usb_register_bus two_buses 12).2.buses 12).busnum = n ∧
      (usb_register_bus two_buses 12).2.busmap = upd two_buses.busmap n true ∧
      (usb_register_bus two_buses 12).2.usb_bus_list = 12 :: two_buses.usb_bus_list ∧
      (∀ c ∈ two_buses.usb_bus_list,
        ((usb_register_bus two_buses 12).2.buses c).busnum = (two_buses.buses c).busnum ∧
        (two_buses.buses c).busnum ≠ n) ∧
      bus_numbers_ok (usb_register_bus two_buses 12).2) ∧
    (∀ c ∈ two_buses.usb_bus_list,
      (usb_deregister_bus two_buses c).busmap
        = upd two_buses.busmap (two_buses.buses c).busnum.toNat false ∧
      (usb_deregister_bus two_buses c).busmap (two_buses.buses c).busnum.toNat = false ∧
      (usb_deregister_bus two_buses c).usb_bus_list = two_buses.usb_bus_list.erase c ∧
      bus_numbers_ok (usb_deregister_bus two_buses c))) :=
  ⟨⟨two_buses_ok, by decide⟩, by decide, by decide,
    usb_register_bus_number two_buses 12 two_buses_ok (by decide)⟩

/-- With all the numbers 1..63 taken `usb_register_bus` returns `-E2BIG`. -/
theorem usb_register_bus_full_map : (usb_register_bus full_busmap 12).1 = -E2BIG := by
  decide

/-! ## The TD hash -/

/-- What `td_fill` does to the hash: the cell is put at the head of the bucket of its
`td_dma`, and no other TD changes. -/
theorem td_fill_cell_hash (o : ohci_hcd) (info data len u index p t t_pt : Nat) :
    (td_fill_cell o info data len u index p t t_pt).td_hash
      = upd o.td_hash (TD_HASH_FUNC (o.tds t).td_dma) (some t) ∧
    ((td_fill_cell o info data len u index p t t_pt).tds t).td_hash
      = o.td_hash (TD_HASH_FUNC (o.tds t).td_dma) ∧
    ((td_fill_cell o info data len u index p t t_pt).tds t).td_dma = (o.tds t).td_dma ∧
    ∀ y, y ≠ t → (td_fill_cell o info data len u index p t t_pt).tds y = o.tds y := by
  unfold td_fill_cell
  by_cases hiso : info &&& TD_ISO ≠ 0
  · simp only [ohci_hcd.mod_td, ohci_hcd.mod_ed, ohci_hcd.mod_priv, if_pos hiso, upd, if_true]
    refine ⟨trivial, trivial, trivial, fun y hy => ?_⟩
    simp [hy]
  · simp only [ohci_hcd.mod_td, ohci_hcd.mod_ed, ohci_hcd.mod_priv, if_neg hiso, upd, if_true]
    refine ⟨trivial, trivial, trivial, fun y hy => ?_⟩
    simp [hy]

/-- A chain only depends on the `td_hash` fields of its members. -/
theorem td_chain_frame (tds tds2 : Nat → td) (L : List Nat) (cur : Option Nat)
    (hc : td_chain tds cur L) (hs : ∀ y ∈ L, (tds2 y).td_hash = (tds y).td_hash) :
    td_chain tds2 cur L := by
  induction L generalizing cur with
  | nil => exact hc
  | cons a r ih =>
    obtain ⟨h1, h2⟩ := hc
    refine ⟨h1, ?_⟩
    rw [hs a (List.mem_cons_self _ _)]
    exact ih _ h2 (fun y hy => hs y (List.mem_cons_of_mem _ hy))

/-- The walk of `dma_to_td` finds the TD `x` of a chain whose other members have another
`td_dma`. -/
theorem dma_to_td_walk_hit (tds : Nat → td) (L : List Nat) (cur : Option Nat) (x fuel : Nat)
    (hc : td_chain tds cur L) (hx : x ∈ L)
    (hd : ∀ y ∈ L, y ≠ x → (tds y).td_dma ≠ (tds x).td_dma) (hfuel : L.length < fuel) :
    dma_to_td_walk tds (tds x).td_dma fuel cur = some (some x) := by
  induction L generalizing cur fuel with
  | nil => exact absurd hx (List.not_mem_nil x)
  | cons a r ih =>
    obtain ⟨h1, h2⟩ := hc
    cases fuel with
    | zero => simp at hfuel
    | succ f =>
      subst h1
      simp only [dma_to_td_walk]
      by_cases hax : a = x
      · subst hax
        rw [if_neg (by simp)]
      · rw [if_pos (hd a (List.mem_cons_self _ _) hax)]
        have hx2 : x ∈ r := by
          rcases List.mem_cons.mp hx with e | e
          · exact absurd e.symm hax
          · exact e
        exact ih _ f h2 hx2 (fun y hy => hd y (List.mem_cons_of_mem _ hy))
          (by simp at hfuel; omega)

/-- The walk of `dma_to_td` returns `NULL` on a chain with no TD at the address. -/
theorem dma_to_td_walk_miss (tds : Nat → td) (L : List Nat) (cur : Option Nat) (d fuel : Nat)
    (hc : td_chain tds cur L) (hd : ∀ y ∈ L, (tds y).td_dma ≠ d) (hfuel : L.length < fuel) :
    dma_to_td_walk tds d fuel cur = some none := by
  induction L generalizing cur fuel with
  | nil =>
    cases fuel with
    | zero => simp at hfuel
    | succ f =>
      have e : cur = none := hc
      subst e
      simp only [dma_to_td_walk]
  | cons a r ih =>
    obtain ⟨h1, h2⟩ := hc
    cases fuel with
    | zero => simp at hfuel
    | succ f =>
      subst h1
      simp only [dma_to_td_walk]
      rw [if_pos (hd a (List.mem_cons_self _ _))]
      exact ih _ f h2 (fun y hy => hd y (List.mem_cons_of_mem _ hy)) (by simp at hfuel; omega)

/-- With the hash in order `dma_to_td` returns each hashed TD at its own address. -/
theorem dma_to_td_hashed (o : ohci_hcd) (H : Nat → List Nat) (h x fuel : Nat)
    (hok : hash_ok o H) (hx : x ∈ H h) (hfuel : (H h).length < fuel) :
    dma_to_td fuel o (o.tds x).td_dma = some (some x) := by
  unfold dma_to_td
  dsimp only
  rw [hok.aligned h x hx, hok.home h x hx]
  exact dma_to_td_walk_hit o.tds (H h) _ x fuel (hok.chain h) hx
    (fun y hy hyx => hok.distinct h y hy x hx hyx) hfuel

/-- With the hash in order `dma_to_td` returns `NULL` at an aligned address that no TD of
the bucket has. -/
theorem dma_to_td_absent (o : ohci_hcd) (H : Nat → List Nat) (d fuel : Nat)
    (hok : hash_ok o H) (hal : d &&& TD_MASK = d)
    (hd : ∀ y ∈ H (TD_HASH_FUNC d), (o.tds y).td_dma ≠ d)
    (hfuel : (H (TD_HASH_FUNC d)).length < fuel) :
    dma_to_td fuel o d = some none := by
  unfold dma_to_td
  dsimp only
  rw [hal]
  exact dma_to_td_walk_miss o.tds _ _ d fuel (hok.chain _) hd hfuel

/-- Hashing the fresh TD `t` in `td_fill` keeps the hash in order, with `t` at the head of
its bucket. -/
theorem td_fill_cell_hash_ok (o : ohci_hcd) (H : Nat → List Nat)
    (info data len u index p t t_pt : Nat) (hok : hash_ok o H) (hfresh : ∀ h, t ∉ H h)
    (hal : (o.tds t).td_dma &&& TD_MASK = (o.tds t).td_dma)
    (hdist : ∀ x ∈ H (TD_HASH_FUNC (o.tds t).td_dma), (o.tds x).td_dma ≠ (o.tds t).td_dma) :
    hash_ok (td_fill_cell o info data len u index p t t_pt)
      (upd H (TD_HASH_FUNC (o.tds t).td_dma) (t :: H (TD_HASH_FUNC (o.tds t).td_dma))) := by
  obtain ⟨e1, e2, e3, e4⟩ := td_fill_cell_hash o info data len u index p t t_pt
  generalize td_fill_cell o info data len u index p t t_pt = o1 at *
  have hne : ∀ h, ∀ y ∈ H h, y ≠ t := fun h y hy e => hfresh h (e ▸ hy)
  have hmem : ∀ h x, x ∈ upd H (TD_HASH_FUNC (o.tds t).td_dma)
      (t :: H (TD_HASH_FUNC (o.tds t).td_dma)) h →
      (x = t ∧ h = TD_HASH_FUNC (o.tds t).td_dma) ∨ (x ≠ t ∧ x ∈ H h) := by
    intro h x hx
    unfold upd at hx
    by_cases hh : h = TD_HASH_FUNC (o.tds t).td_dma
    · rw [if_pos hh] at hx
      rcases List.mem_cons.mp hx with e | e
      · exact Or.inl ⟨e, hh⟩
      · exact Or.inr ⟨hne _ x e, hh ▸ e⟩
    · rw [if_neg hh] at hx
      exact Or.inr ⟨hne _ x hx, hx⟩
  have hdma : ∀ x, (o1.tds x).td_dma = (o.tds x).td_dma := by
    intro x
    by_cases hx : x = t
    · rw [hx, e3]
    · rw [e4 x hx]
  refine ⟨?_, ?_, ?_, ?_, ?_⟩
  · intro h
    rw [e1]
    unfold upd
    by_cases hh : h = TD_HASH_FUNC (o.tds t).td_dma
    · rw [if_pos hh, if_pos hh]
      refine ⟨rfl, ?_⟩
      rw [e2]
      exact td_chain_frame o.tds o1.tds _ _ (hok.chain _)
        (fun y hy => by rw [e4 y (hne _ y hy)])
    · rw [if_neg hh, if_neg hh]
      exact td_chain_frame o.tds o1.tds _ _ (hok.chain h)
        (fun y hy => by rw [e4 y (hne _ y hy)])
  · intro h
    unfold upd
    by_cases hh : h = TD_HASH_FUNC (o.tds t).td_dma
    · rw [if_pos hh]
      exact List.nodup_cons.mpr ⟨hfresh _, hok.nodup _⟩
    · rw [if_neg hh]
      exact hok.nodup h
  · intro h x hx
    rw [hdma]
    rcases hmem h x hx with ⟨a, b⟩ | ⟨a, b⟩
    · rw [a, b]
    · exact hok.home h x b
  · intro h x hx
    rw [hdma]
    rcases hmem h x hx with ⟨a, b⟩ | ⟨a, b⟩
    · rw [a]; exact hal
    · exact hok.aligned h x b
  · intro h x hx y hy hxy
    rw [hdma, hdma]
    rcases hmem h x hx with ⟨a, b⟩ | ⟨a, b⟩
    · rcases hmem h y hy with ⟨c, d⟩ | ⟨c, d⟩
      · exact absurd (a.trans c.symm) hxy
      · rw [a]
        exact fun e => hdist y (b ▸ d) e.symm
    · rcases hmem h y hy with ⟨c, d⟩ | ⟨c, d⟩
      · rw [c]
        exact hdist x (d ▸ b)
      · exact hok.distinct h x b y d hxy

/-- Writing through the cursor of `td_free` leaves every `td_dma` as it is. -/
theorem tdref_set_dma (o : ohci_hcd) (v : Option Nat) (prev : tdref) (x : Nat) :
    ((prev.set o v).tds x).td_dma = (o.tds x).td_dma := by
  cases prev with
  | bucket h => rfl
  | node c =>
    show (upd o.tds c { o.tds c with td_hash := v } x).td_dma = _
    unfold upd
    split
    · rename_i e; rw [e]
    · rfl

/-- Writing through the cursor of `td_free` changes no `td_hash` field but the one the
cursor points at. -/
theorem tdref_set_other (o : ohci_hcd) (v : Option Nat) (prev : tdref) (x : Nat)
    (hx : prev ≠ .node x) : (prev.set o v).tds x = o.tds x := by
  cases prev with
  | bucket h => rfl
  | node c =>
    show upd o.tds c { o.tds c with td_hash := v } x = _
    unfold upd
    rw [if_neg (fun e => hx (by rw [e]))]

theorem tdref_get_set (o : ohci_hcd) (v : Option Nat) (prev : tdref) :
    prev.get (prev.set o v) = v := by
  cases prev with
  | bucket h =>
    show upd o.td_hash h v h = v
    unfold upd
    rw [if_pos rfl]
  | node c =>
    show (upd o.tds c { o.tds c with td_hash := v } c).td_hash = v
    unfold upd
    rw [if_pos rfl]

theorem tdref_get_set_other (o : ohci_hcd) (v : Option Nat) (prev : tdref) (c : Nat)
    (hp : prev ≠ .node c) : prev.get ((tdref.node c).set o v) = prev.get o := by
  cases prev with
  | bucket h => rfl
  | node b =>
    show (upd o.tds c { o.tds c with td_hash := v } b).td_hash = _
    unfold upd
    rw [if_neg (fun e => hp (by rw [e]))]
    rfl

/-- The walk of `td_free` on a chain that holds `t` stops at the pointer to `t`, and
writing `t->td_hash` through it takes `t` out of the chain. -/
theorem td_free_walk_unlink (o : ohci_hcd) (t : Nat) (L : List Nat) (prev : tdref)
    (fuel : Nat) (hc : td_chain o.tds (prev.get o) L) (ht : t ∈ L) (hnd : L.Nodup)
    (hp : ∀ b, prev = .node b → b ∉ L) (hfuel : L.length < fuel) :
    ∃ prev2, td_free_walk o t fuel prev = some prev2 ∧ prev2.get o = some t ∧
      (prev2 = prev ∨ ∃ c ∈ L, c ≠ t ∧ prev2 = .node c) ∧
      td_chain (prev2.set o (o.tds t).td_hash).tds
        (prev.get (prev2.set o (o.tds t).td_hash)) (L.erase t) := by
  induction L generalizing prev fuel with
  | nil => exact absurd ht (List.not_mem_nil t)
  | cons a r ih =>
    obtain ⟨h1, h2⟩ := hc
    cases fuel with
    | zero => simp at hfuel
    | succ f =>
      simp only [td_free_walk]
      rw [h1]
      dsimp only
      by_cases hat : a = t
      · subst hat
        rw [if_neg (by simp)]
        refine ⟨prev, rfl, h1, Or.inl rfl, ?_⟩
        rw [tdref_get_set, List.erase_cons_head]
        apply td_chain_frame o.tds _ _ _ h2
        intro y hy
        rw [tdref_set_other]
        intro e
        exact hp y e (List.mem_cons_of_mem _ hy)
      · rw [if_pos hat]
        have ht2 : t ∈ r := by
          rcases List.mem_cons.mp ht with e | e
          · exact absurd e.symm hat
          · exact e
        have hnd2 := List.nodup_cons.mp hnd
        obtain ⟨prev2, w1, w2, w3, w4⟩ := ih (.node a) f h2 ht2 hnd2.2
          (fun b e => by
            have : a = b := by injection e
            exact this ▸ hnd2.1) (by simp at hfuel; omega)
        have hc2 : ∃ c, c ∈ a :: r ∧ c ≠ t ∧ prev2 = .node c := by
          rcases w3 with e | ⟨c, c1, c2, c3⟩
          · exact ⟨a, List.mem_cons_self _ _, hat, e⟩
          · exact ⟨c, List.mem_cons_of_mem _ c1, c2, c3⟩
        refine ⟨prev2, w1, w2, Or.inr hc2, ?_⟩
        obtain ⟨c, c1, c2, c3⟩ := hc2
        have hpc : prev ≠ .node c := fun e => hp c e c1
        rw [List.erase_cons_tail (by simpa using hat)]
        refine ⟨?_, w4⟩
        rw [c3, tdref_get_set_other o _ prev c hpc]
        exact h1

/-- For a hashed TD `td_free` returns and takes the TD out of its bucket; the hash stays in
order and no `td_dma` changes. -/
theorem td_free_hashed (o : ohci_hcd) (H : Nat → List Nat) (h t fuel : Nat)
    (hok : hash_ok o H) (ht : t ∈ H h) (hfuel : (H h).length < fuel) :
    ∃ o2, td_free fuel o t = some o2 ∧ hash_ok o2 (upd H h ((H h).erase t)) ∧
      ∀ x, (o2.tds x).td_dma = (o.tds x).td_dma := by
  have hh := hok.home h t ht
  obtain ⟨prev2, w1, w2, w3, w4⟩ := td_free_walk_unlink o t (H h) (.bucket h) fuel
    (hok.chain h) ht (hok.nodup h) (fun b e => by cases e) hfuel
  unfold td_free
  rw [hh, w1]
  dsimp only
  rw [if_pos (by rw [w2]; rfl)]
  refine ⟨_, rfl, ?_, fun x => tdref_set_dma o _ prev2 x⟩
  have hsub : ∀ h2 x, x ∈ upd H h ((H h).erase t) h2 → x ∈ H h2 := by
    intro h2 x hx
    unfold upd at hx
    by_cases e : h2 = h
    · rw [if_pos e] at hx
      rw [e]
      exact List.mem_of_mem_erase hx
    · rw [if_neg e] at hx
      exact hx
  refine ⟨?_, ?_, ?_, ?_, ?_⟩
  · intro h2
    by_cases e : h2 = h
    · subst e
      show td_chain (prev2.set o (o.tds t).td_hash).tds
        ((tdref.bucket h2).get (prev2.set o (o.tds t).td_hash)) (upd H h2 ((H h2).erase t) h2)
      unfold upd
      rw [if_pos rfl]
      exact w4
    · show td_chain (prev2.set o (o.tds t).td_hash).tds
        ((prev2.set o (o.tds t).td_hash).td_hash h2) (upd H h ((H h).erase t) h2)
      unfold upd
      rw [if_neg e]
      have hb : (prev2.set o (o.tds t).td_hash).td_hash h2 = o.td_hash h2 := by
        rcases w3 with e2 | ⟨c, _, _, e2⟩
        · rw [e2]
          show upd o.td_hash h (o.tds t).td_hash h2 = _
          unfold upd
          rw [if_neg e]
        · rw [e2]
          rfl
      rw [hb]
      apply td_chain_frame o.tds _ _ _ (hok.chain h2)
      intro y hy
      rw [tdref_set_other]
      intro e3
      rcases w3 with e2 | ⟨c, c1, _, e2⟩
      · rw [e2] at e3
        cases e3
      · rw [e2] at e3
        have : c = y := by injection e3
        subst this
        exact e ((hok.home h2 c hy).symm.trans (hok.home h c c1))
  · intro h2
    unfold upd
    by_cases e : h2 = h
    · rw [if_pos e]
      exact (hok.nodup h).erase t
    · rw [if_neg e]
      exact hok.nodup h2
  · intro h2 x hx
    show TD_HASH_FUNC ((prev2.set o (o.tds t).td_hash).tds x).td_dma = h2
    rw [tdref_set_dma]
    exact hok.home h2 x (hsub h2 x hx)
  · intro h2 x hx
    show ((prev2.set o (o.tds t).td_hash).tds x).td_dma &&& TD_MASK
      = ((prev2.set o (o.tds t).td_hash).tds x).td_dma
    rw [tdref_set_dma]
    exact hok.aligned h2 x (hsub h2 x hx)
  · intro h2 x hx y hy hxy
    show ((prev2.set o (o.tds t).td_hash).tds x).td_dma
      ≠ ((prev2.set o (o.tds t).td_hash).tds y).td_dma
    rw [tdref_set_dma, tdref_set_dma]
    exact hok.distinct h2 x (hsub h2 x hx) y (hsub h2 y hy) hxy

/-- After `td_free` of the hashed TD `t` the lookup of its address returns `NULL`, and
the lookups of the other hashed TDs return them as before. -/
theorem td_free_lookup (o : ohci_hcd) (H : Nat → List Nat) (h t fuel : Nat)
    (hok : hash_ok o H) (ht : t ∈ H h) (hfuel : ∀ h2, (H h2).length < fuel) :
    ∃ o2, td_free fuel o t = some o2 ∧
      dma_to_td fuel o2 (o.tds t).td_dma = some none ∧
      ∀ h2, ∀ x ∈ H h2, x ≠ t → dma_to_td fuel o2 (o.tds x).td_dma = some (some x) := by
  obtain ⟨o2, f1, f2, f3⟩ := td_free_hashed o H h t fuel hok ht (hfuel h)
  have hh := hok.home h t ht
  have hlen : ∀ h2, (upd H h ((H h).erase t) h2).length < fuel := by
    intro h2
    unfold upd
    split
    · exact lt_of_le_of_lt (List.length_erase_le _ _) (hfuel h)
    · exact hfuel h2
  refine ⟨o2, f1, ?_, ?_⟩
  · apply dma_to_td_absent o2 _ _ fuel f2 (hok.aligned h t ht) _ (hlen _)
    intro y hy
    rw [hh] at hy
    unfold upd at hy
    rw [if_pos rfl] at hy
    rw [f3]
    exact hok.distinct h y (List.mem_of_mem_erase hy) t ht
      (fun e => (List.Nodup.not_mem_erase (hok.nodup h)) (e ▸ hy))
  · intro h2 x hx hxt
    rw [← f3 x]
    apply dma_to_td_hashed o2 _ h2 x fuel f2 _ (hlen h2)
    unfold upd
    by_cases e : h2 = h
    · rw [if_pos e]
      exact (List.mem_erase_of_ne hxt).mpr (e ▸ hx)
    · rw [if_neg e]
      exact hx

/-- C30. With the hash in order (`H` lists the hashed TDs, whose `td_dma` addresses are
32-byte aligned and pairwise distinct) and the dummy TD `t` of the ED not hashed yet, with
an aligned address that no hashed TD of its bucket has: `td_fill` returns, and after it
`dma_to_td` returns `t` at the address of `t` and every other hashed TD at its own
address, as before; after `td_free (t)` the lookup of the address of `t` returns `NULL`
and the other lookups still return their TDs.  The same holds for `td_free` of any hashed
TD `y`. -/
theorem td_hash_round_trip (o : ohci_hcd) (H : Nat → List Nat)
    (info data len u index p t t_pt fuel : Nat) (hok : hash_ok o H)
    (hp : (o.hcd.urbs u).hcpriv = some p)
    (hdummy : (o.sched.eds (o.privs p).ed).dummy = some t)
    (htd : (o.privs p).td index = some t_pt)
    (hfresh : ∀ h, t ∉ H h)
    (hal : (o.tds t).td_dma &&& TD_MASK = (o.tds t).td_dma)
    (hdist : ∀ x ∈ H (TD_HASH_FUNC (o.tds t).td_dma), (o.tds x).td_dma ≠ (o.tds t).td_dma)
    (hfuel : ∀ h, (H h).length + 1 < fuel) :
    (∃ o1, td_fill o info data len u index = some o1 ∧
      dma_to_td fuel o1 (o.tds t).td_dma = some (some t) ∧
      (∀ h, ∀ x ∈ H h, dma_to_td fuel o (o.tds x).td_dma = some (some x) ∧
        dma_to_td fuel o1 (o.tds x).td_dma = some (some x)) ∧
      ∃ o2, td_free fuel o1 t = some o2 ∧
        dma_to_td fuel o2 (o.tds t).td_dma = some none ∧
        ∀ h, ∀ x ∈ H h, dma_to_td fuel o2 (o.tds x).td_dma = some (some x)) ∧
    (∀ h, ∀ y ∈ H h, ∃ o3, td_free fuel o y = some o3 ∧
      dma_to_td fuel o3 (o.tds y).td_dma = some none ∧
      ∀ h2, ∀ x ∈ H h2, x ≠ y → dma_to_td fuel o3 (o.tds x).td_dma = some (some x)) := by
  have hf0 : ∀ h, (H h).length < fuel := fun h => by have := hfuel h; omega
  constructor
  · have hfill : td_fill o info data len u index
        = some (td_fill_cell o info data len u index p t t_pt) := by
      unfold td_fill
      rw [hp]
      dsimp only
      rw [hdummy, htd]
    have hok1 := td_fill_cell_hash_ok o H info data len u index p t t_pt hok hfresh hal hdist
    obtain ⟨e1, e2, e3, e4⟩ := td_fill_cell_hash o info data len u index p t t_pt
    have hdma : ∀ x, ((td_fill_cell o info data len u index p t t_pt).tds x).td_dma
        = (o.tds x).td_dma := by
      intro x
      by_cases hx : x = t
      · rw [hx, e3]
      · rw [e4 x hx]
    generalize td_fill_cell o info data len u index p t t_pt = o1 at *
    have hlen1 : ∀ h, (upd H (TD_HASH_FUNC (o.tds t).td_dma)
        (t :: H (TD_HASH_FUNC (o.tds t).td_dma)) h).length < fuel := by
      intro h
      unfold upd
      split
      · have := hfuel (TD_HASH_FUNC (o.tds t).td_dma)
        simp only [List.length_cons]
        omega
      · exact hf0 h
    have hin : ∀ h, ∀ x ∈ H h, x ∈ upd H (TD_HASH_FUNC (o.tds t).td_dma)
        (t :: H (TD_HASH_FUNC (o.tds t).td_dma)) h := by
      intro h x hx
      unfold upd
      by_cases e : h = TD_HASH_FUNC (o.tds t).td_dma
      · rw [if_pos e]
        exact List.mem_cons_of_mem _ (e ▸ hx)
      · rw [if_neg e]
        exact hx
    have htin : t ∈ upd H (TD_HASH_FUNC (o.tds t).td_dma)
        (t :: H (TD_HASH_FUNC (o.tds t).td_dma)) (TD_HASH_FUNC (o.tds t).td_dma) := by
      unfold upd
      rw [if_pos rfl]
      exact List.mem_cons_self _ _
    refine ⟨o1, hfill, ?_, ?_, ?_⟩
    · rw [← hdma t]
      exact dma_to_td_hashed o1 _ _ t fuel hok1 htin (hlen1 _)
    · intro h x hx
      refine ⟨dma_to_td_hashed o H h x fuel hok hx (hf0 h), ?_⟩
      rw [← hdma x]
      exact dma_to_td_hashed o1 _ h x fuel hok1 (hin h x hx) (hlen1 h)
    · obtain ⟨o2, g1, g2, g3⟩ := td_free_lookup o1 _ _ t fuel hok1 htin hlen1
      refine ⟨o2, g1, ?_, ?_⟩
      · rw [← hdma t]
        exact g2
      · intro h x hx
        rw [← hdma x]
        exact g3 h x (hin h x hx) (fun e => hfresh h (e ▸ hx))
  · intro h y hy
    exact td_free_lookup o H h y fuel hok hy hf0

theorem bulk3_one_hash_ok : hash_ok bulk3_one bulk3_one_hash := by
  have h0 : hash_ok bulk3 (fun _ => []) :=
    ⟨fun _ => rfl, fun _ => List.nodup_nil, fun _ x hx => absurd hx (List.not_mem_nil x),
      fun _ x hx => absurd hx (List.not_mem_nil x),
      fun _ x hx => absurd hx (List.not_mem_nil x)⟩
  exact td_fill_cell_hash_ok bulk3 (fun _ => []) 0 0x10000 4096 0 0 0 0 1 h0
    (fun _ => List.not_mem_nil 0) (by decide) (fun x hx => absurd hx (List.not_mem_nil x))

theorem bulk3_one_hash_mem (h x : Nat) (hx : x ∈ bulk3_one_hash h) : x = 0 := by
  unfold bulk3_one_hash upd at hx
  split at hx
  · simpa using hx
  · exact absurd hx (List.not_mem_nil x)

/-- In `bulk3_one`, where TD 0 is hashed, the second request is filled into the dummy TD 1
and taken back: the lookups of the address `0x120` of TD 1 return TD 1 and then `NULL`,
and the lookup of `0x100` returns TD 0 throughout. -/
theorem td_hash_round_trip_witness :
    (hash_ok bulk3_one bulk3_one_hash ∧ (bulk3_one.hcd.urbs 1).hcpriv = some 1 ∧
      (bulk3_one.sched.eds (bulk3_one.privs 1).ed).dummy = some 1 ∧
      (bulk3_one.privs 1).td 0 = some 2 ∧ (bulk3_one.tds 1).td_dma = 0x120 ∧
      (bulk3_one.tds 0).td_dma = 0x100 ∧ 0 ∈ bulk3_one_hash (TD_HASH_FUNC 0x100)) ∧
    ((∃ o1, td_fill bulk3_one 0 0x20000 4096 1 0 = some o1 ∧
      dma_to_td 3 o1 (bulk3_one.tds 1).td_dma = some (some 1) ∧
      (∀ h, ∀ x ∈ bulk3_one_hash h,
        dma_to_td 3 bulk3_one (bulk3_one.tds x).td_dma = some (some x) ∧
        dma_to_td 3 o1 (bulk3_one.tds x).td_dma = some (some x)) ∧
      ∃ o2, td_free 3 o1 1 = some o2 ∧
        dma_to_td 3 o2 (bulk3_one.tds 1).td_dma = some none ∧
        ∀ h, ∀ x ∈ bulk3_one_hash h,
          dma_to_td 3 o2 (bulk3_one.tds x).td_dma = some (some x)) ∧
    (∀ h, ∀ y ∈ bulk3_one_hash h, ∃ o3, td_free 3 bulk3_one y = some o3 ∧
      dma_to_td 3 o3 (bulk3_one.tds y).td_dma = some none ∧
      ∀ h2, ∀ x ∈ bulk3_one_hash h2, x ≠ y →
        dma_to_td 3 o3 (bulk3_one.tds x).td_dma = some (some x))) :=
  ⟨⟨bulk3_one_hash_ok, by decide, by decide, by decide, by decide, by decide, by decide⟩,
    td_hash_round_trip bulk3_one bulk3_one_hash 0 0x20000 4096 1 0 1 1 2 3 bulk3_one_hash_ok
      (by decide) (by decide) (by decide)
      (fun h hm => absurd (bulk3_one_hash_mem h 1 hm) (by decide))
      (by decide)
      (fun x hx => by rw [bulk3_one_hash_mem _ x hx]; decide)
      (fun h => by
        unfold bulk3_one_hash upd
        split
        · decide
        · show 0 + 1 < 3
          decide)⟩

/-! ## td_submit_urb: the cells of a control request -/

/-- One `td_fill` call for a non-isochronous cell: the old dummy `t` becomes the cell, the
TD `urb_priv->td [index]` the new dummy; the interrupt delay 6 is added unless the cell is
the last one of the request and `URB_NO_INTERRUPT` is clear. -/
theorem td_fill_step (o : ohci_hcd) (info data len u k p t t_pt : Nat)
    (hp : (o.hcd.urbs u).hcpriv = some p)
    (hd : (o.sched.eds (o.privs p).ed).dummy = some t)
    (htd : (o.privs p).td k = some t_pt) (hniso : info &&& TD_ISO = 0) :
    ∃ o1, td_fill o info data len u k = some o1 ∧
      o1.hcd = o.hcd ∧
      (∀ q, (o1.privs q).ed = (o.privs q).ed ∧ (o1.privs q).length = (o.privs q).length) ∧
      (∀ i, i ≠ k → (o1.privs p).td i = (o.privs p).td i) ∧
      (o1.sched.eds (o.privs p).ed).dummy = some t_pt ∧
      (o1.sched.eds (o.privs p).ed).td_list = (o.sched.eds (o.privs p).ed).td_list ++ [t] ∧
      (∀ y, y ≠ t → o1.tds y = o.tds y) ∧
      ring_cell o1 u t (info, data, len, k)
        (if (k : Int) ≠ ((o.privs p).length : Int) - 1
            ∨ (o.hcd.urbs u).transfer_flags &&& URB_NO_INTERRUPT ≠ 0
          then info ||| TD_DI_SET 6 else info) := by
  refine ⟨td_fill_cell o info data len u k p t t_pt, ?_, ?_, ?_, ?_, ?_, ?_, ?_, ?_⟩
  · unfold td_fill
    rw [hp]
    dsimp only
    rw [hd, htd]
  · unfold td_fill_cell
    simp only [ohci_hcd.mod_td, ohci_hcd.mod_ed, ohci_hcd.mod_priv, hniso, ne_eq,
      not_true_eq_false, if_false]
  · intro q
    unfold td_fill_cell
    simp only [ohci_hcd.mod_td, ohci_hcd.mod_ed, ohci_hcd.mod_priv, hniso, ne_eq,
      not_true_eq_false, if_false, upd]
    split <;> simp_all
  · intro i hi
    unfold td_fill_cell
    simp only [ohci_hcd.mod_td, ohci_hcd.mod_ed, ohci_hcd.mod_priv, hniso, ne_eq,
      not_true_eq_false, if_false, upd, if_true]
    simp [hi]
  · unfold td_fill_cell
    simp [ohci_hcd.mod_td, ohci_hcd.mod_ed, ohci_hcd.mod_priv, ohci_sched.mod_ed, hniso, upd]
  · unfold td_fill_cell
    simp [ohci_hcd.mod_td, ohci_hcd.mod_ed, ohci_hcd.mod_priv, ohci_sched.mod_ed, hniso, upd]
  · intro y hy
    unfold td_fill_cell
    simp [ohci_hcd.mod_td, ohci_hcd.mod_ed, ohci_hcd.mod_priv, hniso, upd, hy]
  · unfold ring_cell td_fill_cell
    simp [ohci_hcd.mod_td, ohci_hcd.mod_ed, ohci_hcd.mod_priv, hniso, upd]
    by_cases h : len = 0
    · simp [h]
    · simp [h]

/-- The control arm of `td_submit_urb` is the head of the function, the `td_fill` calls of
the reference list, and the control-list-filled command. -/
theorem td_submit_urb_control_eq (ohci : ohci_hcd) (u p : Nat)
    (hp : (ohci.hcd.urbs u).hcpriv = some p)
    (ht : (ohci.sched.eds (ohci.privs p).ed).type = PIPE_CONTROL) :
    td_submit_urb ohci u =
      (td_fill_seq u (td_submit_urb_start ohci u p) (control_fill_calls (ohci.hcd.urbs u))).map
        (fun o => o.writel OHCI_CLF .cmdstatus) := by
  obtain ⟨hurbs, hpriv, htype⟩ := td_submit_urb_start_frame ohci u p
  have ht1 : ((td_submit_urb_start ohci u p).sched.eds
      ((td_submit_urb_start ohci u p).privs p).ed).type = PIPE_CONTROL := by
    rw [hpriv, htype]; exact ht
  unfold td_submit_urb
  rw [hp]
  dsimp only
  rw [ht1, if_neg (by decide), if_neg (by decide), if_pos rfl]
  unfold td_submit_urb_control control_fill_calls
  dsimp only
  rw [hurbs]
  generalize td_submit_urb_start ohci u p = s
  generalize ohci.hcd.urbs u = x
  simp only [List.singleton_append, td_fill_seq]
  cases h1 : td_fill s (TD_CC ||| TD_DP_SETUP ||| TD_T_DATA0) x.setup_dma 8 u 0 with
  | none => rfl
  | some o1 =>
    dsimp only
    have hinfo : (if x.pipe_out = true ∨ x.transfer_buffer_length = 0
          then TD_CC ||| TD_DP_IN ||| TD_T_DATA1 else TD_CC ||| TD_DP_OUT ||| TD_T_DATA1)
        = TD_CC ||| (if x.pipe_out = true ∨ x.transfer_buffer_length = 0
          then TD_DP_IN else TD_DP_OUT) ||| TD_T_DATA1 := by
      split <;> rfl
    rw [hinfo]
    generalize TD_CC ||| (if x.pipe_out = true ∨ x.transfer_buffer_length = 0
          then TD_DP_IN else TD_DP_OUT) ||| TD_T_DATA1 = sinfo
    by_cases hL : x.transfer_buffer_length > 0
    · have hL0 : x.transfer_buffer_length ≠ 0 := by omega
      have hL1 : ¬ x.transfer_buffer_length = 0 := hL0
      simp only [if_pos hL, if_pos hL0, if_neg hL1, List.singleton_append, td_fill_seq]
      cases h2 : td_fill o1 (TD_CC ||| TD_R ||| TD_T_DATA1
          ||| (if x.pipe_out = true then TD_DP_OUT else TD_DP_IN))
          x.transfer_dma x.transfer_buffer_length u 1 with
      | none => rfl
      | some o2 =>
        dsimp only
        cases td_fill o2 sinfo x.transfer_dma 0 u 2 <;> rfl
    · have hL0 : x.transfer_buffer_length = 0 := by omega
      have hL2 : ¬ x.transfer_buffer_length ≠ 0 := by omega
      simp only [if_neg hL, if_neg hL2, if_pos hL0, List.nil_append, td_fill_seq]
      cases td_fill o1 sinfo 0 0 u 1 <;> rfl

theorem ring_cell_frame (o o2 : ohci_hcd) (u t : Nat) (c : Nat × Nat × Nat × Nat) (info : Nat)
    (h : o2.tds t = o.tds t) (hc : ring_cell o u t c info) : ring_cell o2 u t c info := by
  unfold ring_cell at *
  rw [h]
  exact hc

/-- A run of `td_fill` calls with the indices `j, j + 1, ...` for non-isochronous cells,
on a ring whose TDs are pairwise distinct: the first cell goes into the dummy `d`, cell
`i + 1` into the TD `T (j + i)` that `urb_priv->td []` held at index `j + i`, the last of
these TDs is the new dummy, and each cell keeps what its call wrote. -/
theorem td_fill_seq_ring (u p : Nat) (T : Nat → Nat) :
    ∀ (cs : List (Nat × Nat × Nat × Nat)) (o : ohci_hcd) (j d : Nat),
      (o.hcd.urbs u).hcpriv = some p →
      (o.sched.eds (o.privs p).ed).dummy = some d →
      (∀ i c, cs[i]? = some c → c.2.2.2 = j + i ∧ c.1 &&& TD_ISO = 0) →
      (∀ i, i < cs.length → (o.privs p).td (j + i) = some (T (j + i))) →
      (∀ i, i < cs.length → T (j + i) ≠ d) →
      (∀ i i2, i < i2 → i2 < cs.length → T (j + i) ≠ T (j + i2)) →
      ∃ o2, td_fill_seq u o cs = some o2 ∧ o2.hcd = o.hcd ∧
        (∀ q, (o2.privs q).ed = (o.privs q).ed ∧ (o2.privs q).length = (o.privs q).length) ∧
        (o2.sched.eds (o.privs p).ed).td_list = (o.sched.eds (o.privs p).ed).td_list
          ++ (List.range cs.length).map (fun i => if i = 0 then d else T (j + i - 1)) ∧
        (cs ≠ [] → (o2.sched.eds (o.privs p).ed).dummy = some (T (j + cs.length - 1))) ∧
        (∀ y, y ≠ d → (∀ i, i + 1 < cs.length → y ≠ T (j + i)) → o2.tds y = o.tds y) ∧
        ∀ i c, cs[i]? = some c →
          ring_cell o2 u (if i = 0 then d else T (j + i - 1)) c
            (if (c.2.2.2 : Int) ≠ ((o.privs p).length : Int) - 1
                ∨ (o.hcd.urbs u).transfer_flags &&& URB_NO_INTERRUPT ≠ 0
              then c.1 ||| TD_DI_SET 6 else c.1) := by
  intro cs
  induction cs with
  | nil =>
    intro o j d hp hd hidx htd hfresh hinj
    refine ⟨o, rfl, rfl, fun q => ⟨rfl, rfl⟩, by simp, fun h => absurd rfl h,
      fun y _ _ => rfl, fun i c hc => by simp at hc⟩
  | cons c rest ih =>
    intro o j d hp hd hidx htd hfresh hinj
    obtain ⟨ci, cn⟩ := hidx 0 c (by simp)
    have hcj : c.2.2.2 = j := by omega
    obtain ⟨o1, f1, f2, f3, f4, f5, f6, f7, f8⟩ := td_fill_step o c.1 c.2.1 c.2.2.1 u j p d (T j)
      hp hd (by simpa using htd 0 (by simp)) cn
    have hp1 : (o1.hcd.urbs u).hcpriv = some p := by rw [f2]; exact hp
    have he1 : (o1.privs p).ed = (o.privs p).ed := (f3 p).1
    obtain ⟨o2, g1, g2, g3, g4, g5, g6, g7⟩ := ih o1 (j + 1) (T j) hp1
      (by rw [he1]; exact f5)
      (fun i c2 hc2 => by
        have := hidx (i + 1) c2 (by simpa using hc2)
        exact ⟨by omega, this.2⟩)
      (fun i hi => by
        rw [f4 (j + 1 + i) (by omega)]
        have := htd (i + 1) (by simp; omega)
        rw [show j + 1 + i = j + (i + 1) by omega]
        exact this)
      (fun i hi => by
        have := hinj 0 (i + 1) (by omega) (by simp; omega)
        rw [show j + 1 + i = j + (i + 1) by omega]
        exact fun e => this (by simpa using e.symm))
      (fun i i2 hii hi2 => by
        have := hinj (i + 1) (i2 + 1) (by omega) (by simp; omega)
        rw [show j + 1 + i = j + (i + 1) by omega, show j + 1 + i2 = j + (i2 + 1) by omega]
        exact this)
    rw [he1] at g4 g5
    refine ⟨o2, ?_, g2.trans f2, fun q => ⟨(g3 q).1.trans (f3 q).1, (g3 q).2.trans (f3 q).2⟩,
      ?_, ?_, ?_, ?_⟩
    · rw [td_fill_seq, hcj, f1]
      exact g1
    · rw [g4, f6, List.append_assoc]
      congr 1
      rw [List.length_cons, List.range_succ_eq_map, List.map_cons, List.map_map]
      rw [if_pos rfl, List.singleton_append]
      congr 1
      apply List.map_congr_left
      intro i _
      show (if i = 0 then T j else T (j + 1 + i - 1))
        = (if i + 1 = 0 then d else T (j + (i + 1) - 1))
      rw [if_neg (Nat.succ_ne_zero i)]
      by_cases hi : i = 0
      · subst hi; rfl
      · rw [if_neg hi]
        have e : j + 1 + i - 1 = j + (i + 1) - 1 := by omega
        rw [e]
    · intro _
      by_cases hr : rest = []
      · subst hr
        rw [td_fill_seq] at g1
        have e : o2 = o1 := (Option.some.inj g1).symm
        rw [e, f5]
        simp
      · rw [g5 hr, List.length_cons]
        have e : j + 1 + rest.length - 1 = j + (rest.length + 1) - 1 := by omega
        rw [e]
    · intro y hyd hyT
      by_cases hr : rest = []
      · subst hr
        rw [td_fill_seq] at g1
        have e : o2 = o1 := (Option.some.inj g1).symm
        rw [e]
        exact f7 y hyd
      · have hl : 0 < rest.length := List.length_pos.mpr hr
        rw [g6 y (hyT 0 (by simp; omega)) (fun i hi => by
          have := hyT (i + 1) (by simp; omega)
          rw [show j + 1 + i = j + (i + 1) by omega]
          exact this)]
        exact f7 y hyd
    · intro i c2 hc2
      cases i with
      | zero =>
        have ec : c2 = c := by simpa using hc2.symm
        subst ec
        rw [if_pos rfl]
        have hd2 : o2.tds d = o1.tds d := by
          apply g6 d (fun e => hfresh 0 (by simp) (by simpa using e.symm))
          intro i hi
          have := hfresh (i + 1) (by simp; omega)
          rw [show j + 1 + i = j + (i + 1) by omega]
          exact fun e => this e.symm
        apply ring_cell_frame o1 o2 u d _ _ hd2
        rw [hcj]
        have ec : c2 = (c2.1, c2.2.1, c2.2.2.1, j) := by rw [← hcj]
        rw [ec]
        exact f8
      | succ i2 =>
        have hc3 : rest[i2]? = some c2 := by simpa using hc2
        have := g7 i2 c2 hc3
        rw [(f3 p).2, f2] at this
        have et : (if i2 = 0 then T j else T (j + 1 + i2 - 1))
            = (if i2 + 1 = 0 then d else T (j + (i2 + 1) - 1)) := by
          rw [if_neg (Nat.succ_ne_zero i2)]
          by_cases h0 : i2 = 0
          · subst h0; rfl
          · rw [if_neg h0]
            have e : j + 1 + i2 - 1 = j + (i2 + 1) - 1 := by omega
            rw [e]
        rw [← et]
        exact this

/-- The head of `td_submit_urb` leaves the ring as it is. -/
theorem td_submit_urb_start_ring (ohci : ohci_hcd) (u p : Nat) :
    (td_submit_urb_start ohci u p).tds = ohci.tds ∧
    ((td_submit_urb_start ohci u p).privs p).td = (ohci.privs p).td ∧
    ((td_submit_urb_start ohci u p).privs p).length = (ohci.privs p).length ∧
    ∀ e, ((td_submit_urb_start ohci u p).sched.eds e).dummy = (ohci.sched.eds e).dummy ∧
      ((td_submit_urb_start ohci u p).sched.eds e).td_list = (ohci.sched.eds e).td_list := by
  unfold td_submit_urb_start
  dsimp only
  split
  · refine ⟨rfl, ?_, ?_, fun e => ?_⟩
    · simp [ohci_hcd.mod_priv, ohci_hcd.mod_ed]
    · simp [ohci_hcd.mod_priv, ohci_hcd.mod_ed]
    · by_cases he : e = (ohci.privs p).ed
      · subst he; simp [ohci_hcd.mod_priv, ohci_hcd.mod_ed, ohci_sched.mod_ed]
      · simp [ohci_hcd.mod_priv, ohci_hcd.mod_ed, ohci_sched.mod_ed, upd_other _ _ _ _ he]
  · refine ⟨rfl, ?_, ?_, fun e => ⟨rfl, rfl⟩⟩
    · simp [ohci_hcd.mod_priv]
    · simp [ohci_hcd.mod_priv]

/-- The reference list of a control request with a data stage: three calls. -/
theorem control_fill_calls_data (x : urb) (hL : x.transfer_buffer_length > 0) :
    control_fill_calls x =
      [(TD_CC ||| TD_DP_SETUP ||| TD_T_DATA0, x.setup_dma, 8, 0),
       (TD_CC ||| TD_R ||| TD_T_DATA1 ||| (if x.pipe_out then TD_DP_OUT else TD_DP_IN),
         x.transfer_dma, x.transfer_buffer_length, 1),
       (TD_CC ||| (if x.pipe_out then TD_DP_IN else TD_DP_OUT) ||| TD_T_DATA1,
         x.transfer_dma, 0, 2)] := by
  have hL0 : ¬ x.transfer_buffer_length = 0 := by omega
  unfold control_fill_calls
  cases hpo : x.pipe_out <;> simp [hL, hL0]

/-- The reference list of a control request without data stage: two calls. -/
theorem control_fill_calls_nodata (x : urb) (hL : x.transfer_buffer_length = 0) :
    control_fill_calls x =
      [(TD_CC ||| TD_DP_SETUP ||| TD_T_DATA0, x.setup_dma, 8, 0),
       (TD_CC ||| TD_DP_IN ||| TD_T_DATA1, 0, 0, 1)] := by
  have hL0 : ¬ x.transfer_buffer_length > 0 := by omega
  unfold control_fill_calls
  simp [hL]

/-- The calls of the reference list carry the indices 0, 1, ... and no isochronous bit. -/
theorem control_fill_calls_index (x : urb) (i : Nat) (c : Nat × Nat × Nat × Nat)
    (hc : (control_fill_calls x)[i]? = some c) : c.2.2.2 = 0 + i ∧ c.1 &&& TD_ISO = 0 := by
  by_cases hL : x.transfer_buffer_length > 0
  · rw [control_fill_calls_data x hL] at hc
    match i, hc with
    | 0, hc =>
      have e : _ = c := Option.some.inj hc
      subst e
      refine ⟨rfl, ?_⟩
      show (TD_CC ||| TD_DP_SETUP ||| TD_T_DATA0) &&& TD_ISO = 0
      decide
    | 1, hc =>
      have e : _ = c := Option.some.inj hc
      subst e
      refine ⟨rfl, ?_⟩
      show (TD_CC ||| TD_R ||| TD_T_DATA1 ||| (if x.pipe_out then TD_DP_OUT else TD_DP_IN))
        &&& TD_ISO = 0
      cases x.pipe_out <;> decide
    | 2, hc =>
      have e : _ = c := Option.some.inj hc
      subst e
      refine ⟨rfl, ?_⟩
      show (TD_CC ||| (if x.pipe_out then TD_DP_IN else TD_DP_OUT) ||| TD_T_DATA1)
        &&& TD_ISO = 0
      cases x.pipe_out <;> decide
    | k + 3, hc => simp at hc
  · rw [control_fill_calls_nodata x (by omega)] at hc
    match i, hc with
    | 0, hc =>
      have e : _ = c := Option.some.inj hc
      subst e
      refine ⟨rfl, ?_⟩
      show (TD_CC ||| TD_DP_SETUP ||| TD_T_DATA0) &&& TD_ISO = 0
      decide
    | 1, hc =>
      have e : _ = c := Option.some.inj hc
      subst e
      refine ⟨rfl, ?_⟩
      show (TD_CC ||| TD_DP_IN ||| TD_T_DATA1) &&& TD_ISO = 0
      decide
    | k + 2, hc => simp at hc

theorem control_fill_calls_length (x : urb) :
    (control_fill_calls x).length = if x.transfer_buffer_length > 0 then 3 else 2 := by
  by_cases hL : x.transfer_buffer_length > 0
  · rw [control_fill_calls_data x hL, if_pos hL]; rfl
  · rw [control_fill_calls_nodata x (by omega), if_neg hL]; rfl

/-- C21. For a control URB, `td_submit_urb` is its head, then exactly the `td_fill` calls of
the reference list, then the control-list-filled command: the SETUP cell of 8 bytes at
`setup_dma` with toggle DATA0; only when `transfer_buffer_length > 0` one data cell of the
whole length with toggle DATA1 in the direction of the URB; the zero-length status cell
with toggle DATA1, IN when the URB is OUT or has no data, OUT otherwise; 3 cells with a
data stage and 2 without.  With `urb_priv->length` the number of cells (as
`ohci_urb_enqueue` sets it) and the TDs of the request pairwise distinct, the function
returns, the cells are queued in this order behind the old ring, and each cell holds what
its call gave, with the interrupt delay 6 added to every cell but the last one, and to
the last one as well when `URB_NO_INTERRUPT` is set: only the last cell asks for an
interrupt at once. -/
theorem td_submit_urb_control_cells (ohci : ohci_hcd) (u p d0 : Nat) (T : Nat → Nat)
    (hp : (ohci.hcd.urbs u).hcpriv = some p)
    (ht : (ohci.sched.eds (ohci.privs p).ed).type = PIPE_CONTROL)
    (hlen : (ohci.privs p).length = (control_fill_calls (ohci.hcd.urbs u)).length)
    (hd : (ohci.sched.eds (ohci.privs p).ed).dummy = some d0)
    (htd : ∀ k, k < (control_fill_calls (ohci.hcd.urbs u)).length →
      (ohci.privs p).td k = some (T k))
    (hfresh : ∀ k, k < (control_fill_calls (ohci.hcd.urbs u)).length → T k ≠ d0)
    (hinj : ∀ k k2, k < k2 → k2 < (control_fill_calls (ohci.hcd.urbs u)).length →
      T k ≠ T k2) :
    td_submit_urb ohci u =
      (td_fill_seq u (td_submit_urb_start ohci u p) (control_fill_calls (ohci.hcd.urbs u))).map
        (fun o => o.writel OHCI_CLF .cmdstatus) ∧
    (control_fill_calls (ohci.hcd.urbs u)).length
      = (if (ohci.hcd.urbs u).transfer_buffer_length > 0 then 3 else 2) ∧
    ∃ o, td_submit_urb ohci u = some o ∧
      (o.sched.eds (ohci.privs p).ed).td_list = (ohci.sched.eds (ohci.privs p).ed).td_list
        ++ (List.range (control_fill_calls (ohci.hcd.urbs u)).length).map
          (fun k => if k = 0 then d0 else T (k - 1)) ∧
      (o.sched.eds (ohci.privs p).ed).dummy
        = some (T ((control_fill_calls (ohci.hcd.urbs u)).length - 1)) ∧
      ∀ k c, (control_fill_calls (ohci.hcd.urbs u))[k]? = some c →
        ring_cell o u (if k = 0 then d0 else T (k - 1)) c
          (if k + 1 = (control_fill_calls (ohci.hcd.urbs u)).length
              ∧ (ohci.hcd.urbs u).transfer_flags &&& URB_NO_INTERRUPT = 0
            then c.1 else c.1 ||| TD_DI_SET 6) := by
  have heq := td_submit_urb_control_eq ohci u p hp ht
  have hn := control_fill_calls_length (ohci.hcd.urbs u)
  refine ⟨heq, hn, ?_⟩
  obtain ⟨hurbs, hpriv, htype⟩ := td_submit_urb_start_frame ohci u p
  obtain ⟨s1, s2, s3, s4⟩ := td_submit_urb_start_ring ohci u p
  have hne : control_fill_calls (ohci.hcd.urbs u) ≠ [] := by
    intro e
    rw [e] at hn
    split at hn <;> simp at hn
  obtain ⟨o2, g1, g2, g3, g4, g5, g6, g7⟩ := td_fill_seq_ring u p T
    (control_fill_calls (ohci.hcd.urbs u)) (td_submit_urb_start ohci u p) 0 d0
    (by rw [hurbs]; exact hp)
    (by rw [hpriv, (s4 _).1]; exact hd)
    (fun i c hc => control_fill_calls_index _ i c hc)
    (fun i hi => by rw [s2, Nat.zero_add]; exact htd i hi)
    (fun i hi => by rw [Nat.zero_add]; exact hfresh i hi)
    (fun i i2 hii hi2 => by rw [Nat.zero_add, Nat.zero_add]; exact hinj i i2 hii hi2)
  rw [hpriv, (s4 _).2] at g4
  rw [hpriv] at g5
  refine ⟨o2.writel OHCI_CLF .cmdstatus, ?_, ?_, ?_, ?_⟩
  · rw [heq, g1]
    rfl
  · show (o2.sched.eds (ohci.privs p).ed).td_list = _
    rw [g4]
    apply congrArg
    apply List.map_congr_left
    intro k _
    rw [Nat.zero_add]
  · show (o2.sched.eds (ohci.privs p).ed).dummy = _
    rw [g5 hne, Nat.zero_add]
  · intro k c hc
    have hidx := (control_fill_calls_index _ k c hc).1
    have hk : k < (control_fill_calls (ohci.hcd.urbs u)).length := by
      by_contra hge
      rw [List.getElem?_eq_none (by omega)] at hc
      exact absurd hc (by simp)
    have := g7 k c hc
    rw [Nat.zero_add, s3, hurbs, hlen] at this
    apply ring_cell_frame o2 _ u _ c _ rfl
    have einfo : (if (c.2.2.2 : Int) ≠ ((control_fill_calls (ohci.hcd.urbs u)).length : Int) - 1
          ∨ (ohci.hcd.urbs u).transfer_flags &&& URB_NO_INTERRUPT ≠ 0
        then c.1 ||| TD_DI_SET 6 else c.1)
        = (if k + 1 = (control_fill_calls (ohci.hcd.urbs u)).length
            ∧ (ohci.hcd.urbs u).transfer_flags &&& URB_NO_INTERRUPT = 0
          then c.1 else c.1 ||| TD_DI_SET 6) := by
      by_cases hlast : k + 1 = (control_fill_calls (ohci.hcd.urbs u)).length
      · by_cases hni : (ohci.hcd.urbs u).transfer_flags &&& URB_NO_INTERRUPT = 0
        · rw [if_neg (by rw [hidx]; push_neg; exact ⟨by omega, hni⟩), if_pos ⟨hlast, hni⟩]
        · rw [if_pos (Or.inr hni), if_neg (fun h => hni h.2)]
      · rw [if_pos (Or.inl (by rw [hidx]; omega)), if_neg (fun h => hlast h.1)]
    rw [← einfo]
    exact this

/-- The GET_DESCRIPTOR request of `ctrl_in`: three cells, SETUP at `0x8000`, 18 bytes IN at
`0x10000`, status OUT, in the TDs 0, 1 and 2; the interrupt delay 6 (`0x00c00000`) is on
the first two cells and not on the status cell. -/
theorem td_submit_urb_control_cells_witness :
    ((ctrl_in.hcd.urbs 0).hcpriv = some 0 ∧
      (ctrl_in.sched.eds (ctrl_in.privs 0).ed).type = PIPE_CONTROL ∧
      control_fill_calls (ctrl_in.hcd.urbs 0) =
        [(TD_CC ||| TD_DP_SETUP ||| TD_T_DATA0, 0x8000, 8, 0),
         (TD_CC ||| TD_R ||| TD_T_DATA1 ||| TD_DP_IN, 0x10000, 18, 1),
         (TD_CC ||| TD_DP_OUT ||| TD_T_DATA1, 0x10000, 0, 2)] ∧
      (td_submit_urb ctrl_in 0).map (fun o =>
        ((o.sched.eds 0).td_list, (o.sched.eds 0).dummy,
          (o.tds 0).hwINFO, (o.tds 1).hwINFO, (o.tds 2).hwINFO))
        = some ([0, 1, 2], some 3, 0xf2c00000, 0xf3d40000, 0xf3080000)) ∧
    (td_submit_urb ctrl_in 0 =
      (td_fill_seq 0 (td_submit_urb_start ctrl_in 0 0)
        (control_fill_calls (ctrl_in.hcd.urbs 0))).map
        (fun o => o.writel OHCI_CLF .cmdstatus) ∧
    (control_fill_calls (ctrl_in.hcd.urbs 0)).length
      = (if (ctrl_in.hcd.urbs 0).transfer_buffer_length > 0 then 3 else 2) ∧
    ∃ o, td_submit_urb ctrl_in 0 = some o ∧
      (o.sched.eds (ctrl_in.privs 0).ed).td_list = (ctrl_in.sched.eds (ctrl_in.privs 0).ed).td_list
        ++ (List.range (control_fill_calls (ctrl_in.hcd.urbs 0)).length).map
          (fun k => if k = 0 then 0 else (fun i => i + 1) (k - 1)) ∧
      (o.sched.eds (ctrl_in.privs 0).ed).dummy
        = some ((fun i => i + 1) ((control_fill_calls (ctrl_in.hcd.urbs 0)).length - 1)) ∧
      ∀ k c, (control_fill_calls (ctrl_in.hcd.urbs 0))[k]? = some c →
        ring_cell o 0 (if k = 0 then 0 else (fun i => i + 1) (k - 1)) c
          (if k + 1 = (control_fill_calls (ctrl_in.hcd.urbs 0)).length
              ∧ (ctrl_in.hcd.urbs 0).transfer_flags &&& URB_NO_INTERRUPT = 0
            then c.1 else c.1 ||| TD_DI_SET 6)) :=
  ⟨⟨by decide, by decide, by decide, by decide⟩,
    td_submit_urb_control_cells ctrl_in 0 0 0 (fun i => i + 1) (by decide) (by decide)
      (by decide) (by decide)
      (fun k hk => by
        have h3 : k < 3 := hk
        show (if k < 3 then some (k + 1) else none) = some (k + 1)
        rw [if_pos h3])
      (fun k _ => Nat.succ_ne_zero k)
      (fun k k2 hkk _ => by
        show k + 1 ≠ k2 + 1
        omega)⟩

/-! ## ed_schedule: appending to the control and bulk lists -/

/-- The head of `ed_schedule` for an ED that is no interrupt ED. -/
theorem ed_schedule_start_plain (s : ohci_sched) (e : Nat)
    (hni : (s.eds e).type ≠ PIPE_INTERRUPT) :
    ed_schedule_start s e = s.mod_ed e (fun x =>
      { x with state := ED_OPER, ed_prev := none, ed_next := none, hwNextED := 0 }) := by
  unfold ed_schedule_start
  dsimp only
  rw [if_neg]
  rintro ⟨_, h⟩
  apply hni
  simpa [ohci_sched.mod_ed] using h

/-- The state after `ed_schedule` on a control ED. -/
theorem ed_schedule_control_tail (fuel : Nat) (s : ohci_sched) (e : Nat)
    (ht : (s.eds e).type = PIPE_CONTROL) :
    ∃ s2, ed_schedule fuel s e = some (0, s2) ∧
      s2.ed_controltail = some e ∧ s2.ed_bulktail = s.ed_bulktail ∧
      s2.periodic = s.periodic ∧ s2.int_table = s.int_table ∧ s2.load = s.load ∧
      s2.bandwidth_allocated = s.bandwidth_allocated ∧ s2.ed_rm_list = s.ed_rm_list ∧
      (s2.eds e).ed_prev = s.ed_controltail ∧
      (s.ed_controltail ≠ some e → (s2.eds e).ed_next = none ∧ (s2.eds e).hwNextED = 0) ∧
      (∀ t, s.ed_controltail = some t →
        (s2.eds t).ed_next = some e ∧ (s2.eds t).hwNextED = (s.eds e).dma ∧
        (t ≠ e → (s2.eds t).ed_prev = (s.eds t).ed_prev)) ∧
      (∀ x, x ≠ e → s.ed_controltail ≠ some x → s2.eds x = s.eds x) ∧
      s2.mmio = s.mmio ++
        (if s.ed_controltail = none then
          (ohci_reg.ed_controlhead, (s.eds e).dma) ::
            (if s.ed_rm_list = none then
              [(ohci_reg.ed_controlcurrent, 0),
                (ohci_reg.control, s.hc_control ||| OHCI_CTRL_CLE)]
              else [])
        else []) := by
  have hni : (s.eds e).type ≠ PIPE_INTERRUPT := by rw [ht]; decide
  have hst := ed_schedule_start_plain s e hni
  have hty := (ed_schedule_start_ed s e).2
  refine ⟨ed_schedule_control (ed_schedule_start s e) e, ?_, ?_⟩
  · unfold ed_schedule
    dsimp only
    rw [hty, if_pos ht]
  · rw [hst]
    cases htl : s.ed_controltail with
    | none =>
      cases hrm : s.ed_rm_list with
      | none =>
        simp [ed_schedule_control, ohci_sched.mod_ed, ohci_writel, upd, htl, hrm]
        intro x hx
        simp [hx]
      | some r =>
        simp [ed_schedule_control, ohci_sched.mod_ed, ohci_writel, upd, htl, hrm]
        intro x hx
        simp [hx]
    | some t =>
      by_cases hte : t = e
      · subst hte
        simp [ed_schedule_control, ohci_sched.mod_ed, ohci_writel, upd, htl]
        intro x hx hx2
        simp [hx]
      · have hte2 : ¬ e = t := fun h => hte h.symm
        simp [ed_schedule_control, ohci_sched.mod_ed, ohci_writel, upd, htl, hte, hte2]
        intro x hx hx2
        have hx3 : ¬ x = t := fun h => hx2 h.symm
        simp [hx, hx3]

/-- The state after `ed_schedule` on a bulk ED. -/
theorem ed_schedule_bulk_tail (fuel : Nat) (s : ohci_sched) (e : Nat)
    (ht : (s.eds e).type = PIPE_BULK) :
    ∃ s2, ed_schedule fuel s e = some (0, s2) ∧
      s2.ed_bulktail = some e ∧ s2.ed_controltail = s.ed_controltail ∧
      s2.periodic = s.periodic ∧ s2.int_table = s.int_table ∧ s2.load = s.load ∧
      s2.bandwidth_allocated = s.bandwidth_allocated ∧ s2.ed_rm_list = s.ed_rm_list ∧
      (s2.eds e).ed_prev = s.ed_bulktail ∧
      (s.ed_bulktail ≠ some e → (s2.eds e).ed_next = none ∧ (s2.eds e).hwNextED = 0) ∧
      (∀ t, s.ed_bulktail = some t →
        (s2.eds t).ed_next = some e ∧ (s2.eds t).hwNextED = (s.eds e).dma ∧
        (t ≠ e → (s2.eds t).ed_prev = (s.eds t).ed_prev)) ∧
      (∀ x, x ≠ e → s.ed_bulktail ≠ some x → s2.eds x = s.eds x) ∧
      s2.mmio = s.mmio ++
        (if s.ed_bulktail = none then
          (ohci_reg.ed_bulkhead, (s.eds e).dma) ::
            (if s.ed_rm_list = none then
              [(ohci_reg.ed_bulkcurrent, 0),
                (ohci_reg.control, s.hc_control ||| OHCI_CTRL_BLE)]
              else [])
        else []) := by
  have hni : (s.eds e).type ≠ PIPE_INTERRUPT := by rw [ht]; decide
  have hnc : ¬ (s.eds e).type = PIPE_CONTROL := by rw [ht]; decide
  have hst := ed_schedule_start_plain s e hni
  have hty := (ed_schedule_start_ed s e).2
  refine ⟨ed_schedule_bulk (ed_schedule_start s e) e, ?_, ?_⟩
  · unfold ed_schedule
    dsimp only
    rw [hty, if_neg hnc, if_pos ht]
  · rw [hst]
    cases htl : s.ed_bulktail with
    | none =>
      cases hrm : s.ed_rm_list with
      | none =>
        simp [ed_schedule_bulk, ohci_sched.mod_ed, ohci_writel, upd, htl, hrm]
        intro x hx
        simp [hx]
      | some r =>
        simp [ed_schedule_bulk, ohci_sched.mod_ed, ohci_writel, upd, htl, hrm]
        intro x hx
        simp [hx]
    | some t =>
      by_cases hte : t = e
      · subst hte
        simp [ed_schedule_bulk, ohci_sched.mod_ed, ohci_writel, upd, htl]
        intro x hx hx2
        simp [hx]
      · have hte2 : ¬ e = t := fun h => hte h.symm
        simp [ed_schedule_bulk, ohci_sched.mod_ed, ohci_writel, upd, htl, hte, hte2]
        intro x hx hx2
        have hx3 : ¬ x = t := fun h => hx2 h.symm
        simp [hx, hx3]

/-- An `ed_next` chain that ends with `NULL`, after its last ED got the new ED `e` as
successor: the chain is the old one followed by `e`. -/
theorem ed_path_snoc (s s2 : ohci_sched) (e : Nat) (hd tail : Option Nat) (L : List Nat)
    (hL : ed_path s hd L none) (htail : tail = L.getLast?) (he : e ∉ L)
    (hen : (s2.eds e).ed_next = none)
    (hlink : ∀ t, tail = some t → (s2.eds t).ed_next = some e)
    (hframe : ∀ x, x ≠ e → tail ≠ some x → s2.eds x = s.eds x) :
    ed_path s2 (if L = [] then some e else hd) (L ++ [e]) none := by
  rcases List.eq_nil_or_concat L with hnil | ⟨L0, t, hcat⟩
  · subst hnil
    rw [if_pos rfl]
    exact ⟨rfl, hen⟩
  · have hcat2 : L = L0 ++ [t] := by rw [hcat]; simp
    subst hcat2
    rw [if_neg (by simp)]
    have ht : tail = some t := by rw [htail]; simp
    have hnd := ed_path_nodup s _ _ hL
    obtain ⟨b, p1, p2⟩ := (ed_path_append s L0 [t] hd none).mp hL
    rw [List.append_assoc]
    refine (ed_path_append s2 L0 ([t] ++ [e]) hd none).mpr ⟨b, ?_, ?_⟩
    · apply ed_path_congr s s2 L0 hd b _ p1
      intro x hx
      rw [hframe x (fun h => he (by rw [← h]; simp [hx]))
        (fun h => by
          rw [ht] at h
          have : t = x := Option.some.inj h
          subst this
          have := List.nodup_append.mp hnd
          exact this.2.2 hx (by simp))]
    · have hb : b = some t := p2.1
      exact ⟨hb, rfl.trans (hlink t ht), hen⟩

/-- C22. `ed_schedule` puts a control ED at the tail of the control list, and a bulk ED at
the tail of the bulk list.  For the list `L` before the call (walked along `ed_next` from
the pointer `hd`, ending in the tail) and the ED not on it: afterwards the tail is the ED,
its `ed_prev` is the former tail, the former tail's `ed_next` and `hwNextED` point to it,
the list is `L` in its old order followed by the ED, and every entry keeps its `ed_prev`;
the list-head register is written exactly when the list was empty; the tail of the other
list, every ED but this one and the former tail, the periodic table, the interrupt table
and the load table stay as they are. -/
theorem ed_schedule_appends (fuel : Nat) (s : ohci_sched) (e : Nat) (hd : Option Nat)
    (L : List Nat) (hL : ed_path s hd L none) (he : e ∉ L) :
    ((s.eds e).type = PIPE_CONTROL → s.ed_controltail = L.getLast? →
      ∃ s2, ed_schedule fuel s e = some (0, s2) ∧
        appended s s2 e s.ed_controltail s2.ed_controltail .ed_controlhead .ed_controlcurrent
          OHCI_CTRL_CLE hd L ∧
        s2.ed_bulktail = s.ed_bulktail ∧ s2.periodic = s.periodic ∧
        s2.int_table = s.int_table ∧ s2.load = s.load ∧
        s2.bandwidth_allocated = s.bandwidth_allocated) ∧
    ((s.eds e).type = PIPE_BULK → s.ed_bulktail = L.getLast? →
      ∃ s2, ed_schedule fuel s e = some (0, s2) ∧
        appended s s2 e s.ed_bulktail s2.ed_bulktail .ed_bulkhead .ed_bulkcurrent
          OHCI_CTRL_BLE hd L ∧
        s2.ed_controltail = s.ed_controltail ∧ s2.periodic = s.periodic ∧
        s2.int_table = s.int_table ∧ s2.load = s.load ∧
        s2.bandwidth_allocated = s.bandwidth_allocated) := by
  constructor
  · intro ht htail
    obtain ⟨s2, a0, a1, a2, a3, a4, a5, a6, a7, a8, a9, a10, a11, a12⟩ :=
      ed_schedule_control_tail fuel s e ht
    have hne : s.ed_controltail ≠ some e := by
      rw [htail]
      intro h
      exact he (List.mem_of_mem_getLast? (Option.mem_def.mpr h))
    refine ⟨s2, a0, ⟨a1, a8, (a9 hne).1, (a9 hne).2, fun t h => ⟨(a10 t h).1, (a10 t h).2.1⟩,
      ed_path_snoc s s2 e hd _ L hL htail he (a9 hne).1 (fun t h => (a10 t h).1) a11, ?_, a11,
      a12⟩, a2, a3, a4, a5, a6⟩
    intro x hx
    have hxe : x ≠ e := fun h => he (h ▸ hx)
    by_cases hxt : s.ed_controltail = some x
    · exact (a10 x hxt).2.2 hxe
    · rw [a11 x hxe hxt]
  · intro ht htail
    obtain ⟨s2, a0, a1, a2, a3, a4, a5, a6, a7, a8, a9, a10, a11, a12⟩ :=
      ed_schedule_bulk_tail fuel s e ht
    have hne : s.ed_bulktail ≠ some e := by
      rw [htail]
      intro h
      exact he (List.mem_of_mem_getLast? (Option.mem_def.mpr h))
    refine ⟨s2, a0, ⟨a1, a8, (a9 hne).1, (a9 hne).2, fun t h => ⟨(a10 t h).1, (a10 t h).2.1⟩,
      ed_path_snoc s s2 e hd _ L hL htail he (a9 hne).1 (fun t h => (a10 t h).1) a11, ?_, a11,
      a12⟩, a2, a3, a4, a5, a6⟩
    intro x hx
    have hxe : x ≠ e := fun h => he (h ▸ hx)
    by_cases hxt : s.ed_bulktail = some x
    · exact (a10 x hxt).2.2 hxe
    · rw [a11 x hxe hxt]

/-- On `sched_ctrl` the control ED 3 is appended behind the EDs 1 and 2 without a register
write, and the bulk ED 4 becomes the first entry of the empty bulk list, with the three
register writes. -/
theorem ed_schedule_appends_witness :
    (ed_path sched_ctrl (some 1) [1, 2] none ∧ 3 ∉ [1, 2] ∧
      (sched_ctrl.eds 3).type = PIPE_CONTROL ∧ sched_ctrl.ed_controltail = [1, 2].getLast? ∧
      ed_path sched_ctrl none [] none ∧ 4 ∉ ([] : List Nat) ∧
      (sched_ctrl.eds 4).type = PIPE_BULK ∧
      sched_ctrl.ed_bulktail = ([] : List Nat).getLast?) ∧
    (∃ s2, ed_schedule 0 sched_ctrl 3 = some (0, s2) ∧
      appended sched_ctrl s2 3 sched_ctrl.ed_controltail s2.ed_controltail .ed_controlhead
        .ed_controlcurrent OHCI_CTRL_CLE (some 1) [1, 2] ∧
      s2.ed_bulktail = sched_ctrl.ed_bulktail ∧ s2.periodic = sched_ctrl.periodic ∧
      s2.int_table = sched_ctrl.int_table ∧ s2.load = sched_ctrl.load ∧
      s2.bandwidth_allocated = sched_ctrl.bandwidth_allocated) ∧
    (∃ s2, ed_schedule 0 sched_ctrl 4 = some (0, s2) ∧
      appended sched_ctrl s2 4 sched_ctrl.ed_bulktail s2.ed_bulktail .ed_bulkhead
        .ed_bulkcurrent OHCI_CTRL_BLE none [] ∧
      s2.ed_controltail = sched_ctrl.ed_controltail ∧ s2.periodic = sched_ctrl.periodic ∧
      s2.int_table = sched_ctrl.int_table ∧ s2.load = sched_ctrl.load ∧
      s2.bandwidth_allocated = sched_ctrl.bandwidth_allocated) ∧
    (ed_schedule 0 sched_ctrl 3).map (fun r => (r.2.mmio, r.2.ed_controltail,
      (r.2.eds 2).ed_next, (r.2.eds 2).hwNextED, (r.2.eds 3).ed_prev))
      = some ([], some 3, some 3, 0x1060, some 2) ∧
    (ed_schedule 0 sched_ctrl 4).map (fun r => (r.2.mmio, r.2.ed_bulktail))
      = some ([(.ed_bulkhead, 0x1080), (.ed_bulkcurrent, 0),
          (.control, OHCI_CTRL_CLE ||| OHCI_CTRL_BLE)], some 4) :=
  ⟨⟨by unfold ed_path ed_path ed_path; decide, by decide, by decide, by decide, rfl,
      by simp, by decide, by decide⟩,
    (ed_schedule_appends 0 sched_ctrl 3 (some 1) [1, 2]
      (by unfold ed_path ed_path ed_path; decide) (by decide)).1 (by decide) (by decide),
    (ed_schedule_appends 0 sched_ctrl 4 none [] rfl (by simp)).2 (by decide) (by decide),
    by decide, by decide⟩

/-! ## The state of an ED -/

theorem periodic_unlink_slot_state (fuel : Nat) (s s2 : ohci_sched) (e i : Nat)
    (hs : periodic_unlink_slot fuel s e i = some s2) : state_same s s2 := by
  unfold periodic_unlink_slot at hs
  cases hw : periodic_unlink_walk s e fuel (.slot i) with
  | none => rw [hw] at hs; exact absurd hs (by simp)
  | some prev =>
    rw [hw] at hs
    dsimp only at hs
    rw [← Option.some.inj hs]
    have k : state_same s (if (prev.get s).isSome
        then prev.set (prev.set_p s (s.eds e).hwNextED) (s.eds e).ed_next else s) := by
      split
      · exact state_same_trans (edref_set_p_state s _ prev) (edref_set_state _ _ prev)
      · exact state_same_refl _
    exact state_same_trans k (state_same_of _ _ rfl)

theorem periodic_unlink_loop_state (fuel e : Nat) :
    ∀ (n : Nat) (s : ohci_sched) (i : Nat) (s2 : ohci_sched),
      periodic_unlink_loop fuel e n s i = some s2 → state_same s s2 := by
  intro n
  induction n with
  | zero => intro s i s2 hl; simp [periodic_unlink_loop] at hl
  | succ n ih =>
    intro s i s2 hl
    rw [periodic_unlink_loop] at hl
    split at hl
    · cases hs : periodic_unlink_slot fuel s e i with
      | none => rw [hs] at hl; exact absurd hl (by simp)
      | some o1 =>
        rw [hs] at hl
        exact state_same_trans (periodic_unlink_slot_state fuel s o1 e i hs) (ih o1 _ s2 hl)
    · rw [← Option.some.inj hl]
      exact state_same_refl _

/-- `periodic_unlink` changes the state of no ED. -/
theorem periodic_unlink_state (fuel : Nat) (s s2 : ohci_sched) (e : Nat)
    (hl : periodic_unlink fuel s e = some s2) : state_same s s2 := by
  unfold periodic_unlink at hl
  cases hp : periodic_unlink_loop fuel e (NUM_INTS + 1) s (s.eds e).branch with
  | none => rw [hp] at hl; exact absurd hl (by simp)
  | some o1 =>
    rw [hp] at hl
    rw [← Option.some.inj hl]
    exact state_same_trans (periodic_unlink_loop_state fuel e _ s _ o1 hp) (state_same_of _ _ rfl)

theorem ed_deschedule_control_state (s : ohci_sched) (e : Nat) :
    state_same s (ed_deschedule_control s e) := by
  intro y
  unfold ed_deschedule_control
  dsimp only
  cases h1 : (s.eds e).ed_prev with
  | none =>
    dsimp only
    by_cases hw : (s.eds e).hwNextED = 0
    · rw [if_pos hw]
      simp only [ohci_writel]
      split
      · rw [h1]
      · cases h2 : (s.eds e).ed_next with
        | none => rfl
        | some nx =>
          simp only [ohci_sched.mod_ed, upd]
          split
          · rename_i hy
            rw [hy]
          · rfl
    · rw [if_neg hw]
      simp only [ohci_writel]
      split
      · rw [h1]
      · cases h2 : (s.eds e).ed_next with
        | none => rfl
        | some nx =>
          simp only [ohci_sched.mod_ed, upd]
          split
          · rename_i hy
            rw [hy]
          · rfl
  | some pr =>
    dsimp only
    have k1 : state_same s ((s.mod_ed pr (fun y => { y with ed_next := (s.eds e).ed_next })).mod_ed
        pr (fun y => { y with hwNextED := (s.eds e).hwNextED })) :=
      state_same_trans (state_same_mod s pr _ rfl) (state_same_mod _ pr _ rfl)
    generalize (s.mod_ed pr (fun y => { y with ed_next := (s.eds e).ed_next })).mod_ed
        pr (fun y => { y with hwNextED := (s.eds e).hwNextED }) = o1 at k1 ⊢
    split
    · cases h3 : (o1.eds e).ed_prev with
      | none => exact k1 y
      | some tl =>
        dsimp only
        exact state_same_trans k1 (state_same_trans
          (state_same_of o1 { o1 with ed_controltail := some tl } rfl)
          (state_same_mod _ tl _ rfl)) y
    · cases h3 : (o1.eds e).ed_next with
      | none => exact k1 y
      | some nx =>
        dsimp only
        exact state_same_trans k1 (state_same_mod o1 nx _ rfl) y

theorem ed_deschedule_bulk_state (s : ohci_sched) (e : Nat) :
    state_same s (ed_deschedule_bulk s e) := by
  intro y
  unfold ed_deschedule_bulk
  dsimp only
  cases h1 : (s.eds e).ed_prev with
  | none =>
    dsimp only
    by_cases hw : (s.eds e).hwNextED = 0
    · rw [if_pos hw]
      simp only [ohci_writel]
      split
      · rw [h1]
      · cases h2 : (s.eds e).ed_next with
        | none => rfl
        | some nx =>
          simp only [ohci_sched.mod_ed, upd]
          split
          · rename_i hy
            rw [hy]
          · rfl
    · rw [if_neg hw]
      simp only [ohci_writel]
      split
      · rw [h1]
      · cases h2 : (s.eds e).ed_next with
        | none => rfl
        | some nx =>
          simp only [ohci_sched.mod_ed, upd]
          split
          · rename_i hy
            rw [hy]
          · rfl
  | some pr =>
    dsimp only
    have k1 : state_same s ((s.mod_ed pr (fun y => { y with ed_next := (s.eds e).ed_next })).mod_ed
        pr (fun y => { y with hwNextED := (s.eds e).hwNextED })) :=
      state_same_trans (state_same_mod s pr _ rfl) (state_same_mod _ pr _ rfl)
    generalize (s.mod_ed pr (fun y => { y with ed_next := (s.eds e).ed_next })).mod_ed
        pr (fun y => { y with hwNextED := (s.eds e).hwNextED }) = o1 at k1 ⊢
    split
    · cases h3 : (o1.eds e).ed_prev with
      | none => exact k1 y
      | some tl =>
        dsimp only
        exact state_same_trans k1 (state_same_trans
          (state_same_of o1 { o1 with ed_bulktail := some tl } rfl)
          (state_same_mod _ tl _ rfl)) y
    · cases h3 : (o1.eds e).ed_next with
      | none => exact k1 y
      | some nx =>
        dsimp only
        exact state_same_trans k1 (state_same_mod o1 nx _ rfl) y

/-- `ed_deschedule (ohci, ed)` leaves the ED in state `ED_UNLINK` and changes the state of
no other ED. -/
theorem ed_deschedule_state (fuel : Nat) (s s2 : ohci_sched) (e : Nat)
    (hs : ed_deschedule fuel s e = some s2) :
    (s2.eds e).state = ED_UNLINK ∧ ∀ y, y ≠ e → (s2.eds y).state = (s.eds y).state := by
  unfold ed_deschedule at hs
  dsimp only at hs
  have h1 : (((s.mod_ed e (fun x => { x with hwINFO := x.hwINFO ||| ED_SKIP })).mod_ed e
      (fun x => { x with state := ED_UNLINK })).eds e).state = ED_UNLINK := by
    simp [ohci_sched.mod_ed]
  have h2 : ∀ y, y ≠ e → (((s.mod_ed e (fun x => { x with hwINFO := x.hwINFO ||| ED_SKIP })).mod_ed e
      (fun x => { x with state := ED_UNLINK })).eds y).state = (s.eds y).state := by
    intro y hy
    simp [ohci_sched.mod_ed, upd_other _ _ _ _ hy]
  generalize (s.mod_ed e (fun x => { x with hwINFO := x.hwINFO ||| ED_SKIP })).mod_ed e
      (fun x => { x with state := ED_UNLINK }) = o2 at hs h1 h2
  have key : state_same o2 s2 := by
    split at hs
    · rw [← Option.some.inj hs]
      exact ed_deschedule_control_state o2 e
    · split at hs
      · rw [← Option.some.inj hs]
        exact ed_deschedule_bulk_state o2 e
      · exact periodic_unlink_state fuel o2 s2 e hs
  exact ⟨(key e).trans h1, fun y hy => (key y).trans (h2 y hy)⟩

/-- `start_ed_unlink (ohci, ed)` leaves the ED in state `ED_UNLINK` and changes the state
of no other ED. -/
theorem start_ed_unlink_state (fuel : Nat) (s s2 : ohci_sched) (e : Nat)
    (hs : start_ed_unlink fuel s e = some s2) :
    (s2.eds e).state = ED_UNLINK ∧ ∀ y, y ≠ e → (s2.eds y).state = (s.eds y).state := by
  unfold start_ed_unlink at hs
  dsimp only at hs
  have k1 : state_same s (s.mod_ed e (fun x => { x with hwINFO := x.hwINFO ||| ED_DEQUEUE })) :=
    state_same_mod s e _ rfl
  generalize s.mod_ed e (fun x => { x with hwINFO := x.hwINFO ||| ED_DEQUEUE }) = o1 at hs k1
  cases hd : ed_deschedule fuel o1 e with
  | none => rw [hd] at hs; exact absurd hs (by simp)
  | some o2 =>
    rw [hd] at hs
    obtain ⟨d1, d2⟩ := ed_deschedule_state fuel o1 o2 e hd
    dsimp only at hs
    have k3 : state_same o2 (o2.mod_ed e
        (fun x => { x with ed_next := o2.ed_rm_list, ed_prev := none })) :=
      state_same_mod o2 e _ rfl
    generalize o2.mod_ed e (fun x => { x with ed_next := o2.ed_rm_list, ed_prev := none })
      = o3 at hs k3
    have k5 : state_same o3 (ohci_writel (ohci_writel { o3 with ed_rm_list := some e }
        OHCI_INTR_SF .intrstatus) OHCI_INTR_SF .intrenable) := state_same_of _ _ rfl
    generalize ohci_writel (ohci_writel { o3 with ed_rm_list := some e }
        OHCI_INTR_SF .intrstatus) OHCI_INTR_SF .intrenable = o5 at hs k5
    have k6 : state_same o5 s2 := by
      rw [← Option.some.inj hs]
      exact state_same_mod o5 e _ rfl
    have k : state_same o2 s2 := state_same_trans k3 (state_same_trans k5 k6)
    exact ⟨(k e).trans d1, fun y hy => ((k y).trans (d2 y hy)).trans (k1 y)⟩

theorem st_kept_refl (a : ohci_hcd) : st_kept a a := ⟨rfl, state_same_refl _⟩

theorem st_kept_trans {a b c : ohci_hcd} (h1 : st_kept a b) (h2 : st_kept b c) : st_kept a c :=
  ⟨h2.1.trans h1.1, state_same_trans h1.2 h2.2⟩

theorem st_kept_of_kept (a b : ohci_hcd) (h : ∀ e, ed_kept a b e) : st_kept a b :=
  ⟨(h 0).1, fun y => (h y).2.1⟩

theorem st_kept_of (a b : ohci_hcd) (hs : b.hcd.state = a.hcd.state)
    (he : b.sched.eds = a.sched.eds) : st_kept a b :=
  ⟨hs, state_same_of _ _ he⟩

theorem st_kept_mod (a : ohci_hcd) (x : Nat) (f : ed → ed)
    (hf : (f (a.sched.eds x)).state = (a.sched.eds x).state) : st_kept a (a.mod_ed x f) :=
  ⟨rfl, state_same_mod a.sched x f hf⟩

theorem hwref_set_st (a : ohci_hcd) (v : Nat) (r : hwref) : st_kept a (r.set a v) := by
  cases r with
  | head e => exact st_kept_mod a e _ rfl
  | td t => exact st_kept_of _ _ rfl rfl

theorem finish_unlinks_toggle_st (a : ohci_hcd) (x t : Nat) :
    st_kept a (finish_unlinks_toggle a x t) := by
  unfold finish_unlinks_toggle
  dsimp only
  split
  · exact st_kept_mod a x _ rfl
  · split
    · exact st_kept_mod a x _ rfl
    · exact st_kept_refl _

/-- The TD loop of `finish_unlinks` changes the state of no ED. -/
theorem finish_unlinks_tds_st (fuel x : Nat) :
    ∀ (l : List Nat) (o : ohci_hcd) (prev : hwref) (c : Bool) (r : ohci_hcd × Bool),
      finish_unlinks_tds fuel x l o prev c = some r → st_kept o r.1 := by
  intro l
  induction l with
  | nil =>
    intro o prev c r h
    rw [finish_unlinks_tds] at h
    rw [← Option.some.inj h]
    exact st_kept_refl _
  | cons t rest ih =>
    intro o prev c r h
    rw [finish_unlinks_tds] at h
    dsimp only at h
    by_cases hu : (o.hcd.urbs (o.tds t).urb).unlinked = 0
    · rw [if_pos hu] at h
      exact ih o (.td t) c r h
    · rw [if_neg hu] at h
      cases hp : (o.hcd.urbs (o.tds t).urb).hcpriv with
      | none => rw [hp] at h; exact absurd h (by simp)
      | some p =>
        rw [hp] at h
        dsimp only at h
        have k1 : st_kept o (prev.set o
            ((o.tds t).hwNextTD ||| clear_bits (prev.get o) TD_MASK)) := hwref_set_st o _ prev
        generalize prev.set o ((o.tds t).hwNextTD ||| clear_bits (prev.get o) TD_MASK)
          = o1 at k1 h
        have k2 : st_kept o (finish_unlinks_toggle o1 x t) :=
          st_kept_trans k1 (finish_unlinks_toggle_st o1 x t)
        generalize finish_unlinks_toggle o1 x t = o2 at k2 h
        have k3 : st_kept o ((td_done o2 (o.tds t).urb t).2.mod_priv p
            (fun y => { y with td_cnt := y.td_cnt + 1 })) :=
          st_kept_trans k2 (st_kept_trans
            (st_kept_of_kept _ _ (fun e => td_done_kept o2 _ t e)) (st_kept_of _ _ rfl rfl))
        generalize (td_done o2 (o.tds t).urb t).2.mod_priv p
            (fun y => { y with td_cnt := y.td_cnt + 1 }) = o3 at k3 h
        by_cases hc : (o3.privs p).td_cnt = (o3.privs p).length
        · rw [if_pos hc] at h
          cases hf : finish_urb fuel o3 (o.tds t).urb 0 with
          | none => rw [hf] at h; exact absurd h (by simp)
          | some o4 =>
            rw [hf] at h
            exact st_kept_trans (st_kept_trans k3
              (st_kept_of_kept _ _ (fun e => finish_urb_kept fuel o3 o4 _ _ e hf)))
              (ih o4 prev true r h)
        · rw [if_neg hc] at h
          exact st_kept_trans k3 (ih o3 prev c r h)

theorem finish_unlinks_rescan_st (fuel x : Nat) :
    ∀ (n : Nat) (o : ohci_hcd) (m : Bool) (r : ohci_hcd × Bool),
      finish_unlinks_rescan fuel x n o m = some r → st_kept o r.1 := by
  intro n
  induction n with
  | zero => intro o m r h; simp [finish_unlinks_rescan] at h
  | succ n ih =>
    intro o m r h
    rw [finish_unlinks_rescan] at h
    cases ht : finish_unlinks_tds fuel x (o.sched.eds x).td_list o (.head x) false with
    | none => rw [ht] at h; exact absurd h (by simp)
    | some q =>
      rw [ht] at h
      have k1 := finish_unlinks_tds_st fuel x _ o (.head x) false q ht
      obtain ⟨o1, completed⟩ := q
      dsimp only at h k1
      split at h
      · exact st_kept_trans k1 (ih o1 true r h)
      · rw [← Option.some.inj h]
        exact k1

/-- The statements of `finish_unlinks` that make the ED idle: the ED is in `ED_IDLE`
afterwards, no other ED changes its state, and the ring of the ED and the state of the
controller stay. -/
theorem finish_unlinks_idle_st (o : ohci_hcd) (x : Nat) :
    ((finish_unlinks_idle o x).sched.eds x).state = ED_IDLE ∧
    (∀ y, y ≠ x → ((finish_unlinks_idle o x).sched.eds y).state = (o.sched.eds y).state) ∧
    (finish_unlinks_idle o x).hcd.state = o.hcd.state := by
  unfold finish_unlinks_idle
  dsimp only
  have a1 : ((o.mod_ed x (fun y => { y with state := ED_IDLE })).sched.eds x).state = ED_IDLE := by
    simp [ohci_hcd.mod_ed, ohci_sched.mod_ed]
  have a2 : ∀ y, y ≠ x → ((o.mod_ed x (fun y => { y with state := ED_IDLE })).sched.eds y).state
      = (o.sched.eds y).state := by
    intro y hy
    simp [ohci_hcd.mod_ed, ohci_sched.mod_ed, upd_other _ _ _ _ hy]
  have a3 : (o.mod_ed x (fun y => { y with state := ED_IDLE })).hcd.state = o.hcd.state := rfl
  generalize o.mod_ed x (fun y => { y with state := ED_IDLE }) = o1 at a1 a2 a3 ⊢
  have k2 : st_kept o1
      (if quirk_zfmicro o1.sched ∧ (o1.sched.eds x).type = PIPE_INTERRUPT then
        ({ o1 with sched := { o1.sched with
            eds_scheduled := wrap32 ((o1.sched.eds_scheduled : Int) - 1) } } : ohci_hcd)
      else o1) := by
    split
    · exact st_kept_of _ _ rfl rfl
    · exact st_kept_refl _
  generalize (if quirk_zfmicro o1.sched ∧ (o1.sched.eds x).type = PIPE_INTERRUPT then
        ({ o1 with sched := { o1.sched with
            eds_scheduled := wrap32 ((o1.sched.eds_scheduled : Int) - 1) } } : ohci_hcd)
      else o1) = o2 at k2 ⊢
  have k3 : st_kept o2 ((o2.mod_ed x (fun y =>
      { y with hwHeadP := clear_bits y.hwHeadP ED_H, hwNextED := 0 })).mod_ed x
      (fun y => { y with hwINFO := clear_bits y.hwINFO (ED_SKIP ||| ED_DEQUEUE) })) :=
    st_kept_trans (st_kept_mod o2 x _ rfl) (st_kept_mod _ x _ rfl)
  have k := st_kept_trans k2 k3
  exact ⟨(k.2 x).trans a1, fun y hy => (k.2 y).trans (a2 y hy), k.1.trans a3⟩

/-- The body of `finish_unlinks` for an ED taken off `ed_rm_list`: the ED is set to
`ED_IDLE` (state `o4`), no other ED changes its state; and `ed_schedule` is called only
then, on this ED, when its `td_list` is not empty and the controller is running. -/
theorem finish_unlinks_ed_st (fuel : Nat) (o : ohci_hcd) (last : rmref) (x : Nat)
    (r : ohci_hcd × Bool) (h : finish_unlinks_ed fuel o last x = some r) :
    ∃ o4, (o4.sched.eds x).state = ED_IDLE ∧
      (∀ y, y ≠ x → (o4.sched.eds y).state = (o.sched.eds y).state) ∧
      o4.hcd.state = o.hcd.state ∧
      (r.1 = o4 ∨
        ((o4.sched.eds x).td_list ≠ [] ∧ HC_IS_RUNNING o4.hcd.state = true ∧
          ∃ s, ed_schedule fuel o4.sched x = some s ∧ r.1 = { o4 with sched := s.2 } ∧
            (s.2.eds x).state = ED_OPER ∧
            ∀ y, y ≠ x → (s.2.eds y).state = (o.sched.eds y).state)) := by
  unfold finish_unlinks_ed at h
  dsimp only at h
  have k2 : st_kept o ((last.set o (o.sched.eds x).ed_next).mod_ed x
      (fun y => { y with ed_next := none })) :=
    st_kept_trans (st_kept_of_kept _ _ (fun e => rmref_set_kept o _ last e))
      (st_kept_mod _ x _ rfl)
  generalize (last.set o (o.sched.eds x).ed_next).mod_ed x
      (fun y => { y with ed_next := none }) = o2 at k2 h
  cases hr : finish_unlinks_rescan fuel x fuel o2 false with
  | none => rw [hr] at h; exact absurd h (by simp)
  | some q =>
    rw [hr] at h
    have k3 := st_kept_trans k2 (finish_unlinks_rescan_st fuel x fuel o2 false q hr)
    obtain ⟨o3, modified⟩ := q
    dsimp only at h k3
    obtain ⟨i1, i2, i3⟩ := finish_unlinks_idle_st o3 x
    refine ⟨finish_unlinks_idle o3 x, i1, fun y hy => (i2 y hy).trans (k3.2 y),
      i3.trans k3.1, ?_⟩
    generalize finish_unlinks_idle o3 x = o4 at h i1 i2 i3 ⊢
    split at h
    · rename_i hc
      cases hs : ed_schedule fuel o4.sched x with
      | none => rw [hs] at h; exact absurd h (by simp)
      | some s =>
        rw [hs] at h
        obtain ⟨e1, e2⟩ := ed_schedule_state fuel o4.sched x s hs
        refine Or.inr ⟨hc.1, hc.2, s, rfl, ?_, e1,
          fun y hy => ((e2 y hy).trans (i2 y hy)).trans (k3.2 y)⟩
        rw [← Option.some.inj h]
    · rw [← Option.some.inj h]
      exact Or.inl rfl

/-- What one call may do to the states of the EDs: each ED keeps its state, or it is in
`ED_IDLE` or in `ED_OPER` afterwards. -/
theorem finish_unlinks_loop_st (fuel tick : Nat) :
    ∀ (n : Nat) (o : ohci_hcd) (last : rmref) (o2 : ohci_hcd),
      finish_unlinks_loop fuel tick n o last = some o2 →
      ∀ y, (o2.sched.eds y).state = (o.sched.eds y).state ∨
        (o2.sched.eds y).state = ED_IDLE ∨ (o2.sched.eds y).state = ED_OPER := by
  intro n
  induction n with
  | zero => intro o last o2 h; simp [finish_unlinks_loop] at h
  | succ n ih =>
    intro o last o2 h y
    rw [finish_unlinks_loop] at h
    cases hg : last.get o with
    | none =>
      rw [hg] at h
      dsimp only at h
      rw [← Option.some.inj h]
      exact Or.inl rfl
    | some e =>
      rw [hg] at h
      dsimp only at h
      have kg : ∀ y, ((finish_unlinks_gate o tick e).2.sched.eds y).state
          = (o.sched.eds y).state := fun y => (finish_unlinks_gate_kept o tick e y).2.1
      generalize finish_unlinks_gate o tick e = g at h kg
      split at h
      · rcases ih g.2 (.node e) o2 h y with a | a | a
        · exact Or.inl (a.trans (kg y))
        · exact Or.inr (Or.inl a)
        · exact Or.inr (Or.inr a)
      · cases hf : finish_unlinks_ed fuel g.2 last e with
        | none => rw [hf] at h; exact absurd h (by simp)
        | some q =>
          rw [hf] at h
          obtain ⟨o4, i1, i2, i3, i4⟩ := finish_unlinks_ed_st fuel g.2 last e q hf
          have step : (q.1.sched.eds y).state = (o.sched.eds y).state ∨
              (q.1.sched.eds y).state = ED_IDLE ∨ (q.1.sched.eds y).state = ED_OPER := by
            by_cases hy : y = e
            · subst hy
              rcases i4 with a | ⟨_, _, s, _, a, b, _⟩
              · rw [a]; exact Or.inr (Or.inl i1)
              · rw [a]; exact Or.inr (Or.inr b)
            · rcases i4 with a | ⟨_, _, s, _, a, _, b⟩
              · rw [a]; exact Or.inl ((i2 y hy).trans (kg y))
              · rw [a]; exact Or.inl ((b y hy).trans (kg y))
          obtain ⟨o1, modified⟩ := q
          dsimp only at h step
          have rest : (o2.sched.eds y).state = (o1.sched.eds y).state ∨
              (o2.sched.eds y).state = ED_IDLE ∨ (o2.sched.eds y).state = ED_OPER := by
            split at h
            · exact ih o1 .head o2 h y
            · exact ih o1 last o2 h y
          rcases rest with a | a | a
          · rw [a]; exact step
          · exact Or.inr (Or.inl a)
          · exact Or.inr (Or.inr a)

/-- `finish_unlinks` moves an ED to `ED_IDLE` or, by its `ed_schedule` call, to `ED_OPER`,
or leaves its state alone; it never sets `ED_UNLINK`. -/
theorem finish_unlinks_st (fuel : Nat) (o o2 : ohci_hcd) (tick : Nat)
    (h : finish_unlinks fuel o tick = some o2) :
    ∀ y, (o2.sched.eds y).state = (o.sched.eds y).state ∨
      (o2.sched.eds y).state = ED_IDLE ∨ (o2.sched.eds y).state = ED_OPER := by
  unfold finish_unlinks at h
  cases hl : finish_unlinks_loop fuel tick fuel o .head with
  | none => rw [hl] at h; exact absurd h (by simp)
  | some o1 =>
    rw [hl] at h
    intro y
    have k := finish_unlinks_loop_st fuel tick fuel o .head o1 hl y
    have e : (o2.sched.eds y).state = (o1.sched.eds y).state := by
      rw [← Option.some.inj h, (finish_unlinks_restart_kept o1 y).2.1]
    rw [e]
    exact k

/-- The closing test of `takeback_td`: it starts an unlink only for an ED in `ED_OPER`
whose `td_list` is empty, and otherwise changes the state of no ED. -/
theorem takeback_td_clean_st (fuel : Nat) (o o2 : ohci_hcd) (e : Nat)
    (h : takeback_td_clean fuel o e = some o2) :
    st_kept o o2 ∨
    ((o.sched.eds e).td_list = [] ∧ (o.sched.eds e).state = ED_OPER ∧
      start_ed_unlink fuel o.sched e = some o2.sched ∧
      (o2.sched.eds e).state = ED_UNLINK ∧
      ∀ y, y ≠ e → (o2.sched.eds y).state = (o.sched.eds y).state) := by
  unfold takeback_td_clean at h
  dsimp only at h
  cases hl : (o.sched.eds e).td_list with
  | nil =>
    rw [hl] at h
    dsimp only at h
    by_cases hs : (o.sched.eds e).state = ED_OPER
    · rw [if_pos hs] at h
      cases hu : start_ed_unlink fuel o.sched e with
      | none => rw [hu] at h; exact absurd h (by simp)
      | some s =>
        rw [hu] at h
        obtain ⟨u1, u2⟩ := start_ed_unlink_state fuel o.sched s e hu
        rw [← Option.some.inj h]
        exact Or.inr ⟨rfl, hs, rfl, u1, u2⟩
    · rw [if_neg hs] at h
      rw [← Option.some.inj h]
      exact Or.inl (st_kept_refl _)
  | cons first rest =>
    rw [hl] at h
    dsimp only at h
    left
    split at h
    · split at h
      · have k1 : st_kept o (o.mod_ed e (fun y => { y with hwINFO := clear_bits y.hwINFO ED_SKIP })) :=
          st_kept_mod o e _ rfl
        generalize o.mod_ed e (fun y => { y with hwINFO := clear_bits y.hwINFO ED_SKIP }) = o1 at h k1
        split at h
        · rw [← Option.some.inj h]
          exact st_kept_trans k1 (st_kept_of _ _ rfl rfl)
        · split at h
          · rw [← Option.some.inj h]
            exact st_kept_trans k1 (st_kept_of _ _ rfl rfl)
          · rw [← Option.some.inj h]
            exact k1
      · rw [← Option.some.inj h]
        exact st_kept_refl _
    · rw [← Option.some.inj h]
      exact st_kept_refl _

/-- `takeback_td (ohci, td)`: up to its closing test (state `o1`) no ED changes its state;
then the ED of the TD is unlinked only when it is in `ED_OPER` and its `td_list` has
become empty. -/
theorem takeback_td_st (fuel : Nat) (o o2 : ohci_hcd) (t : Nat)
    (h : takeback_td fuel o t = some o2) :
    st_kept o o2 ∨
    ∃ o1, st_kept o o1 ∧ (o1.sched.eds (o.tds t).ed).td_list = [] ∧
      (o1.sched.eds (o.tds t).ed).state = ED_OPER ∧
      start_ed_unlink fuel o1.sched (o.tds t).ed = some o2.sched ∧
      (o.sched.eds (o.tds t).ed).state = ED_OPER ∧
      (o2.sched.eds (o.tds t).ed).state = ED_UNLINK ∧
      ∀ y, y ≠ (o.tds t).ed → (o2.sched.eds y).state = (o.sched.eds y).state := by
  unfold takeback_td at h
  dsimp only at h
  cases hp : (o.hcd.urbs (o.tds t).urb).hcpriv with
  | none => rw [hp] at h; exact absurd h (by simp)
  | some p =>
    rw [hp] at h
    dsimp only at h
    have k1 : st_kept o ((td_done o (o.tds t).urb t).2.mod_priv p
        (fun x => { x with td_cnt := x.td_cnt + 1 })) :=
      st_kept_trans (st_kept_of_kept _ _ (fun e => td_done_kept o _ t e)) (st_kept_of _ _ rfl rfl)
    generalize (td_done o (o.tds t).urb t).2.mod_priv p
        (fun x => { x with td_cnt := x.td_cnt + 1 }) = o1 at h k1
    generalize (td_done o (o.tds t).urb t).1 = st at h
    have key : ∀ o3, st_kept o o3 → takeback_td_clean fuel o3 (o.tds t).ed = some o2 →
        st_kept o o2 ∨
        ∃ o1, st_kept o o1 ∧ (o1.sched.eds (o.tds t).ed).td_list = [] ∧
          (o1.sched.eds (o.tds t).ed).state = ED_OPER ∧
          start_ed_unlink fuel o1.sched (o.tds t).ed = some o2.sched ∧
          (o.sched.eds (o.tds t).ed).state = ED_OPER ∧
          (o2.sched.eds (o.tds t).ed).state = ED_UNLINK ∧
          ∀ y, y ≠ (o.tds t).ed → (o2.sched.eds y).state = (o.sched.eds y).state := by
      intro o3 k3 hc
      rcases takeback_td_clean_st fuel o3 o2 _ hc with a | ⟨a1, a2, a3, a4, a5⟩
      · exact Or.inl (st_kept_trans k3 a)
      · exact Or.inr ⟨o3, k3, a1, a2, a3, (k3.2 _).symm.trans a2, a4,
          fun y hy => (a5 y hy).trans (k3.2 y)⟩
    by_cases hc : (o1.privs p).td_cnt = (o1.privs p).length
    · rw [if_pos hc] at h
      cases hf : finish_urb fuel o1 (o.tds t).urb st with
      | none => rw [hf] at h; exact absurd h (by simp)
      | some o3 =>
        rw [hf] at h
        exact key o3 (st_kept_trans k1
          (st_kept_of_kept _ _ (fun e => finish_urb_kept fuel o1 o3 _ _ e hf))) h
    · rw [if_neg hc] at h
      exact key o1 k1 h

/-- `td_fill` changes the state of no ED. -/
theorem td_fill_st (o o2 : ohci_hcd) (info data len u k : Nat)
    (h : td_fill o info data len u k = some o2) : st_kept o o2 := by
  unfold td_fill at h
  cases hp : (o.hcd.urbs u).hcpriv with
  | none => rw [hp] at h; exact absurd h (by simp)
  | some p =>
    rw [hp] at h
    dsimp only at h
    cases hd : (o.sched.eds (o.privs p).ed).dummy with
    | none => rw [hd] at h; exact absurd h (by simp)
    | some t =>
      cases ht : (o.privs p).td k with
      | none => rw [hd, ht] at h; exact absurd h (by simp)
      | some t_pt =>
        rw [hd, ht] at h
        rw [← Option.some.inj h]
        refine ⟨(congrArg usb_hcd.state (td_fill_cell_fields o info data len u k p t t_pt).2.2.2.2.2),
          fun y => ?_⟩
        unfold td_fill_cell
        by_cases hy : y = (o.privs p).ed
        · subst hy
          by_cases hiso : info &&& TD_ISO = 0
          · simp [ohci_hcd.mod_td, ohci_hcd.mod_ed, ohci_hcd.mod_priv, ohci_sched.mod_ed, hiso]
          · simp [ohci_hcd.mod_td, ohci_hcd.mod_ed, ohci_hcd.mod_priv, ohci_sched.mod_ed, hiso]
        · by_cases hiso : info &&& TD_ISO = 0
          · simp [ohci_hcd.mod_td, ohci_hcd.mod_ed, ohci_hcd.mod_priv, ohci_sched.mod_ed, hiso,
              upd, hy]
          · simp [ohci_hcd.mod_td, ohci_hcd.mod_ed, ohci_hcd.mod_priv, ohci_sched.mod_ed, hiso,
              upd, hy]

theorem td_submit_urb_start_st (o : ohci_hcd) (u p : Nat) :
    st_kept o (td_submit_urb_start o u p) := by
  refine ⟨?_, fun y => ?_⟩
  · unfold td_submit_urb_start
    dsimp only
    split <;> rfl
  · unfold td_submit_urb_start
    dsimp only
    split
    · by_cases he : y = (o.privs p).ed
      · subst he; simp [ohci_hcd.mod_priv, ohci_hcd.mod_ed, ohci_sched.mod_ed]
      · simp [ohci_hcd.mod_priv, ohci_hcd.mod_ed, ohci_sched.mod_ed, upd_other _ _ _ _ he]
    · rfl

theorem td_submit_urb_chunks_st (info u : Nat) :
    ∀ (fuel : Nat) (o : ohci_hcd) (data len cnt : Nat) (r : ohci_hcd × Nat × Nat × Nat),
      td_submit_urb_chunks info u fuel o data len cnt = some r → st_kept o r.1 := by
  intro fuel
  induction fuel with
  | zero => intro o data len cnt r h; simp [td_submit_urb_chunks] at h
  | succ n ih =>
    intro o data len cnt r h
    rw [td_submit_urb_chunks] at h
    split at h
    · cases hf : td_fill o info data 4096 u cnt with
      | none => rw [hf] at h; exact absurd h (by simp)
      | some o1 =>
        rw [hf] at h
        exact st_kept_trans (td_fill_st o o1 _ _ _ _ _ hf) (ih o1 _ _ _ r h)
    · rw [← Option.some.inj h]
      exact st_kept_refl _

theorem td_submit_urb_bulk_st (o o2 : ohci_hcd) (u p data len : Nat)
    (h : td_submit_urb_bulk o u p data len = some o2) : st_kept o o2 := by
  unfold td_submit_urb_bulk at h
  dsimp only at h
  generalize (if (o.hcd.urbs u).pipe_out = true then TD_T_TOGGLE ||| TD_CC ||| TD_DP_OUT
    else TD_T_TOGGLE ||| TD_CC ||| TD_DP_IN) = info at h
  cases hc : td_submit_urb_chunks info u (len / 4096 + 1) o data len 0 with
  | none => rw [hc] at h; exact absurd h (by simp)
  | some q =>
    rw [hc] at h
    have k1 := td_submit_urb_chunks_st info u _ o data len 0 q hc
    obtain ⟨o1, d1, l1, c1⟩ := q
    dsimp only at h k1
    generalize (if (o.hcd.urbs u).transfer_flags &&& URB_SHORT_NOT_OK = 0 then info ||| TD_R
      else info) = info2 at h
    cases hf : td_fill o1 info2 d1 l1 u c1 with
    | none => rw [hf] at h; exact absurd h (by simp)
    | some o3 =>
      rw [hf] at h
      dsimp only at h
      have k2 := st_kept_trans k1 (td_fill_st o1 o3 _ _ _ _ _ hf)
      have key : ∀ o4, st_kept o o4 →
          (if (o4.sched.eds (o4.privs p).ed).type = PIPE_BULK then
            some (o4.writel OHCI_BLF .cmdstatus) else some o4) = some o2 → st_kept o o2 := by
        intro o4 k4 h4
        split at h4
        · rw [← Option.some.inj h4]
          exact st_kept_trans k4 (st_kept_of _ _ rfl rfl)
        · rw [← Option.some.inj h4]
          exact k4
      by_cases hz0 : (o.hcd.urbs u).transfer_flags &&& URB_ZERO_PACKET ≠ 0
          ∧ c1 + 1 < (o3.privs p).length
      · rw [if_pos hz0] at h
        cases hz : td_fill o3 info2 0 0 u (c1 + 1) with
        | none => rw [hz] at h; exact absurd h (by simp)
        | some o4 =>
          rw [hz] at h
          exact key o4 (st_kept_trans k2 (td_fill_st o3 o4 _ _ _ _ _ hz)) h
      · rw [if_neg hz0] at h
        exact key o3 k2 h

theorem td_submit_urb_control_st (o o2 : ohci_hcd) (u data len : Nat)
    (h : td_submit_urb_control o u data len = some o2) : st_kept o o2 := by
  unfold td_submit_urb_control at h
  dsimp only at h
  cases h1 : td_fill o (TD_CC ||| TD_DP_SETUP ||| TD_T_DATA0) (o.hcd.urbs u).setup_dma 8 u 0 with
  | none => rw [h1] at h; exact absurd h (by simp)
  | some o1 =>
    rw [h1] at h
    dsimp only at h
    have k1 := td_fill_st o o1 _ _ _ _ _ h1
    generalize (if (o.hcd.urbs u).pipe_out = true ∨ len = 0 then TD_CC ||| TD_DP_IN ||| TD_T_DATA1
      else TD_CC ||| TD_DP_OUT ||| TD_T_DATA1) = sinfo at h
    have key : ∀ o3 cnt, st_kept o o3 →
        (match td_fill o3 sinfo data 0 u cnt with
          | none => none
          | some o4 => some (o4.writel OHCI_CLF .cmdstatus)) = some o2 → st_kept o o2 := by
      intro o3 cnt k3 h3
      cases hf : td_fill o3 sinfo data 0 u cnt with
      | none => rw [hf] at h3; exact absurd h3 (by simp)
      | some o4 =>
        rw [hf] at h3
        rw [← Option.some.inj h3]
        exact st_kept_trans k3 (st_kept_trans (td_fill_st o3 o4 _ _ _ _ _ hf)
          (st_kept_of _ _ rfl rfl))
    by_cases hl : len > 0
    · rw [if_pos hl] at h
      cases h2 : td_fill o1 (TD_CC ||| TD_R ||| TD_T_DATA1
          ||| (if (o.hcd.urbs u).pipe_out = true then TD_DP_OUT else TD_DP_IN)) data len u 1 with
      | none => rw [h2] at h; exact absurd h (by simp)
      | some o3 =>
        rw [h2] at h
        exact key o3 2 (st_kept_trans k1 (td_fill_st o1 o3 _ _ _ _ _ h2)) h
    · rw [if_neg hl] at h
      exact key o1 1 k1 h

theorem td_submit_urb_iso_loop_st (u data : Nat) :
    ∀ (fuel : Nat) (o : ohci_hcd) (cnt : Nat) (o2 : ohci_hcd),
      td_submit_urb_iso_loop u data fuel o cnt = some o2 → st_kept o o2 := by
  intro fuel
  induction fuel with
  | zero => intro o cnt o2 h; simp [td_submit_urb_iso_loop] at h
  | succ n ih =>
    intro o cnt o2 h
    rw [td_submit_urb_iso_loop] at h
    dsimp only at h
    split at h
    · generalize wrap32 ((o.hcd.urbs u).start_frame + (cnt : Int) * (o.hcd.urbs u).interval)
        &&& 0xffff = frame at h
      cases hf : td_fill o (TD_CC ||| TD_ISO ||| frame)
          (data + ((o.hcd.urbs u).iso_frame_desc cnt).offset)
          ((o.hcd.urbs u).iso_frame_desc cnt).length u cnt with
      | none => rw [hf] at h; exact absurd h (by simp)
      | some o1 =>
        rw [hf] at h
        exact st_kept_trans (td_fill_st o o1 _ _ _ _ _ hf) (ih o1 _ o2 h)
    · rw [← Option.some.inj h]
      exact st_kept_refl _

theorem start_periodic_st (o : ohci_hcd) (b : Bool) : st_kept o (start_periodic o b) := by
  unfold start_periodic
  split
  · exact st_kept_of _ _ rfl rfl
  · exact st_kept_refl _

/-- `td_submit_urb` changes the state of no ED. -/
theorem td_submit_urb_st (o o2 : ohci_hcd) (u : Nat) (h : td_submit_urb o u = some o2) :
    st_kept o o2 := by
  unfold td_submit_urb at h
  cases hp : (o.hcd.urbs u).hcpriv with
  | none => rw [hp] at h; exact absurd h (by simp)
  | some p =>
    rw [hp] at h
    dsimp only at h
    have k1 := td_submit_urb_start_st o u p
    generalize td_submit_urb_start o u p = o1 at h k1
    split at h
    · have k2 : st_kept o (o1.add_int_reqs 1) := st_kept_trans k1 (st_kept_of _ _ rfl rfl)
      generalize o1.add_int_reqs 1 = o2b at h k2
      cases hb : td_submit_urb_bulk o2b u p
          (if (o.hcd.urbs u).transfer_buffer_length ≠ 0 then (o1.hcd.urbs u).transfer_dma else 0)
          (o.hcd.urbs u).transfer_buffer_length with
      | none => rw [hb] at h; exact absurd h (by simp)
      | some o3 =>
        rw [hb] at h
        rw [← Option.some.inj h]
        exact st_kept_trans k2 (st_kept_trans (td_submit_urb_bulk_st _ _ _ _ _ _ hb)
          (start_periodic_st _ _))
    · split at h
      · exact st_kept_trans k1 (td_submit_urb_bulk_st _ _ _ _ _ _ h)
      · split at h
        · exact st_kept_trans k1 (td_submit_urb_control_st _ _ _ _ _ h)
        · split at h
          · cases hi : td_submit_urb_iso_loop u
                (if (o.hcd.urbs u).transfer_buffer_length ≠ 0 then (o1.hcd.urbs u).transfer_dma
                  else 0) ((o1.hcd.urbs u).number_of_packets + 1) o1 0 with
            | none => rw [hi] at h; exact absurd h (by simp)
            | some o3 =>
              rw [hi] at h
              dsimp only at h
              have k3 := st_kept_trans k1 (td_submit_urb_iso_loop_st u _ _ o1 0 o3 hi)
              rw [← Option.some.inj h]
              refine st_kept_trans k3 (st_kept_trans ?_ (start_periodic_st _ _))
              split
              · exact st_kept_of _ _ rfl rfl
              · exact st_kept_of _ _ rfl rfl
          · rw [← Option.some.inj h]
            exact k1

/-! ## The periodic table: linking and unlinking an ED -/

theorem edref_get_set (s : ohci_sched) (v : Option Nat) (c c2 : edref) :
    c2.get (c.set s v) = if c2 = c then v else c2.get s := by
  cases c with
  | slot i =>
    cases c2 with
    | slot j =>
      show upd s.periodic i v j = _
      unfold upd
      by_cases h : j = i
      · rw [if_pos h, if_pos (by rw [h])]
      · rw [if_neg h, if_neg (by intro e; injection e with e; exact h e)]
        rfl
    | node y => rw [if_neg (by intro e; cases e)]; rfl
  | node x =>
    cases c2 with
    | slot j => rw [if_neg (by intro e; cases e)]; rfl
    | node y =>
      show (upd s.eds x { s.eds x with ed_next := v } y).ed_next = _
      unfold upd
      by_cases h : y = x
      · rw [if_pos h, if_pos (by rw [h])]
      · rw [if_neg h, if_neg (by intro e; injection e with e; exact h e)]
        rfl

theorem edref_get_p_set_p (s : ohci_sched) (v : Nat) (c c2 : edref) :
    c2.get_p (c.set_p s v) = if c2 = c then v else c2.get_p s := by
  cases c with
  | slot i =>
    cases c2 with
    | slot j =>
      show upd s.int_table i v j = _
      unfold upd
      by_cases h : j = i
      · rw [if_pos h, if_pos (by rw [h])]
      · rw [if_neg h, if_neg (by intro e; injection e with e; exact h e)]
        rfl
    | node y => rw [if_neg (by intro e; cases e)]; rfl
  | node x =>
    cases c2 with
    | slot j => rw [if_neg (by intro e; cases e)]; rfl
    | node y =>
      show (upd s.eds x { s.eds x with hwNextED := v } y).hwNextED = _
      unfold upd
      by_cases h : y = x
      · rw [if_pos h, if_pos (by rw [h])]
      · rw [if_neg h, if_neg (by intro e; injection e with e; exact h e)]
        rfl

theorem edref_get_set_p (s : ohci_sched) (v : Nat) (c c2 : edref) :
    c2.get (c.set_p s v) = c2.get s := by
  cases c with
  | slot i => cases c2 <;> rfl
  | node x =>
    cases c2 with
    | slot j => rfl
    | node y =>
      show (upd s.eds x { s.eds x with hwNextED := v } y).ed_next = _
      unfold upd
      split
      · rename_i h; rw [h]; rfl
      · rfl

theorem edref_get_p_set (s : ohci_sched) (v : Option Nat) (c c2 : edref) :
    c2.get_p (c.set s v) = c2.get_p s := by
  cases c with
  | slot i => cases c2 <;> rfl
  | node x =>
    cases c2 with
    | slot j => rfl
    | node y =>
      show (upd s.eds x { s.eds x with ed_next := v } y).hwNextED = _
      unfold upd
      split
      · rename_i h; rw [h]; rfl
      · rfl

/-- A write to ED `e` is not seen through a cell that is not a link field of `e`. -/
theorem edref_get_mod (s : ohci_sched) (e : Nat) (f : ed → ed) (c : edref)
    (hc : c ≠ .node e) :
    c.get (s.mod_ed e f) = c.get s ∧ c.get_p (s.mod_ed e f) = c.get_p s := by
  cases c with
  | slot i => exact ⟨rfl, rfl⟩
  | node y =>
    have hy : y ≠ e := fun h => hc (by rw [h])
    constructor
    · show (upd s.eds e (f (s.eds e)) y).ed_next = _
      rw [upd_other _ _ _ _ hy]
      rfl
    · show (upd s.eds e (f (s.eds e)) y).hwNextED = _
      rw [upd_other _ _ _ _ hy]
      rfl

/-- A write through a cell changes link fields only. -/
theorem edref_set_only (s : ohci_sched) (v : Option Nat) (c : edref) (x : Nat) :
    ed_links_only (s.eds x) ((c.set s v).eds x) := by
  cases c with
  | slot i => exact ed_links_only_refl _
  | node y =>
    show ed_links_only (s.eds x) (upd s.eds y { s.eds y with ed_next := v } x)
    unfold upd
    split
    · rename_i h
      rw [h]
      exact ⟨v, (s.eds y).hwNextED, rfl⟩
    · exact ed_links_only_refl _

theorem edref_set_p_only (s : ohci_sched) (v : Nat) (c : edref) (x : Nat) :
    ed_links_only (s.eds x) ((c.set_p s v).eds x) := by
  cases c with
  | slot i => exact ed_links_only_refl _
  | node y =>
    show ed_links_only (s.eds x) (upd s.eds y { s.eds y with hwNextED := v } x)
    unfold upd
    split
    · rename_i h
      rw [h]
      exact ⟨(s.eds y).ed_next, v, rfl⟩
    · exact ed_links_only_refl _

/-- A write through a cell that is no link field of `e` leaves `e` alone. -/
theorem edref_set_self (s : ohci_sched) (v : Option Nat) (w : Nat) (c : edref) (e : Nat)
    (hc : c ≠ .node e) : (c.set s v).eds e = s.eds e ∧ (c.set_p s w).eds e = s.eds e := by
  cases c with
  | slot i => exact ⟨rfl, rfl⟩
  | node y =>
    have hy : e ≠ y := fun h => hc (by rw [h])
    constructor
    · show upd s.eds y _ e = _
      rw [upd_other _ _ _ _ hy]
    · show upd s.eds y _ e = _
      rw [upd_other _ _ _ _ hy]

theorem lastcell_nil (c : edref) : lastcell c [] = c := rfl

theorem lastcell_cons (c : edref) (x : Nat) (rest : List Nat) :
    lastcell c (x :: rest) = lastcell (.node x) rest := by
  unfold lastcell
  cases rest with
  | nil => rfl
  | cons y r =>
    rw [List.getLast?_cons_cons, List.getLast?_cons]

theorem lastcell_concat (c : edref) (P : List Nat) (x : Nat) :
    lastcell c (P ++ [x]) = .node x := by
  unfold lastcell
  rw [List.getLast?_append]
  rfl

/-- The content of the last cell of a chain is the pointer the chain ends with. -/
theorem ed_path_lastcell (t : ohci_sched) (stop : Option Nat) :
    ∀ (P : List Nat) (c : edref), ed_path t (c.get t) P stop → (lastcell c P).get t = stop := by
  intro P
  induction P with
  | nil => intro c h; exact h
  | cons x rest ih =>
    intro c h
    rw [lastcell_cons]
    exact ih (.node x) h.2

/-- The walk of `periodic_link` along a chain of EDs that it passes: it stops at the end
of the chain, where the next ED is missing, is `e` itself or has a smaller interval. -/
theorem periodic_link_walk_run (t : ohci_sched) (e : Nat) (stop : Option Nat) :
    ∀ (P : List Nat) (prev0 : edref) (start : Option Nat) (fuel : Nat),
      ed_path t start P stop →
      (∀ x ∈ P, x ≠ e ∧ (t.eds e).interval ≤ (t.eds x).interval) →
      (stop = none ∨ stop = some e ∨
        ∃ h, stop = some h ∧ (t.eds h).interval < (t.eds e).interval) →
      P.length < fuel →
      periodic_link_walk t e fuel prev0 start = some (lastcell prev0 P, stop) := by
  intro P
  induction P with
  | nil =>
    intro prev0 start fuel hp _ hstop hfuel
    have hs : start = stop := hp
    subst hs
    cases fuel with
    | zero => simp at hfuel
    | succ f =>
      cases start with
      | none => simp only [periodic_link_walk]; rfl
      | some h =>
        simp only [periodic_link_walk]
        by_cases he : e = h
        · rw [if_pos he]; rfl
        · rw [if_neg he]
          rcases hstop with a | a | ⟨h2, a, b⟩
          · exact absurd a (by simp)
          · exact absurd (Option.some.inj a).symm he
          · have : h = h2 := Option.some.inj a
            subst this
            rw [if_pos b]
            rfl
  | cons x rest ih =>
    intro prev0 start fuel hp hbig hstop hfuel
    obtain ⟨h1, h2⟩ := hp
    subst h1
    cases fuel with
    | zero => simp at hfuel
    | succ f =>
      obtain ⟨b1, b2⟩ := hbig x (List.mem_cons_self _ _)
      simp only [periodic_link_walk]
      rw [if_neg (fun h => b1 h.symm), if_neg (by omega), lastcell_cons]
      exact ih (.node x) _ f h2 (fun y hy => hbig y (List.mem_cons_of_mem _ hy)) hstop
        (by simp at hfuel; omega)

/-- The walk of `periodic_unlink` along a chain of other EDs that ends with `e` or with
`NULL`: it stops at the last cell of the chain. -/
theorem periodic_unlink_walk_run (t : ohci_sched) (e : Nat) (stop : Option Nat) :
    ∀ (P : List Nat) (prev0 : edref) (fuel : Nat),
      ed_path t (prev0.get t) P stop → (∀ x ∈ P, x ≠ e) →
      (stop = none ∨ stop = some e) → P.length < fuel →
      periodic_unlink_walk t e fuel prev0 = some (lastcell prev0 P) := by
  intro P
  induction P with
  | nil =>
    intro prev0 fuel hp _ hstop hfuel
    have hs : prev0.get t = stop := hp
    cases fuel with
    | zero => simp at hfuel
    | succ f =>
      simp only [periodic_unlink_walk]
      rw [hs]
      rcases hstop with a | a
      · rw [a]; rfl
      · rw [a]
        dsimp only
        rw [if_neg (by simp)]
        rfl
  | cons x rest ih =>
    intro prev0 fuel hp hne hstop hfuel
    obtain ⟨h1, h2⟩ := hp
    cases fuel with
    | zero => simp at hfuel
    | succ f =>
      simp only [periodic_unlink_walk]
      rw [h1]
      dsimp only
      rw [if_pos (hne x (List.mem_cons_self _ _)), lastcell_cons]
      exact ih (.node x) f h2 (fun y hy => hne y (List.mem_cons_of_mem _ hy)) hstop
        (by simp at hfuel; omega)

/-- An ED of a chain that is not its last one points at an ED of the chain. -/
theorem ed_path_inner (s : ohci_sched) (stop : Option Nat) :
    ∀ (P : List Nat) (a : Option Nat), ed_path s a P stop →
      ∀ x ∈ P.dropLast, ∃ y ∈ P, (s.eds x).ed_next = some y := by
  intro P
  induction P with
  | nil => intro a _ x hx; simp at hx
  | cons x0 rest ih =>
    intro a hp x hx
    cases rest with
    | nil => simp at hx
    | cons y r =>
      rw [List.dropLast_cons₂] at hx
      rcases List.mem_cons.1 hx with h | h
      · subst h
        exact ⟨y, by simp, hp.2.1⟩
      · obtain ⟨z, hz, e⟩ := ih _ hp.2 x h
        exact ⟨z, List.mem_cons_of_mem _ hz, e⟩

/-- A chain read in another state, in which the cells before its last one hold what they
held: it is a chain up to the content of its last cell. -/
theorem ed_path_keep (s s2 : ohci_sched) (stop : Option Nat) :
    ∀ (P : List Nat) (c : edref), ed_path s (c.get s) P stop →
      (P ≠ [] → c.get s2 = c.get s) →
      (∀ x ∈ P.dropLast, (s2.eds x).ed_next = (s.eds x).ed_next) →
      ed_path s2 (c.get s2) P ((lastcell c P).get s2) := by
  intro P
  induction P with
  | nil => intro c _ _ _; exact rfl
  | cons x rest ih =>
    intro c hp hc hin
    rw [lastcell_cons]
    refine ⟨(hc (by simp)).trans hp.1, ?_⟩
    refine ih (.node x) hp.2 ?_ ?_
    · intro hr
      cases rest with
      | nil => exact absurd rfl hr
      | cons y r => exact hin x (by rw [List.dropLast_cons₂]; exact List.mem_cons_self _ _)
    · intro z hz
      cases rest with
      | nil => simp at hz
      | cons y r => exact hin z (by rw [List.dropLast_cons₂]; exact List.mem_cons_of_mem _ hz)

theorem lastcell_node (c : edref) (P : List Nat) (x : Nat) (h : lastcell c P = .node x)
    (hc : c ≠ .node x) : P.getLast? = some x := by
  unfold lastcell at h
  cases hl : P.getLast? with
  | none => rw [hl] at h; exact absurd h hc
  | some y =>
    rw [hl] at h
    injection h with h
    rw [h]

theorem slot_cell_node (P : Nat → List Nat) (j x : Nat) (h : slot_cell P j = .node x) :
    (P j).getLast? = some x ∧ x ∈ P j := by
  have h1 := lastcell_node (.slot j) (P j) x h (by intro e; cases e)
  exact ⟨h1, List.mem_of_mem_getLast? (Option.mem_def.mpr h1)⟩

theorem slot_cell_slot (P : Nat → List Nat) (j i : Nat) (h : slot_cell P j = .slot i) :
    P j = [] ∧ j = i := by
  unfold slot_cell lastcell at h
  cases hl : (P j).getLast? with
  | none =>
    rw [hl] at h
    injection h with h
    exact ⟨List.getLast?_eq_none_iff.1 hl, h⟩
  | some y => rw [hl] at h; cases h

theorem periodic_tree_cell_ne {s : ohci_sched} {e : Nat} {P : Nat → List Nat} {R : List Nat}
    {here0 : Option Nat} {hw0 : Nat} (H : periodic_tree s e P R here0 hw0) (i : Nat)
    (hi : i ∈ periodic_slots s e) : slot_cell P i ≠ .node e := by
  intro h
  exact (H.front_big i hi e (slot_cell_node P i e h).2).1 rfl

theorem periodic_tree_cell_get {s : ohci_sched} {e : Nat} {P : Nat → List Nat} {R : List Nat}
    {here0 : Option Nat} {hw0 : Nat} (H : periodic_tree s e P R here0 hw0) (i : Nat)
    (hi : i ∈ periodic_slots s e) : (slot_cell P i).get s = here0 :=
  ed_path_lastcell s here0 (P i) (.slot i) (H.front_path i hi)

theorem periodic_tree_here {s : ohci_sched} {e : Nat} {P : Nat → List Nat} {R : List Nat}
    {here0 : Option Nat} {hw0 : Nat} (H : periodic_tree s e P R here0 hw0) : here0 ≠ some e := by
  intro h
  exact absurd (H.tail_small e h) (Nat.lt_irrefl _)

/-- No ED inside a chain `P i` carries the cell of a slot. -/
theorem periodic_tree_inner {s : ohci_sched} {e : Nat} {P : Nat → List Nat} {R : List Nat}
    {here0 : Option Nat} {hw0 : Nat} (H : periodic_tree s e P R here0 hw0) (i j : Nat)
    (hi : i ∈ periodic_slots s e) (hj : j ∈ periodic_slots s e) :
    ∀ x ∈ (P i).dropLast, slot_cell P j ≠ .node x := by
  intro x hx h
  obtain ⟨y, hy, hn⟩ := ed_path_inner s here0 (P i) _ (H.front_path i hi) x hx
  have hg : (s.eds x).ed_next = here0 := by
    have := periodic_tree_cell_get H j hj
    rw [h] at this
    exact this
  have h1 := H.tail_small y (hg.symm.trans hn)
  have h2 := (H.front_big i hi y hy).2
  omega

/-- No ED of the common tail carries the cell of a slot. -/
theorem periodic_tree_tail {s : ohci_sched} {e : Nat} {P : Nat → List Nat} {R : List Nat}
    {here0 : Option Nat} {hw0 : Nat} (H : periodic_tree s e P R here0 hw0) (j : Nat)
    (hj : j ∈ periodic_slots s e) : ∀ x ∈ R, slot_cell P j ≠ .node x := by
  intro x hx h
  have hp : ed_path s (s.periodic j) (P j ++ R) none :=
    (ed_path_append s (P j) R _ _).2 ⟨here0, H.front_path j hj, H.tail_path⟩
  have hnd := ed_path_nodup s _ _ hp
  exact (List.nodup_append.1 hnd).2.2 (slot_cell_node P j x h).2 hx

theorem slot_cell_ne_slot (P : Nat → List Nat) (i j : Nat) (hne : P i ≠ []) : slot_cell P j ≠ .slot i := by
  intro h
  obtain ⟨h1, h2⟩ := slot_cell_slot P j i h
  rw [h2] at h1
  exact hne h1

theorem ed_links_only_fields {x y : ed} (h : ed_links_only x y) :
    y.interval = x.interval ∧ y.load = x.load ∧ y.branch = x.branch ∧ y.dma = x.dma := by
  obtain ⟨n, p, h⟩ := h
  rw [h]
  exact ⟨rfl, rfl, rfl, rfl⟩

theorem ed_links_only_eq {x y : ed} (h : ed_links_only x y) (h1 : y.ed_next = x.ed_next)
    (h2 : y.hwNextED = x.hwNextED) : y = x := by
  obtain ⟨n, p, h⟩ := h
  rw [h] at h1 h2 ⊢
  have e1 : n = x.ed_next := h1
  have e2 : p = x.hwNextED := h2
  rw [e1, e2]

theorem edref_get_fields (s2 s3 : ohci_sched) (h1 : s3.eds = s2.eds)
    (h2 : s3.periodic = s2.periodic) (h3 : s3.int_table = s2.int_table) (c : edref) :
    c.get s3 = c.get s2 ∧ c.get_p s3 = c.get_p s2 := by
  cases c with
  | slot i =>
    constructor
    · show s3.periodic i = s2.periodic i
      rw [h2]
    · show s3.int_table i = s2.int_table i
      rw [h3]
  | node x =>
    constructor
    · show (s3.eds x).ed_next = (s2.eds x).ed_next
      rw [h1]
    · show (s3.eds x).hwNextED = (s2.eds x).hwNextED
      rw [h1]

theorem link_marks_start (s : ohci_sched) (e : Nat) (here0 : Option Nat) (hw0 : Nat)
    (hself : here0 = none → (s.eds e).hwNextED = hw0) : link_marks s s e [] here0 hw0 :=
  ⟨fun c _ => ⟨by simp, by simp⟩, fun _ => ed_links_only_refl _, fun h => absurd rfl h, hself⟩

theorem link_marks_congr {s s2 : ohci_sched} {e : Nat} {C : List edref} {here0 : Option Nat}
    {hw0 : Nat} (h : link_marks s s2 e C here0 hw0) (C2 : List edref)
    (hC : ∀ c, c ∈ C2 ↔ c ∈ C) : link_marks s s2 e C2 here0 hw0 := by
  refine ⟨fun c hc => ?_, h.links, fun hne => ?_, h.self_hw⟩
  · have := h.cells c hc
    by_cases hm : c ∈ C
    · rw [if_pos hm, if_pos hm] at this
      rw [if_pos ((hC c).2 hm), if_pos ((hC c).2 hm)]
      exact this
    · rw [if_neg hm, if_neg hm] at this
      rw [if_neg (fun x => hm ((hC c).1 x)), if_neg (fun x => hm ((hC c).1 x))]
      exact this
  · obtain ⟨c, hc⟩ := List.exists_mem_of_ne_nil C2 hne
    exact h.self (List.ne_nil_of_mem ((hC c).1 hc))

theorem link_marks_fields {s s2 : ohci_sched} {e : Nat} {C : List edref} {here0 : Option Nat}
    {hw0 : Nat} (h : link_marks s s2 e C here0 hw0) (s3 : ohci_sched) (h1 : s3.eds = s2.eds)
    (h2 : s3.periodic = s2.periodic) (h3 : s3.int_table = s2.int_table) :
    link_marks s s3 e C here0 hw0 := by
  refine ⟨fun c hc => ?_, fun x => ?_, fun hne => ?_, fun hn => ?_⟩
  · rw [(edref_get_fields s2 s3 h1 h2 h3 c).1, (edref_get_fields s2 s3 h1 h2 h3 c).2]
    exact h.cells c hc
  · rw [h1]; exact h.links x
  · rw [h1]; exact h.self hne
  · rw [h1]; exact h.self_hw hn

theorem links_mod_next {s o : ohci_sched} (e : Nat) (v : Option Nat)
    (h : ∀ x, ed_links_only (s.eds x) (o.eds x)) :
    ∀ x, ed_links_only (s.eds x) ((o.mod_ed e (fun y => { y with ed_next := v })).eds x) :=
  fun x => ed_links_only_trans (h x) (edref_set_only o v (.node e) x)

theorem links_mod_hw {s o : ohci_sched} (e : Nat) (v : Nat)
    (h : ∀ x, ed_links_only (s.eds x) (o.eds x)) :
    ∀ x, ed_links_only (s.eds x) ((o.mod_ed e (fun y => { y with hwNextED := v })).eds x) :=
  fun x => ed_links_only_trans (h x) (edref_set_p_only o v (.node e) x)

theorem links_set {s o : ohci_sched} (c : edref) (v : Option Nat)
    (h : ∀ x, ed_links_only (s.eds x) (o.eds x)) :
    ∀ x, ed_links_only (s.eds x) ((c.set o v).eds x) :=
  fun x => ed_links_only_trans (h x) (edref_set_only o v c x)

theorem links_set_p {s o : ohci_sched} (c : edref) (v : Nat)
    (h : ∀ x, ed_links_only (s.eds x) (o.eds x)) :
    ∀ x, ed_links_only (s.eds x) ((c.set_p o v).eds x) :=
  fun x => ed_links_only_trans (h x) (edref_set_p_only o v c x)

/-- The splice of `periodic_link` at a cell that is not marked yet: the cell is marked. -/
theorem periodic_link_insert_marks {s s2 : ohci_sched} {e : Nat} {C : List edref}
    {here0 : Option Nat} {hw0 : Nat} (hm : link_marks s s2 e C here0 hw0) (c : edref)
    (hce : c ≠ .node e) (hcC : c ∉ C) (hp : c.get_p s = hw0) (hne : here0 ≠ some e) :
    link_marks s (periodic_link_insert s2 e c here0) e (c :: C) here0 hw0 := by
  have hcp : c.get_p s2 = hw0 := by
    rw [(hm.cells c hce).2, if_neg hcC, hp]
  have hdma : ∀ o : ohci_sched, (∀ x, ed_links_only (s.eds x) (o.eds x)) →
      (o.eds e).dma = (s.eds e).dma := fun o ho => (ed_links_only_fields (ho e)).2.2.2
  unfold periodic_link_insert
  rw [if_pos (fun h => hne h.symm)]
  cases hh : here0 with
  | none =>
    have hs := hm.self_hw hh
    simp only [Option.isSome, Bool.false_eq_true, if_false]
    have l1 := links_set c (some e) (links_mod_next e none hm.links)
    rw [hdma _ l1]
    refine ⟨fun c2 hc2 => ?_, fun x => ?_, fun _ => ?_, fun _ => ?_⟩
    · rw [edref_get_set_p, edref_get_p_set_p, edref_get_set, edref_get_p_set,
        (edref_get_mod s2 e _ c2 hc2).1, (edref_get_mod s2 e _ c2 hc2).2,
        (hm.cells c2 hc2).1, (hm.cells c2 hc2).2]
      by_cases h : c2 = c
      · rw [if_pos h, if_pos h, if_pos (by rw [h]; exact List.mem_cons_self _ _),
          if_pos (by rw [h]; exact List.mem_cons_self _ _)]
        exact ⟨rfl, rfl⟩
      · rw [if_neg h, if_neg h]
        by_cases h2 : c2 ∈ C
        · rw [if_pos h2, if_pos h2, if_pos (List.mem_cons_of_mem _ h2),
            if_pos (List.mem_cons_of_mem _ h2)]
          exact ⟨rfl, rfl⟩
        · have h3 : c2 ∉ c :: C := fun x => (List.mem_cons.1 x).elim h h2
          rw [if_neg h2, if_neg h2, if_neg h3, if_neg h3]
          exact ⟨rfl, rfl⟩
    · exact ed_links_only_trans (l1 x) (edref_set_p_only _ _ _ _)
    · rw [(edref_set_self _ none _ c e hce).2, (edref_set_self _ (some e) 0 c e hce).1]
      exact ⟨by simp [ohci_sched.mod_ed, upd_same], by simpa [ohci_sched.mod_ed, upd_same] using hs⟩
    · rw [(edref_set_self _ none _ c e hce).2, (edref_set_self _ (some e) 0 c e hce).1]
      simpa [ohci_sched.mod_ed, upd_same] using hs
  | some h0 =>
    simp only [Option.isSome, if_true]
    have l1 := links_set c (some e) (links_mod_hw e
      (c.get_p (s2.mod_ed e (fun x => { x with ed_next := some h0 })))
      (links_mod_next e (some h0) hm.links))
    rw [hdma _ l1]
    refine ⟨fun c2 hc2 => ?_, fun x => ?_, fun _ => ?_, fun hn => absurd hn (by simp)⟩
    · rw [edref_get_set_p, edref_get_p_set_p, edref_get_set, edref_get_p_set,
        (edref_get_mod _ e _ c2 hc2).1, (edref_get_mod _ e _ c2 hc2).2,
        (edref_get_mod s2 e _ c2 hc2).1, (edref_get_mod s2 e _ c2 hc2).2,
        (hm.cells c2 hc2).1, (hm.cells c2 hc2).2]
      by_cases h : c2 = c
      · rw [if_pos h, if_pos h, if_pos (by rw [h]; exact List.mem_cons_self _ _),
          if_pos (by rw [h]; exact List.mem_cons_self _ _)]
        exact ⟨rfl, rfl⟩
      · rw [if_neg h, if_neg h]
        by_cases h2 : c2 ∈ C
        · rw [if_pos h2, if_pos h2, if_pos (List.mem_cons_of_mem _ h2),
            if_pos (List.mem_cons_of_mem _ h2)]
          exact ⟨rfl, rfl⟩
        · have h3 : c2 ∉ c :: C := fun x => (List.mem_cons.1 x).elim h h2
          rw [if_neg h2, if_neg h2, if_neg h3, if_neg h3]
          exact ⟨rfl, rfl⟩
    · exact ed_links_only_trans (l1 x) (edref_set_p_only _ _ _ _)
    · rw [(edref_set_self _ none _ c e hce).2, (edref_set_self _ (some e) 0 c e hce).1,
        (edref_get_mod s2 e _ c hce).2, hcp]
      exact ⟨by simp [ohci_sched.mod_ed, upd_same], by simp [ohci_sched.mod_ed, upd_same]⟩

theorem periodic_link_insert_bandwidth (o : ohci_sched) (e : Nat) (prev : edref)
    (here : Option Nat) :
    (periodic_link_insert o e prev here).bandwidth_allocated = o.bandwidth_allocated := by
  unfold periodic_link_insert
  split
  · cases prev <;> cases here <;> rfl
  · rfl

/-- The chain `P i` of a slot, read while the ED is being linked: no cell inside it is
marked, so that it still leads to the cell of the slot. -/
theorem periodic_tree_path_marks {s s2 : ohci_sched} {e : Nat} {P : Nat → List Nat}
    {R : List Nat} {here0 : Option Nat} {hw0 : Nat} {C : List edref}
    (H : periodic_tree s e P R here0 hw0) (hm : link_marks s s2 e C here0 hw0)
    (hC : ∀ c ∈ C, ∃ j ∈ periodic_slots s e, c = slot_cell P j) (i : Nat)
    (hi : i ∈ periodic_slots s e) :
    ed_path s2 (s2.periodic i) (P i) ((slot_cell P i).get s2) := by
  refine ed_path_keep s s2 here0 (P i) (.slot i) (H.front_path i hi) ?_ ?_
  · intro hne
    rw [(hm.cells (.slot i) (by intro h; cases h)).1, if_neg]
    intro hin
    obtain ⟨j, _, hj⟩ := hC _ hin
    exact slot_cell_ne_slot P i j hne hj.symm
  · intro x hx
    have hxe : x ≠ e := (H.front_big i hi x (List.dropLast_subset _ hx)).1
    have := (hm.cells (.node x) (by intro h; injection h with h; exact hxe h)).1
    rw [if_neg] at this
    · exact this
    · intro hin
      obtain ⟨j, hj, hj2⟩ := hC _ hin
      exact periodic_tree_inner H i j hi hj x hx hj2.symm

/-- One slot of `periodic_link` in a tree: the cell of the slot is marked, and the load
of the ED is added to the slot. -/
theorem periodic_link_slot_marks {s s2 : ohci_sched} {e : Nat} {P : Nat → List Nat}
    {R : List Nat} {here0 : Option Nat} {hw0 : Nat} {C : List edref}
    (H : periodic_tree s e P R here0 hw0) (hm : link_marks s s2 e C here0 hw0)
    (hC : ∀ c ∈ C, ∃ j ∈ periodic_slots s e, c = slot_cell P j) (i : Nat)
    (hi : i ∈ periodic_slots s e) (fuel : Nat) (hf : (P i).length < fuel) :
    ∃ s3, periodic_link_slot fuel s2 e i = some s3 ∧
      link_marks s s3 e (slot_cell P i :: C) here0 hw0 ∧
      s3.load = upd s2.load i (s2.load i + ((s.eds e).load : Int)) ∧
      s3.bandwidth_allocated = s2.bandwidth_allocated := by
  have hiv : ∀ x, (s2.eds x).interval = (s.eds x).interval :=
    fun x => (ed_links_only_fields (hm.links x)).1
  have hld : (s2.eds e).load = (s.eds e).load := (ed_links_only_fields (hm.links e)).2.1
  have hce := periodic_tree_cell_ne H i hi
  have hpath := periodic_tree_path_marks H hm hC i hi
  have hbig : ∀ x ∈ P i, x ≠ e ∧ (s2.eds e).interval ≤ (s2.eds x).interval := by
    intro x hx
    rw [hiv, hiv]
    exact H.front_big i hi x hx
  by_cases hin : slot_cell P i ∈ C
  · have hst : (slot_cell P i).get s2 = some e := by
      rw [(hm.cells _ hce).1, if_pos hin]
    rw [hst] at hpath
    have hw := periodic_link_walk_run s2 e _ (P i) (.slot i) (s2.periodic i) fuel hpath hbig
      (Or.inr (Or.inl rfl)) hf
    have hid : periodic_link_insert s2 e (lastcell (.slot i) (P i)) (some e) = s2 := by
      unfold periodic_link_insert
      rw [if_neg (by simp)]
    unfold periodic_link_slot
    rw [hw]
    dsimp only
    rw [hid]
    refine ⟨_, rfl, ?_, ?_, rfl⟩
    · refine link_marks_congr
        (link_marks_fields hm (add_load s2 i ((s2.eds e).load : Int)) rfl rfl rfl) _ (fun c => ?_)
      constructor
      · intro h
        rcases List.mem_cons.1 h with h | h
        · rw [h]; exact hin
        · exact h
      · exact List.mem_cons_of_mem _
    · show upd s2.load i (s2.load i + ((s2.eds e).load : Int)) = _
      rw [hld]
  · have hst : (slot_cell P i).get s2 = here0 := by
      rw [(hm.cells _ hce).1, if_neg hin]
      exact periodic_tree_cell_get H i hi
    rw [hst] at hpath
    have hstop : here0 = none ∨ here0 = some e ∨
        ∃ h, here0 = some h ∧ (s2.eds h).interval < (s2.eds e).interval := by
      cases hh : here0 with
      | none => exact Or.inl rfl
      | some h =>
        refine Or.inr (Or.inr ⟨h, rfl, ?_⟩)
        rw [hiv, hiv]
        exact H.tail_small h hh
    have hw := periodic_link_walk_run s2 e _ (P i) (.slot i) (s2.periodic i) fuel hpath hbig
      hstop hf
    have hm2 := periodic_link_insert_marks hm (slot_cell P i) hce hin (H.hw_point i hi)
      (periodic_tree_here H)
    have hfr := periodic_link_insert_frame s2 e (slot_cell P i) here0
    unfold periodic_link_slot
    rw [hw]
    dsimp only
    refine ⟨_, rfl, link_marks_fields hm2 _ rfl rfl rfl, ?_, ?_⟩
    · show upd (periodic_link_insert s2 e (slot_cell P i) here0).load i
        ((periodic_link_insert s2 e (slot_cell P i) here0).load i +
          (((periodic_link_insert s2 e (slot_cell P i) here0).eds e).load : Int)) = _
      rw [hfr.1, (hfr.2 e).1, hld]
    · exact periodic_link_insert_bandwidth _ _ _ _

theorem ed_slots_cons (k n i : Nat) (h : i < NUM_INTS) :
    ed_slots k (n + 1) i = i :: ed_slots k n (i + k) := by
  simp [ed_slots, h]

theorem ed_slots_end (k n i : Nat) (h : ¬ i < NUM_INTS) : ed_slots k n i = [] := by
  cases n with
  | zero => rfl
  | succ n => simp [ed_slots, h]

/-- The loop of `periodic_link` in a tree: it ends, the cells of the slots it visits are
marked, and each visit adds the load of the ED to the slot. -/
theorem periodic_link_loop_marks {s : ohci_sched} {e : Nat} {P : Nat → List Nat}
    {R : List Nat} {here0 : Option Nat} {hw0 : Nat}
    (H : periodic_tree s e P R here0 hw0) (fuel : Nat)
    (hf : ∀ i ∈ periodic_slots s e, (P i).length < fuel) :
    ∀ (n : Nat) (s2 : ohci_sched) (i : Nat) (C : List edref),
      link_marks s s2 e C here0 hw0 →
      (∀ c ∈ C, ∃ j ∈ periodic_slots s e, c = slot_cell P j) →
      (∀ j ∈ ed_slots (s.eds e).interval n i, j ∈ periodic_slots s e) →
      NUM_INTS + 1 ≤ i + n → 1 ≤ n →
      ∃ s3 C3, periodic_link_loop fuel e n s2 i = some s3 ∧
        link_marks s s3 e C3 here0 hw0 ∧
        (∀ c, c ∈ C3 ↔ c ∈ C ∨ ∃ j ∈ ed_slots (s.eds e).interval n i, c = slot_cell P j) ∧
        (∀ j, s3.load j = s2.load j +
          ((s.eds e).load : Int) * ((ed_slots (s.eds e).interval n i).count j : Int)) ∧
        s3.bandwidth_allocated = s2.bandwidth_allocated := by
  intro n
  induction n with
  | zero => intro _ _ _ _ _ _ _ h; exact absurd h (by decide)
  | succ n ih =>
    intro s2 i C hm hC hsl hn _
    have hN : NUM_INTS = 32 := rfl
    by_cases hlt : i < NUM_INTS
    · rw [ed_slots_cons _ _ _ hlt] at hsl
      have hi := hsl i (List.mem_cons_self _ _)
      obtain ⟨s3, h3, hm3, hl3, hb3⟩ := periodic_link_slot_marks H hm hC i hi fuel (hf i hi)
      have hiv : (s3.eds e).interval = (s.eds e).interval :=
        (ed_links_only_fields (hm3.links e)).1
      have hpos := H.interval_pos
      have hC3 : ∀ c ∈ slot_cell P i :: C, ∃ j ∈ periodic_slots s e, c = slot_cell P j := by
        intro c hc
        rcases List.mem_cons.1 hc with h | h
        · exact ⟨i, hi, h⟩
        · exact hC c h
      obtain ⟨s4, C4, h4, hm4, hc4, hl4, hb4⟩ :=
        ih s3 (i + (s.eds e).interval) _ hm3 hC3
          (fun j hj => hsl j (List.mem_cons_of_mem _ hj)) (by omega) (by omega)
      refine ⟨s4, C4, ?_, hm4, ?_, ?_, hb4.trans hb3⟩
      · rw [periodic_link_loop, if_pos hlt, h3]
        dsimp only
        rw [hiv]
        exact h4
      · intro c
        rw [hc4 c, ed_slots_cons _ _ _ hlt]
        constructor
        · rintro (h | ⟨j, hj, h⟩)
          · rcases List.mem_cons.1 h with h | h
            · exact Or.inr ⟨i, List.mem_cons_self _ _, h⟩
            · exact Or.inl h
          · exact Or.inr ⟨j, List.mem_cons_of_mem _ hj, h⟩
        · rintro (h | ⟨j, hj, h⟩)
          · exact Or.inl (List.mem_cons_of_mem _ h)
          · rcases List.mem_cons.1 hj with h2 | h2
            · exact Or.inl (by rw [h, h2]; exact List.mem_cons_self _ _)
            · exact Or.inr ⟨j, h2, h⟩
      · intro j
        rw [hl4 j, hl3, ed_slots_cons _ _ _ hlt, List.count_cons]
        by_cases hji : j = i
        · subst hji
          rw [upd_same]
          simp only [beq_self_eq_true, if_true]
          push_cast
          ring
        · rw [upd_other _ _ _ _ hji]
          have : (i == j) = false := by simpa using fun h : i = j => hji h.symm
          rw [this]
          simp
    · refine ⟨s2, C, ?_, hm, ?_, ?_, rfl⟩
      · rw [periodic_link_loop, if_neg hlt]
      · intro c
        rw [ed_slots_end _ _ _ hlt]
        simp
      · intro j
        rw [ed_slots_end _ _ _ hlt]
        simp

/-- The function `periodic_link` in a tree: it returns, and what it has done is to mark
the cells of the slots of the ED, to add the load to these slots, and to book the
bandwidth. -/
theorem periodic_link_marks {s : ohci_sched} {e : Nat} {P : Nat → List Nat}
    {R : List Nat} {here0 : Option Nat} {hw0 : Nat}
    (H : periodic_tree s e P R here0 hw0) (fuel : Nat)
    (hf : ∀ i ∈ periodic_slots s e, (P i).length < fuel) :
    ∃ s1 C1, periodic_link fuel s e = some s1 ∧ link_marks s s1 e C1 here0 hw0 ∧
      (∀ c, c ∈ C1 ↔ ∃ j ∈ periodic_slots s e, c = slot_cell P j) ∧
      (∀ j, s1.load j = s.load j +
        ((s.eds e).load : Int) * ((periodic_slots s e).count j : Int)) ∧
      s1.bandwidth_allocated =
        s.bandwidth_allocated + ((s.eds e).load : Int) / ((s.eds e).interval : Int) := by
  obtain ⟨s3, C3, h3, hm3, hc3, hl3, hb3⟩ :=
    periodic_link_loop_marks H fuel hf (NUM_INTS + 1) s (s.eds e).branch []
      (link_marks_start s e here0 hw0 H.hw_self) (fun c hc => absurd hc (List.not_mem_nil c))
      (fun j hj => hj) (Nat.le_add_left _ _) (Nat.succ_pos _)
  have hiv : (s3.eds e).interval = (s.eds e).interval :=
    (ed_links_only_fields (hm3.links e)).1
  have hld : (s3.eds e).load = (s.eds e).load := (ed_links_only_fields (hm3.links e)).2.1
  refine ⟨add_bandwidth s3 (((s3.eds e).load : Int) / ((s3.eds e).interval : Int)), C3, ?_,
    link_marks_fields hm3 _ rfl rfl rfl, ?_, hl3, ?_⟩
  · unfold periodic_link
    rw [h3]
  · intro c
    rw [hc3 c]
    simp [periodic_slots]
  · show s3.bandwidth_allocated + _ = _
    rw [hb3, hiv, hld]

theorem mem_dropLast_or_getLast (L : List Nat) (x : Nat) (h : x ∈ L) :
    x ∈ L.dropLast ∨ L.getLast? = some x := by
  rcases List.eq_nil_or_concat L with hn | ⟨L0, t, hc⟩
  · rw [hn] at h; exact absurd h (List.not_mem_nil x)
  · rw [hc, List.concat_eq_append] at h ⊢
    rw [List.dropLast_concat, List.getLast?_append]
    rcases List.mem_append.1 h with h | h
    · exact Or.inl h
    · right
      rw [List.mem_singleton.1 h]
      rfl

/-- The whole chain of a slot whose cell is not marked, read while other cells are
marked: it is the chain of the state before. -/
theorem periodic_tree_path_clear {s t : ohci_sched} {e : Nat} {P : Nat → List Nat}
    {R : List Nat} {here0 : Option Nat} {hw0 : Nat} {C : List edref}
    (H : periodic_tree s e P R here0 hw0) (hm : link_marks s t e C here0 hw0)
    (hC : ∀ c ∈ C, ∃ j ∈ periodic_slots s e, c = slot_cell P j) (i : Nat)
    (hi : i ∈ periodic_slots s e) (hout : slot_cell P i ∉ C) :
    ed_path t (t.periodic i) (P i ++ R) none := by
  have hp : ed_path s (s.periodic i) (P i ++ R) none :=
    (ed_path_append s (P i) R _ _).2 ⟨here0, H.front_path i hi, H.tail_path⟩
  have h0 : t.periodic i = s.periodic i := by
    have := (hm.cells (.slot i) (by intro h; cases h)).1
    rw [if_neg] at this
    · exact this
    · intro hin
      obtain ⟨j, _, hj⟩ := hC _ hin
      obtain ⟨h1, h2⟩ := slot_cell_slot P j i hj.symm
      apply hout
      rw [h2] at h1
      have : slot_cell P i = .slot i := by
        unfold slot_cell
        rw [h1]
        rfl
      rw [this]
      exact hin
  rw [h0]
  refine ed_path_congr s t _ _ _ (fun x hx => ?_) hp
  have hxe : x ≠ e := by
    rcases List.mem_append.1 hx with h | h
    · exact (H.front_big i hi x h).1
    · intro he
      rw [he] at h
      exact H.tail_free h
  have := (hm.cells (.node x) (by intro h; injection h with h; exact hxe h)).1
  rw [if_neg] at this
  · exact this
  · intro hin
    obtain ⟨j, hj, hj2⟩ := hC _ hin
    rcases List.mem_append.1 hx with h | h
    · rcases mem_dropLast_or_getLast _ _ h with h2 | h2
      · exact periodic_tree_inner H i j hi hj x h2 hj2.symm
      · apply hout
        have : slot_cell P i = .node x := by
          unfold slot_cell lastcell
          rw [h2]
        rw [this]
        exact hin
    · exact periodic_tree_tail H j hj x h hj2.symm

theorem edref_set_bandwidth (o : ohci_sched) (v : Option Nat) (w : Nat) (c : edref) :
    (c.set (c.set_p o w) v).bandwidth_allocated = o.bandwidth_allocated := by
  cases c <;> rfl

/-- One slot of `periodic_unlink` in a tree in which cells are marked: the mark of the
cell of the slot is taken away, and the load of the ED is taken from the slot. -/
theorem periodic_unlink_slot_marks {s t : ohci_sched} {e : Nat} {P : Nat → List Nat}
    {R : List Nat} {here0 : Option Nat} {hw0 : Nat} {C : List edref}
    (H : periodic_tree s e P R here0 hw0) (hm : link_marks s t e C here0 hw0)
    (hC : ∀ c ∈ C, ∃ j ∈ periodic_slots s e, c = slot_cell P j) (i : Nat)
    (hi : i ∈ periodic_slots s e) (fuel : Nat) (hf : (P i).length + R.length < fuel) :
    ∃ t2, periodic_unlink_slot fuel t e i = some t2 ∧
      link_marks s t2 e (C.filter (fun c => decide (c ≠ slot_cell P i))) here0 hw0 ∧
      t2.load = upd t.load i (t.load i + -((s.eds e).load : Int)) ∧
      t2.bandwidth_allocated = t.bandwidth_allocated := by
  have hld : (t.eds e).load = (s.eds e).load := (ed_links_only_fields (hm.links e)).2.1
  have hce := periodic_tree_cell_ne H i hi
  by_cases hin : slot_cell P i ∈ C
  · have hst : (slot_cell P i).get t = some e := by
      rw [(hm.cells _ hce).1, if_pos hin]
    have hpath := periodic_tree_path_marks H hm hC i hi
    rw [hst] at hpath
    have hw := periodic_unlink_walk_run t e (some e) (P i) (.slot i) fuel hpath
      (fun x hx => (H.front_big i hi x hx).1) (Or.inr rfl) (by omega)
    obtain ⟨hn, hp⟩ := hm.self (List.ne_nil_of_mem hin)
    have hst2 : (lastcell (.slot i) (P i)).get t = some e := hst
    unfold periodic_unlink_slot
    rw [hw]
    dsimp only
    rw [hst2, hn, hp]
    simp only [Option.isSome, if_true]
    have hself : ((slot_cell P i).set ((slot_cell P i).set_p t hw0) here0).eds e = t.eds e := by
      rw [(edref_set_self _ here0 0 _ e hce).1, (edref_set_self t none hw0 _ e hce).2]
    refine ⟨_, rfl, ?_, ?_, ?_⟩
    · refine @link_marks_fields s ((slot_cell P i).set ((slot_cell P i).set_p t hw0) here0) e
        _ here0 hw0 ?_ _ rfl rfl rfl
      refine ⟨fun c2 hc2 => ?_, fun x => ?_, fun hne => ?_, fun h0 => ?_⟩
      · rw [edref_get_set, edref_get_p_set, edref_get_set_p, edref_get_p_set_p,
          (hm.cells c2 hc2).1, (hm.cells c2 hc2).2]
        by_cases h : c2 = slot_cell P i
        · have h3 : c2 ∉ C.filter (fun c => decide (c ≠ slot_cell P i)) := by
            intro hx
            have := (List.mem_filter.1 hx).2
            simp at this
            exact this h
          rw [if_pos h, if_pos h, if_neg h3, if_neg h3, h]
          exact ⟨(periodic_tree_cell_get H i hi).symm, (H.hw_point i hi).symm⟩
        · rw [if_neg h, if_neg h]
          by_cases h2 : c2 ∈ C
          · have h3 : c2 ∈ C.filter (fun c => decide (c ≠ slot_cell P i)) :=
              List.mem_filter.2 ⟨h2, by simpa using h⟩
            rw [if_pos h2, if_pos h2, if_pos h3, if_pos h3]
            exact ⟨rfl, rfl⟩
          · have h3 : c2 ∉ C.filter (fun c => decide (c ≠ slot_cell P i)) :=
              fun hx => h2 (List.mem_filter.1 hx).1
            rw [if_neg h2, if_neg h2, if_neg h3, if_neg h3]
            exact ⟨rfl, rfl⟩
      · exact links_set _ _ (links_set_p _ _ hm.links) x
      · rw [hself]
        exact ⟨hn, hp⟩
      · rw [hself]
        exact hm.self_hw h0
    · show upd ((slot_cell P i).set ((slot_cell P i).set_p t hw0) here0).load i
        (((slot_cell P i).set ((slot_cell P i).set_p t hw0) here0).load i +
          -((((slot_cell P i).set ((slot_cell P i).set_p t hw0) here0).eds e).load : Int)) = _
      rw [hself, hld, (edref_set_frame _ _ _).1, (edref_set_p_frame _ _ _).1]
    · exact edref_set_bandwidth t here0 hw0 _
  · have hpath := periodic_tree_path_clear H hm hC i hi hin
    have hne : ∀ x ∈ P i ++ R, x ≠ e := by
      intro x hx
      rcases List.mem_append.1 hx with h | h
      · exact (H.front_big i hi x h).1
      · intro he
        rw [he] at h
        exact H.tail_free h
    have hw := periodic_unlink_walk_run t e none (P i ++ R) (.slot i) fuel hpath hne
      (Or.inl rfl) (by rw [List.length_append]; exact hf)
    have hend := ed_path_lastcell t none (P i ++ R) (.slot i) hpath
    unfold periodic_unlink_slot
    rw [hw]
    dsimp only
    rw [hend]
    simp only [Option.isSome, Bool.false_eq_true, if_false]
    refine ⟨_, rfl, ?_, ?_, rfl⟩
    · refine link_marks_congr
        (link_marks_fields hm (add_load t i (-((t.eds e).load : Int))) rfl rfl rfl) _ (fun c => ?_)
      constructor
      · exact fun h => (List.mem_filter.1 h).1
      · intro h
        refine List.mem_filter.2 ⟨h, ?_⟩
        have : c ≠ slot_cell P i := fun hx => hin (hx ▸ h)
        simpa using this
    · show upd t.load i (t.load i + -((t.eds e).load : Int)) = _
      rw [hld]

/-- The loop of `periodic_unlink` in a tree in which the cells of the slots still to come
are marked, and no others: it ends, no mark remains, and each visit takes the load of the
ED from the slot. -/
theorem periodic_unlink_loop_marks {s : ohci_sched} {e : Nat} {P : Nat → List Nat}
    {R : List Nat} {here0 : Option Nat} {hw0 : Nat}
    (H : periodic_tree s e P R here0 hw0) (fuel : Nat)
    (hf : ∀ i ∈ periodic_slots s e, (P i).length + R.length < fuel) :
    ∀ (n : Nat) (t : ohci_sched) (i : Nat) (C : List edref),
      link_marks s t e C here0 hw0 →
      (∀ c ∈ C, ∃ j ∈ ed_slots (s.eds e).interval n i, c = slot_cell P j) →
      (∀ j ∈ ed_slots (s.eds e).interval n i, j ∈ periodic_slots s e) →
      NUM_INTS + 1 ≤ i + n → 1 ≤ n →
      ∃ t2, periodic_unlink_loop fuel e n t i = some t2 ∧
        link_marks s t2 e [] here0 hw0 ∧
        (∀ j, t2.load j = t.load j -
          ((s.eds e).load : Int) * ((ed_slots (s.eds e).interval n i).count j : Int)) ∧
        t2.bandwidth_allocated = t.bandwidth_allocated := by
  intro n
  induction n with
  | zero => intro _ _ _ _ _ _ _ h; exact absurd h (by decide)
  | succ n ih =>
    intro t i C hm hC hsl hn _
    have hN : NUM_INTS = 32 := rfl
    by_cases hlt : i < NUM_INTS
    · rw [ed_slots_cons _ _ _ hlt] at hsl hC
      have hi := hsl i (List.mem_cons_self _ _)
      obtain ⟨t3, h3, hm3, hl3, hb3⟩ := periodic_unlink_slot_marks H hm
        (fun c hc => (hC c hc).elim (fun j hj => ⟨j, hsl j hj.1, hj.2⟩)) i hi fuel (hf i hi)
      have hiv : (t3.eds e).interval = (s.eds e).interval :=
        (ed_links_only_fields (hm3.links e)).1
      have hpos := H.interval_pos
      have hC3 : ∀ c ∈ C.filter (fun c => decide (c ≠ slot_cell P i)),
          ∃ j ∈ ed_slots (s.eds e).interval n (i + (s.eds e).interval), c = slot_cell P j := by
        intro c hc
        obtain ⟨h1, h2⟩ := List.mem_filter.1 hc
        obtain ⟨j, hj, hj2⟩ := hC c h1
        rcases List.mem_cons.1 hj with h | h
        · rw [h] at hj2
          simp at h2
          exact absurd hj2 h2
        · exact ⟨j, h, hj2⟩
      obtain ⟨t4, h4, hm4, hl4, hb4⟩ :=
        ih t3 (i + (s.eds e).interval) _ hm3 hC3
          (fun j hj => hsl j (List.mem_cons_of_mem _ hj)) (by omega) (by omega)
      refine ⟨t4, ?_, hm4, ?_, hb4.trans hb3⟩
      · rw [periodic_unlink_loop, if_pos hlt, h3]
        dsimp only
        rw [hiv]
        exact h4
      · intro j
        rw [hl4 j, hl3, ed_slots_cons _ _ _ hlt, List.count_cons]
        by_cases hji : j = i
        · subst hji
          rw [upd_same]
          simp only [beq_self_eq_true, if_true]
          push_cast
          ring
        · rw [upd_other _ _ _ _ hji]
          have : (i == j) = false := by simpa using fun h : i = j => hji h.symm
          rw [this]
          simp
    · rw [ed_slots_end _ _ _ hlt] at hC
      have hnil : C = [] :=
        List.eq_nil_iff_forall_not_mem.2 (fun c hc => (hC c hc).elim
          (fun j hj => absurd hj.1 (List.not_mem_nil j)))
      rw [hnil] at hm
      refine ⟨t, ?_, hm, ?_, rfl⟩
      · rw [periodic_unlink_loop, if_neg hlt]
      · intro j
        rw [ed_slots_end _ _ _ hlt]
        simp

/-- C26. Linking a periodic ED and unlinking it again is a round trip.  In a periodic table
that is a tree at the ED (`periodic_tree`: interval at least 1, the ED on none of the
lists of its slots `branch, branch + interval, ...`, these lists ordered so that they
share the tail of the EDs with a smaller interval, the hardware words mirroring the
software links), with fuel for the longest list: `periodic_link` returns, and in its
result every slot of the ED leads to the ED; `periodic_unlink` on that result returns, and
in its result every `load[]` slot, `bandwidth_allocated`, every `periodic[i]`, every
`int_table[i]` and every other ED (with its links `ed_next` and `hwNextED`) are exactly
what they were before the link; of the ED itself only the two link fields may differ. -/
theorem periodic_link_unlink_round_trip (fuel : Nat) (s : ohci_sched) (e : Nat)
    (P : Nat → List Nat) (R : List Nat) (here0 : Option Nat) (hw0 : Nat)
    (H : periodic_tree s e P R here0 hw0)
    (hf : ∀ i ∈ periodic_slots s e, (P i).length + R.length < fuel) :
    ∃ s1, periodic_link fuel s e = some s1 ∧
      (∀ i ∈ periodic_slots s e, (slot_cell P i).get s1 = some e ∧
        (slot_cell P i).get_p s1 = (s.eds e).dma ∧
        s1.load i = s.load i + ((s.eds e).load : Int) * ((periodic_slots s e).count i : Int)) ∧
      ∃ s2, periodic_unlink fuel s1 e = some s2 ∧
        s2.load = s.load ∧ s2.bandwidth_allocated = s.bandwidth_allocated ∧
        s2.periodic = s.periodic ∧ s2.int_table = s.int_table ∧
        (∀ x, x ≠ e → s2.eds x = s.eds x) ∧ ed_links_only (s.eds e) (s2.eds e) := by
  obtain ⟨s1, C1, h1, hm1, hc1, hl1, hb1⟩ :=
    periodic_link_marks H fuel (fun i hi => by have := hf i hi; omega)
  obtain ⟨t2, h2, hm2, hl2, hb2⟩ :=
    periodic_unlink_loop_marks H fuel hf (NUM_INTS + 1) s1 (s.eds e).branch C1 hm1
      (fun c hc => (hc1 c).1 hc) (fun j hj => hj) (Nat.le_add_left _ _) (Nat.succ_pos _)
  have hbr : (s1.eds e).branch = (s.eds e).branch := (ed_links_only_fields (hm1.links e)).2.2.1
  have hiv : (t2.eds e).interval = (s.eds e).interval :=
    (ed_links_only_fields (hm2.links e)).1
  have hld : (t2.eds e).load = (s.eds e).load := (ed_links_only_fields (hm2.links e)).2.1
  refine ⟨s1, h1, fun i hi => ?_, add_bandwidth t2
    (-(((t2.eds e).load : Int) / ((t2.eds e).interval : Int))), ?_, ?_, ?_, ?_, ?_, ?_, ?_⟩
  · have hce := periodic_tree_cell_ne H i hi
    have hin : slot_cell P i ∈ C1 := (hc1 _).2 ⟨i, hi, rfl⟩
    have := hm1.cells _ hce
    rw [if_pos hin, if_pos hin] at this
    exact ⟨this.1, this.2, hl1 i⟩
  · unfold periodic_unlink
    rw [hbr, h2]
  · funext j
    show t2.load j = s.load j
    rw [hl2 j, hl1 j]
    exact Int.add_sub_cancel _ _
  · show t2.bandwidth_allocated + _ = _
    rw [hb2, hb1, hiv, hld]
    exact Int.add_neg_cancel_right _ _
  · funext i
    have := (hm2.cells (.slot i) (by intro h; cases h)).1
    rw [if_neg (List.not_mem_nil _)] at this
    exact this
  · funext i
    have := (hm2.cells (.slot i) (by intro h; cases h)).2
    rw [if_neg (List.not_mem_nil _)] at this
    exact this
  · intro x hx
    have := hm2.cells (.node x) (by intro h; injection h with h; exact hx h)
    rw [if_neg (List.not_mem_nil _), if_neg (List.not_mem_nil _)] at this
    exact ed_links_only_eq (hm2.links x) this.1 this.2
  · exact hm2.links e

theorem sched_tree_slots : periodic_slots sched_tree 3 = [0, 16] := by decide

/-- The table `sched_tree` is a tree at ED 3, with ED 1 in front of its place in slot 0 and
ED 2 behind it in both slots. -/
theorem sched_tree_ok :
    periodic_tree sched_tree 3 sched_tree_front [2] (some 2) 0x1040 := by
  refine ⟨by decide, ?_, ?_, ?_, ⟨rfl, rfl⟩, by decide, ?_, fun h => absurd h (by simp)⟩
  · intro i hi
    rw [sched_tree_slots] at hi
    rcases List.mem_cons.1 hi with h | h
    · subst h; exact ⟨rfl, rfl⟩
    · rw [List.mem_singleton.1 h]; exact rfl
  · intro i hi x hx
    rw [sched_tree_slots] at hi
    rcases List.mem_cons.1 hi with h | h
    · subst h
      rw [List.mem_singleton.1 hx]
      decide
    · rw [List.mem_singleton.1 h] at hx
      exact absurd hx (List.not_mem_nil x)
  · intro h hh
    rw [← Option.some.inj hh]
    decide
  · intro i hi
    rw [sched_tree_slots] at hi
    rcases List.mem_cons.1 hi with h | h
    · subst h; rfl
    · rw [List.mem_singleton.1 h]; rfl

/-- On `sched_tree`, ED 3 is linked into the slots 0 (behind ED 1) and 16 (first) and
unlinked again: the tables and the EDs 1 and 2 are back as they were. -/
theorem periodic_link_unlink_round_trip_witness :
    (periodic_tree sched_tree 3 sched_tree_front [2] (some 2) 0x1040 ∧
      ∀ i ∈ periodic_slots sched_tree 3, (sched_tree_front i).length + [2].length < 4) ∧
    (∃ s1, periodic_link 4 sched_tree 3 = some s1 ∧
      (∀ i ∈ periodic_slots sched_tree 3, (slot_cell sched_tree_front i).get s1 = some 3 ∧
        (slot_cell sched_tree_front i).get_p s1 = (sched_tree.eds 3).dma ∧
        s1.load i = sched_tree.load i +
          ((sched_tree.eds 3).load : Int) * ((periodic_slots sched_tree 3).count i : Int)) ∧
      ∃ s2, periodic_unlink 4 s1 3 = some s2 ∧
        s2.load = sched_tree.load ∧
        s2.bandwidth_allocated = sched_tree.bandwidth_allocated ∧
        s2.periodic = sched_tree.periodic ∧ s2.int_table = sched_tree.int_table ∧
        (∀ x, x ≠ 3 → s2.eds x = sched_tree.eds x) ∧
        ed_links_only (sched_tree.eds 3) (s2.eds 3)) ∧
    (periodic_link 4 sched_tree 3).map (fun r => (r.periodic 0, (r.eds 1).ed_next,
      (r.eds 1).hwNextED, r.periodic 16, r.int_table 16, (r.eds 3).ed_next,
      (r.eds 3).hwNextED, r.load 0, r.load 16, r.load 1, r.bandwidth_allocated))
      = some (some 1, some 3, 0x1060, some 3, 0x1060, some 2, 0x1040, 35, 25, 5, 6) :=
  ⟨⟨sched_tree_ok, by rw [sched_tree_slots]; decide⟩,
    periodic_link_unlink_round_trip 4 sched_tree 3 sched_tree_front [2] (some 2) 0x1040
      sched_tree_ok (by rw [sched_tree_slots]; decide),
    rfl⟩


/-- C26 (counterexample). The table `sched_odd` is what `periodic_link` makes of the empty
table and ED 1 (interval 2, branch 0).  ED 2 has the interval 3, `balance` chooses the
branch 1 for it, and it is linked nowhere.  After `periodic_link` and `periodic_unlink` of
ED 2 the list of slot 4 has lost ED 1 (`periodic[4]` is `NULL`), and `int_table[1]`, which
was 0, holds the bus address of ED 1; the load table and the bandwidth are restored. -/
theorem periodic_link_unlink_not_restored :
    ((periodic_link 2 sched_odd_empty 1).map (fun r =>
        ((List.range 32).map r.periodic, (List.range 32).map r.int_table,
          (List.range 32).map r.load, (r.eds 1).ed_next, (r.eds 1).hwNextED))
      = some ((List.range 32).map sched_odd.periodic, (List.range 32).map sched_odd.int_table,
          (List.range 32).map sched_odd.load, (sched_odd.eds 1).ed_next,
          (sched_odd.eds 1).hwNextED)) ∧
    ((sched_odd.eds 2).interval = 3 ∧ (sched_odd.eds 2).branch = 1 ∧
      balance sched_odd.load 3 20 = some 1) ∧
    ((∀ i, i < NUM_INTS → sched_odd.periodic i ≠ some 2) ∧
      (sched_odd.eds 1).ed_next = none) ∧
    (sched_odd.periodic 4 = some 1 ∧ sched_odd.int_table 1 = 0) ∧
    ((periodic_link 2 sched_odd 2).bind (fun s1 => periodic_unlink 2 s1 2)).map
      (fun r => (r.periodic 4, r.int_table 1, (List.range 32).map r.load,
        r.bandwidth_allocated))
      = some (none, 0x1020, (List.range 32).map sched_odd.load, 5) :=
  ⟨rfl, ⟨rfl, rfl, rfl⟩, ⟨by decide, rfl⟩, ⟨rfl, rfl⟩, rfl⟩

/-! ## The periodic table: the order of the slot lists -/

theorem interval_sorted_congr (s s1 : ohci_sched)
    (h : ∀ x, (s1.eds x).interval = (s.eds x).interval) (L : List Nat)
    (hs : interval_sorted s L) : interval_sorted s1 L := by
  unfold interval_sorted at hs ⊢
  refine hs.imp ?_
  intro a b hab
  rw [h, h]
  exact hab

theorem ed_path_head (s : ohci_sched) (a b : Option Nat) (L : List Nat) (h : Nat)
    (hp : ed_path s a L b) (hh : L.head? = some h) : a = some h := by
  cases L with
  | nil => simp at hh
  | cons x r =>
    have : x = h := by simpa using hh
    rw [← this]
    exact hp.1

/-- In a sorted list that starts with an ED of an interval below `k`, every ED has an
interval below `k`. -/
theorem interval_sorted_small (t : ohci_sched) (k : Nat) (B : List Nat)
    (hs : interval_sorted t B) (hh : ∀ h, B.head? = some h → (t.eds h).interval < k) :
    ∀ y ∈ B, (t.eds y).interval < k := by
  intro y hy
  cases B with
  | nil => exact absurd hy (List.not_mem_nil y)
  | cons h B2 =>
    have h1 := hh h rfl
    rcases List.mem_cons.1 hy with hx | hx
    · rw [hx]; exact h1
    · have := (List.pairwise_cons.1 hs).1 y hx
      omega

/-- The software side of the splice of `periodic_link`: the cell `prev` points at the ED,
the ED points at `here`, and no other software link changes. -/
theorem periodic_link_insert_sw (t : ohci_sched) (e : Nat) (c : edref) (m : Option Nat)
    (hce : c ≠ .node e) (hne : m ≠ some e) :
    (∀ c2, c2 ≠ .node e →
      c2.get (periodic_link_insert t e c m) = if c2 = c then some e else c2.get t) ∧
    ((periodic_link_insert t e c m).eds e).ed_next = m ∧
    ∀ x, ed_links_only (t.eds x) ((periodic_link_insert t e c m).eds x) := by
  unfold periodic_link_insert
  rw [if_pos (fun h => hne h.symm)]
  cases m with
  | none =>
    simp only [Option.isSome, Bool.false_eq_true, if_false]
    refine ⟨fun c2 hc2 => ?_, ?_, fun x => ?_⟩
    · rw [edref_get_set_p, edref_get_set, (edref_get_mod t e _ c2 hc2).1]
    · rw [(edref_set_self _ none _ c e hce).2, (edref_set_self _ (some e) 0 c e hce).1]
      simp [ohci_sched.mod_ed, upd_same]
    · exact links_set_p c _ (links_set c (some e)
        (links_mod_next e none (fun x => ed_links_only_refl (t.eds x)))) x
  | some h0 =>
    simp only [Option.isSome, if_true]
    refine ⟨fun c2 hc2 => ?_, ?_, fun x => ?_⟩
    · rw [edref_get_set_p, edref_get_set, (edref_get_mod _ e _ c2 hc2).1,
        (edref_get_mod t e _ c2 hc2).1]
    · rw [(edref_set_self _ none _ c e hce).2, (edref_set_self _ (some e) 0 c e hce).1]
      simp [ohci_sched.mod_ed, upd_same]
    · exact links_set_p c _ (links_set c (some e) (links_mod_hw e _
        (links_mod_next e (some h0) (fun x => ed_links_only_refl (t.eds x))))) x

/-- A list of the table read after a splice of `periodic_link` at the cell `c` in front of
the tail `T`: it is again a front of EDs with an interval not below that of the ED and a
rest, it is sorted, and its front has not grown. -/
theorem slot_splice (t t2 : ohci_sched) (e : Nat) (c : edref) (m : Option Nat) (T : List Nat)
    (hget : ∀ c2, c2 ≠ .node e → c2.get t2 = if c2 = c then some e else c2.get t)
    (hself : (t2.eds e).ed_next = m)
    (hT : ed_path t2 m T none) (hTs : interval_sorted t T)
    (hTk : ∀ y ∈ T, (t.eds y).interval < (t.eds e).interval)
    (hck : ∀ x, c = .node x → (t.eds e).interval ≤ (t.eds x).interval) :
    ∀ (A B : List Nat) (c0 : edref), c0 ≠ .node e →
      ed_path t (c0.get t) (A ++ B) none → interval_sorted t (A ++ B) →
      (∀ a ∈ A, a ≠ e ∧ (t.eds e).interval ≤ (t.eds a).interval) →
      (∀ h, B.head? = some h → h = e ∨ (t.eds h).interval < (t.eds e).interval) →
      ∃ A2 B2, ed_path t2 (c0.get t2) (A2 ++ B2) none ∧ interval_sorted t (A2 ++ B2) ∧
        (∀ a ∈ A2, a ≠ e ∧ (t.eds e).interval ≤ (t.eds a).interval) ∧
        (∀ h, B2.head? = some h → h = e ∨ (t.eds h).interval < (t.eds e).interval) ∧
        A2.length ≤ A.length ∧
        ∀ y ∈ A2 ++ B2, y ∈ A ++ B ∨ (t.eds y).interval ≤ (t.eds e).interval := by
  have hTsort : interval_sorted t (e :: T) :=
    List.pairwise_cons.2 ⟨fun y hy => Nat.le_of_lt (hTk y hy), hTs⟩
  have hTmem : ∀ y ∈ e :: T, (t.eds y).interval ≤ (t.eds e).interval := by
    intro y hy
    rcases List.mem_cons.1 hy with h | h
    · rw [h]
    · exact Nat.le_of_lt (hTk y h)
  -- the list behind a cell that points at the ED
  have hmark : ∀ (A B : List Nat) (c0 : edref), c0.get t2 = some e →
      ∃ A2 B2, ed_path t2 (c0.get t2) (A2 ++ B2) none ∧ interval_sorted t (A2 ++ B2) ∧
        (∀ a ∈ A2, a ≠ e ∧ (t.eds e).interval ≤ (t.eds a).interval) ∧
        (∀ h, B2.head? = some h → h = e ∨ (t.eds h).interval < (t.eds e).interval) ∧
        A2.length ≤ A.length ∧
        ∀ y ∈ A2 ++ B2, y ∈ A ++ B ∨ (t.eds y).interval ≤ (t.eds e).interval := by
    intro A B c0 hg
    refine ⟨[], e :: T, ⟨hg, ?_⟩, hTsort, fun a ha => absurd ha (List.not_mem_nil a),
      fun h hh => Or.inl (by simpa using hh.symm), Nat.zero_le _, fun y hy => Or.inr (hTmem y hy)⟩
    rw [hself]
    exact hT
  intro A
  induction A with
  | nil =>
    intro B c0 hc0 hp hs _ hB
    by_cases hcc : c0 = c
    · exact hmark [] B c0 (by rw [hget c0 hc0, if_pos hcc])
    · have hg : c0.get t2 = c0.get t := by rw [hget c0 hc0, if_neg hcc]
      cases B with
      | nil =>
        refine ⟨[], [], ?_, hs, fun a ha => absurd ha (List.not_mem_nil a),
          fun h hh => absurd hh (by simp), Nat.le_refl _, fun y hy => Or.inl hy⟩
        show c0.get t2 = none
        rw [hg]
        exact hp
      | cons h B2 =>
        rcases hB h rfl with he | hsm
        · refine hmark [] (h :: B2) c0 ?_
          rw [hg, ← he]
          exact hp.1
        · have hall := interval_sorted_small t _ (h :: B2) hs
            (fun h2 hh => by
              have : h = h2 := by simpa using hh
              rw [← this]; exact hsm)
          refine ⟨[], h :: B2, ?_, hs, fun a ha => absurd ha (List.not_mem_nil a), hB,
            Nat.le_refl _, fun y hy => Or.inl hy⟩
          rw [hg]
          refine ed_path_congr t t2 _ _ _ (fun y hy => ?_) hp
          have hy1 := hall y hy
          have hye : y ≠ e := by
            intro h3
            rw [h3] at hy1
            exact Nat.lt_irrefl _ hy1
          have := hget (.node y) (by intro h3; injection h3 with h3; exact hye h3)
          rw [if_neg] at this
          · exact this
          · intro h3
            have := hck y h3.symm
            omega
  | cons x A1 ih =>
    intro B c0 hc0 hp hs hA hB
    by_cases hcc : c0 = c
    · exact hmark (x :: A1) B c0 (by rw [hget c0 hc0, if_pos hcc])
    · have hg : c0.get t2 = c0.get t := by rw [hget c0 hc0, if_neg hcc]
      obtain ⟨hx1, hx2⟩ := hA x (List.mem_cons_self _ _)
      have hs2 := List.pairwise_cons.1 hs
      obtain ⟨A2, B2, q1, q2, q3, q4, q5, q6⟩ := ih B (.node x)
        (by intro h3; injection h3 with h3; exact hx1 h3) hp.2 hs2.2
        (fun a ha => hA a (List.mem_cons_of_mem _ ha)) hB
      refine ⟨x :: A2, B2, ⟨by rw [hg]; exact hp.1, q1⟩, ?_, ?_, q4, ?_, ?_⟩
      · refine List.pairwise_cons.2 ⟨fun y hy => ?_, q2⟩
        rcases q6 y hy with h | h
        · exact hs2.1 y h
        · omega
      · intro a ha
        rcases List.mem_cons.1 ha with h | h
        · rw [h]; exact ⟨hx1, hx2⟩
        · exact q3 a h
      · simp only [List.length_cons]
        omega
      · intro y hy
        rcases List.mem_cons.1 hy with h | h
        · exact Or.inl (by rw [h]; exact List.mem_cons_self _ _)
        · rcases q6 y h with h2 | h2
          · exact Or.inl (List.mem_cons_of_mem _ h2)
          · exact Or.inr h2

theorem slot_ready_fields (t t2 : ohci_sched) (e fuel i : Nat) (h1 : t2.eds = t.eds)
    (h2 : t2.periodic = t.periodic) (h : slot_ready t e fuel i) : slot_ready t2 e fuel i := by
  obtain ⟨A, B, a1, a2, a3, a4, a5⟩ := h
  refine ⟨A, B, ?_, ?_, ?_, ?_, a5⟩
  · rw [h2]
    exact ed_path_congr t t2 _ _ _ (fun x _ => by rw [h1]) a1
  · exact interval_sorted_congr t t2 (fun x => by rw [h1]) _ a2
  · rw [h1]; exact a3
  · rw [h1]; exact a4

/-- One pass of the loop body of `periodic_link` over tables whose lists are sorted: it
returns, and the lists are sorted again. -/
theorem periodic_link_slot_ready (fuel : Nat) (t : ohci_sched) (e b : Nat)
    (hall : ∀ i, i < NUM_INTS → slot_ready t e fuel i) (hb : b < NUM_INTS) :
    ∃ t2, periodic_link_slot fuel t e b = some t2 ∧
      (∀ x, ed_links_only (t.eds x) (t2.eds x)) ∧
      ∀ i, i < NUM_INTS → slot_ready t2 e fuel i := by
  obtain ⟨A, B, hp, hs, hA, hB, hlen⟩ := hall b hb
  obtain ⟨m, hpA, hpB⟩ := (ed_path_append t A B _ _).1 hp
  have hhead : ∀ h, B.head? = some h → m = some h :=
    fun h hh => ed_path_head t m none B h hpB hh
  have hstop : m = none ∨ m = some e ∨
      ∃ h, m = some h ∧ (t.eds h).interval < (t.eds e).interval := by
    cases B with
    | nil => exact Or.inl hpB
    | cons h B2 =>
      rcases hB h rfl with he | hsm
      · exact Or.inr (Or.inl (by rw [hhead h rfl, he]))
      · exact Or.inr (Or.inr ⟨h, hhead h rfl, hsm⟩)
  have hw := periodic_link_walk_run t e m A (.slot b) (t.periodic b) fuel hpA hA hstop hlen
  unfold periodic_link_slot
  rw [hw]
  dsimp only
  by_cases hme : m = some e
  · have hid : periodic_link_insert t e (lastcell (.slot b) A) m = t := by
      unfold periodic_link_insert
      rw [if_neg (by rw [hme]; simp)]
    rw [hid]
    exact ⟨_, rfl, fun x => ed_links_only_refl _,
      fun i hi => slot_ready_fields t _ e fuel i rfl rfl (hall i hi)⟩
  · have hce : lastcell (.slot b) A ≠ .node e := by
      intro h
      have := lastcell_node (.slot b) A e h (by intro h2; cases h2)
      exact (hA e (List.mem_of_mem_getLast? (Option.mem_def.mpr this))).1 rfl
    obtain ⟨hget, hself, hlinks⟩ := periodic_link_insert_sw t e (lastcell (.slot b) A) m hce hme
    have hiv : ∀ x, ((periodic_link_insert t e (lastcell (.slot b) A) m).eds x).interval
        = (t.eds x).interval := fun x => (ed_links_only_fields (hlinks x)).1
    have hBs : interval_sorted t B := (List.pairwise_append.1 hs).2.1
    have hBk : ∀ y ∈ B, (t.eds y).interval < (t.eds e).interval := by
      refine interval_sorted_small t _ B hBs (fun h hh => ?_)
      rcases hB h hh with he | hsm
      · exact absurd (by rw [hhead h hh, he]) hme
      · exact hsm
    have hck : ∀ x, lastcell (.slot b) A = .node x →
        (t.eds e).interval ≤ (t.eds x).interval := by
      intro x hx
      have := lastcell_node (.slot b) A x hx (by intro h2; cases h2)
      exact (hA x (List.mem_of_mem_getLast? (Option.mem_def.mpr this))).2
    have hT : ed_path (periodic_link_insert t e (lastcell (.slot b) A) m) m B none := by
      refine ed_path_congr t _ _ _ _ (fun y hy => ?_) hpB
      have hy1 := hBk y hy
      have hye : y ≠ e := by
        intro h3
        rw [h3] at hy1
        exact Nat.lt_irrefl _ hy1
      have := hget (.node y) (by intro h3; injection h3 with h3; exact hye h3)
      rw [if_neg] at this
      · exact this
      · intro h3
        have := hck y h3.symm
        omega
    refine ⟨_, rfl, hlinks, fun i hi => ?_⟩
    obtain ⟨Ai, Bi, a1, a2, a3, a4, a5⟩ := hall i hi
    obtain ⟨A2, B2, q1, q2, q3, q4, q5, _⟩ :=
      slot_splice t _ e (lastcell (.slot b) A) m B hget hself hT hBs hBk hck Ai Bi (.slot i)
        (by intro h; cases h) a1 a2 a3 a4
    refine slot_ready_fields (periodic_link_insert t e (lastcell (.slot b) A) m) _ e fuel i
      rfl rfl ⟨A2, B2, q1, interval_sorted_congr t _ hiv _ q2, ?_, ?_, by omega⟩
    · intro a ha
      rw [hiv, hiv]
      exact q3 a ha
    · intro h hh
      rw [hiv, hiv]
      exact q4 h hh

/-- The loop of `periodic_link` over tables whose lists are sorted: it ends, and the lists
are sorted again. -/
theorem periodic_link_loop_ready (fuel e : Nat) :
    ∀ (n : Nat) (t : ohci_sched) (i : Nat),
      0 < (t.eds e).interval → (∀ j, j < NUM_INTS → slot_ready t e fuel j) →
      NUM_INTS + 1 ≤ i + n → 1 ≤ n →
      ∃ t2, periodic_link_loop fuel e n t i = some t2 ∧
        (∀ x, ed_links_only (t.eds x) (t2.eds x)) ∧
        ∀ j, j < NUM_INTS → slot_ready t2 e fuel j := by
  intro n
  induction n with
  | zero => intro _ _ _ _ _ h; exact absurd h (by decide)
  | succ n ih =>
    intro t i hpos hall hn _
    have hN : NUM_INTS = 32 := rfl
    by_cases hlt : i < NUM_INTS
    · obtain ⟨t2, h2, hl2, hr2⟩ := periodic_link_slot_ready fuel t e i hall hlt
      have hiv : (t2.eds e).interval = (t.eds e).interval := (ed_links_only_fields (hl2 e)).1
      obtain ⟨t3, h3, hl3, hr3⟩ := ih t2 (i + (t2.eds e).interval) (by rw [hiv]; exact hpos) hr2
        (by rw [hiv]; omega) (by omega)
      refine ⟨t3, ?_, fun x => ed_links_only_trans (hl2 x) (hl3 x), hr3⟩
      rw [periodic_link_loop, if_pos hlt, h2]
      exact h3
    · refine ⟨t, ?_, fun x => ed_links_only_refl _, hall⟩
      rw [periodic_link_loop, if_neg hlt]

/-- Every list splits into the front that the walk of `periodic_link` passes and the
rest. -/
theorem front_split (t : ohci_sched) (e : Nat) :
    ∀ L : List Nat, ∃ A B, L = A ++ B ∧
      (∀ a ∈ A, a ≠ e ∧ (t.eds e).interval ≤ (t.eds a).interval) ∧
      (∀ h, B.head? = some h → h = e ∨ (t.eds h).interval < (t.eds e).interval) := by
  intro L
  induction L with
  | nil => exact ⟨[], [], rfl, fun a ha => absurd ha (List.not_mem_nil a),
      fun h hh => absurd hh (by simp)⟩
  | cons x rest ih =>
    by_cases hx : x ≠ e ∧ (t.eds e).interval ≤ (t.eds x).interval
    · obtain ⟨A, B, h1, h2, h3⟩ := ih
      refine ⟨x :: A, B, by rw [h1]; rfl, ?_, h3⟩
      intro a ha
      rcases List.mem_cons.1 ha with h | h
      · rw [h]; exact hx
      · exact h2 a h
    · refine ⟨[], x :: rest, rfl, fun a ha => absurd ha (List.not_mem_nil a), ?_⟩
      intro h hh
      have : x = h := by simpa using hh
      rw [← this]
      by_cases he : x = e
      · exact Or.inl he
      · right
        have := fun h2 => hx ⟨he, h2⟩
        omega

/-- `periodic_link` on a table whose lists are sorted: it returns, and every list is
sorted again. -/
theorem periodic_link_keeps_sorted (fuel : Nat) (s : ohci_sched) (e : Nat)
    (hpos : 0 < (s.eds e).interval)
    (hall : ∀ i, i < NUM_INTS → ∃ L, ed_path s (s.periodic i) L none ∧
      interval_sorted s L ∧ L.length < fuel) :
    ∃ s1, periodic_link fuel s e = some s1 ∧
      (∀ x, (s1.eds x).interval = (s.eds x).interval) ∧
      ∀ i, i < NUM_INTS → ∃ L2, ed_path s1 (s1.periodic i) L2 none ∧
        interval_sorted s1 L2 := by
  have hready : ∀ i, i < NUM_INTS → slot_ready s e fuel i := by
    intro i hi
    obtain ⟨L, h1, h2, h3⟩ := hall i hi
    obtain ⟨A, B, hL, hA, hB⟩ := front_split s e L
    rw [hL] at h1 h2 h3
    refine ⟨A, B, h1, h2, hA, hB, ?_⟩
    rw [List.length_append] at h3
    omega
  obtain ⟨t2, h2, hl2, hr2⟩ := periodic_link_loop_ready fuel e (NUM_INTS + 1) s
    (s.eds e).branch hpos hready (Nat.le_add_left _ _) (Nat.succ_pos _)
  refine ⟨add_bandwidth t2 (((t2.eds e).load : Int) / ((t2.eds e).interval : Int)), ?_,
    fun x => (ed_links_only_fields (hl2 x)).1, fun i hi => ?_⟩
  · unfold periodic_link
    rw [h2]
  · obtain ⟨A, B, a1, a2, _, _, _⟩ := hr2 i hi
    exact ⟨A ++ B, ed_path_congr t2 _ _ _ _ (fun x _ => rfl) a1,
      interval_sorted_congr t2 _ (fun x => rfl) _ a2⟩

/-- The tail of the tree read after the link: it has not changed. -/
theorem periodic_tree_tail_marks {s s1 : ohci_sched} {e : Nat} {P : Nat → List Nat}
    {R : List Nat} {here0 : Option Nat} {hw0 : Nat} {C : List edref}
    (H : periodic_tree s e P R here0 hw0) (hm : link_marks s s1 e C here0 hw0)
    (hC : ∀ c ∈ C, ∃ j ∈ periodic_slots s e, c = slot_cell P j) :
    ed_path s1 here0 R none := by
  refine ed_path_congr s s1 _ _ _ (fun x hx => ?_) H.tail_path
  have hxe : x ≠ e := by
    intro he
    rw [he] at hx
    exact H.tail_free hx
  have := (hm.cells (.node x) (by intro h; injection h with h; exact hxe h)).1
  rw [if_neg] at this
  · exact this
  · intro hin
    obtain ⟨j, hj, hj2⟩ := hC _ hin
    exact periodic_tree_tail H j hj x hx hj2.symm

/-- A slot of `periodic_link` whose sorted list holds the ED already: the walk stops at
the ED, and nothing but the load of the slot changes. -/
theorem periodic_link_slot_present (fuel : Nat) (t : ohci_sched) (e i : Nat) (L : List Nat)
    (hp : ed_path t (t.periodic i) L none) (hs : interval_sorted t L) (he : e ∈ L)
    (hf : L.length < fuel) :
    periodic_link_slot fuel t e i = some (add_load t i ((t.eds e).load : Int)) := by
  obtain ⟨A, B, hL⟩ := List.append_of_mem he
  rw [hL] at hp hs hf
  have hnd := ed_path_nodup t _ _ hp
  obtain ⟨b, hp1, hp2⟩ := (ed_path_append t A (e :: B) _ _).1 hp
  have hb : b = some e := hp2.1
  rw [hb] at hp1
  have hbig : ∀ x ∈ A, x ≠ e ∧ (t.eds e).interval ≤ (t.eds x).interval := by
    intro x hx
    constructor
    · intro h
      rw [h] at hx
      exact (List.nodup_append.1 hnd).2.2 hx (List.mem_cons_self _ _)
    · exact (List.pairwise_append.1 hs).2.2 x hx e (List.mem_cons_self _ _)
  have hw := periodic_link_walk_run t e (some e) A (.slot i) (t.periodic i) fuel hp1 hbig
    (Or.inr (Or.inl rfl)) (by rw [List.length_append] at hf; omega)
  unfold periodic_link_slot
  rw [hw]
  dsimp only
  have hid : periodic_link_insert t e (lastcell (.slot i) A) (some e) = t := by
    unfold periodic_link_insert
    rw [if_neg (by simp)]
  rw [hid]

/-- `periodic_link` in a tree: it returns, and the list of each slot of the ED is the
chain `P i`, the ED, the tail `R`. -/
theorem periodic_link_tree_lists {s : ohci_sched} {e : Nat} {P : Nat → List Nat}
    {R : List Nat} {here0 : Option Nat} {hw0 : Nat}
    (H : periodic_tree s e P R here0 hw0) (fuel : Nat)
    (hf : ∀ i ∈ periodic_slots s e, (P i).length < fuel) :
    ∃ s1, periodic_link fuel s e = some s1 ∧
      ∀ i ∈ periodic_slots s e, ed_path s1 (s1.periodic i) (P i ++ e :: R) none := by
  obtain ⟨s1, C1, h1, hm1, hc1, _, _⟩ := periodic_link_marks H fuel hf
  have hC : ∀ c ∈ C1, ∃ j ∈ periodic_slots s e, c = slot_cell P j := fun c hc => (hc1 c).1 hc
  refine ⟨s1, h1, fun i hi => ?_⟩
  have hin : slot_cell P i ∈ C1 := (hc1 _).2 ⟨i, hi, rfl⟩
  have hp := periodic_tree_path_marks H hm1 hC i hi
  rw [(hm1.cells _ (periodic_tree_cell_ne H i hi)).1, if_pos hin] at hp
  refine (ed_path_append s1 (P i) (e :: R) _ _).2 ⟨some e, hp, rfl, ?_⟩
  rw [(hm1.self (List.ne_nil_of_mem hin)).1]
  exact periodic_tree_tail_marks H hm1 hC

theorem edref_get_hw_clear (s : ohci_sched) (c : edref) : c.get (hw_clear s) = c.get s := by
  cases c <;> rfl

/-- With the hardware words cleared, a table with shared tails is a tree. -/
theorem periodic_shared_tree {s : ohci_sched} {e : Nat} {P : Nat → List Nat}
    {R : List Nat} {here0 : Option Nat} (H : periodic_shared s e P R here0) :
    periodic_tree (hw_clear s) e P R here0 0 := by
  refine ⟨H.interval_pos, fun i hi => ?_, fun i hi => H.front_big i hi, H.tail_small,
    ?_, H.tail_free, fun i _ => ?_, fun _ => rfl⟩
  · exact ed_path_congr s (hw_clear s) _ _ _ (fun x _ => rfl) (H.front_path i hi)
  · exact ed_path_congr s (hw_clear s) _ _ _ (fun x _ => rfl) H.tail_path
  · unfold lastcell
    cases (P i).getLast? <;> rfl

/-- The walk of `periodic_link` reads software links and intervals only. -/
theorem periodic_link_walk_congr (s s2 : ohci_sched) (e : Nat)
    (hg : ∀ c : edref, c.get s2 = c.get s)
    (hi : ∀ x, (s2.eds x).interval = (s.eds x).interval) :
    ∀ (fuel : Nat) (prev : edref) (here : Option Nat),
      periodic_link_walk s2 e fuel prev here = periodic_link_walk s e fuel prev here := by
  intro fuel
  induction fuel with
  | zero => intro _ _; rfl
  | succ n ih =>
    intro prev here
    cases here with
    | none => rfl
    | some h =>
      simp only [periodic_link_walk]
      have hn : (s2.eds h).ed_next = (s.eds h).ed_next := hg (.node h)
      rw [hi e, hi h, hn, ih]

/-- The software links after the splice of `periodic_link` depend on the software links
before it only. -/
theorem periodic_link_insert_congr (s s2 : ohci_sched) (e : Nat) (c : edref) (m : Option Nat)
    (hg : ∀ c2 : edref, c2.get s2 = c2.get s) :
    ∀ c2 : edref, c2.get (periodic_link_insert s2 e c m) = c2.get (periodic_link_insert s e c m) := by
  intro c2
  unfold periodic_link_insert
  by_cases hne : some e ≠ m
  · rw [if_pos hne, if_pos hne]
    cases m with
    | none =>
      simp only [Option.isSome, Bool.false_eq_true, if_false]
      show c2.get (c.set_p (c.set ((edref.node e).set s2 none) (some e)) _)
        = c2.get (c.set_p (c.set ((edref.node e).set s none) (some e)) _)
      rw [edref_get_set_p, edref_get_set_p, edref_get_set, edref_get_set, edref_get_set,
        edref_get_set, hg]
    | some h0 =>
      simp only [Option.isSome, if_true]
      show c2.get (c.set_p (c.set ((edref.node e).set_p ((edref.node e).set s2 (some h0)) _)
          (some e)) _)
        = c2.get (c.set_p (c.set ((edref.node e).set_p ((edref.node e).set s (some h0)) _)
          (some e)) _)
      rw [edref_get_set_p, edref_get_set_p, edref_get_set, edref_get_set, edref_get_set_p,
        edref_get_set_p, edref_get_set, edref_get_set, hg]
  · rw [if_neg hne, if_neg hne]
    exact hg c2

theorem periodic_link_slot_congr (fuel : Nat) (s s2 : ohci_sched) (e i : Nat)
    (hg : ∀ c : edref, c.get s2 = c.get s)
    (hi : ∀ x, (s2.eds x).interval = (s.eds x).interval) (t : ohci_sched)
    (h : periodic_link_slot fuel s e i = some t) :
    ∃ t2, periodic_link_slot fuel s2 e i = some t2 ∧ (∀ c : edref, c.get t2 = c.get t) ∧
      ∀ x, (t2.eds x).interval = (t.eds x).interval := by
  have h0 : s2.periodic i = s.periodic i := hg (.slot i)
  unfold periodic_link_slot at h ⊢
  rw [h0, periodic_link_walk_congr s s2 e hg hi]
  cases hw : periodic_link_walk s e fuel (edref.slot i) (s.periodic i) with
  | none => rw [hw] at h; exact absurd h (by simp)
  | some r =>
    obtain ⟨prev, here⟩ := r
    rw [hw] at h
    dsimp only at h ⊢
    refine ⟨_, rfl, fun c => ?_, fun x => ?_⟩
    · rw [← Option.some.inj h]
      have := periodic_link_insert_congr s s2 e prev here hg c
      cases c with
      | slot j => exact this
      | node y => exact this
    · rw [← Option.some.inj h]
      show ((periodic_link_insert s2 e prev here).eds x).interval
        = ((periodic_link_insert s e prev here).eds x).interval
      rw [((periodic_link_insert_frame s2 e prev here).2 x).2,
        ((periodic_link_insert_frame s e prev here).2 x).2, hi]

theorem periodic_link_loop_congr (fuel e : Nat) :
    ∀ (n : Nat) (s s2 : ohci_sched) (i : Nat) (t : ohci_sched),
      (∀ c : edref, c.get s2 = c.get s) →
      (∀ x, (s2.eds x).interval = (s.eds x).interval) →
      periodic_link_loop fuel e n s i = some t →
      ∃ t2, periodic_link_loop fuel e n s2 i = some t2 ∧ (∀ c : edref, c.get t2 = c.get t) ∧
        ∀ x, (t2.eds x).interval = (t.eds x).interval := by
  intro n
  induction n with
  | zero => intro s s2 i t _ _ h; simp [periodic_link_loop] at h
  | succ n ih =>
    intro s s2 i t hg hi h
    rw [periodic_link_loop] at h ⊢
    by_cases hlt : i < NUM_INTS
    · rw [if_pos hlt] at h ⊢
      cases hs : periodic_link_slot fuel s e i with
      | none => rw [hs] at h; exact absurd h (by simp)
      | some o1 =>
        rw [hs] at h
        obtain ⟨o2, h2, hg2, hi2⟩ := periodic_link_slot_congr fuel s s2 e i hg hi o1 hs
        rw [h2]
        dsimp only at h ⊢
        rw [hi2 e]
        exact ih o1 o2 _ t hg2 hi2 h
    · rw [if_neg hlt] at h ⊢
      rw [← Option.some.inj h]
      exact ⟨s2, rfl, hg, hi⟩

/-- `periodic_link` in a table with shared tails, whatever the hardware words are: it
returns, and the list of each slot of the ED is the chain `P i`, the ED, the tail `R`. -/
theorem periodic_link_shared_lists {s : ohci_sched} {e : Nat} {P : Nat → List Nat}
    {R : List Nat} {here0 : Option Nat} (H : periodic_shared s e P R here0) (fuel : Nat)
    (hf : ∀ i ∈ periodic_slots s e, (P i).length < fuel) :
    ∃ s1, periodic_link fuel s e = some s1 ∧
      (∀ x, (s1.eds x).interval = (s.eds x).interval) ∧
      ∀ i ∈ periodic_slots s e, ed_path s1 (s1.periodic i) (P i ++ e :: R) none := by
  obtain ⟨s1, h1, hl1⟩ := periodic_link_tree_lists (periodic_shared_tree H) fuel hf
  unfold periodic_link at h1
  cases hloop : periodic_link_loop fuel e (NUM_INTS + 1) (hw_clear s) ((hw_clear s).eds e).branch with
  | none => rw [hloop] at h1; exact absurd h1 (by simp)
  | some o1 =>
    rw [hloop] at h1
    obtain ⟨o2, h2, hg2, hi2⟩ := periodic_link_loop_congr fuel e _ (hw_clear s) s _ o1
      (fun c => (edref_get_hw_clear s c).symm) (fun x => rfl) hloop
    have hb : ((hw_clear s).eds e).branch = (s.eds e).branch := rfl
    rw [hb] at h2
    have hiv : ∀ x, (o2.eds x).interval = (s.eds x).interval := by
      intro x
      rw [hi2 x]
      exact ((periodic_link_loop_load fuel e _ _ H.interval_pos _ (hw_clear s) _ o1 hloop
        rfl rfl).1 x).2
    refine ⟨add_bandwidth o2 (((o2.eds e).load : Int) / ((o2.eds e).interval : Int)), ?_, hiv,
      fun i hi => ?_⟩
    · unfold periodic_link
      rw [h2]
    · have hp := hl1 i hi
      rw [← Option.some.inj h1] at hp
      have h0 : o2.periodic i = o1.periodic i := hg2 (.slot i)
      show ed_path _ (o2.periodic i) _ none
      rw [h0]
      exact ed_path_congr o1 _ _ _ _ (fun x _ => hg2 (.node x))
        (ed_path_congr (add_bandwidth o1 (((o1.eds e).load : Int) / ((o1.eds e).interval : Int)))
          o1 _ _ _ (fun x _ => rfl) hp)

theorem periodic_tree_shared {s : ohci_sched} {e : Nat} {P : Nat → List Nat}
    {R : List Nat} {here0 : Option Nat} {hw0 : Nat} (H : periodic_tree s e P R here0 hw0) :
    periodic_shared s e P R here0 :=
  ⟨H.interval_pos, H.front_path, H.front_big, H.tail_small, H.tail_path, H.tail_free⟩

/-- C27 (counterexample). Every list of `sched_odd` is sorted (`[1]` in the even slots, empty
in the odd ones) and ED 2 (interval 3, branch 1) is on none of them.  In slot 4 the list is
`[1]`, and ED 1 has the smaller interval 2, so that ED 2 belongs in front of it; but after
`periodic_link` the list of slot 4 is `[2]` alone (`periodic[4]` is ED 2, whose `ed_next`
is `NULL`): ED 1 is not behind the new ED, it is off the list. -/
theorem periodic_link_drops_entry :
    (∀ i, i < NUM_INTS → ∃ L, ed_path sched_odd (sched_odd.periodic i) L none ∧
      interval_sorted sched_odd L ∧ 2 ∉ L) ∧
    ((sched_odd.eds 2).interval = 3 ∧ (sched_odd.eds 2).branch = 1 ∧
      (sched_odd.eds 1).interval = 2) ∧
    ed_path sched_odd (sched_odd.periodic 4) [1] none ∧
    (periodic_link 2 sched_odd 2).map (fun r => (r.periodic 4, (r.eds 2).ed_next,
      (r.eds 1).ed_next)) = some (some 2, none, none) := by
  refine ⟨fun i _ => ?_, ⟨rfl, rfl, rfl⟩, ⟨rfl, rfl⟩, rfl⟩
  by_cases h : i % 2 = 0
  · refine ⟨[1], ⟨?_, rfl⟩, List.pairwise_singleton _ _, by decide⟩
    show (if i % 2 = 0 then some 1 else none) = some 1
    rw [if_pos h]
  · refine ⟨[], ?_, List.Pairwise.nil, by simp⟩
    show (if i % 2 = 0 then some 1 else none) = none
    rw [if_neg h]

/-- C27. `periodic_link` and the order of the slot lists, for an ED with an interval of at
least 1 and fuel for the longest list.  First: if every list `periodic[i]` ends and is
sorted by non-increasing interval, `periodic_link` returns, changes no interval, and every
list ends and is sorted afterwards.  Second: if the lists of the slots
`branch + k * interval` of the ED share their tail (`periodic_shared`: in slot `i` the
entries `P i` with an interval not below that of the ED come first, then the common tail
`R`, whose first entry has a strictly smaller interval, and the ED is on none of these
lists), then afterwards the list of each such slot is `P i`, the ED, `R`: the ED stands
behind all entries with an equal or larger interval and immediately before the first
entry with a strictly smaller one.  Third: in a slot whose sorted list holds the ED
already, the body of the loop inserts nothing, it only adds the load. -/
theorem periodic_link_sorted (fuel : Nat) (s : ohci_sched) (e : Nat) :
    (0 < (s.eds e).interval →
      (∀ i, i < NUM_INTS → ∃ L, ed_path s (s.periodic i) L none ∧ interval_sorted s L ∧
        L.length < fuel) →
      ∃ s1, periodic_link fuel s e = some s1 ∧
        (∀ x, (s1.eds x).interval = (s.eds x).interval) ∧
        ∀ i, i < NUM_INTS → ∃ L2, ed_path s1 (s1.periodic i) L2 none ∧
          interval_sorted s1 L2) ∧
    (∀ P R here0, periodic_shared s e P R here0 →
      (∀ i ∈ periodic_slots s e, (P i).length < fuel) →
      ∃ s1, periodic_link fuel s e = some s1 ∧
        ∀ i ∈ periodic_slots s e,
          ed_path s (s.periodic i) (P i ++ R) none ∧
          ed_path s1 (s1.periodic i) (P i ++ e :: R) none ∧
          (∀ x ∈ P i, (s1.eds e).interval ≤ (s1.eds x).interval) ∧
          (∀ h, R.head? = some h → (s1.eds h).interval < (s1.eds e).interval)) ∧
    (∀ i L, ed_path s (s.periodic i) L none → interval_sorted s L → e ∈ L →
      L.length < fuel →
      periodic_link_slot fuel s e i = some (add_load s i ((s.eds e).load : Int))) := by
  refine ⟨fun hpos hall => periodic_link_keeps_sorted fuel s e hpos hall,
    fun P R here0 H hf => ?_,
    fun i L hp hs he hf => periodic_link_slot_present fuel s e i L hp hs he hf⟩
  obtain ⟨s1, h1, hiv, hl⟩ := periodic_link_shared_lists H fuel hf
  refine ⟨s1, h1, fun i hi => ⟨?_, hl i hi, fun x hx => ?_, fun h hh => ?_⟩⟩
  · exact (ed_path_append s (P i) R _ _).2 ⟨here0, H.front_path i hi, H.tail_path⟩
  · rw [hiv, hiv]
    exact (H.front_big i hi x hx).2
  · rw [hiv, hiv]
    exact H.tail_small h (ed_path_head s _ _ R h H.tail_path hh)

/-- Every list of `sched_tree` is sorted: `[1, 2]` in slot 0 and `[2]` elsewhere. -/
theorem sched_tree_sorted : ∀ i, i < NUM_INTS →
    ∃ L, ed_path sched_tree (sched_tree.periodic i) L none ∧ interval_sorted sched_tree L ∧
      L.length < 4 := by
  intro i _
  by_cases h : i = 0
  · refine ⟨[1, 2], ⟨?_, rfl, rfl⟩, by unfold interval_sorted; decide, by decide⟩
    show (if i = 0 then some 1 else some 2) = some 1
    rw [if_pos h]
  · refine ⟨[2], ⟨?_, rfl⟩, List.pairwise_singleton _ _, by decide⟩
    show (if i = 0 then some 1 else some 2) = some 2
    rw [if_neg h]

/-- On `sched_tree`, whose lists are sorted and share the tail `[2]`, ED 3 (interval 16) is
linked into slot 0 behind ED 1 (interval 32) and in front of ED 2 (interval 1), and into
slot 16 in front of ED 2; in the table after the link, where slot 0 holds `[1, 3, 2]`, one
more pass of the loop body for slot 0 only adds the load. -/
theorem periodic_link_sorted_witness :
    (0 < (sched_tree.eds 3).interval ∧
      (∀ i, i < NUM_INTS → ∃ L, ed_path sched_tree (sched_tree.periodic i) L none ∧
        interval_sorted sched_tree L ∧ L.length < 4) ∧
      periodic_shared sched_tree 3 sched_tree_front [2] (some 2) ∧
      (∀ i ∈ periodic_slots sched_tree 3, (sched_tree_front i).length < 4)) ∧
    (∃ s1, periodic_link 4 sched_tree 3 = some s1 ∧
      (∀ x, (s1.eds x).interval = (sched_tree.eds x).interval) ∧
      ∀ i, i < NUM_INTS → ∃ L2, ed_path s1 (s1.periodic i) L2 none ∧
        interval_sorted s1 L2) ∧
    (∃ s1, periodic_link 4 sched_tree 3 = some s1 ∧
      ∀ i ∈ periodic_slots sched_tree 3,
        ed_path sched_tree (sched_tree.periodic i) (sched_tree_front i ++ [2]) none ∧
        ed_path s1 (s1.periodic i) (sched_tree_front i ++ 3 :: [2]) none ∧
        (∀ x ∈ sched_tree_front i, (s1.eds 3).interval ≤ (s1.eds x).interval) ∧
        (∀ h, [2].head? = some h → (s1.eds h).interval < (s1.eds 3).interval)) ∧
    (periodic_link 4 sched_tree 3).map (fun r => (r.periodic 0, (r.eds 1).ed_next,
      (r.eds 3).ed_next, (r.eds 2).ed_next, r.periodic 16, r.periodic 1))
      = some (some 1, some 3, some 2, none, some 3, some 2) ∧
    periodic_link_slot 4 ((periodic_link 4 sched_tree 3).getD sched_tree) 3 0
      = some (add_load ((periodic_link 4 sched_tree 3).getD sched_tree) 0
          ((((periodic_link 4 sched_tree 3).getD sched_tree).eds 3).load : Int)) :=
  ⟨⟨by decide, sched_tree_sorted, periodic_tree_shared sched_tree_ok,
      by rw [sched_tree_slots]; decide⟩,
    (periodic_link_sorted 4 sched_tree 3).1 (by decide) sched_tree_sorted,
    (periodic_link_sorted 4 sched_tree 3).2.1 sched_tree_front [2] (some 2)
      (periodic_tree_shared sched_tree_ok) (by rw [sched_tree_slots]; decide),
    rfl,
    (periodic_link_sorted 4 ((periodic_link 4 sched_tree 3).getD sched_tree) 3).2.2 0 [1, 3, 2]
      ⟨rfl, rfl, rfl, rfl⟩ (by unfold interval_sorted; decide) (by decide) (by decide)⟩


/-! ## The state of an ED: the moves of `finish_unlinks` -/

/-- The loop of `finish_unlinks` over `ed_rm_list`: the EDs that stay on the list, and the
EDs that were never on it, keep their state; an ED that is taken off the list is in
`ED_IDLE` or, by the `ed_schedule` call, in `ED_OPER` afterwards. -/
theorem finish_unlinks_loop_moves (fuel tick : Nat) :
    ∀ (n : Nat) (o : ohci_hcd) (Prev R : List Nat) (Q : Nat → Prop) (o2 : ohci_hcd),
      on_rm_list o.sched (Prev.reverse ++ R) → (Prev.reverse ++ R).Nodup →
      sched_closed o.sched Q → (∀ y, y ∈ Prev.reverse ++ R → ¬ Q y) →
      finish_unlinks_loop fuel tick n o (rm_cursor Prev) = some o2 →
      ∃ L2, on_rm_list o2.sched L2 ∧ (∀ y, y ∈ L2 → y ∈ Prev.reverse ++ R) ∧
        (∀ y, y ∉ Prev.reverse ++ R ∨ y ∈ L2 →
          (o2.sched.eds y).state = (o.sched.eds y).state) ∧
        (∀ y, y ∈ Prev.reverse ++ R → y ∉ L2 →
          (o2.sched.eds y).state = ED_IDLE ∨ (o2.sched.eds y).state = ED_OPER) := by
  intro n
  induction n with
  | zero => intro o Prev R Q o2 _ _ _ _ h; simp [finish_unlinks_loop] at h
  | succ n ih =>
    intro o Prev R Q o2 hpath hnd hcl hq h
    rw [finish_unlinks_loop] at h
    have hcur := ed_path_cursor o Prev R hpath
    cases R with
    | nil =>
      have hc : (rm_cursor Prev).get o = none := hcur
      rw [hc] at h
      rw [← Option.some.inj h]
      exact ⟨_, hpath, fun y hy => hy, fun _ _ => rfl, fun y hy hn => absurd hy hn⟩
    | cons x R =>
      have hc : (rm_cursor Prev).get o = some x := hcur.1
      rw [hc] at h
      dsimp only at h
      obtain ⟨g1, _⟩ := finish_unlinks_gate_outer o tick x
      have hpath2 : on_rm_list (finish_unlinks_gate o tick x).2.sched
          (Prev.reverse ++ x :: R) := by rw [g1]; exact hpath
      have hcl2 : sched_closed (finish_unlinks_gate o tick x).2.sched Q := by
        rw [g1]; exact hcl
      have kg : ∀ y, ((finish_unlinks_gate o tick x).2.sched.eds y).state
          = (o.sched.eds y).state := fun y => by rw [g1]
      by_cases hg : (finish_unlinks_gate o tick x).1 = true
      · rw [if_pos hg] at h
        have hl : (x :: Prev).reverse ++ R = Prev.reverse ++ x :: R := by
          rw [List.reverse_cons, List.append_assoc]
          rfl
        obtain ⟨L2, p1, p2, p3, p4⟩ := ih _ (x :: Prev) R Q o2 (by rw [hl]; exact hpath2)
          (by rw [hl]; exact hnd) hcl2 (by rw [hl]; exact hq) h
        rw [hl] at p2 p3 p4
        exact ⟨L2, p1, p2, fun y hy => (p3 y hy).trans (kg y), p4⟩
      · rw [if_neg hg] at h
        generalize (finish_unlinks_gate o tick x).2 = og at h hpath2 hcl2 kg
        cases hf : finish_unlinks_ed fuel og (rm_cursor Prev) x with
        | none => rw [hf] at h; exact absurd h (by simp)
        | some q =>
          rw [hf] at h
          obtain ⟨o4, i1, i2, _, i4⟩ := finish_unlinks_ed_st fuel og (rm_cursor Prev) x q hf
          have sx : (q.1.sched.eds x).state = ED_IDLE ∨ (q.1.sched.eds x).state = ED_OPER := by
            rcases i4 with a | ⟨_, _, s, _, a, b, _⟩
            · rw [a]; exact Or.inl i1
            · rw [a]; exact Or.inr b
          have sy : ∀ y, y ≠ x → (q.1.sched.eds y).state = (o.sched.eds y).state := by
            intro y hy
            rcases i4 with a | ⟨_, _, s, _, a, _, b⟩
            · rw [a]; exact (i2 y hy).trans (kg y)
            · rw [a]; exact (b y hy).trans (kg y)
          obtain ⟨c1, c2⟩ := finish_unlinks_ed_chain fuel og Prev R x Q q hpath2 hnd hcl2 hq hf
          obtain ⟨o1, modified⟩ := q
          dsimp only at h sx sy c1 c2
          have hmid := List.nodup_middle.1 hnd
          have hnd3 : (Prev.reverse ++ R).Nodup := (List.nodup_cons.1 hmid).2
          have hxn : x ∉ Prev.reverse ++ R := (List.nodup_cons.1 hmid).1
          have hq3 : ∀ y, y ∈ Prev.reverse ++ R → ¬ (Q y ∨ y = x) := by
            intro y hy
            rintro (hQ | hx)
            · refine hq y ?_ hQ
              rcases List.mem_append.1 hy with hm | hm
              · exact List.mem_append_left _ hm
              · exact List.mem_append_right _ (List.mem_cons_of_mem _ hm)
            · exact hxn (hx ▸ hy)
          have hsub : ∀ y, y ∈ Prev.reverse ++ R → y ∈ Prev.reverse ++ x :: R := by
            intro y hy
            rcases List.mem_append.1 hy with hm | hm
            · exact List.mem_append_left _ hm
            · exact List.mem_append_right _ (List.mem_cons_of_mem _ hm)
          have hsup : ∀ y, y ∈ Prev.reverse ++ x :: R → y = x ∨ y ∈ Prev.reverse ++ R := by
            intro y hy
            rcases List.mem_append.1 hy with hm | hm
            · exact Or.inr (List.mem_append_left _ hm)
            · rcases List.mem_cons.1 hm with hm | hm
              · exact Or.inl hm
              · exact Or.inr (List.mem_append_right _ hm)
          have rest : ∃ L2, on_rm_list o2.sched L2 ∧ (∀ y, y ∈ L2 → y ∈ Prev.reverse ++ R) ∧
              (∀ y, y ∉ Prev.reverse ++ R ∨ y ∈ L2 →
                (o2.sched.eds y).state = (o1.sched.eds y).state) ∧
              (∀ y, y ∈ Prev.reverse ++ R → y ∉ L2 →
                (o2.sched.eds y).state = ED_IDLE ∨ (o2.sched.eds y).state = ED_OPER) := by
            split at h
            · exact ih o1 [] (Prev.reverse ++ R) _ o2 c1 hnd3 c2 hq3 h
            · exact ih o1 Prev R _ o2 c1 hnd3 c2 hq3 h
          obtain ⟨L2, p1, p2, p3, p4⟩ := rest
          refine ⟨L2, p1, fun y hy => hsub y (p2 y hy), ?_, ?_⟩
          · rintro y (hy | hy)
            · have hxin : x ∈ Prev.reverse ++ x :: R :=
                List.mem_append_right _ (List.mem_cons_self _ _)
              have hyx : y ≠ x := fun e => hy (e ▸ hxin)
              exact (p3 y (Or.inl (fun hm => hy (hsub y hm)))).trans (sy y hyx)
            · have hyx : y ≠ x := fun e => hxn (e ▸ p2 y hy)
              exact (p3 y (Or.inr hy)).trans (sy y hyx)
          · intro y hy hn
            rcases hsup y hy with e | hm
            · rw [e, p3 x (Or.inl hxn)]
              exact sx
            · exact p4 y hm hn

/-- `finish_unlinks` and the states: with the EDs `L` on `ed_rm_list` (none of them linked
into a schedule), afterwards a part `L2` of them is on the list; the EDs of `L2` and the
EDs outside `L` keep their state, and each ED taken off the list is in `ED_IDLE` or in
`ED_OPER`. -/
theorem finish_unlinks_moves (fuel tick : Nat) (o o2 : ohci_hcd) (L : List Nat)
    (Q : Nat → Prop) (hlist : on_rm_list o.sched L) (hcl : sched_closed o.sched Q)
    (hq : ∀ y, y ∈ L → ¬ Q y) (h : finish_unlinks fuel o tick = some o2) :
    ∃ L2, on_rm_list o2.sched L2 ∧ (∀ y, y ∈ L2 → y ∈ L) ∧
      (∀ y, y ∉ L ∨ y ∈ L2 → (o2.sched.eds y).state = (o.sched.eds y).state) ∧
      (∀ y, y ∈ L → y ∉ L2 →
        (o2.sched.eds y).state = ED_IDLE ∨ (o2.sched.eds y).state = ED_OPER) := by
  unfold finish_unlinks at h
  cases hl : finish_unlinks_loop fuel tick fuel o .head with
  | none => rw [hl] at h; exact absurd h (by simp)
  | some o1 =>
    rw [hl] at h
    rw [← Option.some.inj h]
    have hnd : L.Nodup := ed_path_nodup o.sched L _ hlist
    obtain ⟨L2, p1, p2, p3, p4⟩ := finish_unlinks_loop_moves fuel tick fuel o [] L Q o1
      hlist hnd hcl hq hl
    obtain ⟨_, r1, r2⟩ := finish_unlinks_restart_kept o1 0
    refine ⟨L2, ?_, p2, fun y hy => ?_, fun y hy hn => ?_⟩
    · unfold on_rm_list at p1 ⊢
      rw [r2]
      exact ed_path_congr o1.sched _ _ _ _ (fun x _ => by rw [r1]) p1
    · rw [r1]; exact p3 y hy
    · rw [r1]; exact p4 y hy hn

/-- `finish_unlinks` does take an ED off the list: the first ED of `ed_rm_list`, when the
test at the head of the loop body lets it pass, is on the list no more afterwards and is
in `ED_IDLE` or in `ED_OPER`. -/
theorem finish_unlinks_head (fuel tick : Nat) (o o2 : ohci_hcd) (x : Nat) (R : List Nat)
    (Q : Nat → Prop) (hlist : on_rm_list o.sched (x :: R)) (hcl : sched_closed o.sched Q)
    (hq : ∀ y, y ∈ x :: R → ¬ Q y) (hg : (finish_unlinks_gate o tick x).1 = false)
    (h : finish_unlinks fuel o tick = some o2) :
    ((o2.sched.eds x).state = ED_IDLE ∨ (o2.sched.eds x).state = ED_OPER) ∧
    ∃ L2, on_rm_list o2.sched L2 ∧ x ∉ L2 ∧ ∀ y, y ∈ L2 → y ∈ R := by
  have hnd : (x :: R).Nodup := ed_path_nodup o.sched _ _ hlist
  have hxn : x ∉ R := (List.nodup_cons.1 hnd).1
  have key : ∀ n o1, finish_unlinks_loop fuel tick n o .head = some o1 →
      ((o1.sched.eds x).state = ED_IDLE ∨ (o1.sched.eds x).state = ED_OPER) ∧
      ∃ L2, on_rm_list o1.sched L2 ∧ x ∉ L2 ∧ ∀ y, y ∈ L2 → y ∈ R := by
    intro n o1 hl
    cases n with
    | zero => simp [finish_unlinks_loop] at hl
    | succ n =>
      rw [finish_unlinks_loop] at hl
      have hc : rmref.head.get o = some x := hlist.1
      rw [hc] at hl
      dsimp only at hl
      rw [if_neg (by rw [hg]; simp)] at hl
      obtain ⟨g1, _⟩ := finish_unlinks_gate_outer o tick x
      have hpath2 : on_rm_list (finish_unlinks_gate o tick x).2.sched
          ([].reverse ++ x :: R) := by rw [g1]; exact hlist
      have hcl2 : sched_closed (finish_unlinks_gate o tick x).2.sched Q := by
        rw [g1]; exact hcl
      generalize (finish_unlinks_gate o tick x).2 = og at hl hpath2 hcl2
      cases hf : finish_unlinks_ed fuel og .head x with
      | none => rw [hf] at hl; exact absurd hl (by simp)
      | some q =>
        rw [hf] at hl
        obtain ⟨o4, i1, _, _, i4⟩ := finish_unlinks_ed_st fuel og .head x q hf
        have sx : (q.1.sched.eds x).state = ED_IDLE ∨ (q.1.sched.eds x).state = ED_OPER := by
          rcases i4 with a | ⟨_, _, s, _, a, b, _⟩
          · rw [a]; exact Or.inl i1
          · rw [a]; exact Or.inr b
        obtain ⟨c1, c2⟩ := finish_unlinks_ed_chain fuel og [] R x Q q hpath2 hnd hcl2 hq hf
        obtain ⟨o3, modified⟩ := q
        dsimp only at hl sx c1 c2
        have hq3 : ∀ y, y ∈ ([] : List Nat).reverse ++ R → ¬ (Q y ∨ y = x) := by
          intro y hy
          rintro (hQ | hx)
          · exact hq y (List.mem_cons_of_mem _ hy) hQ
          · exact hxn (hx ▸ hy)
        have rest : ∃ L2, on_rm_list o1.sched L2 ∧ (∀ y, y ∈ L2 → y ∈ [].reverse ++ R) ∧
            (∀ y, y ∉ [].reverse ++ R ∨ y ∈ L2 →
              (o1.sched.eds y).state = (o3.sched.eds y).state) ∧
            (∀ y, y ∈ [].reverse ++ R → y ∉ L2 →
              (o1.sched.eds y).state = ED_IDLE ∨ (o1.sched.eds y).state = ED_OPER) := by
          split at hl
          · exact finish_unlinks_loop_moves fuel tick n o3 [] R _ o1 c1
              (List.nodup_cons.1 hnd).2 c2 hq3 hl
          · exact finish_unlinks_loop_moves fuel tick n o3 [] R _ o1 c1
              (List.nodup_cons.1 hnd).2 c2 hq3 hl
        obtain ⟨L2, p1, p2, p3, _⟩ := rest
        refine ⟨?_, L2, p1, fun hx => hxn (p2 x hx), p2⟩
        rw [p3 x (Or.inl hxn)]
        exact sx
  unfold finish_unlinks at h
  cases hl : finish_unlinks_loop fuel tick fuel o .head with
  | none => rw [hl] at h; exact absurd h (by simp)
  | some o1 =>
    rw [hl] at h
    rw [← Option.some.inj h]
    obtain ⟨k1, L2, p1, p2, p3⟩ := key fuel o1 hl
    obtain ⟨_, r1, r2⟩ := finish_unlinks_restart_kept o1 0
    refine ⟨by rw [r1]; exact k1, L2, ?_, p2, p3⟩
    unfold on_rm_list at p1 ⊢
    rw [r2]
    exact ed_path_congr o1.sched _ _ _ _ (fun x _ => by rw [r1]) p1


/-! ## The state of an ED: `start_ed_unlink` and `ed_rm_list` -/

theorem periodic_unlink_walk_get (s : ohci_sched) (e : Nat) :
    ∀ (fuel : Nat) (prev c : edref), periodic_unlink_walk s e fuel prev = some c →
      c.get s = none ∨ c.get s = some e := by
  intro fuel
  induction fuel with
  | zero => intro prev c h; simp [periodic_unlink_walk] at h
  | succ n ih =>
    intro prev c h
    rw [periodic_unlink_walk] at h
    cases hg : prev.get s with
    | none =>
      rw [hg] at h
      rw [← Option.some.inj h]
      exact Or.inl hg
    | some temp =>
      rw [hg] at h
      dsimp only at h
      by_cases ht : temp ≠ e
      · rw [if_pos ht] at h
        exact ih _ c h
      · rw [if_neg ht] at h
        rw [← Option.some.inj h, hg]
        exact Or.inr (by rw [not_not.1 ht])

/-- One slot of `periodic_unlink` writes the software link of no ED but of one that
pointed at the ED. -/
theorem periodic_unlink_slot_next (fuel : Nat) (s s2 : ohci_sched) (e i : Nat)
    (h : periodic_unlink_slot fuel s e i = some s2) :
    s2.ed_rm_list = s.ed_rm_list ∧
    ∀ y, (s.eds y).ed_next ≠ some e → (s2.eds y).ed_next = (s.eds y).ed_next := by
  unfold periodic_unlink_slot at h
  cases hw : periodic_unlink_walk s e fuel (.slot i) with
  | none => rw [hw] at h; exact absurd h (by simp)
  | some c =>
    rw [hw] at h
    dsimp only at h
    rw [← Option.some.inj h]
    have hc := periodic_unlink_walk_get s e fuel _ c hw
    by_cases hs : (c.get s).isSome = true
    · rw [if_pos hs]
      refine ⟨by cases c <;> rfl, fun y hy => ?_⟩
      show (edref.node y).get (c.set (c.set_p s (s.eds e).hwNextED) (s.eds e).ed_next) = _
      rw [edref_get_set, edref_get_set_p, if_neg]
      · rfl
      · intro hyc
        rcases hc with a | a
        · rw [a] at hs
          exact absurd hs (by simp)
        · rw [← hyc] at a
          exact hy a
    · rw [if_neg hs]
      exact ⟨rfl, fun _ _ => rfl⟩

theorem periodic_unlink_loop_next (fuel e : Nat) :
    ∀ (n : Nat) (s : ohci_sched) (i : Nat) (s2 : ohci_sched),
      periodic_unlink_loop fuel e n s i = some s2 →
      s2.ed_rm_list = s.ed_rm_list ∧
      ∀ y, (s.eds y).ed_next ≠ some e → (s2.eds y).ed_next = (s.eds y).ed_next := by
  intro n
  induction n with
  | zero => intro s i s2 h; simp [periodic_unlink_loop] at h
  | succ n ih =>
    intro s i s2 h
    rw [periodic_unlink_loop] at h
    split at h
    · cases hs : periodic_unlink_slot fuel s e i with
      | none => rw [hs] at h; exact absurd h (by simp)
      | some o1 =>
        rw [hs] at h
        obtain ⟨a1, a2⟩ := periodic_unlink_slot_next fuel s o1 e i hs
        obtain ⟨b1, b2⟩ := ih o1 _ s2 h
        refine ⟨b1.trans a1, fun y hy => ?_⟩
        rw [b2 y (by rw [a2 y hy]; exact hy), a2 y hy]
    · rw [← Option.some.inj h]
      exact ⟨rfl, fun _ _ => rfl⟩

theorem periodic_unlink_next (fuel : Nat) (s s2 : ohci_sched) (e : Nat)
    (h : periodic_unlink fuel s e = some s2) :
    s2.ed_rm_list = s.ed_rm_list ∧
    ∀ y, (s.eds y).ed_next ≠ some e → (s2.eds y).ed_next = (s.eds y).ed_next := by
  unfold periodic_unlink at h
  cases hp : periodic_unlink_loop fuel e (NUM_INTS + 1) s (s.eds e).branch with
  | none => rw [hp] at h; exact absurd h (by simp)
  | some o1 =>
    rw [hp] at h
    rw [← Option.some.inj h]
    exact periodic_unlink_loop_next fuel e _ s _ o1 hp

theorem mod_ed_prev (s : ohci_sched) (x : Nat) (f : ed → ed) (e : Nat)
    (hf : ∀ y, (f y).ed_prev = y.ed_prev) :
    ((s.mod_ed x f).eds e).ed_prev = (s.eds e).ed_prev := by
  by_cases h : e = x
  · rw [h]
    simp only [ohci_sched.mod_ed, upd_same]
    exact hf _
  · simp only [ohci_sched.mod_ed, upd_other _ _ _ _ h]

theorem mod_ed_next (s : ohci_sched) (x : Nat) (f : ed → ed) (e : Nat)
    (hf : ∀ y, (f y).ed_next = y.ed_next) :
    ((s.mod_ed x f).eds e).ed_next = (s.eds e).ed_next := by
  by_cases h : e = x
  · rw [h]
    simp only [ohci_sched.mod_ed, upd_same]
    exact hf _
  · simp only [ohci_sched.mod_ed, upd_other _ _ _ _ h]

theorem ed_deschedule_control_rm (s : ohci_sched) (e : Nat) :
    (ed_deschedule_control s e).ed_rm_list = s.ed_rm_list := by
  unfold ed_deschedule_control
  dsimp only
  cases h1 : (s.eds e).ed_prev with
  | none =>
    dsimp only
    by_cases hw : (s.eds e).hwNextED = 0
    · rw [if_pos hw]
      simp only [ohci_writel]
      split
      · rw [h1]
      · cases h2 : (s.eds e).ed_next with
        | none => rfl
        | some nx => rfl
    · rw [if_neg hw]
      simp only [ohci_writel]
      split
      · rw [h1]
      · cases h2 : (s.eds e).ed_next with
        | none => rfl
        | some nx => rfl
  | some pr =>
    dsimp only
    have k0 : ((s.mod_ed pr (fun y => { y with ed_next := (s.eds e).ed_next })).mod_ed
        pr (fun y => { y with hwNextED := (s.eds e).hwNextED })).ed_rm_list = s.ed_rm_list := rfl
    generalize (s.mod_ed pr (fun y => { y with ed_next := (s.eds e).ed_next })).mod_ed
        pr (fun y => { y with hwNextED := (s.eds e).hwNextED }) = o1 at k0 ⊢
    split
    · cases h3 : (o1.eds e).ed_prev with
      | none => exact k0
      | some tl => exact k0
    · cases h3 : (o1.eds e).ed_next with
      | none => exact k0
      | some nx => exact k0

/-- The control arm of `ed_deschedule` writes the software link of no ED but of the one
that `ed->ed_prev` names. -/
theorem ed_deschedule_control_next (s : ohci_sched) (e y : Nat)
    (hy : (s.eds e).ed_prev ≠ some y) :
    ((ed_deschedule_control s e).eds y).ed_next = (s.eds y).ed_next := by
  unfold ed_deschedule_control
  dsimp only
  cases h1 : (s.eds e).ed_prev with
  | none =>
    dsimp only
    by_cases hw : (s.eds e).hwNextED = 0
    · rw [if_pos hw]
      simp only [ohci_writel]
      split
      · rw [h1]
      · cases h2 : (s.eds e).ed_next with
        | none => rfl
        | some nx =>
          simp only [ohci_sched.mod_ed, upd]
          split
          · rename_i hn
            rw [hn]
          · rfl
    · rw [if_neg hw]
      simp only [ohci_writel]
      split
      · rw [h1]
      · cases h2 : (s.eds e).ed_next with
        | none => rfl
        | some nx =>
          simp only [ohci_sched.mod_ed, upd]
          split
          · rename_i hn
            rw [hn]
          · rfl
  | some pr =>
    dsimp only
    have hyp : y ≠ pr := fun h => hy (by rw [h1, h])
    have k1 : (((s.mod_ed pr (fun y => { y with ed_next := (s.eds e).ed_next })).mod_ed
        pr (fun y => { y with hwNextED := (s.eds e).hwNextED })).eds y).ed_next
        = (s.eds y).ed_next := by
      simp [ohci_sched.mod_ed, upd_other _ _ _ _ hyp]
    have k2 : (((s.mod_ed pr (fun y => { y with ed_next := (s.eds e).ed_next })).mod_ed
        pr (fun y => { y with hwNextED := (s.eds e).hwNextED })).eds e).ed_prev = some pr := by
      refine Eq.trans (mod_ed_prev _ pr _ e ?_) (Eq.trans (mod_ed_prev s pr _ e ?_) h1)
      · intro _; rfl
      · intro _; rfl
    generalize (s.mod_ed pr (fun y => { y with ed_next := (s.eds e).ed_next })).mod_ed
        pr (fun y => { y with hwNextED := (s.eds e).hwNextED }) = o1 at k1 k2 ⊢
    split
    · cases h3 : (o1.eds e).ed_prev with
      | none => exact k1
      | some tl =>
        dsimp only
        have htl : tl = pr := by
          rw [k2] at h3
          exact (Option.some.inj h3).symm
        simp only [ohci_sched.mod_ed, upd]
        rw [if_neg (by rw [htl]; exact hyp)]
        exact k1
    · cases h3 : (o1.eds e).ed_next with
      | none => exact k1
      | some nx =>
        dsimp only
        simp only [ohci_sched.mod_ed, upd]
        split
        · rename_i hn
          rw [← hn]
          exact k1
        · exact k1

theorem ed_deschedule_bulk_rm (s : ohci_sched) (e : Nat) :
    (ed_deschedule_bulk s e).ed_rm_list = s.ed_rm_list := by
  unfold ed_deschedule_bulk
  dsimp only
  cases h1 : (s.eds e).ed_prev with
  | none =>
    dsimp only
    by_cases hw : (s.eds e).hwNextED = 0
    · rw [if_pos hw]
      simp only [ohci_writel]
      split
      · rw [h1]
      · cases h2 : (s.eds e).ed_next with
        | none => rfl
        | some nx => rfl
    · rw [if_neg hw]
      simp only [ohci_writel]
      split
      · rw [h1]
      · cases h2 : (s.eds e).ed_next with
        | none => rfl
        | some nx => rfl
  | some pr =>
    dsimp only
    have k0 : ((s.mod_ed pr (fun y => { y with ed_next := (s.eds e).ed_next })).mod_ed
        pr (fun y => { y with hwNextED := (s.eds e).hwNextED })).ed_rm_list = s.ed_rm_list := rfl
    generalize (s.mod_ed pr (fun y => { y with ed_next := (s.eds e).ed_next })).mod_ed
        pr (fun y => { y with hwNextED := (s.eds e).hwNextED }) = o1 at k0 ⊢
    split
    · cases h3 : (o1.eds e).ed_prev with
      | none => exact k0
      | some tl => exact k0
    · cases h3 : (o1.eds e).ed_next with
      | none => exact k0
      | some nx => exact k0

/-- The bulk arm of `ed_deschedule` writes the software link of no ED but of the one
that `ed->ed_prev` names. -/
theorem ed_deschedule_bulk_next (s : ohci_sched) (e y : Nat)
    (hy : (s.eds e).ed_prev ≠ some y) :
    ((ed_deschedule_bulk s e).eds y).ed_next = (s.eds y).ed_next := by
  unfold ed_deschedule_bulk
  dsimp only
  cases h1 : (s.eds e).ed_prev with
  | none =>
    dsimp only
    by_cases hw : (s.eds e).hwNextED = 0
    · rw [if_pos hw]
      simp only [ohci_writel]
      split
      · rw [h1]
      · cases h2 : (s.eds e).ed_next with
        | none => rfl
        | some nx =>
          simp only [ohci_sched.mod_ed, upd]
          split
          · rename_i hn
            rw [hn]
          · rfl
    · rw [if_neg hw]
      simp only [ohci_writel]
      split
      · rw [h1]
      · cases h2 : (s.eds e).ed_next with
        | none => rfl
        | some nx =>
          simp only [ohci_sched.mod_ed, upd]
          split
          · rename_i hn
            rw [hn]
          · rfl
  | some pr =>
    dsimp only
    have hyp : y ≠ pr := fun h => hy (by rw [h1, h])
    have k1 : (((s.mod_ed pr (fun y => { y with ed_next := (s.eds e).ed_next })).mod_ed
        pr (fun y => { y with hwNextED := (s.eds e).hwNextED })).eds y).ed_next
        = (s.eds y).ed_next := by
      simp [ohci_sched.mod_ed, upd_other _ _ _ _ hyp]
    have k2 : (((s.mod_ed pr (fun y => { y with ed_next := (s.eds e).ed_next })).mod_ed
        pr (fun y => { y with hwNextED := (s.eds e).hwNextED })).eds e).ed_prev = some pr := by
      refine Eq.trans (mod_ed_prev _ pr _ e ?_) (Eq.trans (mod_ed_prev s pr _ e ?_) h1)
      · intro _; rfl
      · intro _; rfl
    generalize (s.mod_ed pr (fun y => { y with ed_next := (s.eds e).ed_next })).mod_ed
        pr (fun y => { y with hwNextED := (s.eds e).hwNextED }) = o1 at k1 k2 ⊢
    split
    · cases h3 : (o1.eds e).ed_prev with
      | none => exact k1
      | some tl =>
        dsimp only
        have htl : tl = pr := by
          rw [k2] at h3
          exact (Option.some.inj h3).symm
        simp only [ohci_sched.mod_ed, upd]
        rw [if_neg (by rw [htl]; exact hyp)]
        exact k1
    · cases h3 : (o1.eds e).ed_next with
      | none => exact k1
      | some nx =>
        dsimp only
        simp only [ohci_sched.mod_ed, upd]
        split
        · rename_i hn
          rw [← hn]
          exact k1
        · exact k1

/-- `ed_deschedule` leaves `ed_rm_list` alone and writes the software link of no ED but of
one that pointed at the ED or that `ed->ed_prev` names. -/
theorem ed_deschedule_next (fuel : Nat) (s s2 : ohci_sched) (e : Nat)
    (h : ed_deschedule fuel s e = some s2) :
    s2.ed_rm_list = s.ed_rm_list ∧
    ∀ y, (s.eds y).ed_next ≠ some e → (s.eds e).ed_prev ≠ some y →
      (s2.eds y).ed_next = (s.eds y).ed_next := by
  unfold ed_deschedule at h
  dsimp only at h
  have k0 : ((s.mod_ed e (fun x => { x with hwINFO := x.hwINFO ||| ED_SKIP })).mod_ed e
      (fun x => { x with state := ED_UNLINK })).ed_rm_list = s.ed_rm_list := rfl
  have k1 : ∀ y, (((s.mod_ed e (fun x => { x with hwINFO := x.hwINFO ||| ED_SKIP })).mod_ed e
      (fun x => { x with state := ED_UNLINK })).eds y).ed_next = (s.eds y).ed_next := by
    intro y
    refine Eq.trans (mod_ed_next _ e _ y ?_) (mod_ed_next s e _ y ?_)
    · intro _; rfl
    · intro _; rfl
  have k2 : (((s.mod_ed e (fun x => { x with hwINFO := x.hwINFO ||| ED_SKIP })).mod_ed e
      (fun x => { x with state := ED_UNLINK })).eds e).ed_prev = (s.eds e).ed_prev := by
    refine Eq.trans (mod_ed_prev _ e _ e ?_) (mod_ed_prev s e _ e ?_)
    · intro _; rfl
    · intro _; rfl
  generalize (s.mod_ed e (fun x => { x with hwINFO := x.hwINFO ||| ED_SKIP })).mod_ed e
      (fun x => { x with state := ED_UNLINK }) = o2 at h k0 k1 k2
  split at h
  · rw [← Option.some.inj h]
    refine ⟨(ed_deschedule_control_rm o2 e).trans k0, fun y _ hy => ?_⟩
    rw [ed_deschedule_control_next o2 e y (by rw [k2]; exact hy), k1]
  · split at h
    · rw [← Option.some.inj h]
      refine ⟨(ed_deschedule_bulk_rm o2 e).trans k0, fun y _ hy => ?_⟩
      rw [ed_deschedule_bulk_next o2 e y (by rw [k2]; exact hy), k1]
    · obtain ⟨a1, a2⟩ := periodic_unlink_next fuel o2 s2 e h
      refine ⟨a1.trans k0, fun y hy _ => ?_⟩
      rw [a2 y (by rw [k1]; exact hy), k1]

/-- An ED of a chain that ends with `NULL` points at an ED of the chain, or at nothing. -/
theorem ed_path_next_mem (s : ohci_sched) :
    ∀ (L : List Nat) (a : Option Nat), ed_path s a L none →
      ∀ y ∈ L, ∀ z, (s.eds y).ed_next = some z → z ∈ L := by
  intro L
  induction L with
  | nil => intro a _ y hy; exact absurd hy (List.not_mem_nil y)
  | cons x rest ih =>
    intro a hp y hy z hz
    rcases List.mem_cons.1 hy with h | h
    · rw [h] at hz
      have hr := hp.2
      rw [hz] at hr
      cases rest with
      | nil => exact absurd hr (by simp [ed_path])
      | cons w r =>
        have : z = w := Option.some.inj hr.1
        rw [this]
        exact List.mem_cons_of_mem _ (List.mem_cons_self _ _)
    · exact List.mem_cons_of_mem _ (ih _ hp.2 y h z hz)

/-- `start_ed_unlink` puts its ED in front of `ed_rm_list` and leaves the rest of the list
as it is; the schedule list is assumed to be linked both ways at the ED (`ed->ed_prev`
names an ED whose `ed_next` is the ED). -/
theorem start_ed_unlink_list (fuel : Nat) (s s2 : ohci_sched) (e : Nat) (L : List Nat)
    (h : start_ed_unlink fuel s e = some s2) (hl : on_rm_list s L) (he : e ∉ L)
    (hprev : ∀ p, (s.eds e).ed_prev = some p → (s.eds p).ed_next = some e) :
    on_rm_list s2 (e :: L) := by
  unfold start_ed_unlink at h
  dsimp only at h
  have k0 : (s.mod_ed e (fun x => { x with hwINFO := x.hwINFO ||| ED_DEQUEUE })).ed_rm_list
      = s.ed_rm_list := rfl
  have k1 : ∀ y, ((s.mod_ed e (fun x => { x with hwINFO := x.hwINFO ||| ED_DEQUEUE })).eds y).ed_next
      = (s.eds y).ed_next := by
    intro y
    refine mod_ed_next s e _ y ?_
    intro _; rfl
  have k2 : ((s.mod_ed e (fun x => { x with hwINFO := x.hwINFO ||| ED_DEQUEUE })).eds e).ed_prev
      = (s.eds e).ed_prev := by
    refine mod_ed_prev s e _ e ?_
    intro _; rfl
  generalize s.mod_ed e (fun x => { x with hwINFO := x.hwINFO ||| ED_DEQUEUE }) = o1 at h k0 k1 k2
  cases hd : ed_deschedule fuel o1 e with
  | none => rw [hd] at h; exact absurd h (by simp)
  | some o2 =>
    rw [hd] at h
    dsimp only at h
    obtain ⟨d1, d2⟩ := ed_deschedule_next fuel o1 o2 e hd
    rw [← Option.some.inj h]
    refine ⟨rfl, ?_⟩
    have hself : (((ohci_writel (ohci_writel
        { o2.mod_ed e (fun x => { x with ed_next := o2.ed_rm_list, ed_prev := none }) with
          ed_rm_list := some e } OHCI_INTR_SF .intrstatus) OHCI_INTR_SF .intrenable).mod_ed e
        (fun x => { x with tick := ((ohci_writel (ohci_writel
          { o2.mod_ed e (fun x => { x with ed_next := o2.ed_rm_list, ed_prev := none }) with
            ed_rm_list := some e } OHCI_INTR_SF .intrstatus) OHCI_INTR_SF .intrenable).frame_no + 1)
              % 65536 })).eds e).ed_next = s.ed_rm_list := by
      simp only [ohci_sched.mod_ed, ohci_writel, upd_same]
      rw [d1, k0]
    rw [hself]
    refine ed_path_congr s _ _ _ _ (fun y hy => ?_) hl
    have hye : y ≠ e := fun h2 => he (h2 ▸ hy)
    have hn : (s.eds y).ed_next ≠ some e := fun h2 => he (ed_path_next_mem s L _ hl y hy e h2)
    have hp : (s.eds e).ed_prev ≠ some y := fun h2 => hn (hprev y h2)
    simp only [ohci_sched.mod_ed, ohci_writel, upd_other _ _ _ _ hye]
    rw [d2 y (by rw [k1]; exact hn) (by rw [k2]; exact hp), k1]


/-! ## The state of an ED: the done list -/

theorem next_same_writel (o : ohci_hcd) (v : Nat) (r : ohci_reg) : next_same o (o.writel v r) :=
  ⟨rfl, rfl, rfl, rfl, fun _ => rfl⟩

/-- The closing test of `takeback_td`, where it starts no unlink: the states and the
software links stay. -/
theorem takeback_td_clean_moves (fuel : Nat) (o o2 : ohci_hcd) (e : Nat)
    (h : takeback_td_clean fuel o e = some o2) :
    (st_kept o o2 ∧ next_same o o2) ∨
    ((o.sched.eds e).td_list = [] ∧ (o.sched.eds e).state = ED_OPER ∧
      start_ed_unlink fuel o.sched e = some o2.sched ∧
      (o2.sched.eds e).state = ED_UNLINK ∧
      ∀ y, y ≠ e → (o2.sched.eds y).state = (o.sched.eds y).state) := by
  rcases takeback_td_clean_st fuel o o2 e h with a | a
  · left
    refine ⟨a, ?_⟩
    unfold takeback_td_clean at h
    dsimp only at h
    cases hl : (o.sched.eds e).td_list with
    | nil =>
      rw [hl] at h
      dsimp only at h
      by_cases hs : (o.sched.eds e).state = ED_OPER
      · rw [if_pos hs] at h
        cases hu : start_ed_unlink fuel o.sched e with
        | none => rw [hu] at h; exact absurd h (by simp)
        | some s =>
          rw [hu] at h
          obtain ⟨u1, _⟩ := start_ed_unlink_state fuel o.sched s e hu
          have h2 := a.2 e
          rw [← Option.some.inj h] at h2
          have h3 : ED_UNLINK = ED_OPER := (u1.symm.trans h2).trans hs
          exact absurd h3 (by decide)
      · rw [if_neg hs] at h
        rw [← Option.some.inj h]
        exact next_same_refl _
    | cons first rest =>
      rw [hl] at h
      dsimp only at h
      split at h
      · split at h
        · have k1 : next_same o (o.mod_ed e
              (fun y => { y with hwINFO := clear_bits y.hwINFO ED_SKIP })) :=
            next_same_mod o e _ (fun _ => rfl)
          generalize o.mod_ed e (fun y => { y with hwINFO := clear_bits y.hwINFO ED_SKIP })
            = o1 at h k1
          split at h
          · rw [← Option.some.inj h]
            exact next_same_trans k1 (next_same_writel _ _ _)
          · split at h
            · rw [← Option.some.inj h]
              exact next_same_trans k1 (next_same_writel _ _ _)
            · rw [← Option.some.inj h]
              exact k1
        · rw [← Option.some.inj h]
          exact next_same_refl _
      · rw [← Option.some.inj h]
        exact next_same_refl _
  · exact Or.inr a

/-- `takeback_td (ohci, td)`: up to its closing test (state `o1`) no ED changes its state
and no software link changes; then the ED of the TD is unlinked only when it is in
`ED_OPER` and its `td_list` has become empty. -/
theorem takeback_td_moves (fuel : Nat) (o o2 : ohci_hcd) (t : Nat)
    (h : takeback_td fuel o t = some o2) :
    (st_kept o o2 ∧ next_same o o2) ∨
    ∃ o1, st_kept o o1 ∧ next_same o o1 ∧ (o1.sched.eds (o.tds t).ed).td_list = [] ∧
      (o1.sched.eds (o.tds t).ed).state = ED_OPER ∧
      start_ed_unlink fuel o1.sched (o.tds t).ed = some o2.sched ∧
      (o.sched.eds (o.tds t).ed).state = ED_OPER ∧
      (o2.sched.eds (o.tds t).ed).state = ED_UNLINK ∧
      ∀ y, y ≠ (o.tds t).ed → (o2.sched.eds y).state = (o.sched.eds y).state := by
  unfold takeback_td at h
  dsimp only at h
  cases hp : (o.hcd.urbs (o.tds t).urb).hcpriv with
  | none => rw [hp] at h; exact absurd h (by simp)
  | some p =>
    rw [hp] at h
    dsimp only at h
    have k1 : st_kept o ((td_done o (o.tds t).urb t).2.mod_priv p
        (fun x => { x with td_cnt := x.td_cnt + 1 })) :=
      st_kept_trans (st_kept_of_kept _ _ (fun e => td_done_kept o _ t e)) (st_kept_of _ _ rfl rfl)
    have n1 : next_same o ((td_done o (o.tds t).urb t).2.mod_priv p
        (fun x => { x with td_cnt := x.td_cnt + 1 })) :=
      next_same_trans (td_done_ednext o _ t) (next_same_of _ _ rfl)
    generalize (td_done o (o.tds t).urb t).2.mod_priv p
        (fun x => { x with td_cnt := x.td_cnt + 1 }) = o1 at h k1 n1
    generalize (td_done o (o.tds t).urb t).1 = st at h
    have key : ∀ o3, st_kept o o3 → next_same o o3 →
        takeback_td_clean fuel o3 (o.tds t).ed = some o2 →
        (st_kept o o2 ∧ next_same o o2) ∨
        ∃ o1, st_kept o o1 ∧ next_same o o1 ∧ (o1.sched.eds (o.tds t).ed).td_list = [] ∧
          (o1.sched.eds (o.tds t).ed).state = ED_OPER ∧
          start_ed_unlink fuel o1.sched (o.tds t).ed = some o2.sched ∧
          (o.sched.eds (o.tds t).ed).state = ED_OPER ∧
          (o2.sched.eds (o.tds t).ed).state = ED_UNLINK ∧
          ∀ y, y ≠ (o.tds t).ed → (o2.sched.eds y).state = (o.sched.eds y).state := by
      intro o3 k3 n3 hc
      rcases takeback_td_clean_moves fuel o3 o2 _ hc with ⟨a, b⟩ | ⟨a1, a2, a3, a4, a5⟩
      · exact Or.inl ⟨st_kept_trans k3 a, next_same_trans n3 b⟩
      · exact Or.inr ⟨o3, k3, n3, a1, a2, a3, (k3.2 _).symm.trans a2, a4,
          fun y hy => (a5 y hy).trans (k3.2 y)⟩
    by_cases hc : (o1.privs p).td_cnt = (o1.privs p).length
    · rw [if_pos hc] at h
      cases hf : finish_urb fuel o1 (o.tds t).urb st with
      | none => rw [hf] at h; exact absurd h (by simp)
      | some o3 =>
        rw [hf] at h
        exact key o3 (st_kept_trans k1
          (st_kept_of_kept _ _ (fun e => finish_urb_kept fuel o1 o3 _ _ e hf)))
          (next_same_trans n1 (finish_urb_ednext fuel o1 o3 _ _ hf)) h
    · rw [if_neg hc] at h
      exact key o1 k1 n1 h

theorem td_list_del_st (o : ohci_hcd) (t : Nat) : st_kept o (td_list_del o t) :=
  st_kept_mod o _ _ rfl

theorem ed_halted_loop_st (u e toggle : Nat) :
    ∀ (l : List Nat) (o o2 : ohci_hcd), ed_halted_loop u e toggle l o = some o2 →
      st_kept o o2 := by
  intro l
  induction l with
  | nil =>
    intro o o2 h
    rw [ed_halted_loop] at h
    rw [← Option.some.inj h]
    exact st_kept_refl _
  | cons next rest ih =>
    intro o o2 h
    rw [ed_halted_loop] at h
    split at h
    · rw [← Option.some.inj h]
      exact st_kept_refl _
    · cases hp : (o.hcd.urbs u).hcpriv with
      | none => rw [hp] at h; exact absurd h (by simp)
      | some p =>
        rw [hp] at h
        dsimp only at h
        have k1 : st_kept o ((td_list_del o next).mod_priv p
            (fun x => { x with td_cnt := x.td_cnt + 1 })) :=
          st_kept_trans (td_list_del_st o next) (st_kept_of _ _ rfl rfl)
        generalize (td_list_del o next).mod_priv p
            (fun x => { x with td_cnt := x.td_cnt + 1 }) = o1 at h k1
        exact st_kept_trans k1 (st_kept_trans (st_kept_mod o1 e _ rfl) (ih _ o2 h))

theorem ed_halted_st (o o2 : ohci_hcd) (t : Nat) (h : ed_halted o t = some o2) :
    st_kept o o2 := by
  unfold ed_halted at h
  dsimp only at h
  have k1 : st_kept o ((o.mod_ed (o.tds t).ed (fun x => { x with hwINFO := x.hwINFO ||| ED_SKIP })).mod_ed
      (o.tds t).ed (fun x => { x with hwHeadP := clear_bits x.hwHeadP ED_H })) :=
    st_kept_trans (st_kept_mod o _ _ rfl) (st_kept_mod _ _ _ rfl)
  exact st_kept_trans k1 (ed_halted_loop_st _ _ _ _ _ o2 h)

theorem dl_reverse_step_st (o : ohci_hcd) (t : Nat) (td_rev : Option Nat)
    (r : ohci_hcd × Nat) (h : dl_reverse_step o t td_rev = some r) : st_kept o r.1 := by
  unfold dl_reverse_step at h
  dsimp only at h
  have k1 : st_kept o (o.mod_td t (fun x => { x with hwINFO := x.hwINFO ||| TD_DONE })) :=
    st_kept_of _ _ rfl rfl
  generalize o.mod_td t (fun x => { x with hwINFO := x.hwINFO ||| TD_DONE }) = o1 at h k1
  by_cases hc : TD_CC_GET (o1.tds t).hwINFO ≠ TD_CC_NOERROR ∧
      (o1.sched.eds (o1.tds t).ed).hwHeadP &&& ED_H ≠ 0
  · rw [if_pos hc] at h
    cases he : ed_halted o1 t with
    | none => rw [he] at h; exact absurd h (by simp)
    | some o2 =>
      rw [he] at h
      dsimp only at h
      rw [← Option.some.inj h]
      exact st_kept_trans k1 (st_kept_trans (ed_halted_st o1 o2 t he) (st_kept_of _ _ rfl rfl))
  · rw [if_neg hc] at h
    dsimp only at h
    rw [← Option.some.inj h]
    exact st_kept_trans k1 (st_kept_of _ _ rfl rfl)

theorem dl_reverse_loop_st (fuel : Nat) :
    ∀ (n : Nat) (o : ohci_hcd) (td_dma : Nat) (td_rev : Option Nat)
      (r : ohci_hcd × Option Nat),
      dl_reverse_loop fuel n o td_dma td_rev = some r → st_kept o r.1 := by
  intro n
  induction n with
  | zero => intro o td_dma td_rev r h; simp [dl_reverse_loop] at h
  | succ n ih =>
    intro o td_dma td_rev r h
    rw [dl_reverse_loop] at h
    split at h
    · cases hd : dma_to_td fuel o td_dma with
      | none => rw [hd] at h; exact absurd h (by simp)
      | some ot =>
        rw [hd] at h
        cases ot with
        | none =>
          dsimp only at h
          rw [← Option.some.inj h]
          exact st_kept_refl _
        | some t =>
          dsimp only at h
          cases hs : dl_reverse_step o t td_rev with
          | none => rw [hs] at h; exact absurd h (by simp)
          | some q =>
            rw [hs] at h
            obtain ⟨o1, nd⟩ := q
            dsimp only at h
            exact st_kept_trans (dl_reverse_step_st o t td_rev _ hs) (ih o1 nd (some t) r h)
    · rw [← Option.some.inj h]
      exact st_kept_refl _

/-- `dl_reverse_done_list` changes the state of no ED. -/
theorem dl_reverse_done_list_st (fuel : Nat) (o : ohci_hcd) (r : ohci_hcd × Option Nat)
    (h : dl_reverse_done_list fuel o = some r) : st_kept o r.1 := by
  unfold dl_reverse_done_list at h
  exact st_kept_trans (st_kept_of o { o with done_head := 0 } rfl rfl)
    (dl_reverse_loop_st fuel fuel _ _ _ r h)

/-- The loop of `dl_done_list`: an ED keeps its state, or it moves from `ED_OPER` to
`ED_UNLINK`. -/
theorem dl_done_loop_moves (fuel : Nat) :
    ∀ (n : Nat) (o : ohci_hcd) (td : Option Nat) (o2 : ohci_hcd),
      dl_done_loop fuel n o td = some o2 →
      ∀ y, (o2.sched.eds y).state = (o.sched.eds y).state ∨
        ((o.sched.eds y).state = ED_OPER ∧ (o2.sched.eds y).state = ED_UNLINK) := by
  intro n
  induction n with
  | zero => intro o td o2 h; simp [dl_done_loop] at h
  | succ n ih =>
    intro o td o2 h y
    cases td with
    | none =>
      rw [dl_done_loop] at h
      rw [← Option.some.inj h]
      exact Or.inl rfl
    | some t =>
      rw [dl_done_loop] at h
      cases ht : takeback_td fuel o t with
      | none => rw [ht] at h; exact absurd h (by simp)
      | some o1 =>
        rw [ht] at h
        have step : (o1.sched.eds y).state = (o.sched.eds y).state ∨
            ((o.sched.eds y).state = ED_OPER ∧ (o1.sched.eds y).state = ED_UNLINK) := by
          rcases takeback_td_st fuel o o1 t ht with a | ⟨_, _, _, _, _, a5, a6, a7⟩
          · exact Or.inl (a.2 y)
          · by_cases hy : y = (o.tds t).ed
            · rw [hy]
              exact Or.inr ⟨a5, a6⟩
            · exact Or.inl (a7 y hy)
        rcases ih o1 _ o2 h y with b | ⟨b1, b2⟩
        · rcases step with a | ⟨a1, a2⟩
          · exact Or.inl (b.trans a)
          · exact Or.inr ⟨a1, b.trans a2⟩
        · rcases step with a | ⟨a1, a2⟩
          · exact Or.inr ⟨a.symm.trans b1, b2⟩
          · have h3 : ED_UNLINK = ED_OPER := a2.symm.trans b1
            exact absurd h3 (by decide)

/-- `dl_done_list`: an ED keeps its state, or it moves from `ED_OPER` to `ED_UNLINK`. -/
theorem dl_done_list_moves (fuel : Nat) (o o2 : ohci_hcd) (h : dl_done_list fuel o = some o2) :
    ∀ y, (o2.sched.eds y).state = (o.sched.eds y).state ∨
      ((o.sched.eds y).state = ED_OPER ∧ (o2.sched.eds y).state = ED_UNLINK) := by
  intro y
  unfold dl_done_list at h
  cases hr : dl_reverse_done_list fuel o with
  | none => rw [hr] at h; exact absurd h (by simp)
  | some r =>
    rw [hr] at h
    obtain ⟨o1, td⟩ := r
    dsimp only at h
    have k := (dl_reverse_done_list_st fuel o _ hr).2 y
    rcases dl_done_loop_moves fuel fuel o1 td o2 h y with b | ⟨b1, b2⟩
    · exact Or.inl (b.trans k)
    · exact Or.inr ⟨k.symm.trans b1, b2⟩


/-! ## The state of an ED: a new ED -/

theorem mod_ed_eds_other (o : ohci_hcd) (x : Nat) (f : ed → ed) (y : Nat) (h : y ≠ x) :
    (o.mod_ed x f).sched.eds y = o.sched.eds y := by
  simp only [ohci_hcd.mod_ed, ohci_sched.mod_ed, upd_other _ _ _ _ h]

theorem mod_ed_eds_same (o : ohci_hcd) (x : Nat) (f : ed → ed) :
    (o.mod_ed x f).sched.eds x = f (o.sched.eds x) := by
  simp only [ohci_hcd.mod_ed, ohci_sched.mod_ed, upd_same]

theorem ed_only_refl (a : ohci_hcd) (e : Nat) : ed_only a a e := ⟨rfl, rfl, fun _ _ => rfl⟩

theorem ed_only_trans {a b c : ohci_hcd} {e : Nat} (h1 : ed_only a b e) (h2 : ed_only b c e) :
    ed_only a c e :=
  ⟨h2.1.trans h1.1, h2.2.1.trans h1.2.1, fun y hy => (h2.2.2 y hy).trans (h1.2.2 y hy)⟩

theorem ed_only_mod (a : ohci_hcd) (e : Nat) (f : ed → ed) : ed_only a (a.mod_ed e f) e :=
  ⟨rfl, rfl, fun y hy => mod_ed_eds_other a e f y hy⟩

theorem ed_get_periodic_only (o : ohci_hcd) (e : Nat) (ep : usb_host_endpoint)
    (speed : usb_device_speed) (interval : Int) :
    ed_only o (ed_get_periodic o e ep speed interval) e ∧
    ((ed_get_periodic o e ep speed interval).sched.eds e).state = (o.sched.eds e).state := by
  unfold ed_get_periodic
  dsimp only
  refine ⟨ed_only_trans (ed_only_mod _ _ _) (ed_only_mod _ _ _), ?_⟩
  rw [mod_ed_eds_same, mod_ed_eds_same]

theorem ed_get_fill_only (o : ohci_hcd) (ep : Nat) (speed : usb_device_speed) (pipe : Nat)
    (interval : Int) (e t : Nat) :
    (ed_get_fill o ep speed pipe interval e t).hcd.state = o.hcd.state ∧
    (ed_get_fill o ep speed pipe interval e t).sched.ed_rm_list = o.sched.ed_rm_list ∧
    (∀ y, y ≠ e → (ed_get_fill o ep speed pipe interval e t).sched.eds y = o.sched.eds y) ∧
    ((ed_get_fill o ep speed pipe interval e t).sched.eds e).state = ED_IDLE := by
  unfold ed_get_fill
  dsimp only
  have a3 := ed_only_mod o e (fun x => { x with dummy := some t, hwTailP := (o.tds t).td_dma })
  generalize o.mod_ed e (fun x => { x with dummy := some t, hwTailP := (o.tds t).td_dma })
    = o3 at a3
  have a4 := ed_only_trans a3 (ed_only_mod o3 e (fun x => { x with hwHeadP := x.hwTailP }))
  generalize o3.mod_ed e (fun x => { x with hwHeadP := x.hwTailP }) = o4 at a4
  have a5 := ed_only_trans a4 (ed_only_mod o4 e (fun x => { x with state := ED_IDLE }))
  have s5 : ((o4.mod_ed e (fun x => { x with state := ED_IDLE })).sched.eds e).state = ED_IDLE := by
    rw [mod_ed_eds_same]
  generalize o4.mod_ed e (fun x => { x with state := ED_IDLE }) = o5 at a5 s5
  have a6 := ed_only_trans a5 (ed_only_mod o5 e (fun x => { x with type := usb_pipetype pipe }))
  have s6 : ((o5.mod_ed e (fun x => { x with type := usb_pipetype pipe })).sched.eds e).state
      = ED_IDLE := by
    rw [mod_ed_eds_same]; exact s5
  generalize o5.mod_ed e (fun x => { x with type := usb_pipetype pipe }) = o6 at a6 s6
  have a7 : ed_only o (if (o6.sched.eds e).type ≠ PIPE_CONTROL ∧
        (o6.sched.eds e).type ≠ PIPE_BULK then
        ed_get_periodic o6 e (o6.hcd.eps ep) speed interval else o6) e ∧
      ((if (o6.sched.eds e).type ≠ PIPE_CONTROL ∧
        (o6.sched.eds e).type ≠ PIPE_BULK then
        ed_get_periodic o6 e (o6.hcd.eps ep) speed interval else o6).sched.eds e).state
        = ED_IDLE := by
    split
    · exact ⟨ed_only_trans a6 (ed_get_periodic_only _ _ _ _ _).1,
        (ed_get_periodic_only _ _ _ _ _).2.trans s6⟩
    · exact ⟨a6, s6⟩
  generalize (if (o6.sched.eds e).type ≠ PIPE_CONTROL ∧
        (o6.sched.eds e).type ≠ PIPE_BULK then
        ed_get_periodic o6 e (o6.hcd.eps ep) speed interval else o6) = o7 at a7
  obtain ⟨a7, s7⟩ := a7
  refine ⟨?_, ?_, fun y hy => ?_, ?_⟩
  · show o7.hcd.state = o.hcd.state
    rw [a7.1]
  · exact a7.2.1
  · show (o7.mod_ed e _).sched.eds y = o.sched.eds y
    rw [mod_ed_eds_other _ _ _ _ hy]
    exact a7.2.2 y hy
  · show ((o7.mod_ed e _).sched.eds e).state = ED_IDLE
    rw [mod_ed_eds_same]
    exact s7

theorem ed_get_found (o : ohci_hcd) (ep : Nat) (speed : usb_device_speed) (pipe : Nat)
    (interval : Int) (new_ed new_td : Option (Nat × Nat)) (e : Nat)
    (hp : (o.hcd.eps ep).hcpriv = some e) :
    ed_get o ep speed pipe interval new_ed new_td = (some e, o) := by
  unfold ed_get
  rw [hp]

theorem ed_get_no_ed (o : ohci_hcd) (ep : Nat) (speed : usb_device_speed) (pipe : Nat)
    (interval : Int) (new_td : Option (Nat × Nat)) (hp : (o.hcd.eps ep).hcpriv = none) :
    ed_get o ep speed pipe interval none new_td = (none, o) := by
  unfold ed_get
  rw [hp]
  rfl

theorem ed_get_no_td (o : ohci_hcd) (ep : Nat) (speed : usb_device_speed) (pipe : Nat)
    (interval : Int) (e dma : Nat) (hp : (o.hcd.eps ep).hcpriv = none) :
    ed_get o ep speed pipe interval (some (e, dma)) none
      = (none, ed_free (o.mod_ed e (fun _ => { dma := dma })) e) := by
  unfold ed_get
  rw [hp]
  rfl

theorem ed_get_new (o : ohci_hcd) (ep : Nat) (speed : usb_device_speed) (pipe : Nat)
    (interval : Int) (e dma t tdma : Nat) (hp : (o.hcd.eps ep).hcpriv = none) :
    ed_get o ep speed pipe interval (some (e, dma)) (some (t, tdma))
      = (some e, ed_get_fill ((o.mod_ed e (fun _ => { dma := dma })).mod_td t
          (fun _ => { hwNextTD := tdma, td_dma := tdma })) ep speed pipe interval e t) := by
  unfold ed_get
  rw [hp]
  rfl

/-- `ed_get` writes to no ED but the block that `ed_alloc` returned, and this block is in
`ED_IDLE` afterwards; the controller state and `ed_rm_list` stay.  Without a call of
`ed_alloc` that returns a block no ED changes. -/
theorem ed_get_frame (o : ohci_hcd) (ep : Nat) (speed : usb_device_speed) (pipe : Nat)
    (interval : Int) (new_ed new_td : Option (Nat × Nat)) :
    (ed_get o ep speed pipe interval new_ed new_td).2.hcd.state = o.hcd.state ∧
    (ed_get o ep speed pipe interval new_ed new_td).2.sched.ed_rm_list = o.sched.ed_rm_list ∧
    (((o.hcd.eps ep).hcpriv ≠ none ∨ new_ed = none) →
      (ed_get o ep speed pipe interval new_ed new_td).2.sched.eds = o.sched.eds ∧
      (ed_get o ep speed pipe interval new_ed new_td).1 = (o.hcd.eps ep).hcpriv) ∧
    (∀ e dma, (o.hcd.eps ep).hcpriv = none → new_ed = some (e, dma) →
      ((ed_get o ep speed pipe interval new_ed new_td).2.sched.eds e).state = ED_IDLE ∧
      (∀ y, y ≠ e →
        (ed_get o ep speed pipe interval new_ed new_td).2.sched.eds y = o.sched.eds y) ∧
      ((ed_get o ep speed pipe interval new_ed new_td).1 = none ∨
        (ed_get o ep speed pipe interval new_ed new_td).1 = some e)) := by
  cases hp : (o.hcd.eps ep).hcpriv with
  | some e0 =>
    rw [ed_get_found o ep speed pipe interval new_ed new_td e0 hp]
    exact ⟨rfl, rfl, fun _ => ⟨rfl, rfl⟩, fun _ _ h => absurd h (by simp)⟩
  | none =>
    cases new_ed with
    | none =>
      rw [ed_get_no_ed o ep speed pipe interval new_td hp]
      exact ⟨rfl, rfl, fun _ => ⟨rfl, rfl⟩, fun _ _ _ h => absurd h (by simp)⟩
    | some q =>
      obtain ⟨e, dma⟩ := q
      have a0 : ed_only o (o.mod_ed e (fun _ => { dma := dma })) e := ed_only_mod _ _ _
      have s0 : ((o.mod_ed e (fun _ => { dma := dma })).sched.eds e).state = ED_IDLE := by
        rw [mod_ed_eds_same]; rfl
      have hne : ¬ ((none : Option Nat) ≠ none ∨ some (e, dma) = (none : Option (Nat × Nat))) := by
        simp
      cases new_td with
      | none =>
        rw [ed_get_no_td o ep speed pipe interval e dma hp]
        refine ⟨congrArg usb_hcd.state a0.1, a0.2.1, fun h => absurd h hne, fun e2 d2 _ h => ?_⟩
        have he : e2 = e := (congrArg Prod.fst (Option.some.inj h)).symm
        subst he
        exact ⟨s0, fun y hy => a0.2.2 y hy, Or.inl rfl⟩
      | some q2 =>
        obtain ⟨t, tdma⟩ := q2
        rw [ed_get_new o ep speed pipe interval e dma t tdma hp]
        obtain ⟨f1, f2, f3, f4⟩ := ed_get_fill_only ((o.mod_ed e (fun _ => { dma := dma })).mod_td t
          (fun _ => { hwNextTD := tdma, td_dma := tdma })) ep speed pipe interval e t
        refine ⟨f1.trans (congrArg usb_hcd.state a0.1), f2.trans a0.2.1,
          fun h => absurd h hne, fun e2 d2 _ h => ?_⟩
        have he : e2 = e := (congrArg Prod.fst (Option.some.inj h)).symm
        subst he
        exact ⟨f4, fun y hy => (f3 y hy).trans (a0.2.2 y hy), Or.inr rfl⟩


/-! ## The state of an ED: what leaves ed_rm_list alone -/

theorem td_fill_nx (o o2 : ohci_hcd) (info data len u k : Nat)
    (h : td_fill o info data len u k = some o2) : next_same o o2 := by
  unfold td_fill at h
  cases hp : (o.hcd.urbs u).hcpriv with
  | none => rw [hp] at h; exact absurd h (by simp)
  | some p =>
    rw [hp] at h
    dsimp only at h
    cases hd : (o.sched.eds (o.privs p).ed).dummy with
    | none => rw [hd] at h; exact absurd h (by simp)
    | some t =>
      cases ht : (o.privs p).td k with
      | none => rw [hd, ht] at h; exact absurd h (by simp)
      | some t_pt =>
        rw [hd, ht] at h
        rw [← Option.some.inj h]
        unfold td_fill_cell
        dsimp only
        have k1 : next_same o (o.mod_priv p (fun x => { x with td := upd x.td k (some t) })) :=
          next_same_of _ _ rfl
        generalize o.mod_priv p (fun x => { x with td := upd x.td k (some t) }) = o1 at k1
        refine next_same_trans k1 ?_
        have k2 := next_same_mod o1 (o.privs p).ed (fun x => { x with dummy := some t_pt })
          (fun _ => rfl)
        generalize o1.mod_ed (o.privs p).ed (fun x => { x with dummy := some t_pt }) = o2b at k2
        refine next_same_trans k2 ?_
        refine next_same_trans ?_ (next_same_mod _ _ _ (fun _ => rfl))
        refine next_same_trans ?_ (next_same_of _ _ rfl)
        refine next_same_trans ?_ (next_same_of _ _ rfl)
        refine next_same_trans ?_ (next_same_mod _ _ _ (fun _ => rfl))
        split
        · exact next_same_trans (next_same_of _ _ rfl) (next_same_mod _ _ _ (fun _ => rfl))
        · exact next_same_of _ _ rfl

theorem td_submit_urb_start_nx (o : ohci_hcd) (u p : Nat) :
    next_same o (td_submit_urb_start o u p) := by
  unfold td_submit_urb_start
  dsimp only
  refine next_same_trans ?_ (next_same_of _ _ rfl)
  split
  · exact next_same_trans (next_same_of o _ rfl) (next_same_mod _ _ _ (fun _ => rfl))
  · exact next_same_refl _

theorem start_periodic_nx (o : ohci_hcd) (b : Bool) : next_same o (start_periodic o b) := by
  unfold start_periodic
  split
  · exact ⟨rfl, rfl, rfl, rfl, fun _ => rfl⟩
  · exact next_same_refl _

theorem td_submit_urb_chunks_nx (info u : Nat) :
    ∀ (fuel : Nat) (o : ohci_hcd) (data len cnt : Nat) (r : ohci_hcd × Nat × Nat × Nat),
      td_submit_urb_chunks info u fuel o data len cnt = some r → next_same o r.1 := by
  intro fuel
  induction fuel with
  | zero => intro o data len cnt r h; simp [td_submit_urb_chunks] at h
  | succ n ih =>
    intro o data len cnt r h
    rw [td_submit_urb_chunks] at h
    split at h
    · cases hf : td_fill o info data 4096 u cnt with
      | none => rw [hf] at h; exact absurd h (by simp)
      | some o1 =>
        rw [hf] at h
        exact next_same_trans (td_fill_nx o o1 _ _ _ _ _ hf) (ih o1 _ _ _ r h)
    · rw [← Option.some.inj h]
      exact next_same_refl _

theorem td_submit_urb_bulk_nx (o o2 : ohci_hcd) (u p data len : Nat)
    (h : td_submit_urb_bulk o u p data len = some o2) : next_same o o2 := by
  unfold td_submit_urb_bulk at h
  dsimp only at h
  generalize (if (o.hcd.urbs u).pipe_out = true then TD_T_TOGGLE ||| TD_CC ||| TD_DP_OUT
    else TD_T_TOGGLE ||| TD_CC ||| TD_DP_IN) = info at h
  cases hc : td_submit_urb_chunks info u (len / 4096 + 1) o data len 0 with
  | none => rw [hc] at h; exact absurd h (by simp)
  | some q =>
    rw [hc] at h
    have k1 := td_submit_urb_chunks_nx info u _ o data len 0 q hc
    obtain ⟨o1, d1, l1, c1⟩ := q
    dsimp only at h k1
    generalize (if (o.hcd.urbs u).transfer_flags &&& URB_SHORT_NOT_OK = 0 then info ||| TD_R
      else info) = info2 at h
    cases hf : td_fill o1 info2 d1 l1 u c1 with
    | none => rw [hf] at h; exact absurd h (by simp)
    | some o3 =>
      rw [hf] at h
      dsimp only at h
      have k2 := next_same_trans k1 (td_fill_nx o1 o3 _ _ _ _ _ hf)
      have key : ∀ o4, next_same o o4 →
          (if (o4.sched.eds (o4.privs p).ed).type = PIPE_BULK then
            some (o4.writel OHCI_BLF .cmdstatus) else some o4) = some o2 → next_same o o2 := by
        intro o4 k4 h4
        split at h4
        · rw [← Option.some.inj h4]
          exact next_same_trans k4 (next_same_writel _ _ _)
        · rw [← Option.some.inj h4]
          exact k4
      by_cases hz0 : (o.hcd.urbs u).transfer_flags &&& URB_ZERO_PACKET ≠ 0
          ∧ c1 + 1 < (o3.privs p).length
      · rw [if_pos hz0] at h
        cases hz : td_fill o3 info2 0 0 u (c1 + 1) with
        | none => rw [hz] at h; exact absurd h (by simp)
        | some o4 =>
          rw [hz] at h
          exact key o4 (next_same_trans k2 (td_fill_nx o3 o4 _ _ _ _ _ hz)) h
      · rw [if_neg hz0] at h
        exact key o3 k2 h

theorem td_submit_urb_control_nx (o o2 : ohci_hcd) (u data len : Nat)
    (h : td_submit_urb_control o u data len = some o2) : next_same o o2 := by
  unfold td_submit_urb_control at h
  dsimp only at h
  cases h1 : td_fill o (TD_CC ||| TD_DP_SETUP ||| TD_T_DATA0) (o.hcd.urbs u).setup_dma 8 u 0 with
  | none => rw [h1] at h; exact absurd h (by simp)
  | some o1 =>
    rw [h1] at h
    dsimp only at h
    have k1 := td_fill_nx o o1 _ _ _ _ _ h1
    generalize (if (o.hcd.urbs u).pipe_out = true ∨ len = 0 then TD_CC ||| TD_DP_IN ||| TD_T_DATA1
      else TD_CC ||| TD_DP_OUT ||| TD_T_DATA1) = sinfo at h
    have key : ∀ o3 cnt, next_same o o3 →
        (match td_fill o3 sinfo data 0 u cnt with
          | none => none
          | some o4 => some (o4.writel OHCI_CLF .cmdstatus)) = some o2 → next_same o o2 := by
      intro o3 cnt k3 h3
      cases hf : td_fill o3 sinfo data 0 u cnt with
      | none => rw [hf] at h3; exact absurd h3 (by simp)
      | some o4 =>
        rw [hf] at h3
        rw [← Option.some.inj h3]
        exact next_same_trans k3 (next_same_trans (td_fill_nx o3 o4 _ _ _ _ _ hf)
          (next_same_writel _ _ _))
    by_cases hl : len > 0
    · rw [if_pos hl] at h
      cases h2 : td_fill o1 (TD_CC ||| TD_R ||| TD_T_DATA1
          ||| (if (o.hcd.urbs u).pipe_out = true then TD_DP_OUT else TD_DP_IN)) data len u 1 with
      | none => rw [h2] at h; exact absurd h (by simp)
      | some o3 =>
        rw [h2] at h
        exact key o3 2 (next_same_trans k1 (td_fill_nx o1 o3 _ _ _ _ _ h2)) h
    · rw [if_neg hl] at h
      exact key o1 1 k1 h

theorem td_submit_urb_iso_loop_nx (u data : Nat) :
    ∀ (fuel : Nat) (o : ohci_hcd) (cnt : Nat) (o2 : ohci_hcd),
      td_submit_urb_iso_loop u data fuel o cnt = some o2 → next_same o o2 := by
  intro fuel
  induction fuel with
  | zero => intro o cnt o2 h; simp [td_submit_urb_iso_loop] at h
  | succ n ih =>
    intro o cnt o2 h
    rw [td_submit_urb_iso_loop] at h
    dsimp only at h
    split at h
    · generalize wrap32 ((o.hcd.urbs u).start_frame + (cnt : Int) * (o.hcd.urbs u).interval)
        &&& 0xffff = frame at h
      cases hf : td_fill o (TD_CC ||| TD_ISO ||| frame)
          (data + ((o.hcd.urbs u).iso_frame_desc cnt).offset)
          ((o.hcd.urbs u).iso_frame_desc cnt).length u cnt with
      | none => rw [hf] at h; exact absurd h (by simp)
      | some o1 =>
        rw [hf] at h
        exact next_same_trans (td_fill_nx o o1 _ _ _ _ _ hf) (ih o1 _ o2 h)
    · rw [← Option.some.inj h]
      exact next_same_refl _

/-- `td_submit_urb` changes no software link of the schedules or of `ed_rm_list`. -/
theorem td_submit_urb_nx (o o2 : ohci_hcd) (u : Nat) (h : td_submit_urb o u = some o2) :
    next_same o o2 := by
  unfold td_submit_urb at h
  cases hp : (o.hcd.urbs u).hcpriv with
  | none => rw [hp] at h; exact absurd h (by simp)
  | some p =>
    rw [hp] at h
    dsimp only at h
    have k1 := td_submit_urb_start_nx o u p
    generalize td_submit_urb_start o u p = o1 at h k1
    split at h
    · have k2 : next_same o (o1.add_int_reqs 1) := next_same_trans k1 (next_same_of _ _ rfl)
      generalize o1.add_int_reqs 1 = o2b at h k2
      cases hb : td_submit_urb_bulk o2b u p
          (if (o.hcd.urbs u).transfer_buffer_length ≠ 0 then (o1.hcd.urbs u).transfer_dma else 0)
          (o.hcd.urbs u).transfer_buffer_length with
      | none => rw [hb] at h; exact absurd h (by simp)
      | some o3 =>
        rw [hb] at h
        rw [← Option.some.inj h]
        exact next_same_trans k2 (next_same_trans (td_submit_urb_bulk_nx _ _ _ _ _ _ hb)
          (start_periodic_nx _ _))
    · split at h
      · exact next_same_trans k1 (td_submit_urb_bulk_nx _ _ _ _ _ _ h)
      · split at h
        · exact next_same_trans k1 (td_submit_urb_control_nx _ _ _ _ _ h)
        · split at h
          · cases hi : td_submit_urb_iso_loop u
                (if (o.hcd.urbs u).transfer_buffer_length ≠ 0 then (o1.hcd.urbs u).transfer_dma
                  else 0) ((o1.hcd.urbs u).number_of_packets + 1) o1 0 with
            | none => rw [hi] at h; exact absurd h (by simp)
            | some o3 =>
              rw [hi] at h
              dsimp only at h
              have k3 := next_same_trans k1 (td_submit_urb_iso_loop_nx u _ _ o1 0 o3 hi)
              rw [← Option.some.inj h]
              refine next_same_trans k3 (next_same_trans ?_ (start_periodic_nx _ _))
              split
              · exact next_same_of _ _ rfl
              · exact next_same_of _ _ rfl
          · rw [← Option.some.inj h]
            exact k1


theorem td_list_del_nx (o : ohci_hcd) (t : Nat) : next_same o (td_list_del o t) :=
  next_same_mod o _ _ (fun _ => rfl)

theorem ed_halted_loop_nx (u e toggle : Nat) :
    ∀ (l : List Nat) (o o2 : ohci_hcd), ed_halted_loop u e toggle l o = some o2 →
      next_same o o2 := by
  intro l
  induction l with
  | nil =>
    intro o o2 h
    rw [ed_halted_loop] at h
    rw [← Option.some.inj h]
    exact next_same_refl _
  | cons next rest ih =>
    intro o o2 h
    rw [ed_halted_loop] at h
    split at h
    · rw [← Option.some.inj h]
      exact next_same_refl _
    · cases hp : (o.hcd.urbs u).hcpriv with
      | none => rw [hp] at h; exact absurd h (by simp)
      | some p =>
        rw [hp] at h
        dsimp only at h
        have k1 : next_same o ((td_list_del o next).mod_priv p
            (fun x => { x with td_cnt := x.td_cnt + 1 })) :=
          next_same_trans (td_list_del_nx o next) (next_same_of _ _ rfl)
        generalize (td_list_del o next).mod_priv p
            (fun x => { x with td_cnt := x.td_cnt + 1 }) = o1 at h k1
        refine next_same_trans k1 (next_same_trans (next_same_mod o1 e _ ?_) (ih _ o2 h))
        intro _; rfl

theorem ed_halted_nx (o o2 : ohci_hcd) (t : Nat) (h : ed_halted o t = some o2) :
    next_same o o2 := by
  unfold ed_halted at h
  dsimp only at h
  have k1 : next_same o ((o.mod_ed (o.tds t).ed (fun x => { x with hwINFO := x.hwINFO ||| ED_SKIP })).mod_ed
      (o.tds t).ed (fun x => { x with hwHeadP := clear_bits x.hwHeadP ED_H })) :=
    by
      refine next_same_trans (next_same_mod o _ _ ?_) (next_same_mod _ _ _ ?_)
      · intro _; rfl
      · intro _; rfl
  exact next_same_trans k1 (ed_halted_loop_nx _ _ _ _ _ o2 h)

theorem dl_reverse_step_nx (o : ohci_hcd) (t : Nat) (td_rev : Option Nat)
    (r : ohci_hcd × Nat) (h : dl_reverse_step o t td_rev = some r) : next_same o r.1 := by
  unfold dl_reverse_step at h
  dsimp only at h
  have k1 : next_same o (o.mod_td t (fun x => { x with hwINFO := x.hwINFO ||| TD_DONE })) :=
    next_same_of _ _ rfl
  generalize o.mod_td t (fun x => { x with hwINFO := x.hwINFO ||| TD_DONE }) = o1 at h k1
  by_cases hc : TD_CC_GET (o1.tds t).hwINFO ≠ TD_CC_NOERROR ∧
      (o1.sched.eds (o1.tds t).ed).hwHeadP &&& ED_H ≠ 0
  · rw [if_pos hc] at h
    cases he : ed_halted o1 t with
    | none => rw [he] at h; exact absurd h (by simp)
    | some o2 =>
      rw [he] at h
      dsimp only at h
      rw [← Option.some.inj h]
      exact next_same_trans k1 (next_same_trans (ed_halted_nx o1 o2 t he) (next_same_of _ _ rfl))
  · rw [if_neg hc] at h
    dsimp only at h
    rw [← Option.some.inj h]
    exact next_same_trans k1 (next_same_of _ _ rfl)

theorem dl_reverse_loop_nx (fuel : Nat) :
    ∀ (n : Nat) (o : ohci_hcd) (td_dma : Nat) (td_rev : Option Nat)
      (r : ohci_hcd × Option Nat),
      dl_reverse_loop fuel n o td_dma td_rev = some r → next_same o r.1 := by
  intro n
  induction n with
  | zero => intro o td_dma td_rev r h; simp [dl_reverse_loop] at h
  | succ n ih =>
    intro o td_dma td_rev r h
    rw [dl_reverse_loop] at h
    split at h
    · cases hd : dma_to_td fuel o td_dma with
      | none => rw [hd] at h; exact absurd h (by simp)
      | some ot =>
        rw [hd] at h
        cases ot with
        | none =>
          dsimp only at h
          rw [← Option.some.inj h]
          exact next_same_refl _
        | some t =>
          dsimp only at h
          cases hs : dl_reverse_step o t td_rev with
          | none => rw [hs] at h; exact absurd h (by simp)
          | some q =>
            rw [hs] at h
            obtain ⟨o1, nd⟩ := q
            dsimp only at h
            exact next_same_trans (dl_reverse_step_nx o t td_rev _ hs) (ih o1 nd (some t) r h)
    · rw [← Option.some.inj h]
      exact next_same_refl _

/-- `dl_reverse_done_list` changes no software link of the schedules or of `ed_rm_list`. -/
theorem dl_reverse_done_list_nx (fuel : Nat) (o : ohci_hcd) (r : ohci_hcd × Option Nat)
    (h : dl_reverse_done_list fuel o = some r) : next_same o r.1 := by
  unfold dl_reverse_done_list at h
  exact next_same_trans (next_same_of o { o with done_head := 0 } rfl)
    (dl_reverse_loop_nx fuel fuel _ _ _ r h)



/-! ## The state of an ED: the invariant of ed_rm_list -/

/-- What keeps the states and the software links keeps the invariant of `ed_rm_list`. -/
theorem rm_pending_frame (a b : ohci_hcd) (L : List Nat) (hs : st_kept a b)
    (hn : next_same a b) (h : rm_pending a.sched L) : rm_pending b.sched L :=
  ⟨on_rm_list_next a b L hn h.1, fun y hy => (hs.2 y).trans (h.2 y hy)⟩

/-- `start_ed_unlink` for an ED that is not on `ed_rm_list` keeps the invariant, the ED
being the new first entry. -/
theorem start_ed_unlink_pending (fuel : Nat) (s s2 : ohci_sched) (e : Nat) (L : List Nat)
    (h : start_ed_unlink fuel s e = some s2) (hl : rm_pending s L) (he : e ∉ L)
    (hprev : ∀ p, (s.eds e).ed_prev = some p → (s.eds p).ed_next = some e) :
    rm_pending s2 (e :: L) := by
  obtain ⟨u1, u2⟩ := start_ed_unlink_state fuel s s2 e h
  refine ⟨start_ed_unlink_list fuel s s2 e L h hl.1 he hprev, fun y hy => ?_⟩
  rcases List.mem_cons.1 hy with hy | hy
  · rw [hy]; exact u1
  · have hne : y ≠ e := fun c => he (c ▸ hy)
    exact (u2 y hne).trans (hl.2 y hy)

/-- The call of `ed_get` keeps the invariant of `ed_rm_list` when the allocator returns a
block that is not on the list. -/
theorem ed_get_pending (o : ohci_hcd) (ep : Nat) (speed : usb_device_speed) (pipe : Nat)
    (interval : Int) (new_ed new_td : Option (Nat × Nat)) (L : List Nat)
    (hl : rm_pending o.sched L) (hf : ∀ e dma, new_ed = some (e, dma) → e ∉ L) :
    rm_pending (ed_get o ep speed pipe interval new_ed new_td).2.sched L := by
  obtain ⟨_, f2, f3, f4⟩ := ed_get_frame o ep speed pipe interval new_ed new_td
  have key : ∀ y, y ∈ L →
      (ed_get o ep speed pipe interval new_ed new_td).2.sched.eds y = o.sched.eds y := by
    intro y hy
    by_cases hc : (o.hcd.eps ep).hcpriv ≠ none ∨ new_ed = none
    · rw [(f3 hc).1]
    · have h1 : (o.hcd.eps ep).hcpriv = none := by
        by_contra c
        exact hc (Or.inl c)
      rcases Option.eq_none_or_eq_some new_ed with hn | ⟨q, hn⟩
      · exact absurd (Or.inr hn) hc
      · obtain ⟨e, dma⟩ := q
        have hne : y ≠ e := fun c => hf e dma hn (c ▸ hy)
        exact (f4 e dma h1 hn).2.1 y hne
  refine ⟨?_, fun y hy => ?_⟩
  · unfold on_rm_list
    rw [f2]
    exact ed_path_congr o.sched _ L _ _ (fun x hx => by rw [key x hx]) hl.1
  · rw [key y hy]
    exact hl.2 y hy

/-- The states under `ed_get`: an ED keeps its state, or it is the block that `ed_alloc`
returned and is in `ED_IDLE`. -/
theorem ed_get_st (o : ohci_hcd) (ep : Nat) (speed : usb_device_speed) (pipe : Nat)
    (interval : Int) (new_ed new_td : Option (Nat × Nat)) (y : Nat) :
    ((ed_get o ep speed pipe interval new_ed new_td).2.sched.eds y).state
        = (o.sched.eds y).state ∨
      ((o.hcd.eps ep).hcpriv = none ∧ (∃ dma, new_ed = some (y, dma)) ∧
        ((ed_get o ep speed pipe interval new_ed new_td).2.sched.eds y).state = ED_IDLE) := by
  obtain ⟨_, _, f3, f4⟩ := ed_get_frame o ep speed pipe interval new_ed new_td
  by_cases hc : (o.hcd.eps ep).hcpriv ≠ none ∨ new_ed = none
  · left
    rw [(f3 hc).1]
  · have h1 : (o.hcd.eps ep).hcpriv = none := by
      by_contra c
      exact hc (Or.inl c)
    rcases Option.eq_none_or_eq_some new_ed with hn | ⟨q, hn⟩
    · exact absurd (Or.inr hn) hc
    · obtain ⟨e, dma⟩ := q
      by_cases hy : y = e
      · right
        subst hy
        exact ⟨h1, ⟨dma, hn⟩, (f4 y dma h1 hn).1⟩
      · left
        rw [(f4 e dma h1 hn).2.1 y hy]

/-- The invariant of `ed_rm_list` under `takeback_td`: the list stays, or the ED of the TD
becomes its first entry. -/
theorem takeback_td_pending (fuel : Nat) (o o2 : ohci_hcd) (t : Nat)
    (h : takeback_td fuel o t = some o2) :
    (st_kept o o2 ∧ next_same o o2) ∨
    ∃ o1, st_kept o o1 ∧ next_same o o1 ∧ (o1.sched.eds (o.tds t).ed).td_list = [] ∧
      (o1.sched.eds (o.tds t).ed).state = ED_OPER ∧
      start_ed_unlink fuel o1.sched (o.tds t).ed = some o2.sched ∧
      (o.sched.eds (o.tds t).ed).state = ED_OPER ∧
      (o2.sched.eds (o.tds t).ed).state = ED_UNLINK ∧
      (∀ y, y ≠ (o.tds t).ed → (o2.sched.eds y).state = (o.sched.eds y).state) ∧
      ∀ L, rm_pending o.sched L →
        (∀ p, (o1.sched.eds (o.tds t).ed).ed_prev = some p →
          (o1.sched.eds p).ed_next = some (o.tds t).ed) →
        rm_pending o2.sched ((o.tds t).ed :: L) := by
  rcases takeback_td_moves fuel o o2 t h with a | ⟨o1, a1, a2, a3, a4, a5, a6, a7, a8⟩
  · exact Or.inl a
  · refine Or.inr ⟨o1, a1, a2, a3, a4, a5, a6, a7, a8, fun L hl hprev => ?_⟩
    have hl1 := rm_pending_frame o o1 L a1 a2 hl
    have he : (o.tds t).ed ∉ L := by
      intro c
      have h3 : ED_UNLINK = ED_OPER := (hl1.2 _ c).symm.trans a4
      exact absurd h3 (by decide)
    exact start_ed_unlink_pending fuel o1.sched o2.sched _ L a5 hl1 he hprev

/-- The moves of `finish_unlinks` under the invariant of `ed_rm_list`: only EDs of the
list change their state, each of them from `ED_UNLINK`, and the invariant holds again for
the EDs that are left on the list. -/
theorem finish_unlinks_pending (fuel tick : Nat) (o o2 : ohci_hcd) (L : List Nat)
    (Q : Nat → Prop) (h : finish_unlinks fuel o tick = some o2) (hl : rm_pending o.sched L)
    (hcl : sched_closed o.sched Q) (hq : ∀ y, y ∈ L → ¬ Q y) :
    ∃ L2, rm_pending o2.sched L2 ∧ (∀ y, y ∈ L2 → y ∈ L) ∧
      (∀ y, y ∉ L ∨ y ∈ L2 → (o2.sched.eds y).state = (o.sched.eds y).state) ∧
      (∀ y, y ∈ L → y ∉ L2 → (o.sched.eds y).state = ED_UNLINK ∧
        ((o2.sched.eds y).state = ED_IDLE ∨ (o2.sched.eds y).state = ED_OPER)) ∧
      ∀ y, (o2.sched.eds y).state = (o.sched.eds y).state ∨
        ((o.sched.eds y).state = ED_UNLINK ∧
          ((o2.sched.eds y).state = ED_IDLE ∨ (o2.sched.eds y).state = ED_OPER)) := by
  obtain ⟨L2, p1, p2, p3, p4⟩ := finish_unlinks_moves fuel tick o o2 L Q hl.1 hcl hq h
  refine ⟨L2, ⟨p1, fun y hy => (p3 y (Or.inr hy)).trans (hl.2 y (p2 y hy))⟩, p2, p3,
    fun y hy hn => ⟨hl.2 y hy, p4 y hy hn⟩, fun y => ?_⟩
  by_cases hy : y ∈ L
  · by_cases hn : y ∈ L2
    · exact Or.inl (p3 y (Or.inr hn))
    · exact Or.inr ⟨hl.2 y hy, p4 y hy hn⟩
  · exact Or.inl (p3 y (Or.inl hy))

/-- The first ED of `ed_rm_list`, when the test at the head of the loop body lets it pass,
leaves `ED_UNLINK` and the list. -/
theorem finish_unlinks_head_pending (fuel tick : Nat) (o o2 : ohci_hcd) (x : Nat)
    (R : List Nat) (Q : Nat → Prop) (h : finish_unlinks fuel o tick = some o2)
    (hl : rm_pending o.sched (x :: R)) (hcl : sched_closed o.sched Q)
    (hq : ∀ y, y ∈ x :: R → ¬ Q y) (hg : (finish_unlinks_gate o tick x).1 = false) :
    (o.sched.eds x).state = ED_UNLINK ∧
    ((o2.sched.eds x).state = ED_IDLE ∨ (o2.sched.eds x).state = ED_OPER) ∧
    ∃ L2, rm_pending o2.sched L2 ∧ x ∉ L2 ∧ ∀ y, y ∈ L2 → y ∈ R := by
  obtain ⟨q1, L2, q2, q3, q4⟩ := finish_unlinks_head fuel tick o o2 x R Q hl.1 hcl hq hg h
  obtain ⟨L3, p1, _, p3, _⟩ := finish_unlinks_pending fuel tick o o2 (x :: R) Q h hl hcl hq
  refine ⟨hl.2 x (List.mem_cons_self _ _), q1, L2, ⟨q2, fun y hy => ?_⟩, q3, q4⟩
  have hy2 : (o2.sched.eds y).state = (o.sched.eds y).state := by
    by_cases hc : y ∈ L3
    · exact p3 y (Or.inr hc)
    · exact absurd (by
        have := ed_path_unique o2.sched L2 L3 _ q2 p1.1
        rw [← this]; exact hy) hc
  exact hy2.trans (hl.2 y (List.mem_cons_of_mem _ (q4 y hy)))


/-! ## The state of an ED: the cycle -/

/-- C23. The state of an ED moves along idle, scheduled, unlink-pending, idle, and in no
other way, for the functions of ohci-q.c and the calls among them.
(1) `ed_get` changes the state of no ED but the block that `ed_alloc` has just returned,
which it leaves in `ED_IDLE`.
(2) `ed_schedule` leaves its ED in `ED_OPER`, `ed_deschedule` and `start_ed_unlink` leave
theirs in `ED_UNLINK`, and none of them changes the state of another ED; `start_ed_unlink`
puts its ED in front of `ed_rm_list`, so that every ED on that list stays in `ED_UNLINK`.
(3) `takeback_td` changes no state and no link, or it calls `start_ed_unlink` for the ED
of its TD, which is then in `ED_OPER` with an empty `td_list`: the only move is from
`ED_OPER` to `ED_UNLINK`, and so it is for `dl_done_list` as a whole.
(4) The body of `finish_unlinks` for one ED sets that ED to `ED_IDLE` and calls
`ed_schedule` only then, on this ED, with a non-empty `td_list` and the controller
running.
(5) With every ED of `ed_rm_list` in `ED_UNLINK`, `finish_unlinks` changes the state of
EDs of that list only, each from `ED_UNLINK` to `ED_IDLE` (and on to `ED_OPER` by the call
of (4)); the EDs left on the list are in `ED_UNLINK` still, and the first ED of the list is
taken off when the test at the head of the loop body lets it pass.
(6) `td_fill`, `td_submit_urb`, `td_done`, `finish_urb`, `dl_reverse_done_list`,
`periodic_link` and `periodic_unlink` change the state of no ED, and what keeps the states
and the software links keeps `ed_rm_list` with its EDs in `ED_UNLINK`. -/
theorem ed_state_machine (fuel : Nat) :
    (∀ o ep speed pipe interval new_ed new_td,
      (ed_get o ep speed pipe interval new_ed new_td).2.hcd.state = o.hcd.state ∧
      (∀ y, ((ed_get o ep speed pipe interval new_ed new_td).2.sched.eds y).state
          = (o.sched.eds y).state ∨
        ((o.hcd.eps ep).hcpriv = none ∧ (∃ dma, new_ed = some (y, dma)) ∧
          ((ed_get o ep speed pipe interval new_ed new_td).2.sched.eds y).state = ED_IDLE)) ∧
      (∀ L, rm_pending o.sched L → (∀ e dma, new_ed = some (e, dma) → e ∉ L) →
        rm_pending (ed_get o ep speed pipe interval new_ed new_td).2.sched L)) ∧
    (∀ s e r, ed_schedule fuel s e = some r →
      (r.2.eds e).state = ED_OPER ∧ ∀ y, y ≠ e → (r.2.eds y).state = (s.eds y).state) ∧
    (∀ s e s2, ed_deschedule fuel s e = some s2 →
      (s2.eds e).state = ED_UNLINK ∧ ∀ y, y ≠ e → (s2.eds y).state = (s.eds y).state) ∧
    (∀ s e s2, start_ed_unlink fuel s e = some s2 →
      (s2.eds e).state = ED_UNLINK ∧ (∀ y, y ≠ e → (s2.eds y).state = (s.eds y).state) ∧
      ∀ L, rm_pending s L → e ∉ L →
        (∀ p, (s.eds e).ed_prev = some p → (s.eds p).ed_next = some e) →
        rm_pending s2 (e :: L)) ∧
    (∀ o t o2, takeback_td fuel o t = some o2 →
      (st_kept o o2 ∧ next_same o o2) ∨
      ∃ o1, st_kept o o1 ∧ next_same o o1 ∧ (o1.sched.eds (o.tds t).ed).td_list = [] ∧
        (o1.sched.eds (o.tds t).ed).state = ED_OPER ∧
        start_ed_unlink fuel o1.sched (o.tds t).ed = some o2.sched ∧
        (o.sched.eds (o.tds t).ed).state = ED_OPER ∧
        (o2.sched.eds (o.tds t).ed).state = ED_UNLINK ∧
        (∀ y, y ≠ (o.tds t).ed → (o2.sched.eds y).state = (o.sched.eds y).state) ∧
        ∀ L, rm_pending o.sched L →
          (∀ p, (o1.sched.eds (o.tds t).ed).ed_prev = some p →
            (o1.sched.eds p).ed_next = some (o.tds t).ed) →
          rm_pending o2.sched ((o.tds t).ed :: L)) ∧
    (∀ o o2, dl_done_list fuel o = some o2 →
      ∀ y, (o2.sched.eds y).state = (o.sched.eds y).state ∨
        ((o.sched.eds y).state = ED_OPER ∧ (o2.sched.eds y).state = ED_UNLINK)) ∧
    (∀ o last x r, finish_unlinks_ed fuel o last x = some r →
      ∃ o4, (o4.sched.eds x).state = ED_IDLE ∧
        (∀ y, y ≠ x → (o4.sched.eds y).state = (o.sched.eds y).state) ∧
        o4.hcd.state = o.hcd.state ∧
        (r.1 = o4 ∨
          ((o4.sched.eds x).td_list ≠ [] ∧ HC_IS_RUNNING o4.hcd.state = true ∧
            ∃ s, ed_schedule fuel o4.sched x = some s ∧ r.1 = { o4 with sched := s.2 } ∧
              (s.2.eds x).state = ED_OPER ∧
              ∀ y, y ≠ x → (s.2.eds y).state = (o.sched.eds y).state))) ∧
    (∀ o tick o2, finish_unlinks fuel o tick = some o2 →
      ∀ y, (o2.sched.eds y).state = (o.sched.eds y).state ∨
        (o2.sched.eds y).state = ED_IDLE ∨ (o2.sched.eds y).state = ED_OPER) ∧
    (∀ o tick o2 L Q, finish_unlinks fuel o tick = some o2 → rm_pending o.sched L →
      sched_closed o.sched Q → (∀ y, y ∈ L → ¬ Q y) →
      ∃ L2, rm_pending o2.sched L2 ∧ (∀ y, y ∈ L2 → y ∈ L) ∧
        (∀ y, y ∉ L ∨ y ∈ L2 → (o2.sched.eds y).state = (o.sched.eds y).state) ∧
        (∀ y, y ∈ L → y ∉ L2 → (o.sched.eds y).state = ED_UNLINK ∧
          ((o2.sched.eds y).state = ED_IDLE ∨ (o2.sched.eds y).state = ED_OPER)) ∧
        ∀ y, (o2.sched.eds y).state = (o.sched.eds y).state ∨
          ((o.sched.eds y).state = ED_UNLINK ∧
            ((o2.sched.eds y).state = ED_IDLE ∨ (o2.sched.eds y).state = ED_OPER))) ∧
    (∀ o tick o2 x R Q, finish_unlinks fuel o tick = some o2 → rm_pending o.sched (x :: R) →
      sched_closed o.sched Q → (∀ y, y ∈ x :: R → ¬ Q y) →
      (finish_unlinks_gate o tick x).1 = false →
      (o.sched.eds x).state = ED_UNLINK ∧
      ((o2.sched.eds x).state = ED_IDLE ∨ (o2.sched.eds x).state = ED_OPER) ∧
      ∃ L2, rm_pending o2.sched L2 ∧ x ∉ L2 ∧ ∀ y, y ∈ L2 → y ∈ R) ∧
    (∀ o info data len u k o2, td_fill o info data len u k = some o2 →
      st_kept o o2 ∧ next_same o o2) ∧
    (∀ o u o2, td_submit_urb o u = some o2 → st_kept o o2 ∧ next_same o o2) ∧
    (∀ o u t, st_kept o (td_done o u t).2 ∧ next_same o (td_done o u t).2) ∧
    (∀ o u st o2, finish_urb fuel o u st = some o2 → st_kept o o2 ∧ next_same o o2) ∧
    (∀ o r, dl_reverse_done_list fuel o = some r → st_kept o r.1 ∧ next_same o r.1) ∧
    (∀ s e s2, periodic_link fuel s e = some s2 → state_same s s2) ∧
    (∀ s e s2, periodic_unlink fuel s e = some s2 → state_same s s2) ∧
    (∀ a b L, st_kept a b → next_same a b → rm_pending a.sched L → rm_pending b.sched L) :=
  ⟨fun o ep speed pipe interval new_ed new_td =>
      ⟨(ed_get_frame o ep speed pipe interval new_ed new_td).1,
        fun y => ed_get_st o ep speed pipe interval new_ed new_td y,
        fun L hl hf => ed_get_pending o ep speed pipe interval new_ed new_td L hl hf⟩,
    fun s e r h => ed_schedule_state fuel s e r h,
    fun s e s2 h => ed_deschedule_state fuel s s2 e h,
    fun s e s2 h => ⟨(start_ed_unlink_state fuel s s2 e h).1,
      (start_ed_unlink_state fuel s s2 e h).2,
      fun L hl he hprev => start_ed_unlink_pending fuel s s2 e L h hl he hprev⟩,
    fun o t o2 h => takeback_td_pending fuel o o2 t h,
    fun o o2 h => dl_done_list_moves fuel o o2 h,
    fun o last x r h => finish_unlinks_ed_st fuel o last x r h,
    fun o tick o2 h => finish_unlinks_st fuel o o2 tick h,
    fun o tick o2 L Q h hl hcl hq => finish_unlinks_pending fuel tick o o2 L Q h hl hcl hq,
    fun o tick o2 x R Q h hl hcl hq hg =>
      finish_unlinks_head_pending fuel tick o o2 x R Q h hl hcl hq hg,
    fun o info data len u k o2 h =>
      ⟨td_fill_st o o2 info data len u k h, td_fill_nx o o2 info data len u k h⟩,
    fun o u o2 h => ⟨td_submit_urb_st o o2 u h, td_submit_urb_nx o o2 u h⟩,
    fun o u t => ⟨st_kept_of_kept _ _ (fun e => td_done_kept o u t e), td_done_ednext o u t⟩,
    fun o u st o2 h => ⟨st_kept_of_kept _ _ (fun e => finish_urb_kept fuel o o2 u st e h),
      finish_urb_ednext fuel o o2 u st h⟩,
    fun o r h => ⟨dl_reverse_done_list_st fuel o r h, dl_reverse_done_list_nx fuel o r h⟩,
    fun s e s2 h => periodic_link_state fuel s s2 e h,
    fun s e s2 h => periodic_unlink_state fuel s s2 e h,
    fun a b L hs hn h => rm_pending_frame a b L hs hn h⟩

theorem sched_closed_empty (s : ohci_sched) (h1 : s.ed_controltail = none)
    (h2 : s.ed_bulktail = none) (h3 : ∀ i, s.periodic i = none) :
    sched_closed s (fun _ => False) :=
  ⟨fun _ ht => absurd (h1 ▸ ht) (by simp), fun _ ht => absurd (h2 ▸ ht) (by simp),
    fun i _ ht => absurd ((h3 i) ▸ ht) (by simp), fun _ _ hx _ => hx⟩

/-- One ED on its way round the cycle.  In `bulk3_done_input` the bulk ED 0 is in
`ED_OPER`; `dl_done_list` retires its last TDs and leaves it in `ED_UNLINK` on
`ed_rm_list` (`bulk3_unlinked`); `finish_unlinks` at frame 0, too early, leaves it there,
and at frame 1 takes it off the list into `ED_IDLE` (`bulk3_idle`); `ed_schedule` brings it
back to `ED_OPER`.  `ed_get` for an endpoint without an ED sets up the block 9 that the
allocator returns, in `ED_IDLE`, and `td_submit_urb` changes no state.  Of the two EDs of
`rm_two`, both in `ED_UNLINK`, `finish_unlinks` at frame 5 takes ED 1 to `ED_IDLE` and
leaves ED 0, due at frame 10, on the list in `ED_UNLINK`. -/
theorem ed_state_machine_witness :
    ((bulk3_done_input.sched.eds 0).state = ED_OPER ∧
      (dl_done_list 4 bulk3_done_input).isSome = true ∧
      ((bulk3_unlinked.sched.eds 0).state, bulk3_unlinked.sched.ed_rm_list)
        = (ED_UNLINK, some 0) ∧
      ((bulk3_unlinked.sched.eds 0).state = (bulk3_done_input.sched.eds 0).state ∨
        ((bulk3_done_input.sched.eds 0).state = ED_OPER ∧
          (bulk3_unlinked.sched.eds 0).state = ED_UNLINK))) ∧
    (rm_pending bulk3_unlinked.sched [0] ∧
      (finish_unlinks 4 bulk3_unlinked 0).map (fun o =>
        ((o.sched.eds 0).state, o.sched.ed_rm_list)) = some (ED_UNLINK, some 0) ∧
      (finish_unlinks 4 bulk3_unlinked 1).isSome = true ∧
      (finish_unlinks_gate bulk3_unlinked 1 0).1 = false ∧
      ((bulk3_idle.sched.eds 0).state, bulk3_idle.sched.ed_rm_list) = (ED_IDLE, none) ∧
      ((bulk3_unlinked.sched.eds 0).state = ED_UNLINK ∧
        ((bulk3_idle.sched.eds 0).state = ED_IDLE ∨ (bulk3_idle.sched.eds 0).state = ED_OPER) ∧
        ∃ L2, rm_pending bulk3_idle.sched L2 ∧ 0 ∉ L2 ∧ ∀ y, y ∈ L2 → y ∈ ([] : List Nat))) ∧
    ((ed_schedule 4 bulk3_idle.sched 0).isSome = true ∧
      (((ed_schedule 4 bulk3_idle.sched 0).getD (0, bulk3_idle.sched)).2.eds 0).state = ED_OPER ∧
      ∀ y, y ≠ 0 → (((ed_schedule 4 bulk3_idle.sched 0).getD (0, bulk3_idle.sched)).2.eds y).state
        = (bulk3_idle.sched.eds y).state) ∧
    ((bulk3.hcd.eps 5).hcpriv = none ∧ (bulk3.sched.eds 9).state = ED_OPER ∧
      (ed_get bulk3 5 .USB_SPEED_FULL 0xC0000000 0 (some (9, 0x2000)) (some (9, 0x300))).1
        = some 9 ∧
      (((ed_get bulk3 5 .USB_SPEED_FULL 0xC0000000 0 (some (9, 0x2000))
          (some (9, 0x300))).2.sched.eds 9).state = ED_IDLE) ∧
      ∀ y, ((ed_get bulk3 5 .USB_SPEED_FULL 0xC0000000 0 (some (9, 0x2000))
            (some (9, 0x300))).2.sched.eds y).state = (bulk3.sched.eds y).state ∨
        ((bulk3.hcd.eps 5).hcpriv = none ∧
          (∃ dma, (some (9, 0x2000) : Option (Nat × Nat)) = some (y, dma)) ∧
          ((ed_get bulk3 5 .USB_SPEED_FULL 0xC0000000 0 (some (9, 0x2000))
            (some (9, 0x300))).2.sched.eds y).state = ED_IDLE)) ∧
    ((td_submit_urb bulk3 0).isSome = true ∧
      st_kept bulk3 ((td_submit_urb bulk3 0).getD bulk3) ∧
      next_same bulk3 ((td_submit_urb bulk3 0).getD bulk3)) ∧
    (rm_pending rm_two.sched [0, 1] ∧
      (finish_unlinks 4 rm_two 5).map (fun o =>
        (o.sched.ed_rm_list, (o.sched.eds 0).state, (o.sched.eds 1).state))
        = some (some 0, ED_UNLINK, ED_IDLE) ∧
      ∃ L2, rm_pending ((finish_unlinks 4 rm_two 5).getD rm_two).sched L2 ∧
        (∀ y, y ∈ L2 → y ∈ [0, 1]) ∧
        (∀ y, y ∉ [0, 1] ∨ y ∈ L2 →
          (((finish_unlinks 4 rm_two 5).getD rm_two).sched.eds y).state
            = (rm_two.sched.eds y).state) ∧
        (∀ y, y ∈ [0, 1] → y ∉ L2 → (rm_two.sched.eds y).state = ED_UNLINK ∧
          ((((finish_unlinks 4 rm_two 5).getD rm_two).sched.eds y).state = ED_IDLE ∨
            (((finish_unlinks 4 rm_two 5).getD rm_two).sched.eds y).state = ED_OPER)) ∧
        ∀ y, (((finish_unlinks 4 rm_two 5).getD rm_two).sched.eds y).state
            = (rm_two.sched.eds y).state ∨
          ((rm_two.sched.eds y).state = ED_UNLINK ∧
            ((((finish_unlinks 4 rm_two 5).getD rm_two).sched.eds y).state = ED_IDLE ∨
              (((finish_unlinks 4 rm_two 5).getD rm_two).sched.eds y).state = ED_OPER))) :=
  ⟨⟨by decide, by decide, by decide,
      (ed_state_machine 4).2.2.2.2.2.1 bulk3_done_input bulk3_unlinked
        (option_eq_some_getD _ _ (by decide)) 0⟩,
    ⟨⟨⟨rfl, rfl⟩, fun y hy => by rw [List.mem_singleton.1 hy]; decide⟩,
      by decide, by decide, by decide, by decide,
      (ed_state_machine 4).2.2.2.2.2.2.2.2.2.1 bulk3_unlinked 1 bulk3_idle 0 [] (fun _ => False)
        (option_eq_some_getD _ _ (by decide))
        ⟨⟨rfl, rfl⟩, fun y hy => by rw [List.mem_singleton.1 hy]; decide⟩
        (sched_closed_empty _ (by decide) (by decide) (fun _ => rfl))
        (fun _ _ hf => hf) (by decide)⟩,
    ⟨by decide,
      (ed_state_machine 4).2.1 bulk3_idle.sched 0 _ (option_eq_some_getD _ _ (by decide))⟩,
    ⟨by decide, by decide, by decide, by decide,
      ((ed_state_machine 4).1 bulk3 5 .USB_SPEED_FULL 0xC0000000 0 (some (9, 0x2000))
        (some (9, 0x300))).2.1⟩,
    ⟨by decide,
      (ed_state_machine 4).2.2.2.2.2.2.2.2.2.2.2.1 bulk3 0 _
        (option_eq_some_getD _ _ (by decide))⟩,
    ⟨⟨⟨rfl, rfl, rfl⟩, fun _ _ => rfl⟩, by decide,
      (ed_state_machine 4).2.2.2.2.2.2.2.2.1 rm_two 5 _ [0, 1] (fun _ => False)
        (option_eq_some_getD _ _ (by decide)) ⟨⟨rfl, rfl, rfl⟩, fun _ _ => rfl⟩
        (sched_closed_empty _ rfl rfl (fun _ => rfl)) (fun _ _ hf => hf)⟩⟩

end Usb
